import Mathlib

/-!
External sort of `src/storage/external_sort.c`.

A shallow embedding of the external sort module: the slotted-page codec, the
in-memory natural-run sort, the flushing of a run, the ledgers of the runs, the
merge phase with duplicate elimination, the input phase and the driver
`sort_listfile`, with the properties proved about them.

Conventions of the embedding.

* `INT16` fields are integers; every assignment to an `INT16` variable goes
  through `INT16`, the two's-complement wrap to 16 bits.
* A page is the header, the slot directory indexed by slot id (slot `i` lives at
  `DB_PAGESIZE - (i + 1) * sizeof (SLOT)` in the C page) and the byte contents of
  the page indexed by byte offset.
* `sizeof (SLOTTED_PAGE_HEADER) = 16` (eight `INT16`) and `sizeof (SLOT) = 6`
  (three `INT16`), read off the struct declarations.
* `int` variables are integers; where the C code can overflow, or reads or writes
  outside an array, a function returns `none` (or stops as `undefined`).
* Loops of the merge phase and of the input phase are bounded by a `fuel`
  argument; a function that runs out of it says so in its result.
* The calls of the sort to its surroundings (producer, consumer, file and memory
  services) are functions of what happened before; the input phase keeps the
  list of these events.
-/

namespace ExternalSort

/-! ## Slotted page: data model -/

/-- A byte of a page or of a record. -/
abbrev Byte := Nat

/-- Two's-complement wrap of an integer to the range of `INT16`. -/
def INT16 (x : Int) : Int := (x + 32768) % 65536 - 32768

/-- The value of `sizeof (SLOTTED_PAGE_HEADER)`: eight `INT16` fields. -/
def SIZEOF_SLOTTED_PAGE_HEADER : Int := 16

/-- The value of `sizeof (SLOT)`: three `INT16` fields. -/
def SIZEOF_SLOT : Int := 6

/-- Modelled from the spec: the host constants that `external_sort.c` takes from
headers outside the excerpt, `DB_PAGESIZE` (the page size in bytes) and
`NULL_OFFSET` (the offset sentinel of a slot without a record). -/
structure PageEnv where
  DB_PAGESIZE : Int
  NULL_OFFSET : Int

/-- The host constants are usable: a page holds the header and one slot, every
page offset fits an `INT16`, and the sentinel is not a page offset. -/
def PageEnv.Valid (env : PageEnv) : Prop :=
  SIZEOF_SLOTTED_PAGE_HEADER + SIZEOF_SLOT ≤ env.DB_PAGESIZE ∧ env.DB_PAGESIZE ≤ 32767 ∧
    env.NULL_OFFSET < 0

/-- Modelled from the spec: the macro `DB_ALIGN (offset, align)` is not in the
excerpt; the spec has it round `offset` up to a multiple of `align`. -/
def DB_ALIGN (offset align : Int) : Int := ((offset + align - 1) / align) * align

/-- Modelled from the spec: the macro `DB_WASTED_ALIGN (offset, align)`, the
rounding difference of `DB_ALIGN`. -/
def DB_WASTED_ALIGN (offset align : Int) : Int := DB_ALIGN offset align - offset

/-- Modelled from the spec: the record types of a slot (section 3 of the spec);
the C enumeration is declared outside the excerpt. -/
inductive RecType where
  | REC_HOME
  | REC_BIGONE
  | REC_DELETED_WILL_REUSE
  | REC_MARKDELETED
  | REC_RELOCATION
  | REC_NEWHOME
  | REC_ASSIGN_ADDRESS
  deriving DecidableEq, Repr

/-- The C `struct slot`. -/
structure SLOT where
  roffset : Int
  rlength : Int
  rtype : RecType
  deriving DecidableEq, Repr

/-- The C `struct slotted_pheader`. -/
structure SLOTTED_PAGE_HEADER where
  nslots : Int
  nrecs : Int
  anchor_flag : Int
  alignment : Int
  waste_align : Int
  tfree : Int
  cfree : Int
  foffset : Int
  deriving DecidableEq, Repr

/-- A page buffer: header, slot directory by slot id, bytes by page offset. -/
structure Page where
  hdr : SLOTTED_PAGE_HEADER
  slots : Nat → SLOT
  bytes : Int → Byte

/-- The C `RECDES`: `data` is the content of the area that `data` points to. -/
structure RECDES where
  area_size : Int
  length : Int
  type : RecType
  data : List Byte
  deriving DecidableEq, Repr

/-- The C `SCAN_CODE` values returned by `sort_spage_get_record`. -/
inductive SCAN_CODE where
  | S_SUCCESS
  | S_DOESNT_FIT
  | S_DOESNT_EXIST
  deriving DecidableEq, Repr

/-- The effect of `memcpy (pgptr + off, data, len)` on the bytes of a page. -/
def memcpy_to_page (bytes : Int → Byte) (off : Int) (data : List Byte) (len : Int) :
    Int → Byte :=
  fun i => if off ≤ i ∧ i < off + len then data.getD (i - off).toNat 0 else bytes i

/-- The effect of `memmove (pgptr + dst, pgptr + src, len)` on the bytes of a page. -/
def memmove_in_page (bytes : Int → Byte) (dst src len : Int) : Int → Byte :=
  fun i => if dst ≤ i ∧ i < dst + len then bytes (src + (i - dst)) else bytes i

/-- The `len` bytes of a page that start at offset `off`. -/
def read_bytes (bytes : Int → Byte) (off : Int) (len : Int) : List Byte :=
  (List.range len.toNat).map (fun (k : Nat) => bytes (off + (k : Int)))

/-- Replace entry `i` of the slot directory. -/
def set_slot (slots : Nat → SLOT) (i : Nat) (s : SLOT) : Nat → SLOT :=
  fun j => if j = i then s else slots j

/-! ## Slotted page: operations -/

/-- The C `sort_spage_initialize`. -/
def sort_spage_initialize (env : PageEnv) (pg : Page) (slots_type alignment : Int) : Page :=
  let tfree := INT16 (env.DB_PAGESIZE - SIZEOF_SLOTTED_PAGE_HEADER)
  let cfree := tfree
  let foffset := INT16 SIZEOF_SLOTTED_PAGE_HEADER
  let alignment := INT16 alignment
  let waste_align := INT16 (DB_WASTED_ALIGN foffset alignment)
  let hdr : SLOTTED_PAGE_HEADER :=
    { nslots := 0, nrecs := 0, anchor_flag := INT16 slots_type, alignment := alignment,
      waste_align := waste_align, tfree := tfree, cfree := cfree, foffset := foffset }
  if waste_align ≠ 0 then
    { pg with hdr := { hdr with foffset := INT16 (foffset + waste_align),
                                cfree := INT16 (cfree - waste_align),
                                tfree := INT16 (tfree - waste_align) } }
  else
    { pg with hdr := hdr }

/-- The C `sort_spage_get_numrecs`. -/
def sort_spage_get_numrecs (pg : Page) : Int := pg.hdr.nrecs

/-- The C `sort_spage_offsetcmp`, on two slots. -/
def sort_spage_offsetcmp (s1 s2 : SLOT) : Int :=
  if s1.roffset < s2.roffset then -1 else if s1.roffset = s2.roffset then 0 else 1

/-- The C library `qsort` as `sort_spage_compact` calls it, on the array of the
live slot ids with `sort_spage_offsetcmp`: the result is some rearrangement of the
array in ascending order of `roffset`; which one, among slots of equal offset, is
left open, as in the C standard. -/
structure Qsort where
  sort : (Nat → Int) → List Nat → List Nat
  perm : ∀ (key : Nat → Int) (l : List Nat), (sort key l).Perm l
  sorted : ∀ (key : Nat → Int) (l : List Nat),
    (sort key l).Pairwise (fun a b => key a ≤ key b)

/-- The state of the record-moving loop of `sort_spage_compact`. -/
structure CompactState where
  slots : Nat → SLOT
  bytes : Int → Byte
  to_offset : Int

/-- The loop `for (i = 0; i < sphdr->nrecs; i++)` of `sort_spage_compact` over the
sorted array `sortptr`. -/
def sort_spage_compact_loop (alignment : Int) : List Nat → CompactState → CompactState
  | [], st => st
  | i :: rest, st =>
    let to_offset := INT16 (DB_ALIGN st.to_offset alignment)
    let s := st.slots i
    if to_offset = s.roffset then
      sort_spage_compact_loop alignment rest
        { st with to_offset := INT16 (to_offset + s.rlength) }
    else
      sort_spage_compact_loop alignment rest
        { slots := set_slot st.slots i { s with roffset := to_offset },
          bytes := memmove_in_page st.bytes to_offset s.roffset s.rlength,
          to_offset := INT16 (to_offset + s.rlength) }

/-- The slot ids that `sort_spage_compact` gathers: the slots below `nslots` whose
offset is not `NULL_OFFSET`, in slot order. -/
def live_slots (env : PageEnv) (pg : Page) : List Nat :=
  (List.range pg.hdr.nslots.toNat).filter (fun i => (pg.slots i).roffset ≠ env.NULL_OFFSET)

/-- The C `sort_spage_compact`. `calloc_ok` is the outcome of the `calloc` call.
The result is `none` where the C code has undefined behaviour: the number of
gathered slots differs from `nrecs`, the size of the array. Otherwise it is the
error flag (`true` for `NO_ERROR`) and the page. -/
def sort_spage_compact (env : PageEnv) (qs : Qsort) (calloc_ok : Bool) (pg : Page) :
    Option (Bool × Page) :=
  if !calloc_ok then some (false, pg)
  else
    let sortptr := live_slots env pg
    if (sortptr.length : Int) ≠ pg.hdr.nrecs then none
    else
      let sorted := qs.sort (fun i => (pg.slots i).roffset) sortptr
      let st := sort_spage_compact_loop pg.hdr.alignment sorted
        { slots := pg.slots, bytes := pg.bytes,
          to_offset := INT16 SIZEOF_SLOTTED_PAGE_HEADER }
      let to_offset := INT16 (DB_ALIGN st.to_offset pg.hdr.alignment)
      let free := INT16 (env.DB_PAGESIZE - to_offset - pg.hdr.nslots * SIZEOF_SLOT)
      some (true,
        { hdr := { pg.hdr with cfree := free, tfree := free, foffset := to_offset },
          slots := st.slots, bytes := st.bytes })

/-- The search loop of `sort_spage_find_free` for a slot of type
`REC_DELETED_WILL_REUSE`, started at `slotid`; `fuel` bounds the iterations by the
number of slots left. -/
def find_reusable_slot (pg : Page) : Nat → Nat → Nat
  | 0, slotid => slotid
  | fuel + 1, slotid =>
    if (slotid : Int) < pg.hdr.nslots ∧
        (pg.slots slotid).rtype ≠ RecType.REC_DELETED_WILL_REUSE then
      find_reusable_slot pg fuel (slotid + 1)
    else slotid

/-- What `sort_spage_find_free` hands back: the page, the returned slot id (`none`
for `NULL_SLOTID`), and the out-parameter `*space`. The out-parameter `*sptr` is
the slot of the returned id. -/
structure FindFree where
  page : Page
  slotid : Option Int
  space : Int

/-- The tail of `sort_spage_find_free` that separates the area for the record and
adjusts the header. -/
def sort_spage_find_free_take (pg : Page) (slotid : Nat) (length : Int) (type : RecType)
    (waste space : Int) : FindFree :=
  let h := pg.hdr
  { page :=
      { hdr := { h with nrecs := INT16 (h.nrecs + 1),
                        tfree := INT16 (h.tfree - space),
                        cfree := INT16 (h.cfree - space),
                        foffset := INT16 (h.foffset + (length + waste)),
                        waste_align := INT16 (h.waste_align + waste) },
        slots := set_slot pg.slots slotid
          { roffset := h.foffset, rlength := length, rtype := type },
        bytes := pg.bytes },
    slotid := some slotid,
    space := space }

/-- The C `sort_spage_find_free`; `none` is the undefined behaviour of a
compaction it runs. -/
def sort_spage_find_free (env : PageEnv) (qs : Qsort) (calloc_ok : Bool) (pg : Page)
    (length : Int) (type : RecType) : Option FindFree :=
  let waste := INT16 (DB_WASTED_ALIGN length pg.hdr.alignment)
  let space := INT16 (length + waste)
  if space > pg.hdr.tfree then some { page := pg, slotid := none, space := 0 }
  else
    let slotid : Nat :=
      if pg.hdr.nslots = pg.hdr.nrecs then pg.hdr.nslots.toNat
      else find_reusable_slot pg pg.hdr.nslots.toNat 0
    if (slotid : Int) ≥ pg.hdr.nslots then
      let space := INT16 (space + SIZEOF_SLOT)
      if space > pg.hdr.tfree then some { page := pg, slotid := none, space := 0 }
      else if space > pg.hdr.cfree then
        match sort_spage_compact env qs calloc_ok pg with
        | none => none
        | some (false, pg1) => some { page := pg1, slotid := none, space := 0 }
        | some (true, pg1) =>
          let pg2 := { pg1 with hdr := { pg1.hdr with nslots := INT16 (pg1.hdr.nslots + 1) } }
          some (sort_spage_find_free_take pg2 slotid length type waste space)
      else
        let pg2 := { pg with hdr := { pg.hdr with nslots := INT16 (pg.hdr.nslots + 1) } }
        some (sort_spage_find_free_take pg2 slotid length type waste space)
    else
      if space > pg.hdr.cfree then
        match sort_spage_compact env qs calloc_ok pg with
        | none => none
        | some (false, pg1) => some { page := pg1, slotid := none, space := 0 }
        | some (true, pg1) =>
          some (sort_spage_find_free_take pg1 slotid length type waste space)
      else
        some (sort_spage_find_free_take pg slotid length type waste space)

/-- The value of the macro `SORT_MAXREC_LENGTH`. -/
def SORT_MAXREC_LENGTH (env : PageEnv) : Int :=
  env.DB_PAGESIZE - SIZEOF_SLOTTED_PAGE_HEADER - SIZEOF_SLOT

/-- The C `sort_spage_insert`: the page afterwards and the returned slot id
(`none` for `NULL_SLOTID`); the outer `none` is undefined behaviour. -/
def sort_spage_insert (env : PageEnv) (qs : Qsort) (calloc_ok : Bool) (pg : Page)
    (recdes : RECDES) : Option (Page × Option Int) :=
  if recdes.length > SORT_MAXREC_LENGTH env then some (pg, none)
  else
    let type :=
      if recdes.type = RecType.REC_MARKDELETED ∨ recdes.type = RecType.REC_DELETED_WILL_REUSE
      then RecType.REC_HOME else recdes.type
    match sort_spage_find_free env qs calloc_ok pg (INT16 recdes.length) type with
    | none => none
    | some r =>
      match r.slotid with
      | none => some (r.page, none)
      | some slotid =>
        let sptr := r.page.slots slotid.toNat
        some ({ r.page with
                bytes := memcpy_to_page r.page.bytes sptr.roffset recdes.data recdes.length },
              some slotid)

/-- The two values of the argument `peek_p` of `sort_spage_get_record`. -/
inductive PeekMode where
  | PEEK
  | COPY
  deriving DecidableEq, Repr

/-- The C `sort_spage_get_record`: the scan code and the record descriptor
afterwards. In `PEEK` mode `data` becomes the view of the record in the page. -/
def sort_spage_get_record (env : PageEnv) (pg : Page) (slotid : Int) (recdes : RECDES)
    (peek_p : PeekMode) : SCAN_CODE × RECDES :=
  let sptr := pg.slots slotid.toNat
  if slotid < 0 ∨ slotid ≥ pg.hdr.nslots ∨ sptr.roffset = env.NULL_OFFSET then
    (SCAN_CODE.S_DOESNT_EXIST, { recdes with length := 0 })
  else
    match peek_p with
    | PeekMode.PEEK =>
      (SCAN_CODE.S_SUCCESS,
        { area_size := -1, data := read_bytes pg.bytes sptr.roffset sptr.rlength,
          length := sptr.rlength, type := sptr.rtype })
    | PeekMode.COPY =>
      if sptr.rlength > recdes.area_size then
        (SCAN_CODE.S_DOESNT_FIT, { recdes with length := -sptr.rlength })
      else
        (SCAN_CODE.S_SUCCESS,
          { recdes with
            data := read_bytes pg.bytes sptr.roffset sptr.rlength ++
              recdes.data.drop sptr.rlength.toNat,
            length := sptr.rlength, type := sptr.rtype })

/-- A record descriptor handed to `sort_spage_insert` is well formed when its
`length` is the number of bytes of its data. -/
def RECDES.WF (r : RECDES) : Prop := r.length = (r.data.length : Int)

/-- The alignments the slotted page is used with (char, short, int, long, float,
double of the spec: 1, 2, 4, 8, 4, 8). -/
def ValidAlignment (a : Int) : Prop := a = 1 ∨ a = 2 ∨ a = 4 ∨ a = 8

instance (a : Int) : Decidable (ValidAlignment a) := by
  unfold ValidAlignment; infer_instance

instance (r : RECDES) : Decidable r.WF := by
  unfold RECDES.WF; infer_instance

instance (env : PageEnv) : Decidable env.Valid := by
  unfold PageEnv.Valid; infer_instance

/-- Insert the records of a list one after the other, each insertion with its own
`calloc` outcome; `none` as soon as one of them is refused (or undefined). -/
def insert_records (env : PageEnv) (qs : Qsort) (pg : Page) :
    List (Bool × RECDES) → Option Page
  | [] => some pg
  | (ok, r) :: rest =>
    match sort_spage_insert env qs ok pg r with
    | some (pg1, some _) => insert_records env qs pg1 rest
    | _ => none

/-- One call on a page: an insertion or a compaction, with its `calloc` outcome. -/
inductive PageCall where
  | insert (calloc_ok : Bool) (recdes : RECDES)
  | compact (calloc_ok : Bool)

/-- The calls that may be made on a page: an inserted descriptor is well formed. -/
def PageCall.WF : PageCall → Prop
  | PageCall.insert _ r => r.WF
  | PageCall.compact _ => True

/-- The page after a call and whether the call succeeded (a slot id, or
`NO_ERROR`); `none` where the C code has undefined behaviour. -/
def PageCall.run (env : PageEnv) (qs : Qsort) (pg : Page) : PageCall → Option (Bool × Page)
  | PageCall.insert ok r =>
    match sort_spage_insert env qs ok pg r with
    | none => none
    | some (pg1, sid) => some (sid.isSome, pg1)
  | PageCall.compact ok => sort_spage_compact env qs ok pg

/-- The pages reachable from `sort_spage_initialize` with alignment `a` by
`sort_spage_insert` and `sort_spage_compact` calls; with `only_ok` set, by the
successful calls only. -/
inductive Reachable (env : PageEnv) (qs : Qsort) (a : Int) (only_ok : Bool) : Page → Prop
  | init (pg0 : Page) (slots_type : Int) :
      Reachable env qs a only_ok ( sort_spage_initialize env pg0 slots_type a)
  | call (pg : Page) (c : PageCall) (ok : Bool) (pg1 : Page) :
      Reachable env qs a only_ok pg → c.WF → c.run env qs pg = some (ok, pg1) →
      (only_ok = true → ok = true) → Reachable env qs a only_ok pg1

/-- Insertion sort by key: one admissible behaviour of `qsort`. -/
def insertion_qsort : Qsort where
  sort key l := l.insertionSort (fun a b => key a ≤ key b)
  perm key l := List.perm_insertionSort _ l
  sorted key l := by
    haveI : IsTotal Nat (fun a b => key a ≤ key b) := ⟨fun a b => le_total (key a) (key b)⟩
    haveI : IsTrans Nat (fun a b => key a ≤ key b) := ⟨fun _ _ _ h1 h2 => le_trans h1 h2⟩
    exact List.sorted_insertionSort (fun a b : Nat => key a ≤ key b) l

/-- A page buffer before initialisation, all zero. -/
def blank_page : Page :=
  { hdr := { nslots := 0, nrecs := 0, anchor_flag := 0, alignment := 0, waste_align := 0,
             tfree := 0, cfree := 0, foffset := 0 },
    slots := fun _ => { roffset := 0, rlength := 0, rtype := RecType.REC_HOME },
    bytes := fun _ => 0 }

/-- A host with 16 KiB pages and `NULL_OFFSET = -1`. -/
def env16k : PageEnv := { DB_PAGESIZE := 16384, NULL_OFFSET := -1 }

/-- The space a record of length `len` takes in the record area: its length and
the padding to the alignment. -/
def padded (a len : Int) : Int := len + DB_WASTED_ALIGN len a

/-- The records of non-zero length lie one after the other, in the order of the
list, from offset `c` up to the free-area offset `f`. -/
def LayoutZ (slots : Nat → SLOT) (a f : Int) : Int → List Nat → Prop
  | c, [] => c = f
  | c, s :: r =>
    if (slots s).rlength = 0 then LayoutZ slots a f c r
    else (slots s).roffset = c ∧ LayoutZ slots a f (c + padded a (slots s).rlength) r

/-- The invariant of the pages built by `sort_spage_initialize`,
`sort_spage_insert` and `sort_spage_compact`. -/
structure PageInv (env : PageEnv) (a : Int) (pg : Page) : Prop where
  align : pg.hdr.alignment = a
  nslots_nonneg : 0 ≤ pg.hdr.nslots
  nrecs : pg.hdr.nrecs = pg.hdr.nslots
  cfree : pg.hdr.cfree = pg.hdr.tfree
  tfree : pg.hdr.tfree = env.DB_PAGESIZE - pg.hdr.foffset - pg.hdr.nslots * SIZEOF_SLOT
  tfree_nonneg : 0 ≤ pg.hdr.tfree
  foffset_ge : SIZEOF_SLOTTED_PAGE_HEADER ≤ pg.hdr.foffset
  foffset_al : pg.hdr.foffset % a = 0
  slot : ∀ i : Nat, (i : Int) < pg.hdr.nslots →
    0 ≤ (pg.slots i).rlength ∧ SIZEOF_SLOTTED_PAGE_HEADER ≤ (pg.slots i).roffset ∧
    (pg.slots i).roffset % a = 0 ∧
    (pg.slots i).roffset + (pg.slots i).rlength ≤ pg.hdr.foffset
  layout : ∃ σ : List Nat, σ.Perm (List.range pg.hdr.nslots.toNat) ∧
    LayoutZ pg.slots a pg.hdr.foffset SIZEOF_SLOTTED_PAGE_HEADER σ

/-- The header after a successful insertion of a record of length `len`. -/
def hdr_after_insert (a : Int) (h : SLOTTED_PAGE_HEADER) (len : Int) : SLOTTED_PAGE_HEADER :=
  { h with nslots := h.nslots + 1, nrecs := h.nrecs + 1,
           tfree := h.tfree - (padded a len + SIZEOF_SLOT),
           cfree := h.cfree - (padded a len + SIZEOF_SLOT),
           foffset := h.foffset + padded a len,
           waste_align := INT16 (h.waste_align + (padded a len - len)) }

/-- The record type that `sort_spage_insert` stores for a descriptor. -/
def stored_type (t : RecType) : RecType :=
  if t = RecType.REC_MARKDELETED ∨ t = RecType.REC_DELETED_WILL_REUSE then RecType.REC_HOME
  else t

/-- A one-byte record. -/
def rec_one_byte : RECDES :=
  { area_size := 1, length := 1, type := RecType.REC_HOME, data := [7] }

/-- A three-byte record. -/
def rec_three_bytes : RECDES :=
  { area_size := 3, length := 3, type := RecType.REC_BIGONE, data := [1, 2, 3] }

/-- A caller's buffer of four bytes. -/
def buf_four_bytes : RECDES :=
  { area_size := 4, length := 0, type := RecType.REC_HOME, data := [0, 0, 0, 0] }

/-- A freshly initialised 16 KiB page with the alignment of the sort (8). -/
def fresh_page : Page := sort_spage_initialize env16k blank_page 0 8

/-- The page `fresh_page` after the insertion of `rec_one_byte`, written out. -/
def page_one_byte : Page :=
  { hdr := hdr_after_insert 8 fresh_page.hdr rec_one_byte.length,
    slots := set_slot fresh_page.slots fresh_page.hdr.nslots.toNat
      { roffset := fresh_page.hdr.foffset, rlength := rec_one_byte.length,
        rtype := stored_type rec_one_byte.type },
    bytes := memcpy_to_page fresh_page.bytes fresh_page.hdr.foffset rec_one_byte.data
      rec_one_byte.length }

/-- The page `fresh_page` after the insertion of two records, of one and of three
bytes. -/
def page_two_records : Page :=
  (insert_records env16k insertion_qsort fresh_page
    [(true, rec_one_byte), (false, rec_three_bytes)]).getD blank_page

/-! ## In-memory sort: data model and operations -/

/-- The C `SORT_DUP_OPTION`. -/
inductive SORT_DUP_OPTION where
  | SORT_ELIM_DUP
  | SORT_DUP
  deriving DecidableEq, Repr

/-- The two pointer buffers of the in-memory sort: `'L'` is `otherbase`, `'H'` is
`base` (the field `low_high` of `SRUN`). -/
inductive Side where
  | L
  | H
  deriving DecidableEq, Repr

/-- The C `struct srun`. -/
structure SRUN where
  low_high : Side
  tree_depth : Nat
  start : Int
  stop : Int
  deriving DecidableEq, Repr

/-- The memory the in-memory sort works on: the pointer buffer `high` (`*base`,
`src`), the pointer buffer `low` (`otherbase`, `dest`), both indexed by cell, a
cell holding a record (its number) or `NULL`, and the field `next` of every
record. -/
structure SortMem where
  high : Int → Option Nat
  low : Int → Option Nat
  next : Nat → Option Nat

/-- The cell `i` of the buffer on side `s`. -/
def SortMem.get (m : SortMem) (s : Side) (i : Int) : Option Nat :=
  match s with
  | Side.L => m.low i
  | Side.H => m.high i

/-- Store `v` into the cell `i` of the buffer on side `s`. -/
def SortMem.set (m : SortMem) (s : Side) (i : Int) (v : Option Nat) : SortMem :=
  match s with
  | Side.L => { m with low := fun j => if j = i then v else m.low j }
  | Side.H => { m with high := fun j => if j = i then v else m.high j }

/-- The comparator called on two cells; `none` when a cell is `NULL`, which the
comparator would dereference. -/
def compare_cells (compare : Nat → Nat → Int) (a b : Option Nat) : Option Int :=
  match a, b with
  | some x, some y => some (compare x y)
  | _, _ => none

/-- The loop of `sort_run_flip`. -/
def sort_run_flip_loop (s : Side) : Nat → SortMem → Int → Int → SortMem
  | 0, m, _, _ => m
  | fuel + 1, m, start, stop =>
    if start < stop then
      let temp := m.get s start
      let m1 := m.set s start (m.get s stop)
      let m2 := m1.set s stop temp
      sort_run_flip_loop s fuel m2 (start + 1) (stop - 1)
    else m

/-- The C `sort_run_flip`, on the buffer of side `s`. -/
def sort_run_flip (s : Side) (m : SortMem) (start stop : Int) : SortMem :=
  sort_run_flip_loop s (stop - start).toNat m start stop

/-- The loop `while (list->next) list = list->next` of `sort_append`; `none` when
`fuel` links did not reach the end of the list. -/
def sort_append_last (next : Nat → Option Nat) : Nat → Nat → Option Nat
  | 0, list => if next list = none then some list else none
  | fuel + 1, list =>
    match next list with
    | none => some list
    | some n => sort_append_last next fuel n

/-- The C `sort_append` on the cells `pk0` and `pk1`; `none` when `*pk1` is `NULL`
or its list does not end within `fuel` links. -/
def sort_append (fuel : Nat) (m : SortMem) (pk0 pk1 : Option Nat) : Option SortMem :=
  match pk1 with
  | none => none
  | some list =>
    match sort_append_last m.next fuel list with
    | none => none
    | some last => some { m with next := fun j => if j = last then pk0 else m.next j }

/-- The macro `SORT_CHECK_DUPLICATE (a, b)` on the cells `a` and `b` of the source
buffer, after a comparison that returned `cmp`: the memory and `dup_num`. -/
def SORT_CHECK_DUPLICATE (fuel : Nat) (option : SORT_DUP_OPTION) (cmp : Int)
    (m : SortMem) (dup_num : Int) (a b : Int) : Option (SortMem × Int) :=
  if cmp = 0 then
    match (if option = SORT_DUP_OPTION.SORT_DUP then
        sort_append fuel m (m.high a) (m.high b) else some m) with
    | none => none
    | some m1 => some (m1.set Side.H a none, dup_num + 1)
  else some (m, dup_num)

/-- The state of the scanning loops of `sort_run_find`. -/
structure ScanState where
  mem : SortMem
  stop : Int
  dup_num : Int

/-- The two scanning loops of `sort_run_find`, `while (next_stop < limit_p &&
(cmp = compare (stop, next_stop)) >= 0)` for a non-increasing run and `<= 0` for
an increasing one; `next_stop` is `stop + 1` throughout. -/
def sort_run_find_scan (compare : Nat → Nat → Int) (fuel : Nat) (option : SORT_DUP_OPTION)
    (limit : Int) (increasing : Bool) : Nat → ScanState → Option ScanState
  | 0, st => some st
  | n + 1, st =>
    if st.stop + 1 < limit then
      match compare_cells compare (st.mem.high st.stop) (st.mem.high (st.stop + 1)) with
      | none => none
      | some cmp =>
        if (if increasing then cmp ≤ 0 else cmp ≥ 0) then
          match SORT_CHECK_DUPLICATE fuel option cmp st.mem st.dup_num st.stop (st.stop + 1) with
          | none => none
          | some (m1, d1) =>
            sort_run_find_scan compare fuel option limit increasing n
              { mem := m1, stop := st.stop + 1, dup_num := d1 }
        else some st
    else some st

/-- The inner loop of the duplicate elimination of `sort_run_find`: look downwards
from `non_dup` for a cell that is not `NULL` and move it to the cell `dup`. -/
def sort_run_find_fill (start dup : Int) : Nat → SortMem → Int → SortMem × Int
  | 0, m, non_dup => (m, non_dup)
  | n + 1, m, non_dup =>
    if non_dup ≥ start then
      if m.high non_dup ≠ none then
        (((m.set Side.H dup (m.high non_dup)).set Side.H non_dup none), non_dup)
      else sort_run_find_fill start dup n m (non_dup - 1)
    else (m, non_dup)

/-- The outer loop of the duplicate elimination of `sort_run_find`
(`for (non_dup = dup - 1; non_dup >= start; dup--, non_dup--)`). -/
def sort_run_find_shift (start : Int) : Nat → SortMem → Int → Int → SortMem
  | 0, m, _, _ => m
  | n + 1, m, dup, non_dup =>
    if non_dup ≥ start then
      if m.high dup = none then
        let r := sort_run_find_fill start dup (non_dup - start + 1).toNat m non_dup
        sort_run_find_shift start n r.1 (dup - 1) (r.2 - 1)
      else sort_run_find_shift start n m (dup - 1) (non_dup - 1)
    else m

/-- The state of `sort_run_sort` between the calls it makes: the memory, the
stack of runs (the head is `srun[top]`), and the cursor `src_top`. -/
structure SortState where
  mem : SortMem
  stack : List SRUN
  top : Int

/-- The C `sort_run_find` on the source buffer `'H'`. -/
def sort_run_find (compare : Nat → Nat → Int) (fuel : Nat) (option : SORT_DUP_OPTION)
    (limit : Int) (s : SortState) : Option SortState :=
  if s.top ≥ limit - 1 then
    some { mem := s.mem,
           stack := { low_high := Side.H, tree_depth := 1, start := s.top, stop := limit - 1 } ::
             s.stack,
           top := limit }
  else
    let start := s.top
    let stop := start + 1
    match compare_cells compare (s.mem.high start) (s.mem.high stop) with
    | none => none
    | some cmp =>
      let increasing : Bool := ¬ (cmp > 0)
      match (if cmp > 0 then some (s.mem, (0 : Int))
             else SORT_CHECK_DUPLICATE fuel option cmp s.mem 0 start stop) with
      | none => none
      | some (m0, d0) =>
        match sort_run_find_scan compare fuel option limit increasing (limit - stop).toNat
            { mem := m0, stop := stop, dup_num := d0 } with
        | none => none
        | some sc =>
          let m1 := if sc.dup_num ≠ 0 then
              sort_run_find_shift start (sc.stop - start).toNat sc.mem (sc.stop - 1) (sc.stop - 2)
            else sc.mem
          let m2 := if increasing ≠ true then
              sort_run_flip Side.H m1 (start + sc.dup_num) sc.stop
            else m1
          let top1 := s.top + (sc.stop - start)
          some { mem := m2,
                 stack := { low_high := Side.H, tree_depth := 1, start := s.top + sc.dup_num,
                            stop := top1 } :: s.stack,
                 top := top1 + 1 }

/-- The copy loops of `sort_run_merge`, `while (left_stop >= left_start)
*dest_ptr-- = *left_stop--`, from side `from_side` to side `to_side`. -/
def sort_run_merge_copy (from_side to_side : Side) (src_start : Int) :
    Nat → SortMem → Int → Int → SortMem × Int
  | 0, m, _, dest_ptr => (m, dest_ptr)
  | n + 1, m, src_stop, dest_ptr =>
    if src_stop ≥ src_start then
      sort_run_merge_copy from_side to_side src_start n
        (m.set to_side dest_ptr (m.get from_side src_stop)) (src_stop - 1) (dest_ptr - 1)
    else (m, dest_ptr)

/-- The state of the merging loop of `sort_run_merge`. -/
structure MergeState where
  mem : SortMem
  left_stop : Int
  right_stop : Int
  dest_ptr : Int
  dup_num : Int

/-- The loop `while (left_stop >= left_start && right_stop >= right_start)` of
`sort_run_merge`. -/
def sort_run_merge_loop (compare : Nat → Nat → Int) (fuel : Nat) (option : SORT_DUP_OPTION)
    (lside rside dside : Side) (left_start right_start : Int) :
    Nat → MergeState → Option MergeState
  | 0, st => some st
  | n + 1, st =>
    if st.left_stop ≥ left_start ∧ st.right_stop ≥ right_start then
      match compare_cells compare (st.mem.get lside st.left_stop)
          (st.mem.get rside st.right_stop) with
      | none => none
      | some cmp =>
        if cmp = 0 then
          match (if option = SORT_DUP_OPTION.SORT_DUP then
              sort_append fuel st.mem (st.mem.get lside st.left_stop)
                (st.mem.get rside st.right_stop) else some st.mem) with
          | none => none
          | some m1 =>
            sort_run_merge_loop compare fuel option lside rside dside left_start right_start n
              { mem := m1.set dside st.dest_ptr (m1.get rside st.right_stop),
                left_stop := st.left_stop - 1, right_stop := st.right_stop - 1,
                dest_ptr := st.dest_ptr - 1, dup_num := st.dup_num + 1 }
        else if cmp > 0 then
          sort_run_merge_loop compare fuel option lside rside dside left_start right_start n
            { st with mem := st.mem.set dside st.dest_ptr (st.mem.get lside st.left_stop),
                      left_stop := st.left_stop - 1, dest_ptr := st.dest_ptr - 1 }
        else
          sort_run_merge_loop compare fuel option lside rside dside left_start right_start n
            { st with mem := st.mem.set dside st.dest_ptr (st.mem.get rside st.right_stop),
                      right_stop := st.right_stop - 1, dest_ptr := st.dest_ptr - 1 }
    else some st

/-- The other buffer. -/
def Side.other : Side → Side
  | Side.L => Side.H
  | Side.H => Side.L

/-- The branch `con == TRUE` of `sort_run_merge` for the run `left` below the
run `right`: the left run is moved in front of the right run, unless it lies
there already; the memory and the run that replaces the two. -/
def sort_run_merge_con (m : SortMem) (right left : SRUN) : SortMem × SRUN :=
  let m1 :=
    if left.low_high = right.low_high ∧ left.stop + 1 = right.start then m
    else (sort_run_merge_copy left.low_high right.low_high left.start
      (left.stop - left.start + 1).toNat m left.stop (right.start - 1)).1
  (m1, { low_high := right.low_high, tree_depth := (left.tree_depth + 1) % 65536,
         start := right.start - (left.stop - left.start + 1) + 0,
         stop := right.stop })

/-- The branch `con == FALSE` of `sort_run_merge`, `do the actual merge;
right-shift merge slots`: the two runs are merged into the other buffer, from
their last cells downwards; the memory and the run that replaces the two. -/
def sort_run_merge_general (compare : Nat → Nat → Int) (fuel : Nat) (option : SORT_DUP_OPTION)
    (m : SortMem) (right left : SRUN) : Option (SortMem × SRUN) :=
  let dside := right.low_high.other
  match sort_run_merge_loop compare fuel option left.low_high right.low_high dside
      left.start right.start
      ((left.stop - left.start + 1).toNat + (right.stop - right.start + 1).toNat)
      { mem := m, left_stop := left.stop, right_stop := right.stop,
        dest_ptr := right.stop, dup_num := 0 } with
  | none => none
  | some st =>
    let r1 := sort_run_merge_copy left.low_high dside left.start
      (st.left_stop - left.start + 1).toNat st.mem st.left_stop st.dest_ptr
    let r2 := sort_run_merge_copy right.low_high dside right.start
      (st.right_stop - right.start + 1).toNat r1.1 st.right_stop r1.2
    some (r2.1, { low_high := dside, tree_depth := (left.tree_depth + 1) % 65536,
                  start := right.start - (left.stop - left.start + 1) + st.dup_num,
                  stop := right.stop })

/-- One pass of the body of the `do ... while` of `sort_run_merge`: merge the two
runs on top of the stack; `none` also when the stack holds fewer than two runs. -/
def sort_run_merge_step (compare : Nat → Nat → Int) (fuel : Nat) (option : SORT_DUP_OPTION)
    (m : SortMem) (stack : List SRUN) : Option (SortMem × List SRUN) :=
  match stack with
  | right :: left :: rest =>
    match compare_cells compare (m.get left.low_high left.stop)
        (m.get right.low_high right.start) with
    | none => none
    | some c =>
      if c < 0 then
        some ((sort_run_merge_con m right left).1, (sort_run_merge_con m right left).2 :: rest)
      else
        match sort_run_merge_general compare fuel option m right left with
        | none => none
        | some (m1, e) => some (m1, e :: rest)
  | _ => none

/-- The condition of the `do ... while` of `sort_run_merge`: at least two runs on
the stack, the two on top of equal depth. -/
def merge_again (stack : List SRUN) : Bool :=
  match stack with
  | a :: b :: _ => a.tree_depth = b.tree_depth
  | _ => false

/-- The C `sort_run_merge`: the body once, and again while `merge_again`. -/
def sort_run_merge (compare : Nat → Nat → Int) (fuel : Nat) (option : SORT_DUP_OPTION) :
    Nat → SortMem → List SRUN → Option (SortMem × List SRUN)
  | 0, m, stack => sort_run_merge_step compare fuel option m stack
  | n + 1, m, stack =>
    match sort_run_merge_step compare fuel option m stack with
    | none => none
    | some (m1, stack1) =>
      if merge_again stack1 then sort_run_merge compare fuel option n m1 stack1
      else some (m1, stack1)

/-- The loop `while ((st_p->top >= 1) && ((src_top >= limit) || ...))` of
`sort_run_sort` around `sort_run_merge`. -/
def sort_run_sort_merges (compare : Nat → Nat → Int) (fuel : Nat) (option : SORT_DUP_OPTION)
    (limit : Int) : Nat → SortState → Option SortState
  | 0, s => some s
  | n + 1, s =>
    if s.stack.length ≥ 2 ∧ (s.top ≥ limit ∨ (s.top < limit ∧ merge_again s.stack)) then
      match sort_run_merge compare fuel option s.stack.length s.mem s.stack with
      | none => none
      | some (m1, stack1) =>
        sort_run_sort_merges compare fuel option limit n { s with mem := m1, stack := stack1 }
    else some s

/-- The loop `do ... while (src_top < limit)` of `sort_run_sort`. -/
def sort_run_sort_loop (compare : Nat → Nat → Int) (fuel : Nat) (option : SORT_DUP_OPTION)
    (limit : Int) : Nat → SortState → Option SortState
  | 0, s => some s
  | n + 1, s =>
    match sort_run_find compare fuel option limit s with
    | none => none
    | some s1 =>
      match (if s1.top < limit then sort_run_find compare fuel option limit s1 else some s1) with
      | none => none
      | some s2 =>
        match sort_run_sort_merges compare fuel option limit s2.stack.length s2 with
        | none => none
        | some s3 =>
          if s3.top < limit then sort_run_sort_loop compare fuel option limit n s3
          else some s3

/-- What `sort_run_sort` hands back: the memory, the buffer and the cell that
`*base` points to afterwards, and `*srun_limit`. -/
structure SortResult where
  mem : SortMem
  base_side : Side
  base : Int
  srun_limit : Int

/-- The sorted pointer array of a result: the `srun_limit` cells from `*base`. -/
def SortResult.cells (r : SortResult) : List (Option Nat) :=
  (List.range r.srun_limit.toNat).map (fun (i : Nat) => r.mem.get r.base_side (r.base + (i : Int)))

/-- The `memcpy (*base, &otherbase[start], n * sizeof (char *))` of `sort_run_sort`. -/
def memcpy_low_to_high (m : SortMem) (start n : Int) : SortMem :=
  { m with high := fun j => if start ≤ j ∧ j < start + n then m.low j else m.high j }

/-- The end of `sort_run_sort`, after the last merge: `*base`, `*srun_limit` and the
buffer that holds the result, from the run `srun[0]`; `limit` is the number of
records, the already sorted ones included. -/
def sort_run_sort_result (option : SORT_DUP_OPTION) (m1 : SortMem) (srun0 : SRUN)
    (limit srun_limit : Int) : SortResult :=
  if srun0.start = 0 then
    { mem := m1, base_side := srun0.low_high, base := 0, srun_limit := srun_limit }
  else
    let lim := limit - srun0.start
    if srun0.low_high = Side.L then
      if option = SORT_DUP_OPTION.SORT_ELIM_DUP then
        { mem := memcpy_low_to_high m1 srun0.start lim, base_side := Side.H,
          base := srun0.start, srun_limit := lim }
      else
        { mem := m1, base_side := Side.L, base := srun0.start, srun_limit := lim }
    else
      { mem := m1, base_side := Side.H, base := srun0.start, srun_limit := lim }

/-- The C `sort_run_sort`, with the buffer `*base` in `m.high` and `otherbase` in
`m.low`; `srun_limit` is the value of `*srun_limit` at the call. The allocation of
the stack is taken to succeed, and the stack to be large enough. -/
def sort_run_sort (compare : Nat → Nat → Int) (option : SORT_DUP_OPTION) (m : SortMem)
    (limit sort_numrecs srun_limit : Int) : Option SortResult :=
  let fuel := limit.toNat
  let limit1 := limit - sort_numrecs
  if limit1 = 0 ∨ (limit1 = 1 ∧ sort_numrecs = 0) then
    some { mem := m, base_side := Side.H, base := 0, srun_limit := srun_limit }
  else
    match sort_run_sort_loop compare fuel option limit1 limit1.toNat
        { mem := m, stack := [], top := 0 } with
    | none => none
    | some s =>
      match (if sort_numrecs ≠ 0 then
          sort_run_merge compare fuel option (s.stack.length + 1) s.mem
            ({ low_high := Side.H, tree_depth := 1, start := limit1,
               stop := limit1 + sort_numrecs - 1 } :: s.stack)
          else some (s.mem, s.stack)) with
      | none => none
      | some (m1, stack1) =>
        match stack1.getLast? with
        | none => none
        | some srun0 => some (sort_run_sort_result option m1 srun0 limit srun_limit)

/-- The pointer array that `sort_inphase_sort` builds for the records delivered
in the order `0, 1, ..., n - 1`: the index area grows downwards, so the cell `i`
points to the record `n - 1 - i`. -/
def index_area_of (n : Nat) : Int → Option Nat :=
  fun i => if 0 ≤ i ∧ i < n then some (n - 1 - i.toNat) else none

/-- The memory at the first call of `sort_run_sort`: the index area of `n` records
whose `next` fields are all `NULL`. -/
def initial_mem (n : Nat) : SortMem :=
  { high := index_area_of n, low := fun _ => none, next := fun _ => none }

/-- The records reached from `k` by following `next`, `k` excluded. -/
def chain_of (next : Nat → Option Nat) : Nat → Nat → List Nat
  | 0, _ => []
  | fuel + 1, k =>
    match next k with
    | none => []
    | some j => j :: chain_of next fuel j

/-- A comparator that imposes a strict weak order, with the `strcmp` protocol for
its result: negative, zero, positive. -/
structure StrictWeakOrder (compare : Nat → Nat → Int) : Prop where
  refl : ∀ a, compare a a = 0
  symm : ∀ a b, compare a b < 0 ↔ 0 < compare b a
  trans_lt : ∀ a b c, compare a b < 0 → compare b c < 0 → compare a c < 0
  trans_eq : ∀ a b c, compare a b = 0 → compare b c = 0 → compare a c = 0

/-- The cells `a`, `a + 1`, ..., `b` of a pointer buffer. -/
def seg (buf : Int → Option Nat) (a b : Int) : List (Option Nat) :=
  (List.range (b + 1 - a).toNat).map (fun (k : Nat) => buf (a + (k : Int)))

/-- The list `l` is what following the `next` fields from the record `k` visits,
`k` excluded, up to the `NULL` that ends it. -/
def IsChain (next : Nat → Option Nat) : Nat → List Nat → Prop
  | k, [] => next k = none
  | k, j :: l => next k = some j ∧ IsChain next j l

/-- The records of the list `B` that compare equal to `k`, in the order of `B`. -/
def class_of (compare : Nat → Nat → Int) (B : List Nat) (k : Nat) : List Nat :=
  B.filter (fun x => compare x k = 0)

/-- The list is in strictly ascending order of the comparator. -/
def StrictAsc (compare : Nat → Nat → Int) (K : List Nat) : Prop :=
  K.Pairwise (fun a b => compare a b < 0)

/-- What holds of the records `K` kept of a block `B` of records (`B` in the order
in which the producer delivered them): they are records of the block, every
record of the block compares equal to one of them, and with `SORT_DUP` each of
them is the first record of its class in the block and its `next` list is the
rest of the class, in the order of `B`. -/
def Keeps (compare : Nat → Nat → Int) (option : SORT_DUP_OPTION) (next : Nat → Option Nat)
    (B K : List Nat) : Prop :=
  (∀ k ∈ K, k ∈ B) ∧ (∀ x ∈ B, ∃ k ∈ K, compare x k = 0) ∧
  (option = SORT_DUP_OPTION.SORT_DUP → ∀ k ∈ K,
    (class_of compare B k).head? = some k ∧ IsChain next k (class_of compare B k).tail)

/-- The invariant of a run of the stack: the run `e` stands for the cells
`lo .. e.stop` of the source, which held the block `B`; its cells
`e.start .. e.stop` hold the kept records, in strictly ascending order. -/
def RunInv (compare : Nat → Nat → Int) (option : SORT_DUP_OPTION) (m : SortMem) (e : SRUN)
    (lo : Int) (B : List Nat) : Prop :=
  ∃ K : List Nat, lo ≤ e.start ∧ e.start ≤ e.stop ∧
    (B.length : Int) = e.stop + 1 - lo ∧
    seg (fun i => m.get e.low_high i) e.start e.stop = K.map some ∧
    StrictAsc compare K ∧ Keeps compare option m.next B K

/-- The invariant of the scanning loops of `sort_run_find`, started at the cell
`start` of the memory `m0` whose cells `start .. limit - 1` hold the records `A`:
the cells `start .. stop` held the block `B`, hold the kept records `K` and
`dup_num` times `NULL`, the cell `stop` is untouched, the kept records are strictly
monotone, ascending for `inc`, and nothing else changed. -/
def ScanInv (compare : Nat → Nat → Int) (option : SORT_DUP_OPTION) (m0 : SortMem)
    (start : Int) (A : List Nat) (inc : Bool) (m : SortMem) (stop dup_num : Int) : Prop :=
  ∃ K B R : List Nat, start ≤ stop ∧ A = B.reverse ++ R ∧
    (B.length : Int) = stop + 1 - start ∧
    (seg m.high start stop).filterMap id = K ∧
    m.high stop = m0.high stop ∧ K.getLast? = m0.high stop ∧
    dup_num = (stop + 1 - start) - (K.length : Int) ∧
    (if inc = true then StrictAsc compare K else StrictAsc compare K.reverse) ∧
    Keeps compare option m.next B K ∧
    (∀ i, (i < start ∨ stop < i) → m.high i = m0.high i) ∧ m.low = m0.low ∧
    (∀ x, x ∉ B → m.next x = m0.next x)

/-- The record `k` leads its class in the block `B`: it is the first record of
the class, and its `next` list is the rest of the class, in the order of `B`. -/
def Led (compare : Nat → Nat → Int) (next : Nat → Option Nat) (B : List Nat) (k : Nat) : Prop :=
  (class_of compare B k).head? = some k ∧ IsChain next k (class_of compare B k).tail

/-- The invariant of the merging loop of `sort_run_merge`, started in the memory
`m0` with the left run `Kl` (of the block `Bl`) in the cells from `ls` of the side
`lside` and the right run `Kr` (of the block `Br`) in the cells `rs .. re` of the
side `rside`: the records `Kl1` and `Kr1` are still to merge, `Lc` and `Rc` are
consumed, and `M` is what the destination holds. -/
def MergeInv (compare : Nat → Nat → Int) (option : SORT_DUP_OPTION) (m0 : SortMem)
    (dside : Side) (ls rs re : Int) (Kl Kr Bl Br : List Nat) (st : MergeState) : Prop :=
  ∃ Kl1 Lc Kr1 Rc M : List Nat,
    Kl = Kl1 ++ Lc ∧ Kr = Kr1 ++ Rc ∧
    st.left_stop = ls + (Kl1.length : Int) - 1 ∧ st.right_stop = rs + (Kr1.length : Int) - 1 ∧
    st.dest_ptr = re - (M.length : Int) ∧
    st.dup_num = (Lc.length : Int) + (Rc.length : Int) - (M.length : Int) ∧ 0 ≤ st.dup_num ∧
    seg (fun i => st.mem.get dside i) (st.dest_ptr + 1) re = M.map some ∧
    (∀ t i, (t = dside → i ≤ st.dest_ptr ∨ re < i) → st.mem.get t i = m0.get t i) ∧
    StrictAsc compare M ∧
    (∀ x, x ∈ Kl1 ∨ x ∈ Kr1 → ∀ z, z ∈ Lc ∨ z ∈ Rc → compare x z < 0) ∧
    (∀ z ∈ M, z ∈ Lc ∨ z ∈ Rc) ∧ (∀ x, x ∈ Lc ∨ x ∈ Rc → ∃ z ∈ M, compare x z = 0) ∧
    (option = SORT_DUP_OPTION.SORT_DUP →
      (∀ z ∈ M, Led compare st.mem.next (Br ++ Bl) z) ∧
      (∀ k ∈ Kl1, Led compare st.mem.next Bl k) ∧ (∀ k ∈ Kr1, Led compare st.mem.next Br k)) ∧
    (∀ x, x ∉ Br ++ Bl → st.mem.next x = m0.next x)

/-- The invariant of the stack of runs: the runs tile the cells `0 .. top - 1`
of the source, the run on top the highest of them, and `P` lists the records of
these cells in the order in which the producer delivered them. -/
def StackInv (compare : Nat → Nat → Int) (option : SORT_DUP_OPTION) (m : SortMem) :
    List SRUN → Int → List Nat → Prop
  | [], top, P => top = 0 ∧ P = []
  | e :: rest, top, P =>
    ∃ (lo : Int) (B P1 : List Nat), P = B ++ P1 ∧ e.stop + 1 = top ∧
      RunInv compare option m e lo B ∧ StackInv compare option m rest lo P1

/-- The invariant of the loop of `sort_run_sort` over the source buffer whose
cells `0 .. limit - 1` held the records `A` in the memory `m0`: the runs of the
stack stand for the cells below `top`, the cells from `top` are untouched. -/
def LoopInv (compare : Nat → Nat → Int) (option : SORT_DUP_OPTION) (m0 : SortMem) (limit : Int)
    (A : List Nat) (s : SortState) : Prop :=
  ∃ P R : List Nat, A = P.reverse ++ R ∧ s.top ≤ limit ∧
    StackInv compare option s.mem s.stack s.top P ∧
    seg s.mem.high s.top (limit - 1) = R.map some ∧
    (option = SORT_DUP_OPTION.SORT_DUP → ∀ x ∈ R, s.mem.next x = none) ∧
    (∀ i, limit ≤ i → s.mem.high i = m0.high i) ∧ (∀ x, x ∉ A → s.mem.next x = m0.next x)

/-- A comparator on record numbers that compares the keys of the records, the
record `i` having the key `keys[i]`. -/
def compare_keys (keys : List Nat) : Nat → Nat → Int :=
  fun a b => (keys.getD a 0 : Int) - (keys.getD b 0 : Int)

/-- The keys of the example of the specification, in the order of the producer. -/
def example_keys : List Nat := [3, 1, 2, 3, 2, 3]

/-- What a result publishes: for every cell of the sorted array the record it
points to and the records that the `next` links of this record visit. -/
def SortResult.published (r : SortResult) (fuel : Nat) : List (Option (Nat × List Nat)) :=
  r.cells.map (fun c => c.map (fun k => (k, chain_of r.mem.next fuel k)))

/-! ## Flushing a run -/

/-- What `sort_run_flush` did, all the file calls succeeding: the pages it wrote
to the temp file with `sort_write_area`, in order, `run_size`, and whether it
returned `NO_ERROR` (`ok`) or `ER_GENERIC_ERROR`. -/
structure FlushResult where
  written : List Page
  run_size : Int
  ok : Bool

/-- The records `sort_run_flush` visits from one cell of the index area, `for (key =
index_area[i]; key; key = next)`: with `REC_HOME` the record and the records of
its `next` list, otherwise the record alone. -/
def flush_keys (next : Nat → Option Nat) (rec_type : RecType) : Nat → Option Nat → List Nat
  | 0, _ => []
  | _ + 1, none => []
  | fuel + 1, some key =>
    key :: flush_keys next rec_type fuel (if rec_type = RecType.REC_HOME then next key else none)

/-- The state of the loop of `sort_run_flush`: the output buffer, the pages
written, `run_size`. -/
structure FlushState where
  output_buffer : Page
  written : List Page
  run_size : Int

/-- The loop of `sort_run_flush` over the record descriptors `out_recdes` in the
order in which it visits the records; `MAX_ALIGNMENT` and
`UNANCHORED_KEEP_SEQUENCE` are constants of the host. The result is `none` where
`sort_spage_insert` is undefined, otherwise the state and whether the loop ran to
its end (`false`: it returned `ER_GENERIC_ERROR`). -/
def sort_run_flush_loop (env : PageEnv) (qs : Qsort) (calloc_ok : Bool)
    (UNANCHORED_KEEP_SEQUENCE MAX_ALIGNMENT : Int) :
    List RECDES → FlushState → Option (Bool × FlushState)
  | [], st => some (true, st)
  | out_recdes :: rest, st =>
    match sort_spage_insert env qs calloc_ok st.output_buffer out_recdes with
    | none => none
    | some (pg1, some _) =>
      sort_run_flush_loop env qs calloc_ok UNANCHORED_KEEP_SEQUENCE MAX_ALIGNMENT rest
        { st with output_buffer := pg1 }
    | some (pg1, none) =>
      let pg2 := sort_spage_initialize env pg1 UNANCHORED_KEEP_SEQUENCE MAX_ALIGNMENT
      let st1 : FlushState :=
        { output_buffer := pg2, written := st.written ++ [pg1], run_size := st.run_size + 1 }
      match sort_spage_insert env qs calloc_ok pg2 out_recdes with
      | none => none
      | some (pg3, some _) =>
        sort_run_flush_loop env qs calloc_ok UNANCHORED_KEEP_SEQUENCE MAX_ALIGNMENT rest
          { st1 with output_buffer := pg3 }
      | some (pg3, none) => some (false, { st1 with output_buffer := pg3 })

/-- The C `sort_run_flush` on the record descriptors it makes of the records of
the index area, in the order in which it visits them, with every file call
succeeding. -/
def sort_run_flush (env : PageEnv) (qs : Qsort) (calloc_ok : Bool)
    (UNANCHORED_KEEP_SEQUENCE MAX_ALIGNMENT : Int) (records : List RECDES)
    (output_buffer : Page) : Option FlushResult :=
  let pg0 := sort_spage_initialize env output_buffer UNANCHORED_KEEP_SEQUENCE MAX_ALIGNMENT
  match sort_run_flush_loop env qs calloc_ok UNANCHORED_KEEP_SEQUENCE MAX_ALIGNMENT records
      { output_buffer := pg0, written := [], run_size := 0 } with
  | none => none
  | some (false, st) => some { written := st.written, run_size := st.run_size, ok := false }
  | some (true, st) =>
    if sort_spage_get_numrecs st.output_buffer ≠ 0 then
      some { written := st.written ++ [st.output_buffer], run_size := st.run_size + 1,
             ok := true }
    else some { written := st.written, run_size := st.run_size, ok := true }

/-- A record of `SORT_MAXREC_LENGTH` bytes for a page of 16384 bytes: the longest
record that `sort_inphase_sort` does not treat as a long record. -/
def rec_longest_short : RECDES :=
  { area_size := 16362, data := List.replicate 16362 0, length := 16362,
    type := RecType.REC_HOME }

/-! ## The merge phase: ledgers, files, buffers -/

/-- The C `struct file_contents`, the ledger of the runs of a temp file; the
dynamic array `num_pages` is a function of the index. -/
structure FILE_CONTENTS where
  num_pages : Int → Int
  num_slots : Int
  first_run : Int
  last_run : Int

/-- The C `sort_get_num_file_contents`. -/
def sort_get_num_file_contents (fc : FILE_CONTENTS) : Int :=
  if fc.first_run ≠ -1 then fc.last_run - fc.first_run + 1 else 0

/-- The C `sort_run_remove_first`. -/
def sort_run_remove_first (fc : FILE_CONTENTS) : FILE_CONTENTS :=
  if fc.first_run ≠ -1 then
    if fc.first_run + 1 > fc.last_run then { fc with first_run := -1 }
    else { fc with first_run := fc.first_run + 1 }
  else fc

/-- The distance of two neighbouring values of the C type `float` (IEEE 754
single precision, a significand of 24 bits) next to `n`, for `n ≤ 2 ^ 31`. -/
def float_ulp (n : Nat) : Nat :=
  if n < 2 ^ 24 then 1 else if n < 2 ^ 25 then 2 else if n < 2 ^ 26 then 4
  else if n < 2 ^ 27 then 8 else if n < 2 ^ 28 then 16 else if n < 2 ^ 29 then 32
  else if n < 2 ^ 30 then 64 else if n < 2 ^ 31 then 128 else 256

/-- The value of the C type `float` nearest to the natural number `m`, of two
nearest ones the one with the even significand; it is a natural number. -/
def float_of_nat (m : Nat) : Nat :=
  let u := float_ulp m
  let q := m / u
  let r := m % u
  (if 2 * r > u ∨ (2 * r = u ∧ q % 2 = 1) then q + 1 else q) * u

/-- The C conversion `(float) n` of an `int`, rounding to the nearest value. The
value is an integer. -/
def float_of_int (n : Int) : Int :=
  if n < 0 then -(float_of_nat n.natAbs : Int) else (float_of_nat n.natAbs : Int)

/-- The last statement of `sort_run_add_new`,
`file_contents->num_pages[file_contents->last_run] = num_pages`; a store outside
the array is undefined. -/
def sort_run_store (fc : FILE_CONTENTS) (num_pages : Int) : Option (Bool × FILE_CONTENTS) :=
  if 0 ≤ fc.last_run ∧ fc.last_run < fc.num_slots then
    some (true,
      { fc with num_pages := fun j => if j = fc.last_run then num_pages else fc.num_pages j })
  else none

/-- The C `sort_run_add_new`. `realloc_ok` is the outcome of
`db_private_realloc`. The result is `none` where the behaviour of the C code is
undefined (`last_run++` or the conversion to `int` out of the range of `int`, a
store outside the array); otherwise it tells whether `NO_ERROR` is returned
(`false` is `ER_FAILED`) and gives the ledger. The product
`(float) num_slots * 1.5` and the sum with `0.5` are computed in `double`, where
they are exact: the new size is `(3 * (float) num_slots + 1) / 2` cut to an
integer. After `ER_FAILED` the pointer `num_pages` of the C ledger is NULL. -/
def sort_run_add_new (realloc_ok : Bool) (fc : FILE_CONTENTS) (num_pages : Int) :
    Option (Bool × FILE_CONTENTS) :=
  if fc.first_run ≠ -1 ∧ fc.last_run + 1 ≥ 2 ^ 31 then none
  else
    let fc1 : FILE_CONTENTS :=
      if fc.first_run = -1 then { fc with first_run := 0, last_run := 0 }
      else { fc with last_run := fc.last_run + 1 }
    if fc1.last_run ≥ fc1.num_slots then
      let new_total_elements := Int.tdiv (3 * float_of_int fc1.num_slots + 1) 2
      if new_total_elements < -(2 ^ 31) ∨ new_total_elements ≥ 2 ^ 31 then none
      else if realloc_ok = false then some (false, fc1)
      else sort_run_store { fc1 with num_slots := new_total_elements } num_pages
    else sort_run_store fc1 num_pages

/-- The ledger of a temp file as `sort_listfile` initialises it:
`SORT_INITIAL_DYN_ARRAY_SIZE` is 30; the cells of the array have no value yet,
they get the values of `junk`. -/
def file_contents_init (junk : Int → Int) : FILE_CONTENTS :=
  { num_pages := junk, num_slots := 30, first_run := -1, last_run := -1 }

/-- The fields of the C `SORT_PARAM` that the merge phase works on: the pages of
the temp files (`temp[f]`, by page number), their ledgers, the buffers of the
internal memory (by buffer number), and the counts. -/
structure SortParam where
  temp : Int → Int → Page
  file_contents : Int → FILE_CONTENTS
  internal_memory : Int → Page
  tot_buffers : Int
  tot_tempfiles : Int
  half_files : Int
  in_half : Int

/-- The loop of `sort_get_numpages_of_active_infiles` from the file `i`. -/
def active_infiles_loop (sp : SortParam) : Nat → Int → Int
  | 0, i => i
  | n + 1, i =>
    if i < sp.in_half + sp.half_files then
      if (sp.file_contents i).first_run = -1 then i
      else active_infiles_loop sp n (i + 1)
    else i

/-- The C `sort_get_numpages_of_active_infiles`. -/
def sort_get_numpages_of_active_infiles (sp : SortParam) : Int :=
  active_infiles_loop sp sp.half_files.toNat sp.in_half - sp.in_half

/-- The C `sort_find_inbuf_size` for a number of sections below `2 ^ 30`:
`in_sections` is not zero, and `in_sections << 1` is `in_sections * 2` (the
callers pass a number of active files, at most `half_files`, which
`sort_get_num_half_tmpfiles` keeps at 4 or less). -/
def sort_find_inbuf_size (tot_buffers in_sections : Int) : Int :=
  let in_sectsize := Int.tdiv tot_buffers (in_sections * 2)
  if in_sectsize ≠ 0 then in_sectsize else 1

/-- The C `sort_read_area`, every call of the file and page buffer managers
succeeding: the pages `first_page ..` of the file go to the buffers
`area_start ..`. -/
def sort_read_area (sp : SortParam) (file first_page num_pages area_start : Int) : SortParam :=
  { sp with internal_memory := fun b =>
      if area_start ≤ b ∧ b < area_start + num_pages then
        sp.temp file (first_page + (b - area_start))
      else sp.internal_memory b }

/-- The C `sort_write_area`, every call of the file and page buffer managers
succeeding: the buffers `area_start ..` go to the pages `first_page ..` of the
file. -/
def sort_write_area (sp : SortParam) (file first_page num_pages area_start : Int) : SortParam :=
  { sp with temp := fun f p =>
      if f = file ∧ first_page ≤ p ∧ p < first_page + num_pages then
        sp.internal_memory (area_start + (p - first_page))
      else sp.temp f p }

/-! ## The merge phase with duplicate elimination -/

/-- The C `struct sort_rec_list` without its link: the nodes of the list of the
smallest elements are the elements of a Lean list. -/
structure SORT_REC_LIST where
  rec_pos : Int
  is_duplicated : Bool
  deriving DecidableEq, Repr

/-- The error codes the merge phase returns. -/
inductive SortError where
  | ER_SORT_TEMP_PAGE_CORRUPTED
  | ER_GENERIC_ERROR
  | er_errid
  | put_error (code : Int)
  deriving DecidableEq, Repr

/-- Why a part of the merge phase did not run to its end: the jump to `bailout`
with an error, undefined behaviour of the C code, or the bound on the number of
iterations of the model. -/
inductive StopKind where
  | bailout (error : SortError)
  | undefined
  | out_of_fuel
  deriving DecidableEq, Repr

/-- The outcome of a part of the merge phase: its state when it ran to its end,
otherwise why it stopped and the records published so far. -/
inductive Step (σ : Type) where
  | next (s : σ)
  | stop (why : StopKind) (published : List RECDES)

/-- What the merge phase is run with: the constants of the host, the
comparator on the data of two records, the reading of a long record from the
overflow file by its handle (`sort_retrieve_longrec`, whose callees are not in
the source; `none` when it fails), the store `sort_rec->next = NULL` into the
data of a record (the layout of `SORT_REC` is not in the source), and the
consumer `put_fn`, which sees the records published before (`0` is `NO_ERROR`). -/
structure MergeEnv where
  env : PageEnv
  qs : Qsort
  calloc_ok : Bool
  UNANCHORED_KEEP_SEQUENCE : Int
  MAX_ALIGNMENT : Int
  compare : List Byte → List Byte → Int
  overflow_get : List Byte → Option (List Byte)
  cut_link : List Byte → List Byte
  put_fn : List RECDES → RECDES → Int

/-- Store `v` into the element `i` of an array. -/
def aset {α : Type} (f : Int → α) (i : Int) (v : α) : Int → α :=
  fun j => if j = i then v else f j

/-- The local variables of `sort_exphase_merge_elim_dup` together with the
sort parameters; addresses of buffers are buffer numbers, `sr_list` is the list
from `min_p` on, `published` the records handed to `put_fn` so far. -/
structure MergeVars where
  sp : SortParam
  act_infiles : Int
  in_sectsize : Int
  in_act_bufno : Int → Int
  in_last_buf : Int → Int
  act_slot : Int → Int
  last_slot : Int → Int
  in_sectaddr : Int → Int
  in_cur_bufaddr : Int → Int
  out_half : Int
  cur_outfile : Int
  out_sectsize : Int
  out_act_bufno : Int
  out_runsize : Int
  out_sectaddr : Int
  out_cur_bufaddr : Int
  smallest_elem_ptr : Int → RECDES
  long_recdes : Int → RECDES
  cur_page : Int → Int
  very_last_run : Bool
  sr_list : List SORT_REC_LIST
  last_elem_ptr : RECDES
  last_long_recdes : RECDES
  last_elem_cmp : Int
  published : List RECDES

/-- The C `sort_retrieve_longrec`: the record of the handle `address` goes to
`memory`, whose area grows when it is too small. -/
def sort_retrieve_longrec (E : MergeEnv) (address memory : RECDES) : Option RECDES :=
  match E.overflow_get address.data with
  | none => none
  | some content =>
    some { memory with
           area_size := if (content.length : Int) > memory.area_size then content.length
             else memory.area_size,
           data := content, length := content.length }

/-- The data that the comparator gets for the smallest element of the input `i`:
`(smallest_elem_ptr[i].type == REC_BIGONE) ? &(long_recdes[i].data) :
&(smallest_elem_ptr[i].data)`. -/
def MergeVars.data (v : MergeVars) (i : Int) : List Byte :=
  if (v.smallest_elem_ptr i).type = RecType.REC_BIGONE then (v.long_recdes i).data
  else (v.smallest_elem_ptr i).data

/-- Get the record of the active slot of the input `i` into
`smallest_elem_ptr[i]` and, when it is a long record, retrieve it into
`long_recdes[i]`. -/
def fetch_smallest (E : MergeEnv) (v : MergeVars) (i : Int) : Step MergeVars :=
  let r := sort_spage_get_record E.env (v.sp.internal_memory (v.in_cur_bufaddr i))
    (v.act_slot i) (v.smallest_elem_ptr i) PeekMode.PEEK
  if r.1 ≠ SCAN_CODE.S_SUCCESS then
    Step.stop (StopKind.bailout SortError.ER_SORT_TEMP_PAGE_CORRUPTED) v.published
  else
    let v1 := { v with smallest_elem_ptr := aset v.smallest_elem_ptr i r.2 }
    if r.2.type = RecType.REC_BIGONE then
      match sort_retrieve_longrec E r.2 (v.long_recdes i) with
      | none => Step.stop (StopKind.bailout SortError.er_errid) v.published
      | some m => Step.next { v1 with long_recdes := aset v1.long_recdes i m }
    else Step.next v1

/-- The body of the loop `INITIALIZE INPUT SECTIONS AND INPUT VARIABLES` for the
input `i`, up to the point where its first record is got: the first pages of its
current run are read into its input section. -/
def read_input_section (v : MergeVars) (i : Int) : MergeVars :=
  let big_index := v.sp.in_half + i
  let first_run := (v.sp.file_contents big_index).first_run
  let read_pages0 := (v.sp.file_contents big_index).num_pages first_run
  let read_pages := if v.in_sectsize < read_pages0 then v.in_sectsize else read_pages0
  let sp1 := sort_read_area v.sp big_index (v.cur_page big_index) read_pages (v.in_sectaddr i)
  let fc := sp1.file_contents big_index
  let left := fc.num_pages fc.first_run - read_pages
  let fc1 := { fc with num_pages := aset fc.num_pages fc.first_run left }
  let sp2 := { sp1 with file_contents := aset sp1.file_contents big_index fc1 }
  { v with sp := sp2,
           cur_page := aset v.cur_page big_index (v.cur_page big_index + read_pages),
           in_cur_bufaddr := aset v.in_cur_bufaddr i (v.in_sectaddr i),
           in_act_bufno := aset v.in_act_bufno i 0,
           in_last_buf := aset v.in_last_buf i read_pages,
           act_slot := aset v.act_slot i 0,
           last_slot := aset v.last_slot i
             (sort_spage_get_numrecs (sp2.internal_memory (v.in_sectaddr i))) }

/-- The loop `INITIALIZE INPUT SECTIONS AND INPUT VARIABLES` from the input `i`. -/
def init_input_sections (E : MergeEnv) : Nat → MergeVars → Int → Step MergeVars
  | 0, v, _ => Step.next v
  | n + 1, v, i =>
    if i < v.act_infiles then
      match fetch_smallest E (read_input_section v i) i with
      | Step.stop w p => Step.stop w p
      | Step.next v2 => init_input_sections E n v2 (i + 1)
    else Step.next v

/-- The nodes of `sr_list` after `linkage & init nodes`. -/
def sr_list_init (act_infiles : Int) : List SORT_REC_LIST :=
  (List.range (if act_infiles - 1 > 0 then act_infiles.toNat else 1)).map
    (fun (i : Nat) => { rec_pos := (i : Int), is_duplicated := false })

/-- The inner loop of `sort sr_list`, `for (p = s->next; p; p = p->next)`, with
the `rec_pos` of the node `s`: the `rec_pos` of `s` afterwards and the nodes after
`s`. -/
def sr_list_sort_inner (E : MergeEnv) (v : MergeVars) (s_pos : Int) :
    List SORT_REC_LIST → Int × List SORT_REC_LIST
  | [] => (s_pos, [])
  | p :: rest =>
    if E.compare (v.data s_pos) (v.data p.rec_pos) > 0 then
      let r := sr_list_sort_inner E v p.rec_pos rest
      (r.1, { p with rec_pos := s_pos } :: r.2)
    else
      let r := sr_list_sort_inner E v s_pos rest
      (r.1, p :: r.2)

/-- The loop `sort sr_list`, `for (s = sr_list; s; s = s->next)`. -/
def sr_list_sort (E : MergeEnv) (v : MergeVars) : Nat → List SORT_REC_LIST → List SORT_REC_LIST
  | 0, l => l
  | _ + 1, [] => []
  | n + 1, s :: rest =>
    let r := sr_list_sort_inner E v s.rec_pos rest
    { s with rec_pos := r.1 } :: sr_list_sort E v n r.2

/-- The loop `find duplicate`, `for (s = sr_list; s && s->next; s = s->next)`, on
the nodes after the node `s` with the given `rec_pos`. -/
def sr_list_find_duplicate_from (E : MergeEnv) (v : MergeVars) (s_pos : Int) :
    List SORT_REC_LIST → List SORT_REC_LIST
  | [] => []
  | p :: rest =>
    (if E.compare (v.data s_pos) (v.data p.rec_pos) = 0 then { p with is_duplicated := true }
     else p) :: sr_list_find_duplicate_from E v p.rec_pos rest

/-- The loop `find duplicate` on `sr_list`. -/
def sr_list_find_duplicate (E : MergeEnv) (v : MergeVars) :
    List SORT_REC_LIST → List SORT_REC_LIST
  | [] => []
  | s :: rest => s :: sr_list_find_duplicate_from E v s.rec_pos rest

/-- The `last element comparison`: with a second smallest element `p`, get the
last record of the active page of the input of `min_p` and compare it with the
record of `p`. -/
def last_element_comparison (E : MergeEnv) (v : MergeVars) : Step MergeVars :=
  match v.sr_list with
  | min_p :: p :: _ =>
    let r := sort_spage_get_record E.env
      (v.sp.internal_memory (v.in_cur_bufaddr min_p.rec_pos))
      (v.last_slot min_p.rec_pos - 1) v.last_elem_ptr PeekMode.PEEK
    if r.1 ≠ SCAN_CODE.S_SUCCESS then
      Step.stop (StopKind.bailout SortError.ER_SORT_TEMP_PAGE_CORRUPTED) v.published
    else
      let retrieved : Option RECDES :=
        if r.2.type = RecType.REC_BIGONE then sort_retrieve_longrec E r.2 v.last_long_recdes
        else some v.last_long_recdes
      match retrieved with
      | none => Step.stop (StopKind.bailout SortError.er_errid) v.published
      | some m =>
        let data1 := if r.2.type = RecType.REC_BIGONE then m.data else r.2.data
        Step.next { v with last_elem_ptr := r.2, last_long_recdes := m,
                           last_elem_cmp := E.compare data1 (v.data p.rec_pos) }
  | _ => Step.next v

/-- The loop that initialises each buffer of the output section to contain a
slotted page. -/
def init_output_section (E : MergeEnv) (v : MergeVars) : SortParam :=
  let anchor := E.UNANCHORED_KEEP_SEQUENCE
  { v.sp with internal_memory := fun b =>
      if v.out_sectaddr ≤ b ∧ b < v.out_sectaddr + v.out_sectsize then
        sort_spage_initialize E.env (v.sp.internal_memory b) anchor E.MAX_ALIGNMENT
      else v.sp.internal_memory b }

/-- The page of the buffer `b` becomes `pg`. -/
def MergeVars.set_buffer (v : MergeVars) (b : Int) (pg : Page) : MergeVars :=
  { v with sp := { v.sp with internal_memory := aset v.sp.internal_memory b pg } }

/-- The store of `data` through a pointer to the record of the slot `slotid`
that `sort_spage_get_record` handed out in `PEEK` mode. -/
def store_in_record (pg : Page) (slotid : Int) (data : List Byte) : Page :=
  let sptr := pg.slots slotid.toNat
  { pg with bytes := memcpy_to_page pg.bytes sptr.roffset data sptr.rlength }

/-- `OUTPUT THE RECORD` of the very last run: hand the smallest element of the
input `min` to the consumer, a long record as retrieved, any other one with its
link cut off. The data of `smallest_elem_ptr[min]` is the record of the active
slot in the active buffer of the input, so the store of the link goes to that
page. -/
def publish_record (E : MergeEnv) (v : MergeVars) (min : Int) : Step MergeVars :=
  let s := v.smallest_elem_ptr min
  let v1 : MergeVars :=
    if s.type = RecType.REC_BIGONE then v
    else
      let b := v.in_cur_bufaddr min
      let pg := store_in_record (v.sp.internal_memory b) (v.act_slot min) (E.cut_link s.data)
      { v with smallest_elem_ptr := aset v.smallest_elem_ptr min
                 { s with data := E.cut_link s.data },
               sp := { v.sp with internal_memory := aset v.sp.internal_memory b pg } }
  let record := if s.type = RecType.REC_BIGONE then v.long_recdes min
    else { s with data := E.cut_link s.data }
  let error := E.put_fn v.published record
  if error ≠ 0 then
    Step.stop (StopKind.bailout (SortError.put_error error)) (v.published ++ [record])
  else Step.next { v1 with published := v.published ++ [record] }

/-- The second attempt to insert the record, into a page that holds nothing yet:
a refusal is `ER_GENERIC_ERROR`. -/
def insert_into_empty (E : MergeEnv) (v : MergeVars) (record : RECDES) : Step MergeVars :=
  match sort_spage_insert E.env E.qs E.calloc_ok (v.sp.internal_memory v.out_cur_bufaddr)
      record with
  | none => Step.stop StopKind.undefined v.published
  | some (pg, some _) => Step.next (v.set_buffer v.out_cur_bufaddr pg)
  | some (_, none) => Step.stop (StopKind.bailout SortError.ER_GENERIC_ERROR) v.published

/-- The switch to the next buffer of the output section: `++out_act_bufno` and
`out_cur_bufaddr += DB_PAGESIZE`. -/
def next_output_buffer (v : MergeVars) : MergeVars :=
  { v with out_act_bufno := v.out_act_bufno + 1, out_cur_bufaddr := v.out_cur_bufaddr + 1 }

/-- `Flush output section` and `Initialize output section and output variables`:
the buffers of the output section go to the output file, and each of them is
initialised to an empty slotted page. -/
def flush_output_section (E : MergeEnv) (v : MergeVars) : MergeVars :=
  let sp1 := sort_write_area v.sp v.cur_outfile (v.cur_page v.cur_outfile)
    v.out_sectsize v.out_sectaddr
  let v1 := { v with sp := sp1,
                     cur_page := aset v.cur_page v.cur_outfile
                       (v.cur_page v.cur_outfile + v.out_sectsize),
                     out_runsize := v.out_runsize + v.out_sectsize,
                     out_act_bufno := 0, out_cur_bufaddr := v.out_sectaddr }
  { v1 with sp := init_output_section E v1 }

/-- `OUTPUT THE MINIMUM RECORD TO THE OUTPUT AREA`: insert the smallest element
of the input `min` into the active buffer of the output section; when it is full,
into the next one; when the section is full, flush the section first. -/
def output_record (E : MergeEnv) (v : MergeVars) (min : Int) : Step MergeVars :=
  let record := v.smallest_elem_ptr min
  match sort_spage_insert E.env E.qs E.calloc_ok (v.sp.internal_memory v.out_cur_bufaddr)
      record with
  | none => Step.stop StopKind.undefined v.published
  | some (pg, some _) => Step.next (v.set_buffer v.out_cur_bufaddr pg)
  | some (pg, none) =>
    let v0 := v.set_buffer v.out_cur_bufaddr pg
    if v0.out_act_bufno + 1 < v0.out_sectsize then
      insert_into_empty E (next_output_buffer v0) record
    else insert_into_empty E (flush_output_section E v0) record

/-- `PROCEED THE smallest_elem_ptr[min] TO NEXT RECORD`, up to the point where the
next record is got: the variables, and whether the current run of the input
`min` has finished (then `min_p` is still to move on). -/
def advance_input (v : MergeVars) (min : Int) : MergeVars × Bool :=
  let v1 := { v with act_slot := aset v.act_slot min (v.act_slot min + 1) }
  if v1.act_slot min ≥ v1.last_slot min then
    let v2 := { v1 with last_elem_cmp := 1,
                        in_act_bufno := aset v1.in_act_bufno min (v1.in_act_bufno min + 1) }
    if v2.in_act_bufno min < v2.in_last_buf min then
      let v3 := { v2 with in_cur_bufaddr := aset v2.in_cur_bufaddr min
                            (v2.in_sectaddr min + v2.in_act_bufno min) }
      ({ v3 with act_slot := aset v3.act_slot min 0,
                 last_slot := aset v3.last_slot min
                   (sort_spage_get_numrecs (v3.sp.internal_memory (v3.in_cur_bufaddr min))) },
        false)
    else
      let big_index := v2.sp.in_half + min
      let fc := v2.sp.file_contents big_index
      if fc.num_pages fc.first_run ≠ 0 then
        let read_pages0 := fc.num_pages fc.first_run
        let read_pages := if v2.in_sectsize < read_pages0 then v2.in_sectsize else read_pages0
        let sp1 := sort_read_area v2.sp big_index (v2.cur_page big_index) read_pages
          (v2.in_sectaddr min)
        let left := fc.num_pages fc.first_run - read_pages
        let fc1 := { fc with num_pages := aset fc.num_pages fc.first_run left }
        let sp2 := { sp1 with file_contents := aset sp1.file_contents big_index fc1 }
        let v3 := { v2 with sp := sp2,
                            in_cur_bufaddr := aset v2.in_cur_bufaddr min (v2.in_sectaddr min),
                            in_last_buf := aset v2.in_last_buf min read_pages,
                            cur_page := aset v2.cur_page big_index
                              (v2.cur_page big_index + read_pages),
                            in_act_bufno := aset v2.in_act_bufno min 0 }
        ({ v3 with act_slot := aset v3.act_slot min 0,
                   last_slot := aset v3.last_slot min
                     (sort_spage_get_numrecs (v3.sp.internal_memory (v3.in_cur_bufaddr min))) },
          false)
      else (v2, true)
  else (v1, false)

/-- The loop `find minimum`, `for (s = min_p; s; s = s->next)`, for the node `s`
and the nodes behind it: the record of `s` moves behind the records smaller than
it; an equal record behind it is marked as duplicated. -/
def find_minimum_from (E : MergeEnv) (v : MergeVars) (s : SORT_REC_LIST) :
    List SORT_REC_LIST → List SORT_REC_LIST
  | [] => [s]
  | p :: rest =>
    if E.compare (v.data s.rec_pos) (v.data p.rec_pos) > 0 then
      p :: find_minimum_from E v s rest
    else if E.compare (v.data s.rec_pos) (v.data p.rec_pos) = 0 then
      s :: { p with is_duplicated := true } :: rest
    else s :: p :: rest

/-- The loop `find minimum` on the list from `min_p`. -/
def find_minimum (E : MergeEnv) (v : MergeVars) : List SORT_REC_LIST → List SORT_REC_LIST
  | [] => []
  | s :: rest => find_minimum_from E v s rest

/-- The end of a pass of the loop `for (;;)`, after the next record of the input
of `min_p` is got: mark the node when the `last duplicated element in input section
page enters`, `find minimum`, and the `last element comparison` when a `new input
page is entered`. -/
def enter_record (E : MergeEnv) (v3 : MergeVars) (min_p : SORT_REC_LIST)
    (rest : List SORT_REC_LIST) : Step (MergeVars × Bool) :=
  let min := min_p.rec_pos
  let dup : Bool := v3.act_slot min = v3.last_slot min - 1 ∧ v3.last_elem_cmp = 0
  let l1 := { min_p with is_duplicated := dup } :: rest
  if v3.last_elem_cmp ≤ 0 then Step.next ({ v3 with sr_list := l1 }, true)
  else
    let v4 := { v3 with sr_list := find_minimum E v3 l1 }
    match v4.sr_list with
    | [] => Step.next (v4, true)
    | h :: _ =>
      if v4.act_slot h.rec_pos = 0 then
        match last_element_comparison E v4 with
        | Step.stop w p => Step.stop w p
        | Step.next v5 => Step.next (v5, true)
      else Step.next (v4, true)

/-- The part `PROCEED THE smallest_elem_ptr[min] TO NEXT RECORD` of a pass of the
loop `for (;;)`, with the nodes `rest` behind `min_p`: when the current run of the
input has finished the list goes on with `rest` (the `continue`), or the loop ends
(the `break`); else the next record is got and enters the list. -/
def proceed_input (E : MergeEnv) (v1 : MergeVars) (min_p : SORT_REC_LIST)
    (rest : List SORT_REC_LIST) : Step (MergeVars × Bool) :=
  let a := advance_input v1 min_p.rec_pos
  if a.2 then
    match rest with
    | [] => Step.next ({ a.1 with sr_list := [] }, false)
    | _ :: _ => Step.next ({ a.1 with sr_list := rest }, true)
  else
    match fetch_smallest E a.1 min_p.rec_pos with
    | Step.stop w p => Step.stop w p
    | Step.next v3 => enter_record E v3 min_p rest

/-- The part `OUTPUT A RECORD` of a pass of the loop `for (;;)`: the smallest
element of the input `min` goes to the consumer in the very last run, else to the
output section, unless its node is marked as duplicated. -/
def emit_record (E : MergeEnv) (v : MergeVars) (min_p : SORT_REC_LIST) : Step MergeVars :=
  if min_p.is_duplicated = false then
    if v.very_last_run then publish_record E v min_p.rec_pos
    else output_record E v min_p.rec_pos
  else Step.next v

/-- One pass of the loop `for (;;)` that outputs a record; the flag tells whether
the loop goes on (`false`: the `break`). -/
def merge_iteration (E : MergeEnv) (v : MergeVars) : Step (MergeVars × Bool) :=
  match v.sr_list with
  | [] => Step.stop StopKind.undefined v.published
  | min_p :: rest =>
    match emit_record E v min_p with
    | Step.stop w p => Step.stop w p
    | Step.next v1 => proceed_input E v1 min_p rest

/-- The loop `for (;;)` of `PRODUCE A NEW RUN`. -/
def merge_loop (E : MergeEnv) : Nat → MergeVars → Step MergeVars
  | 0, v => Step.stop StopKind.out_of_fuel v.published
  | n + 1, v =>
    match merge_iteration E v with
    | Step.stop w p => Step.stop w p
    | Step.next (v1, true) => merge_loop E n v1
    | Step.next (v1, false) => Step.next v1

/-- The search of the copy branch for the input file that holds the last run,
`for (i = in_half; i < in_half + pre_act_infiles; i++)`; `-1` when there is none. -/
def find_last_run_file (sp : SortParam) (pre_act_infiles : Int) : Nat → Int → Int
  | 0, _ => -1
  | n + 1, i =>
    if i < sp.in_half + pre_act_infiles then
      if (sp.file_contents i).first_run ≠ -1 then i
      else find_last_run_file sp pre_act_infiles n (i + 1)
    else -1

/-- The loop `while (cp_pages > 0)` of the copy branch, through the whole internal
memory. -/
def copy_run_loop (act : Int) : Nat → MergeVars → Int → Step MergeVars
  | 0, v, _ => Step.stop StopKind.out_of_fuel v.published
  | n + 1, v, cp_pages =>
    if cp_pages > 0 then
      let read_pages := if cp_pages > v.sp.tot_buffers then v.sp.tot_buffers else cp_pages
      let sp1 := sort_read_area v.sp act (v.cur_page act) read_pages 0
      let cur_page1 := aset v.cur_page act (v.cur_page act + read_pages)
      let sp2 := sort_write_area sp1 v.cur_outfile (cur_page1 v.cur_outfile) read_pages 0
      let cur_page2 := aset cur_page1 v.cur_outfile (cur_page1 v.cur_outfile + read_pages)
      copy_run_loop act n { v with sp := sp2, cur_page := cur_page2 } (cp_pages - read_pages)
    else Step.next v

/-- The loop that removes the first run of every input file,
`for (i = in_half; i < in_half + half_files; i++)`. -/
def remove_first_runs : Nat → SortParam → Int → SortParam
  | 0, sp, _ => sp
  | n + 1, sp, i =>
    if i < sp.in_half + sp.half_files then
      remove_first_runs n
        { sp with file_contents := aset sp.file_contents i
                    (sort_run_remove_first (sp.file_contents i)) } (i + 1)
    else sp

/-- The copy branch of the loop `PRODUCE RUNS`, with a single active input file
out of `pre_act_infiles`: its run is copied to the output file through the whole
internal memory; the run is done (the flag is `true`). -/
def copy_last_run (fuel : Nat) (v1 : MergeVars) (pre_act_infiles : Int) :
    Step (MergeVars × Bool) :=
  let act := find_last_run_file v1.sp pre_act_infiles pre_act_infiles.toNat v1.sp.in_half
  if act = -1 then Step.stop StopKind.undefined v1.published
  else
    let fc := v1.sp.file_contents act
    let cp_pages := fc.num_pages fc.first_run
    match sort_run_add_new true (v1.sp.file_contents v1.cur_outfile) cp_pages with
    | none => Step.stop StopKind.undefined v1.published
    | some (false, _) => Step.stop (StopKind.bailout SortError.er_errid) v1.published
    | some (true, out_contents) =>
      let fcs1 := aset v1.sp.file_contents v1.cur_outfile out_contents
      let fcs2 := aset fcs1 act (sort_run_remove_first (fcs1 act))
      match copy_run_loop act fuel { v1 with sp := { v1.sp with file_contents := fcs2 } }
          cp_pages with
      | Step.stop w p => Step.stop w p
      | Step.next v2 => Step.next (v2, true)

/-- The branch `redistribute buffers` of the loop `PRODUCE RUNS`: the internal
memory is distributed to the input sections of the active input files and the
output section. -/
def redistribute_buffers (v1 : MergeVars) : MergeVars :=
  let in_sectsize := sort_find_inbuf_size v1.sp.tot_buffers v1.act_infiles
  { v1 with in_sectsize := in_sectsize,
            out_sectsize := v1.sp.tot_buffers - in_sectsize * v1.act_infiles,
            in_sectaddr := fun i =>
              if 0 ≤ i ∧ i < v1.act_infiles then i * in_sectsize
              else v1.in_sectaddr i,
            out_sectaddr := v1.act_infiles * in_sectsize }

/-- The head of the body of the loop `PRODUCE RUNS` for the run `j`: for the
last run of a pass that is not the last one, some input files may be empty, and
the active input files are counted again; a single one is copied to the output
file (the flag is `true`: the run is done), for less than before the internal
memory is distributed again. -/
def prepare_run (fuel : Nat) (v : MergeVars) (j : Int) : Step (MergeVars × Bool) :=
  if v.very_last_run = false ∧ j = 1 then
    let pre_act_infiles : Int := v.act_infiles
    let v1 : MergeVars := { v with act_infiles := sort_get_numpages_of_active_infiles v.sp }
    if v1.act_infiles ≠ pre_act_infiles then
      if v1.act_infiles = (1 : Int) then copy_last_run fuel v1 pre_act_infiles
      else if v1.act_infiles = 0 then Step.stop StopKind.undefined v.published
      else Step.next (redistribute_buffers v1, false)
    else Step.next (v1, false)
  else Step.next (v, false)

/-- `INITIALIZE OUTPUT SECTION AND OUTPUT VARIABLES` at the start of a run. -/
def start_output (E : MergeEnv) (v3 : MergeVars) : MergeVars :=
  let v4 := { v3 with out_act_bufno := 0, out_cur_bufaddr := v3.out_sectaddr,
                      out_runsize := 0 }
  { v4 with sp := init_output_section E v4 }

/-- The list of the smallest elements at the start of a run: `linkage & init
nodes`, `sort sr_list`, `find duplicate`; `last_elem_cmp` is 1. -/
def start_list (E : MergeEnv) (v2 : MergeVars) : MergeVars :=
  let l0 := sr_list_init v2.act_infiles
  let l1 := sr_list_find_duplicate E v2 (sr_list_sort E v2 l0.length l0)
  { v2 with sr_list := l1, last_elem_cmp := 1 }

/-- The start of a run: the input sections are read, the list of the smallest
elements is set up and sorted, and the output section is initialised. -/
def start_run (E : MergeEnv) (v1 : MergeVars) : Step MergeVars :=
  match init_input_sections E v1.act_infiles.toNat v1 0 with
  | Step.stop w p => Step.stop w p
  | Step.next v2 =>
    match last_element_comparison E (start_list E v2) with
    | Step.stop w p => Step.stop w p
    | Step.next v3 => Step.next (start_output E v3)

/-- `Flush whatever is left on the output section`, unless the run is the very
last one: the buffers of the output section in use go to the output file. -/
def final_flush (v5 : MergeVars) : MergeVars :=
  if v5.very_last_run = false then
    let n := v5.out_act_bufno + 1
    { v5 with out_act_bufno := n,
              sp := sort_write_area v5.sp v5.cur_outfile (v5.cur_page v5.cur_outfile) n
                v5.out_sectaddr,
              cur_page := aset v5.cur_page v5.cur_outfile
                (v5.cur_page v5.cur_outfile + n),
              out_runsize := v5.out_runsize + n }
  else v5

/-- `END UP THIS RUN`: the first run of every input file is removed from its
ledger, the new run enters the ledger of the output file, and the next output
file is chosen. -/
def end_run (v6 : MergeVars) : Step MergeVars :=
  let sp7 := remove_first_runs v6.sp.half_files.toNat v6.sp v6.sp.in_half
  match sort_run_add_new true (sp7.file_contents v6.cur_outfile) v6.out_runsize with
  | none => Step.stop StopKind.undefined v6.published
  | some (false, _) => Step.stop (StopKind.bailout SortError.er_errid) v6.published
  | some (true, out_contents) =>
    let sp8 := { sp7 with file_contents := aset sp7.file_contents v6.cur_outfile out_contents }
    let next_outfile := v6.cur_outfile + 1
    Step.next
      { v6 with sp := sp8,
                cur_outfile := if next_outfile ≥ v6.sp.half_files + v6.out_half
                  then v6.out_half else next_outfile }

/-- The end of a run, after the loop that outputs its records. -/
def finish_run (v5 : MergeVars) : Step MergeVars :=
  end_run (final_flush v5)

/-- The body of the loop `PRODUCE RUNS` for the run `j`. -/
def produce_run (E : MergeEnv) (fuel : Nat) (v : MergeVars) (j : Int) : Step MergeVars :=
  match prepare_run fuel v j with
  | Step.stop w p => Step.stop w p
  | Step.next (v1, true) => Step.next v1
  | Step.next (v1, false) =>
    match start_run E v1 with
    | Step.stop w p => Step.stop w p
    | Step.next v4 =>
      match merge_loop E fuel v4 with
      | Step.stop w p => Step.stop w p
      | Step.next v5 => finish_run v5

/-- The loop `PRODUCE RUNS`, `for (j = num_runs; j > 0; j--)`. -/
def produce_runs (E : MergeEnv) (fuel : Nat) : Nat → MergeVars → Int → Step MergeVars
  | 0, v, _ => Step.stop StopKind.out_of_fuel v.published
  | n + 1, v, j =>
    if j > 0 then
      match produce_run E fuel v j with
      | Step.stop w p => Step.stop w p
      | Step.next v1 => produce_runs E fuel n v1 (j - 1)
    else Step.next v

/-- The number of runs a pass produces: the greatest number of runs of an active
input file, `for (i = in_half; i < in_half + act_infiles; i++)`. -/
def count_num_runs (sp : SortParam) (act_infiles : Int) : Nat → Int → Int → Int
  | 0, _, num_runs => num_runs
  | n + 1, i, num_runs =>
    if i < sp.in_half + act_infiles then
      let len := sort_get_num_file_contents (sp.file_contents i)
      count_num_runs sp act_infiles n (i + 1) (if len > num_runs then len else num_runs)
    else num_runs

/-- The head of the body of the `OUTER LOOP` for `act_infiles` active input
files: the current pages are reset, the internal memory is distributed to the
input sections and the output section, the first output file is chosen. -/
def distribute_memory (v : MergeVars) (act_infiles : Int) : MergeVars :=
  let in_sectsize := sort_find_inbuf_size v.sp.tot_buffers act_infiles
  { v with act_infiles := act_infiles,
           cur_page := fun i => if 0 ≤ i ∧ i < v.sp.tot_tempfiles then 0 else v.cur_page i,
           in_sectsize := in_sectsize,
           out_sectsize := v.sp.tot_buffers - in_sectsize * act_infiles,
           in_sectaddr := fun i =>
             if 0 ≤ i ∧ i < act_infiles then i * in_sectsize else v.in_sectaddr i,
           out_sectaddr := act_infiles * in_sectsize,
           cur_outfile := v.out_half }

/-- The setting of `very_last_run` at the head of a pass that produces `num_runs`
runs: `if (num_runs == 1) very_last_run = true`. -/
def mark_last_run (v1 : MergeVars) (num_runs : Int) : MergeVars :=
  if num_runs = 1 then { v1 with very_last_run := true } else v1

/-- `Exchange input and output file indices` at the end of a pass. -/
def exchange_halves (v3 : MergeVars) : MergeVars :=
  { v3 with sp := { v3.sp with in_half := v3.out_half }, out_half := v3.sp.in_half }

/-- The body of the `OUTER LOOP` for `act_infiles` active input files: one pass
of the merge. -/
def merge_pass (E : MergeEnv) (fuel : Nat) (v : MergeVars) (act_infiles : Int) :
    Step MergeVars :=
  let v1 : MergeVars := distribute_memory v act_infiles
  let num_runs := count_num_runs v1.sp act_infiles act_infiles.toNat v1.sp.in_half 0
  match produce_runs E fuel fuel (mark_last_run v1 num_runs) num_runs with
  | Step.stop w p => Step.stop w p
  | Step.next v3 => Step.next (exchange_halves v3)

/-- The `OUTER LOOP`, `while ((act_infiles =
sort_get_numpages_of_active_infiles (sort_param)) > 1)`. -/
def merge_outer_loop (E : MergeEnv) (fuel : Nat) : Nat → MergeVars → Step MergeVars
  | 0, v => Step.stop StopKind.out_of_fuel v.published
  | n + 1, v =>
    let act_infiles := sort_get_numpages_of_active_infiles v.sp
    if act_infiles > 1 then
      match merge_pass E fuel v act_infiles with
      | Step.stop w p => Step.stop w p
      | Step.next v1 => merge_outer_loop E fuel n v1
    else Step.next { v with act_infiles := act_infiles }

/-- The variables of `sort_exphase_merge_elim_dup` after its initialisations. The
variables the C code leaves without a value get the value of `junk`. -/
def merge_vars_init (sp : SortParam) (junk : MergeVars) : MergeVars :=
  let empty : RECDES := { junk.last_elem_ptr with data := [], area_size := 0 }
  { junk with
    sp := sp,
    in_act_bufno := fun i => if 0 ≤ i ∧ i < 4 then 0 else junk.in_act_bufno i,
    in_last_buf := fun i => if 0 ≤ i ∧ i < 4 then 0 else junk.in_last_buf i,
    act_slot := fun i => if 0 ≤ i ∧ i < 4 then 0 else junk.act_slot i,
    last_slot := fun i => if 0 ≤ i ∧ i < 4 then 0 else junk.last_slot i,
    smallest_elem_ptr := fun i =>
      if 0 ≤ i ∧ i < 4 then { junk.smallest_elem_ptr i with data := [], area_size := 0 }
      else junk.smallest_elem_ptr i,
    long_recdes := fun i =>
      if 0 ≤ i ∧ i < 4 then { junk.long_recdes i with data := [], area_size := 0 }
      else junk.long_recdes i,
    last_elem_ptr := empty,
    last_long_recdes := { junk.last_long_recdes with data := [], area_size := 0 },
    cur_page := fun i => if 0 ≤ i ∧ i < 8 then 0 else junk.cur_page i,
    out_half := if sp.in_half = 0 then sp.half_files else 0,
    very_last_run := false,
    published := [] }

/-- The C `sort_exphase_merge_elim_dup`, every call of the file, page buffer and
memory managers succeeding: the outcome, with the records published. `fuel`
bounds the number of iterations of each loop. -/
def sort_exphase_merge_elim_dup (E : MergeEnv) (fuel : Nat) (sp : SortParam)
    (junk : MergeVars) : Step MergeVars :=
  merge_outer_loop E fuel fuel (merge_vars_init sp junk)

/-- The records published by an outcome. -/
def Step.published_records : Step MergeVars → List RECDES
  | Step.next v => v.published
  | Step.stop _ p => p

/-! ## The merge phase: what the pages and the files hold -/

/-- A comparator on the data of records that imposes a strict weak order, with
the `strcmp` protocol for its result. -/
structure DataOrder (compare : List Byte → List Byte → Int) : Prop where
  refl : ∀ a, compare a a = 0
  symm : ∀ a b, compare a b < 0 ↔ 0 < compare b a
  trans_lt : ∀ a b c, compare a b < 0 → compare b c < 0 → compare a c < 0
  trans_eq : ∀ a b c, compare a b = 0 → compare b c = 0 → compare a c = 0

/-- What the merge needs of a comparator, with the `strcmp` protocol for its
result: `<= 0` is reflexive and transitive, of two records one is `<= 0` the
other, and `< 0` goes along `<= 0` on either side. A strict weak order has these
properties, and so has a comparator that never answers `0` and tells `<= 0` of a
strict weak order by a negative result. -/
structure SiftOrder (compare : List Byte → List Byte → Int) : Prop where
  refl_le : ∀ a, compare a a ≤ 0
  lt_of_gt : ∀ {a b}, compare a b > 0 → compare b a < 0
  le_trans : ∀ {a b c}, compare a b ≤ 0 → compare b c ≤ 0 → compare a c ≤ 0
  lt_of_lt_of_le : ∀ {a b c}, compare a b < 0 → compare b c ≤ 0 → compare a c < 0
  lt_of_le_of_lt : ∀ {a b c}, compare a b ≤ 0 → compare b c < 0 → compare a c < 0
  lt_of_eqv_of_lt : ∀ {a b c}, compare a b = 0 → compare b c < 0 → compare a c < 0

/-- The record of the slot `i` of a page, as `sort_spage_get_record` hands it out
in `PEEK` mode. -/
def slot_record (pg : Page) (i : Nat) : RECDES :=
  { area_size := -1, data := read_bytes pg.bytes (pg.slots i).roffset (pg.slots i).rlength,
    length := (pg.slots i).rlength, type := (pg.slots i).rtype }

/-- The records of a page, in slot order. -/
def page_records (pg : Page) : List RECDES :=
  (List.range pg.hdr.nslots.toNat).map (slot_record pg)

/-- The data the comparator gets for a record of a page: the content of the
overflow file for a long record, else the data of the record. -/
def MergeEnv.key (E : MergeEnv) (r : RECDES) : List Byte :=
  if r.type = RecType.REC_BIGONE then (E.overflow_get r.data).getD [] else r.data

/-- The records are in strictly ascending order of their keys. -/
def KeyAsc (E : MergeEnv) (l : List RECDES) : Prop :=
  l.Pairwise (fun a b => E.compare (E.key a) (E.key b) < 0)
/-- The smallest elements after a node that is not marked as duplicated are
greater than the ones before it, in the list `t` of nodes with the smallest
elements `K` of the inputs. -/
def FlagPair (compare : List Byte → List Byte → Int) (K : Int → List Byte)
    (t : List SORT_REC_LIST) : Prop :=
  t.Pairwise (fun n m => m.is_duplicated = false →
    compare (K n.rec_pos) (K m.rec_pos) < 0)

/-- The invariant of the list of the smallest elements, with the keys `EM` of the
records sent out so far: the nodes are of different inputs and in ascending order
of their smallest elements `K`; no smallest element is less than a record sent
out, and one that is not marked as duplicated is greater than every record sent
out and than every smallest element before it, the first one apart when that is
marked as duplicated. -/
structure OrderInv (compare : List Byte → List Byte → Int) (K : Int → List Byte)
    (EM : List (List Byte)) (nodes : List SORT_REC_LIST) : Prop where
  nodup : (nodes.map (fun n => n.rec_pos)).Nodup
  sorted : nodes.Pairwise (fun n m => compare (K n.rec_pos) (K m.rec_pos) ≤ 0)
  lower : ∀ n ∈ nodes, ∀ l ∈ EM, compare l (K n.rec_pos) ≤ 0
  fresh : ∀ n ∈ nodes, n.is_duplicated = false → ∀ l ∈ EM, compare l (K n.rec_pos) < 0
  flags : FlagPair compare K nodes.tail
  head : ∀ h ∈ nodes.head?, ∀ m ∈ nodes.tail, m.is_duplicated = false →
    h.is_duplicated = true ∨ compare (K h.rec_pos) (K m.rec_pos) < 0
/-- The pages `f p`, `f (p + 1)`, ..., `n` of them. -/
def pages_seq (f : Int → Page) (p n : Int) : List Page :=
  (List.range n.toNat).map (fun (k : Nat) => f (p + (k : Int)))

/-- The records of a list of pages, page after page. -/
def recs_of (l : List Page) : List RECDES := (l.map page_records).flatten

/-- The `n` pages from the page `p` of a file hold a run: every page is a slotted
page of the alignment of the sort, and the records are in strictly ascending
order of their keys. -/
def RunOK (E : MergeEnv) (pages : Int → Page) (p n : Int) : Prop :=
  (∀ pg ∈ pages_seq pages p n, PageInv E.env E.MAX_ALIGNMENT pg) ∧
    KeyAsc E (recs_of (pages_seq pages p n))

/-- The `n` runs from the run `k` of a ledger lie one after the other in the
pages of the file from the page `p` up to the page `q`. -/
def RunsTo (E : MergeEnv) (pages : Int → Page) (num_pages : Int → Int) :
    Nat → Int → Int → Int → Prop
  | 0, _, p, q => p = q
  | n + 1, k, p, q => 0 ≤ num_pages k ∧ RunOK E pages p (num_pages k) ∧
      RunsTo E pages num_pages n (k + 1) (p + num_pages k) q

/-- The pages that the input `i` still has of its current run: the active buffer
and the buffers after it in the input section, then the pages not read yet. -/
def in_pages (v : MergeVars) (i : Int) : List Page :=
  let big := v.sp.in_half + i
  let fc := v.sp.file_contents big
  pages_seq v.sp.internal_memory (v.in_cur_bufaddr i) (v.in_last_buf i - v.in_act_bufno i) ++
    pages_seq (v.sp.temp big) (v.cur_page big) (fc.num_pages fc.first_run)

/-- The records that the input `i` still has of its current run after the record
of the active slot. -/
def in_rest (v : MergeVars) (i : Int) : List RECDES :=
  (recs_of (in_pages v i)).drop ((v.act_slot i).toNat + 1)

/-- The records of the current run of the input `i` in its file: the records of
the pages of the first run of its ledger, from the current page of the file
on. -/
def run_records (v : MergeVars) (i : Int) : List RECDES :=
  recs_of (pages_seq (v.sp.temp (v.sp.in_half + i)) (v.cur_page (v.sp.in_half + i))
    ((v.sp.file_contents (v.sp.in_half + i)).num_pages
      (v.sp.file_contents (v.sp.in_half + i)).first_run))

/-- The invariant of the input `i` whose smallest element has the key `k`. -/
structure InputInv (E : MergeEnv) (v : MergeVars) (i : Int) (k : List Byte) : Prop where
  bufno : 0 ≤ v.in_act_bufno i ∧ v.in_act_bufno i < v.in_last_buf i ∧
    v.in_last_buf i ≤ v.in_sectsize
  addr : v.in_cur_bufaddr i = v.in_sectaddr i + v.in_act_bufno i
  slot : 0 ≤ v.act_slot i ∧ v.act_slot i < v.last_slot i
  last : v.last_slot i = (v.sp.internal_memory (v.in_cur_bufaddr i)).hdr.nslots
  npages : 0 ≤ (v.sp.file_contents (v.sp.in_half + i)).num_pages
    (v.sp.file_contents (v.sp.in_half + i)).first_run
  pages : ∀ pg ∈ in_pages v i, PageInv E.env E.MAX_ALIGNMENT pg
  asc : KeyAsc E (in_rest v i)
  head : ∀ r ∈ in_rest v i, E.compare k (E.key r) < 0
/-- The invariant of the input `i` of the list of the smallest elements:
`smallest_elem_ptr[i]` is the record of the active slot, and the comparator gets
its key. -/
structure NodeOK (E : MergeEnv) (v : MergeVars) (i : Int) : Prop where
  input : InputInv E v i (v.data i)
  small : v.smallest_elem_ptr i =
    slot_record (v.sp.internal_memory (v.in_cur_bufaddr i)) (v.act_slot i).toNat
  key : v.data i = E.key (v.smallest_elem_ptr i)

/-- The variables that no step of the loop that outputs the records changes. -/
structure SameStatic (v v1 : MergeVars) : Prop where
  tot_buffers : v1.sp.tot_buffers = v.sp.tot_buffers
  tot_tempfiles : v1.sp.tot_tempfiles = v.sp.tot_tempfiles
  half_files : v1.sp.half_files = v.sp.half_files
  in_half : v1.sp.in_half = v.sp.in_half
  act_infiles : v1.act_infiles = v.act_infiles
  in_sectsize : v1.in_sectsize = v.in_sectsize
  in_sectaddr : v1.in_sectaddr = v.in_sectaddr
  out_half : v1.out_half = v.out_half
  cur_outfile : v1.cur_outfile = v.cur_outfile
  out_sectsize : v1.out_sectsize = v.out_sectsize
  out_sectaddr : v1.out_sectaddr = v.out_sectaddr
  very_last_run : v1.very_last_run = v.very_last_run

/-- The file `f` is the same in two states: its ledger, its current page and its
pages. -/
structure SameFile (v v1 : MergeVars) (f : Int) : Prop where
  contents : v1.sp.file_contents f = v.sp.file_contents f
  cur_page : v1.cur_page f = v.cur_page f
  temp : v1.sp.temp f = v.sp.temp f

/-- The input `i` is the same in two states: its variables and the buffers of its
section. -/
structure SameInput (v v1 : MergeVars) (i : Int) : Prop where
  in_act_bufno : v1.in_act_bufno i = v.in_act_bufno i
  in_last_buf : v1.in_last_buf i = v.in_last_buf i
  act_slot : v1.act_slot i = v.act_slot i
  last_slot : v1.last_slot i = v.last_slot i
  in_cur_bufaddr : v1.in_cur_bufaddr i = v.in_cur_bufaddr i
  smallest_elem_ptr : v1.smallest_elem_ptr i = v.smallest_elem_ptr i
  long_recdes : v1.long_recdes i = v.long_recdes i
  memory : ∀ b, v.in_sectaddr i ≤ b → b < v.in_sectaddr i + v.in_sectsize →
    v1.sp.internal_memory b = v.sp.internal_memory b

/-- The output is the same in two states: its variables, the buffers of its
section, and the records published. -/
structure SameOutput (v v1 : MergeVars) : Prop where
  out_act_bufno : v1.out_act_bufno = v.out_act_bufno
  out_runsize : v1.out_runsize = v.out_runsize
  out_cur_bufaddr : v1.out_cur_bufaddr = v.out_cur_bufaddr
  published : v1.published = v.published
  memory : ∀ b, v.out_sectaddr ≤ b → b < v.out_sectaddr + v.out_sectsize →
    v1.sp.internal_memory b = v.sp.internal_memory b

/-- What moving the input `min` on to its next record leaves as it is. -/
structure AdvFrame (v v1 : MergeVars) (min : Int) : Prop where
  static : SameStatic v v1
  temp : v1.sp.temp = v.sp.temp
  memory : ∀ b, ¬ (v.in_sectaddr min ≤ b ∧ b < v.in_sectaddr min + v.in_sectsize) →
    v1.sp.internal_memory b = v.sp.internal_memory b
  files : ∀ f, f ≠ v.sp.in_half + min →
    v1.sp.file_contents f = v.sp.file_contents f ∧ v1.cur_page f = v.cur_page f
  first_run : (v1.sp.file_contents (v.sp.in_half + min)).first_run =
    (v.sp.file_contents (v.sp.in_half + min)).first_run
  last_run : (v1.sp.file_contents (v.sp.in_half + min)).last_run =
    (v.sp.file_contents (v.sp.in_half + min)).last_run
  num_pages : ∀ k, k ≠ (v.sp.file_contents (v.sp.in_half + min)).first_run →
    (v1.sp.file_contents (v.sp.in_half + min)).num_pages k =
      (v.sp.file_contents (v.sp.in_half + min)).num_pages k
  total : v1.cur_page (v.sp.in_half + min) +
      (v1.sp.file_contents (v.sp.in_half + min)).num_pages
        (v.sp.file_contents (v.sp.in_half + min)).first_run =
    v.cur_page (v.sp.in_half + min) +
      (v.sp.file_contents (v.sp.in_half + min)).num_pages
        (v.sp.file_contents (v.sp.in_half + min)).first_run
  inputs : ∀ j, j ≠ min →
    v1.in_act_bufno j = v.in_act_bufno j ∧ v1.in_last_buf j = v.in_last_buf j ∧
    v1.act_slot j = v.act_slot j ∧ v1.last_slot j = v.last_slot j ∧
    v1.in_cur_bufaddr j = v.in_cur_bufaddr j ∧
    v1.smallest_elem_ptr j = v.smallest_elem_ptr j ∧ v1.long_recdes j = v.long_recdes j
  out_act_bufno : v1.out_act_bufno = v.out_act_bufno
  out_runsize : v1.out_runsize = v.out_runsize
  out_cur_bufaddr : v1.out_cur_bufaddr = v.out_cur_bufaddr
  published : v1.published = v.published
  sr_list : v1.sr_list = v.sr_list

/-- What the run with the merge needs of the host: usable constants, a
comparator that imposes a strict weak order, and a comparator that does not
depend on the link that `cut_link` stores. -/
structure EnvOK (E : MergeEnv) : Prop where
  env : E.env.Valid
  align : ValidAlignment E.MAX_ALIGNMENT
  order : DataOrder E.compare
  cut_left : ∀ a b, E.compare (E.cut_link a) b = E.compare a b
  cut_right : ∀ a b, E.compare a (E.cut_link b) = E.compare a b

/-- What the loops of the merge need of the host: as `EnvOK`, with the
properties of the comparator that the sifting of the list of the smallest
elements relies on. -/
structure EnvSift (E : MergeEnv) : Prop where
  env : E.env.Valid
  align : ValidAlignment E.MAX_ALIGNMENT
  order : SiftOrder E.compare
  cut_left : ∀ a b, E.compare (E.cut_link a) b = E.compare a b
  cut_right : ∀ a b, E.compare a (E.cut_link b) = E.compare a b

/-- The sections of the internal memory while a run is produced: the input
section of the input `i` starts at the buffer `i * in_sectsize`, the output section
behind the input sections; the two halves of the temp files are the files
`0 .. half_files - 1` and `half_files .. 2 * half_files - 1`. -/
structure Layout (v : MergeVars) : Prop where
  sectsize : 1 ≤ v.in_sectsize
  act : 0 ≤ v.act_infiles ∧ v.act_infiles ≤ v.sp.half_files
  in_addr : ∀ i, 0 ≤ i → i < v.act_infiles → v.in_sectaddr i = i * v.in_sectsize
  out_addr : v.out_sectaddr = v.act_infiles * v.in_sectsize
  out_size : 1 ≤ v.out_sectsize
  halves : (v.sp.in_half = 0 ∧ v.out_half = v.sp.half_files) ∨
    (v.sp.in_half = v.sp.half_files ∧ v.out_half = 0)
  outfile : v.out_half ≤ v.cur_outfile ∧ v.cur_outfile < v.out_half + v.sp.half_files

/-- The pages of the run that is being produced: the pages written to the
output file, then the buffers of the output section up to the active one. -/
def out_pages (v : MergeVars) : List Page :=
  pages_seq (v.sp.temp v.cur_outfile) (v.cur_page v.cur_outfile - v.out_runsize) v.out_runsize ++
    pages_seq v.sp.internal_memory v.out_sectaddr (v.out_act_bufno + 1)

/-- The invariant of the output of a run that goes to a temp file; `EM` are the
keys of the records sent out. -/
structure OutInv (E : MergeEnv) (v : MergeVars) (EM : List (List Byte)) : Prop where
  bufno : 0 ≤ v.out_act_bufno ∧ v.out_act_bufno < v.out_sectsize
  addr : v.out_cur_bufaddr = v.out_sectaddr + v.out_act_bufno
  runsize : 0 ≤ v.out_runsize
  pages : ∀ pg ∈ out_pages v, PageInv E.env E.MAX_ALIGNMENT pg
  spare : ∀ b, v.out_cur_bufaddr < b → b < v.out_sectaddr + v.out_sectsize →
    PageInv E.env E.MAX_ALIGNMENT (v.sp.internal_memory b) ∧
      page_records (v.sp.internal_memory b) = []
  asc : KeyAsc E (recs_of (out_pages v))
  keys : EM = (recs_of (out_pages v)).map E.key
  published : v.published = []

/-- The records are in strictly ascending order of the comparator on their
data. -/
def PubOK (E : MergeEnv) (p : List RECDES) : Prop :=
  p.Pairwise (fun a b => E.compare a.data b.data < 0)

/-- The invariant of the output of the very last run, which goes to the
consumer. -/
structure PubInv (E : MergeEnv) (v : MergeVars) (EM : List (List Byte)) : Prop where
  asc : PubOK E v.published
  keys : EM = v.published.map (fun r => r.data)

/-- The runs of an input file behind its current run are runs that lie one
after the other behind the pages of the current run not read yet. -/
def RestInv (E : MergeEnv) (v : MergeVars) (f : Int) : Prop :=
  (v.sp.file_contents f).first_run = -1 ∨
  (0 ≤ (v.sp.file_contents f).first_run ∧
    (v.sp.file_contents f).first_run ≤ (v.sp.file_contents f).last_run ∧
    ∃ q, RunsTo E (v.sp.temp f) (v.sp.file_contents f).num_pages
      ((v.sp.file_contents f).last_run - (v.sp.file_contents f).first_run).toNat
      ((v.sp.file_contents f).first_run + 1)
      (v.cur_page f + (v.sp.file_contents f).num_pages (v.sp.file_contents f).first_run) q)

/-- The runs of an output file lie one after the other from the page 0 up to
its current page, the last `extra` pages apart. -/
def OutFileInv (E : MergeEnv) (v : MergeVars) (g : Int) (extra : Int) : Prop :=
  ((v.sp.file_contents g).first_run = -1 ∧ v.cur_page g - extra = 0) ∨
  ((v.sp.file_contents g).first_run = 0 ∧ 0 ≤ (v.sp.file_contents g).last_run ∧
    RunsTo E (v.sp.temp g) (v.sp.file_contents g).num_pages
      ((v.sp.file_contents g).last_run + 1).toNat 0 0 (v.cur_page g - extra))

/-- The invariant of `last_elem_cmp`: when it is not positive, it is the result
of the comparison of the last record of the active page of the first input of the
list with the smallest element of the second one. -/
def LCInv (E : MergeEnv) (v : MergeVars) : Prop :=
  v.last_elem_cmp ≤ 0 → ∃ h p t, v.sr_list = h :: p :: t ∧
    v.last_elem_cmp = E.compare
      (E.key (slot_record (v.sp.internal_memory (v.in_cur_bufaddr h.rec_pos))
        (v.last_slot h.rec_pos - 1).toNat))
      (v.data p.rec_pos)

/-- The invariant of the loop that outputs the records of a run; `EM` are the
keys of the records sent out so far. An input that is not in the list of the
smallest elements any more has no page of its current run left. -/
structure RunLoopInv (E : MergeEnv) (v : MergeVars) (EM : List (List Byte)) : Prop where
  layout : Layout v
  nodes : ∀ n ∈ v.sr_list, 0 ≤ n.rec_pos ∧ n.rec_pos < v.act_infiles ∧ NodeOK E v n.rec_pos
  order : OrderInv E.compare v.data EM v.sr_list
  lc : LCInv E v
  pub : v.very_last_run = true → PubInv E v EM
  out : v.very_last_run = false → OutInv E v EM
  rest : ∀ i, 0 ≤ i → i < v.sp.half_files → RestInv E v (v.sp.in_half + i)
  outfiles : ∀ i, 0 ≤ i → i < v.sp.half_files →
    OutFileInv E v (v.out_half + i) (if v.out_half + i = v.cur_outfile then v.out_runsize else 0)
  done : ∀ i, 0 ≤ i → i < v.act_infiles → (∃ n ∈ v.sr_list, n.rec_pos = i) ∨
    (v.sp.file_contents (v.sp.in_half + i)).num_pages
      (v.sp.file_contents (v.sp.in_half + i)).first_run = 0
/-- What holds after the record of the first input `min` of the list is sent
out, or skipped as a duplicate, with the keys `EM1` of the records sent out: the
other inputs and the input files are as before, the input `min` has its records
after the active slot as before, and the output has its invariant. -/
structure EmitPost (E : MergeEnv) (v v1 : MergeVars) (min : Int) (EM1 : List (List Byte)) :
    Prop where
  static : SameStatic v v1
  inputs : ∀ j, 0 ≤ j → j < v.act_infiles → j ≠ min → SameInput v v1 j
  files : ∀ i, 0 ≤ i → i < v.sp.half_files → SameFile v v1 (v.sp.in_half + i)
  contents : v1.sp.file_contents = v.sp.file_contents
  input : InputInv E v1 min (v.data min)
  sr_list : v1.sr_list = v.sr_list
  last_elem_cmp : v1.last_elem_cmp = v.last_elem_cmp
  act_slot : v1.act_slot min = v.act_slot min
  last_slot : v1.last_slot min = v.last_slot min
  in_cur_bufaddr : v1.in_cur_bufaddr min = v.in_cur_bufaddr min
  lastrec : v.act_slot min + 1 < v.last_slot min →
    slot_record (v1.sp.internal_memory (v.in_cur_bufaddr min)) (v.last_slot min - 1).toNat =
      slot_record (v.sp.internal_memory (v.in_cur_bufaddr min)) (v.last_slot min - 1).toNat
  pub : v.very_last_run = true → PubInv E v1 EM1
  out : v.very_last_run = false → OutInv E v1 EM1
  outfiles : ∀ i, 0 ≤ i → i < v.sp.half_files →
    OutFileInv E v1 (v.out_half + i)
      (if v.out_half + i = v.cur_outfile then v1.out_runsize else 0)
  rest : in_rest v1 min = in_rest v min

/-- What holds of the outcome of a step: the invariant `P` of the state when the
step ran to its end, else that the records published are in strictly ascending
order. -/
def Step.Safe {σ : Type} (E : MergeEnv) (P : σ → Prop) : Step σ → Prop
  | Step.next s => P s
  | Step.stop _ p => PubOK E p
/-- What sending a record to the output section leaves as it is: the inputs,
the input files, the pages of the output file written before, and the list of
the smallest elements. -/
structure OutFrame (v w : MergeVars) : Prop where
  static : SameStatic v w
  file_contents : w.sp.file_contents = v.sp.file_contents
  temp : ∀ f, f ≠ v.cur_outfile → w.sp.temp f = v.sp.temp f
  temp_cur : ∀ p, p < v.cur_page v.cur_outfile →
    w.sp.temp v.cur_outfile p = v.sp.temp v.cur_outfile p
  cur_page : ∀ f, f ≠ v.cur_outfile → w.cur_page f = v.cur_page f
  cur_le : v.cur_page v.cur_outfile ≤ w.cur_page v.cur_outfile
  total : w.cur_page v.cur_outfile - w.out_runsize = v.cur_page v.cur_outfile - v.out_runsize
  memory : ∀ b, b < v.out_sectaddr → w.sp.internal_memory b = v.sp.internal_memory b
  in_act_bufno : w.in_act_bufno = v.in_act_bufno
  in_last_buf : w.in_last_buf = v.in_last_buf
  act_slot : w.act_slot = v.act_slot
  last_slot : w.last_slot = v.last_slot
  in_cur_bufaddr : w.in_cur_bufaddr = v.in_cur_bufaddr
  smallest_elem_ptr : w.smallest_elem_ptr = v.smallest_elem_ptr
  long_recdes : w.long_recdes = v.long_recdes
  sr_list : w.sr_list = v.sr_list
  last_elem_cmp : w.last_elem_cmp = v.last_elem_cmp
  published : w.published = v.published
/-- The invariant of the nodes behind the first node of the list of the smallest
elements: as `OrderInv`, and every node that is not marked as duplicated is
greater than every node before it. -/
structure TailInv (compare : List Byte → List Byte → Int) (K : Int → List Byte)
    (EM : List (List Byte)) (nodes : List SORT_REC_LIST) : Prop where
  nodup : (nodes.map (fun n => n.rec_pos)).Nodup
  sorted : nodes.Pairwise (fun n m => compare (K n.rec_pos) (K m.rec_pos) ≤ 0)
  lower : ∀ n ∈ nodes, ∀ l ∈ EM, compare l (K n.rec_pos) ≤ 0
  fresh : ∀ n ∈ nodes, n.is_duplicated = false → ∀ l ∈ EM, compare l (K n.rec_pos) < 0
  flags : FlagPair compare K nodes
/-- What the loop that outputs the records of a run leaves as it is: the
variables of `SameStatic`, the first and the last run of every ledger, the
numbers of pages of the runs behind the first one, and the ledgers of the
output files. -/
structure LoopFrame (v v1 : MergeVars) : Prop where
  static : SameStatic v v1
  first_run : ∀ f, (v1.sp.file_contents f).first_run = (v.sp.file_contents f).first_run
  last_run : ∀ f, (v1.sp.file_contents f).last_run = (v.sp.file_contents f).last_run
  num_pages : ∀ f k, k ≠ (v.sp.file_contents f).first_run →
    (v1.sp.file_contents f).num_pages k = (v.sp.file_contents f).num_pages k
  outputs : ∀ i, 0 ≤ i → i < v.sp.half_files →
    v1.sp.file_contents (v.out_half + i) = v.sp.file_contents (v.out_half + i)

/-! ## The number of temp files -/

/-- The C `sort_get_num_half_tmpfiles`. The macro `CEIL_PTVDIV` is not in the
source: it is a parameter. `SORT_MIN_HALF_FILES` is 2, `SORT_MAX_HALF_FILES`
is 4. -/
def sort_get_num_half_tmpfiles (CEIL_PTVDIV : Int → Int → Int)
    (tot_buffers input_pages : Int) : Int :=
  let half_files0 := tot_buffers - 1
  let half_files :=
    if input_pages > 0 then
      let exp_num_runs := CEIL_PTVDIV input_pages tot_buffers + 1
      if exp_num_runs < half_files0 then
        if exp_num_runs > Int.tdiv tot_buffers 2 then exp_num_runs
        else Int.tdiv tot_buffers 2
      else half_files0
    else half_files0
  if half_files < 2 then 2
  else if half_files < 4 then half_files
  else 4

/-! ## Example states of the merge phase -/

/-- Sort parameters with ten buffers, two temp files in each half and empty
ledgers. -/
def sort_param_ten : SortParam :=
  { temp := fun _ _ => blank_page, file_contents := fun _ => file_contents_init (fun _ => 0),
    internal_memory := fun _ => blank_page, tot_buffers := 10, tot_tempfiles := 4,
    half_files := 2, in_half := 0 }

/-- A record descriptor without data. -/
def recdes_none : RECDES := { area_size := 0, length := 0, type := RecType.REC_HOME, data := [] }

/-- Variables of the merge phase with the value zero everywhere. -/
def merge_vars_ten : MergeVars :=
  { sp := sort_param_ten, act_infiles := 0, in_sectsize := 0, in_act_bufno := fun _ => 0,
    in_last_buf := fun _ => 0, act_slot := fun _ => 0, last_slot := fun _ => 0,
    in_sectaddr := fun _ => 0, in_cur_bufaddr := fun _ => 0, out_half := 0, cur_outfile := 0,
    out_sectsize := 0, out_act_bufno := 0, out_runsize := 0, out_sectaddr := 0,
    out_cur_bufaddr := 0, smallest_elem_ptr := fun _ => recdes_none,
    long_recdes := fun _ => recdes_none, cur_page := fun _ => 0, very_last_run := false,
    sr_list := [], last_elem_ptr := recdes_none, last_long_recdes := recdes_none,
    last_elem_cmp := 0, published := [] }

/-! ## The ledgers of the runs: sequences of calls -/

/-- The page counts of the runs of a ledger, from the first run to the last
one. -/
def live_runs (fc : FILE_CONTENTS) : List Int :=
  (List.range (sort_get_num_file_contents fc).toNat).map
    (fun (i : Nat) => fc.num_pages (fc.first_run + (i : Int)))

/-- A call on a ledger: `sort_run_add_new` with the outcome of its
reallocation and the page count, or `sort_run_remove_first`. -/
inductive LedgerCall where
  | add_new (realloc_ok : Bool) (num_pages : Int)
  | remove_first

/-- A sequence of calls on a ledger, up to the first call of `sort_run_add_new`
that returns `ER_FAILED` (every caller gives the sort up then, and the array
of the ledger is NULL): the ledger afterwards, and whether every call of
`sort_run_add_new` returned `NO_ERROR`. `none` when a call is undefined. -/
def ledger_calls : FILE_CONTENTS → List LedgerCall → Option (FILE_CONTENTS × Bool)
  | fc, [] => some (fc, true)
  | fc, LedgerCall.add_new realloc_ok num_pages :: rest =>
    match sort_run_add_new realloc_ok fc num_pages with
    | none => none
    | some (false, fc1) => some (fc1, false)
    | some (true, fc1) => ledger_calls fc1 rest
  | fc, LedgerCall.remove_first :: rest => ledger_calls (sort_run_remove_first fc) rest

/-- A ledger is well formed: the array has a cell, and the ledger is empty or
its runs are the cells `first_run .. last_run` of the array. -/
def LedgerWF (fc : FILE_CONTENTS) : Prop :=
  1 ≤ fc.num_slots ∧
    (fc.first_run = -1 ∨
      (0 ≤ fc.first_run ∧ fc.first_run ≤ fc.last_run ∧ fc.last_run < fc.num_slots))

instance (fc : FILE_CONTENTS) : Decidable (LedgerWF fc) := by
  unfold LedgerWF; infer_instance

/-- A ledger whose array of 29449089 cells is full (29449089 is a size that the
array of a ledger reaches from 30 cells: 30, 45, 68, 102, ...). -/
def ledger_full_big : FILE_CONTENTS :=
  { num_pages := fun _ => 1, num_slots := 29449089, first_run := 0, last_run := 29449088 }

/-- A ledger with the runs of 5, 6 and 7 pages in an array of three cells. -/
def ledger_three : FILE_CONTENTS :=
  { num_pages := fun j => j + 5, num_slots := 3, first_run := 0, last_run := 2 }

/-- The bound on a ledger after `k` calls of `sort_run_add_new`: the array has
at most `max 30 (1.5 k + 0.5)` cells and the last run is below `k`. -/
def LedgerBound (fc : FILE_CONTENTS) (k : Int) : Prop :=
  2 * fc.num_slots ≤ max 60 (3 * k + 1) ∧ fc.last_run < k ∧ fc.last_run < fc.num_slots

/-- The ledger after `j` calls of `sort_run_remove_first`. -/
def remove_first_times : Nat → FILE_CONTENTS → FILE_CONTENTS
  | 0, fc => fc
  | j + 1, fc => remove_first_times j (sort_run_remove_first fc)

/-! ## The input phase: what the sort is run with -/

/-- The values that `get_fn` returns; the enumeration is declared outside the
source, `other` is any value that is none of the four the source names. -/
inductive SORT_STATUS where
  | SORT_SUCCESS
  | SORT_REC_DOESNT_FIT
  | SORT_NOMORE_RECS
  | SORT_ERROR_OCCURRED
  | other
  deriving DecidableEq, Repr

/-- The values that `sort_inphase_sort` and `sort_listfile` return: `er_errid` is
the value of `er_errid ()`, `put_error` a value of `put_fn` that is neither
`NO_ERROR` nor `SORT_PUT_STOP`. -/
inductive SortCode where
  | NO_ERROR
  | ER_OUT_OF_VIRTUAL_MEMORY
  | ER_GENERIC_ERROR
  | er_errid
  | put_error (code : Int)
  deriving DecidableEq, Repr

/-- What the sort does to its surroundings, in the order of time: a call of
`get_fn` with the status and the descriptor it gave back, a call of `put_fn`
with the descriptor it got and the value it returned, `file_create_tmp` for a
temp file or for the file of the long records with its outcome, `file_destroy`
for a temp file or for the file of the long records. -/
inductive SortEvent where
  | get (status : SORT_STATUS) (recdes : RECDES)
  | put (recdes : RECDES) (ret : Int)
  | create_temp (file : Int) (ok : Bool)
  | create_multipage (ok : Bool)
  | destroy_temp (file : Int)
  | destroy_multipage
  deriving DecidableEq, Repr

/-- What `sort_listfile` is run with. `M` holds the constants of the host, the
comparator and the consumer `put_fn` (which sees the records put before). The
sizes `sizeof (char *)`, `SORT_RECORD_LENGTH_SIZE`, `sizeof (SORT_REC)`,
`sizeof (VPID)`, the values `SORT_PUT_STOP` and `PRM_SR_NBUFFERS` and the macro
`CEIL_PTVDIV` are not in the source: they are parameters. The producer `get_fn`
and the services see the events so far: `get_fn` gets the descriptor and gives
the status, the length it stored into the descriptor and the bytes it left in
the area of the descriptor; `next_of_data` is the field `next` of a record that the producer delivered
(the layout of `SORT_REC` is not in the source); `malloc_ok`,
`file_create_tmp_ok`, `realloc_ok` are the outcomes of `malloc` for a long
record, of `file_create_tmp` and of `db_private_realloc`; `overflow_insert`
gives the handle (the bytes of the `VPID`) of a long record, `none` when it
fails; `malloc_arena_ok`, `malloc_arena_again_ok` and `alloc_ledger_ok` are the
outcomes of the allocations of `sort_listfile`. -/
structure SortWorld where
  M : MergeEnv
  SIZEOF_POINTER : Int
  SORT_RECORD_LENGTH_SIZE : Int
  SIZEOF_SORT_REC : Int
  SIZEOF_VPID : Int
  SORT_PUT_STOP : Int
  PRM_SR_NBUFFERS : Int
  CEIL_PTVDIV : Int → Int → Int
  get_fn : List SortEvent → RECDES → SORT_STATUS × Int × List Byte
  next_of_data : List Byte → Option Nat
  malloc_ok : List SortEvent → Bool
  file_create_tmp_ok : List SortEvent → Bool
  realloc_ok : List SortEvent → Bool
  overflow_insert : List SortEvent → RECDES → Option (List Byte)
  malloc_arena_ok : Bool
  malloc_arena_again_ok : Bool
  alloc_ledger_ok : Int → Bool

/-- The C `SORT_PARAM` beyond the fields of `SortParam`: `tot_runs`, whether
`temp[i].volid` and `multipage_file.volid` differ from `NULL_VOLID`,
`tmp_file_pgs`, and the events so far. -/
structure ParamState where
  sp : SortParam
  tot_runs : Int
  temp_volid_set : Int → Bool
  multipage_volid_set : Bool
  tmp_file_pgs : Int
  log : List SortEvent

/-- The records of the `put_fn` calls among the events. -/
def published_of : List SortEvent → List RECDES
  | [] => []
  | SortEvent.put r _ :: rest => r :: published_of rest
  | _ :: rest => published_of rest

/-- The `put_fn` calls among the events. -/
def put_calls (log : List SortEvent) : List SortEvent :=
  log.filter (fun e => match e with
    | SortEvent.put _ _ => true
    | _ => false)

/-- The `file_create_tmp` calls among the events. -/
def create_calls (log : List SortEvent) : List SortEvent :=
  log.filter (fun e => match e with
    | SortEvent.create_temp _ _ => true
    | SortEvent.create_multipage _ => true
    | _ => false)

/-- The first loop of `sort_return_used_resources`,
`for (k = 0; k < sort_param->tot_tempfiles; k++)`: the files it destroys. -/
def destroy_temp_files (st : ParamState) : Nat → Int → List SortEvent
  | 0, _ => []
  | n + 1, k =>
    if k < st.sp.tot_tempfiles then
      (if st.temp_volid_set k then [SortEvent.destroy_temp k] else []) ++
        destroy_temp_files st n (k + 1)
    else []

/-- The C `sort_return_used_resources`: the files it destroys; the memory it
frees is not modelled. `file_destroy` is not in the source: it is called for its
effect on the file service, its value is thrown away, and it is taken to leave the
identifier it is given as it is, so `volid` stays different from `NULL_VOLID`. -/
def sort_return_used_resources (st : ParamState) : ParamState :=
  { st with log := st.log ++ destroy_temp_files st st.sp.tot_tempfiles.toNat 0 ++
      (if st.multipage_volid_set then [SortEvent.destroy_multipage] else []) }

/-- The C `sort_add_new_file` with `force_alloc == false` for the temp file
`file`: whether it returned `NO_ERROR`, and the state. A failed
`file_create_tmp` is taken to leave the identifier as it was. -/
def sort_add_new_file_noalloc (W : SortWorld) (st : ParamState) (file : Int) :
    Bool × ParamState :=
  let ok := W.file_create_tmp_ok st.log
  (ok, { st with temp_volid_set := if ok then aset st.temp_volid_set file true
                   else st.temp_volid_set,
                 log := st.log ++ [SortEvent.create_temp file ok] })

/-! ## The input phase: `sort_inphase_sort` -/

/-- The local variables of `sort_inphase_sort` with the sort parameters and the
part of the internal memory that holds the records and the pointers. Addresses
are byte offsets from `internal_memory`; `item_ptr` is one; `index_area`,
`index_buff` and `saved_index_area` are numbers of pointer cells counted from
`output_buffer` (the cell `c` is at `output_buffer + c * sizeof (char *)`, so
`index_area` starts at `-1`); `cells` is the content of the pointer cells, the
address of a record or `NULL`; `recs` gives for the address of a record its
length (`SORT_RECORD_LENGTH`) and its bytes, `next` its field `next`. A record
is named by its address. -/
structure InVars where
  st : ParamState
  out_curfile : Int
  cur_page : Int → Int
  temp_recdes : RECDES
  long_recdes : RECDES
  item_ptr : Int
  numrecs : Int
  sort_numrecs : Int
  once_flushed : Bool
  saved_numrecs : Int
  saved_index_area : Int
  index_area : Int
  index_buff : Int
  cells : Int → Option Nat
  recs : Int → RECDES
  next : Nat → Option Nat

/-- How a part of `sort_inphase_sort` ends: it goes on (`next`), it leaves the
loop with `break` (`leave`), it goes to `exit_on_error` with the value of
`error` (`stop`; `NO_ERROR` is one of the values), its behaviour is undefined,
or the bound of the model on the number of iterations is reached. -/
inductive Flow where
  | next (v : InVars)
  | leave (v : InVars)
  | stop (error : SortCode) (v : InVars)
  | undefined (v : InVars)
  | out_of_fuel (v : InVars)

/-- The variables a `Flow` ends with. -/
def Flow.vars : Flow → InVars
  | Flow.next v => v
  | Flow.leave v => v
  | Flow.stop _ v => v
  | Flow.undefined v => v
  | Flow.out_of_fuel v => v

/-- The address of the pointer cell `c`. -/
def cell_addr (W : SortWorld) (v : InVars) (c : Int) : Int :=
  (v.st.sp.tot_buffers - 1) * W.M.env.DB_PAGESIZE + c * W.SIZEOF_POINTER

/-- The initialisations of `sort_inphase_sort`; the variables the C code leaves
without a value get the value of `junk`. -/
def inphase_init (W : SortWorld) (st : ParamState) (junk : InVars) : InVars :=
  let temp0 : RECDES := { junk.temp_recdes with area_size := SORT_MAXREC_LENGTH W.M.env,
                                                length := 0 }
  { junk with
    st := { st with tot_runs := 0 },
    out_curfile := st.sp.in_half,
    cur_page := fun i => if 0 ≤ i ∧ i < st.sp.half_files then 0 else junk.cur_page i,
    temp_recdes := temp0,
    long_recdes := { junk.long_recdes with area_size := 0, data := [] },
    item_ptr := W.SORT_RECORD_LENGTH_SIZE,
    numrecs := 0,
    sort_numrecs := 0,
    once_flushed := false,
    saved_numrecs := 0,
    saved_index_area := 0,
    index_area := -1,
    index_buff := -2 }

/-- The call `status = (*get_fn) (thread_p, &temp_recdes, get_arg)` with the
descriptor `d` for `temp_recdes`. -/
def inphase_call (W : SortWorld) (v : InVars) (d : RECDES) : SORT_STATUS × InVars :=
  let r := W.get_fn v.st.log d
  let d1 : RECDES := { d with length := r.2.1, data := r.2.2 }
  (r.1, { v with temp_recdes := d1,
                 st := { v.st with log := v.st.log ++ [SortEvent.get r.1 d1] } })

/-- The head of the body of the loop of `sort_inphase_sort`: the status, from
the test of the free memory or from `get_fn`. -/
def inphase_get (W : SortWorld) (v : InVars) : SORT_STATUS × InVars :=
  if cell_addr W v v.index_buff < v.item_ptr then (SORT_STATUS.SORT_REC_DOESNT_FIT, v)
  else
    let room := cell_addr W v v.index_buff - v.item_ptr
    let area_size := if room < SORT_MAXREC_LENGTH W.M.env then room - 4 * W.SIZEOF_POINTER
      else v.temp_recdes.area_size
    let d : RECDES := { v.temp_recdes with area_size := area_size }
    if area_size ≤ W.SIZEOF_SORT_REC then
      (SORT_STATUS.SORT_REC_DOESNT_FIT, { v with temp_recdes := d })
    else inphase_call W v d

/-- The case `SORT_SUCCESS` of the loop: the record that the producer left at
`item_ptr` is entered into the index area. -/
def inphase_success (W : SortWorld) (v : InVars) : InVars :=
  { v with recs := aset v.recs v.item_ptr v.temp_recdes,
           cells := aset v.cells v.index_area (some v.item_ptr.toNat),
           next := fun k => if k = v.item_ptr.toNat then W.next_of_data v.temp_recdes.data
             else v.next k,
           numrecs := v.numrecs + 1,
           index_area := v.index_area - 1,
           index_buff := v.index_buff - 2,
           item_ptr := v.item_ptr + (DB_ALIGN v.temp_recdes.length W.M.MAX_ALIGNMENT +
             W.SORT_RECORD_LENGTH_SIZE) }

/-- The statements `index_area++; error = sort_run_sort (&index_area, numrecs,
sort_numrecs, index_buff, compare, comp_arg, option, &numrecs)`: the pointer
cells from `index_area` are `*base`, those from `index_buff` are `otherbase`.
`none` where `sort_run_sort` is undefined, and where the two buffers of
`numrecs` cells overlap. -/
def inphase_sort (W : SortWorld) (option : SORT_DUP_OPTION) (v : InVars) : Option InVars :=
  let index_area := v.index_area + 1
  let limit := v.numrecs
  if v.index_buff + limit > index_area then none
  else
    let m : SortMem :=
      { high := fun i => v.cells (index_area + i), low := fun i => v.cells (v.index_buff + i),
        next := v.next }
    match sort_run_sort (fun a b => W.M.compare (v.recs a).data (v.recs b).data) option m
        limit v.sort_numrecs limit with
    | none => none
    | some r =>
      some { v with index_area := (if r.base_side = Side.H then index_area else v.index_buff) +
                      r.base,
                    numrecs := r.srun_limit,
                    next := r.mem.next,
                    cells := fun c =>
                      if v.index_buff ≤ c ∧ c < v.index_buff + limit then
                        r.mem.low (c - v.index_buff)
                      else if index_area ≤ c ∧ c < index_area + limit then
                        r.mem.high (c - index_area)
                      else v.cells c }

/-- The address in a pointer cell, `NULL` being 0. -/
def cell_value (c : Option Nat) : Int :=
  match c with
  | some a => (a : Int)
  | none => 0

/-- The loop `for (i = 1; i < numrecs; i++)` that looks for the greatest
address in the index area. -/
def greatest_item (v : InVars) : Nat → Int → Int → Int
  | 0, _, item_ptr => item_ptr
  | n + 1, i, item_ptr =>
    if i < v.numrecs then
      greatest_item v n (i + 1)
        (if cell_value (v.cells (v.index_area + i)) > item_ptr then
          cell_value (v.cells (v.index_area + i)) else item_ptr)
    else item_ptr

/-- The statements under `reset item_ptr` of the option `SORT_ELIM_DUP`:
`item_ptr` goes behind the record with the greatest address; `none` when that
address is `NULL`. -/
def inphase_reset_item_ptr (W : SortWorld) (v : InVars) : Option InVars :=
  let item_ptr := greatest_item v v.numrecs.toNat 1 (cell_value (v.cells v.index_area))
  if item_ptr = 0 then none
  else
    some { v with item_ptr := item_ptr +
      (DB_ALIGN (v.recs item_ptr).length W.M.MAX_ALIGNMENT + W.SORT_RECORD_LENGTH_SIZE) }

/-- The record descriptors that `sort_run_flush` makes of the records of the
index area, in the order in which it visits them; the field `area_size` of
`out_recdes` has no value in C and is not read. A list of duplicates has no more
records than the internal memory has bytes. -/
def flush_records (W : SortWorld) (v : InVars) (rec_type : RecType) : List RECDES :=
  (List.range v.numrecs.toNat).flatMap (fun (i : Nat) =>
    (flush_keys v.next rec_type (v.st.sp.tot_buffers * W.M.env.DB_PAGESIZE).toNat
      (v.cells (v.index_area + (i : Int)))).map
      (fun (k : Nat) =>
        ({ area_size := 0, length := (v.recs (k : Int)).length, type := rec_type,
           data := (v.recs (k : Int)).data } : RECDES)))

/-- The pages that `sort_run_flush` writes one by one with `sort_write_area` to
the pages of the file from `first_page` on. -/
def write_pages (sp : SortParam) (file first_page : Int) (pages : List Page) : SortParam :=
  { sp with temp := fun f p =>
      if f = file ∧ first_page ≤ p ∧ p < first_page + (pages.length : Int) then
        pages.getD (p - first_page).toNat (sp.temp f p)
      else sp.temp f p }

/-- The statements `Prepare for the next internal sorting run` and `Switch to
the next Temp file` after a run was flushed. -/
def inphase_next_run (W : SortWorld) (v : InVars) : InVars :=
  let next_curfile := v.out_curfile + 1
  { v with numrecs := 0,
           item_ptr := W.SORT_RECORD_LENGTH_SIZE,
           index_area := -1,
           index_buff := -2,
           temp_recdes := { v.temp_recdes with area_size := SORT_MAXREC_LENGTH W.M.env },
           out_curfile := if next_curfile ≥ v.st.sp.half_files then v.st.sp.in_half
             else next_curfile,
           sort_numrecs := 0 }

/-- The C `sort_run_flush` called by `sort_inphase_sort` for the file
`out_curfile`, with the temp file: the file is created when it does not exist,
the pages of the run go to the file, the ledger of the file gets the run,
`tot_runs` grows. The calls of `sort_write_area` succeed. The value returned and
the variables; `none` where the behaviour is undefined. The content of the
output buffer afterwards is not modelled: nothing reads it before it is written
again. -/
def sort_run_flush_file (W : SortWorld) (v : InVars) (rec_type : RecType) :
    Option (SortCode × InVars) :=
  let out_file := v.out_curfile
  let created : Bool × ParamState :=
    if v.st.temp_volid_set out_file = false then sort_add_new_file_noalloc W v.st out_file
    else (true, v.st)
  if created.1 = false then
    some (SortCode.er_errid, { v with st := sort_return_used_resources created.2 })
  else
    let st1 := created.2
    match sort_run_flush W.M.env W.M.qs W.M.calloc_ok W.M.UNANCHORED_KEEP_SEQUENCE
        W.M.MAX_ALIGNMENT (flush_records W v rec_type)
        (st1.sp.internal_memory (st1.sp.tot_buffers - 1)) with
    | none => none
    | some r =>
      let sp1 := write_pages st1.sp out_file (v.cur_page out_file) r.written
      let cur_page1 := aset v.cur_page out_file (v.cur_page out_file + r.run_size)
      if r.ok = false then
        some (SortCode.ER_GENERIC_ERROR,
          { v with st := { st1 with sp := sp1 }, cur_page := cur_page1 })
      else
        match sort_run_add_new (W.realloc_ok st1.log) (sp1.file_contents out_file)
            r.run_size with
        | none => none
        | some (false, fc) =>
          let sp2 := { sp1 with file_contents := aset sp1.file_contents out_file fc }
          some (SortCode.er_errid, { v with st := { st1 with sp := sp2 }, cur_page := cur_page1 })
        | some (true, fc) =>
          let sp2 := { sp1 with file_contents := aset sp1.file_contents out_file fc }
          some (SortCode.NO_ERROR,
            { v with st := { st1 with sp := sp2, tot_runs := st1.tot_runs + 1 },
                     cur_page := cur_page1 })

/-- The statements under `TAKE CARE OF LONG RECORD as a seperate RUN`. -/
def inphase_long_record (W : SortWorld) (v : InVars) : Flow :=
  let need := v.long_recdes.area_size < v.temp_recdes.length
  let long0 : RECDES :=
    if need then { v.long_recdes with area_size := v.temp_recdes.length } else v.long_recdes
  if need ∧ W.malloc_ok v.st.log = false then
    Flow.stop SortCode.ER_OUT_OF_VIRTUAL_MEMORY { v with long_recdes := long0 }
  else
    let r := W.get_fn v.st.log long0
    let long1 : RECDES := { long0 with length := r.2.1, data := r.2.2 }
    let log1 := v.st.log ++ [SortEvent.get r.1 long1]
    let v1 : InVars := { v with long_recdes := long1, st := { v.st with log := log1 } }
    if r.1 ≠ SORT_STATUS.SORT_SUCCESS then
      if r.1 = SORT_STATUS.SORT_REC_DOESNT_FIT ∨ r.1 = SORT_STATUS.SORT_NOMORE_RECS then
        Flow.stop SortCode.ER_GENERIC_ERROR v1
      else Flow.stop SortCode.er_errid v1
    else
      let created : Bool × ParamState :=
        if v1.st.multipage_volid_set = false then
          let ok := W.file_create_tmp_ok v1.st.log
          (ok, { v1.st with multipage_volid_set := if ok then true else v1.st.temp_volid_set 0,
                            log := v1.st.log ++ [SortEvent.create_multipage ok] })
        else (true, v1.st)
      let v2 : InVars := { v1 with st := created.2 }
      if created.1 = false then Flow.stop SortCode.er_errid v2
      else
        match W.overflow_insert v2.st.log v2.long_recdes with
        | none => Flow.stop SortCode.er_errid v2
        | some vpid =>
          let handle : RECDES := { v2.temp_recdes with length := W.SIZEOF_VPID, data := vpid }
          let v3 : InVars :=
            { v2 with recs := aset v2.recs v2.item_ptr handle,
                      cells := aset v2.cells v2.index_area (some v2.item_ptr.toNat),
                      numrecs := v2.numrecs + 1 }
          match sort_run_flush_file W v3 RecType.REC_BIGONE with
          | none => Flow.undefined v3
          | some (SortCode.NO_ERROR, v4) => Flow.next (inphase_next_run W v4)
          | some (e, v4) => Flow.stop e v4

/-- The statements of the case `SORT_REC_DOESNT_FIT` under `if (numrecs > 0)`:
the records in the memory are sorted; with `SORT_ELIM_DUP` and enough room left
the memory is filled further, otherwise the run is flushed. -/
def inphase_end_run (W : SortWorld) (option : SORT_DUP_OPTION) (v : InVars) : Flow :=
  match inphase_sort W option v with
  | none => Flow.undefined v
  | some v1 =>
    match (if option = SORT_DUP_OPTION.SORT_ELIM_DUP then inphase_reset_item_ptr W v1
        else some v1) with
    | none => Flow.undefined v1
    | some v2 =>
      if option = SORT_DUP_OPTION.SORT_ELIM_DUP ∧
          v2.item_ptr + v2.numrecs * SIZEOF_SLOT < W.M.env.DB_PAGESIZE ∧
          v2.temp_recdes.length ≤ SORT_MAXREC_LENGTH W.M.env then
        Flow.next
          { v2 with index_buff := v2.index_area - v2.numrecs - 2,
                    index_area := v2.index_area - 1,
                    temp_recdes := { v2.temp_recdes with
                      area_size := SORT_MAXREC_LENGTH W.M.env },
                    sort_numrecs := v2.numrecs }
      else
        match sort_run_flush_file W v2 RecType.REC_HOME with
        | none => Flow.undefined v2
        | some (SortCode.NO_ERROR, v3) =>
          let v4 : InVars :=
            if v3.st.tot_runs = 1 then
              { v3 with once_flushed := true, saved_numrecs := v3.numrecs,
                        saved_index_area := v3.index_area }
            else v3
          Flow.next (inphase_next_run W v4)
        | some (e, v3) => Flow.stop e v3

/-- The case `SORT_REC_DOESNT_FIT` of the loop. -/
def inphase_doesnt_fit (W : SortWorld) (option : SORT_DUP_OPTION) (v : InVars) : Flow :=
  match (if v.numrecs > 0 then inphase_end_run W option v else Flow.next v) with
  | Flow.next v1 =>
    if v1.temp_recdes.length > SORT_MAXREC_LENGTH W.M.env then inphase_long_record W v1
    else Flow.next v1
  | f => f

/-- The body of the loop `for (;;)` of `sort_inphase_sort`. -/
def inphase_iteration (W : SortWorld) (option : SORT_DUP_OPTION) (v : InVars) : Flow :=
  match inphase_get W v with
  | (SORT_STATUS.SORT_NOMORE_RECS, v1) => Flow.leave v1
  | (SORT_STATUS.SORT_ERROR_OCCURRED, v1) => Flow.stop SortCode.er_errid v1
  | (SORT_STATUS.SORT_REC_DOESNT_FIT, v1) => inphase_doesnt_fit W option v1
  | (SORT_STATUS.SORT_SUCCESS, v1) => Flow.next (inphase_success W v1)
  | (SORT_STATUS.other, v1) => Flow.stop SortCode.ER_GENERIC_ERROR v1

/-- The loop `for (;;)` of `sort_inphase_sort`. -/
def inphase_loop (W : SortWorld) (option : SORT_DUP_OPTION) : Nat → InVars → Flow
  | 0, v => Flow.out_of_fuel v
  | n + 1, v =>
    match inphase_iteration W option v with
    | Flow.next v1 => inphase_loop W option n v1
    | f => f

/-- The loops `for (i = 0; i < numrecs; i++)` that hand the records of the
pointer cells from `base` on to `put_fn`; a `NULL` cell is dereferenced. -/
def put_records (W : SortWorld) (base numrecs : Int) : Nat → Int → InVars → Flow
  | 0, _, v => Flow.out_of_fuel v
  | n + 1, i, v =>
    if i < numrecs then
      match v.cells (base + i) with
      | none => Flow.undefined v
      | some k =>
        let d : RECDES :=
          { v.temp_recdes with data := (v.recs (k : Int)).data,
                               length := (v.recs (k : Int)).length }
        let ret := W.M.put_fn (published_of v.st.log) d
        let v1 : InVars :=
          { v with temp_recdes := d,
                   st := { v.st with log := v.st.log ++ [SortEvent.put d ret] } }
        if ret ≠ 0 then
          Flow.stop (if ret = W.SORT_PUT_STOP then SortCode.NO_ERROR
            else SortCode.put_error ret) v1
        else put_records W base numrecs n (i + 1) v1
    else Flow.next v

/-- The last branch of `sort_inphase_sort`: the only record was a long one; it
is read back from the first page of the first temp file and handed to
`put_fn`. -/
def inphase_single_long (W : SortWorld) (v : InVars) : Flow :=
  let out := v.st.sp.tot_buffers - 1
  let sp1 := sort_read_area v.st.sp 0 0 1 out
  let temp0 : RECDES := { v.temp_recdes with data := [] }
  let long0 : RECDES := { v.long_recdes with area_size := 0, data := [] }
  let g := sort_spage_get_record W.M.env (sp1.internal_memory out) 0 temp0 PeekMode.PEEK
  let v1 : InVars :=
    { v with st := { v.st with sp := sp1 }, temp_recdes := g.2, long_recdes := long0 }
  if g.1 ≠ SCAN_CODE.S_SUCCESS then Flow.stop SortCode.er_errid v1
  else
    match sort_retrieve_longrec W.M g.2 long0 with
    | none => Flow.stop SortCode.er_errid v1
    | some long1 =>
      let ret := W.M.put_fn (published_of v1.st.log) long1
      let v2 : InVars :=
        { v1 with long_recdes := long1,
                  st := { v1.st with log := v1.st.log ++ [SortEvent.put long1 ret] } }
      if ret ≠ 0 then Flow.stop SortCode.er_errid v2
      else Flow.stop SortCode.NO_ERROR v2

/-- The statements of `sort_inphase_sort` after the loop, up to
`exit_on_error`. -/
def inphase_finish (W : SortWorld) (option : SORT_DUP_OPTION) (v : InVars) : Flow :=
  if v.numrecs > 0 then
    match inphase_sort W option v with
    | none => Flow.undefined v
    | some v1 =>
      if v1.st.tot_runs > 0 then
        match sort_run_flush_file W v1 RecType.REC_HOME with
        | none => Flow.undefined v1
        | some (e, v2) => Flow.stop e v2
      else
        match put_records W v1.index_area v1.numrecs (v1.numrecs.toNat + 1) 0 v1 with
        | Flow.next v2 => Flow.stop SortCode.NO_ERROR v2
        | f => f
  else if v.st.tot_runs = 1 then
    if v.once_flushed then
      match put_records W v.saved_index_area v.saved_numrecs (v.saved_numrecs.toNat + 1) 0 v with
      | Flow.next v2 => Flow.stop SortCode.NO_ERROR v2
      | f => f
    else inphase_single_long W v
  else Flow.stop SortCode.NO_ERROR v

/-- The C `sort_inphase_sort`: how it ends, `Flow.stop error v` being the
return of `error`. `fuel` bounds the number of iterations of the loop. -/
def sort_inphase_sort (W : SortWorld) (fuel : Nat) (option : SORT_DUP_OPTION)
    (st : ParamState) (junk : InVars) : Flow :=
  match inphase_loop W option fuel (inphase_init W st junk) with
  | Flow.leave v => inphase_finish W option v
  | f => f

/-! ## The driver `sort_listfile` -/

/-- How `sort_listfile` ends: it returns a value, or it enters the branch
`if (sort_param.tot_runs > 1)` of the merge phase, where this part of the model
ends, or its behaviour is undefined, or the bound on the iterations is
reached; with the state of the sort parameters. -/
inductive ListfileOutcome where
  | returned (error : SortCode) (st : ParamState)
  | merge_phase (st : ParamState)
  | undefined (st : ParamState)
  | out_of_fuel (st : ParamState)

/-- The state an outcome ends with. -/
def ListfileOutcome.state : ListfileOutcome → ParamState
  | ListfileOutcome.returned _ st => st
  | ListfileOutcome.merge_phase st => st
  | ListfileOutcome.undefined st => st
  | ListfileOutcome.out_of_fuel st => st

/-- The first ledger that `sort_listfile` cannot allocate, in the loop
`for (i = 0; i < sort_param.tot_tempfiles; i++)`. -/
def first_failed_ledger (W : SortWorld) (tot_tempfiles : Int) : Nat → Int → Option Int
  | 0, _ => none
  | n + 1, i =>
    if i < tot_tempfiles then
      if W.alloc_ledger_ok i = false then some i
      else first_failed_ledger W tot_tempfiles n (i + 1)
    else none

/-- The sort parameters that `sort_listfile` sets up before the input phase;
`est_inp_pg_cnt * 0.1` cut to an integer is `est_inp_pg_cnt / 10`, and
`((double) 4096) / DB_PAGESIZE` cut to an integer is `4096 / DB_PAGESIZE`. The
pages of the files and of the internal memory have the values of `junk`. -/
def listfile_init (W : SortWorld) (arena_ok : Bool) (est_inp_pg_cnt : Int) (junk : ParamState) :
    ParamState :=
  let input_pages : Int :=
    if est_inp_pg_cnt > 0 then est_inp_pg_cnt + max (Int.tdiv est_inp_pg_cnt 10) 2 else 50
  let tot_buffers0 : Int :=
    max 4 (min (Int.tdiv 4096 W.M.env.DB_PAGESIZE * W.PRM_SR_NBUFFERS) input_pages)
  let tot_buffers : Int := if arena_ok then tot_buffers0 else 4
  let half_files := sort_get_num_half_tmpfiles W.CEIL_PTVDIV tot_buffers est_inp_pg_cnt
  let tot_tempfiles := half_files * 2
  let sp : SortParam :=
    { junk.sp with tot_buffers := tot_buffers, half_files := half_files,
                   tot_tempfiles := tot_tempfiles, in_half := 0,
                   file_contents := fun i =>
                     if 0 ≤ i ∧ i < tot_tempfiles then
                       file_contents_init (junk.sp.file_contents i).num_pages
                     else junk.sp.file_contents i }
  { junk with sp := sp,
              temp_volid_set := fun i =>
                if 0 ≤ i ∧ i < tot_tempfiles then false else junk.temp_volid_set i,
              multipage_volid_set := false,
              tmp_file_pgs := max 1 (W.CEIL_PTVDIV input_pages half_files),
              log := [] }

/-- The C `sort_listfile` up to the merge phase: the allocations, the input
phase, and, unless the input phase left more than one run, the return of the
resources and of the value. -/
def sort_listfile (W : SortWorld) (fuel : Nat) (est_inp_pg_cnt : Int)
    (option : SORT_DUP_OPTION) (junk : InVars) : ListfileOutcome :=
  if W.malloc_arena_ok = false ∧ W.malloc_arena_again_ok = false then
    ListfileOutcome.returned SortCode.ER_OUT_OF_VIRTUAL_MEMORY { junk.st with log := [] }
  else
    let st0 := listfile_init W W.malloc_arena_ok est_inp_pg_cnt junk.st
    match first_failed_ledger W st0.sp.tot_tempfiles st0.sp.tot_tempfiles.toNat 0 with
    | some _ => ListfileOutcome.returned SortCode.ER_OUT_OF_VIRTUAL_MEMORY st0
    | none =>
      match sort_inphase_sort W fuel option st0 junk with
      | Flow.stop SortCode.NO_ERROR v =>
        if v.st.tot_runs > 1 then ListfileOutcome.merge_phase v.st
        else ListfileOutcome.returned SortCode.NO_ERROR (sort_return_used_resources v.st)
      | Flow.stop e v => ListfileOutcome.returned e (sort_return_used_resources v.st)
      | Flow.undefined v => ListfileOutcome.undefined v.st
      | Flow.out_of_fuel v => ListfileOutcome.out_of_fuel v.st
      | Flow.next v => ListfileOutcome.undefined v.st
      | Flow.leave v => ListfileOutcome.undefined v.st

/-- The sizes of the host leave room in an internal memory of four pages or more
for the first two records: pointers and the length field have a size, a record
header is shorter than the longest short record, and two pages hold more than a
record header, eight pointers, four length fields and an alignment. -/
def SortWorld.Roomy (W : SortWorld) : Prop :=
  W.M.env.Valid ∧ ValidAlignment W.M.MAX_ALIGNMENT ∧ 0 ≤ W.SIZEOF_POINTER ∧
  0 ≤ W.SORT_RECORD_LENGTH_SIZE ∧ 0 ≤ W.SIZEOF_SORT_REC ∧
  W.SIZEOF_SORT_REC < SORT_MAXREC_LENGTH W.M.env ∧
  W.SIZEOF_SORT_REC + 8 * W.SIZEOF_POINTER + 4 * W.SORT_RECORD_LENGTH_SIZE + 8 <
    2 * W.M.env.DB_PAGESIZE

/-- The allocations of `sort_listfile` succeed: the internal memory at the
first or at the second attempt, and every ledger. -/
def SortWorld.Allocates (W : SortWorld) : Prop :=
  (W.malloc_arena_ok = true ∨ W.malloc_arena_again_ok = true) ∧
  ∀ i, W.alloc_ledger_ok i = true

/-- The descriptor `temp_recdes` of `sort_inphase_sort` after the producer stored
a record of `length` bytes into a memory with room for the longest short
record. -/
def delivered (W : SortWorld) (junk : InVars) (length : Int) (data : List Byte) : RECDES :=
  { junk.temp_recdes with area_size := SORT_MAXREC_LENGTH W.M.env, length := length,
                          data := data }

/-- The value that `sort_inphase_sort` returns after `put_fn` returned `ret` in
one of its loops over the records. -/
def code_of_put (W : SortWorld) (ret : Int) : SortCode :=
  if ret = 0 ∨ ret = W.SORT_PUT_STOP then SortCode.NO_ERROR else SortCode.put_error ret

/-! ## Example runs of the sort -/

/-- The number of records delivered so far. -/
def delivered_count : List SortEvent → Nat
  | [] => 0
  | SortEvent.get SORT_STATUS.SORT_SUCCESS _ :: rest => delivered_count rest + 1
  | _ :: rest => delivered_count rest

/-- A host with pages of 16384 bytes and the alignment 8; records are compared
by their first byte, the consumer accepts every record. -/
def example_env : MergeEnv :=
  { env := env16k, qs := insertion_qsort, calloc_ok := true, UNANCHORED_KEEP_SEQUENCE := 0,
    MAX_ALIGNMENT := 8, compare := fun a b => (a.headD 0 : Int) - (b.headD 0 : Int),
    overflow_get := fun _ => none, cut_link := fun d => d, put_fn := fun _ _ => 0 }

/-- A world whose producer delivers the given records one after the other, and
in which every allocation and every file operation succeeds. -/
def example_world (records : List (List Byte)) : SortWorld :=
  { M := example_env, SIZEOF_POINTER := 8, SORT_RECORD_LENGTH_SIZE := 8, SIZEOF_SORT_REC := 16,
    SIZEOF_VPID := 8, SORT_PUT_STOP := 2, PRM_SR_NBUFFERS := 16,
    CEIL_PTVDIV := fun a b => (a + b - 1) / b,
    get_fn := fun log d =>
      match records.get? (delivered_count log) with
      | none => (SORT_STATUS.SORT_NOMORE_RECS, d.length, d.data)
      | some r =>
        if d.area_size < (r.length : Int) then
          (SORT_STATUS.SORT_REC_DOESNT_FIT, (r.length : Int), d.data)
        else (SORT_STATUS.SORT_SUCCESS, (r.length : Int), r),
    next_of_data := fun _ => none,
    malloc_ok := fun _ => true,
    file_create_tmp_ok := fun _ => true,
    realloc_ok := fun _ => true,
    overflow_insert := fun _ _ => none,
    malloc_arena_ok := true,
    malloc_arena_again_ok := true,
    alloc_ledger_ok := fun _ => true }

/-- Values for the variables and the memory that `sort_listfile` and
`sort_inphase_sort` start with. -/
def example_vars : InVars :=
  { st := { sp := sort_param_ten, tot_runs := 0, temp_volid_set := fun _ => false,
            multipage_volid_set := false, tmp_file_pgs := 0, log := [] },
    out_curfile := 0, cur_page := fun _ => 0, temp_recdes := recdes_none,
    long_recdes := recdes_none, item_ptr := 0, numrecs := 0, sort_numrecs := 0,
    once_flushed := false, saved_numrecs := 0, saved_index_area := 0, index_area := 0,
    index_buff := 0, cells := fun _ => none, recs := fun _ => recdes_none,
    next := fun _ => none }

/-! ### The invariants of the runs and the passes of the merge -/

/-- The runs of a temp file lie one after the other from its current page on,
each of at least one page. -/
def RunsInv (E : MergeEnv) (v : MergeVars) (f : Int) : Prop :=
  (v.sp.file_contents f).first_run = -1 ∨
  (0 ≤ (v.sp.file_contents f).first_run ∧
    (v.sp.file_contents f).first_run ≤ (v.sp.file_contents f).last_run ∧
    (∀ k, (v.sp.file_contents f).first_run ≤ k → k ≤ (v.sp.file_contents f).last_run →
      1 ≤ (v.sp.file_contents f).num_pages k) ∧
    ∃ q, RunsTo E (v.sp.temp f) (v.sp.file_contents f).num_pages
      ((v.sp.file_contents f).last_run - (v.sp.file_contents f).first_run + 1).toNat
      (v.sp.file_contents f).first_run (v.cur_page f) q)

/-- What holds when a run starts: the sections of the internal memory are laid
out for at least two active input files, each of which has a run; the runs of the
input files lie from their current pages on, the runs of the output files up to
their current pages; nothing is published yet. -/
structure RunStartInv (E : MergeEnv) (v : MergeVars) : Prop where
  layout : Layout v
  act : 2 ≤ v.act_infiles
  inputs : ∀ i, 0 ≤ i → i < v.sp.half_files → RunsInv E v (v.sp.in_half + i)
  active : ∀ i, 0 ≤ i → i < v.act_infiles →
    (v.sp.file_contents (v.sp.in_half + i)).first_run ≠ -1
  outfiles : ∀ i, 0 ≤ i → i < v.sp.half_files → OutFileInv E v (v.out_half + i) 0
  published : v.published = []

/-- The invariant of the loop that reads the input sections, before the input
`i`, from the state `v0`: the inputs before `i` have their smallest elements, the
files of the other inputs and the output files are as before. -/
structure InitInv (E : MergeEnv) (v0 v : MergeVars) (i : Int) : Prop where
  frame : LoopFrame v0 v
  temp : v.sp.temp = v0.sp.temp
  nodes : ∀ j, 0 ≤ j → j < i → NodeOK E v j
  runs : ∀ j, 0 ≤ j → j < i → run_records v0 j = v.smallest_elem_ptr j :: in_rest v j
  rest : ∀ j, 0 ≤ j → j < i → RestInv E v (v0.sp.in_half + j)
  todo : ∀ j, i ≤ j → j < v0.sp.half_files → SameFile v0 v (v0.sp.in_half + j)
  outs : ∀ j, 0 ≤ j → j < v0.sp.half_files → SameFile v0 v (v0.out_half + j)
  published : v.published = v0.published
  sr_list : v.sr_list = v0.sr_list

/-- Every run of the ledger of the file `g` has at least one page. -/
def OutPos (v : MergeVars) (g : Int) : Prop :=
  (v.sp.file_contents g).first_run ≠ -1 →
    ∀ k, 0 ≤ k → k ≤ (v.sp.file_contents g).last_run → 1 ≤ (v.sp.file_contents g).num_pages k

/-- The number of runs of the file `i` of a half of the temp files when `m`
rounds of runs and `c` more runs went to the files of the half in turn. -/
def turn_runs (m c i : Int) : Int := m + (if i < c then 1 else 0)

/-- The ledgers while the runs of a pass are produced, before the run `j`
(counted down to 1): of the input files, the first `k` have `j` runs and the other
ones `j - 1`, and the runs lie in the files from their current pages on; the runs
produced went to the output files in turn and lie in them up to their current
pages; nothing is published yet. -/
structure LedgerInv (E : MergeEnv) (v : MergeVars) (j k : Int) : Prop where
  run : 1 ≤ j
  two : 2 ≤ v.sp.half_files
  buffers : v.sp.half_files < v.sp.tot_buffers
  tempfiles : v.sp.tot_tempfiles = 2 * v.sp.half_files
  halves : (v.sp.in_half = 0 ∧ v.out_half = v.sp.half_files) ∨
    (v.sp.in_half = v.sp.half_files ∧ v.out_half = 0)
  sizes : 1 ≤ k ∧ k ≤ v.sp.half_files
  runs_in : ∀ i, 0 ≤ i → i < v.sp.half_files → RunsInv E v (v.sp.in_half + i)
  len_in : ∀ i, 0 ≤ i → i < v.sp.half_files →
    sort_get_num_file_contents (v.sp.file_contents (v.sp.in_half + i)) =
      if i < k then j else j - 1
  outfiles : ∀ i, 0 ≤ i → i < v.sp.half_files →
    OutFileInv E v (v.out_half + i) 0 ∧ OutPos v (v.out_half + i)
  out_turn : ∃ m c, 0 ≤ m ∧ 0 ≤ c ∧ c < v.sp.half_files ∧ v.cur_outfile = v.out_half + c ∧
    ∀ i, 0 ≤ i → i < v.sp.half_files →
      sort_get_num_file_contents (v.sp.file_contents (v.out_half + i)) = turn_runs m c i
  last_out : v.very_last_run = true → j = 1 ∧ 2 ≤ k ∧ v.cur_outfile = v.out_half ∧
    ∀ i, 0 ≤ i → i < v.sp.half_files → (v.sp.file_contents (v.out_half + i)).first_run = -1
  published : v.published = []

/-- The invariant of the loop `PRODUCE RUNS` before the run `j`: the ledgers, the
layout of the internal memory, and the number of active input files. -/
structure PassInv (E : MergeEnv) (v : MergeVars) (j k : Int) : Prop where
  ledgers : LedgerInv E v j k
  layout : Layout v
  act_all : v.very_last_run = false → v.act_infiles = v.sp.half_files
  act_last : v.very_last_run = true → v.act_infiles = k

/-- What holds after the last run of a pass: either the run was the very last
one, the records published are in strictly ascending order and the first output
file is the only one with a run; or nothing is published, every input file is
empty, and the runs produced lie in the output files in turn. -/
def PassEnd (E : MergeEnv) (v : MergeVars) : Prop :=
  (v.very_last_run = true ∧ PubOK E v.published ∧ 2 ≤ v.sp.half_files ∧
    (v.sp.file_contents v.out_half).first_run ≠ -1 ∧
    ∀ i, 1 ≤ i → i < v.sp.half_files → (v.sp.file_contents (v.out_half + i)).first_run = -1) ∨
  (v.very_last_run = false ∧ v.published = [] ∧ 2 ≤ v.sp.half_files ∧
    v.sp.half_files < v.sp.tot_buffers ∧ v.sp.tot_tempfiles = 2 * v.sp.half_files ∧
    ((v.sp.in_half = 0 ∧ v.out_half = v.sp.half_files) ∨
      (v.sp.in_half = v.sp.half_files ∧ v.out_half = 0)) ∧
    (∀ i, 0 ≤ i → i < v.sp.half_files →
      OutFileInv E v (v.out_half + i) 0 ∧ OutPos v (v.out_half + i)) ∧
    (∃ m c, 0 ≤ m ∧ 0 ≤ c ∧ c < v.sp.half_files ∧
      ∀ i, 0 ≤ i → i < v.sp.half_files →
        sort_get_num_file_contents (v.sp.file_contents (v.out_half + i)) = turn_runs m c i) ∧
    ∀ i, 0 ≤ i → i < v.sp.half_files →
      (v.sp.file_contents (v.sp.in_half + i)).first_run = -1)

/-- The runs of a temp file lie one after the other from its first page on, each
of at least one page, and the first one is the run 0 of its ledger. -/
def FileRuns (E : MergeEnv) (sp : SortParam) (f : Int) : Prop :=
  (sp.file_contents f).first_run = -1 ∨
  ((sp.file_contents f).first_run = 0 ∧ 0 ≤ (sp.file_contents f).last_run ∧
    (∀ k, 0 ≤ k → k ≤ (sp.file_contents f).last_run → 1 ≤ (sp.file_contents f).num_pages k) ∧
    ∃ q, RunsTo E (sp.temp f) (sp.file_contents f).num_pages
      ((sp.file_contents f).last_run + 1).toNat 0 0 q)

/-- What the merge phase starts with, and every pass of it: the temp files are
two halves of `half_files` files, the internal memory has more buffers than a
half has files, the runs went to the files of the input half in turn and lie in
them from the first page on, and the files of the other half are empty. -/
structure MergeStart (E : MergeEnv) (sp : SortParam) (out_half : Int) : Prop where
  buffers : sp.half_files < sp.tot_buffers
  tempfiles : sp.tot_tempfiles = 2 * sp.half_files
  halves : (sp.in_half = 0 ∧ out_half = sp.half_files) ∨
    (sp.in_half = sp.half_files ∧ out_half = 0)
  runs : ∀ i, 0 ≤ i → i < sp.half_files → FileRuns E sp (sp.in_half + i)
  turn : ∃ m c, 0 ≤ m ∧ 0 ≤ c ∧ c < sp.half_files ∧
    ∀ i, 0 ≤ i → i < sp.half_files →
      sort_get_num_file_contents (sp.file_contents (sp.in_half + i)) = turn_runs m c i
  empty : ∀ i, 0 ≤ i → i < sp.half_files → (sp.file_contents (out_half + i)).first_run = -1

/-- The invariant of the `OUTER LOOP`: either the very last run is done, the
records published are in strictly ascending order and at most one input file is
active; or nothing is published and the files are as at the start of the merge
phase. -/
def OuterInv (E : MergeEnv) (v : MergeVars) : Prop :=
  (v.very_last_run = true ∧ PubOK E v.published ∧
    sort_get_numpages_of_active_infiles v.sp ≤ 1) ∨
  (v.very_last_run = false ∧ v.published = [] ∧ MergeStart E v.sp v.out_half)

/-- The state `w` after `END UP THIS RUN` in the state `v`, with the ledger `oc`
of the output file: the first run of every input file is removed, the next
output file is chosen. -/
structure EndPost (v w : MergeVars) (oc : FILE_CONTENTS) : Prop where
  temp : w.sp.temp = v.sp.temp
  cur_page : w.cur_page = v.cur_page
  contents : ∀ f, w.sp.file_contents f =
    if f = v.cur_outfile then oc
    else if v.sp.in_half ≤ f ∧ f < v.sp.in_half + v.sp.half_files then
      sort_run_remove_first (v.sp.file_contents f)
    else v.sp.file_contents f
  static : SameStatic v { w with cur_outfile := v.cur_outfile }
  cur_outfile : w.cur_outfile =
    if v.cur_outfile + 1 ≥ v.sp.half_files + v.out_half then v.out_half
    else v.cur_outfile + 1
  published : w.published = v.published

/-- The state `w` after the loop of the copy branch, which copies `cp` pages of
the file `act` to the output file, from the state `v`. -/
structure CopyPost (v w : MergeVars) (act cp : Int) : Prop where
  static : SameStatic v w
  contents : w.sp.file_contents = v.sp.file_contents
  published : w.published = v.published
  cur_act : w.cur_page act = v.cur_page act + cp
  cur_out : w.cur_page v.cur_outfile = v.cur_page v.cur_outfile + cp
  cur_other : ∀ f, f ≠ act → f ≠ v.cur_outfile → w.cur_page f = v.cur_page f
  temp : ∀ f p, w.sp.temp f p =
    if f = v.cur_outfile ∧ v.cur_page v.cur_outfile ≤ p ∧
        p < v.cur_page v.cur_outfile + cp then
      v.sp.temp act (v.cur_page act + (p - v.cur_page v.cur_outfile))
    else v.sp.temp f p

/-! ## The example of the specification in the merge phase -/

/-- A record of one byte, the key `k`. -/
def key_record (k : Nat) : RECDES :=
  { area_size := 1, length := 1, type := RecType.REC_HOME, data := [k] }

/-- The slotted page of the host of `example_env` that holds the records of the
given keys, in this order. -/
def page_of_keys (keys : List Nat) : Page :=
  (insert_records env16k insertion_qsort ( sort_spage_initialize env16k blank_page 0 8)
    (keys.map (fun k => (true, key_record k)))).getD blank_page

/-- The ledger of a temp file with `n` runs of one page each. -/
def ledger_of_runs (n : Int) : FILE_CONTENTS :=
  { num_pages := fun _ => 1, num_slots := 30, first_run := if n = 0 then -1 else 0,
    last_run := n - 1 }

/-- The sort parameters at the start of the merge phase for the input
`[3, 1, 2, 3, 2, 3]` of the specification when the input phase makes runs of two
records: the runs `[1, 3]`, `[2, 3]`, `[2, 3]` went in turn to the two files of
the input half. -/
def example_merge_param : SortParam :=
  { temp := fun f p =>
      if f = 0 ∧ p = 0 then page_of_keys [1, 3]
      else if f = 0 ∧ p = 1 then page_of_keys [2, 3]
      else if f = 1 ∧ p = 0 then page_of_keys [2, 3]
      else blank_page,
    file_contents := fun f =>
      if f = 0 then ledger_of_runs 2 else if f = 1 then ledger_of_runs 1
      else ledger_of_runs 0,
    internal_memory := fun _ => blank_page, tot_buffers := 10, tot_tempfiles := 4,
    half_files := 2, in_half := 0 }

/-- The records published by a part of the merge phase that ran to its end;
`none` when it stopped. -/
def Step.finished : Step MergeVars → Option (List RECDES)
  | Step.next v => some v.published
  | Step.stop _ _ => none

/-- The data of the records handed to `put_fn`, in the order of the calls. -/
def put_data : List SortEvent → List (List Byte)
  | [] => []
  | SortEvent.put r _ :: rest => r.data :: put_data rest
  | _ :: rest => put_data rest

/-! ## The runs of `sort_run_find`: direction and examples -/

/-- The records of the list continue one another in the direction `inc`: every
record compares `<= 0` with its successor for `inc`, `>= 0` otherwise; the tests
of the two scanning loops of `sort_run_find`. -/
def WeaklyMonotone (compare : Nat → Nat → Int) (inc : Bool) (l : List Nat) : Prop :=
  ∀ i, i < l.length - 1 →
    if inc = true then compare (l.getD i 0) (l.getD (i + 1) 0) ≤ 0
    else compare (l.getD i 0) (l.getD (i + 1) 0) ≥ 0

instance (compare : Nat → Nat → Int) (inc : Bool) (l : List Nat) :
    Decidable (WeaklyMonotone compare inc l) :=
  inferInstanceAs (Decidable (∀ i, i < l.length - 1 →
    if inc = true then compare (l.getD i 0) (l.getD (i + 1) 0) ≤ 0
    else compare (l.getD i 0) (l.getD (i + 1) 0) ≥ 0))

/-- The keys of three records whose pointer array reads `5, 5, 3`. -/
def keys_five_five_three : List Nat := [3, 5, 5]

/-- The pointer array that `sort_inphase_sort` builds for the records that the
producer delivered in the order of the list `l`: the index area grows downwards,
so the cell `i` points to the record `l[n - 1 - i]`. -/
def index_area_from (l : List Nat) : Int → Option Nat :=
  fun i => if 0 ≤ i ∧ i < l.length then l.get? (l.length - 1 - i.toNat) else none

/-- The memory at the first call of `sort_run_sort` for the records of the list
`l`, whose `next` fields are all `NULL`. -/
def mem_of_input (l : List Nat) : SortMem :=
  { high := index_area_from l, low := fun _ => none, next := fun _ => none }

instance (compare : Nat → Nat → Int) (K : List Nat) : Decidable (StrictAsc compare K) :=
  inferInstanceAs (Decidable (K.Pairwise (fun a b => compare a b < 0)))

/-- The keys of the ten records of the producer input `[10, 9, ..., 1]`, by the
number of the record. -/
def keys_down : List Nat := [10, 9, 8, 7, 6, 5, 4, 3, 2, 1]

/-- The keys of the ten records of the producer input `[1, 2, ..., 10]`. -/
def keys_up : List Nat := [1, 2, 3, 4, 5, 6, 7, 8, 9, 10]

/-- The data of the records that the pointer cells `index_area[0 .. n - 1]` of
`sort_inphase_sort` point to when `sort_run_sort` is called (after the
`index_area++` in front of the call). -/
def index_area_data (v : InVars) (n : Nat) : List (List Byte) :=
  (List.range n).map (fun (i : Nat) =>
    (v.recs (cell_value (v.cells (v.index_area + 1 + (i : Int))))).data)

/-- The number of records of the list that compare equal to a record behind them
in the list, that is, the records that are not the last one of their class of
equal records: the number of records less the number of classes. -/
def dup_count (compare : Nat → Nat → Int) : List Nat → Nat
  | [] => 0
  | x :: rest =>
    (if rest.any (fun y => decide (compare x y = 0)) then 1 else 0) + dup_count compare rest

/-- The two-way merge of two runs as the specification words it (a merge that
`reads two ascending runs` and `writes the result`), on the lists of their
records: the smaller of the two first records goes first; of two equal records
one is kept, the one of the right run. `n` bounds the number of steps. -/
def two_way_merge_loop (compare : Nat → Nat → Int) : Nat → List Nat → List Nat → List Nat
  | 0, _, _ => []
  | _ + 1, [], r => r
  | _ + 1, a :: l, [] => a :: l
  | n + 1, a :: l, b :: r =>
    if compare a b < 0 then a :: two_way_merge_loop compare n l (b :: r)
    else if compare a b > 0 then b :: two_way_merge_loop compare n (a :: l) r
    else b :: two_way_merge_loop compare n l r

/-- The two-way merge of the specification of two runs given by the lists of their
records. -/
def two_way_merge_spec (compare : Nat → Nat → Int) (l r : List Nat) : List Nat :=
  two_way_merge_loop compare (l.length + r.length) l r

/-- A memory for examples: the buffer `'H'` holds the records `0 .. 5` in its
cells `0 .. 5`, the other buffer holds nothing. -/
def mem_six : SortMem :=
  { high := fun i => if 0 ≤ i ∧ i < 6 then some i.toNat else none, low := fun _ => none,
    next := fun _ => none }

/-- The keys of six records, which read `1, 4, 6, 7, 8, 9` when the records are taken
in the order of their numbers. -/
def keys_six : List Nat := [1, 4, 6, 7, 8, 9]

/-! ## The stack of runs of sort_run_sort as an array -/

/-- The logarithm to the base 2 of `n`, cut to an integer, for `n >= 1`, by
halving `n` at most `fuel` times. -/
def log2_loop : Nat → Nat → Nat
  | 0, _ => 0
  | fuel + 1, n => if n ≥ 2 then log2_loop fuel (n / 2) + 1 else 0

/-- The number `cnt` of runs that `sort_run_sort` allocates its stack for, from
`limit` (after `limit -= sort_numrecs`) and `sort_numrecs`: `(int) (log10 (ceil
((double) limit / 2.0)) / log10 (2.0)) + 2`, and one more `if (sort_numrecs)`.
The quotient of the two logarithms, cut to an integer, is taken to be the
logarithm to the base 2 cut to an integer. -/
def sort_stack_count (limit sort_numrecs : Int) : Int :=
  (log2_loop ((limit + 1) / 2).toNat ((limit + 1) / 2).toNat : Int) + 2 +
    (if sort_numrecs ≠ 0 then 1 else 0)

/-- The C `sort_run_find` with the stack in an array of `cnt` runs: the store to
`st_p->srun[st_p->top]` after `st_p->top++` is undefined when the stack holds
`cnt` runs already. -/
def sort_run_find_within (cnt : Int) (compare : Nat → Nat → Int) (fuel : Nat)
    (option : SORT_DUP_OPTION) (limit : Int) (s : SortState) : Option SortState :=
  if (s.stack.length : Int) < cnt then sort_run_find compare fuel option limit s else none

/-- The loop `do ... while (src_top < limit)` of `sort_run_sort` with the stack in
an array of `cnt` runs. -/
def sort_run_sort_loop_within (cnt : Int) (compare : Nat → Nat → Int) (fuel : Nat)
    (option : SORT_DUP_OPTION) (limit : Int) : Nat → SortState → Option SortState
  | 0, s => some s
  | n + 1, s =>
    match sort_run_find_within cnt compare fuel option limit s with
    | none => none
    | some s1 =>
      match (if s1.top < limit then sort_run_find_within cnt compare fuel option limit s1
          else some s1) with
      | none => none
      | some s2 =>
        match sort_run_sort_merges compare fuel option limit s2.stack.length s2 with
        | none => none
        | some s3 =>
          if s3.top < limit then sort_run_sort_loop_within cnt compare fuel option limit n s3
          else some s3

/-- The C `sort_run_sort` with the stack in an array of `cnt` runs: a run is
pushed by `sort_run_find` and, for the already sorted records, by
`srun_p = &(st_p->srun[++(st_p->top)])`; each is undefined when the stack holds
`cnt` runs already. The merges read and write the two runs on top. -/
def sort_run_sort_within (cnt : Int) (compare : Nat → Nat → Int) (option : SORT_DUP_OPTION)
    (m : SortMem) (limit sort_numrecs srun_limit : Int) : Option SortResult :=
  let fuel := limit.toNat
  let limit1 := limit - sort_numrecs
  if limit1 = 0 ∨ (limit1 = 1 ∧ sort_numrecs = 0) then
    some { mem := m, base_side := Side.H, base := 0, srun_limit := srun_limit }
  else
    match sort_run_sort_loop_within cnt compare fuel option limit1 limit1.toNat
        { mem := m, stack := [], top := 0 } with
    | none => none
    | some s =>
      match (if sort_numrecs ≠ 0 then
          (if (s.stack.length : Int) < cnt then
            sort_run_merge compare fuel option (s.stack.length + 1) s.mem
              ({ low_high := Side.H, tree_depth := 1, start := limit1,
                 stop := limit1 + sort_numrecs - 1 } :: s.stack)
          else none)
          else some (s.mem, s.stack)) with
      | none => none
      | some (m1, stack1) =>
        match stack1.getLast? with
        | none => none
        | some srun0 => some (sort_run_sort_result option m1 srun0 limit srun_limit)


/-- The shape of the stack of runs between two passes of the loop of
`sort_run_sort`, after `2 * k` runs were found: the depths grow strictly from the
top of the stack downwards, each is at least 2, and a run of depth `d` stands for
`2 ^ (d - 1)` of the runs found. -/
def DepthInv (stack : List SRUN) (k : Nat) : Prop :=
  stack.Pairwise (fun a b => a.tree_depth < b.tree_depth) ∧
  (∀ e ∈ stack, 2 ≤ e.tree_depth) ∧
  (stack.map (fun e => 2 ^ (e.tree_depth - 1))).sum = 2 * k

/-- The shape of the stack in front of a merge of two runs of equal depth on top
of it, which together stand for `2 ^ depth` of the `2 * K` runs found. -/
def PreMerge (stack : List SRUN) (K : Nat) : Prop :=
  ∃ a b rest, stack = a :: b :: rest ∧ a.tree_depth = b.tree_depth ∧ 1 ≤ b.tree_depth ∧
    rest.Pairwise (fun a b => a.tree_depth < b.tree_depth) ∧
    (∀ e ∈ rest, b.tree_depth + 1 ≤ e.tree_depth) ∧
    2 ^ b.tree_depth + (rest.map (fun e => 2 ^ (e.tree_depth - 1))).sum = 2 * K

/-! ## The creation of a temp file: `sort_add_new_file` -/

/-- The file service as `sort_add_new_file` sees it. The error number
`ER_FILE_NOT_ENOUGH_PAGES_IN_VOLUME` and `boot_max_pages_new_volume ()` are not in
the source: they are parameters. `file_create_tmp_ok` tells whether
`file_create_tmp` gives a file; `file_alloc_pages` gets the page counts of the
calls of `file_alloc_pages_as_noncontiguous` so far, the last one being the call
at hand, and gives `none` when this call allocates the pages and `some e` when it
returns `NULL` and leaves `er_errid ()` at `e`. -/
structure FileHost where
  ER_FILE_NOT_ENOUGH_PAGES_IN_VOLUME : Int
  boot_max_pages_new_volume : Int
  file_create_tmp_ok : Bool
  file_alloc_pages : List Int → Option Int

/-- The two values that `sort_add_new_file` returns. -/
inductive AddFileCode where
  | NO_ERROR
  | ER_FAILED
  deriving DecidableEq, Repr

/-- The page count of the second allocation of `sort_add_new_file`,
`pg_cnt_est2 = (int) (boot_max_pages_new_volume () * 0.95); pg_cnt_est2 = MAX (1,
pg_cnt_est2)`. The product of an `int` with the `double` nearest to 0.95, cut to
an `int`, is the integer quotient of `19 * n` by 20, cut towards zero: the
`double` differs from 0.95 by less than `5e-17`, too little to move the product
across an integer. -/
def pg_cnt_est2 (H : FileHost) : Int :=
  max 1 (Int.tdiv (H.boot_max_pages_new_volume * 19) 20)

/-- The C `sort_add_new_file`: the value it returns and the page counts it called
`file_alloc_pages_as_noncontiguous` with. -/
def sort_add_new_file (H : FileHost) (file_pg_cnt_est : Int) (force_alloc : Bool) :
    AddFileCode × List Int :=
  if H.file_create_tmp_ok = false then (AddFileCode.ER_FAILED, [])
  else if force_alloc = false then (AddFileCode.NO_ERROR, [])
  else
    match H.file_alloc_pages [file_pg_cnt_est] with
    | none => (AddFileCode.NO_ERROR, [file_pg_cnt_est])
    | some e1 =>
      if e1 ≠ H.ER_FILE_NOT_ENOUGH_PAGES_IN_VOLUME then
        (AddFileCode.ER_FAILED, [file_pg_cnt_est])
      else if pg_cnt_est2 H < file_pg_cnt_est then
        match H.file_alloc_pages [file_pg_cnt_est, pg_cnt_est2 H] with
        | none => (AddFileCode.NO_ERROR, [file_pg_cnt_est, pg_cnt_est2 H])
        | some e2 =>
          if e2 ≠ H.ER_FILE_NOT_ENOUGH_PAGES_IN_VOLUME then
            (AddFileCode.ER_FAILED, [file_pg_cnt_est, pg_cnt_est2 H])
          else (AddFileCode.NO_ERROR, [file_pg_cnt_est, pg_cnt_est2 H])
      else (AddFileCode.NO_ERROR, [file_pg_cnt_est])

/-- A volume without room: every allocation fails with
`ER_FILE_NOT_ENOUGH_PAGES_IN_VOLUME`, here the number 7; a new volume holds
`max_pages` pages at most. -/
def host_full (max_pages : Int) : FileHost :=
  { ER_FILE_NOT_ENOUGH_PAGES_IN_VOLUME := 7,
    boot_max_pages_new_volume := max_pages,
    file_create_tmp_ok := true,
    file_alloc_pages := fun _ => some 7 }

/-- A volume on which the first allocation fails with
`ER_FILE_NOT_ENOUGH_PAGES_IN_VOLUME`, here the number 7, and the second with the
error `e2`. -/
def host_second_error (max_pages e2 : Int) : FileHost :=
  { ER_FILE_NOT_ENOUGH_PAGES_IN_VOLUME := 7,
    boot_max_pages_new_volume := max_pages,
    file_create_tmp_ok := true,
    file_alloc_pages := fun calls => if calls.length ≤ 1 then some 7 else some e2 }

/-! ## Example runs: failing services and a refusing consumer -/

/-- The value an outcome returns, if it returns. -/
def ListfileOutcome.returns : ListfileOutcome → Option SortCode
  | ListfileOutcome.returned e _ => some e
  | _ => none

/-- The `file_destroy` calls among the events. -/
def destroy_calls (log : List SortEvent) : List SortEvent :=
  log.filter (fun e => match e with
    | SortEvent.destroy_temp _ => true
    | SortEvent.destroy_multipage => true
    | _ => false)

/-- The values that the `put_fn` calls among the events returned. -/
def put_rets : List SortEvent → List Int
  | [] => []
  | SortEvent.put _ ret :: rest => ret :: put_rets rest
  | _ :: rest => put_rets rest

/-- A world whose producer delivers `n` records of 20000 bytes each, longer than a
page of 16384 bytes. `file_create_tmp` gives a file `creations` times and fails
from then on, `overflow_insert` stores the first `inserts` records and fails from
then on, reading a long record back succeeds, and the consumer returns `put_ret`;
every other service succeeds. -/
def long_record_world (n creations inserts : Nat) (put_ret : Int) : SortWorld :=
  { example_world [] with
    M := { example_env with overflow_get := fun _ => some (List.replicate 20000 0),
                            put_fn := fun _ _ => put_ret },
    get_fn := fun log d =>
      if delivered_count log < n then
        if d.area_size < 20000 then (SORT_STATUS.SORT_REC_DOESNT_FIT, 20000, d.data)
        else (SORT_STATUS.SORT_SUCCESS, 20000, List.replicate 20000 0)
      else (SORT_STATUS.SORT_NOMORE_RECS, d.length, d.data),
    file_create_tmp_ok := fun log => decide ((create_calls log).length < creations),
    overflow_insert := fun log _ =>
      if delivered_count log ≤ inserts then some [0, 0, 0, 0, 0, 0, 0, 0] else none }

/-- A record of 24 bytes whose first byte, the key, is `k`. -/
def keyed_record (k : Byte) : List Byte := k :: List.replicate 23 0

/-! ## The records that the input phase hands to the consumer -/

/-- The descriptor that the loops of `sort_inphase_sort` over the pointer cells
hand to `put_fn` for the cell `c`: `temp_recdes` with the address and the length
of the record of the cell; for a `NULL` cell, which the loops do not hand over,
without data. -/
def cell_recdes (v : InVars) (c : Int) : RECDES :=
  match v.cells c with
  | some k => { v.temp_recdes with data := (v.recs (k : Int)).data,
                                   length := (v.recs (k : Int)).length }
  | none => { v.temp_recdes with data := [], length := 0 }

/-- The descriptors of the `n` pointer cells from the cell `c` on, in the order of
the cells. -/
def cell_records (v : InVars) : Int → Nat → List RECDES
  | _, 0 => []
  | c, n + 1 => cell_recdes v c :: cell_records v (c + 1) n

/-- The calls of `put_fn` for the pointer cells from the cell `c` on, one for each
of the values `rets` that `put_fn` returns. -/
def put_events (v : InVars) : Int → List Int → List SortEvent
  | _, [] => []
  | c, r :: rets => SortEvent.put (cell_recdes v c) r :: put_events v (c + 1) rets

/-- The events `l1` hold the same calls of `put_fn` as the events `l`. -/
def Quiet (l l1 : List SortEvent) : Prop :=
  put_calls l1 = put_calls l

/-- The trace of one of the loops of `sort_inphase_sort` that hand the `numrecs`
pointer cells from `base` on to `put_fn`, started at the cell `i` with the
variables `v` and ending as `f`: `put_fn` was called for the cells from `i` on,
none of them `NULL`, and returned the values `rets`, all of them `NO_ERROR` but
possibly the last one; the loop ran to its end when all of them are `NO_ERROR`
and no cell was `NULL`, and it jumped to `exit_on_error` with the translated
value of the last call otherwise. -/
def PutTrace (W : SortWorld) (base numrecs i : Int) (v : InVars) (f : Flow)
    (rets : List Int) : Prop :=
  f.vars.st.log = v.st.log ++ put_events v (base + i) rets ∧
  (∀ r ∈ rets.dropLast, r = 0) ∧
  (∀ t : Nat, t < rets.length → v.cells (base + i + (t : Int)) ≠ none) ∧
  ((rets.length : Int) ≤ max 0 (numrecs - i)) ∧
  (match f with
   | Flow.next _ => (∀ r ∈ rets, r = 0) ∧ rets.length = (numrecs - i).toNat
   | Flow.stop e _ => ∃ r, rets.getLast? = some r ∧ r ≠ 0 ∧
       e = (if r = W.SORT_PUT_STOP then SortCode.NO_ERROR else SortCode.put_error r)
   | Flow.undefined _ => ∀ r ∈ rets, r = 0
   | Flow.leave _ => False
   | Flow.out_of_fuel _ => False)

/-- The number of temp files of the input half whose ledger holds a run (the
ledger of a file without runs has `first_run == -1`). -/
def nonempty_infiles (sp : SortParam) : Nat :=
  ((List.range sp.half_files.toNat).filter
    (fun (i : Nat) => decide ((sp.file_contents (sp.in_half + (i : Int))).first_run ≠ -1))).length

/-! ## Compaction and records without bytes -/

/-- An admissible behaviour of `qsort` that puts elements of equal key in the
reverse of their order in the array. -/
def reversing_qsort : Qsort where
  sort key l := l.reverse.insertionSort (fun a b => key a ≤ key b)
  perm key l := (List.perm_insertionSort _ l.reverse).trans (List.reverse_perm l)
  sorted key l := by
    haveI : IsTotal Nat (fun a b => key a ≤ key b) := ⟨fun a b => le_total (key a) (key b)⟩
    haveI : IsTrans Nat (fun a b => key a ≤ key b) := ⟨fun _ _ _ h1 h2 => le_trans h1 h2⟩
    exact List.sorted_insertionSort (fun a b : Nat => key a ≤ key b) l.reverse

/-- A record without bytes. -/
def rec_no_bytes : RECDES :=
  { area_size := 0, length := 0, type := RecType.REC_HOME, data := [] }

/-- The page `fresh_page` after the insertion of a record without bytes and of
`rec_one_byte`. -/
def page_empty_record : Page :=
  (insert_records env16k reversing_qsort ( sort_spage_initialize env16k blank_page 0 8)
    [(true, rec_no_bytes), (true, rec_one_byte)]).getD blank_page

/-- The descriptor that `sort_spage_get_record` hands out in `PEEK` mode for a
record that `sort_spage_insert` stored. -/
def stored_recdes (r : RECDES) : RECDES :=
  { area_size := -1, data := r.data, length := r.length, type := stored_type r.type }

/-! ## An example of a run to flush -/

/-- Variables of `sort_inphase_sort` with two records of 24 bytes in the memory,
with the keys 3 and 7; the two first pointer cells point to them. -/
def flush_vars : InVars :=
  { example_vars with
    numrecs := 2,
    index_area := 0,
    cells := fun c => if c = 0 then some 100 else if c = 1 then some 200 else none,
    recs := fun k =>
      if k = 100 then { recdes_none with length := 24, data := keyed_record 3 }
      else if k = 200 then { recdes_none with length := 24, data := keyed_record 7 }
      else recdes_none }

/-! ## The runs of the input phase go to the temp files in turn -/

/-- Of the runs with the page counts `sizes`, numbered from 0 in the order in
which they were flushed, those that went to the file `f` when `h` files get the
runs in turn: the runs `k` with `k % h = f`. -/
def runs_of_file (h f : Nat) (sizes : List Int) : List Int :=
  ((List.range sizes.length).filter (fun (k : Nat) => decide (k % h = f))).map
    (fun (k : Nat) => sizes.getD k 0)

/-- The ledgers after the runs with the page counts `sizes` were flushed: the
input half is the first one, `tot_runs` is the number of the runs, and the ledger
of every file of the half is well formed and holds the runs that went to the
file in turn. -/
structure Flushed (st : ParamState) (sizes : List Int) : Prop where
  in_half : st.sp.in_half = 0
  half : 1 ≤ st.sp.half_files
  count : (sizes.length : Int) = st.tot_runs
  ledgers : ∀ f : Nat, (f : Int) < st.sp.half_files →
    LedgerWF (st.sp.file_contents (f : Int)) ∧
      live_runs (st.sp.file_contents (f : Int)) = runs_of_file st.sp.half_files.toNat f sizes

/-- The invariant of the loop of `sort_inphase_sort`: the runs flushed so far
went to the files in turn, and `out_curfile` is the file of the next run. -/
def Dealt (v : InVars) : Prop :=
  (∃ sizes, Flushed v.st sizes) ∧ v.out_curfile = v.st.tot_runs % v.st.sp.half_files

/-- What holds of the way a part of `sort_inphase_sort` ends: where it goes on,
the invariant of the loop; where it ends with `NO_ERROR`, the runs flushed went
to the files in turn. -/
def Flow.Deals : Flow → Prop
  | Flow.next v => Dealt v
  | Flow.leave v => Dealt v
  | Flow.stop e v => e = SortCode.NO_ERROR → ∃ sizes, Flushed v.st sizes
  | Flow.undefined _ => True
  | Flow.out_of_fuel _ => True

/-- Two states of `sort_inphase_sort` with the same ledgers, the same halves of
the temp files, the same number of runs and the same output file. -/
def SameDeal (v w : InVars) : Prop :=
  w.st.sp.file_contents = v.st.sp.file_contents ∧ w.st.sp.half_files = v.st.sp.half_files ∧
    w.st.sp.in_half = v.st.sp.in_half ∧ w.st.tot_runs = v.st.tot_runs ∧
    w.out_curfile = v.out_curfile

/-! ## The merge phase that keeps the duplicates: `sort_exphase_merge` -/

/-- The local variables of `sort_exphase_merge` with the sort parameters. The
function has the variables of `sort_exphase_merge_elim_dup` but for `last_elem_cmp`,
in whose place it has the flag `last_elem_is_min`. The field `last_elem_cmp` of
`vars` is no variable of it, and nothing here reads it; nor does the function set
or read the field `is_duplicated` of the nodes of `sr_list`. -/
structure LinkVars where
  vars : MergeVars
  last_elem_is_min : Bool

/-- The `last element comparison` of `sort_exphase_merge`: with a second
smallest element `p`, get the last record of the active page of the input of
`min_p` and compare it with the record of `p`; `last_elem_is_min` becomes `true`
when it is not greater. -/
def link_last_element_comparison (E : MergeEnv) (v : LinkVars) : Step LinkVars :=
  match v.vars.sr_list with
  | min_p :: p :: _ =>
    let r := sort_spage_get_record E.env
      (v.vars.sp.internal_memory (v.vars.in_cur_bufaddr min_p.rec_pos))
      (v.vars.last_slot min_p.rec_pos - 1) v.vars.last_elem_ptr PeekMode.PEEK
    if r.1 ≠ SCAN_CODE.S_SUCCESS then
      Step.stop (StopKind.bailout SortError.ER_SORT_TEMP_PAGE_CORRUPTED) v.vars.published
    else
      let retrieved : Option RECDES :=
        if r.2.type = RecType.REC_BIGONE then
          sort_retrieve_longrec E r.2 v.vars.last_long_recdes
        else some v.vars.last_long_recdes
      match retrieved with
      | none => Step.stop (StopKind.bailout SortError.er_errid) v.vars.published
      | some m =>
        let data1 := if r.2.type = RecType.REC_BIGONE then m.data else r.2.data
        Step.next
          { vars := { v.vars with last_elem_ptr := r.2, last_long_recdes := m },
            last_elem_is_min :=
              if E.compare data1 (v.vars.data p.rec_pos) ≤ 0 then true
              else v.last_elem_is_min }
  | _ => Step.next v

/-- The start of a run in `sort_exphase_merge`: the input sections are read, the
list of the smallest elements is set up and sorted (there is no search for
duplicates), `last_elem_is_min` is `false` before the `last element comparison`,
and the output section is initialised. -/
def link_start_run (E : MergeEnv) (v1 : LinkVars) : Step LinkVars :=
  match init_input_sections E v1.vars.act_infiles.toNat v1.vars 0 with
  | Step.stop w p => Step.stop w p
  | Step.next v2 =>
    let l0 := sr_list_init v2.act_infiles
    match link_last_element_comparison E
        { vars := { v2 with sr_list := sr_list_sort E v2 l0.length l0 },
          last_elem_is_min := false } with
    | Step.stop w p => Step.stop w p
    | Step.next v3 => Step.next { v3 with vars := start_output E v3.vars }

/-- `PROCEED THE smallest_elem_ptr[min] TO NEXT RECORD` in `sort_exphase_merge`,
up to the point where the next record is got: as in the other driver, but that
`last_elem_is_min` becomes `false` when the current input page is finished. -/
def link_advance_input (v : LinkVars) (min : Int) : LinkVars × Bool :=
  let a := advance_input v.vars min
  ({ vars := a.1,
     last_elem_is_min :=
       if v.vars.act_slot min + 1 ≥ v.vars.last_slot min then false else v.last_elem_is_min },
    a.2)

/-- The loop `find minimum` of `sort_exphase_merge`, `for (s = min_p; s; s =
s->next)`, for the node `s` and the nodes behind it: the record of `s` moves
behind the records smaller than it, and stops at the first record that is not
smaller, be it equal or greater. -/
def link_find_minimum_from (E : MergeEnv) (v : MergeVars) (s : SORT_REC_LIST) :
    List SORT_REC_LIST → List SORT_REC_LIST
  | [] => [s]
  | p :: rest =>
    if E.compare (v.data s.rec_pos) (v.data p.rec_pos) > 0 then
      p :: link_find_minimum_from E v s rest
    else s :: p :: rest

/-- The loop `find minimum` of `sort_exphase_merge` on the list from `min_p`. -/
def link_find_minimum (E : MergeEnv) (v : MergeVars) :
    List SORT_REC_LIST → List SORT_REC_LIST
  | [] => []
  | s :: rest => link_find_minimum_from E v s rest

/-- The end of a pass of the loop `for (;;)` of `sort_exphase_merge`, after the
next record of the input of `min_p` is got: unless `last_elem_is_min`, `find
minimum`, and the `last element comparison` when a `new input page is entered`. -/
def link_enter_record (E : MergeEnv) (v3 : LinkVars) (min_p : SORT_REC_LIST)
    (rest : List SORT_REC_LIST) : Step (LinkVars × Bool) :=
  if v3.last_elem_is_min = true then
    Step.next ({ v3 with vars := { v3.vars with sr_list := min_p :: rest } }, true)
  else
    let v4 : LinkVars :=
      { v3 with vars := { v3.vars with sr_list := link_find_minimum E v3.vars (min_p :: rest) } }
    match v4.vars.sr_list with
    | [] => Step.next (v4, true)
    | h :: _ =>
      if v4.vars.act_slot h.rec_pos = 0 then
        match link_last_element_comparison E v4 with
        | Step.stop w p => Step.stop w p
        | Step.next v5 => Step.next (v5, true)
      else Step.next (v4, true)

/-- The part `PROCEED THE smallest_elem_ptr[min] TO NEXT RECORD` of a pass of the
loop `for (;;)` of `sort_exphase_merge`, with the nodes `rest` behind `min_p`. -/
def link_proceed_input (E : MergeEnv) (v1 : LinkVars) (min_p : SORT_REC_LIST)
    (rest : List SORT_REC_LIST) : Step (LinkVars × Bool) :=
  let a := link_advance_input v1 min_p.rec_pos
  if a.2 then
    match rest with
    | [] => Step.next ({ a.1 with vars := { a.1.vars with sr_list := [] } }, false)
    | _ :: _ => Step.next ({ a.1 with vars := { a.1.vars with sr_list := rest } }, true)
  else
    match fetch_smallest E a.1.vars min_p.rec_pos with
    | Step.stop w p => Step.stop w p
    | Step.next v3 => link_enter_record E { a.1 with vars := v3 } min_p rest

/-- The part `OUTPUT A RECORD` of a pass of the loop `for (;;)` of
`sort_exphase_merge`: the smallest element of the input `min` goes to the
consumer in the very last run, else to the output section; no test comes
before. -/
def link_emit_record (E : MergeEnv) (v : MergeVars) (min_p : SORT_REC_LIST) : Step MergeVars :=
  if v.very_last_run then publish_record E v min_p.rec_pos
  else output_record E v min_p.rec_pos

/-- One pass of the loop `for (;;)` of `sort_exphase_merge` that outputs a
record; the flag tells whether the loop goes on (`false`: the `break`). -/
def link_merge_iteration (E : MergeEnv) (v : LinkVars) : Step (LinkVars × Bool) :=
  match v.vars.sr_list with
  | [] => Step.stop StopKind.undefined v.vars.published
  | min_p :: rest =>
    match link_emit_record E v.vars min_p with
    | Step.stop w p => Step.stop w p
    | Step.next v1 => link_proceed_input E { v with vars := v1 } min_p rest

/-- The loop `for (;;)` of `PRODUCE A NEW RUN` in `sort_exphase_merge`. -/
def link_merge_loop (E : MergeEnv) : Nat → LinkVars → Step LinkVars
  | 0, v => Step.stop StopKind.out_of_fuel v.vars.published
  | n + 1, v =>
    match link_merge_iteration E v with
    | Step.stop w p => Step.stop w p
    | Step.next (v1, true) => link_merge_loop E n v1
    | Step.next (v1, false) => Step.next v1

/-- The body of the loop `PRODUCE RUNS` of `sort_exphase_merge` for the run
`j`. -/
def link_produce_run (E : MergeEnv) (fuel : Nat) (v : LinkVars) (j : Int) : Step LinkVars :=
  match prepare_run fuel v.vars j with
  | Step.stop w p => Step.stop w p
  | Step.next (v1, true) => Step.next { v with vars := v1 }
  | Step.next (v1, false) =>
    match link_start_run E { v with vars := v1 } with
    | Step.stop w p => Step.stop w p
    | Step.next v4 =>
      match link_merge_loop E fuel v4 with
      | Step.stop w p => Step.stop w p
      | Step.next v5 =>
        match finish_run v5.vars with
        | Step.stop w p => Step.stop w p
        | Step.next v6 => Step.next { v5 with vars := v6 }

/-- The loop `PRODUCE RUNS` of `sort_exphase_merge`,
`for (j = num_runs; j > 0; j--)`. -/
def link_produce_runs (E : MergeEnv) (fuel : Nat) : Nat → LinkVars → Int → Step LinkVars
  | 0, v, _ => Step.stop StopKind.out_of_fuel v.vars.published
  | n + 1, v, j =>
    if j > 0 then
      match link_produce_run E fuel v j with
      | Step.stop w p => Step.stop w p
      | Step.next v1 => link_produce_runs E fuel n v1 (j - 1)
    else Step.next v

/-- The body of the `OUTER LOOP` of `sort_exphase_merge` for `act_infiles`
active input files: one pass of the merge. -/
def link_merge_pass (E : MergeEnv) (fuel : Nat) (v : LinkVars) (act_infiles : Int) :
    Step LinkVars :=
  let v1 : MergeVars := distribute_memory v.vars act_infiles
  let num_runs := count_num_runs v1.sp act_infiles act_infiles.toNat v1.sp.in_half 0
  match link_produce_runs E fuel fuel { v with vars := mark_last_run v1 num_runs } num_runs with
  | Step.stop w p => Step.stop w p
  | Step.next v3 => Step.next { v3 with vars := exchange_halves v3.vars }

/-- The `OUTER LOOP` of `sort_exphase_merge`, `while ((act_infiles =
sort_get_numpages_of_active_infiles (sort_param)) > 1)`. -/
def link_merge_outer_loop (E : MergeEnv) (fuel : Nat) : Nat → LinkVars → Step LinkVars
  | 0, v => Step.stop StopKind.out_of_fuel v.vars.published
  | n + 1, v =>
    let act_infiles := sort_get_numpages_of_active_infiles v.vars.sp
    if act_infiles > 1 then
      match link_merge_pass E fuel v act_infiles with
      | Step.stop w p => Step.stop w p
      | Step.next v1 => link_merge_outer_loop E fuel n v1
    else Step.next { v with vars := { v.vars with act_infiles := act_infiles } }

/-- The C `sort_exphase_merge`, every call of the file, page buffer and memory
managers succeeding: the outcome, with the records published. Its
initialisations are those of `sort_exphase_merge_elim_dup`; `last_elem_is_min` has
no value before the first run, it gets the value of `junk`. `fuel` bounds the
number of iterations of each loop. -/
def sort_exphase_merge (E : MergeEnv) (fuel : Nat) (sp : SortParam) (junk : LinkVars) :
    Step LinkVars :=
  link_merge_outer_loop E fuel fuel
    { vars := merge_vars_init sp junk.vars, last_elem_is_min := junk.last_elem_is_min }

/-- The records published by an outcome of `sort_exphase_merge` that ran to its
end; `none` when it stopped. -/
def link_finished : Step LinkVars → Option (List RECDES)
  | Step.next v => some v.vars.published
  | Step.stop _ _ => none

/-- Sort parameters with two temp files in each half: each file of the input
half holds one run of one page, with the keys 2 and 3. -/
def link_equal_param : SortParam :=
  { temp := fun f p => if (f = 0 ∨ f = 1) ∧ p = 0 then page_of_keys [2, 3] else blank_page,
    file_contents := fun f => if f = 0 ∨ f = 1 then ledger_of_runs 1 else ledger_of_runs 0,
    internal_memory := fun _ => blank_page, tot_buffers := 10, tot_tempfiles := 4,
    half_files := 2, in_half := 0 }

/-- Variables of `sort_exphase_merge` with the value zero everywhere. -/
def link_vars_ten : LinkVars := { vars := merge_vars_ten, last_elem_is_min := false }

/-- The state of `sort_exphase_merge` for `link_equal_param` at the head of the
loop that outputs the records of its only run, the very last one: the smallest
elements of the two inputs are the records of the key 2. -/
def link_equal_vars : LinkVars :=
  let v0 := merge_vars_init link_equal_param merge_vars_ten
  let v1 := distribute_memory v0 2
  match link_start_run example_env
      { vars := mark_last_run v1 1, last_elem_is_min := false } with
  | Step.next v => v
  | Step.stop _ _ => link_vars_ten

/-! ### The records of a run are sent out once -/

/-- The key `k` is accounted for in the state `v` with the keys `EM` of the
records sent out: a record sent out compares equal to it, or the smallest
element of a node of the list that is not marked as duplicated does. -/
def Covered (E : MergeEnv) (v : MergeVars) (EM : List (List Byte)) (k : List Byte) : Prop :=
  (∃ l ∈ EM, E.compare l k = 0) ∨
  ∃ n ∈ v.sr_list, n.is_duplicated = false ∧ E.compare (v.data n.rec_pos) k = 0

/-- The invariant of the loop that outputs the records of a run, for the
records `R i` that the run of the input `i` started with: the smallest element of
every node of the list is accounted for, and every record of every input is
still to come in its input, or is accounted for. -/
structure CoverInv (E : MergeEnv) (R : Int → List RECDES) (v : MergeVars)
    (EM : List (List Byte)) : Prop where
  nodes : ∀ n ∈ v.sr_list, Covered E v EM (v.data n.rec_pos)
  recs : ∀ i, 0 ≤ i → i < v.act_infiles → ∀ r ∈ R i,
    ((∃ n ∈ v.sr_list, n.rec_pos = i) ∧ r ∈ in_rest v i) ∨ Covered E v EM (E.key r)

/-- The keys of the records that the run being produced has sent out: the data
of the records published, in the very last run; else the keys of the records of
the pages of the run. -/
def sent_keys (E : MergeEnv) (v : MergeVars) : List (List Byte) :=
  if v.very_last_run = true then v.published.map (fun r => r.data)
  else (recs_of (out_pages v)).map E.key

/-- The state at the head of the pass `n` of the loop `for (;;)` of `PRODUCE A NEW
RUN` that starts in the state `v`, when the loop gets that far. -/
def merge_loop_at (E : MergeEnv) : Nat → MergeVars → Option MergeVars
  | 0, v => some v
  | n + 1, v =>
    match merge_iteration E v with
    | Step.next (v1, true) => merge_loop_at E n v1
    | _ => none
/-- The state at the head of the body of the loop `PRODUCE RUNS` in the first
run of the pass that the `OUTER LOOP` starts in the state `v`. -/
def pass_head (v : MergeVars) : MergeVars :=
  let act_infiles := sort_get_numpages_of_active_infiles v.sp
  let v1 : MergeVars := distribute_memory v act_infiles
  mark_last_run v1 (count_num_runs v1.sp act_infiles act_infiles.toNat v1.sp.in_half 0)

/-- The number of runs of the pass that the `OUTER LOOP` starts in the state
`v`. -/
def pass_runs (v : MergeVars) : Int :=
  let act_infiles := sort_get_numpages_of_active_infiles v.sp
  let v1 : MergeVars := distribute_memory v act_infiles
  count_num_runs v1.sp act_infiles act_infiles.toNat v1.sp.in_half 0

/-- The states `v` and run counters `j` with which `sort_exphase_merge_elim_dup`,
started in the state `v0`, gets to the head of the loop `PRODUCE RUNS`: at the
start of a pass of the `OUTER LOOP`, which goes on with more than one active input
file, and after a run. -/
inductive AtRun (E : MergeEnv) (fuel : Nat) (v0 : MergeVars) : MergeVars → Int → Prop
  | first_pass : sort_get_numpages_of_active_infiles v0.sp > 1 →
      AtRun E fuel v0 (pass_head v0) (pass_runs v0)
  | next_run (v v1 : MergeVars) (j : Int) : AtRun E fuel v0 v j → j > 0 →
      produce_run E fuel v j = Step.next v1 → AtRun E fuel v0 v1 (j - 1)
  | next_pass (v : MergeVars) (j : Int) : AtRun E fuel v0 v j → ¬ j > 0 →
      sort_get_numpages_of_active_infiles (exchange_halves v).sp > 1 →
      AtRun E fuel v0 (pass_head (exchange_halves v)) (pass_runs (exchange_halves v))

/-- Sort parameters with two temp files in each half: each file of the input
half holds one run of one page, the first one with the keys 1 and 5, the second
one with the keys 5 and 7. -/
def last_equal_param : SortParam :=
  { temp := fun f p =>
      if f = 0 ∧ p = 0 then page_of_keys [1, 5]
      else if f = 1 ∧ p = 0 then page_of_keys [5, 7]
      else blank_page,
    file_contents := fun f => if f = 0 ∨ f = 1 then ledger_of_runs 1 else ledger_of_runs 0,
    internal_memory := fun _ => blank_page, tot_buffers := 10, tot_tempfiles := 4,
    half_files := 2, in_half := 0 }

/-! ### The merge runs to its end -/

/-- All I/O succeeds: the consumer accepts every record, and every long record
is read from the overflow file. -/
structure NoRefusal (E : MergeEnv) : Prop where
  put : ∀ p r, E.put_fn p r = 0
  overflow : ∀ d, E.overflow_get d ≠ none

/-- Every buffer that the input `i` still has in its input section, from the
active one on, holds a record. -/
def InFull (v : MergeVars) (i : Int) : Prop :=
  ∀ b, v.in_cur_bufaddr i ≤ b → b < v.in_sectaddr i + v.in_last_buf i →
    1 ≤ (v.sp.internal_memory b).hdr.nslots

/-- Every page of the runs of the file `f` that is not read yet holds a record:
the pages from the current page of the file up to the end of its last run. -/
def FileFull (E : MergeEnv) (v : MergeVars) (f : Int) : Prop :=
  (v.sp.file_contents f).first_run ≠ -1 →
  ∀ q, RunsTo E (v.sp.temp f) (v.sp.file_contents f).num_pages
      ((v.sp.file_contents f).last_run - (v.sp.file_contents f).first_run).toNat
      ((v.sp.file_contents f).first_run + 1)
      (v.cur_page f + (v.sp.file_contents f).num_pages (v.sp.file_contents f).first_run) q →
    ∀ p, v.cur_page f ≤ p → p < q → 1 ≤ (v.sp.temp f p).hdr.nslots

/-- The pages of the output that hold a record: the pages of the output files
up to their current pages, the buffers of the output section before the active
one, and the active one once a record of the run is sent out. -/
structure OutFull (v : MergeVars) (started : Prop) : Prop where
  files : ∀ i, 0 ≤ i → i < v.sp.half_files → ∀ p, 0 ≤ p → p < v.cur_page (v.out_half + i) →
    1 ≤ (v.sp.temp (v.out_half + i) p).hdr.nslots
  buffers : ∀ b, v.out_sectaddr ≤ b → b < v.out_cur_bufaddr →
    1 ≤ (v.sp.internal_memory b).hdr.nslots
  active : started → 1 ≤ (v.sp.internal_memory v.out_cur_bufaddr).hdr.nslots

/-- What the loop that outputs the records of a run keeps of the pages, with the
keys `EM` of the records sent out so far: the buffers of the inputs of the list
and the pages of the input files not read yet hold a record each, and so do the
pages of the output; the first record of the run is not skipped. -/
structure LoopFull (E : MergeEnv) (v : MergeVars) (EM : List (List Byte)) : Prop where
  inputs : ∀ n ∈ v.sr_list, InFull v n.rec_pos
  files : ∀ i, 0 ≤ i → i < v.sp.half_files → FileFull E v (v.sp.in_half + i)
  active : ∀ i, 0 ≤ i → i < v.act_infiles →
    (v.sp.file_contents (v.sp.in_half + i)).first_run ≠ -1
  out : v.very_last_run = false → OutFull v (EM ≠ [])
  first : EM ≠ [] ∨ ∃ h t, v.sr_list = h :: t ∧ h.is_duplicated = false

/-- The ledgers have the same arrays in two states. -/
def SlotsFrame (v w : MergeVars) : Prop :=
  ∀ f, (w.sp.file_contents f).num_slots = (v.sp.file_contents f).num_slots

/-- The number of the records that the inputs of the list of the smallest
elements still have, the smallest elements included. -/
def records_left (v : MergeVars) : Nat :=
  ((v.sr_list.map (fun n => n.rec_pos)).map (fun i => 1 + (in_rest v i).length)).sum

/-- What holds of the pages when a run starts: the pages of the input files not
read yet hold a record each, and so do the pages of the output files up to their
current pages. -/
structure RunFull (E : MergeEnv) (v : MergeVars) : Prop where
  files : ∀ i, 0 ≤ i → i < v.sp.half_files → FileFull E v (v.sp.in_half + i)
  outs : ∀ i, 0 ≤ i → i < v.sp.half_files → ∀ p, 0 ≤ p → p < v.cur_page (v.out_half + i) →
    1 ≤ (v.sp.temp (v.out_half + i) p).hdr.nslots

/-- The ledgers of the temp files are well formed and within the bound of `k`
calls of `sort_run_add_new`. -/
def Cap (v : MergeVars) (k : Int) : Prop :=
  ∀ f, 0 ≤ f → f < 2 * v.sp.half_files →
    LedgerWF (v.sp.file_contents f) ∧ LedgerBound (v.sp.file_contents f) k

/-- The number of the runs in the ledgers of the `half_files` temp files from
the file `base`. -/
def runs_in_half (sp : SortParam) (base : Int) : Int :=
  ((List.range sp.half_files.toNat).map
    (fun (i : Nat) => sort_get_num_file_contents (sp.file_contents (base + (i : Int))))).sum

/-! ### The driver that keeps the duplicates as the other driver with a
comparator without ties -/

/-- The host `E` with a comparator that never answers `0`: it answers `1`
where the comparator of `E` answers a positive value, and `-1` otherwise. -/
def tie_env (E : MergeEnv) : MergeEnv :=
  { E with compare := fun a b => if E.compare a b > 0 then 1 else -1 }

/-- The variables `v` with the value `c` for `last_elem_cmp`. -/
def lec (v : MergeVars) (c : Int) : MergeVars := { v with last_elem_cmp := c }

/-- The outcome of a step with the function `g` applied to its state. -/
def Step.map {σ τ : Type} (g : σ → τ) : Step σ → Step τ
  | Step.next s => Step.next (g s)
  | Step.stop w p => Step.stop w p

/-- The variables of `sort_exphase_merge` are those of the other driver but for
`last_elem_cmp`, of which it has no use. -/
def SameVars (v : MergeVars) (w : LinkVars) : Prop := ∃ c, w.vars = lec v c

/-- The variables of the two drivers within a run, the driver that eliminates the
duplicates running with a comparator without ties: they are the same but for
`last_elem_cmp`, which is never zero and is not positive exactly when
`last_elem_is_min` holds, and no node of the list is marked as duplicated. -/
structure Sim (v : MergeVars) (w : LinkVars) : Prop where
  vars : SameVars v w
  flag : w.last_elem_is_min = true ↔ v.last_elem_cmp ≤ 0
  tie : v.last_elem_cmp ≠ 0
  plain : ∀ n ∈ v.sr_list, n.is_duplicated = false

/-- Two outcomes agree: both steps ran to their ends, with states that `R`
relates, or both stopped for the same reason with the same records published. -/
def StepRel {σ τ : Type} (R : σ → τ → Prop) : Step σ → Step τ → Prop
  | Step.next a, Step.next b => R a b
  | Step.stop k p, Step.stop k1 p1 => k = k1 ∧ p = p1
  | _, _ => False
/-! ### The calls of the consumer -/

/-- The consumer took every record of `p`: each call of `put_fn`, which sees the
records handed over before, returned `NO_ERROR`. -/
def Accepted (E : MergeEnv) (p : List RECDES) : Prop :=
  ∀ q r, q ++ [r] <+: p → E.put_fn q r = 0

/-- The step left the records published as they were, `p0`, and did not stop for
a value of `put_fn`. -/
def Step.Silent {σ : Type} (pub : σ → List RECDES) (p0 : List RECDES) : Step σ → Prop
  | Step.next s => pub s = p0
  | Step.stop k p => p = p0 ∧ ∀ e, k ≠ StopKind.bailout (SortError.put_error e)

/-- The calls of `put_fn` of an outcome: the consumer took every record
published, or the step stopped for the value `e` that the consumer returned for
the last record published, another value than `NO_ERROR`, after it had taken the
records before. -/
def Step.PutsOK {σ : Type} (E : MergeEnv) (pub : σ → List RECDES) : Step σ → Prop
  | Step.next s => Accepted E (pub s)
  | Step.stop (StopKind.bailout (SortError.put_error e)) p =>
    ∃ q r, p = q ++ [r] ∧ Accepted E q ∧ E.put_fn q r = e ∧ e ≠ 0
  | Step.stop _ p => Accepted E p

/-! ## The driver `sort_listfile` with its merge phase -/

/-- The C `sort_get_avg_numpages_of_nonempty_tmpfile`: the pages of the runs of
the ledgers that are not empty (`first_run > -1`), divided by the number of these
ledgers, or by 1 when there is none. The sums stay within the range of `int`. -/
def sort_get_avg_numpages_of_nonempty_tmpfile (sp : SortParam) : Int :=
  let ledgers := ((List.range sp.tot_tempfiles.toNat).map
    (fun (i : Nat) => sp.file_contents (i : Int))).filter
      (fun (fc : FILE_CONTENTS) => decide (fc.first_run > -1))
  let sum := (ledgers.map (fun (fc : FILE_CONTENTS) =>
    ((List.range (fc.last_run - fc.first_run + 1).toNat).map
      (fun (j : Nat) => fc.num_pages (fc.first_run + (j : Int)))).sum)).sum
  Int.tdiv sum (max 1 (ledgers.length : Int))

/-- What the merge phase of `sort_listfile` is run with besides `SortWorld`: the
value that `file_create_hint_numpages`, which is not in the source, returns for a
page count (`0` is `NO_ERROR`), and the file service as `sort_add_new_file` sees
it when the temp file `i` of the output half is created (whether
`file_create_tmp` gives the file is told by `SortWorld`). -/
structure MergeHost where
  file_create_hint_numpages : Int → Int
  file_host : Int → FileHost

/-- The call `sort_add_new_file (thread_p, &sort_param.temp[i], file_pg_cnt_est,
true)` of `sort_listfile` for the temp file `i` of the output half: whether it
returned `NO_ERROR`, and the state. The file has its identifier once
`file_create_tmp` gave it, also when the allocation of its pages fails. -/
def sort_add_new_file_alloc (W : SortWorld) (MH : MergeHost) (st : ParamState)
    (file_pg_cnt_est : Int) (i : Int) : Bool × ParamState :=
  let ok := W.file_create_tmp_ok st.log
  let H : FileHost := { MH.file_host i with file_create_tmp_ok := ok }
  (decide ((sort_add_new_file H file_pg_cnt_est true).1 = AddFileCode.NO_ERROR),
    { st with temp_volid_set := if ok then aset st.temp_volid_set i true
                else st.temp_volid_set,
              log := st.log ++ [SortEvent.create_temp i ok] })

/-- The loop `for (i = sort_param.half_files; i < sort_param.tot_tempfiles; i++)`
of `sort_listfile` that creates the temp files of the output half, from the file
`i`, up to the first call of `sort_add_new_file` that fails: whether every call
returned `NO_ERROR`, and the state. -/
def create_output_files (W : SortWorld) (MH : MergeHost) (file_pg_cnt_est : Int) :
    Nat → ParamState → Int → Bool × ParamState
  | 0, st, _ => (true, st)
  | n + 1, st, i =>
    if i < st.sp.tot_tempfiles then
      match sort_add_new_file_alloc W MH st file_pg_cnt_est i with
      | (false, st1) => (false, st1)
      | (true, st1) => create_output_files W MH file_pg_cnt_est n st1 (i + 1)
    else (true, st)

/-- The calls of `put_fn` for the records `p`, handed over one after the other
after the records `before`, each with the value that the consumer returned. -/
def put_log (E : MergeEnv) : List RECDES → List RECDES → List SortEvent
  | _, [] => []
  | before, r :: rest =>
    SortEvent.put r (E.put_fn before r) :: put_log E (before ++ [r]) rest

/-- The values that `sort_listfile` returns: a value of the input phase (among
them `NO_ERROR`, and `er_errid ()` after a temp file of the output half could not
be created), the value of `file_create_hint_numpages`, or an error of the merge
driver. -/
inductive ListfileCode where
  | input (e : SortCode)
  | hint (code : Int)
  | merge (e : SortError)
  deriving DecidableEq

/-- How `sort_listfile` ends: it returns a value, or its behaviour is undefined,
or the bound of the model on the number of iterations is reached; with the state
of the sort parameters. -/
inductive ListfileEnd where
  | returned (code : ListfileCode) (st : ParamState)
  | undefined (st : ParamState)
  | out_of_fuel (st : ParamState)

/-- The state an end comes with. -/
def ListfileEnd.state : ListfileEnd → ParamState
  | ListfileEnd.returned _ st => st
  | ListfileEnd.undefined st => st
  | ListfileEnd.out_of_fuel st => st

/-- The merge driver that `sort_listfile` calls for the option: the outcome,
with the sort parameters and the records published when it ran to its end. -/
def merge_driver (E : MergeEnv) (mfuel : Nat) (option : SORT_DUP_OPTION) (sp : SortParam)
    (junk : LinkVars) : Step (SortParam × List RECDES) :=
  if option = SORT_DUP_OPTION.SORT_ELIM_DUP then
    (sort_exphase_merge_elim_dup E mfuel sp junk.vars).map
      (fun (v : MergeVars) => (v.sp, v.published))
  else
    (sort_exphase_merge E mfuel sp junk).map
      (fun (w : LinkVars) => (w.vars.sp, w.vars.published))

/-- The value that a merge driver returns after the jump to `bailout` with the
error `e`, `return (error == SORT_PUT_STOP) ? NO_ERROR : error`; an error code of
the driver itself is not `SORT_PUT_STOP`. -/
def merge_return (W : SortWorld) : SortError → ListfileCode
  | SortError.put_error c =>
    if c = W.SORT_PUT_STOP then ListfileCode.input SortCode.NO_ERROR
    else ListfileCode.merge (SortError.put_error c)
  | e => ListfileCode.merge e

/-- The branch `if (sort_param.tot_runs > 1)` of `sort_listfile` in the state
`st` that the input phase left: the hint to the file service, the creation of the
temp files of the output half, the merge driver of the option, and the return of
the resources and of the value. The calls of `put_fn` of the driver enter the
events. After a driver that stopped, the pages of the temp files and of the
internal memory are not modelled: they stay as the input phase left them. -/
def listfile_merge_phase (W : SortWorld) (MH : MergeHost) (mfuel : Nat)
    (option : SORT_DUP_OPTION) (st : ParamState) (junk : LinkVars) : ListfileEnd :=
  let file_pg_cnt_est := max 1 (sort_get_avg_numpages_of_nonempty_tmpfile st.sp)
  let hint : Int :=
    if st.sp.tot_tempfiles > st.sp.half_files then
      MH.file_create_hint_numpages
        (file_pg_cnt_est * (st.sp.tot_tempfiles - st.sp.half_files))
    else 0
  if hint ≠ 0 then
    ListfileEnd.returned (ListfileCode.hint hint) (sort_return_used_resources st)
  else
    match create_output_files W MH file_pg_cnt_est
        (st.sp.tot_tempfiles - st.sp.half_files).toNat st st.sp.half_files with
    | (false, st1) =>
      ListfileEnd.returned (ListfileCode.input SortCode.er_errid)
        (sort_return_used_resources st1)
    | (true, st1) =>
      match merge_driver W.M mfuel option st1.sp junk with
      | Step.next r =>
        ListfileEnd.returned (ListfileCode.input SortCode.NO_ERROR)
          (sort_return_used_resources
            { st1 with sp := r.1, log := st1.log ++ put_log W.M [] r.2 })
      | Step.stop (StopKind.bailout e) p =>
        ListfileEnd.returned (merge_return W e)
          (sort_return_used_resources { st1 with log := st1.log ++ put_log W.M [] p })
      | Step.stop StopKind.undefined p =>
        ListfileEnd.undefined { st1 with log := st1.log ++ put_log W.M [] p }
      | Step.stop StopKind.out_of_fuel p =>
        ListfileEnd.out_of_fuel { st1 with log := st1.log ++ put_log W.M [] p }

/-- The C `sort_listfile` with its merge phase: `sort_listfile` of above up to
the branch `if (sort_param.tot_runs > 1)`, then that branch. `fuel` bounds the
iterations of the loop of the input phase, `mfuel` those of each loop of the merge
driver. -/
def sort_listfile_all (W : SortWorld) (MH : MergeHost) (fuel mfuel : Nat)
    (est_inp_pg_cnt : Int) (option : SORT_DUP_OPTION) (junk : InVars) (mjunk : LinkVars) :
    ListfileEnd :=
  match sort_listfile W fuel est_inp_pg_cnt option junk with
  | ListfileOutcome.returned e st => ListfileEnd.returned (ListfileCode.input e) st
  | ListfileOutcome.merge_phase st => listfile_merge_phase W MH mfuel option st mjunk
  | ListfileOutcome.undefined st => ListfileEnd.undefined st
  | ListfileOutcome.out_of_fuel st => ListfileEnd.out_of_fuel st

/-- A call of the producer or of the file service that failed: `get_fn` with
`SORT_ERROR_OCCURRED`, or `file_create_tmp` without a file. -/
def failed_call : SortEvent → Bool
  | SortEvent.get SORT_STATUS.SORT_ERROR_OCCURRED _ => true
  | SortEvent.create_temp _ false => true
  | SortEvent.create_multipage false => true
  | _ => false

/-- None of the events is a failed call of the producer or of the file service. -/
def NoFailure (log : List SortEvent) : Prop := ∀ e ∈ log, failed_call e = false

/-- The value is `NO_ERROR`, `errid` being the value of `er_errid ()` where
`sort_listfile` returns it. -/
def ListfileCode.is_no_error (errid : Int) : ListfileCode → Prop
  | ListfileCode.input SortCode.NO_ERROR => True
  | ListfileCode.input SortCode.er_errid => errid = 0
  | _ => False

/-- A part of `sort_inphase_sort` that goes on or leaves the loop does so without
a failed call among the events. -/
def Flow.Unfailed : Flow → Prop
  | Flow.next v => NoFailure v.st.log
  | Flow.leave v => NoFailure v.st.log
  | _ => True

/-- A file service of the merge phase on which the hint is taken and every
allocation succeeds. -/
def example_merge_host : MergeHost :=
  { file_create_hint_numpages := fun _ => 0,
    file_host := fun _ => { host_full 100 with file_alloc_pages := fun _ => none } }

/-- The value that the call number `k` among the events returned, when it is a
call of `put_fn`. -/
def put_ret_at (log : List SortEvent) (k : Nat) : Option Int :=
  match log.get? k with
  | some (SortEvent.put _ r) => some r
  | _ => none

/-- The value returned, if the run returned. -/
def ListfileEnd.returns : ListfileEnd → Option ListfileCode
  | ListfileEnd.returned code _ => some code
  | _ => none

/-- Every page of the runs of the input half holds a record. -/
def HalfFull (E : MergeEnv) (sp : SortParam) : Prop :=
  ∀ i, 0 ≤ i → i < sp.half_files → (sp.file_contents (sp.in_half + i)).first_run ≠ -1 → ∀ q,
    RunsTo E (sp.temp (sp.in_half + i)) (sp.file_contents (sp.in_half + i)).num_pages
      ((sp.file_contents (sp.in_half + i)).last_run + 1).toNat 0 0 q →
    ∀ p, 0 ≤ p → p < q → 1 ≤ (sp.temp (sp.in_half + i) p).hdr.nslots

/-- What the `OUTER LOOP` keeps besides `OuterInv` until the very last run: every
page of the runs of the input half holds a record, and the ledgers are well formed
and have room for the runs to come, `c` being a bound on the calls of
`sort_run_add_new` so far. -/
structure OuterFull (E : MergeEnv) (v : MergeVars) (c : Int) : Prop where
  full : HalfFull E v.sp
  cap : Cap v c
  calls : 0 ≤ c
  room : c + 2 * runs_in_half v.sp v.sp.in_half ≤ 2 ^ 24

/-- The host `E` with a consumer that accepts every record. -/
def accepting (E : MergeEnv) : MergeEnv := { E with put_fn := fun _ _ => 0 }

/-- The records published when a step ends, whether it ran to its end or
stopped. -/
def Step.Pub {σ : Type} (pub : σ → List RECDES) : Step σ → List RECDES
  | Step.next s => pub s
  | Step.stop _ p => p

/-- The step `a` is the step `b`, or it stopped for a value of `put_fn` with
records published that `b` publishes too, in this order and before any other. -/
def Step.UpTo {σ : Type} (pub : σ → List RECDES) (a b : Step σ) : Prop :=
  a = b ∨ ∃ e p, a = Step.stop (StopKind.bailout (SortError.put_error e)) p ∧ p <+: b.Pub pub

/-- The host of `example_env` with an overflow file that gives every long record
back: a handle is the record itself. -/
def reading_env : MergeEnv := { example_env with overflow_get := fun d => some d }

/-- What a pass of the `OUTER LOOP` that ran to its end leaves: whether the
very last run is done, the number of runs in the new input half, and the first
runs of the ledgers of the files `0` to `3`; `none` when the pass stopped. -/
def Step.pass_left : Step MergeVars → Option (Bool × Int × List Int)
  | Step.next w => some (w.very_last_run, runs_in_half w.sp w.sp.in_half,
      [(w.sp.file_contents 0).first_run, (w.sp.file_contents 1).first_run,
       (w.sp.file_contents 2).first_run, (w.sp.file_contents 3).first_run])
  | Step.stop _ _ => none

/-- The keys of the records of the run that the copy branch of the loop `PRODUCE
RUNS` wrote, `v` being the state before and `w` the state after: the records of
the pages of the output file from its current page on, as many pages as the
first run of the first input file has. -/
def copied_keys (E : MergeEnv) (v w : MergeVars) : List (List Byte) :=
  (recs_of (pages_seq (w.sp.temp v.cur_outfile) (v.cur_page v.cur_outfile)
    ((v.sp.file_contents v.sp.in_half).num_pages
      (v.sp.file_contents v.sp.in_half).first_run))).map E.key

/-! ## Theorems -/

/-! ### Arithmetic of `INT16` and of the alignment macros -/

theorem INT16_of_range {x : Int} (h1 : -32768 ≤ x) (h2 : x ≤ 32767) : INT16 x = x := by
  unfold INT16; omega

theorem DB_ALIGN_bounds {a : Int} (ha : ValidAlignment a) (x : Int) :
    x ≤ DB_ALIGN x a ∧ DB_ALIGN x a < x + a ∧ DB_ALIGN x a % a = 0 := by
  unfold DB_ALIGN
  rcases ha with rfl | rfl | rfl | rfl <;> omega

theorem DB_ALIGN_of_aligned {a : Int} (ha : ValidAlignment a) {x : Int} (hx : x % a = 0) :
    DB_ALIGN x a = x := by
  unfold DB_ALIGN
  rcases ha with rfl | rfl | rfl | rfl <;> omega

theorem DB_ALIGN_add {a : Int} (ha : ValidAlignment a) {c : Int} (hc : c % a = 0) (x : Int) :
    DB_ALIGN (c + x) a = c + DB_ALIGN x a := by
  unfold DB_ALIGN
  rcases ha with rfl | rfl | rfl | rfl <;> omega

theorem padded_eq (a len : Int) : padded a len = DB_ALIGN len a := by
  unfold padded DB_WASTED_ALIGN; omega

theorem padded_bounds {a : Int} (ha : ValidAlignment a) (len : Int) :
    len ≤ padded a len ∧ padded a len < len + a ∧ padded a len % a = 0 := by
  rw [padded_eq]; exact DB_ALIGN_bounds ha len

theorem padded_zero {a : Int} (ha : ValidAlignment a) : padded a 0 = 0 := by
  rw [padded_eq]; exact DB_ALIGN_of_aligned ha (by simp)

theorem ValidAlignment.pos {a : Int} (ha : ValidAlignment a) : 0 < a ∧ a ≤ 8 := by
  rcases ha with rfl | rfl | rfl | rfl <;> omega

theorem sixteen_aligned {a : Int} (ha : ValidAlignment a) :
    SIZEOF_SLOTTED_PAGE_HEADER % a = 0 := by
  unfold SIZEOF_SLOTTED_PAGE_HEADER
  rcases ha with rfl | rfl | rfl | rfl <;> omega

theorem add_aligned {a : Int} (ha : ValidAlignment a) {x y : Int} (hx : x % a = 0)
    (hy : y % a = 0) : (x + y) % a = 0 := by
  rcases ha with rfl | rfl | rfl | rfl <;> omega

/-! ### `sort_spage_initialize` -/

theorem initialize_hdr (env : PageEnv) (henv : env.Valid) (pg : Page) (slots_type a : Int)
    (ha : ValidAlignment a) :
    ( sort_spage_initialize env pg slots_type a).hdr =
      { nslots := 0, nrecs := 0, anchor_flag := INT16 slots_type, alignment := a,
        waste_align := 0, tfree := env.DB_PAGESIZE - SIZEOF_SLOTTED_PAGE_HEADER,
        cfree := env.DB_PAGESIZE - SIZEOF_SLOTTED_PAGE_HEADER,
        foffset := SIZEOF_SLOTTED_PAGE_HEADER } ∧
    ( sort_spage_initialize env pg slots_type a).slots = pg.slots ∧
    ( sort_spage_initialize env pg slots_type a).bytes = pg.bytes := by
  obtain ⟨h1, h2, _⟩ := henv
  have hA : INT16 a = a := INT16_of_range (by have := ha.pos; omega) (by have := ha.pos; omega)
  have hF : INT16 SIZEOF_SLOTTED_PAGE_HEADER = SIZEOF_SLOTTED_PAGE_HEADER := by
    unfold SIZEOF_SLOTTED_PAGE_HEADER INT16; omega
  have hW : DB_WASTED_ALIGN SIZEOF_SLOTTED_PAGE_HEADER a = 0 := by
    unfold DB_WASTED_ALIGN
    rw [DB_ALIGN_of_aligned ha (sixteen_aligned ha)]; omega
  have hT : INT16 (env.DB_PAGESIZE - SIZEOF_SLOTTED_PAGE_HEADER) =
      env.DB_PAGESIZE - SIZEOF_SLOTTED_PAGE_HEADER := by
    unfold SIZEOF_SLOTTED_PAGE_HEADER SIZEOF_SLOT at *
    exact INT16_of_range (by omega) (by omega)
  have hZ : INT16 0 = 0 := by unfold INT16; omega
  simp only [ sort_spage_initialize, hA, hF, hW, hT, hZ]
  simp

theorem initialize_inv (env : PageEnv) (henv : env.Valid) (pg : Page) (slots_type a : Int)
    (ha : ValidAlignment a) : PageInv env a ( sort_spage_initialize env pg slots_type a) := by
  obtain ⟨hh, _, _⟩ := initialize_hdr env henv pg slots_type a ha
  obtain ⟨h1, h2, _⟩ := henv
  unfold SIZEOF_SLOTTED_PAGE_HEADER SIZEOF_SLOT at h1
  constructor
  · rw [hh]
  · rw [hh]
  · rw [hh]
  · rw [hh]
  · rw [hh]; simp
  · rw [hh]; simp [SIZEOF_SLOTTED_PAGE_HEADER]; omega
  · rw [hh]
  · rw [hh]; exact sixteen_aligned ha
  · intro i hi; rw [hh] at hi; simp at hi; omega
  · refine ⟨[], ?_, ?_⟩
    · rw [hh]; simp
    · rw [hh]; simp [LayoutZ]

/-! ### `sort_spage_find_free` and `sort_spage_insert` on a page with the invariant -/

theorem find_free_fits (env : PageEnv) (henv : env.Valid) (a : Int) (ha : ValidAlignment a)
    (qs : Qsort) (ok : Bool) (pg : Page) (hI : PageInv env a pg) (len : Int) (ty : RecType)
    (h0 : 0 ≤ len) (hfit : padded a len + SIZEOF_SLOT ≤ pg.hdr.tfree) :
    sort_spage_find_free env qs ok pg len ty =
      some { page := { hdr := hdr_after_insert a pg.hdr len,
                       slots := set_slot pg.slots pg.hdr.nslots.toNat
                         { roffset := pg.hdr.foffset, rlength := len, rtype := ty },
                       bytes := pg.bytes },
             slotid := some pg.hdr.nslots,
             space := padded a len + SIZEOF_SLOT } := by
  obtain ⟨e1, e2, _⟩ := henv
  obtain ⟨i1, i2, i3, i4, i5, i6, i7, i8, _, _⟩ := hI
  obtain ⟨p1, p2, _⟩ := padded_bounds ha len
  have hpos := ha.pos
  unfold SIZEOF_SLOTTED_PAGE_HEADER SIZEOF_SLOT at *
  have hW : INT16 (DB_WASTED_ALIGN len pg.hdr.alignment) = padded a len - len := by
    rw [i1]; unfold padded at *
    rw [INT16_of_range (by omega) (by omega)]; omega
  have hS : INT16 (len + (padded a len - len)) = padded a len := by
    rw [INT16_of_range (by omega) (by omega)]; omega
  have hS2 : INT16 (padded a len + 6) = padded a len + 6 :=
    INT16_of_range (by omega) (by omega)
  have hN : ((pg.hdr.nslots.toNat : Nat) : Int) = pg.hdr.nslots := Int.toNat_of_nonneg i2
  have hN1 : INT16 (pg.hdr.nslots + 1) = pg.hdr.nslots + 1 :=
    INT16_of_range (by omega) (by omega)
  have hT : INT16 (pg.hdr.tfree - (padded a len + 6)) = pg.hdr.tfree - (padded a len + 6) :=
    INT16_of_range (by omega) (by omega)
  have hF : INT16 (pg.hdr.foffset + (len + (padded a len - len))) =
      pg.hdr.foffset + padded a len := by
    rw [INT16_of_range (by omega) (by omega)]; omega
  unfold sort_spage_find_free
  simp only [hW, hS, hS2, SIZEOF_SLOT]
  rw [if_neg (by omega), if_pos i3.symm]
  simp only [hN]
  rw [if_pos (by omega), if_neg (by omega), if_neg (by omega)]
  simp only [sort_spage_find_free_take, hdr_after_insert, hN1, i3, i4, hT, hF, SIZEOF_SLOT, hN]

theorem find_free_full (env : PageEnv) (henv : env.Valid) (a : Int) (ha : ValidAlignment a)
    (qs : Qsort) (ok : Bool) (pg : Page) (hI : PageInv env a pg) (len : Int) (ty : RecType)
    (h0 : 0 ≤ len) (hlen : len ≤ SORT_MAXREC_LENGTH env)
    (hfit : ¬ padded a len + SIZEOF_SLOT ≤ pg.hdr.tfree) :
    sort_spage_find_free env qs ok pg len ty = some { page := pg, slotid := none, space := 0 } := by
  obtain ⟨e1, e2, _⟩ := henv
  obtain ⟨i1, i2, i3, i4, i5, i6, i7, i8, _, _⟩ := hI
  obtain ⟨p1, p2, _⟩ := padded_bounds ha len
  have hpos := ha.pos
  unfold SORT_MAXREC_LENGTH at *
  unfold SIZEOF_SLOTTED_PAGE_HEADER SIZEOF_SLOT at *
  have hW : INT16 (DB_WASTED_ALIGN len pg.hdr.alignment) = padded a len - len := by
    rw [i1]; unfold padded at *
    rw [INT16_of_range (by omega) (by omega)]; omega
  have hS : INT16 (len + (padded a len - len)) = padded a len := by
    rw [INT16_of_range (by omega) (by omega)]; omega
  have hS2 : INT16 (padded a len + 6) = padded a len + 6 :=
    INT16_of_range (by omega) (by omega)
  have hN : ((pg.hdr.nslots.toNat : Nat) : Int) = pg.hdr.nslots := Int.toNat_of_nonneg i2
  unfold sort_spage_find_free
  simp only [hW, hS, hS2, SIZEOF_SLOT]
  by_cases hc : padded a len > pg.hdr.tfree
  · rw [if_pos hc]
  · rw [if_neg hc, if_pos i3.symm]
    simp only [hN]
    rw [if_pos (by omega), if_pos (by omega)]

theorem insert_fits (env : PageEnv) (henv : env.Valid) (a : Int) (ha : ValidAlignment a)
    (qs : Qsort) (ok : Bool) (pg : Page) (hI : PageInv env a pg) (r : RECDES) (hr : r.WF)
    (hlen : r.length ≤ SORT_MAXREC_LENGTH env)
    (hfit : padded a r.length + SIZEOF_SLOT ≤ pg.hdr.tfree) :
    sort_spage_insert env qs ok pg r =
      some ({ hdr := hdr_after_insert a pg.hdr r.length,
              slots := set_slot pg.slots pg.hdr.nslots.toNat
                { roffset := pg.hdr.foffset, rlength := r.length, rtype := stored_type r.type },
              bytes := memcpy_to_page pg.bytes pg.hdr.foffset r.data r.length },
            some pg.hdr.nslots) := by
  have h0 : 0 ≤ r.length := by rw [hr]; exact Int.natCast_nonneg _
  obtain ⟨e1, e2, _⟩ := henv
  have hL : INT16 r.length = r.length := by
    unfold SORT_MAXREC_LENGTH SIZEOF_SLOTTED_PAGE_HEADER SIZEOF_SLOT at *
    exact INT16_of_range (by omega) (by omega)
  have hN : ((pg.hdr.nslots.toNat : Nat) : Int) = pg.hdr.nslots :=
    Int.toNat_of_nonneg hI.nslots_nonneg
  unfold sort_spage_insert
  rw [if_neg (by omega)]
  simp only [hL, find_free_fits env ⟨e1, e2, ‹_›⟩ a ha qs ok pg hI r.length _ h0 hfit]
  simp [set_slot, stored_type, hN]

theorem insert_full (env : PageEnv) (henv : env.Valid) (a : Int) (ha : ValidAlignment a)
    (qs : Qsort) (ok : Bool) (pg : Page) (hI : PageInv env a pg) (r : RECDES) (hr : r.WF)
    (hfit : ¬ (r.length ≤ SORT_MAXREC_LENGTH env ∧
      padded a r.length + SIZEOF_SLOT ≤ pg.hdr.tfree)) :
    sort_spage_insert env qs ok pg r = some (pg, none) := by
  have h0 : 0 ≤ r.length := by rw [hr]; exact Int.natCast_nonneg _
  unfold sort_spage_insert
  by_cases hlen : r.length > SORT_MAXREC_LENGTH env
  · rw [if_pos hlen]
  · rw [if_neg hlen]
    have hlen2 : r.length ≤ SORT_MAXREC_LENGTH env := by omega
    obtain ⟨e1, e2, e3⟩ := henv
    have hL : INT16 r.length = r.length := by
      unfold SORT_MAXREC_LENGTH SIZEOF_SLOTTED_PAGE_HEADER SIZEOF_SLOT at *
      exact INT16_of_range (by omega) (by omega)
    simp only [hL, find_free_full env ⟨e1, e2, e3⟩ a ha qs ok pg hI r.length _ h0 hlen2
      (fun h => hfit ⟨hlen2, h⟩)]

/-! ### The layout of the record area -/

theorem LayoutZ_congr (slots slots1 : Nat → SLOT) (a f : Int) (σ : List Nat)
    (h : ∀ i ∈ σ, slots1 i = slots i) (c : Int) :
    LayoutZ slots1 a f c σ ↔ LayoutZ slots a f c σ := by
  induction σ generalizing c with
  | nil => simp [LayoutZ]
  | cons s r ih =>
    have hs : slots1 s = slots s := h s (List.mem_cons_self _ _)
    have hr : ∀ i ∈ r, slots1 i = slots i := fun i hi => h i (List.mem_cons_of_mem _ hi)
    simp only [LayoutZ, hs, ih hr]

theorem LayoutZ_append (slots : Nat → SLOT) (a : Int) (ha : ValidAlignment a) (f : Int)
    (σ : List Nat) (n : Nat) (hn : (slots n).roffset = f) (c : Int)
    (h : LayoutZ slots a f c σ) :
    LayoutZ slots a (f + padded a (slots n).rlength) c (σ ++ [n]) := by
  induction σ generalizing c with
  | nil =>
    simp only [LayoutZ] at h
    subst h
    simp only [List.nil_append, LayoutZ]
    by_cases hz : (slots n).rlength = 0
    · rw [if_pos hz, hz, padded_zero ha]; simp
    · rw [if_neg hz]; exact ⟨hn, trivial⟩
  | cons s r ih =>
    simp only [List.cons_append, LayoutZ] at h ⊢
    by_cases hz : (slots s).rlength = 0
    · rw [if_pos hz] at h ⊢; exact ih c h
    · rw [if_neg hz] at h ⊢; exact ⟨h.1, ih _ h.2⟩

theorem LayoutZ_bounds (slots : Nat → SLOT) (a : Int) (ha : ValidAlignment a) (f : Int)
    (σ : List Nat) (hlen : ∀ i ∈ σ, 0 ≤ (slots i).rlength) (c : Int)
    (h : LayoutZ slots a f c σ) :
    c ≤ f ∧ ∀ t ∈ σ, (slots t).rlength ≠ 0 →
      c ≤ (slots t).roffset ∧ (slots t).roffset + padded a (slots t).rlength ≤ f := by
  induction σ generalizing c with
  | nil => simp only [LayoutZ] at h; subst h; simp
  | cons s r ih =>
    have hr : ∀ i ∈ r, 0 ≤ (slots i).rlength := fun i hi => hlen i (List.mem_cons_of_mem _ hi)
    have hs := hlen s (List.mem_cons_self _ _)
    have hp := (padded_bounds ha (slots s).rlength).1
    simp only [LayoutZ] at h
    by_cases hz : (slots s).rlength = 0
    · rw [if_pos hz] at h
      obtain ⟨h1, h2⟩ := ih hr c h
      refine ⟨h1, ?_⟩
      intro t ht hnz
      rcases List.mem_cons.1 ht with rfl | ht
      · exact absurd hz hnz
      · exact h2 t ht hnz
    · rw [if_neg hz] at h
      obtain ⟨h1, h2⟩ := ih hr _ h.2
      refine ⟨by omega, ?_⟩
      intro t ht hnz
      rcases List.mem_cons.1 ht with rfl | ht
      · exact ⟨by omega, by omega⟩
      · have := h2 t ht hnz
        exact ⟨by omega, this.2⟩

/-- Two records of non-zero length that the layout lists one before the other do
not share a byte: the first ends, padding included, where the second starts or
before. -/
theorem LayoutZ_pairwise (slots : Nat → SLOT) (a : Int) (ha : ValidAlignment a) (f : Int)
    (σ : List Nat) (hlen : ∀ i ∈ σ, 0 ≤ (slots i).rlength) (c : Int)
    (h : LayoutZ slots a f c σ) :
    σ.Pairwise (fun s t => (slots s).rlength ≠ 0 → (slots t).rlength ≠ 0 →
      (slots s).roffset + padded a (slots s).rlength ≤ (slots t).roffset) := by
  induction σ generalizing c with
  | nil => exact List.Pairwise.nil
  | cons s r ih =>
    have hr : ∀ i ∈ r, 0 ≤ (slots i).rlength := fun i hi => hlen i (List.mem_cons_of_mem _ hi)
    simp only [LayoutZ] at h
    by_cases hz : (slots s).rlength = 0
    · rw [if_pos hz] at h
      exact List.Pairwise.cons (fun t _ hs _ => absurd hz hs) (ih hr c h)
    · rw [if_neg hz] at h
      refine List.Pairwise.cons ?_ (ih hr _ h.2)
      intro t ht _ hnz
      have := (LayoutZ_bounds slots a ha f r hr _ h.2).2 t ht hnz
      omega

theorem insert_fits_inv (env : PageEnv) (henv : env.Valid) (a : Int) (ha : ValidAlignment a)
    (pg : Page) (hI : PageInv env a pg) (len : Int) (ty : RecType) (data : List Byte)
    (h0 : 0 ≤ len) (hfit : padded a len + SIZEOF_SLOT ≤ pg.hdr.tfree) :
    PageInv env a
      { hdr := hdr_after_insert a pg.hdr len,
        slots := set_slot pg.slots pg.hdr.nslots.toNat
          { roffset := pg.hdr.foffset, rlength := len, rtype := ty },
        bytes := memcpy_to_page pg.bytes pg.hdr.foffset data len } := by
  obtain ⟨e1, e2, _⟩ := henv
  obtain ⟨i1, i2, i3, i4, i5, i6, i7, i8, i9, σ, hσ, hL⟩ := hI
  obtain ⟨p1, p2, p3⟩ := padded_bounds ha len
  have hN : ((pg.hdr.nslots.toNat : Nat) : Int) = pg.hdr.nslots := Int.toNat_of_nonneg i2
  unfold SIZEOF_SLOTTED_PAGE_HEADER SIZEOF_SLOT at *
  constructor
  · simp [hdr_after_insert, i1]
  · simp only [hdr_after_insert]; omega
  · simp only [hdr_after_insert]; omega
  · simp only [hdr_after_insert]; omega
  · simp only [hdr_after_insert, SIZEOF_SLOT]; omega
  · simp only [hdr_after_insert, SIZEOF_SLOT]; omega
  · simp only [hdr_after_insert, SIZEOF_SLOTTED_PAGE_HEADER]; omega
  · simp only [hdr_after_insert]; exact add_aligned ha i8 p3
  · intro i hi
    simp only [hdr_after_insert] at hi ⊢
    simp only [set_slot]
    by_cases hc : i = pg.hdr.nslots.toNat
    · rw [if_pos hc]; simp only [SIZEOF_SLOTTED_PAGE_HEADER]
      exact ⟨h0, i7, i8, by omega⟩
    · rw [if_neg hc]
      have hlt : (i : Int) < pg.hdr.nslots := by omega
      have := i9 i hlt
      simp only [SIZEOF_SLOTTED_PAGE_HEADER] at this ⊢
      exact ⟨this.1, this.2.1, this.2.2.1, by omega⟩
  · refine ⟨σ ++ [pg.hdr.nslots.toNat], ?_, ?_⟩
    · simp only [hdr_after_insert]
      have : (pg.hdr.nslots + 1).toNat = pg.hdr.nslots.toNat + 1 := by omega
      rw [this, List.range_succ]
      exact List.Perm.append_right _ hσ
    · simp only [hdr_after_insert]
      have hnot : pg.hdr.nslots.toNat ∉ σ := by
        intro hm
        have := (hσ.mem_iff).1 hm
        simp at this
      have hcongr : LayoutZ (set_slot pg.slots pg.hdr.nslots.toNat
          { roffset := pg.hdr.foffset, rlength := len, rtype := ty }) a pg.hdr.foffset
          SIZEOF_SLOTTED_PAGE_HEADER σ := by
        rw [LayoutZ_congr pg.slots]
        · exact hL
        · intro i hi
          simp only [set_slot]
          rw [if_neg]
          rintro rfl; exact hnot hi
      have := LayoutZ_append _ a ha pg.hdr.foffset σ pg.hdr.nslots.toNat
        (by simp [set_slot]) _ hcongr
      simpa [set_slot] using this

/-! ### `sort_spage_compact` on a page with the invariant -/

theorem LayoutZ_erase_zero (slots : Nat → SLOT) (a f : Int) (t : Nat)
    (ht : (slots t).rlength = 0) (ρ : List Nat) (c : Int) (h : LayoutZ slots a f c ρ) :
    LayoutZ slots a f c (ρ.erase t) := by
  induction ρ generalizing c with
  | nil => simpa using h
  | cons s r ih =>
    by_cases hst : s = t
    · subst hst
      rw [List.erase_cons_head]
      simp only [LayoutZ] at h
      rw [if_pos ht] at h
      exact h
    · rw [List.erase_cons_tail (by simpa using hst)]
      simp only [LayoutZ] at h ⊢
      by_cases hz : (slots s).rlength = 0
      · rw [if_pos hz] at h ⊢; exact ih c h
      · rw [if_neg hz] at h ⊢; exact ⟨h.1, ih _ h.2⟩

theorem LayoutZ_erase_first (slots : Nat → SLOT) (a : Int) (ha : ValidAlignment a) (f : Int)
    (t : Nat) (ht : (slots t).rlength ≠ 0) (ρ : List Nat)
    (hlen : ∀ i ∈ ρ, 0 ≤ (slots i).rlength) (c : Int) (htc : (slots t).roffset = c)
    (hmem : t ∈ ρ) (h : LayoutZ slots a f c ρ) :
    LayoutZ slots a f (c + padded a (slots t).rlength) (ρ.erase t) := by
  induction ρ generalizing c with
  | nil => simp at hmem
  | cons s r ih =>
    have hr : ∀ i ∈ r, 0 ≤ (slots i).rlength := fun i hi => hlen i (List.mem_cons_of_mem _ hi)
    have hs := hlen s (List.mem_cons_self _ _)
    by_cases hst : s = t
    · subst hst
      rw [List.erase_cons_head]
      simp only [LayoutZ] at h
      rw [if_neg ht] at h
      exact h.2
    · rw [List.erase_cons_tail (by simpa using hst)]
      have hmem1 : t ∈ r := by
        rcases List.mem_cons.1 hmem with h1 | h1
        · exact absurd h1.symm hst
        · exact h1
      simp only [LayoutZ] at h ⊢
      by_cases hz : (slots s).rlength = 0
      · rw [if_pos hz] at h ⊢; exact ih hr c htc hmem1 h
      · rw [if_neg hz] at h
        exfalso
        have h1 := (LayoutZ_bounds slots a ha f r hr _ h.2).2 t hmem1 ht
        have h2 := (padded_bounds ha (slots s).rlength).1
        omega

theorem LayoutZ_first_nonzero (slots : Nat → SLOT) (a f : Int) (ρ : List Nat) (c : Int)
    (h : LayoutZ slots a f c ρ) (hex : ∃ t ∈ ρ, (slots t).rlength ≠ 0) :
    ∃ u ∈ ρ, (slots u).rlength ≠ 0 ∧ (slots u).roffset = c := by
  induction ρ generalizing c with
  | nil => obtain ⟨t, ht, _⟩ := hex; simp at ht
  | cons s r ih =>
    simp only [LayoutZ] at h
    by_cases hz : (slots s).rlength = 0
    · rw [if_pos hz] at h
      obtain ⟨t, ht, hnz⟩ := hex
      have : ∃ t ∈ r, (slots t).rlength ≠ 0 := by
        rcases List.mem_cons.1 ht with h1 | h1
        · subst h1; exact absurd hz hnz
        · exact ⟨t, h1, hnz⟩
      obtain ⟨u, hu, h1, h2⟩ := ih c h this
      exact ⟨u, List.mem_cons_of_mem _ hu, h1, h2⟩
    · rw [if_neg hz] at h
      exact ⟨s, List.mem_cons_self _ _, hz, h.1⟩

theorem memmove_zero (bytes : Int → Byte) (dst src : Int) :
    memmove_in_page bytes dst src 0 = bytes := by
  funext i
  unfold memmove_in_page
  rw [if_neg (by omega)]

/-- What the record-moving loop of a compaction does on a record area that is
laid out without gaps: no byte moves, the records of non-zero length stay where
they are, and the final offset is the free-area offset. -/
theorem compact_loop_spec (a : Int) (ha : ValidAlignment a) (f : Int) (hf : f ≤ 32767)
    (slots0 : Nat → SLOT) (τ : List Nat) :
    ∀ (ρ : List Nat) (st : CompactState) (c : Int),
    τ.Perm ρ → τ.Nodup →
    τ.Pairwise (fun x y => (slots0 x).roffset ≤ (slots0 y).roffset) →
    (∀ i ∈ τ, st.slots i = slots0 i) →
    (∀ i ∈ τ, 0 ≤ (slots0 i).rlength) →
    INT16 (DB_ALIGN st.to_offset a) = c → SIZEOF_SLOTTED_PAGE_HEADER ≤ c → c % a = 0 →
    LayoutZ slots0 a f c ρ →
    (sort_spage_compact_loop a τ st).bytes = st.bytes ∧
    INT16 (DB_ALIGN (sort_spage_compact_loop a τ st).to_offset a) = f ∧
    (∀ i, i ∉ τ → (sort_spage_compact_loop a τ st).slots i = st.slots i) ∧
    (∀ i ∈ τ,
      ((sort_spage_compact_loop a τ st).slots i).rlength = (slots0 i).rlength ∧
      ((sort_spage_compact_loop a τ st).slots i).rtype = (slots0 i).rtype ∧
      ((slots0 i).rlength ≠ 0 →
        ((sort_spage_compact_loop a τ st).slots i).roffset = (slots0 i).roffset) ∧
      ((slots0 i).rlength = 0 →
        c ≤ ((sort_spage_compact_loop a τ st).slots i).roffset ∧
        ((sort_spage_compact_loop a τ st).slots i).roffset ≤ f ∧
        ((sort_spage_compact_loop a τ st).slots i).roffset % a = 0)) := by
  induction τ with
  | nil =>
    intro ρ st c hperm _ _ _ _ hc _ _ hL
    have : ρ = [] := by simpa using hperm.symm
    subst this
    simp only [LayoutZ] at hL
    subst hL
    simp [sort_spage_compact_loop, hc]
  | cons t τ1 ih =>
    intro ρ st c hperm hnd hsorted hagree hlen hc hc16 hcal hL
    have hlenρ : ∀ i ∈ ρ, 0 ≤ (slots0 i).rlength := fun i hi => hlen i ((hperm.mem_iff).2 hi)
    have htρ : t ∈ ρ := (hperm.mem_iff).1 (List.mem_cons_self _ _)
    have hperm1 : τ1.Perm (ρ.erase t) := by
      have := hperm.erase t
      rwa [List.erase_cons_head] at this
    have hnd1 : τ1.Nodup := (List.nodup_cons.1 hnd).2
    have htnot : t ∉ τ1 := (List.nodup_cons.1 hnd).1
    have hsorted1 := (List.pairwise_cons.1 hsorted).2
    have hmin := (List.pairwise_cons.1 hsorted).1
    have hst : st.slots t = slots0 t := hagree t (List.mem_cons_self _ _)
    have hlen1 : ∀ i ∈ τ1, 0 ≤ (slots0 i).rlength :=
      fun i hi => hlen i (List.mem_cons_of_mem _ hi)
    have hlt := hlen t (List.mem_cons_self _ _)
    have hcf := (LayoutZ_bounds slots0 a ha f ρ hlenρ c hL).1
    unfold SIZEOF_SLOTTED_PAGE_HEADER at hc16
    have hcc : INT16 (DB_ALIGN c a) = c := by
      rw [DB_ALIGN_of_aligned ha hcal]; exact INT16_of_range (by omega) (by omega)
    by_cases hz : (slots0 t).rlength = 0
    · -- a record of length zero: it may move, no byte does
      have hL1 := LayoutZ_erase_zero slots0 a f t hz ρ c hL
      have hto : INT16 (c + (slots0 t).rlength) = c := by
        rw [hz]; simp only [add_zero]; exact INT16_of_range (by omega) (by omega)
      by_cases hin : c = (slots0 t).roffset
      · have hstep : sort_spage_compact_loop a (t :: τ1) st =
            sort_spage_compact_loop a τ1 { st with to_offset := c } := by
          simp only [sort_spage_compact_loop, hc, hst]
          rw [if_pos hin, hto]
        rw [hstep]
        obtain ⟨r1, r2, r3, r4⟩ := ih (ρ.erase t) { st with to_offset := c } c hperm1 hnd1
          hsorted1 (fun i hi => hagree i (List.mem_cons_of_mem _ hi)) hlen1 hcc
          (by unfold SIZEOF_SLOTTED_PAGE_HEADER; exact hc16) hcal hL1
        refine ⟨r1, r2, fun i hi => r3 i (fun h => hi (List.mem_cons_of_mem _ h)), ?_⟩
        intro i hi
        rcases List.mem_cons.1 hi with rfl | hi
        · rw [r3 i htnot]
          simp only [hst]
          exact ⟨trivial, trivial, fun _ => trivial,
            fun _ => ⟨by omega, by omega, by rw [← hin]; exact hcal⟩⟩
        · exact r4 i hi
      · have hstep : sort_spage_compact_loop a (t :: τ1) st =
            sort_spage_compact_loop a τ1
              { slots := set_slot st.slots t { slots0 t with roffset := c },
                bytes := st.bytes, to_offset := c } := by
          simp only [sort_spage_compact_loop, hc, hst]
          rw [if_neg hin, hto, hz, memmove_zero]
        rw [hstep]
        obtain ⟨r1, r2, r3, r4⟩ := ih (ρ.erase t)
          { slots := set_slot st.slots t { slots0 t with roffset := c },
            bytes := st.bytes, to_offset := c } c hperm1 hnd1 hsorted1
          (fun i hi => by
            simp only [set_slot]
            rw [if_neg (by rintro rfl; exact htnot hi)]
            exact hagree i (List.mem_cons_of_mem _ hi)) hlen1 hcc
          (by unfold SIZEOF_SLOTTED_PAGE_HEADER; exact hc16) hcal hL1
        refine ⟨r1, r2, ?_, ?_⟩
        · intro i hi
          rw [r3 i (fun h => hi (List.mem_cons_of_mem _ h))]
          simp only [set_slot]
          rw [if_neg (by rintro rfl; exact hi (List.mem_cons_self _ _))]
        · intro i hi
          rcases List.mem_cons.1 hi with rfl | hi
          · rw [r3 i htnot]
            simp only [set_slot, if_true]
            exact ⟨trivial, trivial, fun h => absurd hz h, fun _ => ⟨le_refl _, hcf, hcal⟩⟩
          · exact r4 i hi
    · -- a record of non-zero length: it is the next one of the layout, in place
      have hge := (LayoutZ_bounds slots0 a ha f ρ hlenρ c hL).2 t htρ hz
      obtain ⟨u, huρ, hunz, huc⟩ := LayoutZ_first_nonzero slots0 a f ρ c hL ⟨t, htρ, hz⟩
      have hle : (slots0 t).roffset ≤ c := by
        rcases List.mem_cons.1 ((hperm.mem_iff).2 huρ) with h1 | h1
        · subst h1; omega
        · have := hmin u h1; omega
      have hin : c = (slots0 t).roffset := by omega
      obtain ⟨p1, p2, p3⟩ := padded_bounds ha (slots0 t).rlength
      have hL1 := LayoutZ_erase_first slots0 a ha f t hz ρ hlenρ c hin.symm htρ hL
      have hto : INT16 (c + (slots0 t).rlength) = c + (slots0 t).rlength :=
        INT16_of_range (by omega) (by omega)
      have hstep : sort_spage_compact_loop a (t :: τ1) st =
          sort_spage_compact_loop a τ1 { st with to_offset := c + (slots0 t).rlength } := by
        simp only [sort_spage_compact_loop, hc, hst]
        rw [if_pos hin, hto]
      have hc1 : INT16 (DB_ALIGN (c + (slots0 t).rlength) a) =
          c + padded a (slots0 t).rlength := by
        rw [DB_ALIGN_add ha hcal, ← padded_eq]
        exact INT16_of_range (by omega) (by omega)
      rw [hstep]
      obtain ⟨r1, r2, r3, r4⟩ := ih (ρ.erase t)
        { st with to_offset := c + (slots0 t).rlength } (c + padded a (slots0 t).rlength)
        hperm1 hnd1 hsorted1 (fun i hi => hagree i (List.mem_cons_of_mem _ hi)) hlen1 hc1
        (by unfold SIZEOF_SLOTTED_PAGE_HEADER; omega) (add_aligned ha hcal p3) hL1
      refine ⟨r1, r2, fun i hi => r3 i (fun h => hi (List.mem_cons_of_mem _ h)), ?_⟩
      intro i hi
      rcases List.mem_cons.1 hi with rfl | hi
      · rw [r3 i htnot]
        simp only [hst]
        exact ⟨trivial, trivial, fun _ => trivial, fun h => absurd h hz⟩
      · obtain ⟨q1, q2, q3, q4⟩ := r4 i hi
        exact ⟨q1, q2, q3, fun h => ⟨by have := (q4 h).1; omega, (q4 h).2⟩⟩

theorem LayoutZ_congr_weak (slots slots1 : Nat → SLOT) (a f : Int) (σ : List Nat)
    (h : ∀ i ∈ σ, (slots1 i).rlength = (slots i).rlength ∧
      ((slots i).rlength ≠ 0 → (slots1 i).roffset = (slots i).roffset)) (c : Int) :
    LayoutZ slots1 a f c σ ↔ LayoutZ slots a f c σ := by
  induction σ generalizing c with
  | nil => simp [LayoutZ]
  | cons s r ih =>
    have hs := h s (List.mem_cons_self _ _)
    have hr : ∀ i ∈ r, (slots1 i).rlength = (slots i).rlength ∧
        ((slots i).rlength ≠ 0 → (slots1 i).roffset = (slots i).roffset) :=
      fun i hi => h i (List.mem_cons_of_mem _ hi)
    simp only [LayoutZ, hs.1, ih hr]
    by_cases hz : (slots s).rlength = 0
    · rw [if_pos hz, if_pos hz]
    · rw [if_neg hz, if_neg hz, hs.2 hz]

theorem live_slots_inv (env : PageEnv) (henv : env.Valid) (a : Int) (pg : Page)
    (hI : PageInv env a pg) : live_slots env pg = List.range pg.hdr.nslots.toNat := by
  unfold live_slots
  rw [List.filter_eq_self]
  intro i hi
  have hlt : (i : Int) < pg.hdr.nslots := by
    have := List.mem_range.1 hi
    have := hI.nslots_nonneg
    omega
  have h1 := (hI.slot i hlt).2.1
  have h2 := henv.2.2
  unfold SIZEOF_SLOTTED_PAGE_HEADER at h1
  simp only [ne_eq, decide_eq_true_eq]
  omega

theorem compact_fail (env : PageEnv) (qs : Qsort) (pg : Page) :
    sort_spage_compact env qs false pg = some (false, pg) := by
  simp [sort_spage_compact]

/-- A compaction of a page with the invariant changes neither the header nor a
byte of the page, nor the slot of a record of non-zero length; a slot of a record
of length zero keeps its length and type and gets an aligned offset inside the
record area. -/
theorem compact_spec (env : PageEnv) (henv : env.Valid) (a : Int) (ha : ValidAlignment a)
    (qs : Qsort) (pg : Page) (hI : PageInv env a pg) :
    ∃ slots1 : Nat → SLOT,
      sort_spage_compact env qs true pg =
        some (true, { hdr := pg.hdr, slots := slots1, bytes := pg.bytes }) ∧
      ∀ i : Nat,
        (slots1 i).rlength = (pg.slots i).rlength ∧
        (slots1 i).rtype = (pg.slots i).rtype ∧
        ((pg.slots i).rlength ≠ 0 → (slots1 i).roffset = (pg.slots i).roffset) ∧
        (pg.hdr.nslots ≤ (i : Int) → slots1 i = pg.slots i) ∧
        ((i : Int) < pg.hdr.nslots → (pg.slots i).rlength = 0 →
          SIZEOF_SLOTTED_PAGE_HEADER ≤ (slots1 i).roffset ∧
          (slots1 i).roffset ≤ pg.hdr.foffset ∧ (slots1 i).roffset % a = 0) := by
  have hlive := live_slots_inv env henv a pg hI
  obtain ⟨e1, e2, e3⟩ := henv
  obtain ⟨i1, i2, i3, i4, i5, i6, i7, i8, i9, σ, hσ, hL⟩ := hI
  have hN : ((pg.hdr.nslots.toNat : Nat) : Int) = pg.hdr.nslots := Int.toNat_of_nonneg i2
  have hperm := qs.perm (fun i => (pg.slots i).roffset) (List.range pg.hdr.nslots.toNat)
  have hsorted := qs.sorted (fun i => (pg.slots i).roffset) (List.range pg.hdr.nslots.toNat)
  have hmem : ∀ i, i ∈ qs.sort (fun i => (pg.slots i).roffset)
      (List.range pg.hdr.nslots.toNat) ↔ (i : Int) < pg.hdr.nslots := by
    intro i
    rw [hperm.mem_iff, List.mem_range]
    omega
  have hf : pg.hdr.foffset ≤ 32767 := by
    unfold SIZEOF_SLOT at i5; omega
  have h16 : INT16 (DB_ALIGN (INT16 SIZEOF_SLOTTED_PAGE_HEADER) a) =
      SIZEOF_SLOTTED_PAGE_HEADER := by
    have : INT16 SIZEOF_SLOTTED_PAGE_HEADER = SIZEOF_SLOTTED_PAGE_HEADER := by
      unfold SIZEOF_SLOTTED_PAGE_HEADER INT16; omega
    rw [this, DB_ALIGN_of_aligned ha (sixteen_aligned ha), this]
  obtain ⟨r1, r2, r3, r4⟩ := compact_loop_spec a ha pg.hdr.foffset hf pg.slots
    (qs.sort (fun i => (pg.slots i).roffset) (List.range pg.hdr.nslots.toNat)) σ
    { slots := pg.slots, bytes := pg.bytes, to_offset := INT16 SIZEOF_SLOTTED_PAGE_HEADER }
    SIZEOF_SLOTTED_PAGE_HEADER (hperm.trans hσ.symm)
    (hperm.nodup_iff.2 (List.nodup_range _)) hsorted (fun _ _ => rfl)
    (fun i hi => (i9 i ((hmem i).1 hi)).1) h16 (le_refl _) (sixteen_aligned ha) hL
  refine ⟨(sort_spage_compact_loop a
    (qs.sort (fun i => (pg.slots i).roffset) (List.range pg.hdr.nslots.toNat))
    { slots := pg.slots, bytes := pg.bytes,
      to_offset := INT16 SIZEOF_SLOTTED_PAGE_HEADER }).slots, ?_, ?_⟩
  · unfold sort_spage_compact
    simp only [Bool.not_true, Bool.false_eq_true, if_false, hlive, List.length_range, hN]
    rw [if_neg (by omega)]
    simp only [i1, r2, r1]
    have hfree : INT16 (env.DB_PAGESIZE - pg.hdr.foffset - pg.hdr.nslots * SIZEOF_SLOT) =
        pg.hdr.tfree := by
      rw [i5]
      unfold SIZEOF_SLOTTED_PAGE_HEADER SIZEOF_SLOT at *
      exact INT16_of_range (by omega) (by omega)
    rw [hfree]
    have hh : ∀ h : SLOTTED_PAGE_HEADER, h.cfree = h.tfree →
        ({ h with cfree := h.tfree, tfree := h.tfree, foffset := h.foffset } :
          SLOTTED_PAGE_HEADER) = h := by
      intro h hc
      cases h
      simp only [SLOTTED_PAGE_HEADER.mk.injEq, and_true, true_and] at hc ⊢
      exact hc.symm
    have := hh pg.hdr i4
    simp only [i1] at this
    rw [this]
  · intro i
    by_cases hi : (i : Int) < pg.hdr.nslots
    · obtain ⟨q1, q2, q3, q4⟩ := r4 i ((hmem i).2 hi)
      exact ⟨q1, q2, q3, fun h => by omega, fun _ hz => q4 hz⟩
    · have := r3 i (fun h => hi ((hmem i).1 h))
      simp only at this
      rw [this]
      exact ⟨rfl, rfl, fun _ => rfl, fun _ => rfl, fun h => absurd h hi⟩

theorem compact_inv (env : PageEnv) (a : Int) (pg : Page) (hI : PageInv env a pg)
    (slots1 : Nat → SLOT)
    (h : ∀ i : Nat,
        (slots1 i).rlength = (pg.slots i).rlength ∧
        (slots1 i).rtype = (pg.slots i).rtype ∧
        ((pg.slots i).rlength ≠ 0 → (slots1 i).roffset = (pg.slots i).roffset) ∧
        (pg.hdr.nslots ≤ (i : Int) → slots1 i = pg.slots i) ∧
        ((i : Int) < pg.hdr.nslots → (pg.slots i).rlength = 0 →
          SIZEOF_SLOTTED_PAGE_HEADER ≤ (slots1 i).roffset ∧
          (slots1 i).roffset ≤ pg.hdr.foffset ∧ (slots1 i).roffset % a = 0)) :
    PageInv env a { hdr := pg.hdr, slots := slots1, bytes := pg.bytes } := by
  obtain ⟨i1, i2, i3, i4, i5, i6, i7, i8, i9, σ, hσ, hL⟩ := hI
  refine ⟨i1, i2, i3, i4, i5, i6, i7, i8, ?_, σ, hσ, ?_⟩
  · intro i hi
    obtain ⟨q1, q2, q3, q4, q5⟩ := h i
    obtain ⟨s1, s2, s3, s4⟩ := i9 i hi
    simp only at hi ⊢
    by_cases hz : (pg.slots i).rlength = 0
    · obtain ⟨t1, t2, t3⟩ := q5 hi hz
      rw [q1, hz]
      exact ⟨le_refl _, t1, t3, by omega⟩
    · rw [q1, q3 hz]; exact ⟨s1, s2, s3, s4⟩
  · rw [LayoutZ_congr_weak pg.slots]
    · exact hL
    · intro i _
      exact ⟨(h i).1, (h i).2.2.1⟩

/-! ### The invariant holds on every reachable page -/

/-- What an insertion does on a page with the invariant: it is defined, it
succeeds exactly when the padded record and a new slot fit the total free space,
and the invariant holds afterwards. -/
theorem insert_cases (env : PageEnv) (henv : env.Valid) (a : Int) (ha : ValidAlignment a)
    (qs : Qsort) (ok : Bool) (pg : Page) (hI : PageInv env a pg) (r : RECDES) (hr : r.WF) :
    (r.length ≤ SORT_MAXREC_LENGTH env ∧ padded a r.length + SIZEOF_SLOT ≤ pg.hdr.tfree ∧
      sort_spage_insert env qs ok pg r =
        some ({ hdr := hdr_after_insert a pg.hdr r.length,
                slots := set_slot pg.slots pg.hdr.nslots.toNat
                  { roffset := pg.hdr.foffset, rlength := r.length,
                    rtype := stored_type r.type },
                bytes := memcpy_to_page pg.bytes pg.hdr.foffset r.data r.length },
              some pg.hdr.nslots)) ∨
    (¬ (r.length ≤ SORT_MAXREC_LENGTH env ∧ padded a r.length + SIZEOF_SLOT ≤ pg.hdr.tfree) ∧
      sort_spage_insert env qs ok pg r = some (pg, none)) := by
  by_cases h : r.length ≤ SORT_MAXREC_LENGTH env ∧ padded a r.length + SIZEOF_SLOT ≤ pg.hdr.tfree
  · exact Or.inl ⟨h.1, h.2, insert_fits env henv a ha qs ok pg hI r hr h.1 h.2⟩
  · exact Or.inr ⟨h, insert_full env henv a ha qs ok pg hI r hr h⟩

theorem insert_inv (env : PageEnv) (henv : env.Valid) (a : Int) (ha : ValidAlignment a)
    (qs : Qsort) (ok : Bool) (pg : Page) (hI : PageInv env a pg) (r : RECDES) (hr : r.WF)
    (pg1 : Page) (sid : Option Int) (h : sort_spage_insert env qs ok pg r = some (pg1, sid)) :
    PageInv env a pg1 := by
  have h0 : 0 ≤ r.length := by rw [hr]; exact Int.natCast_nonneg _
  rcases insert_cases env henv a ha qs ok pg hI r hr with ⟨_, h2, h3⟩ | ⟨_, h3⟩
  · rw [h3] at h
    simp only [Option.some.injEq, Prod.mk.injEq] at h
    rw [← h.1]
    exact insert_fits_inv env henv a ha pg hI r.length _ r.data h0 h2
  · rw [h3] at h
    simp only [Option.some.injEq, Prod.mk.injEq] at h
    rw [← h.1]; exact hI

theorem compact_cases (env : PageEnv) (henv : env.Valid) (a : Int) (ha : ValidAlignment a)
    (qs : Qsort) (ok : Bool) (pg : Page) (hI : PageInv env a pg) :
    ∃ pg1, sort_spage_compact env qs ok pg = some (ok, pg1) ∧ PageInv env a pg1 ∧
      pg1.hdr = pg.hdr ∧ pg1.bytes = pg.bytes ∧
      ∀ i : Nat,
        (pg1.slots i).rlength = (pg.slots i).rlength ∧
        (pg1.slots i).rtype = (pg.slots i).rtype ∧
        ((pg.slots i).rlength ≠ 0 → (pg1.slots i).roffset = (pg.slots i).roffset) := by
  cases ok with
  | false =>
    exact ⟨pg, compact_fail env qs pg, hI, rfl, rfl, fun _ => ⟨rfl, rfl, fun _ => rfl⟩⟩
  | true =>
    obtain ⟨slots1, h1, h2⟩ := compact_spec env henv a ha qs pg hI
    exact ⟨_, h1, compact_inv env a pg hI slots1 h2, rfl, rfl,
      fun i => ⟨(h2 i).1, (h2 i).2.1, (h2 i).2.2.1⟩⟩

theorem call_inv (env : PageEnv) (henv : env.Valid) (a : Int) (ha : ValidAlignment a)
    (qs : Qsort) (pg : Page) (hI : PageInv env a pg) (c : PageCall) (hc : c.WF)
    (ok : Bool) (pg1 : Page) (h : c.run env qs pg = some (ok, pg1)) : PageInv env a pg1 := by
  cases c with
  | insert cok r =>
    simp only [PageCall.run] at h
    cases hins : sort_spage_insert env qs cok pg r with
    | none => rw [hins] at h; simp at h
    | some res =>
      obtain ⟨pg2, sid⟩ := res
      rw [hins] at h
      simp only [Option.some.injEq, Prod.mk.injEq] at h
      rw [← h.2]
      exact insert_inv env henv a ha qs cok pg hI r hc pg2 sid hins
  | compact cok =>
    simp only [PageCall.run] at h
    obtain ⟨pg2, h1, h2, _⟩ := compact_cases env henv a ha qs cok pg hI
    rw [h1] at h
    simp only [Option.some.injEq, Prod.mk.injEq] at h
    rw [← h.2]; exact h2

/-- A call on a page with the invariant is never undefined. -/
theorem call_defined (env : PageEnv) (henv : env.Valid) (a : Int) (ha : ValidAlignment a)
    (qs : Qsort) (pg : Page) (hI : PageInv env a pg) (c : PageCall) (hc : c.WF) :
    (c.run env qs pg).isSome = true := by
  cases c with
  | insert cok r =>
    simp only [PageCall.run]
    rcases insert_cases env henv a ha qs cok pg hI r hc with ⟨_, _, h3⟩ | ⟨_, h3⟩ <;>
      rw [h3] <;> rfl
  | compact cok =>
    simp only [PageCall.run]
    obtain ⟨pg2, h1, _⟩ := compact_cases env henv a ha qs cok pg hI
    rw [h1]; rfl

theorem reachable_inv (env : PageEnv) (henv : env.Valid) (a : Int) (ha : ValidAlignment a)
    (qs : Qsort) (only_ok : Bool) (pg : Page) (h : Reachable env qs a only_ok pg) :
    PageInv env a pg := by
  induction h with
  | init pg0 slots_type => exact initialize_inv env henv pg0 slots_type a ha
  | call pg c ok pg1 _ hc hrun _ ih => exact call_inv env henv a ha qs pg ih c hc ok pg1 hrun

theorem insert_records_inv (env : PageEnv) (henv : env.Valid) (a : Int) (ha : ValidAlignment a)
    (qs : Qsort) (recs : List (Bool × RECDES)) :
    ∀ (pg pg1 : Page), PageInv env a pg → (∀ x ∈ recs, x.2.WF) →
      insert_records env qs pg recs = some pg1 → PageInv env a pg1 := by
  induction recs with
  | nil =>
    intro pg pg1 hI _ h
    simp only [insert_records, Option.some.injEq] at h
    rw [← h]; exact hI
  | cons x rest ih =>
    intro pg pg1 hI hwf h
    obtain ⟨ok, r⟩ := x
    have hr : r.WF := hwf (ok, r) (List.mem_cons_self _ _)
    simp only [insert_records] at h
    cases hins : sort_spage_insert env qs ok pg r with
    | none => rw [hins] at h; simp at h
    | some res =>
      obtain ⟨pg2, sid⟩ := res
      rw [hins] at h
      cases sid with
      | none => simp at h
      | some sid =>
        simp only at h
        exact ih pg2 pg1 (insert_inv env henv a ha qs ok pg hI r hr pg2 _ hins)
          (fun y hy => hwf y (List.mem_cons_of_mem _ hy)) h

/-! ### Reading a record back -/

theorem read_bytes_memcpy (bytes : Int → Byte) (off : Int) (data : List Byte) :
    read_bytes (memcpy_to_page bytes off data data.length) off data.length = data := by
  unfold read_bytes
  apply List.ext_getElem
  · simp
  · intro n h1 h2
    simp only [List.length_map, List.length_range, Int.toNat_ofNat] at h1
    simp only [List.getElem_map, List.getElem_range, memcpy_to_page]
    rw [if_pos (by omega)]
    have : (off + (n : Int) - off).toNat = n := by omega
    rw [this, List.getD_eq_getElem _ _ h2]

theorem read_bytes_zero (bytes : Int → Byte) (off : Int) : read_bytes bytes off 0 = [] := by
  simp [read_bytes]

theorem get_record_of_slot (env : PageEnv) (pg : Page) (i : Nat) (buf : RECDES)
    (hi : (i : Int) < pg.hdr.nslots) (hoff : (pg.slots i).roffset ≠ env.NULL_OFFSET)
    (hfit : (pg.slots i).rlength ≤ buf.area_size) :
    sort_spage_get_record env pg i buf PeekMode.COPY =
      (SCAN_CODE.S_SUCCESS,
        { buf with
          data := read_bytes pg.bytes (pg.slots i).roffset (pg.slots i).rlength ++
            buf.data.drop (pg.slots i).rlength.toNat,
          length := (pg.slots i).rlength, type := (pg.slots i).rtype }) := by
  have hcast : ((i : Int)).toNat = i := by omega
  unfold sort_spage_get_record
  rw [hcast]
  show (if _ then _ else _) = _
  rw [if_neg (by omega)]
  show (if _ then _ else _) = _
  rw [if_neg (by omega)]

theorem get_record_congr (env : PageEnv) (pg pg1 : Page) (i : Int) (buf : RECDES)
    (mode : PeekMode) (hn : pg1.hdr.nslots = pg.hdr.nslots) (hb : pg1.bytes = pg.bytes)
    (hlen : (pg1.slots i.toNat).rlength = (pg.slots i.toNat).rlength)
    (hty : (pg1.slots i.toNat).rtype = (pg.slots i.toNat).rtype)
    (hoff : (pg.slots i.toNat).rlength ≠ 0 →
      (pg1.slots i.toNat).roffset = (pg.slots i.toNat).roffset)
    (hnull : 0 ≤ i → i < pg.hdr.nslots →
      (pg1.slots i.toNat).roffset ≠ env.NULL_OFFSET ∧
      (pg.slots i.toNat).roffset ≠ env.NULL_OFFSET) :
    sort_spage_get_record env pg1 i buf mode = sort_spage_get_record env pg i buf mode := by
  unfold sort_spage_get_record
  by_cases hout : i < 0 ∨ i ≥ pg.hdr.nslots
  · have h1 : i < 0 ∨ i ≥ pg1.hdr.nslots ∨ (pg1.slots i.toNat).roffset = env.NULL_OFFSET := by
      rw [hn]; rcases hout with h | h
      · exact Or.inl h
      · exact Or.inr (Or.inl h)
    have h2 : i < 0 ∨ i ≥ pg.hdr.nslots ∨ (pg.slots i.toNat).roffset = env.NULL_OFFSET := by
      rcases hout with h | h
      · exact Or.inl h
      · exact Or.inr (Or.inl h)
    simp only [if_pos h1, if_pos h2]
  · have hin : 0 ≤ i ∧ i < pg.hdr.nslots := by omega
    obtain ⟨n1, n2⟩ := hnull hin.1 hin.2
    have h1 : ¬ (i < 0 ∨ i ≥ pg1.hdr.nslots ∨
        (pg1.slots i.toNat).roffset = env.NULL_OFFSET) := by
      rw [hn]; intro h
      rcases h with h | h | h
      · omega
      · omega
      · exact n1 h
    have h2 : ¬ (i < 0 ∨ i ≥ pg.hdr.nslots ∨
        (pg.slots i.toNat).roffset = env.NULL_OFFSET) := by
      intro h
      rcases h with h | h | h
      · omega
      · omega
      · exact n2 h
    simp only [if_neg h1, if_neg h2]
    have hread : read_bytes pg1.bytes (pg1.slots i.toNat).roffset (pg1.slots i.toNat).rlength =
        read_bytes pg.bytes (pg.slots i.toNat).roffset (pg.slots i.toNat).rlength := by
      rw [hb, hlen]
      by_cases hz : (pg.slots i.toNat).rlength = 0
      · rw [hz, read_bytes_zero, read_bytes_zero]
      · rw [hoff hz]
    rw [hread, hlen, hty]

theorem eq_some_getD {α : Type} (o : Option α) (d : α) (h : o.isSome = true) :
    o = some (o.getD d) := by
  cases o with
  | none => simp at h
  | some v => rfl

theorem page_one_byte_insert :
    sort_spage_insert env16k insertion_qsort true fresh_page rec_one_byte =
      some (page_one_byte, some 0) :=
  insert_fits env16k (by decide) 8 (by decide) insertion_qsort true fresh_page
    (initialize_inv env16k (by decide) blank_page 0 8 (by decide)) rec_one_byte
    (by decide) (by decide) (by decide)

theorem page_one_byte_reachable (only_ok : Bool) :
    Reachable env16k insertion_qsort 8 only_ok page_one_byte :=
  Reachable.call fresh_page (PageCall.insert true rec_one_byte) true page_one_byte
    (Reachable.init blank_page 0) (by show rec_one_byte.WF; decide)
    (by simp only [PageCall.run, page_one_byte_insert]; rfl) (fun _ => rfl)

theorem page_one_byte_records :
    insert_records env16k insertion_qsort ( sort_spage_initialize env16k blank_page 0 8)
      [(true, rec_one_byte)] = some page_one_byte := by
  have h := page_one_byte_insert
  unfold fresh_page at h
  simp only [insert_records, h]

theorem page_two_records_built :
    insert_records env16k insertion_qsort ( sort_spage_initialize env16k blank_page 0 8)
      [(true, rec_one_byte), (false, rec_three_bytes)] = some page_two_records :=
  eq_some_getD _ blank_page (by decide)

/-! ### The claims on the slotted page -/

/-- C4: after `sort_spage_initialize` and one accepted `sort_spage_insert` of a
record `r`, for every valid alignment and every record type,
`sort_spage_get_record (page, 0, COPY)` into a buffer of at least `|r|` bytes
returns `S_SUCCESS`, the length `|r|` and, at the front of the buffer, exactly
the bytes of `r` (the record got slot 0). -/
theorem insert_get_roundtrip (env : PageEnv) (henv : env.Valid) (a : Int)
    (ha : ValidAlignment a) (qs : Qsort) (ok : Bool) (pg0 : Page) (slots_type : Int)
    (r buf : RECDES) (pg1 : Page) (sid : Int) (hr : r.WF) (hbuf : r.length ≤ buf.area_size)
    (hins : sort_spage_insert env qs ok ( sort_spage_initialize env pg0 slots_type a) r =
      some (pg1, some sid)) :
    sid = 0 ∧
    (sort_spage_get_record env pg1 0 buf PeekMode.COPY).1 = SCAN_CODE.S_SUCCESS ∧
    (sort_spage_get_record env pg1 0 buf PeekMode.COPY).2.length = r.length ∧
    (sort_spage_get_record env pg1 0 buf PeekMode.COPY).2.data =
      r.data ++ buf.data.drop r.data.length ∧
    (sort_spage_get_record env pg1 0 buf PeekMode.COPY).2.data.take r.data.length =
      r.data := by
  have hI := initialize_inv env henv pg0 slots_type a ha
  obtain ⟨hh, _, _⟩ := initialize_hdr env henv pg0 slots_type a ha
  rcases insert_cases env henv a ha qs ok _ hI r hr with ⟨_, _, h3⟩ | ⟨_, h3⟩
  · rw [h3] at hins
    simp only [Option.some.injEq, Prod.mk.injEq] at hins
    obtain ⟨hpg, hsid⟩ := hins
    rw [hh] at hpg hsid
    simp only [Int.toNat_zero] at hpg
    have hsid0 : sid = 0 := hsid.symm
    have hslot : pg1.slots 0 =
        { roffset := SIZEOF_SLOTTED_PAGE_HEADER, rlength := r.length,
          rtype := stored_type r.type } := by
      rw [← hpg]; simp [set_slot]
    have hbytes : pg1.bytes = memcpy_to_page ( sort_spage_initialize env pg0 slots_type a).bytes
        SIZEOF_SLOTTED_PAGE_HEADER r.data r.length := by
      rw [← hpg]
    have hn : pg1.hdr.nslots = 1 := by
      rw [← hpg]; simp [hdr_after_insert]
    have hget := get_record_of_slot env pg1 0 buf (by rw [hn]; decide)
      (by rw [hslot]; have := henv.2.2; unfold SIZEOF_SLOTTED_PAGE_HEADER; simp only; omega)
      (by rw [hslot]; exact hbuf)
    simp only [Nat.cast_zero] at hget
    rw [hget, hslot, hbytes]
    simp only
    have hrl : r.length = (r.data.length : Int) := hr
    rw [hrl, read_bytes_memcpy]
    simp
    exact hsid0
  · rw [h3] at hins
    simp at hins

/-- C4, at a concrete input: a one-byte record on a fresh 16 KiB page read back
into a buffer of four bytes. -/
theorem insert_get_roundtrip_witness :
    env16k.Valid ∧ ValidAlignment 8 ∧ rec_one_byte.WF ∧
    rec_one_byte.length ≤ buf_four_bytes.area_size ∧
    sort_spage_insert env16k insertion_qsort true
      ( sort_spage_initialize env16k blank_page 0 8) rec_one_byte =
        some (page_one_byte, some 0) ∧
    ((0 : Int) = 0 ∧
    (sort_spage_get_record env16k page_one_byte 0 buf_four_bytes PeekMode.COPY).1 =
      SCAN_CODE.S_SUCCESS ∧
    (sort_spage_get_record env16k page_one_byte 0 buf_four_bytes PeekMode.COPY).2.length =
      rec_one_byte.length ∧
    (sort_spage_get_record env16k page_one_byte 0 buf_four_bytes PeekMode.COPY).2.data =
      rec_one_byte.data ++ buf_four_bytes.data.drop rec_one_byte.data.length ∧
    (sort_spage_get_record env16k page_one_byte 0 buf_four_bytes PeekMode.COPY).2.data.take
      rec_one_byte.data.length = rec_one_byte.data) :=
  have hins : sort_spage_insert env16k insertion_qsort true
      ( sort_spage_initialize env16k blank_page 0 8) rec_one_byte =
        some (page_one_byte, some 0) :=
    insert_fits env16k (by decide) 8 (by decide) insertion_qsort true fresh_page
      (initialize_inv env16k (by decide) blank_page 0 8 (by decide)) rec_one_byte
      (by decide) (by decide) (by decide)
  ⟨by decide, by decide, by decide, by decide, hins,
    insert_get_roundtrip env16k (by decide) 8 (by decide) insertion_qsort true blank_page 0
      rec_one_byte buf_four_bytes page_one_byte 0 (by decide) (by decide) hins⟩

/-- C5: for every list of records inserted successfully into a freshly
initialised page, `sort_spage_compact` (whatever its `calloc` does) is defined and
leaves the result of `sort_spage_get_record` (scan code, length, type and bytes)
unchanged for every slot id, every buffer and both modes. -/
theorem compact_preserves_get_record (env : PageEnv) (henv : env.Valid) (a : Int)
    (ha : ValidAlignment a) (qs : Qsort) (pg0 : Page) (slots_type : Int)
    (recs : List (Bool × RECDES)) (pg : Page) (calloc_ok : Bool)
    (hwf : ∀ x ∈ recs, x.2.WF)
    (hbuild : insert_records env qs ( sort_spage_initialize env pg0 slots_type a) recs =
      some pg) :
    ∃ pg1, sort_spage_compact env qs calloc_ok pg = some (calloc_ok, pg1) ∧
      ∀ (i : Int) (buf : RECDES) (mode : PeekMode),
        sort_spage_get_record env pg1 i buf mode = sort_spage_get_record env pg i buf mode := by
  have hI := insert_records_inv env henv a ha qs recs _ pg
    (initialize_inv env henv pg0 slots_type a ha) hwf hbuild
  obtain ⟨pg1, h1, hI1, hh, hb, hs⟩ := compact_cases env henv a ha qs calloc_ok pg hI
  refine ⟨pg1, h1, ?_⟩
  intro i buf mode
  apply get_record_congr env pg pg1 i buf mode (by rw [hh]) hb (hs _).1 (hs _).2.1 (hs _).2.2
  intro h0 hlt
  have hc : ((i.toNat : Nat) : Int) = i := Int.toNat_of_nonneg h0
  have q1 := (hI1.slot i.toNat (by rw [hc, hh]; exact hlt)).2.1
  have q2 := (hI.slot i.toNat (by rw [hc]; exact hlt)).2.1
  have := henv.2.2
  unfold SIZEOF_SLOTTED_PAGE_HEADER at q1 q2
  exact ⟨by omega, by omega⟩

/-- C5, at a concrete input: a page with two records, compacted. -/
theorem compact_preserves_get_record_witness :
    (∀ x ∈ [(true, rec_one_byte), (false, rec_three_bytes)], x.2.WF) ∧
    insert_records env16k insertion_qsort ( sort_spage_initialize env16k blank_page 0 8)
      [(true, rec_one_byte), (false, rec_three_bytes)] = some page_two_records ∧
    ∃ pg1, sort_spage_compact env16k insertion_qsort true page_two_records = some (true, pg1) ∧
      ∀ (i : Int) (buf : RECDES) (mode : PeekMode),
        sort_spage_get_record env16k pg1 i buf mode =
          sort_spage_get_record env16k page_two_records i buf mode :=
  ⟨by decide, page_two_records_built,
    compact_preserves_get_record env16k (by decide) 8 (by decide) insertion_qsort blank_page 0
      [(true, rec_one_byte), (false, rec_three_bytes)] page_two_records true (by decide)
      page_two_records_built⟩

/-- C6 as stated fails: after one successful insertion of a one-byte record
with alignment 8 into a fresh 16 KiB page (slot 0), `tfree` is 16354 while
`page_size - foffset - nslots * sizeof (SLOT) - waste_align` is 16347. -/
theorem tfree_with_waste_counterexample :
    (sort_spage_insert env16k insertion_qsort true
      ( sort_spage_initialize env16k blank_page 0 8) rec_one_byte).map
      (fun x => (x.2, x.1.hdr.tfree,
        env16k.DB_PAGESIZE - x.1.hdr.foffset - x.1.hdr.nslots * SIZEOF_SLOT -
          x.1.hdr.waste_align)) = some (some 0, 16354, 16347) := by
  decide

/-- C6, amended: on every page reachable from `sort_spage_initialize` by
`sort_spage_insert` and `sort_spage_compact` calls (the successful ones, or all
of them), `tfree = page_size - foffset - nslots * sizeof (SLOT)`; the padding
counted in `waste_align` is part of `foffset` already. -/
theorem tfree_formula (env : PageEnv) (henv : env.Valid) (a : Int) (ha : ValidAlignment a)
    (qs : Qsort) (only_ok : Bool) (pg : Page) (h : Reachable env qs a only_ok pg) :
    pg.hdr.tfree = env.DB_PAGESIZE - pg.hdr.foffset - pg.hdr.nslots * SIZEOF_SLOT :=
  (reachable_inv env henv a ha qs only_ok pg h).tfree

/-- C6, amended, at a concrete input: the page holding one one-byte record. -/
theorem tfree_formula_witness :
    env16k.Valid ∧ ValidAlignment 8 ∧ Reachable env16k insertion_qsort 8 true page_one_byte ∧
    page_one_byte.hdr.tfree =
      env16k.DB_PAGESIZE - page_one_byte.hdr.foffset - page_one_byte.hdr.nslots * SIZEOF_SLOT :=
  ⟨by decide, by decide, page_one_byte_reachable true,
    tfree_formula env16k (by decide) 8 (by decide) insertion_qsort true page_one_byte
      (page_one_byte_reachable true)⟩

/-- C7: on every page reachable from `sort_spage_initialize` by
`sort_spage_insert` and `sort_spage_compact` calls, successful or not
(`only_ok = false` admits every call),
`0 ≤ cfree ≤ tfree ≤ page_size - sizeof (SLOTTED_PAGE_HEADER)`. -/
theorem free_space_bounds (env : PageEnv) (henv : env.Valid) (a : Int)
    (ha : ValidAlignment a) (qs : Qsort) (only_ok : Bool) (pg : Page)
    (h : Reachable env qs a only_ok pg) :
    0 ≤ pg.hdr.cfree ∧ pg.hdr.cfree ≤ pg.hdr.tfree ∧
    pg.hdr.tfree ≤ env.DB_PAGESIZE - SIZEOF_SLOTTED_PAGE_HEADER := by
  obtain ⟨_, i2, _, i4, i5, i6, i7, _⟩ := reachable_inv env henv a ha qs only_ok pg h
  unfold SIZEOF_SLOT at i5
  omega

/-- C7, at a concrete input. -/
theorem free_space_bounds_witness :
    env16k.Valid ∧ ValidAlignment 8 ∧ Reachable env16k insertion_qsort 8 false page_one_byte ∧
    (0 ≤ page_one_byte.hdr.cfree ∧ page_one_byte.hdr.cfree ≤ page_one_byte.hdr.tfree ∧
      page_one_byte.hdr.tfree ≤ env16k.DB_PAGESIZE - SIZEOF_SLOTTED_PAGE_HEADER) :=
  ⟨by decide, by decide, page_one_byte_reachable false,
    free_space_bounds env16k (by decide) 8 (by decide) insertion_qsort false page_one_byte
      (page_one_byte_reachable false)⟩

/-- C8: on every page reachable from `sort_spage_initialize` by
`sort_spage_insert` and `sort_spage_compact` calls, every slot below `nslots` is
live, starts at or after the header at a multiple of the alignment and ends at or
before `foffset`; the records of two distinct slots share no byte; and the record
area ends where the slot directory starts or before
(`foffset ≤ page_size - nslots * sizeof (SLOT)`). -/
theorem slot_layout (env : PageEnv) (henv : env.Valid) (a : Int) (ha : ValidAlignment a)
    (qs : Qsort) (only_ok : Bool) (pg : Page) (h : Reachable env qs a only_ok pg) :
    (∀ i : Nat, (i : Int) < pg.hdr.nslots →
      (pg.slots i).roffset ≠ env.NULL_OFFSET ∧ 0 ≤ (pg.slots i).rlength ∧
      SIZEOF_SLOTTED_PAGE_HEADER ≤ (pg.slots i).roffset ∧
      (pg.slots i).roffset + (pg.slots i).rlength ≤ pg.hdr.foffset ∧
      (pg.slots i).roffset % a = 0) ∧
    (∀ i j : Nat, (i : Int) < pg.hdr.nslots → (j : Int) < pg.hdr.nslots → i ≠ j →
      ∀ b : Int, ¬ (((pg.slots i).roffset ≤ b ∧ b < (pg.slots i).roffset + (pg.slots i).rlength) ∧
        ((pg.slots j).roffset ≤ b ∧ b < (pg.slots j).roffset + (pg.slots j).rlength))) ∧
    pg.hdr.foffset ≤ env.DB_PAGESIZE - pg.hdr.nslots * SIZEOF_SLOT := by
  obtain ⟨_, i2, _, _, i5, i6, _, _, i9, σ, hσ, hL⟩ := reachable_inv env henv a ha qs only_ok pg h
  have hmem : ∀ i : Nat, i ∈ σ ↔ (i : Int) < pg.hdr.nslots := by
    intro i; rw [hσ.mem_iff, List.mem_range]; omega
  refine ⟨?_, ?_, by omega⟩
  · intro i hi
    obtain ⟨s1, s2, s3, s4⟩ := i9 i hi
    have := henv.2.2
    refine ⟨?_, s1, s2, s4, s3⟩
    unfold SIZEOF_SLOTTED_PAGE_HEADER at s2
    omega
  · intro i j hi hj hij b hb
    have hlen : ∀ k ∈ σ, 0 ≤ (pg.slots k).rlength := fun k hk => (i9 k ((hmem k).1 hk)).1
    have hpw := LayoutZ_pairwise pg.slots a ha pg.hdr.foffset σ hlen _ hL
    have hsym := (hpw.imp (S := fun s t =>
      ((pg.slots s).rlength ≠ 0 → (pg.slots t).rlength ≠ 0 →
        (pg.slots s).roffset + padded a (pg.slots s).rlength ≤ (pg.slots t).roffset) ∨
      ((pg.slots t).rlength ≠ 0 → (pg.slots s).rlength ≠ 0 →
        (pg.slots t).roffset + padded a (pg.slots t).rlength ≤ (pg.slots s).roffset))
      (fun h => Or.inl h)).forall (fun _ _ h => h.symm) ((hmem i).2 hi) ((hmem j).2 hj) hij
    have pi := (padded_bounds ha (pg.slots i).rlength).1
    have pj := (padded_bounds ha (pg.slots j).rlength).1
    have li := (i9 i hi).1
    have lj := (i9 j hj).1
    rcases hsym with h1 | h1
    · have := h1 (by omega) (by omega); omega
    · have := h1 (by omega) (by omega); omega

/-- C8, at a concrete input. -/
theorem slot_layout_witness :
    env16k.Valid ∧ ValidAlignment 8 ∧ Reachable env16k insertion_qsort 8 false page_one_byte ∧
    ((page_one_byte.slots 0).roffset + (page_one_byte.slots 0).rlength ≤
        page_one_byte.hdr.foffset ∧
      page_one_byte.hdr.foffset ≤
        env16k.DB_PAGESIZE - page_one_byte.hdr.nslots * SIZEOF_SLOT) :=
  ⟨by decide, by decide, page_one_byte_reachable false,
    ((slot_layout env16k (by decide) 8 (by decide) insertion_qsort false page_one_byte
      (page_one_byte_reachable false)).1 0 (by decide)).2.2.2.1,
    (slot_layout env16k (by decide) 8 (by decide) insertion_qsort false page_one_byte
      (page_one_byte_reachable false)).2.2⟩

/-- C9: for every alignment in {1, 2, 4, 8}, `sort_spage_initialize` sets
`nslots = 0` and `nrecs = 0`, sets `foffset` to `sizeof (SLOTTED_PAGE_HEADER)`
rounded up to a multiple of the alignment (the least multiple at or above it),
sets `waste_align` to the rounding difference, and sets
`cfree = tfree = page_size - foffset`. -/
theorem initialize_spec (env : PageEnv) (henv : env.Valid) (pg : Page) (slots_type a : Int)
    (ha : ValidAlignment a) :
    ( sort_spage_initialize env pg slots_type a).hdr.nslots = 0 ∧
    ( sort_spage_initialize env pg slots_type a).hdr.nrecs = 0 ∧
    ( sort_spage_initialize env pg slots_type a).hdr.alignment = a ∧
    ( sort_spage_initialize env pg slots_type a).hdr.foffset =
      DB_ALIGN SIZEOF_SLOTTED_PAGE_HEADER a ∧
    SIZEOF_SLOTTED_PAGE_HEADER ≤ ( sort_spage_initialize env pg slots_type a).hdr.foffset ∧
    ( sort_spage_initialize env pg slots_type a).hdr.foffset < SIZEOF_SLOTTED_PAGE_HEADER + a ∧
    ( sort_spage_initialize env pg slots_type a).hdr.foffset % a = 0 ∧
    ( sort_spage_initialize env pg slots_type a).hdr.waste_align =
      ( sort_spage_initialize env pg slots_type a).hdr.foffset - SIZEOF_SLOTTED_PAGE_HEADER ∧
    ( sort_spage_initialize env pg slots_type a).hdr.cfree =
      env.DB_PAGESIZE - ( sort_spage_initialize env pg slots_type a).hdr.foffset ∧
    ( sort_spage_initialize env pg slots_type a).hdr.tfree =
      env.DB_PAGESIZE - ( sort_spage_initialize env pg slots_type a).hdr.foffset := by
  obtain ⟨hh, _, _⟩ := initialize_hdr env henv pg slots_type a ha
  rw [hh]
  have hal := DB_ALIGN_of_aligned ha (sixteen_aligned ha)
  have hpos := ha.pos
  refine ⟨rfl, rfl, rfl, hal.symm, le_refl _, by simp only; omega, sixteen_aligned ha,
    by simp, rfl, rfl⟩

/-- C9, at a concrete input: alignment 8 on a 16 KiB page. -/
theorem initialize_spec_witness :
    env16k.Valid ∧ ValidAlignment 8 ∧
    ( sort_spage_initialize env16k blank_page 0 8).hdr.foffset = 16 ∧
    ( sort_spage_initialize env16k blank_page 0 8).hdr.tfree = 16368 :=
  ⟨by decide, by decide,
    (initialize_spec env16k (by decide) blank_page 0 8 (by decide)).2.2.2.1.trans (by decide),
    (initialize_spec env16k (by decide) blank_page 0 8 (by decide)).2.2.2.2.2.2.2.2.2.trans
      (by decide)⟩

/-- C10: on a page built by `sort_spage_initialize` and successful inserts,
`sort_spage_insert` of a record of length `L ≤ SORT_MAXREC_LENGTH` is defined
and succeeds if and only if `L + padding (L, alignment) + sizeof (SLOT) ≤ tfree`;
on success `tfree` and `cfree` each decrease by exactly that amount, `foffset`
grows by `L + padding`, and `nslots` and `nrecs` each grow by 1. -/
theorem insert_succeeds_iff (env : PageEnv) (henv : env.Valid) (a : Int)
    (ha : ValidAlignment a) (qs : Qsort) (pg0 : Page) (slots_type : Int)
    (recs : List (Bool × RECDES)) (pg : Page) (calloc_ok : Bool) (r : RECDES)
    (hwf : ∀ x ∈ recs, x.2.WF)
    (hbuild : insert_records env qs ( sort_spage_initialize env pg0 slots_type a) recs =
      some pg)
    (hr : r.WF) (hlen : r.length ≤ SORT_MAXREC_LENGTH env) :
    (∃ res, sort_spage_insert env qs calloc_ok pg r = some res) ∧
    ((∃ pg1 sid, sort_spage_insert env qs calloc_ok pg r = some (pg1, some sid)) ↔
      r.length + DB_WASTED_ALIGN r.length a + SIZEOF_SLOT ≤ pg.hdr.tfree) ∧
    (∀ pg1 sid, sort_spage_insert env qs calloc_ok pg r = some (pg1, some sid) →
      pg1.hdr.tfree = pg.hdr.tfree - (r.length + DB_WASTED_ALIGN r.length a + SIZEOF_SLOT) ∧
      pg1.hdr.cfree = pg.hdr.cfree - (r.length + DB_WASTED_ALIGN r.length a + SIZEOF_SLOT) ∧
      pg1.hdr.foffset = pg.hdr.foffset + (r.length + DB_WASTED_ALIGN r.length a) ∧
      pg1.hdr.nslots = pg.hdr.nslots + 1 ∧ pg1.hdr.nrecs = pg.hdr.nrecs + 1) := by
  have hI := insert_records_inv env henv a ha qs recs _ pg
    (initialize_inv env henv pg0 slots_type a ha) hwf hbuild
  have hp : padded a r.length = r.length + DB_WASTED_ALIGN r.length a := rfl
  rw [← hp]
  rcases insert_cases env henv a ha qs calloc_ok pg hI r hr with ⟨_, h2, h3⟩ | ⟨h2, h3⟩
  · rw [h3]
    refine ⟨⟨_, rfl⟩, ⟨fun _ => h2, fun _ => ⟨_, _, rfl⟩⟩, ?_⟩
    intro pg1 sid h
    simp only [Option.some.injEq, Prod.mk.injEq] at h
    rw [← h.1]
    simp [hdr_after_insert]
  · rw [h3]
    refine ⟨⟨_, rfl⟩, ⟨?_, fun h => absurd ⟨hlen, h⟩ h2⟩, ?_⟩
    · rintro ⟨pg1, sid, h⟩
      simp at h
    · intro pg1 sid h
      simp at h

/-- C10, at a concrete input: a three-byte record into the page that holds a
one-byte record. -/
theorem insert_succeeds_iff_witness :
    env16k.Valid ∧ ValidAlignment 8 ∧ (∀ x ∈ [(true, rec_one_byte)], x.2.WF) ∧
    insert_records env16k insertion_qsort ( sort_spage_initialize env16k blank_page 0 8)
      [(true, rec_one_byte)] = some page_one_byte ∧
    rec_three_bytes.WF ∧ rec_three_bytes.length ≤ SORT_MAXREC_LENGTH env16k ∧
    ((∃ pg1 sid, sort_spage_insert env16k insertion_qsort true page_one_byte rec_three_bytes =
        some (pg1, some sid)) ↔
      rec_three_bytes.length + DB_WASTED_ALIGN rec_three_bytes.length 8 + SIZEOF_SLOT ≤
        page_one_byte.hdr.tfree) :=
  ⟨by decide, by decide, by decide, page_one_byte_records, by decide, by decide,
    (insert_succeeds_iff env16k (by decide) 8 (by decide) insertion_qsort blank_page 0
      [(true, rec_one_byte)] page_one_byte true rec_three_bytes (by decide)
      page_one_byte_records (by decide) (by decide)).2.1⟩

/-! ### Strict weak orders -/

theorem StrictWeakOrder.eq_symm {compare : Nat → Nat → Int} (h : StrictWeakOrder compare)
    {a b : Nat} (hab : compare a b = 0) : compare b a = 0 := by
  have h1 := h.symm a b
  have h2 := h.symm b a
  omega

theorem StrictWeakOrder.lt_of_lt_of_eq {compare : Nat → Nat → Int}
    (h : StrictWeakOrder compare) {a b c : Nat} (hab : compare a b < 0)
    (hbc : compare b c = 0) : compare a c < 0 := by
  by_contra hn
  rcases lt_trichotomy (compare a c) 0 with h1 | h1 | h1
  · exact hn h1
  · have := h.trans_eq a c b h1 (h.eq_symm hbc); omega
  · have h2 : compare c a < 0 := (h.symm c a).2 h1
    have h3 := h.trans_lt c a b h2 hab
    have h4 := h.eq_symm hbc
    omega

theorem StrictWeakOrder.lt_of_eq_of_lt {compare : Nat → Nat → Int}
    (h : StrictWeakOrder compare) {a b c : Nat} (hab : compare a b = 0)
    (hbc : compare b c < 0) : compare a c < 0 := by
  by_contra hn
  rcases lt_trichotomy (compare a c) 0 with h1 | h1 | h1
  · exact hn h1
  · have := h.trans_eq b a c (h.eq_symm hab) h1; omega
  · have h2 : compare c a < 0 := (h.symm c a).2 h1
    have h3 := h.trans_lt b c a hbc h2
    have h4 := h.eq_symm hab
    omega

theorem StrictWeakOrder.gt_iff {compare : Nat → Nat → Int} (h : StrictWeakOrder compare)
    (a b : Nat) : 0 < compare a b ↔ compare b a < 0 := (h.symm b a).symm

theorem StrictWeakOrder.class_congr {compare : Nat → Nat → Int} (h : StrictWeakOrder compare)
    (B : List Nat) {a b : Nat} (hab : compare a b = 0) :
    class_of compare B a = class_of compare B b := by
  unfold class_of
  apply List.filter_congr
  intro x _
  have h1 : compare x a = 0 ↔ compare x b = 0 :=
    ⟨fun hx => h.trans_eq x a b hx hab, fun hx => h.trans_eq x b a hx (h.eq_symm hab)⟩
  simp only [h1]

/-! ### Segments of a pointer buffer -/

theorem seg_length (buf : Int → Option Nat) (a b : Int) :
    (seg buf a b).length = (b + 1 - a).toNat := by
  simp [seg]

theorem seg_empty (buf : Int → Option Nat) (a b : Int) (h : b < a) : seg buf a b = [] := by
  have : (b + 1 - a).toNat = 0 := by omega
  simp [seg, this]

theorem seg_snoc (buf : Int → Option Nat) (a b : Int) (h : a ≤ b) :
    seg buf a b = seg buf a (b - 1) ++ [buf b] := by
  unfold seg
  have h1 : (b + 1 - a).toNat = (b - 1 + 1 - a).toNat + 1 := by omega
  rw [h1, List.range_succ, List.map_append]
  have h2 : a + (((b - 1 + 1 - a).toNat : Nat) : Int) = b := by omega
  simp only [List.map_cons, List.map_nil, h2]

theorem seg_cons (buf : Int → Option Nat) (a b : Int) (h : a ≤ b) :
    seg buf a b = buf a :: seg buf (a + 1) b := by
  unfold seg
  have h1 : (b + 1 - a).toNat = (b + 1 - (a + 1)).toNat + 1 := by omega
  rw [h1, List.range_succ_eq_map, List.map_cons, List.map_map]
  simp only [Nat.cast_zero, add_zero, List.cons.injEq, true_and]
  apply List.map_congr_left
  intro k _
  simp only [Function.comp_apply, Nat.cast_succ]
  congr 1
  omega

theorem seg_congr (buf buf1 : Int → Option Nat) (a b : Int)
    (h : ∀ i, a ≤ i → i ≤ b → buf1 i = buf i) : seg buf1 a b = seg buf a b := by
  unfold seg
  apply List.map_congr_left
  intro k hk
  have := List.mem_range.1 hk
  exact h _ (by omega) (by omega)

theorem seg_append (buf : Int → Option Nat) (a c b : Int) (h1 : a ≤ c + 1) (h2 : c ≤ b) :
    seg buf a b = seg buf a c ++ seg buf (c + 1) b := by
  obtain ⟨n, hn⟩ : ∃ n : Nat, b = c + n := ⟨(b - c).toNat, by omega⟩
  subst hn
  induction n with
  | zero =>
    simp only [Nat.cast_zero, add_zero]
    rw [seg_empty buf (c + 1) c (by omega)]; simp
  | succ n ih =>
    have e : c + ((n + 1 : Nat) : Int) - 1 = c + (n : Int) := by push_cast; omega
    rw [seg_snoc buf a _ (by push_cast; omega), seg_snoc buf (c + 1) _ (by push_cast; omega),
      e, ih (by omega), List.append_assoc]

theorem seg_getElem (buf : Int → Option Nat) (a b : Int) (k : Nat)
    (h : k < (seg buf a b).length) : (seg buf a b)[k] = buf (a + (k : Int)) := by
  simp [seg]

theorem seg_eq_map_iff (buf : Int → Option Nat) (a b : Int) (K : List Nat)
    (hK : seg buf a b = K.map some) (i : Int) (h1 : a ≤ i) (h2 : i ≤ b) :
    ∃ x, buf i = some x ∧ K[(i - a).toNat]? = some x := by
  have hlen : K.length = (b + 1 - a).toNat := by
    have := congrArg List.length hK
    rw [seg_length, List.length_map] at this
    exact this.symm
  have hk : (i - a).toNat < (seg buf a b).length := by rw [seg_length]; omega
  have h3 := seg_getElem buf a b (i - a).toNat hk
  have h4 : a + (((i - a).toNat : Nat) : Int) = i := by omega
  rw [h4] at h3
  have hk2 : (i - a).toNat < K.length := by omega
  refine ⟨K[(i - a).toNat], ?_, by simp [hk2]⟩
  rw [← h3]
  simp [hK]

/-! ### The memory of the in-memory sort -/

theorem SortMem.get_set_same (m : SortMem) (s : Side) (i : Int) (v : Option Nat) :
    (m.set s i v).get s i = v := by
  cases s <;> simp [SortMem.get, SortMem.set]

theorem SortMem.get_set_other (m : SortMem) (s t : Side) (i j : Int) (v : Option Nat)
    (h : t ≠ s ∨ j ≠ i) : (m.set s i v).get t j = m.get t j := by
  cases s <;> cases t <;> simp [SortMem.get, SortMem.set] <;> intro hji <;> simp_all

theorem SortMem.set_next (m : SortMem) (s : Side) (i : Int) (v : Option Nat) :
    (m.set s i v).next = m.next := by
  cases s <;> rfl

/-! ### Lists linked through `next` -/

theorem IsChain_frame (next next1 : Nat → Option Nat) (l : List Nat) :
    ∀ k, (∀ x ∈ k :: l, next1 x = next x) → IsChain next k l → IsChain next1 k l := by
  induction l with
  | nil =>
    intro k h hc
    simp only [IsChain] at hc ⊢
    rw [h k (List.mem_cons_self _ _)]; exact hc
  | cons j l ih =>
    intro k h hc
    simp only [IsChain] at hc ⊢
    refine ⟨by rw [h k (List.mem_cons_self _ _)]; exact hc.1, ?_⟩
    exact ih j (fun x hx => h x (List.mem_cons_of_mem _ hx)) hc.2

theorem sort_append_last_spec (next : Nat → Option Nat) (l : List Nat) :
    ∀ (fuel k : Nat), IsChain next k l → l.length ≤ fuel →
      sort_append_last next fuel k = some (l.getLastD k) := by
  induction l with
  | nil =>
    intro fuel k hc _
    simp only [IsChain] at hc
    cases fuel <;> simp [sort_append_last, hc]
  | cons j l ih =>
    intro fuel k hc hlen
    simp only [IsChain] at hc
    cases fuel with
    | zero => simp at hlen
    | succ fuel =>
      simp only [sort_append_last, hc.1]
      rw [ih fuel j hc.2 (by simpa using hlen)]
      cases l <;> simp [List.getLastD]

theorem getLastD_mem (l : List Nat) (k : Nat) : l.getLastD k ∈ k :: l := by
  cases l with
  | nil => simp [List.getLastD]
  | cons a l =>
    have : (a :: l).getLastD k = (a :: l).getLast (by simp) := by
      simp [List.getLastD, List.getLast?_eq_getLast]
    rw [this]
    exact List.mem_cons_of_mem _ (List.getLast_mem _)

/-- Linking the list of `a` behind the list of `b`, as `sort_append` does. -/
theorem IsChain_append (next : Nat → Option Nat) (a : Nat) (la : List Nat) (lb : List Nat) :
    ∀ b, IsChain next b lb → IsChain next a la → (b :: lb).Nodup →
      (∀ x ∈ a :: la, x ∉ b :: lb) →
      IsChain (fun j => if j = lb.getLastD b then some a else next j) b (lb ++ a :: la) := by
  induction lb with
  | nil =>
    intro b hb ha _ hdis
    simp only [List.getLastD, List.nil_append, IsChain, if_true, true_and]
    apply IsChain_frame next _ la a _ ha
    intro x hx
    have := hdis x hx
    simp only [List.mem_singleton] at this
    simp [this]
  | cons j lb ih =>
    intro b hb ha hnd hdis
    simp only [IsChain] at hb
    have hnd1 : (j :: lb).Nodup := (List.nodup_cons.1 hnd).2
    have hbnot : b ∉ j :: lb := (List.nodup_cons.1 hnd).1
    have hlast : (j :: lb).getLastD b = lb.getLastD j := by
      cases lb <;> simp [List.getLastD]
    have hmem := getLastD_mem lb j
    simp only [List.cons_append, IsChain]
    refine ⟨?_, ?_⟩
    · rw [hlast, if_neg]
      · exact hb.1
      · intro h; rw [h] at hbnot; exact hbnot hmem
    · rw [hlast]
      exact ih j hb.2 ha hnd1 (fun x hx h => hdis x hx (List.mem_cons_of_mem _ h))

theorem chain_of_spec (next : Nat → Option Nat) (l : List Nat) :
    ∀ (fuel k : Nat), IsChain next k l → l.length ≤ fuel → chain_of next fuel k = l := by
  induction l with
  | nil =>
    intro fuel k hc _
    simp only [IsChain] at hc
    cases fuel <;> simp [chain_of, hc]
  | cons j l ih =>
    intro fuel k hc hlen
    simp only [IsChain] at hc
    cases fuel with
    | zero => simp at hlen
    | succ fuel =>
      simp only [chain_of, hc.1]
      rw [ih fuel j hc.2 (by simpa using hlen)]

/-! ### `sort_run_flip` -/

theorem SortMem.get_set_of_ne (m : SortMem) (s t : Side) (i j : Int) (v : Option Nat)
    (h : t = s → j ≠ i) : (m.set s i v).get t j = m.get t j := by
  apply SortMem.get_set_other
  by_cases e : t = s
  · exact Or.inr (h e)
  · exact Or.inl e

theorem flip_loop_spec (s : Side) :
    ∀ (fuel : Nat) (m : SortMem) (a b : Int), (b - a).toNat ≤ fuel →
      (∀ i, a ≤ i → i ≤ b →
        (sort_run_flip_loop s fuel m a b).get s i = m.get s (a + b - i)) ∧
      (∀ t i, (t = s → i < a ∨ b < i) →
        (sort_run_flip_loop s fuel m a b).get t i = m.get t i) ∧
      (sort_run_flip_loop s fuel m a b).next = m.next := by
  intro fuel
  induction fuel with
  | zero =>
    intro m a b hf
    have e : sort_run_flip_loop s 0 m a b = m := rfl
    rw [e]
    refine ⟨?_, fun _ _ _ => rfl, rfl⟩
    intro i h1 h2
    have : a + b - i = i := by omega
    rw [this]
  | succ n ih =>
    intro m a b hf
    by_cases hab : a < b
    · have e : sort_run_flip_loop s (n + 1) m a b =
          sort_run_flip_loop s n ((m.set s a (m.get s b)).set s b (m.get s a)) (a + 1) (b - 1) := by
        simp only [sort_run_flip_loop, if_pos hab]
      rw [e]
      obtain ⟨h1, h2, h3⟩ := ih ((m.set s a (m.get s b)).set s b (m.get s a)) (a + 1) (b - 1)
        (by omega)
      refine ⟨?_, ?_, ?_⟩
      · intro i hi1 hi2
        by_cases hia : i = a
        · subst hia
          rw [h2 s i (fun _ => Or.inl (by omega))]
          rw [SortMem.get_set_of_ne _ _ _ _ _ _ (fun _ => by omega), SortMem.get_set_same]
          congr 1; omega
        · by_cases hib : i = b
          · subst hib
            rw [h2 s i (fun _ => Or.inr (by omega)), SortMem.get_set_same]
            congr 1; omega
          · rw [h1 i (by omega) (by omega)]
            rw [SortMem.get_set_of_ne _ _ _ _ _ _ (fun _ => by omega),
              SortMem.get_set_of_ne _ _ _ _ _ _ (fun _ => by omega)]
            congr 1; omega
      · intro t i hti
        rw [h2 t i (fun e => by have := hti e; omega)]
        rw [SortMem.get_set_of_ne _ _ _ _ _ _ (fun e => by have := hti e; omega),
          SortMem.get_set_of_ne _ _ _ _ _ _ (fun e => by have := hti e; omega)]
      · rw [h3, SortMem.set_next, SortMem.set_next]
    · have e : sort_run_flip_loop s (n + 1) m a b = m := by
        simp only [sort_run_flip_loop, if_neg hab]
      rw [e]
      refine ⟨?_, fun _ _ _ => rfl, rfl⟩
      intro i h1 h2
      have : a + b - i = i := by omega
      rw [this]

theorem List.reverse_eq_of_getElem {α : Type} (l r : List α) (hlen : r.length = l.length)
    (h : ∀ (k : Nat) (h1 : k < r.length) (h2 : l.length - 1 - k < l.length),
      r[k] = l[l.length - 1 - k]) : r = l.reverse := by
  apply List.ext_getElem
  · simp [hlen]
  · intro k h1 h2
    rw [List.getElem_reverse]
    exact h k h1 (by simp at h2; omega)

/-- `sort_run_flip (start, stop)` reverses the cells `start .. stop` of the buffer
and touches nothing else. -/
theorem sort_run_flip_spec (s : Side) (m : SortMem) (a b : Int) :
    seg (fun i => (sort_run_flip s m a b).get s i) a b =
      (seg (fun i => m.get s i) a b).reverse ∧
    (∀ t i, (t = s → i < a ∨ b < i) → (sort_run_flip s m a b).get t i = m.get t i) ∧
    (sort_run_flip s m a b).next = m.next := by
  obtain ⟨h1, h2, h3⟩ := flip_loop_spec s (b - a).toNat m a b (le_refl _)
  refine ⟨?_, h2, h3⟩
  apply List.reverse_eq_of_getElem
  · simp [seg_length]
  · intro k hk1 hk2
    rw [seg_getElem, seg_getElem]
    rw [seg_length] at hk1 hk2
    simp only [seg_length]
    unfold sort_run_flip
    rw [h1 _ (by omega) (by omega)]
    congr 1
    omega

/-! ### The duplicate elimination of `sort_run_find` -/

theorem SortMem.high_set (m : SortMem) (i : Int) (v : Option Nat) (j : Int) :
    (m.set Side.H i v).high j = if j = i then v else m.high j := rfl

theorem SortMem.low_set_high (m : SortMem) (i : Int) (v : Option Nat) :
    (m.set Side.H i v).low = m.low := rfl

theorem seg_all_none (buf : Int → Option Nat) (a b : Int)
    (h : ∀ i, a ≤ i → i ≤ b → buf i = none) :
    seg buf a b = List.replicate (b + 1 - a).toNat none := by
  apply List.ext_getElem
  · simp [seg_length]
  · intro k h1 h2
    rw [seg_getElem, List.getElem_replicate]
    rw [seg_length] at h1
    exact h _ (by omega) (by omega)

theorem fill_spec (start dup : Int) :
    ∀ (n : Nat) (m : SortMem) (nd : Int), (nd - start + 1).toNat ≤ n → start - 1 ≤ nd →
      nd < dup →
      (sort_run_find_fill start dup n m nd).2 ≤ nd ∧
      start - 1 ≤ (sort_run_find_fill start dup n m nd).2 ∧
      (∀ i, (sort_run_find_fill start dup n m nd).2 < i → i ≤ nd → m.high i = none) ∧
      (((sort_run_find_fill start dup n m nd).2 < start ∧
          (sort_run_find_fill start dup n m nd).1 = m) ∨
        (start ≤ (sort_run_find_fill start dup n m nd).2 ∧
          ∃ y, m.high (sort_run_find_fill start dup n m nd).2 = some y ∧
            (sort_run_find_fill start dup n m nd).1 =
              (m.set Side.H dup (some y)).set Side.H
                (sort_run_find_fill start dup n m nd).2 none)) := by
  intro n
  induction n with
  | zero =>
    intro m nd hf h1 h2
    have e : sort_run_find_fill start dup 0 m nd = (m, nd) := rfl
    rw [e]
    exact ⟨le_refl _, h1, fun i h3 h4 => by omega, Or.inl ⟨by omega, rfl⟩⟩
  | succ n ih =>
    intro m nd hf h1 h2
    by_cases hge : nd ≥ start
    · cases hc : m.high nd with
      | none =>
        have e : sort_run_find_fill start dup (n + 1) m nd =
            sort_run_find_fill start dup n m (nd - 1) := by
          simp only [sort_run_find_fill, if_pos hge, hc, ne_eq, not_true_eq_false, if_false]
        rw [e]
        obtain ⟨q1, q2, q3, q4⟩ := ih m (nd - 1) (by omega) (by omega) (by omega)
        refine ⟨by omega, q2, ?_, q4⟩
        intro i h3 h4
        by_cases hi : i = nd
        · rw [hi]; exact hc
        · exact q3 i h3 (by omega)
      | some y =>
        have e : sort_run_find_fill start dup (n + 1) m nd =
            ((m.set Side.H dup (m.high nd)).set Side.H nd none, nd) := by
          simp only [sort_run_find_fill, if_pos hge, hc, ne_eq, reduceCtorEq, not_false_eq_true,
            if_true]
        rw [e, hc]
        exact ⟨le_refl _, by omega, fun i h3 h4 => by omega, Or.inr ⟨hge, y, rfl, rfl⟩⟩
    · have e : sort_run_find_fill start dup (n + 1) m nd = (m, nd) := by
        simp only [sort_run_find_fill, if_neg hge]
      rw [e]
      exact ⟨le_refl _, h1, fun i h3 h4 => by omega, Or.inl ⟨by omega, rfl⟩⟩

theorem shift_exit (start : Int) (n : Nat) (m : SortMem) (dup nd : Int) (h : nd < start) :
    sort_run_find_shift start n m dup nd = m := by
  cases n with
  | zero => rfl
  | succ n => simp only [sort_run_find_shift, if_neg (not_le.2 h)]

theorem shift_done (m : SortMem) (start stop dup : Int) (K2 : List Nat)
    (h1 : start ≤ dup) (h2 : dup ≤ stop)
    (hnone : ∀ i, start ≤ i → i < dup → m.high i = none)
    (hK2 : seg m.high (dup + 1) stop = K2.map some) :
    seg m.high start stop =
      List.replicate ((stop + 1 - start).toNat - ((m.high dup).toList ++ K2).length) none ++
        ((m.high dup).toList ++ K2).map some := by
  have hlen : K2.length = (stop - dup).toNat := by
    have := congrArg List.length hK2
    rw [seg_length, List.length_map] at this
    omega
  rw [seg_append m.high start (dup - 1) stop (by omega) (by omega),
    seg_all_none m.high start (dup - 1) (fun i h3 h4 => hnone i h3 (by omega))]
  have e1 : dup - 1 + 1 = dup := by omega
  rw [e1, seg_cons m.high dup stop h2, hK2]
  cases hd : m.high dup with
  | none =>
    simp only [Option.toList, List.nil_append, List.length_nil]
    have : (stop + 1 - start).toNat - K2.length = (dup - start).toNat + 1 := by omega
    rw [this, List.replicate_succ', List.append_assoc]
    rfl
  | some y =>
    have : (stop + 1 - start).toNat - ((some y).toList ++ K2).length =
        (dup - start).toNat := by
      simp only [Option.toList, List.singleton_append, List.length_cons]; omega
    rw [this]
    rfl

/-- The duplicate elimination of `sort_run_find` moves the cells that are not
`NULL` to the right end of the run, in their order. -/
theorem shift_spec (start stop : Int) :
    ∀ (n : Nat) (m : SortMem) (dup nd : Int) (K2 : List Nat),
      (nd - start + 1).toNat ≤ n → start - 1 ≤ nd → nd < dup → dup ≤ stop →
      (∀ i, nd < i → i < dup → m.high i = none) →
      seg m.high (dup + 1) stop = K2.map some →
      (m.high dup ≠ none → nd = dup - 1) →
      seg (sort_run_find_shift start n m dup nd).high start stop =
        List.replicate ((stop + 1 - start).toNat -
          ((seg m.high start nd).filterMap id ++ (m.high dup).toList ++ K2).length) none ++
          ((seg m.high start nd).filterMap id ++ (m.high dup).toList ++ K2).map some ∧
      (∀ i, (i < start ∨ stop < i) →
        (sort_run_find_shift start n m dup nd).high i = m.high i) ∧
      (sort_run_find_shift start n m dup nd).low = m.low ∧
      (sort_run_find_shift start n m dup nd).next = m.next := by
  intro n
  induction n with
  | zero =>
    intro m dup nd K2 hf h1 h2 h3 hnone hK2 hdup
    have hnd : nd < start := by omega
    rw [shift_exit start 0 m dup nd hnd]
    refine ⟨?_, fun _ _ => rfl, rfl, rfl⟩
    rw [seg_empty m.high start nd hnd]
    simp only [List.filterMap_nil, List.nil_append]
    exact shift_done m start stop dup K2 (by omega) h3 (fun i h4 h5 => hnone i (by omega) h5) hK2
  | succ n ih =>
    intro m dup nd K2 hf h1 h2 h3 hnone hK2 hdup
    by_cases hge : nd ≥ start
    · cases hd : m.high dup with
      | none =>
        obtain ⟨q1, q2, q3, q4⟩ := fill_spec start dup (nd - start + 1).toNat m nd (le_refl _)
          h1 h2
        have e : sort_run_find_shift start (n + 1) m dup nd =
            sort_run_find_shift start n
              (sort_run_find_fill start dup (nd - start + 1).toNat m nd).1 (dup - 1)
              ((sort_run_find_fill start dup (nd - start + 1).toNat m nd).2 - 1) := by
          simp only [sort_run_find_shift, if_pos hge, hd, if_true]
        rw [e]
        generalize sort_run_find_fill start dup (nd - start + 1).toNat m nd = r at q1 q2 q3 q4
        obtain ⟨m1, q⟩ := r
        simp only at q1 q2 q3 q4 ⊢
        rcases q4 with ⟨q5, q6⟩ | ⟨q5, y, q6, q7⟩
        · -- nothing left to move
          subst q6
          rw [shift_exit start n m1 (dup - 1) (q - 1) (by omega)]
          refine ⟨?_, fun _ _ => rfl, rfl, rfl⟩
          have hall : ∀ i, start ≤ i → i ≤ nd → m1.high i = none :=
            fun i h4 h5 => q3 i (by omega) h5
          rw [seg_all_none m1.high start nd hall]
          have hfm : (List.replicate (nd + 1 - start).toNat (none : Option Nat)).filterMap id
              = [] := by
            rw [List.filterMap_eq_nil_iff]
            intro a ha
            rw [List.eq_of_mem_replicate ha]; rfl
          rw [hfm]
          simp only [List.nil_append]
          have hfin := shift_done m1 start stop dup K2 (by omega) h3
            (fun i h4 h5 => by
              by_cases h6 : i ≤ nd
              · exact hall i h4 h6
              · exact hnone i (by omega) h5) hK2
          rw [hd] at hfin
          exact hfin
        · -- the record of the cell q moves to the cell dup
          subst q7
          have hq_le : q ≤ nd := q1
          have hhigh : ∀ j, ((m.set Side.H dup (some y)).set Side.H q none).high j =
              if j = q then none else if j = dup then some y else m.high j := by
            intro j
            rw [SortMem.high_set, SortMem.high_set]
          obtain ⟨r1, r2, r3, r4⟩ := ih ((m.set Side.H dup (some y)).set Side.H q none)
            (dup - 1) (q - 1) (y :: K2) (by omega) (by omega) (by omega) (by omega)
            (by
              intro i h4 h5
              rw [hhigh]
              by_cases hiq : i = q
              · rw [if_pos hiq]
              · rw [if_neg hiq, if_neg (by omega)]
                by_cases h6 : i ≤ nd
                · exact q3 i (by omega) h6
                · exact hnone i (by omega) (by omega))
            (by
              have e1 : dup - 1 + 1 = dup := by omega
              rw [e1, seg_cons _ dup stop h3, hhigh, if_neg (by omega), if_pos rfl]
              rw [seg_congr m.high _ (dup + 1) stop (fun i h4 h5 => by
                rw [hhigh, if_neg (by omega), if_neg (by omega)]), hK2]
              rfl)
            (by
              intro h4
              exfalso; apply h4
              rw [hhigh]
              by_cases hiq : dup - 1 = q
              · rw [if_pos hiq]
              · rw [if_neg hiq, if_neg (by omega)]
                by_cases h6 : dup - 1 ≤ nd
                · exact q3 _ (by omega) h6
                · exact hnone _ (by omega) (by omega))
          have hd1 : ((m.set Side.H dup (some y)).set Side.H q none).high (dup - 1) = none := by
            rw [hhigh]
            by_cases hiq : dup - 1 = q
            · rw [if_pos hiq]
            · rw [if_neg hiq, if_neg (by omega)]
              by_cases h6 : dup - 1 ≤ nd
              · exact q3 _ (by omega) h6
              · exact hnone _ (by omega) (by omega)
          have hseg1 : seg ((m.set Side.H dup (some y)).set Side.H q none).high start (q - 1) =
              seg m.high start (q - 1) :=
            seg_congr m.high _ start (q - 1) (fun i h4 h5 => by
              rw [hhigh, if_neg (by omega), if_neg (by omega)])
          have hK1 : (seg m.high start nd).filterMap id =
              (seg m.high start (q - 1)).filterMap id ++ [y] := by
            rw [seg_append m.high start q nd (by omega) hq_le,
              seg_all_none m.high (q + 1) nd (fun i h4 h5 => q3 i (by omega) h5),
              seg_snoc m.high start q q5, q6]
            simp only [List.filterMap_append, List.filterMap_cons, id_eq, List.filterMap_nil]
            have hfm : (List.replicate (nd + 1 - (q + 1)).toNat (none : Option Nat)).filterMap id
                = [] := by
              rw [List.filterMap_eq_nil_iff]
              intro a ha
              rw [List.eq_of_mem_replicate ha]; rfl
            rw [hfm]; simp
          rw [hd1, hseg1] at r1
          simp only [Option.toList, List.append_nil] at r1
          refine ⟨?_, ?_, ?_, ?_⟩
          · rw [r1, hK1]
            simp only [Option.toList, List.append_nil, List.append_assoc, List.singleton_append]
          · intro i hi
            rw [r2 i hi, hhigh, if_neg (by omega), if_neg (by omega)]
          · rw [r3]; rfl
          · rw [r4]; rfl
      | some y =>
        have hnd : nd = dup - 1 := hdup (by rw [hd]; simp)
        have e : sort_run_find_shift start (n + 1) m dup nd =
            sort_run_find_shift start n m (dup - 1) (nd - 1) := by
          simp only [sort_run_find_shift, if_pos hge, hd, reduceCtorEq, if_false]
        rw [e]
        obtain ⟨r1, r2, r3, r4⟩ := ih m (dup - 1) (nd - 1) (y :: K2) (by omega) (by omega)
          (by omega) (by omega) (fun i h4 h5 => by omega)
          (by
            have e1 : dup - 1 + 1 = dup := by omega
            rw [e1, seg_cons _ dup stop h3, hd, hK2]; rfl)
          (fun _ => by omega)
        refine ⟨?_, r2, r3, r4⟩
        rw [r1]
        have hK1 : (seg m.high start nd).filterMap id =
            (seg m.high start (nd - 1)).filterMap id ++ (m.high (dup - 1)).toList := by
          rw [seg_snoc m.high start nd hge, hnd]
          simp only [List.filterMap_append]
          cases m.high (dup - 1) <;> simp
        rw [hK1]
        simp only [Option.toList, List.append_assoc, List.singleton_append]
    · have hnd : nd < start := by omega
      rw [shift_exit start (n + 1) m dup nd hnd]
      refine ⟨?_, fun _ _ => rfl, rfl, rfl⟩
      rw [seg_empty m.high start nd hnd]
      simp only [List.filterMap_nil, List.nil_append]
      exact shift_done m start stop dup K2 (by omega) h3 (fun i h4 h5 => hnone i (by omega) h5) hK2

/-! ### The scanning loops of `sort_run_find` -/

theorem getLast?_eq_some_append {α : Type} (K : List α) (a : α) (h : K.getLast? = some a) :
    K = K.dropLast ++ [a] := by
  have hne : K ≠ [] := by
    intro e; rw [e] at h; simp at h
  have h1 := List.dropLast_append_getLast hne
  rw [List.getLast?_eq_getLast _ hne] at h
  simp only [Option.some.injEq] at h
  rw [h] at h1
  exact h1.symm

theorem head?_eq_some_cons {α : Type} (l : List α) (a : α) (h : l.head? = some a) :
    l = a :: l.tail := by
  cases l with
  | nil => simp at h
  | cons b l => simp at h; simp [h]

theorem class_of_cons_ne (compare : Nat → Nat → Int) (B : List Nat) (y k : Nat)
    (h : compare y k ≠ 0) : class_of compare (y :: B) k = class_of compare B k := by
  simp [class_of, List.filter_cons, h]

theorem class_of_cons_eq (compare : Nat → Nat → Int) (B : List Nat) (y k : Nat)
    (h : compare y k = 0) : class_of compare (y :: B) k = y :: class_of compare B k := by
  simp [class_of, List.filter_cons, h]

theorem class_of_subset (compare : Nat → Nat → Int) (B : List Nat) (k x : Nat)
    (h : x ∈ class_of compare B k) : x ∈ B ∧ compare x k = 0 := by
  simpa [class_of, List.mem_filter] using h

theorem class_of_eq_nil (compare : Nat → Nat → Int) (B : List Nat) (k : Nat)
    (h : ∀ x ∈ B, compare x k ≠ 0) : class_of compare B k = [] := by
  simp only [class_of, List.filter_eq_nil_iff, decide_eq_true_eq]
  exact h

theorem class_of_append (compare : Nat → Nat → Int) (B1 B2 : List Nat) (k : Nat) :
    class_of compare (B1 ++ B2) k = class_of compare B1 k ++ class_of compare B2 k := by
  simp [class_of]

theorem mem_tail_of_head {α : Type} (l : List α) (x : α) (h : x ∈ l.tail) : x ∈ l := by
  cases l with
  | nil => simp at h
  | cons a l => exact List.mem_cons_of_mem _ h

theorem sort_append_fresh (fuel : Nat) (m : SortMem) (a y : Nat) (hy : m.next y = none) :
    sort_append fuel m (some a) (some y) =
      some { m with next := fun j => if j = y then some a else m.next j } := by
  have h := sort_append_last_spec m.next [] fuel y hy (Nat.zero_le _)
  simp only [List.getLastD] at h
  simp only [sort_append, h]

theorem scan_no_dup (compare : Nat → Nat → Int) (hswo : StrictWeakOrder compare)
    (option : SORT_DUP_OPTION) (m0 : SortMem) (start : Int) (A : List Nat)
    (hA0 : option = SORT_DUP_OPTION.SORT_DUP → ∀ x ∈ A, m0.next x = none)
    (inc : Bool) (m : SortMem) (stop d : Int) (a y : Nat) (K B R : List Nat)
    (h1 : start ≤ stop) (h2 : A = B.reverse ++ y :: R)
    (h3 : (B.length : Int) = stop + 1 - start)
    (h4 : (seg m.high start stop).filterMap id = K)
    (h6 : K.getLast? = some a)
    (h7 : d = (stop + 1 - start) - (K.length : Int))
    (h8 : if inc = true then StrictAsc compare K else StrictAsc compare K.reverse)
    (h9 : Keeps compare option m.next B K)
    (h10 : ∀ i, (i < start ∨ stop < i) → m.high i = m0.high i) (h11 : m.low = m0.low)
    (h12 : ∀ x, x ∉ B → m.next x = m0.next x)
    (hy : m0.high (stop + 1) = some y) (hyB : y ∉ B)
    (hc : if inc = true then compare a y < 0 else 0 < compare a y) :
    ScanInv compare option m0 start A inc m (stop + 1) d := by
  have hKa := getLast?_eq_some_append K a h6
  have hmy : m.high (stop + 1) = some y := by rw [h10 _ (Or.inr (by omega)), hy]
  -- every kept record is strictly on the side of `y` that the direction asks for
  have hord : ∀ k ∈ K, if inc = true then compare k y < 0 else compare y k < 0 := by
    intro k hk
    rw [hKa] at hk h8
    rcases List.mem_append.1 hk with hk1 | hk1
    · cases inc with
      | true =>
        simp only [if_true] at *
        have := (List.pairwise_append.1 h8).2.2 k hk1 a (List.mem_singleton_self _)
        exact hswo.trans_lt _ _ _ this hc
      | false =>
        simp only [Bool.false_eq_true, if_false] at *
        rw [List.reverse_append, List.reverse_singleton, List.singleton_append] at h8
        have := (List.pairwise_cons.1 h8).1 k (List.mem_reverse.2 hk1)
        exact hswo.trans_lt _ _ _ ((hswo.gt_iff a y).1 hc) this
    · rw [List.mem_singleton.1 hk1]
      cases inc with
      | true => simpa using hc
      | false =>
        simp only [Bool.false_eq_true, if_false] at *
        exact (hswo.gt_iff a y).1 hc
  have hne : ∀ k ∈ K, compare y k ≠ 0 := by
    intro k hk
    have := hord k hk
    cases inc with
    | true =>
      simp only [if_true] at this
      intro h0; have := hswo.eq_symm h0; omega
    | false =>
      simp only [Bool.false_eq_true, if_false] at this
      omega
  refine ⟨K ++ [y], y :: B, R, by omega, by rw [h2]; simp, by simp; omega, ?_, ?_, ?_, ?_, ?_,
    ?_, ?_, h11, ?_⟩
  · rw [seg_snoc m.high start (stop + 1) (by omega)]
    have e1 : stop + 1 - 1 = stop := by omega
    rw [e1, List.filterMap_append, h4, hmy]; rfl
  · rw [h10 _ (Or.inr (by omega))]
  · rw [hy]; simp
  · rw [h7]; simp; omega
  · cases inc with
    | true =>
      simp only [if_true] at *
      unfold StrictAsc
      rw [List.pairwise_append]
      exact ⟨h8, List.pairwise_singleton _ _, fun k hk z hz => by
        rw [List.mem_singleton.1 hz]; exact hord k hk⟩
    | false =>
      simp only [Bool.false_eq_true, if_false] at *
      unfold StrictAsc
      rw [List.reverse_append, List.reverse_singleton, List.singleton_append,
        List.pairwise_cons]
      exact ⟨fun k hk => hord k (List.mem_reverse.1 hk), h8⟩
  · obtain ⟨k1, k2, k3⟩ := h9
    refine ⟨?_, ?_, ?_⟩
    · intro k hk
      rcases List.mem_append.1 hk with hk1 | hk1
      · exact List.mem_cons_of_mem _ (k1 k hk1)
      · rw [List.mem_singleton.1 hk1]; exact List.mem_cons_self _ _
    · intro x hx
      rcases List.mem_cons.1 hx with hx1 | hx1
      · exact ⟨y, List.mem_append_right _ (List.mem_singleton_self _), by rw [hx1]; exact hswo.refl y⟩
      · obtain ⟨k, hk, hkx⟩ := k2 x hx1
        exact ⟨k, List.mem_append_left _ hk, hkx⟩
    · intro hopt k hk
      rcases List.mem_append.1 hk with hk1 | hk1
      · rw [class_of_cons_ne compare B y k (hne k hk1)]
        exact k3 hopt k hk1
      · rw [List.mem_singleton.1 hk1, class_of_cons_eq compare B y y (hswo.refl y)]
        have hnil : class_of compare B y = [] := by
          apply class_of_eq_nil
          intro x hx h0
          obtain ⟨k, hk, hkx⟩ := k2 x hx
          have h1 := hswo.trans_eq _ _ _ (hswo.eq_symm h0) hkx
          exact hne k hk h1
        rw [hnil]
        simp only [List.head?_cons, List.tail_cons, IsChain, true_and]
        rw [h12 y hyB]
        exact hA0 hopt y (by rw [h2]; simp)
  · intro i hi
    exact h10 i (by omega)
  · intro x hx
    exact h12 x (fun h => hx (List.mem_cons_of_mem _ h))

theorem scan_dup (compare : Nat → Nat → Int) (hswo : StrictWeakOrder compare)
    (option : SORT_DUP_OPTION) (m0 : SortMem) (start : Int) (A : List Nat)
    (inc : Bool) (m m1 : SortMem) (stop d : Int) (a y : Nat) (K B R : List Nat)
    (h1 : start ≤ stop) (h2 : A = B.reverse ++ y :: R)
    (h3 : (B.length : Int) = stop + 1 - start)
    (h4 : (seg m.high start stop).filterMap id = K)
    (h5 : m.high stop = some a)
    (h6 : K.getLast? = some a)
    (h7 : d = (stop + 1 - start) - (K.length : Int))
    (h8 : if inc = true then StrictAsc compare K else StrictAsc compare K.reverse)
    (h9 : Keeps compare option m.next B K)
    (h10 : ∀ i, (i < start ∨ stop < i) → m.high i = m0.high i) (h11 : m.low = m0.low)
    (h12 : ∀ x, x ∉ B → m.next x = m0.next x)
    (hy : m0.high (stop + 1) = some y) (hyB : y ∉ B)
    (hc : compare a y = 0)
    (hm1h : ∀ i, m1.high i = if i = stop then none else m.high i) (hm1l : m1.low = m.low)
    (hm1n : ∀ x, x ≠ y → m1.next x = m.next x)
    (hm1y : option = SORT_DUP_OPTION.SORT_DUP → m1.next y = some a) :
    ScanInv compare option m0 start A inc m1 (stop + 1) (d + 1) := by
  have hKa := getLast?_eq_some_append K a h6
  have hya : compare y a = 0 := hswo.eq_symm hc
  have hKlen : K.length = K.dropLast.length + 1 := by
    conv_lhs => rw [hKa]
    simp
  -- the records kept before `a` are strictly on one side of `a`, hence of `y`
  have hord : ∀ k ∈ K.dropLast, if inc = true then compare k y < 0 else compare y k < 0 := by
    intro k hk1
    rw [hKa] at h8
    cases inc with
    | true =>
      simp only [if_true] at *
      have := (List.pairwise_append.1 h8).2.2 k hk1 a (List.mem_singleton_self _)
      exact hswo.lt_of_lt_of_eq this hc
    | false =>
      simp only [Bool.false_eq_true, if_false] at *
      rw [List.reverse_append, List.reverse_singleton, List.singleton_append] at h8
      have := (List.pairwise_cons.1 h8).1 k (List.mem_reverse.2 hk1)
      exact hswo.lt_of_eq_of_lt hya this
  have hne : ∀ k ∈ K.dropLast, compare y k ≠ 0 := by
    intro k hk
    have := hord k hk
    cases inc with
    | true =>
      simp only [if_true] at this
      intro h0; have := hswo.eq_symm h0; omega
    | false =>
      simp only [Bool.false_eq_true, if_false] at this
      omega
  have hsub : ∀ k ∈ K.dropLast, k ∈ K := fun k hk => List.mem_of_mem_dropLast hk
  have hseg : (seg m.high start (stop - 1)).filterMap id = K.dropLast := by
    have e := h4
    rw [seg_snoc m.high start stop h1, List.filterMap_append, h5] at e
    simp only [List.filterMap_cons, id_eq, List.filterMap_nil] at e
    rw [hKa] at e
    exact List.append_inj_left' e rfl
  refine ⟨K.dropLast ++ [y], y :: B, R, by omega, by rw [h2]; simp, by simp; omega, ?_, ?_, ?_,
    ?_, ?_, ?_, ?_, by rw [hm1l, h11], ?_⟩
  · rw [seg_snoc m1.high start (stop + 1) (by omega)]
    have e1 : stop + 1 - 1 = stop := by omega
    rw [e1, seg_snoc m1.high start stop h1, hm1h stop, if_pos rfl, hm1h (stop + 1),
      if_neg (by omega), h10 _ (Or.inr (by omega)), hy]
    rw [seg_congr m.high m1.high start (stop - 1) (fun i h13 h14 => by
      rw [hm1h, if_neg (by omega)])]
    simp only [List.filterMap_append, hseg, List.filterMap_cons, id_eq, List.filterMap_nil,
      List.append_nil]
  · rw [hm1h, if_neg (by omega), h10 _ (Or.inr (by omega))]
  · rw [hy]; simp
  · rw [h7]; simp; omega
  · cases inc with
    | true =>
      simp only [if_true] at *
      unfold StrictAsc
      rw [List.pairwise_append]
      rw [hKa] at h8
      exact ⟨(List.pairwise_append.1 h8).1, List.pairwise_singleton _ _, fun k hk z hz => by
        rw [List.mem_singleton.1 hz]; exact hord k hk⟩
    | false =>
      simp only [Bool.false_eq_true, if_false] at *
      unfold StrictAsc
      rw [List.reverse_append, List.reverse_singleton, List.singleton_append,
        List.pairwise_cons]
      rw [hKa, List.reverse_append, List.reverse_singleton, List.singleton_append] at h8
      exact ⟨fun k hk => hord k (List.mem_reverse.1 hk), (List.pairwise_cons.1 h8).2⟩
  · obtain ⟨k1, k2, k3⟩ := h9
    refine ⟨?_, ?_, ?_⟩
    · intro k hk
      rcases List.mem_append.1 hk with hk1 | hk1
      · exact List.mem_cons_of_mem _ (k1 k (hsub k hk1))
      · rw [List.mem_singleton.1 hk1]; exact List.mem_cons_self _ _
    · intro x hx
      rcases List.mem_cons.1 hx with hx1 | hx1
      · exact ⟨y, List.mem_append_right _ (List.mem_singleton_self _), by rw [hx1]; exact hswo.refl y⟩
      · obtain ⟨k, hk, hkx⟩ := k2 x hx1
        rw [hKa] at hk
        rcases List.mem_append.1 hk with hk1 | hk1
        · exact ⟨k, List.mem_append_left _ hk1, hkx⟩
        · rw [List.mem_singleton.1 hk1] at hkx
          exact ⟨y, List.mem_append_right _ (List.mem_singleton_self _),
            hswo.trans_eq _ _ _ hkx hc⟩
    · intro hopt k hk
      rcases List.mem_append.1 hk with hk1 | hk1
      · rw [class_of_cons_ne compare B y k (hne k hk1)]
        obtain ⟨q1, q2⟩ := k3 hopt k (hsub k hk1)
        refine ⟨q1, IsChain_frame m.next m1.next _ k ?_ q2⟩
        intro x hx
        apply hm1n
        rintro rfl
        apply hyB
        have hx2 : x ∈ class_of compare B k := by
          rw [head?_eq_some_cons _ _ q1]; exact hx
        exact (class_of_subset compare B k x hx2).1
      · rw [List.mem_singleton.1 hk1, class_of_cons_eq compare B y y (hswo.refl y),
          hswo.class_congr B hya]
        have ha : a ∈ K := by rw [hKa]; simp
        obtain ⟨q1, q2⟩ := k3 hopt a ha
        have hcl := head?_eq_some_cons _ _ q1
        simp only [List.head?_cons, List.tail_cons, true_and]
        rw [hcl]
        simp only [IsChain]
        refine ⟨hm1y hopt, IsChain_frame m.next m1.next _ a ?_ q2⟩
        intro x hx
        apply hm1n
        rintro rfl
        apply hyB
        have hx2 : x ∈ class_of compare B a := by rw [hcl]; exact hx
        exact (class_of_subset compare B a x hx2).1
  · intro i hi
    rw [hm1h, if_neg (by omega)]
    exact h10 i (by omega)
  · intro x hx
    have hxy : x ≠ y := fun h => hx (by rw [h]; exact List.mem_cons_self _ _)
    rw [hm1n x hxy]
    exact h12 x (fun h => hx (List.mem_cons_of_mem _ h))

theorem filterMap_id_singleton (o : Option Nat) : [o].filterMap id = o.toList := by
  cases o <;> rfl

theorem filterMap_id_eq_map_some (l : List (Option Nat)) (K : List Nat)
    (h : l.filterMap id = K) (hlen : K.length = l.length) : l = K.map some := by
  induction l generalizing K with
  | nil => simp at h; rw [h]; rfl
  | cons o l ih =>
    cases o with
    | none =>
      simp only [List.filterMap_cons, id_eq] at h
      have := List.length_filterMap_le id l
      rw [h] at this
      simp only [List.length_cons] at hlen
      omega
    | some x =>
      simp only [List.filterMap_cons, id_eq] at h
      rw [← h] at hlen ⊢
      simp only [List.length_cons, add_left_inj] at hlen
      rw [List.map_cons, ← ih _ rfl hlen]

/-- The invariant of the scanning loops holds before the first comparison. -/
theorem scan_init (compare : Nat → Nat → Int) (hswo : StrictWeakOrder compare)
    (option : SORT_DUP_OPTION) (m0 : SortMem) (start limit : Int) (A : List Nat)
    (hA : seg m0.high start (limit - 1) = A.map some)
    (hA0 : option = SORT_DUP_OPTION.SORT_DUP → ∀ x ∈ A, m0.next x = none) (inc : Bool) (hlim : start < limit) :
    ScanInv compare option m0 start A inc m0 start 0 := by
  obtain ⟨a, ha, haA⟩ := seg_eq_map_iff m0.high start (limit - 1) A hA start (le_refl _) (by omega)
  have e0 : (start - start).toNat = 0 := by omega
  rw [e0] at haA
  have hAc : A = a :: A.tail := by
    cases A with
    | nil => simp at haA
    | cons b A => simp at haA; simp [haA]
  have haA1 : a ∈ A := by rw [hAc]; exact List.mem_cons_self _ _
  refine ⟨[a], [a], A.tail, le_refl _, ?_, by simp, ?_, rfl, ?_, by simp, ?_, ?_,
    fun _ _ => rfl, rfl, fun _ _ => rfl⟩
  · simpa using hAc
  · rw [seg_snoc m0.high start start (le_refl _), seg_empty m0.high start (start - 1) (by omega),
      ha]
    rfl
  · rw [ha]; rfl
  · cases inc <;> simp [StrictAsc]
  · refine ⟨fun k hk => hk, fun x hx => ⟨a, List.mem_singleton_self _, ?_⟩, ?_⟩
    · rw [List.mem_singleton.1 hx]; exact hswo.refl a
    · intro ho k hk
      rw [List.mem_singleton.1 hk]
      have : class_of compare [a] a = [a] := by simp [class_of, hswo.refl a]
      rw [this]
      simp only [List.head?_cons, List.tail_cons, IsChain, true_and]
      exact hA0 ho a haA1

/-- One step of the scanning loops: the two cells compared hold records, and when
the comparison continues the run, `SORT_CHECK_DUPLICATE` keeps the invariant. -/
theorem scan_step (compare : Nat → Nat → Int) (hswo : StrictWeakOrder compare)
    (option : SORT_DUP_OPTION) (fuel : Nat) (m0 : SortMem) (start limit : Int) (A : List Nat)
    (hA : seg m0.high start (limit - 1) = A.map some) (hnd : A.Nodup)
    (hA0 : option = SORT_DUP_OPTION.SORT_DUP → ∀ x ∈ A, m0.next x = none)
    (inc : Bool) (m : SortMem) (stop d : Int)
    (hI : ScanInv compare option m0 start A inc m stop d) (hlim : stop + 1 < limit) :
    ∃ a y, m.high stop = some a ∧ m.high (stop + 1) = some y ∧
      ((if inc = true then compare a y ≤ 0 else compare a y ≥ 0) →
        ∃ m1 d1, SORT_CHECK_DUPLICATE fuel option (compare a y) m d stop (stop + 1) =
            some (m1, d1) ∧
          ScanInv compare option m0 start A inc m1 (stop + 1) d1) := by
  obtain ⟨K, B, R, h1, h2, h3, h4, h5, h6, h7, h8, h9, h10, h11, h12⟩ := hI
  obtain ⟨a, ha, -⟩ := seg_eq_map_iff m0.high start (limit - 1) A hA stop h1 (by omega)
  obtain ⟨y, hy, hyA⟩ := seg_eq_map_iff m0.high start (limit - 1) A hA (stop + 1) (by omega)
    (by omega)
  have hR : R = y :: R.tail := by
    have e : (stop + 1 - start).toNat = B.reverse.length := by
      rw [List.length_reverse]; omega
    rw [h2, e, List.getElem?_append_right (le_refl _), Nat.sub_self] at hyA
    cases R with
    | nil => simp at hyA
    | cons b R => simp at hyA; simp [hyA]
  have h2a : A = B.reverse ++ y :: R.tail := by rw [← hR]; exact h2
  have hyB : y ∉ B := by
    intro hy1
    rw [h2a] at hnd
    have := (List.nodup_append.1 hnd).2.2
    exact this (List.mem_reverse.2 hy1) (List.mem_cons_self _ _)
  have hyA1 : y ∈ A := by rw [h2a]; simp
  have hma : m.high stop = some a := by rw [h5, ha]
  have hmy : m.high (stop + 1) = some y := by rw [h10 _ (Or.inr (by omega)), hy]
  have hKa : K.getLast? = some a := by rw [h6, ha]
  refine ⟨a, y, hma, hmy, ?_⟩
  intro hcond
  by_cases hc : compare a y = 0
  · cases option with
    | SORT_DUP =>
      have hny : m.next y = none := by rw [h12 y hyB]; exact hA0 rfl y hyA1
      refine ⟨({ m with next := fun j => if j = y then some a else m.next j }).set Side.H stop none,
        d + 1, ?_, ?_⟩
      · simp only [SORT_CHECK_DUPLICATE, hc, if_true, hma, hmy, sort_append_fresh fuel m a y hny]
      · exact scan_dup compare hswo _ m0 start A inc m _ stop d a y K B R.tail h1 h2a h3 h4 hma
          hKa h7 h8 h9 h10 h11 h12 hy hyB hc (fun i => rfl) rfl
          (fun x hx => by
            show (if x = y then some a else m.next x) = m.next x
            rw [if_neg hx])
          (fun _ => by
            show (if y = y then some a else m.next y) = some a
            rw [if_pos rfl])
    | SORT_ELIM_DUP =>
      refine ⟨m.set Side.H stop none, d + 1, ?_, ?_⟩
      · simp only [SORT_CHECK_DUPLICATE, hc, if_true, reduceCtorEq, if_false]
      · exact scan_dup compare hswo _ m0 start A inc m _ stop d a y K B R.tail h1 h2a h3 h4 hma
          hKa h7 h8 h9 h10 h11 h12 hy hyB hc (fun i => rfl) rfl (fun x _ => rfl)
          (fun h => by cases h)
  · refine ⟨m, d, ?_, ?_⟩
    · simp only [SORT_CHECK_DUPLICATE, if_neg hc]
    · refine scan_no_dup compare hswo option m0 start A hA0 inc m stop d a y K B R.tail h1 h2a h3
        h4 hKa h7 h8 h9 h10 h11 h12 hy hyB ?_
      cases inc with
      | true =>
        simp only [if_true] at hcond ⊢
        omega
      | false =>
        simp only [Bool.false_eq_true, if_false] at hcond ⊢
        omega

/-- The scanning loops of `sort_run_find` return and keep the invariant. -/
theorem scan_loop_spec (compare : Nat → Nat → Int) (hswo : StrictWeakOrder compare)
    (option : SORT_DUP_OPTION) (fuel : Nat) (m0 : SortMem) (start limit : Int) (A : List Nat)
    (hA : seg m0.high start (limit - 1) = A.map some) (hnd : A.Nodup)
    (hA0 : option = SORT_DUP_OPTION.SORT_DUP → ∀ x ∈ A, m0.next x = none) (inc : Bool) :
    ∀ (n : Nat) (m : SortMem) (stop d : Int), stop < limit →
      ScanInv compare option m0 start A inc m stop d →
      ∃ sc, sort_run_find_scan compare fuel option limit inc n
          { mem := m, stop := stop, dup_num := d } = some sc ∧
        ScanInv compare option m0 start A inc sc.mem sc.stop sc.dup_num ∧
        stop ≤ sc.stop ∧ sc.stop < limit := by
  intro n
  induction n with
  | zero =>
    intro m stop d hlim hI
    exact ⟨_, rfl, hI, le_refl _, hlim⟩
  | succ n ih =>
    intro m stop d hlim hI
    by_cases h1 : stop + 1 < limit
    · obtain ⟨a, y, hma, hmy, hstep⟩ := scan_step compare hswo option fuel m0 start limit A hA hnd
        hA0 inc m stop d hI h1
      by_cases hcond : (if inc = true then compare a y ≤ 0 else compare a y ≥ 0)
      · obtain ⟨m1, d1, e1, hI1⟩ := hstep hcond
        obtain ⟨sc, e2, hI2, h2, h3⟩ := ih m1 (stop + 1) d1 h1 hI1
        refine ⟨sc, ?_, hI2, by omega, h3⟩
        simp only [sort_run_find_scan, if_pos h1, hma, hmy, compare_cells, if_pos hcond, e1]
        exact e2
      · refine ⟨{ mem := m, stop := stop, dup_num := d }, ?_, hI, le_refl _, hlim⟩
        simp only [sort_run_find_scan, if_pos h1, hma, hmy, compare_cells, if_neg hcond]
    · refine ⟨{ mem := m, stop := stop, dup_num := d }, ?_, hI, le_refl _, hlim⟩
      simp only [sort_run_find_scan, if_neg h1]

theorem Keeps_congr (compare : Nat → Nat → Int) (option : SORT_DUP_OPTION)
    (next : Nat → Option Nat) (B K K1 : List Nat) (h : ∀ k, k ∈ K1 ↔ k ∈ K)
    (hK : Keeps compare option next B K) : Keeps compare option next B K1 := by
  obtain ⟨k1, k2, k3⟩ := hK
  refine ⟨fun k hk => k1 k ((h k).1 hk), ?_, fun ho k hk => k3 ho k ((h k).1 hk)⟩
  intro x hx
  obtain ⟨k, hk, hkx⟩ := k2 x hx
  exact ⟨k, (h k).2 hk, hkx⟩

/-- After the scanning loops, the duplicate elimination and the flip of
`sort_run_find` leave a run that satisfies the invariant of a run. -/
theorem find_finish (compare : Nat → Nat → Int) (option : SORT_DUP_OPTION) (m0 : SortMem)
    (start : Int) (A : List Nat) (inc : Bool) (m : SortMem) (stop d : Int)
    (hs : ∃ a, m0.high stop = some a)
    (hI : ScanInv compare option m0 start A inc m stop d) (m1 m2 : SortMem)
    (hm1 : m1 = if d ≠ 0 then
        sort_run_find_shift start (stop - start).toNat m (stop - 1) (stop - 2) else m)
    (hm2 : m2 = if inc ≠ true then sort_run_flip Side.H m1 (start + d) stop else m1) :
    ∃ B R, A = B.reverse ++ R ∧
      RunInv compare option m2
        { low_high := Side.H, tree_depth := 1, start := start + d, stop := stop } start B ∧
      (∀ i, (i < start ∨ stop < i) → m2.high i = m0.high i) ∧ m2.low = m0.low ∧
      (∀ x, x ∉ B → m2.next x = m0.next x) := by
  obtain ⟨K, B, R, h1, h2, h3, h4, h5, h6, h7, h8, h9, h10, h11, h12⟩ := hI
  obtain ⟨a, ha⟩ := hs
  have hma : m.high stop = some a := by rw [h5, ha]
  have hKa : K.getLast? = some a := by rw [h6, ha]
  have hKne : 1 ≤ K.length := by
    cases K with
    | nil => simp at hKa
    | cons b K => simp
  have hKle : K.length ≤ (stop + 1 - start).toNat := by
    rw [← h4, ← seg_length m.high start stop]
    exact List.length_filterMap_le _ _
  have hd0 : 0 ≤ d := by omega
  -- the cells after the duplicate elimination
  have hshift : seg m1.high start stop = List.replicate d.toNat none ++ K.map some ∧
      (∀ i, (i < start ∨ stop < i) → m1.high i = m.high i) ∧ m1.low = m.low ∧
      m1.next = m.next := by
    by_cases hd : d = 0
    · rw [hm1, if_neg (by simpa using hd)]
      refine ⟨?_, fun _ _ => rfl, rfl, rfl⟩
      rw [hd]
      simp only [Int.toNat_zero, List.replicate_zero, List.nil_append]
      apply filterMap_id_eq_map_some _ _ h4
      rw [seg_length]; omega
    · rw [hm1, if_pos hd]
      have e1 : stop - 1 + 1 = stop := by omega
      obtain ⟨r1, r2, r3, r4⟩ := shift_spec start stop (stop - start).toNat m (stop - 1)
        (stop - 2) [a] (by omega) (by omega) (by omega) (by omega) (fun i h13 h14 => by omega)
        (by
          rw [e1, seg_snoc m.high stop stop (le_refl _), seg_empty m.high stop (stop - 1)
            (by omega), hma]
          rfl)
        (fun _ => by omega)
      refine ⟨?_, r2, r3, r4⟩
      have hK : (seg m.high start (stop - 2)).filterMap id ++ (m.high (stop - 1)).toList ++ [a]
          = K := by
        rw [← h4, seg_snoc m.high start stop h1, seg_snoc m.high start (stop - 1) (by omega), hma]
        have e2 : stop - 1 - 1 = stop - 2 := by omega
        rw [e2]
        simp only [List.filterMap_append, filterMap_id_singleton, Option.toList]
      rw [hK] at r1
      rw [r1]
      congr 2
      omega
  obtain ⟨s1, s2, s3, s4⟩ := hshift
  have hseg1 : seg m1.high (start + d) stop = K.map some := by
    have e := seg_append m1.high start (start + d - 1) stop (by omega) (by omega)
    have e1 : start + d - 1 + 1 = start + d := by omega
    rw [s1, e1] at e
    have hl : (List.replicate d.toNat (none : Option Nat)).length =
        (seg m1.high start (start + d - 1)).length := by
      rw [List.length_replicate, seg_length]; omega
    exact (List.append_inj e hl).2.symm
  have hlen : (B.length : Int) = stop + 1 - start := h3
  by_cases hinc : inc = true
  · rw [hm2, if_neg (by simpa using hinc)]
    rw [if_pos hinc] at h8
    refine ⟨B, R, h2, ⟨K, by simp only []; omega, by simp only []; omega, hlen, hseg1, h8, ?_⟩, ?_,
      by rw [s3, h11], ?_⟩
    · rw [s4]; exact h9
    · intro i hi
      rw [s2 i hi, h10 i hi]
    · intro x hx
      rw [s4, h12 x hx]
  · rw [hm2, if_pos hinc]
    rw [if_neg hinc] at h8
    obtain ⟨f1, f2, f3⟩ := sort_run_flip_spec Side.H m1 (start + d) stop
    refine ⟨B, R, h2, ⟨K.reverse, by simp only []; omega, by simp only []; omega, hlen, ?_, h8, ?_⟩,
      ?_, ?_, ?_⟩
    · show seg (fun i => (sort_run_flip Side.H m1 (start + d) stop).get Side.H i) (start + d) stop
        = K.reverse.map some
      rw [f1]
      show (seg m1.high (start + d) stop).reverse = _
      rw [hseg1, List.map_reverse]
    · rw [f3, s4]
      exact Keeps_congr compare option m.next B K K.reverse (fun k => List.mem_reverse) h9
    · intro i hi
      have := f2 Side.H i (fun _ => by omega)
      show (sort_run_flip Side.H m1 (start + d) stop).get Side.H i = _
      rw [this]
      show m1.high i = _
      rw [s2 i hi, h10 i hi]
    · have := f2 Side.L 0 (fun h => by cases h)
      have hl : ∀ i, (sort_run_flip Side.H m1 (start + d) stop).low i = m1.low i :=
        fun i => f2 Side.L i (fun h => by cases h)
      rw [← h11, ← s3]
      exact funext hl
    · intro x hx
      rw [f3, s4, h12 x hx]

/-- `sort_run_find` returns, pushes a run that satisfies the invariant of a run
for the cells it went through, and touches nothing else. -/
theorem sort_run_find_spec (compare : Nat → Nat → Int) (hswo : StrictWeakOrder compare)
    (option : SORT_DUP_OPTION) (fuel : Nat) (limit : Int) (s : SortState) (A : List Nat)
    (htop : s.top < limit) (hA : seg s.mem.high s.top (limit - 1) = A.map some)
    (hnd : A.Nodup) (hA0 : option = SORT_DUP_OPTION.SORT_DUP → ∀ x ∈ A, s.mem.next x = none) :
    ∃ s1 e B R, sort_run_find compare fuel option limit s = some s1 ∧
      s1.stack = e :: s.stack ∧ s1.top = e.stop + 1 ∧ s1.top ≤ limit ∧
      e.low_high = Side.H ∧ e.tree_depth = 1 ∧
      A = B.reverse ++ R ∧ RunInv compare option s1.mem e s.top B ∧
      (∀ i, (i < s.top ∨ e.stop < i) → s1.mem.high i = s.mem.high i) ∧
      s1.mem.low = s.mem.low ∧ (∀ x, x ∉ B → s1.mem.next x = s.mem.next x) := by
  have hI0 : ∀ inc, ScanInv compare option s.mem s.top A inc s.mem s.top 0 :=
    fun inc => scan_init compare hswo option s.mem s.top limit A hA hA0 inc htop
  by_cases hdeg : s.top ≥ limit - 1
  · have hstop : limit - 1 = s.top := by omega
    obtain ⟨a, ha, -⟩ := seg_eq_map_iff s.mem.high s.top (limit - 1) A hA s.top (le_refl _)
      (by omega)
    obtain ⟨B, R, q1, q2, q3, q4, q5⟩ := find_finish compare option s.mem s.top A true s.mem s.top
      0 ⟨a, ha⟩ (hI0 true) s.mem s.mem (by simp) (by simp)
    refine ⟨{ mem := s.mem,
              stack := { low_high := Side.H, tree_depth := 1, start := s.top, stop := limit - 1 } ::
                s.stack,
              top := limit },
      { low_high := Side.H, tree_depth := 1, start := s.top, stop := limit - 1 }, B, R,
      by simp only [sort_run_find, if_pos hdeg], rfl, by simp only []; omega,
      le_refl _, rfl, rfl, q1, ?_, ?_, q4, q5⟩
    · rw [hstop]
      simpa using q2
    · intro i _
      rfl
  · obtain ⟨a, ha, -⟩ := seg_eq_map_iff s.mem.high s.top (limit - 1) A hA s.top (le_refl _)
      (by omega)
    obtain ⟨y, hy, -⟩ := seg_eq_map_iff s.mem.high s.top (limit - 1) A hA (s.top + 1) (by omega)
      (by omega)
    obtain ⟨a1, y1, hma, hmy, hstep⟩ := scan_step compare hswo option fuel s.mem s.top limit A hA
      hnd hA0 (decide (¬ (compare a y > 0))) s.mem s.top 0 (hI0 _) (by omega)
    rw [ha] at hma
    rw [hy] at hmy
    obtain rfl : a = a1 := Option.some.inj hma
    obtain rfl : y = y1 := Option.some.inj hmy
    -- the first comparison and its `SORT_CHECK_DUPLICATE`
    have hfirst : ∃ m1 d1, (if compare a y > 0 then some (s.mem, (0 : Int))
          else SORT_CHECK_DUPLICATE fuel option (compare a y) s.mem 0 s.top (s.top + 1)) =
          some (m1, d1) ∧
        ScanInv compare option s.mem s.top A (decide (¬ (compare a y > 0))) m1 (s.top + 1) d1 := by
      by_cases hc : compare a y > 0
      · have hcond : (if decide (¬ (compare a y > 0)) = true then compare a y ≤ 0
            else compare a y ≥ 0) := by
          rw [if_neg (by simpa using hc)]; omega
        obtain ⟨m1, d1, e1, hI1⟩ := hstep hcond
        refine ⟨m1, d1, ?_, hI1⟩
        rw [if_pos hc, ← e1]
        simp only [SORT_CHECK_DUPLICATE, if_neg (show ¬ compare a y = 0 by omega)]
      · have hcond : (if decide (¬ (compare a y > 0)) = true then compare a y ≤ 0
            else compare a y ≥ 0) := by
          rw [if_pos (by simpa using hc)]; omega
        obtain ⟨m1, d1, e1, hI1⟩ := hstep hcond
        exact ⟨m1, d1, by rw [if_neg hc, e1], hI1⟩
    obtain ⟨m1, d1, e1, hI1⟩ := hfirst
    obtain ⟨sc, e2, hI2, hs1, hs2⟩ := scan_loop_spec compare hswo option fuel s.mem s.top limit A
      hA hnd hA0 (decide (¬ (compare a y > 0))) (limit - (s.top + 1)).toNat m1 (s.top + 1) d1
      (by omega) hI1
    obtain ⟨z, hz, -⟩ := seg_eq_map_iff s.mem.high s.top (limit - 1) A hA sc.stop (by omega)
      (by omega)
    obtain ⟨M1, hM1⟩ : ∃ M1, M1 = if sc.dup_num ≠ 0 then
        sort_run_find_shift s.top (sc.stop - s.top).toNat sc.mem (sc.stop - 1) (sc.stop - 2)
        else sc.mem := ⟨_, rfl⟩
    obtain ⟨M2, hM2⟩ : ∃ M2, M2 = if decide (¬ (compare a y > 0)) ≠ true then
        sort_run_flip Side.H M1 (s.top + sc.dup_num) sc.stop else M1 := ⟨_, rfl⟩
    obtain ⟨B, R, q1, q2, q3, q4, q5⟩ := find_finish compare option s.mem s.top A _ sc.mem sc.stop
      sc.dup_num ⟨z, hz⟩ hI2 M1 M2 hM1 hM2
    have etop : s.top + (sc.stop - s.top) = sc.stop := by omega
    refine ⟨{ mem := M2,
              stack := { low_high := Side.H, tree_depth := 1, start := s.top + sc.dup_num,
                         stop := s.top + (sc.stop - s.top) } :: s.stack,
              top := s.top + (sc.stop - s.top) + 1 },
      { low_high := Side.H, tree_depth := 1, start := s.top + sc.dup_num,
        stop := s.top + (sc.stop - s.top) }, B, R, ?_, rfl, rfl, ?_, rfl, rfl, q1, ?_, ?_, q4, q5⟩
    · rw [hM2, hM1]
      simp only [sort_run_find, if_neg hdeg, ha, hy, compare_cells, e1, e2]
    · simp only []
      omega
    · simp only []
      rw [etop]
      exact q2
    · simp only []
      rw [etop]
      exact q3

/-! ### Classes and their leaders under the merge of two blocks -/

theorem class_of_eq_nil_of_cover {compare : Nat → Nat → Int} (hswo : StrictWeakOrder compare)
    (B K : List Nat) (z : Nat) (cov : ∀ x ∈ B, ∃ k ∈ K, compare x k = 0)
    (h : ∀ k ∈ K, compare k z ≠ 0) : class_of compare B z = [] := by
  apply class_of_eq_nil
  intro x hx h0
  obtain ⟨k, hk, hxk⟩ := cov x hx
  exact h k hk (hswo.trans_eq _ _ _ (hswo.eq_symm hxk) h0)

theorem Led_left (compare : Nat → Nat → Int) (next : Nat → Option Nat) (Br Bl : List Nat)
    (k : Nat) (h : class_of compare Br k = []) (hl : Led compare next Bl k) :
    Led compare next (Br ++ Bl) k := by
  unfold Led at *
  rw [class_of_append, h, List.nil_append]
  exact hl

theorem Led_right (compare : Nat → Nat → Int) (next : Nat → Option Nat) (Br Bl : List Nat)
    (k : Nat) (h : class_of compare Bl k = []) (hr : Led compare next Br k) :
    Led compare next (Br ++ Bl) k := by
  unfold Led at *
  rw [class_of_append, h, List.append_nil]
  exact hr

theorem Led_frame (compare : Nat → Nat → Int) (next next1 : Nat → Option Nat) (B : List Nat)
    (k : Nat) (h : ∀ x ∈ class_of compare B k, next1 x = next x) (hl : Led compare next B k) :
    Led compare next1 B k := by
  obtain ⟨h1, h2⟩ := hl
  refine ⟨h1, IsChain_frame next next1 _ k ?_ h2⟩
  intro x hx
  apply h
  rw [head?_eq_some_cons _ _ h1]
  exact hx

/-- Linking the class of `l` in the left block behind the class of `r` in the
right block gives the class of `r` in the two blocks together. -/
theorem Led_dup {compare : Nat → Nat → Int} (hswo : StrictWeakOrder compare)
    (next : Nat → Option Nat) (Br Bl : List Nat) (l r : Nat) (hlr : compare l r = 0)
    (hnd : (Br ++ Bl).Nodup) (hl : Led compare next Bl l) (hr : Led compare next Br r) :
    Led compare (fun j => if j = (class_of compare Br r).tail.getLastD r then some l else next j)
      (Br ++ Bl) r := by
  obtain ⟨l1, l2⟩ := hl
  obtain ⟨r1, r2⟩ := hr
  have hcl := head?_eq_some_cons _ _ l1
  have hcr := head?_eq_some_cons _ _ r1
  have hrl : compare r l = 0 := hswo.eq_symm hlr
  have hcls : class_of compare (Br ++ Bl) r =
      r :: ((class_of compare Br r).tail ++ l :: (class_of compare Bl l).tail) := by
    rw [class_of_append, hswo.class_congr Bl hrl]
    conv_lhs => rw [hcr, hcl]
    rfl
  have hndr : (class_of compare Br r).Nodup :=
    (List.nodup_append.1 hnd).1.sublist (List.filter_sublist _)
  unfold Led
  rw [hcls]
  refine ⟨rfl, ?_⟩
  simp only [List.tail_cons]
  apply IsChain_append next l _ _ r r2 l2
  · rw [← hcr]; exact hndr
  · intro x hx hx2
    rw [← hcl] at hx
    rw [← hcr] at hx2
    exact (List.nodup_append.1 hnd).2.2 (class_of_subset compare Br r x hx2).1
      (class_of_subset compare Bl l x hx).1

theorem sort_append_chain (fuel : Nat) (m : SortMem) (a r : Nat) (lb : List Nat)
    (hc : IsChain m.next r lb) (hlen : lb.length ≤ fuel) :
    sort_append fuel m (some a) (some r) =
      some { m with next := fun j => if j = lb.getLastD r then some a else m.next j } := by
  have h := sort_append_last_spec m.next lb fuel r hc hlen
  simp only [sort_append, h]

theorem class_of_length_le (compare : Nat → Nat → Int) (B : List Nat) (k : Nat) :
    (class_of compare B k).length ≤ B.length :=
  List.length_filter_le _ _

theorem seg_split_cell (buf : Int → Option Nat) (a b : Int) (X : List Nat) (l : Nat)
    (Y : List Nat) (h : seg buf a b = (X ++ l :: Y).map some) :
    buf (a + (X.length : Int)) = some l := by
  have hlen := congrArg List.length h
  rw [seg_length, List.length_map, List.length_append, List.length_cons] at hlen
  obtain ⟨x, hx, hxl⟩ := seg_eq_map_iff buf a b (X ++ l :: Y) h (a + (X.length : Int))
    (by omega) (by omega)
  have e : (a + (X.length : Int) - a).toNat = X.length := by omega
  rw [e, List.getElem?_append_right (le_refl _), Nat.sub_self] at hxl
  simp only [List.getElem?_cons_zero, Option.some.injEq] at hxl
  rw [hx, hxl]

/-! ### The copy loops of `sort_run_merge` -/

theorem SortMem.get_next_update (m : SortMem) (f : Nat → Option Nat) (t : Side) (i : Int) :
    SortMem.get { m with next := f } t i = m.get t i := by
  cases t <;> rfl

theorem merge_copy_spec (from_side to_side : Side) (src_start : Int) :
    ∀ (n : Nat) (m : SortMem) (src_stop dest_ptr : Int),
      (src_stop - src_start + 1).toNat ≤ n → src_start - 1 ≤ src_stop →
      (from_side = to_side → src_stop ≤ dest_ptr) →
      (sort_run_merge_copy from_side to_side src_start n m src_stop dest_ptr).2 =
        dest_ptr - (src_stop - src_start + 1) ∧
      (∀ j, 0 ≤ j → j ≤ src_stop - src_start →
        (sort_run_merge_copy from_side to_side src_start n m src_stop dest_ptr).1.get to_side
          (dest_ptr - j) = m.get from_side (src_stop - j)) ∧
      (∀ t i, (t = to_side → i ≤ dest_ptr - (src_stop - src_start + 1) ∨ dest_ptr < i) →
        (sort_run_merge_copy from_side to_side src_start n m src_stop dest_ptr).1.get t i =
          m.get t i) ∧
      (sort_run_merge_copy from_side to_side src_start n m src_stop dest_ptr).1.next = m.next := by
  intro n
  induction n with
  | zero =>
    intro m src_stop dest_ptr hf h1 h2
    have e : sort_run_merge_copy from_side to_side src_start 0 m src_stop dest_ptr =
        (m, dest_ptr) := rfl
    rw [e]
    exact ⟨by simp only []; omega, fun j h3 h4 => by omega, fun _ _ _ => rfl, rfl⟩
  | succ n ih =>
    intro m src_stop dest_ptr hf h1 h2
    by_cases hge : src_stop ≥ src_start
    · have e : sort_run_merge_copy from_side to_side src_start (n + 1) m src_stop dest_ptr =
          sort_run_merge_copy from_side to_side src_start n
            (m.set to_side dest_ptr (m.get from_side src_stop)) (src_stop - 1) (dest_ptr - 1) := by
        simp only [sort_run_merge_copy, if_pos hge]
      rw [e]
      obtain ⟨q1, q2, q3, q4⟩ := ih (m.set to_side dest_ptr (m.get from_side src_stop))
        (src_stop - 1) (dest_ptr - 1) (by omega) (by omega) (fun h => by have := h2 h; omega)
      refine ⟨by rw [q1]; omega, ?_, ?_, by rw [q4, SortMem.set_next]⟩
      · intro j h3 h4
        by_cases hj : j = 0
        · subst hj
          rw [sub_zero, sub_zero, q3 to_side dest_ptr (fun _ => Or.inr (by omega)),
            SortMem.get_set_same]
        · have := q2 (j - 1) (by omega) (by omega)
          have e1 : dest_ptr - 1 - (j - 1) = dest_ptr - j := by omega
          have e2 : src_stop - 1 - (j - 1) = src_stop - j := by omega
          rw [e1, e2] at this
          rw [this, SortMem.get_set_of_ne _ _ _ _ _ _ (fun h => by have := h2 h; omega)]
      · intro t i hti
        rw [q3 t i (fun h => by have := hti h; omega),
          SortMem.get_set_of_ne _ _ _ _ _ _ (fun h => by have := hti h; omega)]
    · have e : sort_run_merge_copy from_side to_side src_start (n + 1) m src_stop dest_ptr =
          (m, dest_ptr) := by
        simp only [sort_run_merge_copy, if_neg hge]
      rw [e]
      exact ⟨by simp only []; omega, fun j h3 h4 => by omega, fun _ _ _ => rfl, rfl⟩

/-- The copy loop moves the run `K` in front of the cell `dest_ptr + 1`. -/
theorem merge_copy_seg (from_side to_side : Side) (src_start src_stop dest_ptr : Int)
    (m : SortMem) (K : List Nat)
    (hK : seg (fun i => m.get from_side i) src_start src_stop = K.map some)
    (h1 : src_start - 1 ≤ src_stop) (h2 : from_side = to_side → src_stop ≤ dest_ptr) :
    seg (fun i => (sort_run_merge_copy from_side to_side src_start
        (src_stop - src_start + 1).toNat m src_stop dest_ptr).1.get to_side i)
      (dest_ptr - (K.length : Int) + 1) dest_ptr = K.map some := by
  obtain ⟨q1, q2, q3, q4⟩ := merge_copy_spec from_side to_side src_start
    (src_stop - src_start + 1).toNat m src_stop dest_ptr (le_refl _) h1 h2
  have hlen := congrArg List.length hK
  rw [seg_length, List.length_map] at hlen
  rw [← hK]
  apply List.ext_getElem
  · rw [seg_length, seg_length]; omega
  · intro k hk1 hk2
    rw [seg_getElem, seg_getElem]
    rw [seg_length] at hk1 hk2
    have := q2 (src_stop - src_start - k) (by omega) (by omega)
    have e1 : dest_ptr - (src_stop - src_start - (k : Int)) =
        dest_ptr - (K.length : Int) + 1 + (k : Int) := by omega
    have e2 : src_stop - (src_stop - src_start - (k : Int)) = src_start + (k : Int) := by omega
    rw [e1, e2] at this
    exact this

/-! ### The merging loop of `sort_run_merge` -/

theorem StrictAsc_snoc_lt (compare : Nat → Nat → Int) (X : List Nat) (l : Nat) (Y : List Nat)
    (h : StrictAsc compare (X ++ [l] ++ Y)) :
    (∀ x ∈ X, compare x l < 0) ∧ (∀ z ∈ Y, compare l z < 0) ∧
      (∀ x ∈ X, ∀ z ∈ Y, compare x z < 0) := by
  unfold StrictAsc at h
  rw [List.pairwise_append] at h
  obtain ⟨h1, -, h3⟩ := h
  rw [List.pairwise_append] at h1
  refine ⟨fun x hx => h1.2.2 x hx l (List.mem_singleton_self _),
    fun z hz => h3 l (by simp) z hz, fun x hx z hz => h3 x (by simp [hx]) z hz⟩

/-- One pass of the merging loop keeps its invariant and consumes a record. -/
theorem merge_loop_step (compare : Nat → Nat → Int) (hswo : StrictWeakOrder compare)
    (option : SORT_DUP_OPTION) (fuel : Nat) (m0 : SortMem) (lside rside dside : Side)
    (ls rs re : Int) (Kl Kr Bl Br : List Nat)
    (hds : dside ≠ rside) (hpos : ls + (Kl.length : Int) ≤ rs)
    (hre : re = rs + (Kr.length : Int) - 1)
    (hKl : seg (fun i => m0.get lside i) ls (ls + (Kl.length : Int) - 1) = Kl.map some)
    (hKr : seg (fun i => m0.get rside i) rs re = Kr.map some)
    (hAl : StrictAsc compare Kl) (hAr : StrictAsc compare Kr)
    (hcl : ∀ x ∈ Bl, ∃ k ∈ Kl, compare x k = 0) (hcr : ∀ x ∈ Br, ∃ k ∈ Kr, compare x k = 0)
    (hnd : (Br ++ Bl).Nodup) (hfuel : (Br ++ Bl).length ≤ fuel)
    (st : MergeState) (hI : MergeInv compare option m0 dside ls rs re Kl Kr Bl Br st)
    (hgo : st.left_stop ≥ ls ∧ st.right_stop ≥ rs) :
    ∃ st1, (∀ n, sort_run_merge_loop compare fuel option lside rside dside ls rs (n + 1) st =
        sort_run_merge_loop compare fuel option lside rside dside ls rs n st1) ∧
      MergeInv compare option m0 dside ls rs re Kl Kr Bl Br st1 ∧
      (st1.left_stop - ls + 1).toNat + (st1.right_stop - rs + 1).toNat <
        (st.left_stop - ls + 1).toNat + (st.right_stop - rs + 1).toNat := by
  obtain ⟨Kl1, Lc, Kr1, Rc, M, e1, e2, e3, e4, e5, e6, e7, e8, e9, e10, e11, e12, e13, e14, e15⟩ :=
    hI
  obtain ⟨Kl2, l, rfl⟩ : ∃ Kl2 l, Kl1 = Kl2 ++ [l] := by
    rcases List.eq_nil_or_concat Kl1 with h | ⟨L, b, h⟩
    · rw [h] at e3; simp at e3; omega
    · exact ⟨L, b, by rw [h, List.concat_eq_append]⟩
  obtain ⟨Kr2, r, rfl⟩ : ∃ Kr2 r, Kr1 = Kr2 ++ [r] := by
    rcases List.eq_nil_or_concat Kr1 with h | ⟨L, b, h⟩
    · rw [h] at e4; simp at e4; omega
    · exact ⟨L, b, by rw [h, List.concat_eq_append]⟩
  have hlenl : (Kl.length : Int) = Kl2.length + 1 + Lc.length := by rw [e1]; simp; omega
  have hlenr : (Kr.length : Int) = Kr2.length + 1 + Rc.length := by rw [e2]; simp; omega
  simp only [List.length_append, List.length_singleton, Nat.cast_add, Nat.cast_one] at e3 e4
  -- the two cells compared
  have hcell_l : st.mem.get lside st.left_stop = some l := by
    rw [e9 lside _ (fun _ => Or.inl (by omega))]
    have := seg_split_cell (fun i => m0.get lside i) ls _ Kl2 l Lc (by rw [hKl, e1]; simp)
    have e : ls + (Kl2.length : Int) = st.left_stop := by omega
    rw [e] at this
    exact this
  have hcell_r : st.mem.get rside st.right_stop = some r := by
    rw [e9 rside _ (fun h => absurd h.symm hds)]
    have := seg_split_cell (fun i => m0.get rside i) rs _ Kr2 r Rc (by rw [hKr, e2]; simp)
    have e : rs + (Kr2.length : Int) = st.right_stop := by omega
    rw [e] at this
    exact this
  -- what the order of the runs gives
  rw [e1] at hAl
  rw [e2] at hAr
  obtain ⟨al1, al2, al3⟩ := StrictAsc_snoc_lt compare Kl2 l Lc hAl
  obtain ⟨ar1, ar2, ar3⟩ := StrictAsc_snoc_lt compare Kr2 r Rc hAr
  have hl_lt : ∀ z, z ∈ Lc ∨ z ∈ Rc → compare l z < 0 :=
    fun z hz => e11 l (Or.inl (by simp)) z hz
  have hr_lt : ∀ z, z ∈ Lc ∨ z ∈ Rc → compare r z < 0 :=
    fun z hz => e11 r (Or.inr (by simp)) z hz
  -- writing the record `c` into the destination
  have hwrite : ∀ (m1 : SortMem) (c : Nat), (∀ t i, m1.get t i = st.mem.get t i) →
      seg (fun i => (m1.set dside st.dest_ptr (some c)).get dside i) (st.dest_ptr - 1 + 1) re =
        (c :: M).map some ∧
      (∀ t i, (t = dside → i ≤ st.dest_ptr - 1 ∨ re < i) →
        (m1.set dside st.dest_ptr (some c)).get t i = m0.get t i) := by
    intro m1 c hm1
    constructor
    · have e : st.dest_ptr - 1 + 1 = st.dest_ptr := by omega
      rw [e, seg_cons _ st.dest_ptr re (by omega)]
      simp only [SortMem.get_set_same, List.map_cons]
      congr 1
      rw [← e8]
      apply seg_congr
      intro i h1 h2
      show (m1.set dside st.dest_ptr (some c)).get dside i = st.mem.get dside i
      rw [SortMem.get_set_of_ne _ _ _ _ _ _ (fun _ => by omega), hm1]
    · intro t i hti
      rw [SortMem.get_set_of_ne _ _ _ _ _ _ (fun h => by have := hti h; omega), hm1,
        e9 t i (fun h => by have := hti h; omega)]
  have hMlt_l : ∀ z ∈ M, compare l z < 0 := fun z hz => hl_lt z (e12 z hz)
  have hMlt_r : ∀ z ∈ M, compare r z < 0 := fun z hz => hr_lt z (e12 z hz)
  rcases lt_trichotomy (compare l r) 0 with hc | hc | hc
  · -- the right record is the greater: it goes to the destination
    have hne : ¬ compare l r = 0 := by omega
    have hng : ¬ compare l r > 0 := by omega
    obtain ⟨w1, w2⟩ := hwrite st.mem r (fun _ _ => rfl)
    refine ⟨{ st with mem := st.mem.set dside st.dest_ptr (st.mem.get rside st.right_stop),
                      right_stop := st.right_stop - 1, dest_ptr := st.dest_ptr - 1 }, ?_, ?_, ?_⟩
    · intro n
      simp only [sort_run_merge_loop, if_pos hgo, hcell_l, hcell_r, compare_cells, if_neg hne,
        if_neg hng]
    · rw [hcell_r]
      unfold MergeInv
      simp only [SortMem.set_next]
      refine ⟨Kl2 ++ [l], Lc, Kr2, r :: Rc, r :: M, e1, by rw [e2]; simp, by simp; omega,
        by omega, by simp; omega, by simp; omega, e7, w1, w2, ?_, ?_, ?_, ?_, ?_,
        e15⟩
      · exact List.pairwise_cons.2 ⟨hMlt_r, e10⟩
      · intro x hx z hz
        have hxr : compare x r < 0 := by
          rcases hx with hx | hx
          · rcases List.mem_append.1 hx with hx1 | hx1
            · exact hswo.trans_lt _ _ _ (al1 x hx1) hc
            · rw [List.mem_singleton.1 hx1]; exact hc
          · exact ar1 x hx
        rcases hz with hz | hz
        · exact e11 x (hx.imp id (fun h => List.mem_append_left _ h)) z (Or.inl hz)
        · rcases List.mem_cons.1 hz with hz1 | hz1
          · rw [hz1]; exact hxr
          · exact e11 x (hx.imp id (fun h => List.mem_append_left _ h)) z (Or.inr hz1)
      · intro z hz
        rcases List.mem_cons.1 hz with hz1 | hz1
        · exact Or.inr (by rw [hz1]; exact List.mem_cons_self _ _)
        · exact (e12 z hz1).imp id (fun h => List.mem_cons_of_mem _ h)
      · intro x hx
        have hold : x ∈ Lc ∨ x ∈ Rc → ∃ z ∈ r :: M, compare x z = 0 := by
          intro h
          obtain ⟨z, hz, hxz⟩ := e13 x h
          exact ⟨z, List.mem_cons_of_mem _ hz, hxz⟩
        rcases hx with hx | hx
        · exact hold (Or.inl hx)
        · rcases List.mem_cons.1 hx with hx1 | hx1
          · exact ⟨r, List.mem_cons_self _ _, by rw [hx1]; exact hswo.refl r⟩
          · exact hold (Or.inr hx1)
      · intro ho
        obtain ⟨d1, d2, d3⟩ := e14 ho
        refine ⟨?_, d2, fun k hk => d3 k (List.mem_append_left _ hk)⟩
        intro z hz
        rcases List.mem_cons.1 hz with hz1 | hz1
        · rw [hz1]
          apply Led_right compare _ Br Bl r _ (d3 r (by simp))
          apply class_of_eq_nil_of_cover hswo Bl Kl r hcl
          intro k hk
          rw [e1] at hk
          rcases List.mem_append.1 hk with hk1 | hk1
          · rcases List.mem_append.1 hk1 with hk2 | hk2
            · have := hswo.trans_lt _ _ _ (al1 k hk2) hc; omega
            · rw [List.mem_singleton.1 hk2]; omega
          · have := hr_lt k (Or.inl hk1)
            have := (hswo.symm r k).1 this
            omega
        · exact d1 z hz1
    · simp only []
      omega
  · -- equal records: the right one is kept, the left one is linked behind it
    have hrl : compare r l = 0 := hswo.eq_symm hc
    -- the memory after `sort_append`
    have happ : ∃ m1 : SortMem,
        (if option = SORT_DUP_OPTION.SORT_DUP then
          sort_append fuel st.mem (st.mem.get lside st.left_stop)
            (st.mem.get rside st.right_stop) else some st.mem) = some m1 ∧
        (∀ t i, m1.get t i = st.mem.get t i) ∧
        (∀ x, m1.next x ≠ st.mem.next x → x ∈ class_of compare Br r) ∧
        (option = SORT_DUP_OPTION.SORT_DUP →
          Led compare m1.next (Br ++ Bl) r) := by
      by_cases ho : option = SORT_DUP_OPTION.SORT_DUP
      · obtain ⟨d1, d2, d3⟩ := e14 ho
        have hLl := d2 l (by simp)
        have hLr := d3 r (by simp)
        have hmem : (class_of compare Br r).tail.getLastD r ∈ class_of compare Br r := by
          have := getLastD_mem (class_of compare Br r).tail r
          rw [← head?_eq_some_cons _ _ hLr.1] at this
          exact this
        refine ⟨{ st.mem with next := fun j =>
            if j = (class_of compare Br r).tail.getLastD r then some l else st.mem.next j },
          ?_, fun t i => SortMem.get_next_update _ _ t i, ?_, fun _ => ?_⟩
        · rw [if_pos ho, hcell_l, hcell_r]
          apply sort_append_chain fuel st.mem l r _ hLr.2
          have h1 := class_of_length_le compare Br r
          have h2 : (class_of compare Br r).tail.length ≤ (class_of compare Br r).length := by
            simp
          have h3 : Br.length ≤ (Br ++ Bl).length := by simp
          omega
        · intro x hx
          by_cases hxl : x = (class_of compare Br r).tail.getLastD r
          · rw [hxl]; exact hmem
          · exfalso; apply hx
            show (if x = _ then some l else st.mem.next x) = st.mem.next x
            rw [if_neg hxl]
        · exact Led_dup hswo st.mem.next Br Bl l r hc hnd hLl hLr
      · exact ⟨st.mem, by rw [if_neg ho], fun _ _ => rfl, fun x hx => absurd rfl hx,
          fun h => absurd h ho⟩
    obtain ⟨m1, a1, a2, a3, a4⟩ := happ
    obtain ⟨w1, w2⟩ := hwrite m1 r a2
    have hm1r : m1.get rside st.right_stop = some r := by rw [a2, hcell_r]
    -- a record whose `next` changed compares equal to `r` and lies in the right block
    have hframe : ∀ (B : List Nat) (k : Nat), compare k r ≠ 0 →
        Led compare st.mem.next B k → Led compare m1.next B k := by
      intro B k hk hL
      apply Led_frame compare st.mem.next m1.next B k _ hL
      intro x hx
      by_contra hne
      have h1 := (class_of_subset compare Br r x (a3 x hne)).2
      have h2 := (class_of_subset compare B k x hx).2
      exact hk (hswo.trans_eq _ _ _ (hswo.eq_symm h2) h1)
    refine ⟨{ mem := m1.set dside st.dest_ptr (m1.get rside st.right_stop),
              left_stop := st.left_stop - 1, right_stop := st.right_stop - 1,
              dest_ptr := st.dest_ptr - 1, dup_num := st.dup_num + 1 }, ?_, ?_, ?_⟩
    · intro n
      simp only [sort_run_merge_loop, if_pos hgo, hcell_l, hcell_r, compare_cells, if_pos hc]
      rw [hcell_l, hcell_r] at a1
      simp only [a1]
    · rw [hm1r]
      unfold MergeInv
      simp only [SortMem.set_next]
      refine ⟨Kl2, l :: Lc, Kr2, r :: Rc, r :: M, by rw [e1]; simp, by rw [e2]; simp, by omega,
        by omega, by simp; omega, by simp; omega, by omega, w1, w2, ?_, ?_, ?_, ?_, ?_, ?_⟩
      · exact List.pairwise_cons.2 ⟨hMlt_r, e10⟩
      · intro x hx z hz
        have hxr : compare x r < 0 := by
          rcases hx with hx | hx
          · exact hswo.lt_of_lt_of_eq (al1 x hx) hc
          · exact ar1 x hx
        have hxl : compare x l < 0 := hswo.lt_of_lt_of_eq hxr hrl
        have hx1 : x ∈ Kl2 ++ [l] ∨ x ∈ Kr2 ++ [r] :=
          hx.imp (fun h => List.mem_append_left _ h) (fun h => List.mem_append_left _ h)
        rcases hz with hz | hz
        · rcases List.mem_cons.1 hz with hz1 | hz1
          · rw [hz1]; exact hxl
          · exact e11 x hx1 z (Or.inl hz1)
        · rcases List.mem_cons.1 hz with hz1 | hz1
          · rw [hz1]; exact hxr
          · exact e11 x hx1 z (Or.inr hz1)
      · intro z hz
        rcases List.mem_cons.1 hz with hz1 | hz1
        · exact Or.inr (by rw [hz1]; exact List.mem_cons_self _ _)
        · exact (e12 z hz1).imp (fun h => List.mem_cons_of_mem _ h)
            (fun h => List.mem_cons_of_mem _ h)
      · intro x hx
        have hold : x ∈ Lc ∨ x ∈ Rc → ∃ z ∈ r :: M, compare x z = 0 := by
          intro h
          obtain ⟨z, hz, hxz⟩ := e13 x h
          exact ⟨z, List.mem_cons_of_mem _ hz, hxz⟩
        rcases hx with hx | hx
        · rcases List.mem_cons.1 hx with hx1 | hx1
          · exact ⟨r, List.mem_cons_self _ _, by rw [hx1]; exact hc⟩
          · exact hold (Or.inl hx1)
        · rcases List.mem_cons.1 hx with hx1 | hx1
          · exact ⟨r, List.mem_cons_self _ _, by rw [hx1]; exact hswo.refl r⟩
          · exact hold (Or.inr hx1)
      · intro ho
        obtain ⟨d1, d2, d3⟩ := e14 ho
        refine ⟨?_, ?_, ?_⟩
        · intro z hz
          rcases List.mem_cons.1 hz with hz1 | hz1
          · rw [hz1]; exact a4 ho
          · apply hframe _ z _ (d1 z hz1)
            have := hMlt_r z hz1
            have := (hswo.symm r z).1 this
            omega
        · intro k hk
          apply hframe _ k _ (d2 k (List.mem_append_left _ hk))
          have := hswo.lt_of_lt_of_eq (al1 k hk) hc
          omega
        · intro k hk
          apply hframe _ k _ (d3 k (List.mem_append_left _ hk))
          have := ar1 k hk
          omega
      · intro x hx
        rw [← e15 x hx]
        by_contra hne
        exact hx (List.mem_append_left _ (class_of_subset compare Br r x (a3 x hne)).1)
    · simp only []
      omega
  · -- the left record is the greater: it goes to the destination
    have hne : ¬ compare l r = 0 := by omega
    have hrl : compare r l < 0 := (hswo.gt_iff l r).1 hc
    obtain ⟨w1, w2⟩ := hwrite st.mem l (fun _ _ => rfl)
    refine ⟨{ st with mem := st.mem.set dside st.dest_ptr (st.mem.get lside st.left_stop),
                      left_stop := st.left_stop - 1, dest_ptr := st.dest_ptr - 1 }, ?_, ?_, ?_⟩
    · intro n
      simp only [sort_run_merge_loop, if_pos hgo, hcell_l, hcell_r, compare_cells, if_neg hne,
        if_pos hc]
    · rw [hcell_l]
      unfold MergeInv
      simp only [SortMem.set_next]
      refine ⟨Kl2, l :: Lc, Kr2 ++ [r], Rc, l :: M, by rw [e1]; simp, e2, by omega,
        by simp; omega, by simp; omega, by simp; omega, e7, w1, w2, ?_, ?_, ?_, ?_, ?_,
        e15⟩
      · exact List.pairwise_cons.2 ⟨hMlt_l, e10⟩
      · intro x hx z hz
        have hxl : compare x l < 0 := by
          rcases hx with hx | hx
          · exact al1 x hx
          · rcases List.mem_append.1 hx with hx1 | hx1
            · exact hswo.trans_lt _ _ _ (ar1 x hx1) hrl
            · rw [List.mem_singleton.1 hx1]; exact hrl
        rcases hz with hz | hz
        · rcases List.mem_cons.1 hz with hz1 | hz1
          · rw [hz1]; exact hxl
          · exact e11 x (hx.imp (fun h => List.mem_append_left _ h) id) z (Or.inl hz1)
        · exact e11 x (hx.imp (fun h => List.mem_append_left _ h) id) z (Or.inr hz)
      · intro z hz
        rcases List.mem_cons.1 hz with hz1 | hz1
        · exact Or.inl (by rw [hz1]; exact List.mem_cons_self _ _)
        · exact (e12 z hz1).imp (fun h => List.mem_cons_of_mem _ h) id
      · intro x hx
        have hold : x ∈ Lc ∨ x ∈ Rc → ∃ z ∈ l :: M, compare x z = 0 := by
          intro h
          obtain ⟨z, hz, hxz⟩ := e13 x h
          exact ⟨z, List.mem_cons_of_mem _ hz, hxz⟩
        rcases hx with hx | hx
        · rcases List.mem_cons.1 hx with hx1 | hx1
          · exact ⟨l, List.mem_cons_self _ _, by rw [hx1]; exact hswo.refl l⟩
          · exact hold (Or.inl hx1)
        · exact hold (Or.inr hx)
      · intro ho
        obtain ⟨d1, d2, d3⟩ := e14 ho
        refine ⟨?_, fun k hk => d2 k (List.mem_append_left _ hk), d3⟩
        intro z hz
        rcases List.mem_cons.1 hz with hz1 | hz1
        · rw [hz1]
          apply Led_left compare _ Br Bl l _ (d2 l (by simp))
          apply class_of_eq_nil_of_cover hswo Br Kr l hcr
          intro k hk
          rw [e2] at hk
          rcases List.mem_append.1 hk with hk1 | hk1
          · rcases List.mem_append.1 hk1 with hk2 | hk2
            · have := hswo.trans_lt _ _ _ (ar1 k hk2) hrl; omega
            · rw [List.mem_singleton.1 hk2]; omega
          · have := hl_lt k (Or.inr hk1)
            have := (hswo.symm l k).1 this
            omega
        · exact d1 z hz1
    · simp only []
      omega

/-- The merging loop of `sort_run_merge` returns, keeps its invariant, and has
used up one of the two runs. -/
theorem merge_loop_spec (compare : Nat → Nat → Int) (hswo : StrictWeakOrder compare)
    (option : SORT_DUP_OPTION) (fuel : Nat) (m0 : SortMem) (lside rside dside : Side)
    (ls rs re : Int) (Kl Kr Bl Br : List Nat)
    (hds : dside ≠ rside) (hpos : ls + (Kl.length : Int) ≤ rs)
    (hre : re = rs + (Kr.length : Int) - 1)
    (hKl : seg (fun i => m0.get lside i) ls (ls + (Kl.length : Int) - 1) = Kl.map some)
    (hKr : seg (fun i => m0.get rside i) rs re = Kr.map some)
    (hAl : StrictAsc compare Kl) (hAr : StrictAsc compare Kr)
    (hcl : ∀ x ∈ Bl, ∃ k ∈ Kl, compare x k = 0) (hcr : ∀ x ∈ Br, ∃ k ∈ Kr, compare x k = 0)
    (hnd : (Br ++ Bl).Nodup) (hfuel : (Br ++ Bl).length ≤ fuel) :
    ∀ (n : Nat) (st : MergeState),
      MergeInv compare option m0 dside ls rs re Kl Kr Bl Br st →
      (st.left_stop - ls + 1).toNat + (st.right_stop - rs + 1).toNat ≤ n →
      ∃ st1, sort_run_merge_loop compare fuel option lside rside dside ls rs n st = some st1 ∧
        MergeInv compare option m0 dside ls rs re Kl Kr Bl Br st1 ∧
        (st1.left_stop < ls ∨ st1.right_stop < rs) := by
  intro n
  induction n with
  | zero =>
    intro st hI hn
    exact ⟨st, rfl, hI, by omega⟩
  | succ n ih =>
    intro st hI hn
    by_cases hgo : st.left_stop ≥ ls ∧ st.right_stop ≥ rs
    · obtain ⟨st1, h1, h2, h3⟩ := merge_loop_step compare hswo option fuel m0 lside rside dside ls
        rs re Kl Kr Bl Br hds hpos hre hKl hKr hAl hAr hcl hcr hnd hfuel st hI hgo
      rw [h1 n]
      exact ih st1 h2 (by omega)
    · refine ⟨st, by simp only [sort_run_merge_loop, if_neg hgo], hI, ?_⟩
      rw [not_and_or] at hgo
      omega

theorem seg_map_split (buf : Int → Option Nat) (a b : Int) (X Y : List Nat) (hab : a - 1 ≤ b)
    (h : seg buf a b = (X ++ Y).map some) :
    seg buf a (a + (X.length : Int) - 1) = X.map some ∧
      seg buf (a + (X.length : Int)) b = Y.map some := by
  have hlen := congrArg List.length h
  rw [seg_length, List.length_map, List.length_append] at hlen
  have e := seg_append buf a (a + (X.length : Int) - 1) b (by omega) (by omega)
  have e1 : a + (X.length : Int) - 1 + 1 = a + (X.length : Int) := by omega
  rw [h, e1, List.map_append] at e
  have hl : (X.map some).length = (seg buf a (a + (X.length : Int) - 1)).length := by
    rw [List.length_map, seg_length]; omega
  obtain ⟨h1, h2⟩ := List.append_inj e hl
  exact ⟨h1.symm, h2.symm⟩

/-- The runs of two blocks, the left one below the right one, concatenate to a
run of the two blocks together. -/
theorem Keeps_concat (compare : Nat → Nat → Int) (hswo : StrictWeakOrder compare)
    (option : SORT_DUP_OPTION) (next : Nat → Option Nat) (Bl Br Kl Kr : List Nat)
    (hkl : Keeps compare option next Bl Kl) (hkr : Keeps compare option next Br Kr)
    (hlt : ∀ x ∈ Kl, ∀ z ∈ Kr, compare x z < 0) :
    Keeps compare option next (Br ++ Bl) (Kl ++ Kr) := by
  obtain ⟨l1, l2, l3⟩ := hkl
  obtain ⟨r1, r2, r3⟩ := hkr
  refine ⟨?_, ?_, ?_⟩
  · intro k hk
    rcases List.mem_append.1 hk with h | h
    · exact List.mem_append_right _ (l1 k h)
    · exact List.mem_append_left _ (r1 k h)
  · intro x hx
    rcases List.mem_append.1 hx with h | h
    · obtain ⟨k, hk, hxk⟩ := r2 x h
      exact ⟨k, List.mem_append_right _ hk, hxk⟩
    · obtain ⟨k, hk, hxk⟩ := l2 x h
      exact ⟨k, List.mem_append_left _ hk, hxk⟩
  · intro ho k hk
    rcases List.mem_append.1 hk with h | h
    · apply Led_left compare next Br Bl k _ (l3 ho k h)
      apply class_of_eq_nil_of_cover hswo Br Kr k r2
      intro z hz
      have := hlt k h z hz
      have := (hswo.symm k z).1 this
      omega
    · apply Led_right compare next Br Bl k _ (r3 ho k h)
      apply class_of_eq_nil_of_cover hswo Bl Kl k l2
      intro x hx
      have := hlt x hx k h
      omega

/-- When the merging loop has used up one run, what is left of the other one in
front of the merged records is the run of the two blocks together. -/
theorem merge_final_order (compare : Nat → Nat → Int) (hswo : StrictWeakOrder compare)
    (option : SORT_DUP_OPTION) (next : Nat → Option Nat)
    (Kl Kr Bl Br Kl1 Lc Kr1 Rc M : List Nat)
    (e1 : Kl = Kl1 ++ Lc) (e2 : Kr = Kr1 ++ Rc)
    (hAl : StrictAsc compare Kl) (hAr : StrictAsc compare Kr)
    (hbl : ∀ k ∈ Kl, k ∈ Bl) (hbr : ∀ k ∈ Kr, k ∈ Br)
    (hcl : ∀ x ∈ Bl, ∃ k ∈ Kl, compare x k = 0) (hcr : ∀ x ∈ Br, ∃ k ∈ Kr, compare x k = 0)
    (e10 : StrictAsc compare M)
    (e11 : ∀ x, x ∈ Kl1 ∨ x ∈ Kr1 → ∀ z, z ∈ Lc ∨ z ∈ Rc → compare x z < 0)
    (e12 : ∀ z ∈ M, z ∈ Lc ∨ z ∈ Rc) (e13 : ∀ x, x ∈ Lc ∨ x ∈ Rc → ∃ z ∈ M, compare x z = 0)
    (e14 : option = SORT_DUP_OPTION.SORT_DUP →
      (∀ z ∈ M, Led compare next (Br ++ Bl) z) ∧
      (∀ k ∈ Kl1, Led compare next Bl k) ∧ (∀ k ∈ Kr1, Led compare next Br k))
    (hex : Kl1 = [] ∨ Kr1 = []) :
    StrictAsc compare (Kr1 ++ Kl1 ++ M) ∧
      Keeps compare option next (Br ++ Bl) (Kr1 ++ Kl1 ++ M) := by
  have hsubl : StrictAsc compare Kl1 := by
    rw [e1] at hAl; exact (List.pairwise_append.1 hAl).1
  have hsubr : StrictAsc compare Kr1 := by
    rw [e2] at hAr; exact (List.pairwise_append.1 hAr).1
  have hltM : ∀ x, x ∈ Kl1 ∨ x ∈ Kr1 → ∀ z ∈ M, compare x z < 0 :=
    fun x hx z hz => e11 x hx z (e12 z hz)
  have hone : ∀ x ∈ Kr1 ++ Kl1, x ∈ Kl1 ∨ x ∈ Kr1 := fun x hx =>
    (List.mem_append.1 hx).symm
  have hasc : StrictAsc compare (Kr1 ++ Kl1) := by
    rcases hex with h | h
    · rw [h, List.append_nil]; exact hsubr
    · rw [h, List.nil_append]; exact hsubl
  refine ⟨?_, ?_, ?_, ?_⟩
  · unfold StrictAsc
    rw [List.pairwise_append]
    exact ⟨hasc, e10, fun x hx z hz => hltM x (hone x hx) z hz⟩
  · intro k hk
    rcases List.mem_append.1 hk with h | h
    · rcases List.mem_append.1 h with h1 | h1
      · exact List.mem_append_left _ (hbr k (by rw [e2]; exact List.mem_append_left _ h1))
      · exact List.mem_append_right _ (hbl k (by rw [e1]; exact List.mem_append_left _ h1))
    · rcases e12 k h with h1 | h1
      · exact List.mem_append_right _ (hbl k (by rw [e1]; exact List.mem_append_right _ h1))
      · exact List.mem_append_left _ (hbr k (by rw [e2]; exact List.mem_append_right _ h1))
  · -- every record of the two blocks compares equal to a record kept
    have hkept : ∀ k, k ∈ Kl ∨ k ∈ Kr → ∃ z ∈ Kr1 ++ Kl1 ++ M, compare k z = 0 := by
      intro k hk
      have hcons : k ∈ Lc ∨ k ∈ Rc → ∃ z ∈ Kr1 ++ Kl1 ++ M, compare k z = 0 := by
        intro h
        obtain ⟨z, hz, hkz⟩ := e13 k h
        exact ⟨z, List.mem_append_right _ hz, hkz⟩
      rcases hk with hk | hk
      · rw [e1] at hk
        rcases List.mem_append.1 hk with h | h
        · exact ⟨k, by simp [h], hswo.refl k⟩
        · exact hcons (Or.inl h)
      · rw [e2] at hk
        rcases List.mem_append.1 hk with h | h
        · exact ⟨k, by simp [h], hswo.refl k⟩
        · exact hcons (Or.inr h)
    intro x hx
    rcases List.mem_append.1 hx with h | h
    · obtain ⟨k, hk, hxk⟩ := hcr x h
      obtain ⟨z, hz, hkz⟩ := hkept k (Or.inr hk)
      exact ⟨z, hz, hswo.trans_eq _ _ _ hxk hkz⟩
    · obtain ⟨k, hk, hxk⟩ := hcl x h
      obtain ⟨z, hz, hkz⟩ := hkept k (Or.inl hk)
      exact ⟨z, hz, hswo.trans_eq _ _ _ hxk hkz⟩
  · intro ho k hk
    obtain ⟨d1, d2, d3⟩ := e14 ho
    rcases List.mem_append.1 hk with h | h
    · rcases List.mem_append.1 h with h1 | h1
      · -- a record left of the right run: the left run is used up
        have hKl1 : Kl1 = [] := by
          rcases hex with h2 | h2
          · exact h2
          · rw [h2] at h1; simp at h1
        apply Led_right compare next Br Bl k _ (d3 k h1)
        apply class_of_eq_nil_of_cover hswo Bl Kl k hcl
        intro z hz
        rw [e1, hKl1, List.nil_append] at hz
        have := e11 k (Or.inr h1) z (Or.inl hz)
        have := (hswo.symm k z).1 this
        omega
      · have hKr1 : Kr1 = [] := by
          rcases hex with h2 | h2
          · rw [h2] at h1; simp at h1
          · exact h2
        apply Led_left compare next Br Bl k _ (d2 k h1)
        apply class_of_eq_nil_of_cover hswo Br Kr k hcr
        intro z hz
        rw [e2, hKr1, List.nil_append] at hz
        have := e11 k (Or.inl h1) z (Or.inr hz)
        have := (hswo.symm k z).1 this
        omega
    · exact d1 k h

/-- The branch `con == FALSE` of `sort_run_merge` returns and replaces the two
runs by one run of their two blocks together, in the other buffer, whose records
are records of the two runs; it touches nothing outside their cells. -/
theorem sort_run_merge_general_spec (compare : Nat → Nat → Int) (hswo : StrictWeakOrder compare)
    (option : SORT_DUP_OPTION) (fuel : Nat) (m : SortMem) (right left : SRUN)
    (lo : Int) (Br Bl Kr Kl : List Nat)
    (r1 : left.stop + 1 ≤ right.start) (r2 : right.start ≤ right.stop)
    (r3 : (Br.length : Int) = right.stop + 1 - (left.stop + 1))
    (r4 : seg (fun i => m.get right.low_high i) right.start right.stop = Kr.map some)
    (r5 : StrictAsc compare Kr) (r6 : Keeps compare option m.next Br Kr)
    (l1 : lo ≤ left.start) (l2 : left.start ≤ left.stop)
    (l3 : (Bl.length : Int) = left.stop + 1 - lo)
    (l4 : seg (fun i => m.get left.low_high i) left.start left.stop = Kl.map some)
    (l5 : StrictAsc compare Kl) (l6 : Keeps compare option m.next Bl Kl)
    (hnd : (Br ++ Bl).Nodup) (hfuel : (Br ++ Bl).length ≤ fuel) :
    ∃ m1 e K, sort_run_merge_general compare fuel option m right left = some (m1, e) ∧
      e.stop = right.stop ∧ e.tree_depth = (left.tree_depth + 1) % 65536 ∧
      e.low_high = right.low_high.other ∧ lo ≤ e.start ∧ e.start ≤ e.stop ∧
      seg (fun i => m1.get e.low_high i) e.start e.stop = K.map some ∧
      StrictAsc compare K ∧ Keeps compare option m1.next (Br ++ Bl) K ∧
      (∀ k ∈ K, k ∈ Kl ∨ k ∈ Kr) ∧
      (∀ t i, (i < lo ∨ right.stop < i) → m1.get t i = m.get t i) ∧
      (∀ x, x ∉ Br ++ Bl → m1.next x = m.next x) := by
  have hlenl : (Kl.length : Int) = left.stop + 1 - left.start := by
    have := congrArg List.length l4
    rw [seg_length, List.length_map] at this
    omega
  have hlenr : (Kr.length : Int) = right.stop + 1 - right.start := by
    have := congrArg List.length r4
    rw [seg_length, List.length_map] at this
    omega
  have hds : right.low_high.other ≠ right.low_high := by
    cases right.low_high <;> simp [Side.other]
  have hI0 : MergeInv compare option m right.low_high.other left.start right.start right.stop
      Kl Kr Bl Br { mem := m, left_stop := left.stop, right_stop := right.stop,
                    dest_ptr := right.stop, dup_num := 0 } := by
    refine ⟨Kl, [], Kr, [], [], by simp, by simp, by simp only []; omega, by simp only []; omega,
      by simp, by simp, le_refl _, ?_, fun _ _ _ => rfl, List.Pairwise.nil, ?_, ?_, ?_, ?_,
      fun _ _ => rfl⟩
    · exact seg_empty _ _ _ (by simp only []; omega)
    · intro x _ z hz
      simp at hz
    · intro z hz
      simp at hz
    · intro x hx
      simp at hx
    · intro ho
      exact ⟨fun z hz => by simp at hz, fun k hk => l6.2.2 ho k hk, fun k hk => r6.2.2 ho k hk⟩
  have e0 : left.start + (Kl.length : Int) - 1 = left.stop := by omega
  obtain ⟨st, hloop, hI, hex⟩ := merge_loop_spec compare hswo option fuel m left.low_high
    right.low_high right.low_high.other left.start right.start right.stop Kl Kr Bl Br hds
    (by omega) (by omega) (by rw [e0]; exact l4) r4 l5 r5 l6.2.1 r6.2.1 hnd hfuel
    ((left.stop - left.start + 1).toNat + (right.stop - right.start + 1).toNat) _ hI0
    (le_refl _)
  obtain ⟨Kl1, Lc, Kr1, Rc, M, e1, e2, e3, e4, e5, e6, e7, e8, e9, e10, e11, e12, e13, e14,
    e15⟩ := hI
  have hlen1 : (Kl.length : Int) = Kl1.length + Lc.length := by rw [e1]; simp
  have hlen2 : (Kr.length : Int) = Kr1.length + Rc.length := by rw [e2]; simp
  have hexl : Kl1 = [] ∨ Kr1 = [] := by
    rcases hex with h | h
    · left; apply List.eq_nil_of_length_eq_zero; omega
    · right; apply List.eq_nil_of_length_eq_zero; omega
  obtain ⟨hA, hK⟩ := merge_final_order compare hswo option st.mem.next Kl Kr Bl Br Kl1 Lc Kr1
    Rc M e1 e2 l5 r5 l6.1 r6.1 l6.2.1 r6.2.1 e10 e11 e12 e13 e14 hexl
  -- the number of records kept is positive
  have hKpos : 1 ≤ (Kr1 ++ Kl1 ++ M).length := by
    cases hLc : Lc with
    | nil =>
      rw [hLc, List.append_nil] at e1
      have hk := congrArg List.length e1
      have : 1 ≤ Kl1.length := by omega
      simp only [List.length_append]; omega
    | cons c Lc1 =>
      obtain ⟨z, hz, -⟩ := e13 c (Or.inl (by rw [hLc]; exact List.mem_cons_self _ _))
      have : 1 ≤ M.length := List.length_pos_of_mem hz
      simp only [List.length_append]; omega
  -- the cells that are left of the two runs
  have hleft : seg (fun i => st.mem.get left.low_high i) left.start st.left_stop =
      Kl1.map some := by
    have h := (seg_map_split (fun i => m.get left.low_high i) left.start left.stop Kl1 Lc
      (by omega) (by rw [l4, e1])).1
    rw [← e3] at h
    rw [← h]
    apply seg_congr
    intro i h1 h2
    exact e9 left.low_high i (fun _ => Or.inl (by omega))
  have hright : seg (fun i => st.mem.get right.low_high i) right.start st.right_stop =
      Kr1.map some := by
    have h := (seg_map_split (fun i => m.get right.low_high i) right.start right.stop Kr1 Rc
      (by omega) (by rw [r4, e2])).1
    rw [← e4] at h
    rw [← h]
    apply seg_congr
    intro i h1 h2
    exact e9 right.low_high i (fun h => absurd h.symm hds)
  -- the first copy loop
  obtain ⟨R1, hR1⟩ : ∃ R1, R1 = sort_run_merge_copy left.low_high right.low_high.other
    left.start (st.left_stop - left.start + 1).toNat st.mem st.left_stop st.dest_ptr :=
    ⟨_, rfl⟩
  obtain ⟨c1, c2, c3, c4⟩ := merge_copy_spec left.low_high right.low_high.other left.start
    (st.left_stop - left.start + 1).toNat st.mem st.left_stop st.dest_ptr (le_refl _)
    (by omega) (fun _ => by omega)
  have cs1 := merge_copy_seg left.low_high right.low_high.other left.start st.left_stop
    st.dest_ptr st.mem Kl1 hleft (by omega) (fun _ => by omega)
  rw [← hR1] at c1 c2 c3 c4 cs1
  -- the second copy loop
  have hright1 : seg (fun i => R1.1.get right.low_high i) right.start st.right_stop =
      Kr1.map some := by
    rw [← hright]
    apply seg_congr
    intro i h1 h2
    exact c3 right.low_high i (fun h => absurd h.symm hds)
  obtain ⟨R2, hR2⟩ : ∃ R2, R2 = sort_run_merge_copy right.low_high right.low_high.other
    right.start (st.right_stop - right.start + 1).toNat R1.1 st.right_stop R1.2 := ⟨_, rfl⟩
  obtain ⟨f1, f2, f3, f4⟩ := merge_copy_spec right.low_high right.low_high.other right.start
    (st.right_stop - right.start + 1).toNat R1.1 st.right_stop R1.2 (le_refl _)
    (by omega) (fun h => absurd h.symm hds)
  have cs2 := merge_copy_seg right.low_high right.low_high.other right.start st.right_stop
    R1.2 R1.1 Kr1 hright1 (by omega) (fun h => absurd h.symm hds)
  rw [← hR2] at f1 f2 f3 f4 cs2
  refine ⟨R2.1, { low_high := right.low_high.other,
                  tree_depth := (left.tree_depth + 1) % 65536,
                  start := right.start - (left.stop - left.start + 1) + st.dup_num,
                  stop := right.stop }, Kr1 ++ Kl1 ++ M, ?_, rfl, rfl, rfl, ?_, ?_, ?_, hA, ?_, ?_,
    ?_, ?_⟩
  · rw [hR2, hR1]
    simp only [sort_run_merge_general, hloop]
  · simp only []; omega
  · simp only [List.length_append] at hKpos
    simp only []; omega
  · show seg (fun i => R2.1.get right.low_high.other i)
      (right.start - (left.stop - left.start + 1) + st.dup_num) right.stop =
      (Kr1 ++ Kl1 ++ M).map some
    have hR12 : R1.2 = st.dest_ptr - (Kl1.length : Int) := by rw [c1]; omega
    have es : right.start - (left.stop - left.start + 1) + st.dup_num =
        R1.2 - (Kr1.length : Int) + 1 := by omega
    have e1a : R1.2 + 1 = st.dest_ptr - (Kl1.length : Int) + 1 := by omega
    rw [es, seg_append _ _ R1.2 right.stop (by omega) (by omega), cs2, e1a,
      seg_append _ _ st.dest_ptr right.stop (by omega) (by omega), List.map_append,
      List.map_append, List.append_assoc]
    congr 2
    · rw [← cs1]
      apply seg_congr
      intro i h1 h2
      exact f3 right.low_high.other i (fun _ => Or.inr (by omega))
    · rw [← e8]
      apply seg_congr
      intro i h1 h2
      show R2.1.get right.low_high.other i = st.mem.get right.low_high.other i
      rw [f3 right.low_high.other i (fun _ => Or.inr (by omega)),
        c3 right.low_high.other i (fun _ => Or.inr (by omega))]
  · rw [f4, c4]; exact hK
  · intro k hk
    rcases List.mem_append.1 hk with h | h
    · rcases List.mem_append.1 h with h1 | h1
      · right; rw [e2]; exact List.mem_append_left _ h1
      · left; rw [e1]; exact List.mem_append_left _ h1
    · rcases e12 k h with h1 | h1
      · left; rw [e1]; exact List.mem_append_right _ h1
      · right; rw [e2]; exact List.mem_append_right _ h1
  · intro t i hi
    rw [f3 t i (fun _ => by omega), c3 t i (fun _ => by omega), e9 t i (fun _ => by omega)]
  · intro x hx
    rw [f4, c4, e15 x hx]

/-- One pass of `sort_run_merge` replaces the two runs on top of the stack by one
run of their two blocks together, and touches nothing outside their cells. -/
theorem sort_run_merge_step_spec (compare : Nat → Nat → Int) (hswo : StrictWeakOrder compare)
    (option : SORT_DUP_OPTION) (fuel : Nat) (m : SortMem) (right left : SRUN) (rest : List SRUN)
    (lo : Int) (Br Bl : List Nat)
    (hr : RunInv compare option m right (left.stop + 1) Br)
    (hl : RunInv compare option m left lo Bl)
    (hnd : (Br ++ Bl).Nodup) (hfuel : (Br ++ Bl).length ≤ fuel) :
    ∃ m1 e, sort_run_merge_step compare fuel option m (right :: left :: rest) =
        some (m1, e :: rest) ∧
      e.stop = right.stop ∧ e.tree_depth = (left.tree_depth + 1) % 65536 ∧
      RunInv compare option m1 e lo (Br ++ Bl) ∧
      (∀ t i, (i < lo ∨ right.stop < i) → m1.get t i = m.get t i) ∧
      (∀ x, x ∉ Br ++ Bl → m1.next x = m.next x) := by
  obtain ⟨Kr, r1, r2, r3, r4, r5, r6⟩ := hr
  obtain ⟨Kl, l1, l2, l3, l4, l5, l6⟩ := hl
  have hlenl : (Kl.length : Int) = left.stop + 1 - left.start := by
    have := congrArg List.length l4
    rw [seg_length, List.length_map] at this
    omega
  have hlenr : (Kr.length : Int) = right.stop + 1 - right.start := by
    have := congrArg List.length r4
    rw [seg_length, List.length_map] at this
    omega
  obtain ⟨Kl0, ll, hKl⟩ : ∃ Kl0 ll, Kl = Kl0 ++ [ll] := by
    rcases List.eq_nil_or_concat Kl with h | ⟨L, b, h⟩
    · rw [h] at hlenl; simp at hlenl; omega
    · exact ⟨L, b, by rw [h, List.concat_eq_append]⟩
  obtain ⟨rf, Kr0, hKr⟩ : ∃ rf Kr0, Kr = rf :: Kr0 := by
    cases Kr with
    | nil => simp at hlenr; omega
    | cons a K => exact ⟨a, K, rfl⟩
  have hcl : m.get left.low_high left.stop = some ll := by
    have := seg_split_cell (fun i => m.get left.low_high i) left.start left.stop Kl0 ll []
      (by rw [l4, hKl])
    have e : left.start + (Kl0.length : Int) = left.stop := by
      rw [hKl] at hlenl; simp at hlenl; omega
    rw [e] at this
    exact this
  have hcr : m.get right.low_high right.start = some rf := by
    have := seg_split_cell (fun i => m.get right.low_high i) right.start right.stop [] rf Kr0
      (by rw [r4, hKr]; rfl)
    simpa using this
  have hlenB : ((Br ++ Bl).length : Int) = right.stop + 1 - lo := by
    rw [List.length_append]; push_cast; omega
  by_cases hc : compare ll rf < 0
  · -- the left run lies below the right run: they are concatenated
    have hlt : ∀ x ∈ Kl, ∀ z ∈ Kr, compare x z < 0 := by
      intro x hx z hz
      have hxr : compare x rf < 0 := by
        rw [hKl] at hx l5
        rcases List.mem_append.1 hx with h | h
        · exact hswo.trans_lt _ _ _
            ((List.pairwise_append.1 l5).2.2 x h ll (List.mem_singleton_self _)) hc
        · rw [List.mem_singleton.1 h]; exact hc
      rw [hKr] at hz r5
      rcases List.mem_cons.1 hz with h | h
      · rw [h]; exact hxr
      · exact hswo.trans_lt _ _ _ hxr ((List.pairwise_cons.1 r5).1 z h)
    have hK := Keeps_concat compare hswo option m.next Bl Br Kl Kr l6 r6 hlt
    have hA : StrictAsc compare (Kl ++ Kr) := List.pairwise_append.2 ⟨l5, r5, hlt⟩
    by_cases hadj : left.low_high = right.low_high ∧ left.stop + 1 = right.start
    · refine ⟨m, { low_high := right.low_high, tree_depth := (left.tree_depth + 1) % 65536,
                   start := right.start - (left.stop - left.start + 1) + 0,
                   stop := right.stop }, ?_, rfl, rfl,
        ⟨Kl ++ Kr, by simp only []; omega, by simp only []; omega, hlenB, ?_, hA, hK⟩,
        fun _ _ _ => rfl, fun _ _ => rfl⟩
      · simp only [sort_run_merge_step, sort_run_merge_con, hcl, hcr, compare_cells, if_pos hc,
          if_pos hadj]
      · show seg (fun i => m.get right.low_high i)
          (right.start - (left.stop - left.start + 1) + 0) right.stop = (Kl ++ Kr).map some
        have e : right.start - (left.stop - left.start + 1) + 0 = left.start := by omega
        rw [hadj.1] at l4
        rw [e, seg_append _ left.start left.stop right.stop (by omega) (by omega), l4, hadj.2, r4,
          List.map_append]
    · obtain ⟨q1, q2, q3, q4⟩ := merge_copy_spec left.low_high right.low_high left.start
        (left.stop - left.start + 1).toNat m left.stop (right.start - 1) (le_refl _) (by omega)
        (fun _ => by omega)
      have qs := merge_copy_seg left.low_high right.low_high left.start left.stop
        (right.start - 1) m Kl l4 (by omega) (fun _ => by omega)
      obtain ⟨R1, hR1⟩ : ∃ R1, R1 = sort_run_merge_copy left.low_high right.low_high left.start
        (left.stop - left.start + 1).toNat m left.stop (right.start - 1) := ⟨_, rfl⟩
      rw [← hR1] at q1 q2 q3 q4 qs
      refine ⟨R1.1, { low_high := right.low_high, tree_depth := (left.tree_depth + 1) % 65536,
                      start := right.start - (left.stop - left.start + 1) + 0,
                      stop := right.stop }, ?_, rfl, rfl,
        ⟨Kl ++ Kr, by simp only []; omega, by simp only []; omega, hlenB, ?_, hA, ?_⟩,
        ?_, ?_⟩
      · rw [hR1]
        simp only [sort_run_merge_step, sort_run_merge_con, hcl, hcr, compare_cells, if_pos hc,
          if_neg hadj]
      · show seg (fun i => R1.1.get right.low_high i)
          (right.start - (left.stop - left.start + 1) + 0) right.stop = (Kl ++ Kr).map some
        have e : right.start - (left.stop - left.start + 1) + 0 =
            right.start - 1 - (Kl.length : Int) + 1 := by omega
        have e1 : right.start - 1 + 1 = right.start := by omega
        rw [e, seg_append _ _ (right.start - 1) right.stop (by omega) (by omega), qs, e1,
          List.map_append, ← r4]
        congr 1
        apply seg_congr
        intro i h1 h2
        exact q3 right.low_high i (fun _ => Or.inr (by omega))
      · rw [q4]; exact hK
      · intro t i hi
        exact q3 t i (fun _ => by omega)
      · intro x _
        rw [q4]
  · -- the two runs are merged into the other buffer
    obtain ⟨m1, e, K, g1, g2, g3, g4, g5, g6, g7, g8, g9, -, g11, g12⟩ :=
      sort_run_merge_general_spec compare hswo option fuel m right left lo Br Bl Kr Kl r1 r2 r3 r4
        r5 r6 l1 l2 l3 l4 l5 l6 hnd hfuel
    refine ⟨m1, e, ?_, g2, g3, ⟨K, g5, g6, ?_, g7, g8, g9⟩, g11, g12⟩
    · simp only [sort_run_merge_step, hcl, hcr, compare_cells, if_neg hc, g1]
    · rw [g2]; exact hlenB

/-! ### The stack of runs -/

theorem Keeps_frame (compare : Nat → Nat → Int) (option : SORT_DUP_OPTION)
    (next next1 : Nat → Option Nat) (B K : List Nat) (h : ∀ x ∈ B, next1 x = next x)
    (hK : Keeps compare option next B K) : Keeps compare option next1 B K := by
  obtain ⟨k1, k2, k3⟩ := hK
  refine ⟨k1, k2, fun ho k hk => ?_⟩
  exact Led_frame compare next next1 B k
    (fun x hx => h x (class_of_subset compare B k x hx).1) (k3 ho k hk)

theorem RunInv_frame (compare : Nat → Nat → Int) (option : SORT_DUP_OPTION) (m m1 : SortMem)
    (e : SRUN) (lo : Int) (B : List Nat)
    (hc : ∀ i, e.start ≤ i → i ≤ e.stop → m1.get e.low_high i = m.get e.low_high i)
    (hn : ∀ x ∈ B, m1.next x = m.next x) (h : RunInv compare option m e lo B) :
    RunInv compare option m1 e lo B := by
  obtain ⟨K, h1, h2, h3, h4, h5, h6⟩ := h
  refine ⟨K, h1, h2, h3, ?_, h5, Keeps_frame compare option m.next m1.next B K hn h6⟩
  rw [← h4]
  apply seg_congr
  exact hc

theorem StackInv_frame (compare : Nat → Nat → Int) (option : SORT_DUP_OPTION) (m m1 : SortMem) :
    ∀ (stack : List SRUN) (top : Int) (P : List Nat),
      (∀ t i, i < top → m1.get t i = m.get t i) → (∀ x ∈ P, m1.next x = m.next x) →
      StackInv compare option m stack top P → StackInv compare option m1 stack top P := by
  intro stack
  induction stack with
  | nil =>
    intro top P _ _ h
    exact h
  | cons e rest ih =>
    intro top P hc hn h
    obtain ⟨lo, B, P1, hP, htop, hR, hS⟩ := h
    obtain ⟨K, h1, h2, -⟩ := id hR
    exact ⟨lo, B, P1, hP, htop,
      RunInv_frame compare option m m1 e lo B (fun i _ hi => hc _ i (by omega))
        (fun x hx => hn x (by rw [hP]; exact List.mem_append_left _ hx)) hR,
      ih lo P1 (fun t i hi => hc t i (by omega))
        (fun x hx => hn x (by rw [hP]; exact List.mem_append_right _ hx)) hS⟩

theorem StackInv_length (compare : Nat → Nat → Int) (option : SORT_DUP_OPTION) (m : SortMem) :
    ∀ (stack : List SRUN) (top : Int) (P : List Nat),
      StackInv compare option m stack top P →
      (P.length : Int) = top ∧ (stack.length : Int) ≤ top := by
  intro stack
  induction stack with
  | nil =>
    intro top P h
    obtain ⟨h1, h2⟩ := h
    rw [h1, h2]
    simp
  | cons e rest ih =>
    intro top P h
    obtain ⟨lo, B, P1, hP, htop, hR, hS⟩ := h
    obtain ⟨K, h1, h2, h3, -⟩ := hR
    obtain ⟨q1, q2⟩ := ih lo P1 hS
    rw [hP]
    simp only [List.length_append, List.length_cons, Nat.cast_add, Nat.cast_one]
    omega

/-- One pass of `sort_run_merge` on a stack that satisfies the invariant. -/
theorem merge_step_stack (compare : Nat → Nat → Int) (hswo : StrictWeakOrder compare)
    (option : SORT_DUP_OPTION) (fuel : Nat) (m : SortMem) (stack : List SRUN) (top : Int)
    (P : List Nat) (hS : StackInv compare option m stack top P) (hlen : 2 ≤ stack.length)
    (hnd : P.Nodup) (hfuel : P.length ≤ fuel) :
    ∃ m1 stack1, sort_run_merge_step compare fuel option m stack = some (m1, stack1) ∧
      StackInv compare option m1 stack1 top P ∧ stack1.length + 1 = stack.length ∧
      (∀ t i, top ≤ i → m1.get t i = m.get t i) ∧ (∀ x, x ∉ P → m1.next x = m.next x) := by
  obtain ⟨right, left, rest, rfl⟩ : ∃ right left rest, stack = right :: left :: rest := by
    cases stack with
    | nil => simp at hlen
    | cons a s1 =>
      cases s1 with
      | nil => simp at hlen
      | cons b s2 => exact ⟨a, b, s2, rfl⟩
  obtain ⟨lor, Br, P1, hP, htop, hR, hS1⟩ := hS
  obtain ⟨lo, Bl, P2, hP1, hlor, hL, hS2⟩ := hS1
  rw [← hlor] at hR
  have hPe : P = (Br ++ Bl) ++ P2 := by rw [hP, hP1, List.append_assoc]
  have hnd1 : (Br ++ Bl).Nodup := by
    rw [hPe] at hnd
    exact (List.nodup_append.1 hnd).1
  have hf1 : (Br ++ Bl).length ≤ fuel := by
    have : (Br ++ Bl).length ≤ P.length := by rw [hPe]; simp
    omega
  obtain ⟨m1, e, q1, q2, q3, q4, q5, q6⟩ := sort_run_merge_step_spec compare hswo option fuel m
    right left rest lo Br Bl hR hL hnd1 hf1
  refine ⟨m1, e :: rest, q1, ⟨lo, Br ++ Bl, P2, hPe, by rw [q2]; exact htop, q4, ?_⟩, by simp,
    fun t i hi => q5 t i (Or.inr (by omega)), fun x hx => q6 x (fun h => hx ?_)⟩
  · apply StackInv_frame compare option m m1 rest lo P2 (fun t i hi => q5 t i (Or.inl hi)) _ hS2
    intro x hx
    apply q6
    intro hx1
    rw [hPe] at hnd
    exact (List.nodup_append.1 hnd).2.2 hx1 hx
  · rw [hPe]; exact List.mem_append_left _ h

/-- The loop `do ... while` of `sort_run_merge` returns with the invariant of the stack
kept, at least one run merged away, and its condition false. -/
theorem sort_run_merge_spec (compare : Nat → Nat → Int) (hswo : StrictWeakOrder compare)
    (option : SORT_DUP_OPTION) (fuel : Nat) (top : Int) (P : List Nat) (hnd : P.Nodup)
    (hfuel : P.length ≤ fuel) :
    ∀ (n : Nat) (m : SortMem) (stack : List SRUN),
      StackInv compare option m stack top P → 2 ≤ stack.length → stack.length ≤ n + 2 →
      ∃ m1 stack1, sort_run_merge compare fuel option n m stack = some (m1, stack1) ∧
        StackInv compare option m1 stack1 top P ∧ 1 ≤ stack1.length ∧
        stack1.length < stack.length ∧ merge_again stack1 = false ∧
        (∀ t i, top ≤ i → m1.get t i = m.get t i) ∧ (∀ x, x ∉ P → m1.next x = m.next x) := by
  intro n
  induction n with
  | zero =>
    intro m stack hS hlen hn
    obtain ⟨m1, stack1, q1, q2, q3, q4, q5⟩ := merge_step_stack compare hswo option fuel m stack
      top P hS hlen hnd hfuel
    refine ⟨m1, stack1, q1, q2, by omega, by omega, ?_, q4, q5⟩
    have h1 : stack1.length = 1 := by omega
    match stack1, h1 with
    | [a], _ => rfl
  | succ n ih =>
    intro m stack hS hlen hn
    obtain ⟨m1, stack1, q1, q2, q3, q4, q5⟩ := merge_step_stack compare hswo option fuel m stack
      top P hS hlen hnd hfuel
    by_cases hagain : merge_again stack1 = true
    · have hl1 : 2 ≤ stack1.length := by
        match stack1, hagain with
        | a :: b :: s, _ => simp
      obtain ⟨m2, stack2, r1, r2, r3, r4, r5, r6, r7⟩ := ih m1 stack1 q2 hl1 (by omega)
      refine ⟨m2, stack2, ?_, r2, r3, by omega, r5, fun t i hi => by rw [r6 t i hi, q4 t i hi],
        fun x hx => by rw [r7 x hx, q5 x hx]⟩
      simp only [sort_run_merge, q1, hagain, if_true]
      exact r1
    · refine ⟨m1, stack1, ?_, q2, by omega, by omega, by simpa using hagain, q4, q5⟩
      simp only [sort_run_merge, q1, hagain, Bool.false_eq_true, if_false]

/-- The merging loop of `sort_run_sort` returns with the invariant of the stack
kept; after the last run was found it leaves one run. -/
theorem sort_run_sort_merges_spec (compare : Nat → Nat → Int) (hswo : StrictWeakOrder compare)
    (option : SORT_DUP_OPTION) (fuel : Nat) (limit : Int) (top : Int) (P : List Nat)
    (hnd : P.Nodup) (hfuel : P.length ≤ fuel) :
    ∀ (n : Nat) (s : SortState), s.top = top →
      StackInv compare option s.mem s.stack top P → 1 ≤ s.stack.length →
      s.stack.length ≤ n + 1 →
      ∃ s1, sort_run_sort_merges compare fuel option limit n s = some s1 ∧ s1.top = top ∧
        StackInv compare option s1.mem s1.stack top P ∧ 1 ≤ s1.stack.length ∧
        (top ≥ limit → s1.stack.length = 1) ∧
        (∀ t i, top ≤ i → s1.mem.get t i = s.mem.get t i) ∧
        (∀ x, x ∉ P → s1.mem.next x = s.mem.next x) := by
  intro n
  induction n with
  | zero =>
    intro s htop hS h1 h2
    exact ⟨s, rfl, htop, hS, h1, fun _ => by omega, fun _ _ _ => rfl, fun _ _ => rfl⟩
  | succ n ih =>
    intro s htop hS h1 h2
    by_cases hcond : s.stack.length ≥ 2 ∧
        (s.top ≥ limit ∨ (s.top < limit ∧ merge_again s.stack = true))
    · obtain ⟨m1, stack1, q1, q2, q3, q4, q5, q6, q7⟩ := sort_run_merge_spec compare hswo option
        fuel top P hnd hfuel s.stack.length s.mem s.stack hS hcond.1 (by omega)
      obtain ⟨s1, r1, r2, r3, r4, r5, r6, r7⟩ := ih { s with mem := m1, stack := stack1 } htop q2
        q3 (by simp only []; omega)
      refine ⟨s1, ?_, r2, r3, r4, r5, fun t i hi => by rw [r6 t i hi]; exact q6 t i hi,
        fun x hx => by rw [r7 x hx]; exact q7 x hx⟩
      simp only [sort_run_sort_merges, if_pos hcond, q1]
      exact r1
    · refine ⟨s, by simp only [sort_run_sort_merges, if_neg hcond], htop, hS, h1, ?_,
        fun _ _ _ => rfl, fun _ _ => rfl⟩
      intro hge
      rw [not_and_or] at hcond
      rcases hcond with h | h
      · omega
      · exfalso; apply h; left; omega

/-! ### The loop of `sort_run_sort` -/

theorem SortMem.get_H (m : SortMem) (i : Int) : m.get Side.H i = m.high i := rfl

theorem SortMem.get_L (m : SortMem) (i : Int) : m.get Side.L i = m.low i := rfl

/-- A call of `sort_run_find` in the loop of `sort_run_sort` keeps the invariant of
the loop and pushes one run. -/
theorem find_push (compare : Nat → Nat → Int) (hswo : StrictWeakOrder compare)
    (option : SORT_DUP_OPTION) (fuel : Nat) (m0 : SortMem) (limit : Int) (A : List Nat)
    (hnd : A.Nodup) (s : SortState) (hI : LoopInv compare option m0 limit A s)
    (htop : s.top < limit) :
    ∃ s1, sort_run_find compare fuel option limit s = some s1 ∧
      LoopInv compare option m0 limit A s1 ∧ s.top < s1.top ∧
      s1.stack.length = s.stack.length + 1 := by
  obtain ⟨P, R, hA, hle, hS, hseg, hR0, hf1, hf2⟩ := hI
  have hndR : R.Nodup := by
    rw [hA] at hnd; exact (List.nodup_append.1 hnd).2.1
  obtain ⟨s1, e, B, R1, q1, q2, q3, q4, q5, q6, q7, q8, q9, q10, q11⟩ :=
    sort_run_find_spec compare hswo option fuel limit s R htop hseg hndR hR0
  obtain ⟨K, b1, b2, b3, -⟩ := id q8
  have hPB : ∀ x ∈ P, x ∉ B := by
    intro x hx hxB
    rw [hA, q7] at hnd
    exact (List.nodup_append.1 hnd).2.2 (List.mem_reverse.2 hx)
      (List.mem_append_left _ (List.mem_reverse.2 hxB))
  have hR1B : ∀ x ∈ R1, x ∉ B := by
    intro x hx hxB
    rw [q7] at hndR
    exact (List.nodup_append.1 hndR).2.2 (List.mem_reverse.2 hxB) hx
  refine ⟨s1, q1, ⟨B ++ P, R1, ?_, q4, ?_, ?_, ?_, ?_, ?_⟩, by omega, by rw [q2]; simp⟩
  · rw [hA, q7]; simp
  · rw [q2]
    refine ⟨s.top, B, P, rfl, q3.symm, q8, ?_⟩
    apply StackInv_frame compare option s.mem s1.mem s.stack s.top P _ _ hS
    · intro t i hi
      cases t with
      | H => exact q9 i (Or.inl hi)
      | L => show s1.mem.low i = s.mem.low i; rw [q10]
    · intro x hx
      exact q11 x (hPB x hx)
  · have h := (seg_map_split s.mem.high s.top (limit - 1) B.reverse R1 (by omega)
      (by rw [hseg, q7])).2
    rw [List.length_reverse] at h
    have e1 : s.top + (B.length : Int) = s1.top := by omega
    rw [e1] at h
    rw [← h]
    apply seg_congr
    intro i h1 h2
    exact q9 i (Or.inr (by omega))
  · intro ho x hx
    rw [q11 x (hR1B x hx)]
    exact hR0 ho x (by rw [q7]; exact List.mem_append_right _ hx)
  · intro i hi
    rw [q9 i (Or.inr (by omega))]
    exact hf1 i hi
  · intro x hx
    rw [q11 x (fun h => hx (by rw [hA, q7]; simp [h]))]
    exact hf2 x hx

/-- The merging loop of `sort_run_sort` keeps the invariant of the loop. -/
theorem merges_keep (compare : Nat → Nat → Int) (hswo : StrictWeakOrder compare)
    (option : SORT_DUP_OPTION) (fuel : Nat) (m0 : SortMem) (limit : Int) (A : List Nat)
    (hnd : A.Nodup) (hfuel : A.length ≤ fuel) (s : SortState)
    (hI : LoopInv compare option m0 limit A s) (hlen : 1 ≤ s.stack.length) :
    ∃ s1, sort_run_sort_merges compare fuel option limit s.stack.length s = some s1 ∧
      LoopInv compare option m0 limit A s1 ∧ s1.top = s.top ∧
      (s.top ≥ limit → s1.stack.length = 1) := by
  obtain ⟨P, R, hA, hle, hS, hseg, hR0, hf1, hf2⟩ := hI
  have hndP : P.Nodup := by
    rw [hA] at hnd
    exact List.nodup_reverse.1 (List.nodup_append.1 hnd).1
  have hPR : ∀ x ∈ R, x ∉ P := by
    intro x hx hxP
    rw [hA] at hnd
    exact (List.nodup_append.1 hnd).2.2 (List.mem_reverse.2 hxP) hx
  have hPlen : P.length ≤ fuel := by
    have : P.length ≤ A.length := by rw [hA]; simp
    omega
  obtain ⟨s1, q1, q2, q3, q4, q5, q6, q7⟩ := sort_run_sort_merges_spec compare hswo option fuel
    limit s.top P hndP hPlen s.stack.length s rfl hS hlen (by omega)
  refine ⟨s1, q1, ⟨P, R, hA, by omega, by rw [q2]; exact q3, ?_, ?_, ?_, ?_⟩, q2, q5⟩
  · rw [q2, ← hseg]
    apply seg_congr
    intro i h1 h2
    exact q6 Side.H i h1
  · intro ho x hx
    rw [q7 x (hPR x hx)]
    exact hR0 ho x hx
  · intro i hi
    rw [← hf1 i hi]
    exact q6 Side.H i (by omega)
  · intro x hx
    rw [q7 x (fun h => hx (by rw [hA]; simp [h]))]
    exact hf2 x hx

/-- The loop `do ... while (src_top < limit)` of `sort_run_sort` returns with the
whole source in one run. -/
theorem sort_run_sort_loop_spec (compare : Nat → Nat → Int) (hswo : StrictWeakOrder compare)
    (option : SORT_DUP_OPTION) (fuel : Nat) (m0 : SortMem) (limit : Int) (A : List Nat)
    (hnd : A.Nodup) (hfuel : A.length ≤ fuel) :
    ∀ (n : Nat) (s : SortState), LoopInv compare option m0 limit A s → s.top < limit →
      (limit - s.top).toNat ≤ n →
      ∃ s1, sort_run_sort_loop compare fuel option limit n s = some s1 ∧
        LoopInv compare option m0 limit A s1 ∧ s1.top = limit ∧ s1.stack.length = 1 := by
  intro n
  induction n with
  | zero =>
    intro s _ htop hn
    omega
  | succ n ih =>
    intro s hI htop hn
    obtain ⟨s1, q1, q2, q3, q4⟩ := find_push compare hswo option fuel m0 limit A hnd s hI htop
    have hsecond : ∃ s2, (if s1.top < limit then sort_run_find compare fuel option limit s1
        else some s1) = some s2 ∧ LoopInv compare option m0 limit A s2 ∧ s.top < s2.top ∧
        1 ≤ s2.stack.length := by
      by_cases h : s1.top < limit
      · obtain ⟨s2, r1, r2, r3, r4⟩ := find_push compare hswo option fuel m0 limit A hnd s1 q2 h
        exact ⟨s2, by rw [if_pos h, r1], r2, by omega, by omega⟩
      · exact ⟨s1, by rw [if_neg h], q2, q3, by omega⟩
    obtain ⟨s2, r1, r2, r3, r4⟩ := hsecond
    obtain ⟨s3, t1, t2, t3, t4⟩ := merges_keep compare hswo option fuel m0 limit A hnd hfuel s2
      r2 r4
    have hle3 : s3.top ≤ limit := by
      obtain ⟨P, R, -, h, -⟩ := t2
      exact h
    by_cases h3 : s3.top < limit
    · obtain ⟨s4, u1, u2, u3, u4⟩ := ih s3 t2 h3 (by omega)
      refine ⟨s4, ?_, u2, u3, u4⟩
      simp only [sort_run_sort_loop, q1, r1, t1, if_pos h3]
      exact u1
    · refine ⟨s3, ?_, t2, by omega, t4 (by omega)⟩
      simp only [sort_run_sort_loop, q1, r1, t1, if_neg h3]

/-! ### `sort_run_sort` -/

theorem cells_eq_seg (r : SortResult) :
    r.cells = seg (fun i => r.mem.get r.base_side i) r.base (r.base + r.srun_limit - 1) := by
  have e : r.base + r.srun_limit - 1 + 1 - r.base = r.srun_limit := by omega
  simp only [SortResult.cells, seg, e]

/-- The end of `sort_run_sort` hands back the cells of the last run. -/
theorem sort_run_sort_result_spec (compare : Nat → Nat → Int) (option : SORT_DUP_OPTION)
    (m1 : SortMem) (e : SRUN) (limit : Int) (P : List Nat)
    (hR : RunInv compare option m1 e 0 P) (hstop : e.stop + 1 = limit) :
    ∃ K, (sort_run_sort_result option m1 e limit limit).cells = K.map some ∧
      StrictAsc compare K ∧
      Keeps compare option (sort_run_sort_result option m1 e limit limit).mem.next P K := by
  obtain ⟨K, h1, h2, h3, h4, h5, h6⟩ := hR
  refine ⟨K, ?_, h5, ?_⟩
  · rw [cells_eq_seg, ← h4]
    unfold sort_run_sort_result
    by_cases hs : e.start = 0
    · simp only [if_pos hs]
      have e1 : 0 + limit - 1 = e.stop := by omega
      rw [e1, hs]
    · by_cases hL : e.low_high = Side.L
      · by_cases ho : option = SORT_DUP_OPTION.SORT_ELIM_DUP
        · simp only [if_neg hs, if_pos hL, if_pos ho]
          have e1 : e.start + (limit - e.start) - 1 = e.stop := by omega
          rw [e1, hL]
          apply seg_congr
          intro i q1 q2
          show (if e.start ≤ i ∧ i < e.start + (limit - e.start) then m1.low i else m1.high i) =
            m1.low i
          rw [if_pos ⟨q1, by omega⟩]
        · simp only [if_neg hs, if_pos hL, if_neg ho]
          have e1 : e.start + (limit - e.start) - 1 = e.stop := by omega
          rw [e1, hL]
      · simp only [if_neg hs, if_neg hL]
        have e1 : e.start + (limit - e.start) - 1 = e.stop := by omega
        have hH : e.low_high = Side.H := by
          cases h : e.low_high with
          | L => exact absurd h hL
          | H => rfl
        rw [e1, hH]
  · have hn : (sort_run_sort_result option m1 e limit limit).mem.next = m1.next := by
      unfold sort_run_sort_result
      by_cases hs : e.start = 0
      · simp only [if_pos hs]
      · by_cases hL : e.low_high = Side.L
        · by_cases ho : option = SORT_DUP_OPTION.SORT_ELIM_DUP
          · simp only [if_neg hs, if_pos hL, if_pos ho]
            rfl
          · simp only [if_neg hs, if_pos hL, if_neg ho]
        · simp only [if_neg hs, if_neg hL]
    rw [hn]
    exact h6

theorem StackInv_single (compare : Nat → Nat → Int) (option : SORT_DUP_OPTION) (m : SortMem)
    (e : SRUN) (top : Int) (P : List Nat) (h : StackInv compare option m [e] top P) :
    RunInv compare option m e 0 P ∧ e.stop + 1 = top := by
  obtain ⟨lo, B, P1, hP, htop, hR, hS⟩ := h
  obtain ⟨h1, h2⟩ := hS
  rw [h2, List.append_nil] at hP
  rw [h1, ← hP] at hR
  exact ⟨hR, htop⟩

/-- The run sort of `sort_run_sort`: it returns; the cells it hands back hold
records in strictly ascending order, the records kept of the block `Bpre` of the
already sorted cells and of the records `A` of the cells before them. -/
theorem sort_run_sort_spec (compare : Nat → Nat → Int) (hswo : StrictWeakOrder compare)
    (option : SORT_DUP_OPTION) (m : SortMem) (limit sort_numrecs : Int) (A Bpre : List Nat)
    (h0 : 0 ≤ sort_numrecs) (h1 : sort_numrecs ≤ limit)
    (hA : seg m.high 0 (limit - sort_numrecs - 1) = A.map some)
    (hA0 : option = SORT_DUP_OPTION.SORT_DUP → ∀ x ∈ A, m.next x = none)
    (hpre : if sort_numrecs = 0 then Bpre = [] else
      RunInv compare option m
        { low_high := Side.H, tree_depth := 1, start := limit - sort_numrecs, stop := limit - 1 }
        (limit - sort_numrecs) Bpre)
    (hnd : (Bpre ++ A.reverse).Nodup) :
    ∃ r K, sort_run_sort compare option m limit sort_numrecs limit = some r ∧
      r.cells = K.map some ∧ StrictAsc compare K ∧
      Keeps compare option r.mem.next (Bpre ++ A.reverse) K := by
  have hAlen : (A.length : Int) = limit - sort_numrecs := by
    have := congrArg List.length hA
    rw [seg_length, List.length_map] at this
    omega
  have hndA : A.Nodup := List.nodup_reverse.1 (List.nodup_append.1 hnd).2.1
  by_cases hearly : limit - sort_numrecs = 0 ∨ (limit - sort_numrecs = 1 ∧ sort_numrecs = 0)
  · -- nothing to sort
    have hval : sort_run_sort compare option m limit sort_numrecs limit =
        some { mem := m, base_side := Side.H, base := 0, srun_limit := limit } := by
      simp only [sort_run_sort, if_pos hearly]
    rw [hval]
    by_cases hz : sort_numrecs = 0
    · rw [if_pos hz] at hpre
      rw [hpre, List.nil_append]
      by_cases hl0 : limit = 0
      · have hAnil : A = [] := List.eq_nil_of_length_eq_zero (by omega)
        refine ⟨_, [], rfl, ?_, List.Pairwise.nil, ?_⟩
        · rw [cells_eq_seg]
          exact seg_empty _ _ _ (by simp only []; omega)
        · rw [hAnil]
          exact ⟨fun k hk => hk, fun x hx => by simp at hx, fun _ k hk => by simp at hk⟩
      · have hl1 : limit = 1 := by omega
        have hseg : seg m.high 0 (limit - 1) = A.map some := by
          rw [← hA, hz]; congr 1; omega
        obtain ⟨a, ha, -⟩ := seg_eq_map_iff m.high 0 (limit - 1) A hseg 0 (le_refl _) (by omega)
        obtain ⟨B, R, q1, q2, -⟩ := find_finish compare option m 0 A true m 0 0 ⟨a, ha⟩
          (scan_init compare hswo option m 0 limit A hseg hA0 true (by omega)) m m (by simp)
          (by simp)
        obtain ⟨K, b1, b2, b3, b4, b5, b6⟩ := q2
        have hBA : B = A.reverse := by
          have hlen := congrArg List.length q1
          simp only [List.length_append, List.length_reverse] at hlen
          have hB1 : B.length = 1 := by
            simp only [zero_add] at b3
            omega
          have hR : R = [] := List.eq_nil_of_length_eq_zero (by omega)
          rw [hR, List.append_nil] at q1
          rw [q1, List.reverse_reverse]
        refine ⟨_, K, rfl, ?_, b5, by rw [← hBA]; exact b6⟩
        rw [cells_eq_seg]
        simp only [zero_add] at b4 ⊢
        rw [hl1]
        exact b4
    · rw [if_neg hz] at hpre
      have hl0 : limit - sort_numrecs = 0 := by omega
      have hAnil : A = [] := List.eq_nil_of_length_eq_zero (by omega)
      rw [hAnil, List.reverse_nil, List.append_nil]
      obtain ⟨K, b1, b2, b3, b4, b5, b6⟩ := hpre
      refine ⟨_, K, rfl, ?_, b5, b6⟩
      rw [cells_eq_seg]
      simp only [zero_add]
      simp only [hl0] at b4
      exact b4
  · -- the loop
    have hpos : 0 < limit - sort_numrecs := by
      rcases lt_trichotomy (limit - sort_numrecs) 0 with h | h | h
      · omega
      · exact absurd (Or.inl h) hearly
      · exact h
    have hfuel : A.length ≤ limit.toNat := by omega
    have hI0 : LoopInv compare option m (limit - sort_numrecs) A
        { mem := m, stack := [], top := 0 } :=
      ⟨[], A, by simp, by simp only []; omega, ⟨rfl, rfl⟩, hA, hA0, fun _ _ => rfl,
        fun _ _ => rfl⟩
    obtain ⟨s, q1, q2, q3, q4⟩ := sort_run_sort_loop_spec compare hswo option limit.toNat m
      (limit - sort_numrecs) A hndA hfuel (limit - sort_numrecs).toNat _ hI0 hpos (by simp)
    obtain ⟨e, he⟩ : ∃ e, s.stack = [e] := by
      match hs : s.stack, q4 with
      | [a], _ => exact ⟨a, rfl⟩
    obtain ⟨P, R, c1, c2, c3, c4, c5, c6, c7⟩ := q2
    rw [q3, he] at c3
    obtain ⟨c8, -⟩ := StackInv_length compare option s.mem [e] _ P c3
    have hPA : P = A.reverse := by
      have hlen := congrArg List.length c1
      simp only [List.length_append, List.length_reverse] at hlen
      have hR : R = [] := List.eq_nil_of_length_eq_zero (by omega)
      rw [hR, List.append_nil] at c1
      rw [c1, List.reverse_reverse]
    rw [hPA] at c3
    -- the merge with the cells sorted before
    have hmerge : ∃ m1 e1, (if sort_numrecs ≠ 0 then
          sort_run_merge compare limit.toNat option (s.stack.length + 1) s.mem
            ({ low_high := Side.H, tree_depth := 1, start := limit - sort_numrecs,
               stop := limit - sort_numrecs + sort_numrecs - 1 } :: s.stack)
          else some (s.mem, s.stack)) = some (m1, [e1]) ∧
        StackInv compare option m1 [e1] limit (Bpre ++ A.reverse) := by
      by_cases hz : sort_numrecs = 0
      · rw [if_pos hz] at hpre
        refine ⟨s.mem, e, by rw [if_neg (by simpa using hz), he], ?_⟩
        rw [hpre, List.nil_append]
        have : limit - sort_numrecs = limit := by omega
        rw [this] at c3
        exact c3
      · rw [if_neg hz] at hpre
        have e1 : limit - sort_numrecs + sort_numrecs - 1 = limit - 1 := by omega
        have hS2 : StackInv compare option s.mem
            ({ low_high := Side.H, tree_depth := 1, start := limit - sort_numrecs,
               stop := limit - sort_numrecs + sort_numrecs - 1 } :: s.stack) limit
            (Bpre ++ A.reverse) := by
          rw [he, e1]
          refine ⟨limit - sort_numrecs, Bpre, A.reverse, rfl, by simp only []; omega, ?_, c3⟩
          apply RunInv_frame compare option m s.mem _ _ Bpre _ _ hpre
          · intro i i1 i2
            exact c6 i i1
          · intro x hx
            apply c7
            intro hxA
            exact (List.nodup_append.1 hnd).2.2 hx (List.mem_reverse.2 hxA)
        have hlenP : (Bpre ++ A.reverse).length ≤ limit.toNat := by
          obtain ⟨K, b1, b2, b3, -⟩ := hpre
          simp only [List.length_append, List.length_reverse]
          simp only [] at b3
          omega
        obtain ⟨m1, stack1, r1, r2, r3, r4, -⟩ := sort_run_merge_spec compare hswo option
          limit.toNat limit (Bpre ++ A.reverse) hnd hlenP (s.stack.length + 1) s.mem _ hS2
          (by rw [he]; simp) (by rw [he]; simp)
        obtain ⟨e2, he2⟩ : ∃ e2, stack1 = [e2] := by
          have h4 : stack1.length = 1 := by
            rw [he] at r4
            simp only [List.length_cons, List.length_nil] at r4
            omega
          match hs : stack1, h4 with
          | [a], _ => exact ⟨a, rfl⟩
        rw [he2] at r1 r2
        exact ⟨m1, e2, by rw [if_pos hz, r1], r2⟩
    obtain ⟨m1, e1, w1, w2⟩ := hmerge
    obtain ⟨hR, hstop⟩ := StackInv_single compare option m1 e1 limit _ w2
    obtain ⟨K, k1, k2, k3⟩ := sort_run_sort_result_spec compare option m1 e1 limit _ hR hstop
    refine ⟨sort_run_sort_result option m1 e1 limit limit, K, ?_, k1, k2, k3⟩
    simp only [sort_run_sort, if_neg hearly, q1, w1, List.getLast?_singleton]

/-! ### The claims on the in-memory sort -/

theorem compare_keys_swo (keys : List Nat) : StrictWeakOrder (compare_keys keys) := by
  refine ⟨fun a => ?_, fun a b => ?_, fun a b c => ?_, fun a b c => ?_⟩ <;>
    simp only [compare_keys] <;> omega

theorem initial_mem_seg (n : Nat) :
    seg (initial_mem n).high 0 ((n : Int) - 1) = (List.range n).reverse.map some := by
  apply List.ext_getElem
  · simp [seg_length]
  · intro k h1 h2
    rw [seg_length] at h1
    have hk : k < n := by omega
    rw [seg_getElem]
    simp only [List.getElem_map, List.getElem_reverse, List.getElem_range, List.length_range]
    show index_area_of n (0 + (k : Int)) = _
    unfold index_area_of
    rw [if_pos ⟨by omega, by omega⟩]
    congr 1
    omega

theorem filter_class_length_one {compare : Nat → Nat → Int} (hswo : StrictWeakOrder compare)
    (x : Nat) :
    ∀ K : List Nat, StrictAsc compare K → (∃ k ∈ K, compare x k = 0) →
      (K.filter (fun k => decide (compare x k = 0))).length = 1 := by
  intro K
  induction K with
  | nil =>
    intro _ h
    obtain ⟨k, hk, -⟩ := h
    simp at hk
  | cons k K ih =>
    intro hK hex
    obtain ⟨h1, h2⟩ := List.pairwise_cons.1 hK
    by_cases h : compare x k = 0
    · have hnil : K.filter (fun k => decide (compare x k = 0)) = [] := by
        rw [List.filter_eq_nil_iff]
        intro z hz
        have := hswo.lt_of_eq_of_lt h (h1 z hz)
        simp only [decide_eq_true_eq]
        omega
      rw [List.filter_cons_of_pos (by simpa using h), hnil]
      rfl
    · rw [List.filter_cons_of_neg (by simpa using h)]
      apply ih h2
      obtain ⟨z, hz, hxz⟩ := hex
      rcases List.mem_cons.1 hz with hz1 | hz1
      · rw [hz1] at hxz; exact absurd hxz h
      · exact ⟨z, hz1, hxz⟩

theorem class_head_first (compare : Nat → Nat → Int) (n k : Nat)
    (h : (class_of compare (List.range n) k).head? = some k) :
    ∀ x, x < n → compare x k = 0 → k ≤ x := by
  intro x hx hxk
  have hsorted : (class_of compare (List.range n) k).Pairwise (fun a b => a < b) :=
    List.Pairwise.sublist (List.filter_sublist _) (List.pairwise_lt_range n)
  have hmem : x ∈ class_of compare (List.range n) k := by
    simp only [class_of, List.mem_filter, List.mem_range, decide_eq_true_eq]
    exact ⟨hx, hxk⟩
  rw [head?_eq_some_cons _ _ h] at hsorted hmem
  rcases List.mem_cons.1 hmem with h1 | h1
  · omega
  · have := (List.pairwise_cons.1 hsorted).1 x h1
    omega

/-- C3: With the LINK policy (`SORT_DUP`), for the `n` records of an input that fits
the arena, numbered in the order in which the producer delivered them, and a
comparator that is a strict weak order: `sort_run_sort` on the index area returns;
the sorted pointer array is strictly ascending and every class of `compare = 0` has
exactly one record in it; this record, the keeper, is the first record of its
class that the producer delivered, and the keeper followed by the records that
its `next` links visit is the class in the order of the producer. For the keys
`[3,1,2,3,2,3]` the array publishes `1`, `2 → 2`, `3 → 3 → 3`. -/
theorem link_keeper_first_chain_in_producer_order (n : Nat) (compare : Nat → Nat → Int)
    (hswo : StrictWeakOrder compare) :
    (∃ r K, sort_run_sort compare SORT_DUP_OPTION.SORT_DUP (initial_mem n) n 0 n = some r ∧
      r.cells = K.map some ∧ StrictAsc compare K ∧
      (∀ x, x < n → (K.filter (fun k => decide (compare x k = 0))).length = 1) ∧
      (∀ k ∈ K, k < n ∧ ∀ x, x < n → compare x k = 0 → k ≤ x) ∧
      (∀ k ∈ K, k :: chain_of r.mem.next n k = class_of compare (List.range n) k)) ∧
    (sort_run_sort (compare_keys example_keys) SORT_DUP_OPTION.SORT_DUP (initial_mem 6) 6 0
      6).map (fun r => r.published 6) = some [some (1, []), some (2, [4]), some (0, [3, 5])] := by
  refine ⟨?_, by decide⟩
  obtain ⟨r, K, h1, h2, h3, h4⟩ := sort_run_sort_spec compare hswo SORT_DUP_OPTION.SORT_DUP
    (initial_mem n) n 0 (List.range n).reverse [] (le_refl _) (by omega)
    (by
      have e : (n : Int) - 0 - 1 = (n : Int) - 1 := by omega
      rw [e]
      exact initial_mem_seg n)
    (fun _ _ _ => rfl) (by simp)
    (by
      rw [List.nil_append, List.reverse_reverse]
      exact List.nodup_range n)
  rw [List.nil_append, List.reverse_reverse] at h4
  obtain ⟨k1, k2, k3⟩ := h4
  refine ⟨r, K, h1, h2, h3, ?_, ?_, ?_⟩
  · intro x hx
    exact filter_class_length_one hswo x K h3 (k2 x (List.mem_range.2 hx))
  · intro k hk
    exact ⟨List.mem_range.1 (k1 k hk), class_head_first compare n k (k3 rfl k hk).1⟩
  · intro k hk
    obtain ⟨q1, q2⟩ := k3 rfl k hk
    have hlen : (class_of compare (List.range n) k).tail.length ≤ n := by
      have := class_of_length_le compare (List.range n) k
      rw [List.length_range] at this
      have h5 : (class_of compare (List.range n) k).tail.length ≤
          (class_of compare (List.range n) k).length := by simp
      omega
    rw [chain_of_spec r.mem.next _ n k q2 hlen]
    exact (head?_eq_some_cons _ _ q1).symm

theorem link_keeper_first_chain_in_producer_order_witness :
    StrictWeakOrder (compare_keys example_keys) ∧
    ((∃ r K, sort_run_sort (compare_keys example_keys) SORT_DUP_OPTION.SORT_DUP (initial_mem 6)
        ((6 : Nat) : Int) 0 ((6 : Nat) : Int) = some r ∧
      r.cells = K.map some ∧ StrictAsc (compare_keys example_keys) K ∧
      (∀ x, x < 6 →
        (K.filter (fun k => decide (compare_keys example_keys x k = 0))).length = 1) ∧
      (∀ k ∈ K, k < 6 ∧ ∀ x, x < 6 → compare_keys example_keys x k = 0 → k ≤ x) ∧
      (∀ k ∈ K, k :: chain_of r.mem.next 6 k =
        class_of (compare_keys example_keys) (List.range 6) k)) ∧
    (sort_run_sort (compare_keys example_keys) SORT_DUP_OPTION.SORT_DUP (initial_mem 6) 6 0
      6).map (fun r => r.published 6) = some [some (1, []), some (2, [4]), some (0, [3, 5])]) :=
  ⟨compare_keys_swo example_keys,
    link_keeper_first_chain_in_producer_order 6 (compare_keys example_keys)
      (compare_keys_swo example_keys)⟩

/-! ### Flushing the longest record of the short-record path -/

/-- C1 (the defect): on a page of 16384 bytes with `MAX_ALIGNMENT = 8`, a record
of `SORT_MAXREC_LENGTH = 16362` bytes is not a long record for `sort_inphase_sort`,
but `sort_run_flush` cannot flush it: `sort_spage_insert` refuses it on the page
just initialised, the empty page is written to the temp file, the insert is
refused again on a fresh page, and `sort_run_flush` returns `ER_GENERIC_ERROR`. A
record two bytes shorter is flushed. -/
theorem flush_refuses_longest_short_record :
    rec_longest_short.WF ∧ rec_longest_short.length = SORT_MAXREC_LENGTH env16k ∧
    (sort_run_flush env16k insertion_qsort true 0 8 [rec_longest_short] blank_page).map
      (fun r => (r.ok, r.run_size, r.written.map sort_spage_get_numrecs)) =
      some (false, 1, [0]) ∧
    (sort_run_flush env16k insertion_qsort true 0 8
      [{ rec_longest_short with data := List.replicate 16360 0, length := 16360 }]
      blank_page).map
      (fun r => (r.ok, r.run_size, r.written.map sort_spage_get_numrecs)) =
      some (true, 1, [1]) := by
  refine ⟨?_, by decide, by decide, by decide⟩
  show ((16362 : Int)) = ((List.replicate 16362 (0 : Nat)).length : Int)
  rw [List.length_replicate]
  rfl

/-! ### The array of `sort_run_sort` under `SORT_ELIM_DUP` -/

/-- With `SORT_ELIM_DUP`, for every pointer array of distinct records whose cells
`0 .. limit - sort_numrecs - 1` hold the new records `A` and whose other cells hold
the records `Kpre` kept by the sort before, in strictly ascending order:
`sort_run_sort` returns, the array it hands back is strictly ascending, its
records are records of the input and every record of the input compares equal to
one of them. -/
theorem sort_run_sort_elim_dup_ascending (compare : Nat → Nat → Int)
    (hswo : StrictWeakOrder compare) (m : SortMem) (limit sort_numrecs : Int)
    (A Kpre : List Nat) (h0 : 0 ≤ sort_numrecs) (h1 : sort_numrecs ≤ limit)
    (hA : seg m.high 0 (limit - sort_numrecs - 1) = A.map some)
    (hpre : seg m.high (limit - sort_numrecs) (limit - 1) = Kpre.map some)
    (hasc : StrictAsc compare Kpre) (hnd : (A ++ Kpre).Nodup) :
    ∃ r K, sort_run_sort compare SORT_DUP_OPTION.SORT_ELIM_DUP m limit sort_numrecs limit =
        some r ∧
      r.cells = K.map some ∧ StrictAsc compare K ∧
      (∀ k ∈ K, k ∈ A ∨ k ∈ Kpre) ∧ (∀ x, x ∈ A ∨ x ∈ Kpre → ∃ k ∈ K, compare x k = 0) := by
  have hlen : (Kpre.length : Int) = sort_numrecs := by
    have := congrArg List.length hpre
    rw [seg_length, List.length_map] at this
    omega
  obtain ⟨r, K, q1, q2, q3, q4, q5, -⟩ := sort_run_sort_spec compare hswo
    SORT_DUP_OPTION.SORT_ELIM_DUP m limit sort_numrecs A Kpre h0 h1 hA
    (fun h => by cases h)
    (by
      by_cases hz : sort_numrecs = 0
      · rw [if_pos hz]
        exact List.eq_nil_of_length_eq_zero (by omega)
      · rw [if_neg hz]
        exact ⟨Kpre, le_refl _, by simp only []; omega, by simp only []; omega, hpre, hasc,
          fun k hk => hk, fun x hx => ⟨x, hx, hswo.refl x⟩, fun h => by cases h⟩)
    (by
      have hp : (Kpre ++ A.reverse).Perm (A ++ Kpre) :=
        (List.perm_append_comm).trans (List.Perm.append_right _ (List.reverse_perm A))
      exact hp.nodup_iff.2 hnd)
  refine ⟨r, K, q1, q2, q3, ?_, ?_⟩
  · intro k hk
    rcases List.mem_append.1 (q4 k hk) with h | h
    · exact Or.inr h
    · exact Or.inl (List.mem_reverse.1 h)
  · intro x hx
    apply q5
    rcases hx with h | h
    · exact List.mem_append_right _ (List.mem_reverse.2 h)
    · exact List.mem_append_left _ h

theorem StrictAsc_adjacent {compare : Nat → Nat → Int} (K : List Nat)
    (h : StrictAsc compare K) (i : Nat) (hi : i + 1 < K.length) :
    compare (K.getD i 0) (K.getD (i + 1) 0) ≠ 0 := by
  have h1 := (List.pairwise_iff_getElem.1 h) i (i + 1) (by omega) hi (by omega)
  rw [List.getD_eq_getElem _ _ (by omega : i < K.length), List.getD_eq_getElem _ _ hi]
  omega

/-! ## The merge phase with duplicate elimination: proofs -/

/-! ### Orders on the data of records -/

theorem DataOrder.eqv_symm {compare : List Byte → List Byte → Int} (h : DataOrder compare)
    {a b : List Byte} (hab : compare a b = 0) : compare b a = 0 := by
  have h1 := h.symm a b
  have h2 := h.symm b a
  omega

theorem DataOrder.lt_of_lt_of_eqv {compare : List Byte → List Byte → Int}
    (h : DataOrder compare) {a b c : List Byte} (hab : compare a b < 0)
    (hbc : compare b c = 0) : compare a c < 0 := by
  by_contra hn
  rcases lt_trichotomy (compare a c) 0 with h1 | h1 | h1
  · exact hn h1
  · have := h.trans_eq a c b h1 (h.eqv_symm hbc); omega
  · have h2 : compare c a < 0 := (h.symm c a).2 h1
    have h3 := h.trans_lt c a b h2 hab
    have h4 := h.eqv_symm hbc
    omega

theorem DataOrder.lt_of_eqv_of_lt {compare : List Byte → List Byte → Int}
    (h : DataOrder compare) {a b c : List Byte} (hab : compare a b = 0)
    (hbc : compare b c < 0) : compare a c < 0 := by
  by_contra hn
  rcases lt_trichotomy (compare a c) 0 with h1 | h1 | h1
  · exact hn h1
  · have := h.trans_eq b a c (h.eqv_symm hab) h1; omega
  · have h2 : compare c a < 0 := (h.symm c a).2 h1
    have h3 := h.trans_lt b c a hbc h2
    have h4 := h.eqv_symm hab
    omega

theorem DataOrder.lt_of_lt_of_le {compare : List Byte → List Byte → Int}
    (h : DataOrder compare) {a b c : List Byte} (hab : compare a b < 0)
    (hbc : compare b c ≤ 0) : compare a c < 0 := by
  rcases lt_or_eq_of_le hbc with h1 | h1
  · exact h.trans_lt a b c hab h1
  · exact h.lt_of_lt_of_eqv hab h1

theorem DataOrder.lt_of_le_of_lt {compare : List Byte → List Byte → Int}
    (h : DataOrder compare) {a b c : List Byte} (hab : compare a b ≤ 0)
    (hbc : compare b c < 0) : compare a c < 0 := by
  rcases lt_or_eq_of_le hab with h1 | h1
  · exact h.trans_lt a b c h1 hbc
  · exact h.lt_of_eqv_of_lt h1 hbc

theorem DataOrder.le_trans {compare : List Byte → List Byte → Int}
    (h : DataOrder compare) {a b c : List Byte} (hab : compare a b ≤ 0)
    (hbc : compare b c ≤ 0) : compare a c ≤ 0 := by
  rcases lt_or_eq_of_le hab with h1 | h1
  · exact le_of_lt (h.lt_of_lt_of_le h1 hbc)
  · rcases lt_or_eq_of_le hbc with h2 | h2
    · exact le_of_lt (h.lt_of_eqv_of_lt h1 h2)
    · exact le_of_eq (h.trans_eq a b c h1 h2)

theorem DataOrder.lt_of_gt {compare : List Byte → List Byte → Int}
    (h : DataOrder compare) {a b : List Byte} (hab : compare a b > 0) : compare b a < 0 :=
  (h.symm b a).2 hab

theorem DataOrder.sift_order {compare : List Byte → List Byte → Int} (h : DataOrder compare) :
    SiftOrder compare :=
  ⟨fun a => le_of_eq (h.refl a), fun hab => h.lt_of_gt hab, fun hab hbc => h.le_trans hab hbc,
    fun hab hbc => h.lt_of_lt_of_le hab hbc, fun hab hbc => h.lt_of_le_of_lt hab hbc,
    fun hab hbc => h.lt_of_eqv_of_lt hab hbc⟩

theorem EnvOK.sift {E : MergeEnv} (h : EnvOK E) : EnvSift E :=
  ⟨h.env, h.align, h.order.sift_order, h.cut_left, h.cut_right⟩

/-! ### The records of a page -/

theorem get_peek_success (env : PageEnv) (pg : Page) (s : Int) (buf : RECDES)
    (h : (sort_spage_get_record env pg s buf PeekMode.PEEK).1 = SCAN_CODE.S_SUCCESS) :
    0 ≤ s ∧ s < pg.hdr.nslots ∧
      (sort_spage_get_record env pg s buf PeekMode.PEEK).2 = slot_record pg s.toNat := by
  unfold sort_spage_get_record at h ⊢
  by_cases hc : s < 0 ∨ s ≥ pg.hdr.nslots ∨ (pg.slots s.toNat).roffset = env.NULL_OFFSET
  · simp only [if_pos hc] at h
    exact absurd h (by decide)
  · simp only [if_neg hc]
    refine ⟨by omega, by omega, rfl⟩

theorem page_records_length (pg : Page) : (page_records pg).length = pg.hdr.nslots.toNat := by
  simp [page_records]

theorem page_records_getElem (pg : Page) (i : Nat) (h : i < (page_records pg).length) :
    (page_records pg)[i] = slot_record pg i := by
  simp [page_records]

theorem page_records_initialize (env : PageEnv) (henv : env.Valid) (pg : Page)
    (slots_type a : Int) (ha : ValidAlignment a) :
    page_records ( sort_spage_initialize env pg slots_type a) = [] := by
  unfold page_records
  rw [(initialize_hdr env henv pg slots_type a ha).1]
  rfl

theorem read_bytes_congr (b1 b2 : Int → Byte) (off len : Int)
    (h : ∀ i, off ≤ i → i < off + len → b1 i = b2 i) :
    read_bytes b1 off len = read_bytes b2 off len := by
  unfold read_bytes
  apply List.map_congr_left
  intro k hk
  rw [List.mem_range] at hk
  exact h _ (by omega) (by omega)

/-- What a page holds after an accepted insertion: the records before and the
record inserted. -/
theorem insert_page_records (env : PageEnv) (henv : env.Valid) (a : Int)
    (ha : ValidAlignment a) (qs : Qsort) (ok : Bool) (pg : Page) (hI : PageInv env a pg)
    (r : RECDES) (hr : r.WF) (pg1 : Page) (sid : Int)
    (h : sort_spage_insert env qs ok pg r = some (pg1, some sid)) :
    PageInv env a pg1 ∧
    page_records pg1 = page_records pg ++
      [{ area_size := -1, data := r.data, length := r.length, type := stored_type r.type }] := by
  have hI1 := insert_inv env henv a ha qs ok pg hI r hr pg1 _ h
  refine ⟨hI1, ?_⟩
  rcases insert_cases env henv a ha qs ok pg hI r hr with ⟨_, _, h3⟩ | ⟨_, h3⟩
  · rw [h3] at h
    simp only [Option.some.injEq, Prod.mk.injEq] at h
    obtain ⟨hpg, _⟩ := h
    have hn := hI.nslots_nonneg
    have hn1 : pg1.hdr.nslots.toNat = pg.hdr.nslots.toNat + 1 := by
      rw [← hpg]; simp only [hdr_after_insert]; omega
    unfold page_records
    rw [hn1, List.range_succ, List.map_append, List.map_singleton]
    congr 1
    · apply List.map_congr_left
      intro i hi
      rw [List.mem_range] at hi
      have hs : pg1.slots i = pg.slots i := by
        rw [← hpg]; simp only [set_slot]; rw [if_neg (by omega)]
      unfold slot_record
      rw [hs]
      have hb : read_bytes pg1.bytes (pg.slots i).roffset (pg.slots i).rlength =
          read_bytes pg.bytes (pg.slots i).roffset (pg.slots i).rlength := by
        apply read_bytes_congr
        intro k hk1 hk2
        rw [← hpg]
        simp only [memcpy_to_page]
        have := (hI.slot i (by omega)).2.2.2
        rw [if_neg (by omega)]
      rw [hb]
    · have hs : pg1.slots pg.hdr.nslots.toNat =
          { roffset := pg.hdr.foffset, rlength := r.length, rtype := stored_type r.type } := by
        rw [← hpg]; simp [set_slot]
      unfold slot_record
      rw [hs]
      simp only
      have hb : pg1.bytes = memcpy_to_page pg.bytes pg.hdr.foffset r.data r.length := by
        rw [← hpg]
      have hrl : r.length = (r.data.length : Int) := hr
      rw [hb, hrl, read_bytes_memcpy]
  · rw [h3] at h
    simp at h

theorem insert_refused (env : PageEnv) (henv : env.Valid) (a : Int)
    (ha : ValidAlignment a) (qs : Qsort) (ok : Bool) (pg : Page) (hI : PageInv env a pg)
    (r : RECDES) (hr : r.WF) (pg1 : Page)
    (h : sort_spage_insert env qs ok pg r = some (pg1, none)) : pg1 = pg := by
  rcases insert_cases env henv a ha qs ok pg hI r hr with ⟨_, _, h3⟩ | ⟨_, h3⟩
  · rw [h3] at h
    simp at h
  · rw [h3] at h
    simp only [Option.some.injEq, Prod.mk.injEq] at h
    exact h.1.symm

theorem slot_record_WF (env : PageEnv) (a : Int) (pg : Page) (hI : PageInv env a pg) (i : Nat)
    (hi : (i : Int) < pg.hdr.nslots) : (slot_record pg i).WF := by
  unfold RECDES.WF slot_record read_bytes
  simp only [List.length_map, List.length_range]
  have := (hI.slot i hi).1
  omega

theorem stored_type_bigone (t : RecType) :
    stored_type t = RecType.REC_BIGONE ↔ t = RecType.REC_BIGONE := by
  unfold stored_type
  cases t <;> simp

theorem PageInv_disjoint (env : PageEnv) (a : Int) (ha : ValidAlignment a) (pg : Page)
    (hI : PageInv env a pg) (i j : Nat) (hi : (i : Int) < pg.hdr.nslots)
    (hj : (j : Int) < pg.hdr.nslots) (hij : i ≠ j) (b : Int)
    (h1 : (pg.slots i).roffset ≤ b ∧ b < (pg.slots i).roffset + (pg.slots i).rlength) :
    ¬ ((pg.slots j).roffset ≤ b ∧ b < (pg.slots j).roffset + (pg.slots j).rlength) := by
  intro h2
  obtain ⟨σ, hσ, hL⟩ := hI.layout
  have hmem : ∀ i : Nat, i ∈ σ ↔ (i : Int) < pg.hdr.nslots := by
    intro i; rw [hσ.mem_iff, List.mem_range]; omega
  have hlen : ∀ k ∈ σ, 0 ≤ (pg.slots k).rlength := fun k hk => (hI.slot k ((hmem k).1 hk)).1
  have hpw := LayoutZ_pairwise pg.slots a ha pg.hdr.foffset σ hlen _ hL
  have hsym := (hpw.imp (S := fun s t =>
    ((pg.slots s).rlength ≠ 0 → (pg.slots t).rlength ≠ 0 →
      (pg.slots s).roffset + padded a (pg.slots s).rlength ≤ (pg.slots t).roffset) ∨
    ((pg.slots t).rlength ≠ 0 → (pg.slots s).rlength ≠ 0 →
      (pg.slots t).roffset + padded a (pg.slots t).rlength ≤ (pg.slots s).roffset))
    (fun h => Or.inl h)).forall (fun _ _ h => h.symm) ((hmem i).2 hi) ((hmem j).2 hj) hij
  have pi := (padded_bounds ha (pg.slots i).rlength).1
  have pj := (padded_bounds ha (pg.slots j).rlength).1
  rcases hsym with h3 | h3
  · have := h3 (by omega) (by omega); omega
  · have := h3 (by omega) (by omega); omega

theorem store_in_record_inv (env : PageEnv) (a : Int) (pg : Page) (hI : PageInv env a pg)
    (s : Int) (d : List Byte) : PageInv env a (store_in_record pg s d) :=
  { align := hI.align, nslots_nonneg := hI.nslots_nonneg, nrecs := hI.nrecs, cfree := hI.cfree,
    tfree := hI.tfree, tfree_nonneg := hI.tfree_nonneg, foffset_ge := hI.foffset_ge,
    foffset_al := hI.foffset_al, slot := hI.slot, layout := hI.layout }

theorem store_in_record_other (env : PageEnv) (a : Int) (ha : ValidAlignment a) (pg : Page)
    (hI : PageInv env a pg) (s : Int) (d : List Byte) (h0 : 0 ≤ s) (h1 : s < pg.hdr.nslots)
    (j : Nat) (hj : (j : Int) < pg.hdr.nslots) (hne : j ≠ s.toNat) :
    slot_record (store_in_record pg s d) j = slot_record pg j := by
  unfold slot_record store_in_record
  simp only
  have hb : read_bytes
      (memcpy_to_page pg.bytes (pg.slots s.toNat).roffset d (pg.slots s.toNat).rlength)
      (pg.slots j).roffset (pg.slots j).rlength =
      read_bytes pg.bytes (pg.slots j).roffset (pg.slots j).rlength := by
    apply read_bytes_congr
    intro k hk1 hk2
    simp only [memcpy_to_page]
    rw [if_neg]
    intro hk
    exact PageInv_disjoint env a ha pg hI j s.toNat hj (by omega) hne k ⟨hk1, hk2⟩ hk
  rw [hb]
/-! ### The list of the smallest elements -/

theorem find_minimum_from_spec (E : MergeEnv) (hord : SiftOrder E.compare) (v : MergeVars)
    (s : SORT_REC_LIST) (hs : s.is_duplicated = false) :
    ∀ rest : List SORT_REC_LIST,
      rest.Pairwise (fun n m => E.compare (v.data n.rec_pos) (v.data m.rec_pos) ≤ 0) →
      FlagPair E.compare v.data rest →
      (find_minimum_from E v s rest).Pairwise
        (fun n m => E.compare (v.data n.rec_pos) (v.data m.rec_pos) ≤ 0) ∧
      FlagPair E.compare v.data (find_minimum_from E v s rest) ∧
      List.Perm ((find_minimum_from E v s rest).map (fun n => n.rec_pos))
        ((s :: rest).map (fun n => n.rec_pos)) ∧
      (∀ n ∈ find_minimum_from E v s rest, n.is_duplicated = false →
        ∃ n0 ∈ s :: rest, n0.rec_pos = n.rec_pos ∧ n0.is_duplicated = false) := by
  intro rest
  induction rest with
  | nil =>
    intro _ _
    simp only [find_minimum_from]
    refine ⟨List.pairwise_singleton _ _, List.pairwise_singleton _ _, List.Perm.refl _, ?_⟩
    intro n hn hd
    exact ⟨n, hn, rfl, hd⟩
  | cons p r ih =>
    intro hsorted hflag
    have hsr := List.pairwise_cons.1 hsorted
    have hfr := List.pairwise_cons.1 hflag
    simp only [find_minimum_from]
    by_cases h1 : E.compare (v.data s.rec_pos) (v.data p.rec_pos) > 0
    · rw [if_pos h1]
      obtain ⟨i1, i2, i3, i4⟩ := ih hsr.2 hfr.2
      have hps : E.compare (v.data p.rec_pos) (v.data s.rec_pos) < 0 := hord.lt_of_gt h1
      have hmem : ∀ n ∈ find_minimum_from E v s r,
          n.rec_pos = s.rec_pos ∨ ∃ n0 ∈ r, n0.rec_pos = n.rec_pos := by
        intro n hn
        have : n.rec_pos ∈ (s :: r).map (fun n => n.rec_pos) :=
          i3.subset (List.mem_map_of_mem _ hn)
        simp only [List.map_cons, List.mem_cons, List.mem_map] at this
        rcases this with h | ⟨n0, h, h'⟩
        · exact Or.inl h
        · exact Or.inr ⟨n0, h, h'⟩
      refine ⟨List.pairwise_cons.2 ⟨?_, i1⟩, List.pairwise_cons.2 ⟨?_, i2⟩, ?_, ?_⟩
      · intro n hn
        rcases hmem n hn with h | ⟨n0, h, h'⟩
        · rw [h]; exact le_of_lt hps
        · rw [← h']; exact hsr.1 n0 h
      · intro n hn hd
        obtain ⟨n0, hn0, e1, e2⟩ := i4 n hn hd
        rw [← e1]
        rcases List.mem_cons.1 hn0 with h | h
        · rw [h]; exact hps
        · exact hfr.1 n0 h e2
      · simp only [List.map_cons]
        exact (List.Perm.cons _ i3).trans (List.Perm.swap _ _ _)
      · intro n hn hd
        rcases List.mem_cons.1 hn with h | h
        · exact ⟨p, by simp, by rw [h], by rw [← h]; exact hd⟩
        · obtain ⟨n0, hn0, e1, e2⟩ := i4 n h hd
          refine ⟨n0, ?_, e1, e2⟩
          rcases List.mem_cons.1 hn0 with h' | h'
          · rw [h']; simp
          · simp [h']
    · rw [if_neg h1]
      have hle : E.compare (v.data s.rec_pos) (v.data p.rec_pos) ≤ 0 := by omega
      have hsall : ∀ n ∈ r, E.compare (v.data s.rec_pos) (v.data n.rec_pos) ≤ 0 :=
        fun n hn => hord.le_trans hle (hsr.1 n hn)
      by_cases h2 : E.compare (v.data s.rec_pos) (v.data p.rec_pos) = 0
      · rw [if_pos h2]
        refine ⟨?_, ?_, List.Perm.refl _, ?_⟩
        · refine List.pairwise_cons.2 ⟨?_, List.pairwise_cons.2 ⟨hsr.1, hsr.2⟩⟩
          intro n hn
          rcases List.mem_cons.1 hn with h | h
          · rw [h]; exact hle
          · exact hsall n h
        · refine List.pairwise_cons.2 ⟨?_, List.pairwise_cons.2 ⟨hfr.1, hfr.2⟩⟩
          intro n hn hd
          rcases List.mem_cons.1 hn with h | h
          · rw [h] at hd; simp at hd
          · exact hord.lt_of_eqv_of_lt h2 (hfr.1 n h hd)
        · intro n hn hd
          rcases List.mem_cons.1 hn with h | h
          · exact ⟨s, by simp, by rw [h], hs⟩
          · rcases List.mem_cons.1 h with h' | h'
            · rw [h'] at hd; simp at hd
            · exact ⟨n, by simp [h'], rfl, hd⟩
      · rw [if_neg h2]
        have hlt : E.compare (v.data s.rec_pos) (v.data p.rec_pos) < 0 := by omega
        refine ⟨?_, ?_, List.Perm.refl _, ?_⟩
        · refine List.pairwise_cons.2 ⟨?_, hsorted⟩
          intro n hn
          rcases List.mem_cons.1 hn with h | h
          · rw [h]; exact hle
          · exact hsall n h
        · refine List.pairwise_cons.2 ⟨?_, hflag⟩
          intro n hn _
          rcases List.mem_cons.1 hn with h | h
          · rw [h]; exact hlt
          · exact hord.lt_of_lt_of_le hlt (hsr.1 n h)
        · intro n hn hd
          exact ⟨n, hn, rfl, hd⟩
theorem sr_list_sort_inner_spec (E : MergeEnv) (hord : SiftOrder E.compare) (v : MergeVars) :
    ∀ (l : List SORT_REC_LIST) (s_pos : Int),
      E.compare (v.data (sr_list_sort_inner E v s_pos l).1) (v.data s_pos) ≤ 0 ∧
      (∀ n ∈ (sr_list_sort_inner E v s_pos l).2,
        E.compare (v.data (sr_list_sort_inner E v s_pos l).1) (v.data n.rec_pos) ≤ 0) ∧
      List.Perm ((sr_list_sort_inner E v s_pos l).1 ::
        (sr_list_sort_inner E v s_pos l).2.map (fun n => n.rec_pos))
        (s_pos :: l.map (fun n => n.rec_pos)) ∧
      (sr_list_sort_inner E v s_pos l).2.length = l.length ∧
      ((∀ n ∈ l, n.is_duplicated = false) →
        ∀ n ∈ (sr_list_sort_inner E v s_pos l).2, n.is_duplicated = false) := by
  intro l
  induction l with
  | nil =>
    intro s_pos
    have h0 := hord.refl_le (v.data s_pos)
    simp [sr_list_sort_inner, h0]
  | cons p rest ih =>
    intro s_pos
    simp only [sr_list_sort_inner]
    by_cases h1 : E.compare (v.data s_pos) (v.data p.rec_pos) > 0
    · rw [if_pos h1]
      obtain ⟨i1, i2, i3, i4, i5⟩ := ih p.rec_pos
      have hps : E.compare (v.data p.rec_pos) (v.data s_pos) < 0 := hord.lt_of_gt h1
      refine ⟨hord.le_trans i1 (le_of_lt hps), ?_, ?_, ?_, ?_⟩
      · intro n hn
        rcases List.mem_cons.1 hn with h | h
        · rw [h]; exact hord.le_trans i1 (le_of_lt hps)
        · exact i2 n h
      · simp only [List.map_cons]
        exact (List.Perm.swap _ _ _).trans ((List.Perm.cons _ i3).trans (List.Perm.refl _))
      · simp only [List.length_cons, i4]
      · intro hall n hn
        rcases List.mem_cons.1 hn with h | h
        · rw [h]; exact hall p (List.mem_cons_self _ _)
        · exact i5 (fun m hm => hall m (List.mem_cons_of_mem _ hm)) n h
    · rw [if_neg h1]
      obtain ⟨i1, i2, i3, i4, i5⟩ := ih s_pos
      have hle : E.compare (v.data s_pos) (v.data p.rec_pos) ≤ 0 := by omega
      refine ⟨i1, ?_, ?_, ?_, ?_⟩
      · intro n hn
        rcases List.mem_cons.1 hn with h | h
        · rw [h]; exact hord.le_trans i1 hle
        · exact i2 n h
      · simp only [List.map_cons]
        exact (List.Perm.swap _ _ _).trans ((List.Perm.cons _ i3).trans (List.Perm.swap _ _ _))
      · simp only [List.length_cons, i4]
      · intro hall n hn
        rcases List.mem_cons.1 hn with h | h
        · rw [h]; exact hall p (List.mem_cons_self _ _)
        · exact i5 (fun m hm => hall m (List.mem_cons_of_mem _ hm)) n h

theorem sr_list_sort_spec (E : MergeEnv) (hord : SiftOrder E.compare) (v : MergeVars) :
    ∀ (fuel : Nat) (l : List SORT_REC_LIST), l.length ≤ fuel →
      (sr_list_sort E v fuel l).Pairwise
        (fun n m => E.compare (v.data n.rec_pos) (v.data m.rec_pos) ≤ 0) ∧
      List.Perm ((sr_list_sort E v fuel l).map (fun n => n.rec_pos))
        (l.map (fun n => n.rec_pos)) ∧
      ((∀ n ∈ l, n.is_duplicated = false) →
        ∀ n ∈ sr_list_sort E v fuel l, n.is_duplicated = false) := by
  intro fuel
  induction fuel with
  | zero =>
    intro l hl
    have : l = [] := List.length_eq_zero.1 (by omega)
    subst this
    simp [sr_list_sort]
  | succ n ih =>
    intro l hl
    cases l with
    | nil => simp [sr_list_sort]
    | cons s rest =>
      simp only [sr_list_sort]
      obtain ⟨i1, i2, i3, i4, i5⟩ := sr_list_sort_inner_spec E hord v rest s.rec_pos
      obtain ⟨j1, j2, j3⟩ := ih (sr_list_sort_inner E v s.rec_pos rest).2
        (by rw [i4]; simp only [List.length_cons] at hl; omega)
      refine ⟨List.pairwise_cons.2 ⟨?_, j1⟩, ?_, ?_⟩
      · intro m hm
        have : m.rec_pos ∈ (sr_list_sort_inner E v s.rec_pos rest).2.map (fun n => n.rec_pos) :=
          j2.subset (List.mem_map_of_mem _ hm)
        obtain ⟨m0, hm0, e⟩ := List.mem_map.1 this
        rw [← e]
        exact i2 m0 hm0
      · simp only [List.map_cons]
        exact (List.Perm.cons _ j2).trans i3
      · intro hall m hm
        rcases List.mem_cons.1 hm with h | h
        · rw [h]; exact hall s (List.mem_cons_self _ _)
        · exact j3 (i5 (fun k hk => hall k (List.mem_cons_of_mem _ hk))) m h

theorem sr_list_find_duplicate_from_spec (E : MergeEnv) (hord : SiftOrder E.compare)
    (v : MergeVars) :
    ∀ (l : List SORT_REC_LIST) (s_pos : Int),
      (∀ n ∈ l, E.compare (v.data s_pos) (v.data n.rec_pos) ≤ 0) →
      l.Pairwise (fun n m => E.compare (v.data n.rec_pos) (v.data m.rec_pos) ≤ 0) →
      (sr_list_find_duplicate_from E v s_pos l).map (fun n => n.rec_pos) =
        l.map (fun n => n.rec_pos) ∧
      FlagPair E.compare v.data (sr_list_find_duplicate_from E v s_pos l) ∧
      ∀ m ∈ sr_list_find_duplicate_from E v s_pos l, m.is_duplicated = false →
        E.compare (v.data s_pos) (v.data m.rec_pos) < 0 := by
  intro l
  induction l with
  | nil =>
    intro s_pos _ _
    simp [sr_list_find_duplicate_from, FlagPair]
  | cons p rest ih =>
    intro s_pos hle hsorted
    have hsr := List.pairwise_cons.1 hsorted
    obtain ⟨i1, i2, i3⟩ := ih p.rec_pos hsr.1 hsr.2
    simp only [sr_list_find_duplicate_from]
    have hpos : (if E.compare (v.data s_pos) (v.data p.rec_pos) = 0 then
        { p with is_duplicated := true } else p).rec_pos = p.rec_pos := by
      split <;> rfl
    refine ⟨?_, List.pairwise_cons.2 ⟨?_, i2⟩, ?_⟩
    · simp only [List.map_cons, hpos, i1]
    · intro m hm hd
      rw [hpos]
      exact i3 m hm hd
    · intro m hm hd
      rcases List.mem_cons.1 hm with h | h
      · rw [h, hpos]
        rw [h] at hd
        have h1 := hle p (List.mem_cons_self _ _)
        by_cases h0 : E.compare (v.data s_pos) (v.data p.rec_pos) = 0
        · rw [if_pos h0] at hd; simp at hd
        · omega
      · exact hord.lt_of_le_of_lt (hle p (List.mem_cons_self _ _)) (i3 m h hd)

theorem pairwise_of_map_eq (cmp : List Byte → List Byte → Int) (K : Int → List Byte)
    (l1 l2 : List SORT_REC_LIST)
    (h : l1.map (fun n => n.rec_pos) = l2.map (fun n => n.rec_pos))
    (h2 : l2.Pairwise (fun n m => cmp (K n.rec_pos) (K m.rec_pos) ≤ 0)) :
    l1.Pairwise (fun n m => cmp (K n.rec_pos) (K m.rec_pos) ≤ 0) := by
  have e : ∀ l : List SORT_REC_LIST,
      l.Pairwise (fun n m => cmp (K n.rec_pos) (K m.rec_pos) ≤ 0) ↔
      (l.map (fun n => n.rec_pos)).Pairwise (fun a b => cmp (K a) (K b) ≤ 0) := by
    intro l; rw [List.pairwise_map]
  rw [e, h, ← e]; exact h2

/-- The list of the smallest elements after `sort sr_list` and `find duplicate`
satisfies the invariant, nothing being sent out yet. -/
theorem sr_list_init_order (E : MergeEnv) (hord : SiftOrder E.compare) (v : MergeVars)
    (act_infiles : Int) :
    OrderInv E.compare v.data []
      (sr_list_find_duplicate E v
        (sr_list_sort E v (sr_list_init act_infiles).length (sr_list_init act_infiles))) ∧
    List.Perm ((sr_list_find_duplicate E v
        (sr_list_sort E v (sr_list_init act_infiles).length
          (sr_list_init act_infiles))).map (fun n => n.rec_pos))
      ((sr_list_init act_infiles).map (fun n => n.rec_pos)) := by
  obtain ⟨s1, s2, _⟩ := sr_list_sort_spec E hord v _ (sr_list_init act_infiles) (le_refl _)
  generalize sr_list_sort E v (sr_list_init act_infiles).length (sr_list_init act_infiles) = l
    at s1 s2
  have hnd : ((sr_list_init act_infiles).map (fun n => n.rec_pos)).Nodup := by
    unfold sr_list_init
    rw [List.map_map]
    have : ((fun (n : SORT_REC_LIST) => n.rec_pos) ∘
        fun (i : Nat) => ({ rec_pos := (i : Int), is_duplicated := false } : SORT_REC_LIST)) =
        fun (i : Nat) => (i : Int) := rfl
    rw [this]
    exact (List.nodup_range _).map (fun a b h => by simpa using h)
  cases l with
  | nil =>
    simp only [sr_list_find_duplicate]
    exact ⟨⟨by simp, List.Pairwise.nil, by simp, by simp, List.Pairwise.nil, by simp⟩, s2⟩
  | cons s rest =>
    have hsr := List.pairwise_cons.1 s1
    obtain ⟨i1, i2, i3⟩ := sr_list_find_duplicate_from_spec E hord v rest s.rec_pos hsr.1 hsr.2
    simp only [sr_list_find_duplicate]
    have hmap : (s :: sr_list_find_duplicate_from E v s.rec_pos rest).map (fun n => n.rec_pos) =
        (s :: rest).map (fun n => n.rec_pos) := by
      simp only [List.map_cons, i1]
    refine ⟨⟨?_, ?_, by simp, by simp, i2, ?_⟩, ?_⟩
    · rw [hmap]; exact (s2.nodup_iff).2 hnd
    · exact pairwise_of_map_eq _ _ _ _ hmap s1
    · intro h hh m hm hd
      simp only [List.head?_cons, Option.mem_def, Option.some.injEq] at hh
      rw [← hh]
      exact Or.inr (i3 m hm hd)
    · rw [hmap]; exact s2
/-! ### Sequences of pages -/

theorem aset_same {α : Type} (f : Int → α) (i : Int) (x : α) : aset f i x i = x := by
  simp [aset]

theorem aset_other {α : Type} (f : Int → α) (i j : Int) (x : α) (h : j ≠ i) :
    aset f i x j = f j := by
  simp [aset, h]

theorem pages_seq_nonpos (f : Int → Page) (p n : Int) (h : n ≤ 0) : pages_seq f p n = [] := by
  unfold pages_seq
  have : n.toNat = 0 := by omega
  rw [this]; rfl

theorem pages_seq_length (f : Int → Page) (p n : Int) : (pages_seq f p n).length = n.toNat := by
  simp [pages_seq]

theorem pages_seq_succ (f : Int → Page) (p n : Int) (h : 0 < n) :
    pages_seq f p n = f p :: pages_seq f (p + 1) (n - 1) := by
  unfold pages_seq
  have : n.toNat = (n - 1).toNat + 1 := by omega
  rw [this, List.range_succ_eq_map, List.map_cons, List.map_map]
  simp only [Nat.cast_zero, add_zero, List.cons.injEq, true_and]
  apply List.map_congr_left
  intro k _
  simp only [Function.comp, Nat.cast_succ]
  congr 1
  omega

theorem mem_pages_seq (f : Int → Page) (p n : Int) (pg : Page) :
    pg ∈ pages_seq f p n ↔ ∃ j, p ≤ j ∧ j < p + n ∧ f j = pg := by
  unfold pages_seq
  rw [List.mem_map]
  constructor
  · rintro ⟨k, hk, e⟩
    rw [List.mem_range] at hk
    exact ⟨p + k, by omega, by omega, e⟩
  · rintro ⟨j, h1, h2, e⟩
    refine ⟨(j - p).toNat, ?_, ?_⟩
    · rw [List.mem_range]; omega
    · have : p + ((j - p).toNat : Int) = j := by omega
      rw [this]; exact e

theorem pages_seq_shift (f g : Int → Page) (p q n : Int)
    (h : ∀ k : Int, 0 ≤ k → k < n → f (p + k) = g (q + k)) :
    pages_seq f p n = pages_seq g q n := by
  unfold pages_seq
  apply List.map_congr_left
  intro k hk
  rw [List.mem_range] at hk
  exact h k (by omega) (by omega)

theorem pages_seq_congr (f g : Int → Page) (p n : Int)
    (h : ∀ j : Int, p ≤ j → j < p + n → f j = g j) :
    pages_seq f p n = pages_seq g p n :=
  pages_seq_shift f g p p n (fun k h0 h1 => h (p + k) (by omega) (by omega))

theorem pages_seq_append (f : Int → Page) (p m n : Int) (hm : 0 ≤ m) (hn : 0 ≤ n) :
    pages_seq f p (m + n) = pages_seq f p m ++ pages_seq f (p + m) n := by
  unfold pages_seq
  have : (m + n).toNat = m.toNat + n.toNat := by omega
  rw [this, List.range_add, List.map_append, List.map_map]
  congr 1
  apply List.map_congr_left
  intro k _
  simp only [Function.comp, Nat.cast_add]
  congr 1
  omega

theorem recs_of_nil : recs_of [] = [] := rfl

theorem recs_of_cons (pg : Page) (l : List Page) :
    recs_of (pg :: l) = page_records pg ++ recs_of l := by
  simp [recs_of]

theorem recs_of_append (l1 l2 : List Page) : recs_of (l1 ++ l2) = recs_of l1 ++ recs_of l2 := by
  simp [recs_of]

theorem KeyAsc_append (E : MergeEnv) (l1 l2 : List RECDES) :
    KeyAsc E (l1 ++ l2) ↔ KeyAsc E l1 ∧ KeyAsc E l2 ∧
      ∀ a ∈ l1, ∀ b ∈ l2, E.compare (E.key a) (E.key b) < 0 := by
  unfold KeyAsc
  rw [List.pairwise_append]

theorem KeyAsc_drop (E : MergeEnv) (l : List RECDES) (n : Nat) (h : KeyAsc E l) :
    KeyAsc E (l.drop n) :=
  List.Pairwise.sublist (List.drop_sublist n l) h
/-! ### The inputs of the merge -/

theorem SameStatic_refl (v : MergeVars) : SameStatic v v :=
  ⟨rfl, rfl, rfl, rfl, rfl, rfl, rfl, rfl, rfl, rfl, rfl, rfl⟩

theorem SameStatic_trans {v v1 v2 : MergeVars} (h1 : SameStatic v v1) (h2 : SameStatic v1 v2) :
    SameStatic v v2 :=
  ⟨h2.tot_buffers.trans h1.tot_buffers, h2.tot_tempfiles.trans h1.tot_tempfiles,
    h2.half_files.trans h1.half_files, h2.in_half.trans h1.in_half,
    h2.act_infiles.trans h1.act_infiles, h2.in_sectsize.trans h1.in_sectsize,
    h2.in_sectaddr.trans h1.in_sectaddr, h2.out_half.trans h1.out_half,
    h2.cur_outfile.trans h1.cur_outfile, h2.out_sectsize.trans h1.out_sectsize,
    h2.out_sectaddr.trans h1.out_sectaddr, h2.very_last_run.trans h1.very_last_run⟩

theorem in_pages_frame (v v1 : MergeVars) (i : Int) (hs : SameStatic v v1)
    (hi : SameInput v v1 i) (hf : SameFile v v1 (v.sp.in_half + i))
    (hbuf : 0 ≤ v.in_act_bufno i ∧ v.in_last_buf i ≤ v.in_sectsize)
    (haddr : v.in_cur_bufaddr i = v.in_sectaddr i + v.in_act_bufno i) :
    in_pages v1 i = in_pages v i := by
  unfold in_pages
  simp only [hs.in_half, hf.contents, hf.cur_page, hf.temp, hi.in_cur_bufaddr, hi.in_last_buf,
    hi.in_act_bufno]
  congr 1
  apply pages_seq_congr
  intro j h1 h2
  exact hi.memory j (by omega) (by omega)

theorem in_rest_frame (v v1 : MergeVars) (i : Int) (hs : SameStatic v v1)
    (hi : SameInput v v1 i) (hf : SameFile v v1 (v.sp.in_half + i))
    (hbuf : 0 ≤ v.in_act_bufno i ∧ v.in_last_buf i ≤ v.in_sectsize)
    (haddr : v.in_cur_bufaddr i = v.in_sectaddr i + v.in_act_bufno i) :
    in_rest v1 i = in_rest v i := by
  unfold in_rest
  rw [in_pages_frame v v1 i hs hi hf hbuf haddr, hi.act_slot]

theorem InputInv_frame (E : MergeEnv) (v v1 : MergeVars) (i : Int) (k : List Byte)
    (hs : SameStatic v v1) (hi : SameInput v v1 i) (hf : SameFile v v1 (v.sp.in_half + i))
    (h : InputInv E v i k) : InputInv E v1 i k := by
  have hp := in_pages_frame v v1 i hs hi hf ⟨h.bufno.1, h.bufno.2.2⟩ h.addr
  have hr : in_rest v1 i = in_rest v i := by
    unfold in_rest; rw [hp, hi.act_slot]
  have hmem : v1.sp.internal_memory (v.in_cur_bufaddr i) =
      v.sp.internal_memory (v.in_cur_bufaddr i) :=
    hi.memory _ (by have := h.addr; have := h.bufno; omega)
      (by have := h.addr; have := h.bufno; omega)
  refine ⟨?_, ?_, ?_, ?_, ?_, ?_, ?_, ?_⟩
  · rw [hi.in_act_bufno, hi.in_last_buf, hs.in_sectsize]; exact h.bufno
  · rw [hi.in_cur_bufaddr, hi.in_act_bufno, hs.in_sectaddr]; exact h.addr
  · rw [hi.act_slot, hi.last_slot]; exact h.slot
  · rw [hi.last_slot, hi.in_cur_bufaddr, hmem]; exact h.last
  · rw [hs.in_half, hf.contents]; exact h.npages
  · rw [hp]; exact h.pages
  · rw [hr]; exact h.asc
  · rw [hr]; exact h.head

theorem MergeVars.data_frame (v v1 : MergeVars) (i : Int)
    (h1 : v1.smallest_elem_ptr i = v.smallest_elem_ptr i)
    (h2 : v1.long_recdes i = v.long_recdes i) : v1.data i = v.data i := by
  unfold MergeVars.data; rw [h1, h2]

theorem NodeOK_frame (E : MergeEnv) (v v1 : MergeVars) (i : Int)
    (hs : SameStatic v v1) (hi : SameInput v v1 i) (hf : SameFile v v1 (v.sp.in_half + i))
    (h : NodeOK E v i) : NodeOK E v1 i := by
  have hd := MergeVars.data_frame v v1 i hi.smallest_elem_ptr hi.long_recdes
  have hmem : v1.sp.internal_memory (v.in_cur_bufaddr i) =
      v.sp.internal_memory (v.in_cur_bufaddr i) :=
    hi.memory _ (by have := h.input.addr; have := h.input.bufno; omega)
      (by have := h.input.addr; have := h.input.bufno; omega)
  refine ⟨?_, ?_, ?_⟩
  · rw [hd]; exact InputInv_frame E v v1 i _ hs hi hf h.input
  · rw [hi.smallest_elem_ptr, hi.in_cur_bufaddr, hi.act_slot, hmem]; exact h.small
  · rw [hd, hi.smallest_elem_ptr]; exact h.key

theorem fetch_smallest_spec (E : MergeEnv) (w v3 : MergeVars) (i : Int)
    (h : fetch_smallest E w i = Step.next v3) :
    0 ≤ w.act_slot i ∧
    w.act_slot i < (w.sp.internal_memory (w.in_cur_bufaddr i)).hdr.nslots ∧
    v3.smallest_elem_ptr i =
      slot_record (w.sp.internal_memory (w.in_cur_bufaddr i)) (w.act_slot i).toNat ∧
    v3.data i = E.key (v3.smallest_elem_ptr i) ∧
    (∀ j, j ≠ i → v3.smallest_elem_ptr j = w.smallest_elem_ptr j ∧
      v3.long_recdes j = w.long_recdes j) ∧
    v3 = { w with smallest_elem_ptr := v3.smallest_elem_ptr, long_recdes := v3.long_recdes } := by
  unfold fetch_smallest at h
  simp only at h
  by_cases hc : (sort_spage_get_record E.env (w.sp.internal_memory (w.in_cur_bufaddr i))
      (w.act_slot i) (w.smallest_elem_ptr i) PeekMode.PEEK).1 ≠ SCAN_CODE.S_SUCCESS
  · rw [if_pos hc] at h
    exact absurd h (by simp)
  · rw [if_neg hc] at h
    have hc' := not_not.1 hc
    obtain ⟨g1, g2, g3⟩ := get_peek_success _ _ _ _ hc'
    rw [g3] at h
    by_cases hb : (slot_record (w.sp.internal_memory (w.in_cur_bufaddr i))
        (w.act_slot i).toNat).type = RecType.REC_BIGONE
    · rw [if_pos hb] at h
      unfold sort_retrieve_longrec at h
      cases ho : E.overflow_get
          (slot_record (w.sp.internal_memory (w.in_cur_bufaddr i)) (w.act_slot i).toNat).data with
      | none => rw [ho] at h; simp at h
      | some content =>
        rw [ho] at h
        simp only [Step.next.injEq] at h
        subst h
        refine ⟨g1, g2, by simp [aset], ?_, ?_, rfl⟩
        · simp [MergeVars.data, MergeEnv.key, aset, hb, ho]
        · intro j hj
          simp [aset, hj]
    · rw [if_neg hb] at h
      simp only [Step.next.injEq] at h
      subst h
      refine ⟨g1, g2, by simp [aset], ?_, ?_, rfl⟩
      · simp [MergeVars.data, MergeEnv.key, aset, hb]
      · intro j hj
        simp [aset, hj]
theorem recs_of_drop_slot (pg : Page) (l : List Page) (a : Nat) (ha : (a : Int) < pg.hdr.nslots) :
    (recs_of (pg :: l)).drop a = slot_record pg a :: (recs_of (pg :: l)).drop (a + 1) := by
  have hlen : a < (page_records pg).length := by rw [page_records_length]; omega
  have hlen2 : a < (recs_of (pg :: l)).length := by
    rw [recs_of_cons, List.length_append]; omega
  rw [List.drop_eq_getElem_cons hlen2]
  congr 1
  simp only [recs_of_cons]
  rw [List.getElem_append_left hlen, page_records_getElem]

theorem recs_of_drop_page (pg : Page) (l : List Page) (a : Nat) (ha : a = pg.hdr.nslots.toNat) :
    (recs_of (pg :: l)).drop a = recs_of l := by
  rw [recs_of_cons, ha, ← page_records_length]
  exact List.drop_left _ _

/-- The input `min` after its next record is got in the state `w`, when what
the input still had in the state `v` is what it has in `w` from the active slot
of `w` on. -/
theorem node_establish (E : MergeEnv) (v w v3 : MergeVars) (min : Int) (k : List Byte)
    (hasc : KeyAsc E (in_rest v min)) (hhead : ∀ r ∈ in_rest v min, E.compare k (E.key r) < 0)
    (hbuf : 0 ≤ w.in_act_bufno min ∧ w.in_act_bufno min < w.in_last_buf min ∧
      w.in_last_buf min ≤ w.in_sectsize)
    (haddr : w.in_cur_bufaddr min = w.in_sectaddr min + w.in_act_bufno min)
    (hlast : w.last_slot min =
      sort_spage_get_numrecs (w.sp.internal_memory (w.in_cur_bufaddr min)))
    (hnp : 0 ≤ (w.sp.file_contents (w.sp.in_half + min)).num_pages
      (w.sp.file_contents (w.sp.in_half + min)).first_run)
    (hpages : ∀ pg ∈ in_pages w min, PageInv E.env E.MAX_ALIGNMENT pg)
    (hrest : in_rest v min = (recs_of (in_pages w min)).drop (w.act_slot min).toNat)
    (hf : fetch_smallest E w min = Step.next v3) :
    NodeOK E v3 min ∧ E.compare k (v3.data min) < 0 ∧
      in_rest v min = v3.smallest_elem_ptr min :: in_rest v3 min := by
  obtain ⟨f1, f2, f3, f4, _, f6⟩ := fetch_smallest_spec E w v3 min hf
  have e_sp : v3.sp = w.sp := by rw [f6]
  have e_cp : v3.cur_page = w.cur_page := by rw [f6]
  have e_ab : v3.in_act_bufno = w.in_act_bufno := by rw [f6]
  have e_lb : v3.in_last_buf = w.in_last_buf := by rw [f6]
  have e_as : v3.act_slot = w.act_slot := by rw [f6]
  have e_ls : v3.last_slot = w.last_slot := by rw [f6]
  have e_cb : v3.in_cur_bufaddr = w.in_cur_bufaddr := by rw [f6]
  have e_sa : v3.in_sectaddr = w.in_sectaddr := by rw [f6]
  have e_ss : v3.in_sectsize = w.in_sectsize := by rw [f6]
  have hp : in_pages v3 min = in_pages w min := by
    unfold in_pages; rw [e_sp, e_cp, e_cb, e_lb, e_ab]
  have hcons : in_pages w min = w.sp.internal_memory (w.in_cur_bufaddr min) ::
      (pages_seq w.sp.internal_memory (w.in_cur_bufaddr min + 1)
        (w.in_last_buf min - w.in_act_bufno min - 1) ++
      pages_seq (w.sp.temp (w.sp.in_half + min)) (w.cur_page (w.sp.in_half + min))
        ((w.sp.file_contents (w.sp.in_half + min)).num_pages
          (w.sp.file_contents (w.sp.in_half + min)).first_run)) := by
    unfold in_pages
    simp only
    rw [pages_seq_succ _ _ _ (by omega)]
    rfl
  have hpg : PageInv E.env E.MAX_ALIGNMENT (w.sp.internal_memory (w.in_cur_bufaddr min)) :=
    hpages _ (by rw [hcons]; exact List.mem_cons_self _ _)
  obtain ⟨l, hl⟩ : ∃ l, in_pages w min = w.sp.internal_memory (w.in_cur_bufaddr min) :: l :=
    ⟨_, hcons⟩
  have hsplit := recs_of_drop_slot (w.sp.internal_memory (w.in_cur_bufaddr min)) l
    (w.act_slot min).toNat (by omega)
  rw [← hl] at hsplit
  have hr3 : in_rest v3 min = (recs_of (in_pages w min)).drop ((w.act_slot min).toNat + 1) := by
    unfold in_rest; rw [hp, e_as]
  rw [hsplit, ← hr3, ← f3] at hrest
  rw [hrest] at hasc hhead
  have hkey : v3.data min = E.key (v3.smallest_elem_ptr min) := f4
  have hasc' := List.pairwise_cons.1 hasc
  refine ⟨⟨⟨?_, ?_, ?_, ?_, ?_, ?_, hasc'.2, ?_⟩, ?_, hkey⟩, ?_, hrest⟩
  · rw [e_ab, e_lb, e_ss]; exact hbuf
  · rw [e_cb, e_sa, e_ab]; exact haddr
  · rw [e_as, e_ls, hlast]
    unfold sort_spage_get_numrecs
    rw [hpg.nrecs]
    exact ⟨f1, f2⟩
  · rw [e_ls, e_cb, e_sp, hlast]
    unfold sort_spage_get_numrecs
    exact hpg.nrecs
  · rw [e_sp]; exact hnp
  · rw [hp]; exact hpages
  · intro r hr
    rw [hkey]
    exact hasc'.1 r hr
  · rw [f3, e_sp, e_cb, e_as]
  · rw [hkey]
    exact hhead _ (List.mem_cons_self _ _)
theorem AdvFrame_of_fetch (E : MergeEnv) (v w v3 : MergeVars) (min : Int)
    (hf : fetch_smallest E w min = Step.next v3)
    (hw : AdvFrame v w min) : AdvFrame v v3 min := by
  obtain ⟨_, _, _, _, f5, f6⟩ := fetch_smallest_spec E w v3 min hf
  have e_sp : v3.sp = w.sp := by rw [f6]
  refine ⟨⟨?_, ?_, ?_, ?_, ?_, ?_, ?_, ?_, ?_, ?_, ?_, ?_⟩, ?_, ?_, ?_, ?_, ?_, ?_, ?_, ?_,
    ?_, ?_, ?_, ?_, ?_⟩
  · rw [e_sp]; exact hw.static.tot_buffers
  · rw [e_sp]; exact hw.static.tot_tempfiles
  · rw [e_sp]; exact hw.static.half_files
  · rw [e_sp]; exact hw.static.in_half
  · rw [f6]; exact hw.static.act_infiles
  · rw [f6]; exact hw.static.in_sectsize
  · rw [f6]; exact hw.static.in_sectaddr
  · rw [f6]; exact hw.static.out_half
  · rw [f6]; exact hw.static.cur_outfile
  · rw [f6]; exact hw.static.out_sectsize
  · rw [f6]; exact hw.static.out_sectaddr
  · rw [f6]; exact hw.static.very_last_run
  · rw [e_sp]; exact hw.temp
  · rw [e_sp]; exact hw.memory
  · intro f hne
    have := hw.files f hne
    rw [e_sp]
    refine ⟨this.1, ?_⟩
    rw [f6]; exact this.2
  · rw [e_sp]; exact hw.first_run
  · rw [e_sp]; exact hw.last_run
  · rw [e_sp]; exact hw.num_pages
  · have := hw.total
    rw [e_sp]
    have e : v3.cur_page = w.cur_page := by rw [f6]
    rw [e]; exact this
  · intro j hj
    obtain ⟨a1, a2, a3, a4, a5, a6, a7⟩ := hw.inputs j hj
    obtain ⟨b1, b2⟩ := f5 j hj
    refine ⟨?_, ?_, ?_, ?_, ?_, by rw [b1]; exact a6, by rw [b2]; exact a7⟩
    · rw [f6]; exact a1
    · rw [f6]; exact a2
    · rw [f6]; exact a3
    · rw [f6]; exact a4
    · rw [f6]; exact a5
  · rw [f6]; exact hw.out_act_bufno
  · rw [f6]; exact hw.out_runsize
  · rw [f6]; exact hw.out_cur_bufaddr
  · rw [f6]; exact hw.published
  · rw [f6]; exact hw.sr_list

/-- Moving the input `min` on to its next record: either its current run has
finished, or the record got is the next record of the run, greater than the one
before. -/
theorem advance_fetch_spec (E : MergeEnv) (v : MergeVars) (min : Int) (k : List Byte)
    (hI : InputInv E v min k) :
    ((advance_input v min).2 = true ∧ AdvFrame v (advance_input v min).1 min ∧
      (advance_input v min).1.last_elem_cmp = 1 ∧
      (v.sp.file_contents (v.sp.in_half + min)).num_pages
        (v.sp.file_contents (v.sp.in_half + min)).first_run = 0 ∧
      in_rest v min = []) ∨
    ((advance_input v min).2 = false ∧
      ∀ v3, fetch_smallest E (advance_input v min).1 min = Step.next v3 →
        AdvFrame v v3 min ∧ NodeOK E v3 min ∧ E.compare k (v3.data min) < 0 ∧
        ((v3.last_elem_cmp = v.last_elem_cmp ∧ v.act_slot min + 1 < v.last_slot min ∧
            v3.act_slot min = v.act_slot min + 1 ∧ v3.last_slot min = v.last_slot min ∧
            v3.in_cur_bufaddr min = v.in_cur_bufaddr min ∧
            v3.sp.internal_memory = v.sp.internal_memory) ∨
          v3.last_elem_cmp = 1) ∧
        in_rest v min = v3.smallest_elem_ptr min :: in_rest v3 min) := by
  obtain ⟨⟨b1, b2, b3⟩, haddr, ⟨s1, s2⟩, hlast, hnp, hpages, hasc, hhead⟩ := hI
  have hcons : in_pages v min = v.sp.internal_memory (v.in_cur_bufaddr min) ::
      (pages_seq v.sp.internal_memory (v.in_cur_bufaddr min + 1)
        (v.in_last_buf min - v.in_act_bufno min - 1) ++
      pages_seq (v.sp.temp (v.sp.in_half + min)) (v.cur_page (v.sp.in_half + min))
        ((v.sp.file_contents (v.sp.in_half + min)).num_pages
          (v.sp.file_contents (v.sp.in_half + min)).first_run)) := by
    unfold in_pages
    simp only
    rw [pages_seq_succ _ _ _ (by omega)]
    rfl
  unfold advance_input
  simp only [aset_same]
  by_cases c1 : v.act_slot min + 1 ≥ v.last_slot min
  · rw [if_pos c1]
    have hact : (v.act_slot min).toNat + 1 =
        (v.sp.internal_memory (v.in_cur_bufaddr min)).hdr.nslots.toNat := by omega
    have hrest0 : in_rest v min =
        recs_of (pages_seq v.sp.internal_memory (v.in_cur_bufaddr min + 1)
          (v.in_last_buf min - v.in_act_bufno min - 1) ++
        pages_seq (v.sp.temp (v.sp.in_half + min)) (v.cur_page (v.sp.in_half + min))
          ((v.sp.file_contents (v.sp.in_half + min)).num_pages
            (v.sp.file_contents (v.sp.in_half + min)).first_run)) := by
      unfold in_rest
      rw [hcons]
      exact recs_of_drop_page _ _ _ hact
    by_cases c2 : v.in_act_bufno min + 1 < v.in_last_buf min
    · rw [if_pos c2]
      refine Or.inr ⟨rfl, ?_⟩
      intro v3 hf
      refine ⟨AdvFrame_of_fetch E v _ v3 min hf ?_, ?_⟩
      · refine AdvFrame.mk ⟨rfl, rfl, rfl, rfl, rfl, rfl, rfl, rfl, rfl, rfl, rfl, rfl⟩ rfl
          (fun _ _ => rfl) (fun _ _ => ⟨rfl, rfl⟩)
          rfl rfl (fun _ _ => rfl) rfl ?_ rfl rfl rfl rfl rfl
        intro j hj
        refine ⟨?_, rfl, ?_, ?_, ?_, rfl, rfl⟩
        all_goals simp only [aset_other _ _ _ _ hj]
      have hne := node_establish E v _ v3 min k hasc hhead ?_ ?_ ?_ ?_ ?_ ?_ hf
      · refine ⟨hne.1, hne.2.1, Or.inr ?_, hne.2.2⟩
        obtain ⟨_, _, _, _, _, f6⟩ := fetch_smallest_spec E _ v3 min hf
        rw [f6]
      · simp only [aset_same]; omega
      · simp only [aset_same]
      · simp only [aset_same]
      · exact hnp
      · intro pg hpg
        apply hpages
        rw [hcons]
        apply List.mem_cons_of_mem
        unfold in_pages at hpg
        simp only [aset_same] at hpg
        have e : v.in_last_buf min - (v.in_act_bufno min + 1) =
            v.in_last_buf min - v.in_act_bufno min - 1 := by omega
        have e2 : v.in_sectaddr min + (v.in_act_bufno min + 1) = v.in_cur_bufaddr min + 1 := by
          omega
        rw [e, e2] at hpg
        exact hpg
      · rw [hrest0]
        unfold in_pages
        simp only [aset_same, Int.toNat_zero, List.drop_zero]
        have e : v.in_last_buf min - (v.in_act_bufno min + 1) =
            v.in_last_buf min - v.in_act_bufno min - 1 := by omega
        have e2 : v.in_sectaddr min + (v.in_act_bufno min + 1) = v.in_cur_bufaddr min + 1 := by
          omega
        rw [e, e2]
    · rw [if_neg c2]
      by_cases c3 : (v.sp.file_contents (v.sp.in_half + min)).num_pages
          (v.sp.file_contents (v.sp.in_half + min)).first_run ≠ 0
      · rw [if_pos c3]
        refine Or.inr ⟨rfl, ?_⟩
        generalize hrp : (if v.in_sectsize <
            (v.sp.file_contents (v.sp.in_half + min)).num_pages
              (v.sp.file_contents (v.sp.in_half + min)).first_run then v.in_sectsize
          else (v.sp.file_contents (v.sp.in_half + min)).num_pages
            (v.sp.file_contents (v.sp.in_half + min)).first_run) = rp
        have hrp1 : 0 < rp ∧ rp ≤ v.in_sectsize ∧
            rp ≤ (v.sp.file_contents (v.sp.in_half + min)).num_pages
              (v.sp.file_contents (v.sp.in_half + min)).first_run := by
          rw [← hrp]; split_ifs <;> omega
        intro v3 hf
        obtain ⟨w, hw, hfw⟩ : ∃ w : MergeVars, w = _ ∧ fetch_smallest E w min = Step.next v3 :=
          ⟨_, rfl, hf⟩
        have e_mem : ∀ b, w.sp.internal_memory b =
            if v.in_sectaddr min ≤ b ∧ b < v.in_sectaddr min + rp then
              v.sp.temp (v.sp.in_half + min)
                (v.cur_page (v.sp.in_half + min) + (b - v.in_sectaddr min))
            else v.sp.internal_memory b := by
          intro b; rw [hw]; rfl
        have e_pages : in_pages w min =
            pages_seq (v.sp.temp (v.sp.in_half + min)) (v.cur_page (v.sp.in_half + min))
              ((v.sp.file_contents (v.sp.in_half + min)).num_pages
                (v.sp.file_contents (v.sp.in_half + min)).first_run) := by
          have e1 : in_pages w min =
              pages_seq w.sp.internal_memory (v.in_sectaddr min) rp ++
              pages_seq (v.sp.temp (v.sp.in_half + min)) (v.cur_page (v.sp.in_half + min) + rp)
                ((v.sp.file_contents (v.sp.in_half + min)).num_pages
                  (v.sp.file_contents (v.sp.in_half + min)).first_run - rp) := by
            rw [hw]
            unfold in_pages sort_read_area
            simp only [aset_same, sub_zero]
          rw [e1]
          have e2 : pages_seq w.sp.internal_memory (v.in_sectaddr min) rp =
              pages_seq (v.sp.temp (v.sp.in_half + min)) (v.cur_page (v.sp.in_half + min)) rp := by
            apply pages_seq_shift
            intro j h0 h1
            rw [e_mem, if_pos (by omega)]
            congr 1
            omega
          rw [e2, ← pages_seq_append _ _ _ _ (by omega) (by omega)]
          congr 1
          omega
        have hsub : ∀ pg ∈ pages_seq (v.sp.temp (v.sp.in_half + min))
            (v.cur_page (v.sp.in_half + min))
            ((v.sp.file_contents (v.sp.in_half + min)).num_pages
              (v.sp.file_contents (v.sp.in_half + min)).first_run),
            PageInv E.env E.MAX_ALIGNMENT pg := by
          intro pg hpg
          apply hpages
          rw [hcons]
          exact List.mem_cons_of_mem _ (List.mem_append_right _ hpg)
        refine ⟨AdvFrame_of_fetch E v w v3 min hfw ?_, ?_⟩
        · rw [hw]
          refine AdvFrame.mk ⟨rfl, rfl, rfl, rfl, rfl, rfl, rfl, rfl, rfl, rfl, rfl, rfl⟩ rfl
            ?_ ?_ ?_ ?_ ?_ ?_ ?_ rfl rfl rfl rfl rfl
          · intro b hb
            show (if _ then _ else _) = _
            rw [if_neg (by omega)]
          · intro f hf'
            exact ⟨by simp only [aset_other _ _ _ _ hf']; rfl,
              by simp only [aset_other _ _ _ _ hf']⟩
          · simp only [aset_same]
          · simp only [aset_same]
          · intro k' hk'
            simp only [aset_same, aset_other _ _ _ _ hk']
          · simp only [aset_same]
            show _ + (_ - _) = _
            omega
          · intro j hj
            simp only [aset_other _ _ _ _ hj, and_self]
        · have hne := node_establish E v w v3 min k hasc hhead
            (by rw [hw]; simp only [aset_same]; omega)
            (by rw [hw]; simp only [aset_same]; omega)
            (by rw [hw]; simp only [aset_same])
            (by rw [hw]; simp only [sort_read_area, aset_same]; omega)
            (by rw [e_pages]; exact hsub) ?_ hfw
          · refine ⟨hne.1, hne.2.1, Or.inr ?_, hne.2.2⟩
            obtain ⟨_, _, _, _, _, f6⟩ := fetch_smallest_spec E _ v3 min hfw
            rw [f6, hw]
          · rw [e_pages, hrest0]
            have e0 : v.in_last_buf min - v.in_act_bufno min - 1 = 0 := by omega
            rw [e0, pages_seq_nonpos _ _ _ (le_refl _), List.nil_append]
            have e1 : (w.act_slot min).toNat = 0 := by
              rw [hw]; simp only [aset_same]; rfl
            rw [e1, List.drop_zero]
      · rw [if_neg c3]
        refine Or.inl ⟨rfl, ?_, rfl, not_not.1 c3, ?_⟩
        · refine AdvFrame.mk ⟨rfl, rfl, rfl, rfl, rfl, rfl, rfl, rfl, rfl, rfl, rfl, rfl⟩ rfl
            (fun _ _ => rfl) (fun _ _ => ⟨rfl, rfl⟩)
            rfl rfl (fun _ _ => rfl) rfl ?_ rfl rfl rfl rfl rfl
          intro j hj
          refine ⟨?_, rfl, ?_, rfl, rfl, rfl, rfl⟩
          all_goals simp only [aset_other _ _ _ _ hj]
        · rw [hrest0, pages_seq_nonpos _ _ _ (by omega), not_not.1 c3,
            pages_seq_nonpos _ _ _ (le_refl _)]
          rfl
  · rw [if_neg c1]
    refine Or.inr ⟨rfl, ?_⟩
    intro v3 hf
    have hpg : PageInv E.env E.MAX_ALIGNMENT (v.sp.internal_memory (v.in_cur_bufaddr min)) :=
      hpages _ (by rw [hcons]; exact List.mem_cons_self _ _)
    refine ⟨AdvFrame_of_fetch E v _ v3 min hf ?_, ?_⟩
    · refine AdvFrame.mk ⟨rfl, rfl, rfl, rfl, rfl, rfl, rfl, rfl, rfl, rfl, rfl, rfl⟩ rfl
        (fun _ _ => rfl) (fun _ _ => ⟨rfl, rfl⟩)
        rfl rfl (fun _ _ => rfl) rfl ?_ rfl rfl rfl rfl rfl
      intro j hj
      refine ⟨rfl, rfl, ?_, rfl, rfl, rfl, rfl⟩
      simp only [aset_other _ _ _ _ hj]
    obtain ⟨w, hw, hfw⟩ : ∃ w : MergeVars, w = _ ∧ fetch_smallest E w min = Step.next v3 :=
      ⟨_, rfl, hf⟩
    have hne := node_establish E v w v3 min k hasc hhead (by rw [hw]; exact ⟨b1, b2, b3⟩)
      (by rw [hw]; exact haddr)
      (by rw [hw]; show v.last_slot min = _; rw [hlast]; unfold sort_spage_get_numrecs
          exact hpg.nrecs.symm)
      (by rw [hw]; exact hnp) (by rw [hw]; exact hpages) ?_ hfw
    · refine ⟨hne.1, hne.2.1, Or.inl ?_, hne.2.2⟩
      obtain ⟨_, _, _, _, _, f6⟩ := fetch_smallest_spec E _ v3 min hf
      refine ⟨by rw [f6], by omega, ?_, by rw [f6], by rw [f6], by rw [f6]⟩
      rw [f6]; simp only [aset_same]
    · rw [hw]
      unfold in_rest
      simp only [aset_same]
      have e : (v.act_slot min + 1).toNat = (v.act_slot min).toNat + 1 := by omega
      rw [e]
      rfl

/-! ### Frames -/

theorem Layout_frame (v v1 : MergeVars) (hs : SameStatic v v1) (h : Layout v) : Layout v1 := by
  obtain ⟨a1, a2, a3, a4, a5, a6, a7⟩ := h
  refine ⟨?_, ?_, ?_, ?_, ?_, ?_, ?_⟩
  · rw [hs.in_sectsize]; exact a1
  · rw [hs.act_infiles, hs.half_files]; exact a2
  · rw [hs.act_infiles, hs.in_sectaddr, hs.in_sectsize]; exact a3
  · rw [hs.out_sectaddr, hs.act_infiles, hs.in_sectsize]; exact a4
  · rw [hs.out_sectsize]; exact a5
  · rw [hs.in_half, hs.out_half, hs.half_files]; exact a6
  · rw [hs.out_half, hs.cur_outfile, hs.half_files]; exact a7

theorem SameFile_refl (v : MergeVars) (f : Int) : SameFile v v f := ⟨rfl, rfl, rfl⟩

theorem SameFile_trans {v v1 v2 : MergeVars} {f : Int} (h1 : SameFile v v1 f)
    (h2 : SameFile v1 v2 f) : SameFile v v2 f :=
  ⟨h2.contents.trans h1.contents, h2.cur_page.trans h1.cur_page, h2.temp.trans h1.temp⟩

theorem SameInput_refl (v : MergeVars) (i : Int) : SameInput v v i :=
  ⟨rfl, rfl, rfl, rfl, rfl, rfl, rfl, fun _ _ _ => rfl⟩

theorem SameInput_trans {v v1 v2 : MergeVars} {i : Int} (hs : SameStatic v v1)
    (h1 : SameInput v v1 i) (h2 : SameInput v1 v2 i) : SameInput v v2 i :=
  ⟨h2.in_act_bufno.trans h1.in_act_bufno, h2.in_last_buf.trans h1.in_last_buf,
    h2.act_slot.trans h1.act_slot, h2.last_slot.trans h1.last_slot,
    h2.in_cur_bufaddr.trans h1.in_cur_bufaddr, h2.smallest_elem_ptr.trans h1.smallest_elem_ptr,
    h2.long_recdes.trans h1.long_recdes,
    fun b hb1 hb2 => (h2.memory b (by rw [hs.in_sectaddr]; exact hb1)
      (by rw [hs.in_sectaddr, hs.in_sectsize]; exact hb2)).trans (h1.memory b hb1 hb2)⟩

theorem SameOutput_refl (v : MergeVars) : SameOutput v v :=
  ⟨rfl, rfl, rfl, rfl, fun _ _ _ => rfl⟩

theorem section_disjoint (v : MergeVars) (hl : Layout v) (i j : Int) (hi : 0 ≤ i)
    (hi2 : i < v.act_infiles) (hj : 0 ≤ j) (hj2 : j < v.act_infiles) (hij : i ≠ j) (b : Int)
    (hb : v.in_sectaddr i ≤ b ∧ b < v.in_sectaddr i + v.in_sectsize) :
    ¬ (v.in_sectaddr j ≤ b ∧ b < v.in_sectaddr j + v.in_sectsize) := by
  rw [hl.in_addr i hi hi2] at hb
  rw [hl.in_addr j hj hj2]
  have h1 := hl.sectsize
  intro hc
  rcases lt_or_gt_of_ne hij with h | h
  · have : (i + 1) * v.in_sectsize ≤ j * v.in_sectsize :=
      Int.mul_le_mul_of_nonneg_right (by omega) (by omega)
    have e : (i + 1) * v.in_sectsize = i * v.in_sectsize + v.in_sectsize := by ring
    omega
  · have : (j + 1) * v.in_sectsize ≤ i * v.in_sectsize :=
      Int.mul_le_mul_of_nonneg_right (by omega) (by omega)
    have e : (j + 1) * v.in_sectsize = j * v.in_sectsize + v.in_sectsize := by ring
    omega

theorem section_out_disjoint (v : MergeVars) (hl : Layout v) (i : Int) (hi : 0 ≤ i)
    (hi2 : i < v.act_infiles) (b : Int)
    (hb : v.in_sectaddr i ≤ b ∧ b < v.in_sectaddr i + v.in_sectsize) :
    ¬ (v.out_sectaddr ≤ b) := by
  rw [hl.in_addr i hi hi2] at hb
  rw [hl.out_addr]
  have h1 := hl.sectsize
  have : (i + 1) * v.in_sectsize ≤ v.act_infiles * v.in_sectsize :=
    Int.mul_le_mul_of_nonneg_right (by omega) (by omega)
  have e : (i + 1) * v.in_sectsize = i * v.in_sectsize + v.in_sectsize := by ring
  omega

theorem in_file_ne_out_file (v : MergeVars) (hl : Layout v) (i j : Int) (hi : 0 ≤ i)
    (hi2 : i < v.sp.half_files) (hj : 0 ≤ j) (hj2 : j < v.sp.half_files) :
    v.sp.in_half + i ≠ v.out_half + j := by
  rcases hl.halves with ⟨h1, h2⟩ | ⟨h1, h2⟩ <;> omega

theorem AdvFrame.same_input {v v1 : MergeVars} {min : Int} (h : AdvFrame v v1 min)
    (hl : Layout v) (hm : 0 ≤ min) (hm2 : min < v.act_infiles) (j : Int) (hj : 0 ≤ j)
    (hj2 : j < v.act_infiles) (hne : j ≠ min) : SameInput v v1 j := by
  obtain ⟨a1, a2, a3, a4, a5, a6, a7⟩ := h.inputs j hne
  refine ⟨a1, a2, a3, a4, a5, a6, a7, ?_⟩
  intro b hb1 hb2
  exact h.memory b (section_disjoint v hl j min hj hj2 hm hm2 hne b ⟨hb1, hb2⟩)

theorem AdvFrame.same_file {v v1 : MergeVars} {min : Int} (h : AdvFrame v v1 min)
    (f : Int) (hne : f ≠ v.sp.in_half + min) : SameFile v v1 f :=
  ⟨(h.files f hne).1, (h.files f hne).2, by rw [h.temp]⟩

theorem AdvFrame.same_output {v v1 : MergeVars} {min : Int} (h : AdvFrame v v1 min)
    (hl : Layout v) (hm : 0 ≤ min) (hm2 : min < v.act_infiles) : SameOutput v v1 := by
  refine ⟨h.out_act_bufno, h.out_runsize, h.out_cur_bufaddr, h.published, ?_⟩
  intro b hb1 _
  apply h.memory b
  intro hc
  exact section_out_disjoint v hl min hm hm2 b hc hb1

theorem RunOK_congr (E : MergeEnv) (pages pages1 : Int → Page) (p n : Int)
    (h : ∀ j, p ≤ j → j < p + n → pages1 j = pages j) (hr : RunOK E pages p n) :
    RunOK E pages1 p n := by
  unfold RunOK at hr ⊢
  rw [pages_seq_congr pages1 pages p n h]
  exact hr

theorem RunsTo_le (E : MergeEnv) (pages : Int → Page) (num_pages : Int → Int) :
    ∀ (n : Nat) (k p q : Int), RunsTo E pages num_pages n k p q → p ≤ q := by
  intro n
  induction n with
  | zero => intro k p q h; simp only [RunsTo] at h; omega
  | succ n ih =>
    intro k p q h
    simp only [RunsTo] at h
    have := ih _ _ _ h.2.2
    omega

theorem RunsTo_congr (E : MergeEnv) (pages pages1 : Int → Page) (num_pages np1 : Int → Int) :
    ∀ (n : Nat) (k p q : Int),
      (∀ j, p ≤ j → j < q → pages1 j = pages j) →
      (∀ j, k ≤ j → j < k + n → np1 j = num_pages j) →
      RunsTo E pages num_pages n k p q → RunsTo E pages1 np1 n k p q := by
  intro n
  induction n with
  | zero => intro k p q _ _ h; exact h
  | succ n ih =>
    intro k p q h1 h2 h
    simp only [RunsTo] at h ⊢
    have hle := RunsTo_le E pages num_pages n _ _ _ h.2.2
    have e : np1 k = num_pages k := h2 k (le_refl _) (by omega)
    rw [e]
    refine ⟨h.1, ?_, ?_⟩
    · exact RunOK_congr E pages pages1 p _ (fun j hj1 hj2 => h1 j hj1 (by omega)) h.2.1
    · exact ih _ _ _ (fun j hj1 hj2 => h1 j (by omega) hj2)
        (fun j hj1 hj2 => h2 j (by omega) (by push_cast; omega)) h.2.2

theorem RestInv_frame (E : MergeEnv) (v v1 : MergeVars) (f : Int) (hf : SameFile v v1 f)
    (h : RestInv E v f) : RestInv E v1 f := by
  unfold RestInv at h ⊢
  rw [hf.contents, hf.cur_page, hf.temp]
  exact h

theorem RestInv_adv (E : MergeEnv) (v v1 : MergeVars) (min : Int) (hf : AdvFrame v v1 min)
    (h : RestInv E v (v.sp.in_half + min)) : RestInv E v1 (v.sp.in_half + min) := by
  unfold RestInv at h ⊢
  rw [hf.first_run, hf.last_run, hf.temp, hf.total]
  rcases h with h | ⟨h1, h2, q, h3⟩
  · exact Or.inl h
  · refine Or.inr ⟨h1, h2, q, ?_⟩
    refine RunsTo_congr E _ _ _ _ _ _ _ _ (fun _ _ _ => rfl) ?_ h3
    intro j hj1 _
    exact hf.num_pages j (by omega)

theorem OutFileInv_frame (E : MergeEnv) (v v1 : MergeVars) (g : Int) (extra : Int)
    (hf : SameFile v v1 g) (h : OutFileInv E v g extra) : OutFileInv E v1 g extra := by
  unfold OutFileInv at h ⊢
  rw [hf.contents, hf.cur_page, hf.temp]
  exact h
/-! ### Sending out a record -/

theorem page_records_store (env : PageEnv) (a : Int) (ha : ValidAlignment a) (pg : Page)
    (hI : PageInv env a pg) (s : Int) (d : List Byte) (h0 : 0 ≤ s) (h1 : s < pg.hdr.nslots) :
    (page_records (store_in_record pg s d)).drop (s.toNat + 1) =
      (page_records pg).drop (s.toNat + 1) := by
  apply List.ext_getElem
  · simp [page_records_length, store_in_record]
  · intro n hn1 hn2
    simp only [List.getElem_drop, page_records_getElem]
    simp only [List.length_drop, page_records_length] at hn2
    exact store_in_record_other env a ha pg hI s d h0 h1 _ (by omega) (by omega)

theorem recs_of_store (env : PageEnv) (a : Int) (ha : ValidAlignment a) (pg : Page)
    (hI : PageInv env a pg) (s : Int) (d : List Byte) (h0 : 0 ≤ s) (h1 : s < pg.hdr.nslots)
    (l : List Page) :
    (recs_of (store_in_record pg s d :: l)).drop (s.toNat + 1) =
      (recs_of (pg :: l)).drop (s.toNat + 1) := by
  have hlen : s.toNat + 1 ≤ (page_records pg).length := by rw [page_records_length]; omega
  have hlen' : s.toNat + 1 ≤ (page_records (store_in_record pg s d)).length := by
    rw [page_records_length]; simp only [store_in_record]; omega
  rw [recs_of_cons, recs_of_cons, List.drop_append_of_le_length hlen,
    List.drop_append_of_le_length hlen', page_records_store env a ha pg hI s d h0 h1]

theorem EmitPost_skip (E : MergeEnv) (v : MergeVars) (EM : List (List Byte))
    (hinv : RunLoopInv E v EM) (min : Int) (hn : NodeOK E v min) : EmitPost E v v min EM :=
  ⟨SameStatic_refl v, fun j _ _ _ => SameInput_refl v j, fun _ _ _ => SameFile_refl v _, rfl,
    hn.input, rfl, rfl, rfl, rfl, rfl, fun _ => rfl, hinv.pub, hinv.out, hinv.outfiles, rfl⟩

theorem publish_post (E : MergeEnv) (hE : EnvSift E) (v : MergeVars)
    (EM : List (List Byte)) (hinv : RunLoopInv E v EM) (h : SORT_REC_LIST)
    (hm0 : 0 ≤ h.rec_pos) (hm1 : h.rec_pos < v.act_infiles) (hnode : NodeOK E v h.rec_pos)
    (hlast : v.very_last_run = true) (record : RECDES) (d : List Byte) (w : MergeVars)
    (hpubinv : PubInv E w (EM ++ [record.data]))
    (e_small : w.smallest_elem_ptr = aset v.smallest_elem_ptr h.rec_pos
      { v.smallest_elem_ptr h.rec_pos with data := d })
    (e_mem : w.sp.internal_memory = aset v.sp.internal_memory (v.in_cur_bufaddr h.rec_pos)
      (store_in_record (v.sp.internal_memory (v.in_cur_bufaddr h.rec_pos))
        (v.act_slot h.rec_pos) d))
    (hw : w = { v with smallest_elem_ptr := w.smallest_elem_ptr,
                       sp := { v.sp with internal_memory := w.sp.internal_memory },
                       published := w.published }) :
    EmitPost E v w h.rec_pos (EM ++ [record.data]) := by
  have e_temp : w.sp.temp = v.sp.temp := by rw [hw]
  have e_fc : w.sp.file_contents = v.sp.file_contents := by rw [hw]
  have e_ih : w.sp.in_half = v.sp.in_half := by rw [hw]
  have e_cp : w.cur_page = v.cur_page := by rw [hw]
  have e_ab : w.in_act_bufno = v.in_act_bufno := by rw [hw]
  have e_lb : w.in_last_buf = v.in_last_buf := by rw [hw]
  have e_as : w.act_slot = v.act_slot := by rw [hw]
  have e_ls : w.last_slot = v.last_slot := by rw [hw]
  have e_cb : w.in_cur_bufaddr = v.in_cur_bufaddr := by rw [hw]
  have e_sa : w.in_sectaddr = v.in_sectaddr := by rw [hw]
  have e_ss : w.in_sectsize = v.in_sectsize := by rw [hw]
  have e_lr : w.long_recdes = v.long_recdes := by rw [hw]
  obtain ⟨⟨b1, b2, b3⟩, haddr, ⟨s1, s2⟩, hlst, hnp, hpages, hasc, hhead⟩ := hnode.input
  have hsect : v.in_sectaddr h.rec_pos ≤ v.in_cur_bufaddr h.rec_pos ∧
      v.in_cur_bufaddr h.rec_pos < v.in_sectaddr h.rec_pos + v.in_sectsize := by omega
  have hcons : in_pages v h.rec_pos = v.sp.internal_memory (v.in_cur_bufaddr h.rec_pos) ::
      (pages_seq v.sp.internal_memory (v.in_cur_bufaddr h.rec_pos + 1)
        (v.in_last_buf h.rec_pos - v.in_act_bufno h.rec_pos - 1) ++
      pages_seq (v.sp.temp (v.sp.in_half + h.rec_pos)) (v.cur_page (v.sp.in_half + h.rec_pos))
        ((v.sp.file_contents (v.sp.in_half + h.rec_pos)).num_pages
          (v.sp.file_contents (v.sp.in_half + h.rec_pos)).first_run)) := by
    unfold in_pages
    simp only
    rw [pages_seq_succ _ _ _ (by omega)]
    rfl
  have hpg : PageInv E.env E.MAX_ALIGNMENT
      (v.sp.internal_memory (v.in_cur_bufaddr h.rec_pos)) :=
    hpages _ (by rw [hcons]; exact List.mem_cons_self _ _)
  have hcons1 : in_pages w h.rec_pos =
      store_in_record (v.sp.internal_memory (v.in_cur_bufaddr h.rec_pos))
        (v.act_slot h.rec_pos) d ::
      (pages_seq v.sp.internal_memory (v.in_cur_bufaddr h.rec_pos + 1)
        (v.in_last_buf h.rec_pos - v.in_act_bufno h.rec_pos - 1) ++
      pages_seq (v.sp.temp (v.sp.in_half + h.rec_pos)) (v.cur_page (v.sp.in_half + h.rec_pos))
        ((v.sp.file_contents (v.sp.in_half + h.rec_pos)).num_pages
          (v.sp.file_contents (v.sp.in_half + h.rec_pos)).first_run)) := by
    unfold in_pages
    simp only [e_temp, e_fc, e_ih, e_cp, e_ab, e_lb, e_cb, e_mem]
    rw [pages_seq_succ _ _ _ (by omega), aset_same]
    simp only [List.cons_append, List.cons.injEq, true_and]
    congr 1
    apply pages_seq_congr
    intro j hj1 _
    exact aset_other _ _ _ _ (by omega)
  have hrest : in_rest w h.rec_pos = in_rest v h.rec_pos := by
    unfold in_rest
    rw [hcons1, hcons, e_as]
    exact recs_of_store E.env E.MAX_ALIGNMENT hE.align _ hpg _ d s1 (by omega) _
  have hst : SameStatic v w := by
    rw [hw]; exact ⟨rfl, rfl, rfl, rfl, rfl, rfl, rfl, rfl, rfl, rfl, rfl, rfl⟩
  refine ⟨hst, ?_, ?_, e_fc, ?_, by rw [hw], by rw [hw], by rw [e_as], by rw [e_ls],
    by rw [e_cb], ?_,
    fun _ => hpubinv,
    fun hc => by rw [hlast] at hc; exact absurd hc (by decide), ?_, hrest⟩
  · intro j hj hj2 hne
    refine ⟨by rw [e_ab], by rw [e_lb], by rw [e_as], by rw [e_ls], by rw [e_cb], ?_,
      by rw [e_lr], ?_⟩
    · rw [e_small, aset_other _ _ _ _ hne]
    · intro b' hb1 hb2
      rw [e_mem]
      apply aset_other
      intro hc
      rw [hc] at hb1 hb2
      exact section_disjoint v hinv.layout h.rec_pos j hm0 hm1 hj hj2 (Ne.symm hne) _ hsect
        ⟨hb1, hb2⟩
  · intro i _ _
    exact ⟨by rw [e_fc], by rw [e_cp], by rw [e_temp]⟩
  · refine ⟨?_, ?_, ?_, ?_, ?_, ?_, ?_, ?_⟩
    · rw [e_ab, e_lb, e_ss]; exact ⟨b1, b2, b3⟩
    · rw [e_cb, e_sa, e_ab]; exact haddr
    · rw [e_as, e_ls]; exact ⟨s1, s2⟩
    · rw [e_ls, e_cb, e_mem, aset_same]
      exact hlst
    · rw [e_ih, e_fc]; exact hnp
    · rw [hcons1]
      intro pg hpg'
      rcases List.mem_cons.1 hpg' with e | e
      · rw [e]; exact store_in_record_inv _ _ _ hpg _ _
      · exact hpages pg (by rw [hcons]; exact List.mem_cons_of_mem _ e)
    · rw [hrest]; exact hasc
    · rw [hrest]; exact hhead
  · intro hlt
    rw [e_mem, aset_same]
    exact store_in_record_other E.env E.MAX_ALIGNMENT hE.align _ hpg _ d s1 (by omega) _
      (by omega) (by omega)
  · intro i hi hi2
    have e : w.out_runsize = v.out_runsize := by rw [hw]
    rw [e]
    exact OutFileInv_frame E v w _ _ ⟨by rw [e_fc], by rw [e_cp], by rw [e_temp]⟩
      (hinv.outfiles i hi hi2)

theorem publish_record_spec (E : MergeEnv) (hE : EnvSift E) (v : MergeVars)
    (EM : List (List Byte)) (hinv : RunLoopInv E v EM) (h : SORT_REC_LIST)
    (t : List SORT_REC_LIST) (hl : v.sr_list = h :: t) (hflag : h.is_duplicated = false)
    (hlast : v.very_last_run = true) :
    (publish_record E v h.rec_pos).Safe E (fun v1 => ∃ kk,
      (∀ x, E.compare kk x = E.compare (v.data h.rec_pos) x) ∧
      (∀ x, E.compare x kk = E.compare x (v.data h.rec_pos)) ∧
      EmitPost E v v1 h.rec_pos (EM ++ [kk])) := by
  have hmem : h ∈ v.sr_list := by rw [hl]; exact List.mem_cons_self _ _
  obtain ⟨hm0, hm1, hnode⟩ := hinv.nodes h hmem
  have hpub := hinv.pub hlast
  have hfresh := hinv.order.fresh h hmem hflag
  -- the record handed to the consumer
  obtain ⟨record, hrec⟩ : ∃ record, record =
      (if (v.smallest_elem_ptr h.rec_pos).type = RecType.REC_BIGONE then v.long_recdes h.rec_pos
       else { v.smallest_elem_ptr h.rec_pos with
              data := E.cut_link (v.smallest_elem_ptr h.rec_pos).data }) := ⟨_, rfl⟩
  have hk1 : ∀ x, E.compare record.data x = E.compare (v.data h.rec_pos) x := by
    intro x
    rw [hrec]
    unfold MergeVars.data
    split_ifs
    · rfl
    · exact hE.cut_left _ _
  have hk2 : ∀ x, E.compare x record.data = E.compare x (v.data h.rec_pos) := by
    intro x
    rw [hrec]
    unfold MergeVars.data
    split_ifs
    · rfl
    · exact hE.cut_right _ _
  have hpubok : PubOK E (v.published ++ [record]) := by
    unfold PubOK
    rw [List.pairwise_append]
    refine ⟨hpub.asc, List.pairwise_singleton _ _, ?_⟩
    intro a ha b hb
    rw [List.mem_singleton] at hb
    rw [hb, hk2]
    exact hfresh a.data (by rw [hpub.keys]; exact List.mem_map_of_mem _ ha)
  unfold publish_record
  simp only [← hrec]
  by_cases herr : E.put_fn v.published record ≠ 0
  · rw [if_pos herr]
    exact hpubok
  · rw [if_neg herr]
    refine ⟨record.data, hk1, hk2, ?_⟩
    have hpubinv : ∀ w : MergeVars, w.published = v.published ++ [record] →
        PubInv E w (EM ++ [record.data]) := by
      intro w hw
      refine ⟨by rw [hw]; exact hpubok, ?_⟩
      rw [hw, hpub.keys]; simp
    by_cases hb : (v.smallest_elem_ptr h.rec_pos).type = RecType.REC_BIGONE
    · simp only [if_pos hb]
      exact ⟨⟨rfl, rfl, rfl, rfl, rfl, rfl, rfl, rfl, rfl, rfl, rfl, rfl⟩,
        fun j _ _ _ => ⟨rfl, rfl, rfl, rfl, rfl, rfl, rfl, fun _ _ _ => rfl⟩,
        fun i _ _ => ⟨rfl, rfl, rfl⟩, rfl,
        InputInv_frame E v _ _ _ ⟨rfl, rfl, rfl, rfl, rfl, rfl, rfl, rfl, rfl, rfl, rfl, rfl⟩
          ⟨rfl, rfl, rfl, rfl, rfl, rfl, rfl, fun _ _ _ => rfl⟩ ⟨rfl, rfl, rfl⟩ hnode.input,
        rfl, rfl, rfl, rfl, rfl, fun _ => rfl, fun _ => hpubinv _ rfl,
        fun hc => by rw [hlast] at hc; exact absurd hc (by decide),
        fun i hi hi2 => OutFileInv_frame E v _ _ _ ⟨rfl, rfl, rfl⟩ (hinv.outfiles i hi hi2),
        rfl⟩
    · simp only [if_neg hb]
      exact publish_post E hE v EM hinv h hm0 hm1 hnode hlast record _ _ (hpubinv _ rfl)
        rfl rfl rfl
theorem OutFrame_refl (v : MergeVars) : OutFrame v v :=
  ⟨SameStatic_refl v, rfl, fun _ _ => rfl, fun _ _ => rfl, fun _ _ => rfl, le_refl _, rfl,
    fun _ _ => rfl, rfl, rfl, rfl, rfl, rfl, rfl, rfl, rfl, rfl, rfl⟩

theorem OutFrame_trans {v v1 v2 : MergeVars} (h1 : OutFrame v v1) (h2 : OutFrame v1 v2) :
    OutFrame v v2 := by
  have hco := h1.static.cur_outfile
  have hsa := h1.static.out_sectaddr
  refine ⟨SameStatic_trans h1.static h2.static, h2.file_contents.trans h1.file_contents,
    ?_, ?_, ?_, ?_, ?_, ?_, h2.in_act_bufno.trans h1.in_act_bufno,
    h2.in_last_buf.trans h1.in_last_buf, h2.act_slot.trans h1.act_slot,
    h2.last_slot.trans h1.last_slot, h2.in_cur_bufaddr.trans h1.in_cur_bufaddr,
    h2.smallest_elem_ptr.trans h1.smallest_elem_ptr, h2.long_recdes.trans h1.long_recdes,
    h2.sr_list.trans h1.sr_list, h2.last_elem_cmp.trans h1.last_elem_cmp,
    h2.published.trans h1.published⟩
  · intro f hf
    rw [h2.temp f (by rw [hco]; exact hf), h1.temp f hf]
  · intro p hp
    have := h2.temp_cur p (by rw [hco]; have := h1.cur_le; omega)
    rw [hco] at this
    rw [this, h1.temp_cur p hp]
  · intro f hf
    rw [h2.cur_page f (by rw [hco]; exact hf), h1.cur_page f hf]
  · have := h2.cur_le
    rw [hco] at this
    exact le_trans h1.cur_le this
  · have := h2.total
    rw [hco] at this
    rw [this, h1.total]
  · intro b hb
    rw [h2.memory b (by rw [hsa]; exact hb), h1.memory b hb]

theorem set_buffer_same (v : MergeVars) (b : Int) :
    v.set_buffer b (v.sp.internal_memory b) = v := by
  unfold MergeVars.set_buffer
  have : aset v.sp.internal_memory b (v.sp.internal_memory b) = v.sp.internal_memory := by
    funext j
    unfold aset
    split_ifs with h
    · rw [h]
    · rfl
  rw [this]

theorem OutFrame_set_buffer (v : MergeVars) (b : Int) (pg : Page) (hb : v.out_sectaddr ≤ b) :
    OutFrame v (v.set_buffer b pg) := by
  unfold MergeVars.set_buffer
  refine ⟨⟨rfl, rfl, rfl, rfl, rfl, rfl, rfl, rfl, rfl, rfl, rfl, rfl⟩, rfl, fun _ _ => rfl,
    fun _ _ => rfl, fun _ _ => rfl, le_refl _, rfl, ?_, rfl, rfl, rfl, rfl, rfl, rfl, rfl, rfl,
    rfl, rfl⟩
  intro b' hb'
  exact aset_other _ _ _ _ (by omega)

theorem OutFrame_next (v : MergeVars) : OutFrame v (next_output_buffer v) :=
  ⟨⟨rfl, rfl, rfl, rfl, rfl, rfl, rfl, rfl, rfl, rfl, rfl, rfl⟩, rfl, fun _ _ => rfl,
    fun _ _ => rfl, fun _ _ => rfl, le_refl _, rfl, fun _ _ => rfl, rfl, rfl, rfl, rfl, rfl,
    rfl, rfl, rfl, rfl, rfl⟩

theorem flush_temp (E : MergeEnv) (v : MergeVars) (f p : Int) :
    (flush_output_section E v).sp.temp f p =
      if f = v.cur_outfile ∧ v.cur_page v.cur_outfile ≤ p ∧
          p < v.cur_page v.cur_outfile + v.out_sectsize then
        v.sp.internal_memory (v.out_sectaddr + (p - v.cur_page v.cur_outfile))
      else v.sp.temp f p := rfl

theorem flush_memory (E : MergeEnv) (v : MergeVars) (b : Int) :
    (flush_output_section E v).sp.internal_memory b =
      if v.out_sectaddr ≤ b ∧ b < v.out_sectaddr + v.out_sectsize then
        sort_spage_initialize E.env (v.sp.internal_memory b) E.UNANCHORED_KEEP_SEQUENCE
          E.MAX_ALIGNMENT
      else v.sp.internal_memory b := rfl

theorem OutFrame_flush (E : MergeEnv) (v : MergeVars) (hs : 0 ≤ v.out_sectsize) :
    OutFrame v (flush_output_section E v) := by
  refine ⟨⟨rfl, rfl, rfl, rfl, rfl, rfl, rfl, rfl, rfl, rfl, rfl, rfl⟩, rfl, ?_, ?_, ?_, ?_, ?_,
    ?_, rfl, rfl, rfl, rfl, rfl, rfl, rfl, rfl, rfl, rfl⟩
  · intro f hf
    funext p
    rw [flush_temp, if_neg (by intro h; exact hf h.1)]
  · intro p hp
    rw [flush_temp, if_neg (by omega)]
  · intro f hf
    show aset _ _ _ f = _
    exact aset_other _ _ _ _ hf
  · show _ ≤ aset _ _ _ _
    rw [aset_same]; omega
  · show aset _ _ _ _ - (_ + _) = _
    rw [aset_same]; omega
  · intro b hb
    rw [flush_memory, if_neg (by omega)]

theorem OutFileInv_out (E : MergeEnv) (v w : MergeVars) (hf : OutFrame v w)
    (hr : 0 ≤ v.out_runsize) (g : Int)
    (h : OutFileInv E v g (if g = v.cur_outfile then v.out_runsize else 0)) :
    OutFileInv E w g (if g = v.cur_outfile then w.out_runsize else 0) := by
  by_cases hg : g = v.cur_outfile
  · rw [if_pos hg] at h ⊢
    unfold OutFileInv at h ⊢
    rw [hf.file_contents, hg, hf.total]
    rw [hg] at h
    rcases h with h | ⟨h1, h2, h3⟩
    · exact Or.inl h
    · refine Or.inr ⟨h1, h2, ?_⟩
      refine RunsTo_congr E _ _ _ _ _ _ _ _ ?_ (fun _ _ _ => rfl) h3
      intro j _ hj2
      exact hf.temp_cur j (by omega)
  · rw [if_neg hg] at h ⊢
    exact OutFileInv_frame E v w g 0 ⟨by rw [hf.file_contents], hf.cur_page g hg, hf.temp g hg⟩ h

/-- After a record is sent to the output section: the invariant of the output
with the frame gives what holds after the step. -/
theorem EmitPost_of_out (E : MergeEnv) (v w : MergeVars) (EM EM1 : List (List Byte))
    (hinv : RunLoopInv E v EM) (hf : OutFrame v w) (hlast : v.very_last_run = false)
    (hout : OutInv E w EM1) (min : Int) (hm0 : 0 ≤ min) (hm1 : min < v.act_infiles)
    (hnode : NodeOK E v min) : EmitPost E v w min EM1 := by
  have hl := hinv.layout
  have hsame : ∀ j, 0 ≤ j → j < v.act_infiles → SameInput v w j := by
    intro j hj hj2
    refine ⟨by rw [hf.in_act_bufno], by rw [hf.in_last_buf], by rw [hf.act_slot],
      by rw [hf.last_slot], by rw [hf.in_cur_bufaddr], by rw [hf.smallest_elem_ptr],
      by rw [hf.long_recdes], ?_⟩
    intro b hb1 hb2
    apply hf.memory
    have := section_out_disjoint v hl j hj hj2 b ⟨hb1, hb2⟩
    omega
  have hfile : ∀ i, 0 ≤ i → i < v.sp.half_files → SameFile v w (v.sp.in_half + i) := by
    intro i hi hi2
    have hne : v.sp.in_half + i ≠ v.cur_outfile := by
      have := in_file_ne_out_file v hl i (v.cur_outfile - v.out_half) hi hi2
        (by have := hl.outfile; omega) (by have := hl.outfile; omega)
      intro hc; apply this; omega
    exact ⟨by rw [hf.file_contents], hf.cur_page _ hne, hf.temp _ hne⟩
  have hmin := hsame min hm0 hm1
  refine ⟨hf.static, fun j hj hj2 _ => hsame j hj hj2, hfile, hf.file_contents, ?_, hf.sr_list,
    hf.last_elem_cmp,
    hmin.act_slot, hmin.last_slot, hmin.in_cur_bufaddr, ?_, ?_, fun _ => hout, ?_, ?_⟩
  · exact InputInv_frame E v w min _ hf.static hmin
      (hfile min hm0 (by have := hl.act; omega)) hnode.input
  · intro _
    have hi := hnode.input
    rw [hmin.memory _ (by have := hi.addr; have := hi.bufno; omega)
      (by have := hi.addr; have := hi.bufno; omega)]
  · intro hc; rw [hlast] at hc; exact absurd hc (by decide)
  · intro i hi hi2
    exact OutFileInv_out E v w hf (hinv.out hlast).runsize _ (hinv.outfiles i hi hi2)
  · have hi := hnode.input
    unfold in_rest
    rw [in_pages_frame v w min hf.static hmin (hfile min hm0 (by have := hl.act; omega))
      ⟨hi.bufno.1, hi.bufno.2.2⟩ hi.addr, hmin.act_slot]
theorem pages_seq_one (f : Int → Page) (p : Int) : pages_seq f p 1 = [f p] := by
  rw [pages_seq_succ f p 1 (by omega), pages_seq_nonpos _ _ _ (by omega)]

theorem pages_seq_snoc (f : Int → Page) (p n : Int) (hn : 0 ≤ n) :
    pages_seq f p (n + 1) = pages_seq f p n ++ [f (p + n)] := by
  rw [pages_seq_append f p n 1 hn (by omega), pages_seq_one]

theorem key_stored (E : MergeEnv) (r : RECDES) :
    E.key { area_size := -1, data := r.data, length := r.length, type := stored_type r.type } =
      E.key r := by
  unfold MergeEnv.key
  simp only [stored_type_bigone]

theorem recs_of_snoc (l : List Page) (pg : Page) :
    recs_of (l ++ [pg]) = recs_of l ++ page_records pg := by
  rw [recs_of_append, recs_of_cons, recs_of_nil, List.append_nil]

theorem OutInv_insert (E : MergeEnv) (hE : EnvSift E) (w : MergeVars) (EM : List (List Byte))
    (record : RECDES) (pg : Page) (sid : Int) (ho : OutInv E w EM) (hwf : record.WF)
    (hfresh : ∀ l ∈ EM, E.compare l (E.key record) < 0)
    (hins : sort_spage_insert E.env E.qs E.calloc_ok
      (w.sp.internal_memory w.out_cur_bufaddr) record = some (pg, some sid)) :
    OutInv E (w.set_buffer w.out_cur_bufaddr pg) (EM ++ [E.key record]) := by
  obtain ⟨⟨b1, b2⟩, haddr, hrs, hpages, hspare, hasc, hkeys, hpub⟩ := ho
  have hsplit : out_pages w =
      (pages_seq (w.sp.temp w.cur_outfile) (w.cur_page w.cur_outfile - w.out_runsize)
        w.out_runsize ++ pages_seq w.sp.internal_memory w.out_sectaddr w.out_act_bufno) ++
      [w.sp.internal_memory w.out_cur_bufaddr] := by
    unfold out_pages
    rw [pages_seq_snoc _ _ _ b1, haddr, List.append_assoc]
  have hcur : PageInv E.env E.MAX_ALIGNMENT (w.sp.internal_memory w.out_cur_bufaddr) :=
    hpages _ (by rw [hsplit]; simp)
  obtain ⟨hpg, hrecs⟩ := insert_page_records E.env hE.env E.MAX_ALIGNMENT hE.align E.qs
    E.calloc_ok _ hcur record hwf pg sid hins
  have hsplit1 : out_pages (w.set_buffer w.out_cur_bufaddr pg) =
      (pages_seq (w.sp.temp w.cur_outfile) (w.cur_page w.cur_outfile - w.out_runsize)
        w.out_runsize ++ pages_seq w.sp.internal_memory w.out_sectaddr w.out_act_bufno) ++
      [pg] := by
    unfold out_pages MergeVars.set_buffer
    simp only
    rw [pages_seq_snoc _ _ _ b1, ← haddr, aset_same, List.append_assoc]
    congr 2
    apply pages_seq_congr
    intro j _ hj2
    exact aset_other _ _ _ _ (by omega)
  have hr1 : recs_of (out_pages (w.set_buffer w.out_cur_bufaddr pg)) =
      recs_of (out_pages w) ++
        [{ area_size := -1, data := record.data, length := record.length,
           type := stored_type record.type }] := by
    rw [hsplit1, hsplit, recs_of_snoc, recs_of_snoc, hrecs, List.append_assoc]
  refine ⟨⟨b1, b2⟩, haddr, hrs, ?_, ?_, ?_, ?_, hpub⟩
  · rw [hsplit1]
    intro p hp
    rcases List.mem_append.1 hp with h | h
    · exact hpages p (by rw [hsplit]; exact List.mem_append_left _ h)
    · rw [List.mem_singleton] at h; rw [h]; exact hpg
  · intro b hb1 hb2
    have e : (w.set_buffer w.out_cur_bufaddr pg).sp.internal_memory b =
        w.sp.internal_memory b := aset_other _ _ _ _ (by
          have : (w.set_buffer w.out_cur_bufaddr pg).out_cur_bufaddr = w.out_cur_bufaddr := rfl
          rw [this] at hb1; omega)
    rw [e]
    exact hspare b hb1 hb2
  · rw [hr1, KeyAsc_append]
    refine ⟨hasc, List.pairwise_singleton _ _, ?_⟩
    intro a ha b hb
    rw [List.mem_singleton] at hb
    rw [hb, key_stored]
    exact hfresh _ (by rw [hkeys]; exact List.mem_map_of_mem _ ha)
  · rw [hr1, List.map_append, ← hkeys, List.map_singleton, key_stored]

theorem OutInv_extend (E : MergeEnv) (v w : MergeVars) (EM : List (List Byte)) (pgE : Page)
    (ho : OutInv E v EM)
    (hpages : out_pages w = out_pages v ++ [pgE])
    (hinv : PageInv E.env E.MAX_ALIGNMENT pgE) (hempty : page_records pgE = [])
    (hbuf : 0 ≤ w.out_act_bufno ∧ w.out_act_bufno < w.out_sectsize)
    (haddr : w.out_cur_bufaddr = w.out_sectaddr + w.out_act_bufno)
    (hrs : 0 ≤ w.out_runsize)
    (hspare : ∀ b, w.out_cur_bufaddr < b → b < w.out_sectaddr + w.out_sectsize →
      PageInv E.env E.MAX_ALIGNMENT (w.sp.internal_memory b) ∧
        page_records (w.sp.internal_memory b) = [])
    (hpub : w.published = v.published) : OutInv E w EM := by
  have hr : recs_of (out_pages w) = recs_of (out_pages v) := by
    rw [hpages, recs_of_snoc, hempty, List.append_nil]
  refine ⟨hbuf, haddr, hrs, ?_, hspare, by rw [hr]; exact ho.asc, by rw [hr]; exact ho.keys,
    by rw [hpub]; exact ho.published⟩
  rw [hpages]
  intro p hp
  rcases List.mem_append.1 hp with h | h
  · exact ho.pages p h
  · rw [List.mem_singleton] at h; rw [h]; exact hinv

theorem OutInv_next (E : MergeEnv) (v : MergeVars) (EM : List (List Byte))
    (ho : OutInv E v EM) (hlt : v.out_act_bufno + 1 < v.out_sectsize) :
    OutInv E (next_output_buffer v) EM := by
  have hsp := ho.spare (v.out_cur_bufaddr + 1) (by omega) (by have := ho.addr; omega)
  refine OutInv_extend E v _ EM (v.sp.internal_memory (v.out_cur_bufaddr + 1)) ho ?_ hsp.1 hsp.2
    ?_ ?_ ho.runsize ?_ rfl
  · unfold out_pages next_output_buffer
    simp only
    rw [pages_seq_snoc _ _ (v.out_act_bufno + 1) (by have := ho.bufno; omega),
      ← List.append_assoc]
    have e : v.out_sectaddr + (v.out_act_bufno + 1) = v.out_cur_bufaddr + 1 := by
      have := ho.addr; omega
    rw [e]
  · show 0 ≤ v.out_act_bufno + 1 ∧ v.out_act_bufno + 1 < v.out_sectsize
    have := ho.bufno; omega
  · show v.out_cur_bufaddr + 1 = v.out_sectaddr + (v.out_act_bufno + 1)
    have := ho.addr; omega
  · intro b hb1 hb2
    exact ho.spare b (by
      have : (next_output_buffer v).out_cur_bufaddr = v.out_cur_bufaddr + 1 := rfl
      rw [this] at hb1; omega) hb2

theorem OutInv_flush (E : MergeEnv) (hE : EnvSift E) (v : MergeVars) (EM : List (List Byte))
    (ho : OutInv E v EM) (hlt : ¬ (v.out_act_bufno + 1 < v.out_sectsize)) :
    OutInv E (flush_output_section E v) EM := by
  have hb := ho.bufno
  have hsz : v.out_act_bufno + 1 = v.out_sectsize := by omega
  have hinit : ∀ b, PageInv E.env E.MAX_ALIGNMENT
      ( sort_spage_initialize E.env (v.sp.internal_memory b) E.UNANCHORED_KEEP_SEQUENCE
        E.MAX_ALIGNMENT) ∧
      page_records ( sort_spage_initialize E.env (v.sp.internal_memory b)
        E.UNANCHORED_KEEP_SEQUENCE E.MAX_ALIGNMENT) = [] :=
    fun b => ⟨initialize_inv E.env hE.env _ _ _ hE.align,
      page_records_initialize E.env hE.env _ _ _ hE.align⟩
  have e_co : (flush_output_section E v).cur_outfile = v.cur_outfile := rfl
  have e_cp : (flush_output_section E v).cur_page v.cur_outfile =
      v.cur_page v.cur_outfile + v.out_sectsize := aset_same _ _ _
  have e_rs : (flush_output_section E v).out_runsize = v.out_runsize + v.out_sectsize := rfl
  have e_ab : (flush_output_section E v).out_act_bufno = 0 := rfl
  have e_sa : (flush_output_section E v).out_sectaddr = v.out_sectaddr := rfl
  have e_ss : (flush_output_section E v).out_sectsize = v.out_sectsize := rfl
  have e_cb : (flush_output_section E v).out_cur_bufaddr = v.out_sectaddr := rfl
  refine OutInv_extend E v _ EM
    ( sort_spage_initialize E.env (v.sp.internal_memory v.out_sectaddr)
      E.UNANCHORED_KEEP_SEQUENCE E.MAX_ALIGNMENT) ho ?_ (hinit _).1 (hinit _).2 ?_ ?_ ?_ ?_ rfl
  · unfold out_pages
    rw [e_co, e_cp, e_rs, e_ab, e_sa]
    have e1 : v.cur_page v.cur_outfile + v.out_sectsize - (v.out_runsize + v.out_sectsize) =
        v.cur_page v.cur_outfile - v.out_runsize := by omega
    have hF : pages_seq ((flush_output_section E v).sp.temp v.cur_outfile)
        (v.cur_page v.cur_outfile - v.out_runsize) v.out_runsize =
        pages_seq (v.sp.temp v.cur_outfile) (v.cur_page v.cur_outfile - v.out_runsize)
          v.out_runsize := by
      apply pages_seq_congr
      intro j _ hj2
      rw [flush_temp, if_neg (by omega)]
    have hB : pages_seq ((flush_output_section E v).sp.temp v.cur_outfile)
        (v.cur_page v.cur_outfile - v.out_runsize + v.out_runsize) v.out_sectsize =
        pages_seq v.sp.internal_memory v.out_sectaddr v.out_sectsize := by
      apply pages_seq_shift
      intro k hk1 hk2
      rw [flush_temp, if_pos (by omega)]
      congr 1
      omega
    rw [e1, pages_seq_append _ _ _ _ ho.runsize (by omega), zero_add, pages_seq_one,
      flush_memory, if_pos (by omega), hsz, hF, hB]
  · rw [e_ab, e_ss]; omega
  · rw [e_cb, e_sa, e_ab]; omega
  · rw [e_rs]; have := ho.runsize; omega
  · intro b hb1 hb2
    rw [e_cb] at hb1
    rw [e_sa, e_ss] at hb2
    rw [flush_memory, if_pos (by omega)]
    exact hinit b
theorem PubOK_nil (E : MergeEnv) : PubOK E [] := List.Pairwise.nil

theorem insert_into_empty_spec (E : MergeEnv) (hE : EnvSift E) (v w : MergeVars)
    (EM : List (List Byte)) (hinv : RunLoopInv E v EM) (hf : OutFrame v w)
    (hlast : v.very_last_run = false) (ho : OutInv E w EM) (min : Int) (hm0 : 0 ≤ min)
    (hm1 : min < v.act_infiles) (hnode : NodeOK E v min) (record : RECDES) (hwf : record.WF)
    (hfresh : ∀ l ∈ EM, E.compare l (E.key record) < 0) :
    (insert_into_empty E w record).Safe E
      (fun v1 => EmitPost E v v1 min (EM ++ [E.key record])) := by
  unfold insert_into_empty
  cases hins : sort_spage_insert E.env E.qs E.calloc_ok
      (w.sp.internal_memory w.out_cur_bufaddr) record with
  | none =>
    show PubOK E w.published
    rw [ho.published]; exact PubOK_nil E
  | some res =>
    obtain ⟨pg, sid⟩ := res
    cases sid with
    | none =>
      show PubOK E w.published
      rw [ho.published]; exact PubOK_nil E
    | some sid =>
      show EmitPost E v (w.set_buffer w.out_cur_bufaddr pg) min (EM ++ [E.key record])
      exact EmitPost_of_out E v _ EM _ hinv
        (OutFrame_trans hf (OutFrame_set_buffer w _ pg (by have := ho.addr; have := ho.bufno; omega)))
        hlast (OutInv_insert E hE w EM record pg sid ho hwf hfresh hins) min hm0 hm1 hnode

theorem output_record_spec (E : MergeEnv) (hE : EnvSift E) (v : MergeVars)
    (EM : List (List Byte)) (hinv : RunLoopInv E v EM) (h : SORT_REC_LIST)
    (t : List SORT_REC_LIST) (hl : v.sr_list = h :: t) (hflag : h.is_duplicated = false)
    (hlast : v.very_last_run = false) :
    (output_record E v h.rec_pos).Safe E
      (fun v1 => EmitPost E v v1 h.rec_pos (EM ++ [v.data h.rec_pos])) := by
  have hmem : h ∈ v.sr_list := by rw [hl]; exact List.mem_cons_self _ _
  obtain ⟨hm0, hm1, hnode⟩ := hinv.nodes h hmem
  have ho := hinv.out hlast
  have hfresh := hinv.order.fresh h hmem hflag
  have hkey : v.data h.rec_pos = E.key (v.smallest_elem_ptr h.rec_pos) := hnode.key
  have hwf : (v.smallest_elem_ptr h.rec_pos).WF := by
    rw [hnode.small]
    have hi := hnode.input
    have hpg : PageInv E.env E.MAX_ALIGNMENT
        (v.sp.internal_memory (v.in_cur_bufaddr h.rec_pos)) := by
      apply hi.pages
      unfold in_pages
      simp only
      rw [pages_seq_succ _ _ _ (by have := hi.bufno; omega)]
      exact List.mem_cons_self _ _
    exact slot_record_WF E.env E.MAX_ALIGNMENT _ hpg _
      (by have := hi.slot; have := hi.last; omega)
  rw [hkey] at hfresh ⊢
  have hcur : PageInv E.env E.MAX_ALIGNMENT (v.sp.internal_memory v.out_cur_bufaddr) := by
    apply ho.pages
    unfold out_pages
    rw [pages_seq_snoc _ _ _ ho.bufno.1, ← ho.addr]
    simp
  unfold output_record
  simp only
  cases hins : sort_spage_insert E.env E.qs E.calloc_ok
      (v.sp.internal_memory v.out_cur_bufaddr) (v.smallest_elem_ptr h.rec_pos) with
  | none =>
    show PubOK E v.published
    rw [ho.published]; exact PubOK_nil E
  | some res =>
    obtain ⟨pg, sid⟩ := res
    cases sid with
    | some sid =>
      show EmitPost E v (v.set_buffer v.out_cur_bufaddr pg) h.rec_pos _
      exact EmitPost_of_out E v _ EM _ hinv
        (OutFrame_set_buffer v _ pg (by have := ho.addr; have := ho.bufno; omega))
        hlast (OutInv_insert E hE v EM _ pg sid ho hwf hfresh hins) _ hm0 hm1 hnode
    | none =>
      have hpg := insert_refused E.env hE.env E.MAX_ALIGNMENT hE.align E.qs E.calloc_ok _ hcur
        _ hwf pg hins
      simp only [hpg, set_buffer_same]
      by_cases hlt : v.out_act_bufno + 1 < v.out_sectsize
      · rw [if_pos hlt]
        exact insert_into_empty_spec E hE v _ EM hinv (OutFrame_next v) hlast
          (OutInv_next E v EM ho hlt) _ hm0 hm1 hnode _ hwf hfresh
      · rw [if_neg hlt]
        exact insert_into_empty_spec E hE v _ EM hinv
          (OutFrame_flush E v (by have := ho.bufno; omega)) hlast
          (OutInv_flush E hE v EM ho hlt) _ hm0 hm1 hnode _ hwf hfresh
/-! ### The list of the smallest elements in the loop -/

theorem TailInv_congr (compare : List Byte → List Byte → Int) (K K1 : Int → List Byte)
    (EM : List (List Byte)) (nodes : List SORT_REC_LIST)
    (hK : ∀ n ∈ nodes, K1 n.rec_pos = K n.rec_pos) (h : TailInv compare K EM nodes) :
    TailInv compare K1 EM nodes := by
  refine ⟨h.nodup, ?_, ?_, ?_, ?_⟩
  · exact h.sorted.imp_of_mem (fun {a b} ha hb hab => by rw [hK a ha, hK b hb]; exact hab)
  · intro n hn l hl; rw [hK n hn]; exact h.lower n hn l hl
  · intro n hn hd l hl; rw [hK n hn]; exact h.fresh n hn hd l hl
  · exact h.flags.imp_of_mem (fun {a b} ha hb hab hd => by
      rw [hK a ha, hK b hb]; exact hab hd)

theorem OrderInv_of_tail (compare : List Byte → List Byte → Int) (K : Int → List Byte)
    (EM : List (List Byte)) (nodes : List SORT_REC_LIST) (h : TailInv compare K EM nodes) :
    OrderInv compare K EM nodes := by
  refine ⟨h.nodup, h.sorted, h.lower, h.fresh, ?_, ?_⟩
  · exact List.Pairwise.sublist (List.tail_sublist nodes) h.flags
  · intro hd hhd m hm hflag
    cases nodes with
    | nil => simp at hhd
    | cons p t =>
      simp only [List.head?_cons, Option.mem_def, Option.some.injEq] at hhd
      simp only [List.tail_cons] at hm
      rw [← hhd]
      exact Or.inr ((List.pairwise_cons.1 h.flags).1 m hm hflag)

theorem TailInv_of_skip (compare : List Byte → List Byte → Int) (K : Int → List Byte)
    (EM : List (List Byte)) (h : SORT_REC_LIST) (t : List SORT_REC_LIST)
    (hinv : OrderInv compare K EM (h :: t)) :
    TailInv compare K EM t ∧ ∀ l ∈ EM, compare l (K h.rec_pos) ≤ 0 := by
  refine ⟨⟨?_, ?_, ?_, ?_, hinv.flags⟩, ?_⟩
  · have := hinv.nodup
    simp only [List.map_cons] at this
    exact (List.nodup_cons.1 this).2
  · exact (List.pairwise_cons.1 hinv.sorted).2
  · intro n hn; exact hinv.lower n (List.mem_cons_of_mem _ hn)
  · intro n hn; exact hinv.fresh n (List.mem_cons_of_mem _ hn)
  · exact hinv.lower h (List.mem_cons_self _ _)

theorem TailInv_of_emit (compare : List Byte → List Byte → Int) (hord : SiftOrder compare)
    (K : Int → List Byte) (EM : List (List Byte)) (h : SORT_REC_LIST) (t : List SORT_REC_LIST)
    (hinv : OrderInv compare K EM (h :: t)) (hflag : h.is_duplicated = false)
    (kk : List Byte) (hk : ∀ x, compare kk x = compare (K h.rec_pos) x) :
    TailInv compare K (EM ++ [kk]) t ∧ ∀ l ∈ EM ++ [kk], compare l (K h.rec_pos) ≤ 0 := by
  obtain ⟨h1, h2⟩ := TailInv_of_skip compare K EM h t hinv
  have hs := List.pairwise_cons.1 hinv.sorted
  refine ⟨⟨h1.nodup, h1.sorted, ?_, ?_, h1.flags⟩, ?_⟩
  · intro n hn l hl
    rcases List.mem_append.1 hl with e | e
    · exact h1.lower n hn l e
    · rw [List.mem_singleton] at e
      rw [e, hk]
      exact hs.1 n hn
  · intro n hn hd l hl
    rcases List.mem_append.1 hl with e | e
    · exact h1.fresh n hn hd l e
    · rw [List.mem_singleton] at e
      rw [e, hk]
      rcases hinv.head h (by simp) n (by simpa using hn) hd with e1 | e1
      · rw [hflag] at e1; exact absurd e1 (by decide)
      · exact e1
  · intro l hl
    rcases List.mem_append.1 hl with e | e
    · exact h2 l e
    · rw [List.mem_singleton] at e
      rw [e, hk]
      exact hord.refl_le _

/-- The list after a record of the first input enters without a search for the
minimum: the first node keeps its place. -/
theorem OrderInv_enter (compare : List Byte → List Byte → Int) (hord : SiftOrder compare)
    (K : Int → List Byte) (EM : List (List Byte)) (h : SORT_REC_LIST) (p : SORT_REC_LIST)
    (t : List SORT_REC_LIST) (htail : TailInv compare K EM (p :: t))
    (hpos : h.rec_pos ∉ (p :: t).map (fun n => n.rec_pos))
    (hlow : ∀ l ∈ EM, compare l (K h.rec_pos) < 0)
    (hle : compare (K h.rec_pos) (K p.rec_pos) ≤ 0)
    (hlt : h.is_duplicated = false → compare (K h.rec_pos) (K p.rec_pos) < 0) :
    OrderInv compare K EM (h :: p :: t) := by
  have hs := List.pairwise_cons.1 htail.sorted
  refine ⟨?_, ?_, ?_, ?_, htail.flags, ?_⟩
  · simp only [List.map_cons] at hpos ⊢
    exact List.nodup_cons.2 ⟨hpos, htail.nodup⟩
  · refine List.pairwise_cons.2 ⟨?_, htail.sorted⟩
    intro n hn
    rcases List.mem_cons.1 hn with e | e
    · rw [e]; exact hle
    · exact hord.le_trans hle (hs.1 n e)
  · intro n hn l hl
    rcases List.mem_cons.1 hn with e | e
    · rw [e]; exact le_of_lt (hlow l hl)
    · exact htail.lower n e l hl
  · intro n hn hd l hl
    rcases List.mem_cons.1 hn with e | e
    · rw [e]; exact hlow l hl
    · exact htail.fresh n e hd l hl
  · intro hd hhd m hm hflag
    simp only [List.head?_cons, Option.mem_def, Option.some.injEq] at hhd
    simp only [List.tail_cons] at hm
    rw [← hhd]
    by_cases hdup : h.is_duplicated = true
    · exact Or.inl hdup
    · right
      have hlt' := hlt (by simpa using hdup)
      rcases List.mem_cons.1 hm with e | e
      · rw [e]; exact hlt'
      · exact hord.lt_of_lt_of_le hlt' (hs.1 m e)

/-- The list after the search for the minimum with the new record of the input
of the node `h`. -/
theorem OrderInv_bubble (E : MergeEnv) (hord : SiftOrder E.compare) (v : MergeVars)
    (EM : List (List Byte)) (h : SORT_REC_LIST) (t : List SORT_REC_LIST)
    (hflag : h.is_duplicated = false) (htail : TailInv E.compare v.data EM t)
    (hpos : h.rec_pos ∉ t.map (fun n => n.rec_pos))
    (hlow : ∀ l ∈ EM, E.compare l (v.data h.rec_pos) < 0) :
    OrderInv E.compare v.data EM (find_minimum_from E v h t) ∧
    List.Perm ((find_minimum_from E v h t).map (fun n => n.rec_pos))
      ((h :: t).map (fun n => n.rec_pos)) := by
  obtain ⟨i1, i2, i3, i4⟩ := find_minimum_from_spec E hord v h hflag t htail.sorted htail.flags
  refine ⟨OrderInv_of_tail _ _ _ _ ⟨?_, i1, ?_, ?_, i2⟩, i3⟩
  · rw [i3.nodup_iff]
    simp only [List.map_cons]
    exact List.nodup_cons.2 ⟨hpos, htail.nodup⟩
  · intro n hn l hl
    have : n.rec_pos ∈ (h :: t).map (fun n => n.rec_pos) := i3.subset (List.mem_map_of_mem _ hn)
    simp only [List.map_cons, List.mem_cons, List.mem_map] at this
    rcases this with e | ⟨n0, hn0, e⟩
    · rw [e]; exact le_of_lt (hlow l hl)
    · rw [← e]; exact htail.lower n0 hn0 l hl
  · intro n hn hd l hl
    obtain ⟨n0, hn0, e1, e2⟩ := i4 n hn hd
    rw [← e1]
    rcases List.mem_cons.1 hn0 with e | e
    · rw [e]; exact hlow l hl
    · exact htail.fresh n0 e e2 l hl
theorem LoopFrame_refl (v : MergeVars) : LoopFrame v v :=
  ⟨SameStatic_refl v, fun _ => rfl, fun _ => rfl, fun _ _ _ => rfl, fun _ _ _ => rfl⟩

theorem LoopFrame_trans {v v1 v2 : MergeVars} (h1 : LoopFrame v v1) (h2 : LoopFrame v1 v2) :
    LoopFrame v v2 := by
  refine ⟨SameStatic_trans h1.static h2.static, fun f => (h2.first_run f).trans (h1.first_run f),
    fun f => (h2.last_run f).trans (h1.last_run f), ?_, ?_⟩
  · intro f k hk
    rw [h2.num_pages f k (by rw [h1.first_run f]; exact hk), h1.num_pages f k hk]
  · intro i hi hi2
    have q := h2.outputs i hi (by rw [h1.static.half_files]; exact hi2)
    rw [h1.static.out_half] at q
    rw [q, h1.outputs i hi hi2]

theorem out_pages_frame (v v1 : MergeVars) (hs : SameStatic v v1) (ho : SameOutput v v1)
    (hf : SameFile v v1 v.cur_outfile) (hb : v.out_act_bufno < v.out_sectsize) :
    out_pages v1 = out_pages v := by
  unfold out_pages
  rw [hs.cur_outfile, hf.temp, hf.cur_page, ho.out_runsize, hs.out_sectaddr, ho.out_act_bufno]
  congr 1
  apply pages_seq_congr
  intro j h1 h2
  exact ho.memory j h1 (by omega)

theorem OutInv_frame (E : MergeEnv) (v v1 : MergeVars) (EM : List (List Byte))
    (hs : SameStatic v v1) (ho : SameOutput v v1) (hf : SameFile v v1 v.cur_outfile)
    (h : OutInv E v EM) : OutInv E v1 EM := by
  have hp := out_pages_frame v v1 hs ho hf h.bufno.2
  refine ⟨?_, ?_, ?_, ?_, ?_, ?_, ?_, ?_⟩
  · rw [ho.out_act_bufno, hs.out_sectsize]; exact h.bufno
  · rw [ho.out_cur_bufaddr, hs.out_sectaddr, ho.out_act_bufno]; exact h.addr
  · rw [ho.out_runsize]; exact h.runsize
  · rw [hp]; exact h.pages
  · rw [ho.out_cur_bufaddr, hs.out_sectaddr, hs.out_sectsize]
    intro b hb1 hb2
    rw [ho.memory b (by have := h.addr; have := h.bufno; omega) hb2]
    exact h.spare b hb1 hb2
  · rw [hp]; exact h.asc
  · rw [hp]; exact h.keys
  · rw [ho.published]; exact h.published

theorem PubInv_frame (E : MergeEnv) (v v1 : MergeVars) (EM : List (List Byte))
    (hp : v1.published = v.published) (h : PubInv E v EM) : PubInv E v1 EM :=
  ⟨by rw [hp]; exact h.asc, by rw [hp]; exact h.keys⟩

/-- The invariant of the loop after one of its passes, put together from what
holds after the record is sent out, after the input moved on, and of the new
list. -/
theorem loop_assemble (E : MergeEnv) (v v1 v3 v4 : MergeVars) (EM EM1 : List (List Byte))
    (min : Int) (hinv : RunLoopInv E v EM) (hm0 : 0 ≤ min) (hm1 : min < v.act_infiles)
    (hpost : EmitPost E v v1 min EM1) (hadv : AdvFrame v1 v3 min)
    (h4 : v4 = { v3 with sr_list := v4.sr_list, last_elem_ptr := v4.last_elem_ptr,
                         last_long_recdes := v4.last_long_recdes,
                         last_elem_cmp := v4.last_elem_cmp })
    (hnodes : ∀ n ∈ v4.sr_list, (n.rec_pos = min ∧ NodeOK E v3 min) ∨
      (n.rec_pos ≠ min ∧ ∃ n0 ∈ v.sr_list, n0.rec_pos = n.rec_pos))
    (hkeep : ∀ n ∈ v.sr_list, n.rec_pos ≠ min → ∃ n1 ∈ v4.sr_list, n1.rec_pos = n.rec_pos)
    (hmin : (∃ n ∈ v4.sr_list, n.rec_pos = min) ∨
      (v3.sp.file_contents (v.sp.in_half + min)).num_pages
        (v3.sp.file_contents (v.sp.in_half + min)).first_run = 0)
    (horder : OrderInv E.compare v4.data EM1 v4.sr_list) (hlc : LCInv E v4) :
    RunLoopInv E v4 EM1 ∧ LoopFrame v v4 := by
  have e_sp : v4.sp = v3.sp := by rw [h4]
  have hs34 : SameStatic v3 v4 := by
    rw [h4]; exact ⟨rfl, rfl, rfl, rfl, rfl, rfl, rfl, rfl, rfl, rfl, rfl, rfl⟩
  have hi34 : ∀ j, SameInput v3 v4 j := by
    intro j; rw [h4]; exact ⟨rfl, rfl, rfl, rfl, rfl, rfl, rfl, fun _ _ _ => rfl⟩
  have hf34 : ∀ f, SameFile v3 v4 f := by
    intro f; rw [h4]; exact ⟨rfl, rfl, rfl⟩
  have ho34 : SameOutput v3 v4 := by
    rw [h4]; exact ⟨rfl, rfl, rfl, rfl, fun _ _ _ => rfl⟩
  have hs01 := hpost.static
  have hs13 := hadv.static
  have hs03 := SameStatic_trans hs01 hs13
  have hs04 := SameStatic_trans hs03 hs34
  have hl0 := hinv.layout
  have hl1 := Layout_frame v v1 hs01 hl0
  have hl3 := Layout_frame v v3 hs03 hl0
  have hih1 : v1.sp.in_half = v.sp.in_half := hs01.in_half
  have hact1 : v1.act_infiles = v.act_infiles := hs01.act_infiles
  have hhf : v.act_infiles ≤ v.sp.half_files := hl0.act.2
  -- the inputs other than `min`
  have hother : ∀ j, 0 ≤ j → j < v.act_infiles → j ≠ min → NodeOK E v j → NodeOK E v4 j := by
    intro j hj hj2 hne hn
    have n1 := NodeOK_frame E v v1 j hs01 (hpost.inputs j hj hj2 hne)
      (hpost.files j hj (by omega)) hn
    have n3 := NodeOK_frame E v1 v3 j hs13
      (hadv.same_input hl1 (by omega) (by omega) j hj (by omega) hne)
      (hadv.same_file _ (by omega)) n1
    exact NodeOK_frame E v3 v4 j hs34 (hi34 j) (hf34 _) n3
  have hfile13 : ∀ f, f ≠ v.sp.in_half + min → SameFile v1 v3 f := by
    intro f hf
    exact hadv.same_file f (by rw [hih1]; exact hf)
  have hco : v.cur_outfile ≠ v.sp.in_half + min := by
    have := in_file_ne_out_file v hl0 min (v.cur_outfile - v.out_half) hm0 (by omega)
      (by have := hl0.outfile; omega) (by have := hl0.outfile; omega)
    intro hc; apply this; omega
  refine ⟨⟨Layout_frame v v4 hs04 hl0, ?_, horder, hlc, ?_, ?_, ?_, ?_, ?_⟩,
    ⟨hs04, ?_, ?_, ?_, ?_⟩⟩
  · intro n hn
    rw [hs04.act_infiles]
    rcases hnodes n hn with ⟨e, hn3⟩ | ⟨e, n0, hn0, e0⟩
    · rw [e]
      exact ⟨hm0, hm1, NodeOK_frame E v3 v4 min hs34 (hi34 min) (hf34 _) hn3⟩
    · obtain ⟨a1, a2, a3⟩ := hinv.nodes n0 hn0
      rw [e0] at a1 a2 a3
      exact ⟨a1, a2, hother _ a1 a2 e a3⟩
  · intro hv
    rw [hs04.very_last_run] at hv
    have p1 := hpost.pub hv
    have p3 := PubInv_frame E v1 v3 EM1 hadv.published p1
    exact PubInv_frame E v3 v4 EM1 ho34.published p3
  · intro hv
    rw [hs04.very_last_run] at hv
    have o1 := hpost.out hv
    have o3 := OutInv_frame E v1 v3 EM1 hs13
      (hadv.same_output hl1 (by omega) (by omega))
      (hfile13 _ (by rw [hs01.cur_outfile]; exact hco)) o1
    exact OutInv_frame E v3 v4 EM1 hs34 ho34 (hf34 _) o3
  · intro i hi hi2
    rw [hs04.half_files] at hi2
    rw [hs04.in_half]
    have r1 := RestInv_frame E v v1 _ (hpost.files i hi hi2) (hinv.rest i hi hi2)
    have r3 : RestInv E v3 (v.sp.in_half + i) := by
      by_cases e : i = min
      · rw [e] at r1 ⊢
        have := RestInv_adv E v1 v3 min hadv (by rw [hih1]; exact r1)
        rw [hih1] at this
        exact this
      · exact RestInv_frame E v1 v3 _ (hfile13 _ (by omega)) r1
    exact RestInv_frame E v3 v4 _ (hf34 _) r3
  · intro i hi hi2
    rw [hs04.half_files] at hi2
    rw [hs04.out_half, hs04.cur_outfile]
    have o1 := hpost.outfiles i hi hi2
    have hne : v.out_half + i ≠ v.sp.in_half + min :=
      Ne.symm (in_file_ne_out_file v hl0 min i hm0 (by omega) hi hi2)
    have e1 : v4.out_runsize = v1.out_runsize := by
      rw [ho34.out_runsize, hadv.out_runsize]
    rw [e1]
    exact OutFileInv_frame E v3 v4 _ _ (hf34 _) (OutFileInv_frame E v1 v3 _ _ (hfile13 _ hne) o1)
  · intro i hi hi2
    rw [hs04.act_infiles] at hi2
    rw [hs04.in_half, e_sp]
    by_cases e : i = min
    · rw [e]
      exact hmin
    · rcases hinv.done i hi hi2 with ⟨n, hn, en⟩ | hz
      · obtain ⟨n1, hn1, e1⟩ := hkeep n hn (by rw [en]; exact e)
        exact Or.inl ⟨n1, hn1, by rw [e1, en]⟩
      · right
        have f1 := (hpost.files i hi (by omega)).contents
        have f3 := (hfile13 (v.sp.in_half + i) (by omega)).contents
        rw [f3, f1]
        exact hz
  · intro f
    rw [e_sp]
    by_cases e : f = v.sp.in_half + min
    · rw [e]
      have := hadv.first_run
      rw [hih1] at this
      rw [this, hpost.contents]
    · rw [(hfile13 f e).contents, hpost.contents]
  · intro f
    rw [e_sp]
    by_cases e : f = v.sp.in_half + min
    · rw [e]
      have := hadv.last_run
      rw [hih1] at this
      rw [this, hpost.contents]
    · rw [(hfile13 f e).contents, hpost.contents]
  · intro f k hk
    rw [e_sp]
    by_cases e : f = v.sp.in_half + min
    · rw [e] at hk ⊢
      have := hadv.num_pages k (by rw [hih1, hpost.contents]; exact hk)
      rw [hih1] at this
      rw [this, hpost.contents]
    · rw [(hfile13 f e).contents, hpost.contents]
  · intro i hi hi2
    rw [e_sp]
    have hne : v.out_half + i ≠ v.sp.in_half + min :=
      Ne.symm (in_file_ne_out_file v hl0 min i hm0 (by omega) hi hi2)
    rw [(hfile13 _ hne).contents, hpost.contents]

/-! ### The claims on `sort_spage_get_record` -/

/-- C12: `sort_spage_get_record` returns `S_DOESNT_EXIST` exactly when
`slotid < 0`, `slotid ≥ nslots` or the offset of the slot is `NULL_OFFSET`, in
both modes, and then the descriptor is the one of the caller with `length = 0`;
otherwise in `PEEK` mode it returns `S_SUCCESS` with the length and the type of
the slot, `area_size = -1` and as data the bytes of the page from the offset of
the slot. -/
theorem get_record_doesnt_exist_iff (env : PageEnv) (pg : Page) (slotid : Int)
    (recdes : RECDES) (mode : PeekMode) :
    ((sort_spage_get_record env pg slotid recdes mode).1 = SCAN_CODE.S_DOESNT_EXIST ↔
      (slotid < 0 ∨ slotid ≥ pg.hdr.nslots ∨
        (pg.slots slotid.toNat).roffset = env.NULL_OFFSET)) ∧
    ((slotid < 0 ∨ slotid ≥ pg.hdr.nslots ∨
          (pg.slots slotid.toNat).roffset = env.NULL_OFFSET) ∧
        sort_spage_get_record env pg slotid recdes mode =
          (SCAN_CODE.S_DOESNT_EXIST, { recdes with length := 0 }) ∨
      ¬ (slotid < 0 ∨ slotid ≥ pg.hdr.nslots ∨
          (pg.slots slotid.toNat).roffset = env.NULL_OFFSET) ∧
        (sort_spage_get_record env pg slotid recdes mode).1 ≠ SCAN_CODE.S_DOESNT_EXIST) ∧
    sort_spage_get_record env pg slotid recdes PeekMode.PEEK =
      (if slotid < 0 ∨ slotid ≥ pg.hdr.nslots ∨
          (pg.slots slotid.toNat).roffset = env.NULL_OFFSET then
        (SCAN_CODE.S_DOESNT_EXIST, { recdes with length := 0 })
      else
        (SCAN_CODE.S_SUCCESS,
          { area_size := -1,
            data := read_bytes pg.bytes (pg.slots slotid.toNat).roffset
              (pg.slots slotid.toNat).rlength,
            length := (pg.slots slotid.toNat).rlength,
            type := (pg.slots slotid.toNat).rtype })) := by
  by_cases hc : slotid < 0 ∨ slotid ≥ pg.hdr.nslots ∨
      (pg.slots slotid.toNat).roffset = env.NULL_OFFSET
  · have e : sort_spage_get_record env pg slotid recdes mode =
        (SCAN_CODE.S_DOESNT_EXIST, { recdes with length := 0 }) := by
      unfold sort_spage_get_record
      simp only [if_pos hc]
    refine ⟨⟨fun _ => hc, fun _ => by rw [e]⟩, Or.inl ⟨hc, e⟩, ?_⟩
    rw [if_pos hc]
    unfold sort_spage_get_record
    simp only [if_pos hc]
  · have e : (sort_spage_get_record env pg slotid recdes mode).1 ≠
        SCAN_CODE.S_DOESNT_EXIST := by
      unfold sort_spage_get_record
      simp only [if_neg hc]
      cases mode with
      | PEEK => simp
      | COPY =>
        simp only
        split <;> simp
    refine ⟨⟨fun h => absurd h e, fun h => absurd h hc⟩, Or.inr ⟨hc, e⟩, ?_⟩
    rw [if_neg hc]
    unfold sort_spage_get_record
    simp only [if_neg hc]

/-- C13: in `COPY` mode, for an existing slot of length `n`,
`sort_spage_get_record` returns `S_DOESNT_FIT` exactly when `n > area_size`, and
then the descriptor of the caller is unchanged but for `length = -n` (the bytes of
the buffer are as before); otherwise it returns `S_SUCCESS` with length `n`, the
type of the slot, and the `n` bytes of the record at the front of the buffer, the
rest of the buffer as before. -/
theorem get_record_copy_cases (env : PageEnv) (pg : Page) (slotid : Int) (recdes : RECDES)
    (h0 : 0 ≤ slotid) (h1 : slotid < pg.hdr.nslots)
    (h2 : (pg.slots slotid.toNat).roffset ≠ env.NULL_OFFSET) :
    ((sort_spage_get_record env pg slotid recdes PeekMode.COPY).1 = SCAN_CODE.S_DOESNT_FIT ↔
      (pg.slots slotid.toNat).rlength > recdes.area_size) ∧
    sort_spage_get_record env pg slotid recdes PeekMode.COPY =
      (if (pg.slots slotid.toNat).rlength > recdes.area_size then
        (SCAN_CODE.S_DOESNT_FIT, { recdes with length := -(pg.slots slotid.toNat).rlength })
      else
        (SCAN_CODE.S_SUCCESS,
          { recdes with
            data := read_bytes pg.bytes (pg.slots slotid.toNat).roffset
                (pg.slots slotid.toNat).rlength ++
              recdes.data.drop (pg.slots slotid.toNat).rlength.toNat,
            length := (pg.slots slotid.toNat).rlength,
            type := (pg.slots slotid.toNat).rtype })) ∧
    ((pg.slots slotid.toNat).rlength > recdes.area_size →
      (sort_spage_get_record env pg slotid recdes PeekMode.COPY).2.data = recdes.data) := by
  have hc : ¬ (slotid < 0 ∨ slotid ≥ pg.hdr.nslots ∨
      (pg.slots slotid.toNat).roffset = env.NULL_OFFSET) := by
    intro h
    rcases h with h | h | h
    · omega
    · omega
    · exact h2 h
  have heq : sort_spage_get_record env pg slotid recdes PeekMode.COPY =
      (if (pg.slots slotid.toNat).rlength > recdes.area_size then
        (SCAN_CODE.S_DOESNT_FIT, { recdes with length := -(pg.slots slotid.toNat).rlength })
      else
        (SCAN_CODE.S_SUCCESS,
          { recdes with
            data := read_bytes pg.bytes (pg.slots slotid.toNat).roffset
                (pg.slots slotid.toNat).rlength ++
              recdes.data.drop (pg.slots slotid.toNat).rlength.toNat,
            length := (pg.slots slotid.toNat).rlength,
            type := (pg.slots slotid.toNat).rtype })) := by
    unfold sort_spage_get_record
    simp only [if_neg hc]
  refine ⟨?_, heq, ?_⟩
  · rw [heq]
    by_cases hfit : (pg.slots slotid.toNat).rlength > recdes.area_size
    · simp [if_pos hfit, hfit]
    · simp [if_neg hfit, hfit]
  · intro hfit
    rw [heq, if_pos hfit]

/-- C13, at a concrete input: the one-byte record of `page_one_byte` read into a
buffer of four bytes. -/
theorem get_record_copy_cases_witness :
    (0 : Int) ≤ 0 ∧ (0 : Int) < page_one_byte.hdr.nslots ∧
    (sort_spage_get_record env16k page_one_byte 0 buf_four_bytes PeekMode.COPY).1 =
      SCAN_CODE.S_SUCCESS ∧
    (sort_spage_get_record env16k page_one_byte 0 buf_four_bytes PeekMode.COPY).2.data =
      [7, 0, 0, 0] ∧
    (sort_spage_get_record env16k page_one_byte 0 { buf_four_bytes with area_size := 0 }
      PeekMode.COPY) =
      (SCAN_CODE.S_DOESNT_FIT, { buf_four_bytes with area_size := 0, length := -1 }) :=
  have h := get_record_copy_cases env16k page_one_byte 0 buf_four_bytes (by decide) (by decide)
    (by decide)
  ⟨by decide, by decide, by rw [h.2.1]; decide, by rw [h.2.1]; decide, by decide⟩

/-! ## The claims on the sizes of the merge: sections and temp files -/

/-- C18: for every `tot_buffers` and every `input_pages`, non-positive estimates
included, and whatever the macro `CEIL_PTVDIV` computes,
`sort_get_num_half_tmpfiles` returns a value between 2 and 4. -/
theorem num_half_tmpfiles_bounds (CEIL_PTVDIV : Int → Int → Int)
    (tot_buffers input_pages : Int) :
    2 ≤ sort_get_num_half_tmpfiles CEIL_PTVDIV tot_buffers input_pages ∧
    sort_get_num_half_tmpfiles CEIL_PTVDIV tot_buffers input_pages ≤ 4 := by
  unfold sort_get_num_half_tmpfiles
  simp only []
  split_ifs <;> omega

/-! ### Inserting into a page just initialised -/

/-- C11 (what the code does): on a page just initialised with the alignment `a`,
`sort_spage_insert` returns, and it returns slot 0 exactly when the record with
its alignment padding and one slot fits the page,
`L + padding (L, a) + sizeof (SLOT) ≤ DB_PAGESIZE - sizeof (SLOTTED_PAGE_HEADER)`.
A record longer than `SORT_MAXREC_LENGTH` is refused with `NULL_SLOTID` and the
page is left as it was; so is a record of at most `SORT_MAXREC_LENGTH` bytes
whose padded length is above `SORT_MAXREC_LENGTH` (the defect: the bound of the
short records leaves the padding out); a record whose length is a multiple of the
alignment and at most `SORT_MAXREC_LENGTH` gets slot 0. -/
theorem insert_into_initialized_page (env : PageEnv) (henv : env.Valid) (a : Int)
    (ha : ValidAlignment a) (qs : Qsort) (calloc_ok : Bool) (pg0 : Page) (slots_type : Int)
    (r : RECDES) (hr : r.WF) :
    (∃ res, sort_spage_insert env qs calloc_ok ( sort_spage_initialize env pg0 slots_type a) r =
      some res) ∧
    ((∃ pg1, sort_spage_insert env qs calloc_ok ( sort_spage_initialize env pg0 slots_type a) r =
        some (pg1, some 0)) ↔
      r.length + DB_WASTED_ALIGN r.length a + SIZEOF_SLOT ≤
        env.DB_PAGESIZE - SIZEOF_SLOTTED_PAGE_HEADER) ∧
    (r.length > SORT_MAXREC_LENGTH env →
      sort_spage_insert env qs calloc_ok ( sort_spage_initialize env pg0 slots_type a) r =
        some ( sort_spage_initialize env pg0 slots_type a, none)) ∧
    (r.length + DB_WASTED_ALIGN r.length a > SORT_MAXREC_LENGTH env →
      sort_spage_insert env qs calloc_ok ( sort_spage_initialize env pg0 slots_type a) r =
        some ( sort_spage_initialize env pg0 slots_type a, none)) ∧
    (r.length ≤ SORT_MAXREC_LENGTH env → r.length % a = 0 →
      ∃ pg1, sort_spage_insert env qs calloc_ok ( sort_spage_initialize env pg0 slots_type a) r =
        some (pg1, some 0)) := by
  have h0 : 0 ≤ r.length := by rw [hr]; exact Int.natCast_nonneg _
  have hI := initialize_inv env henv pg0 slots_type a ha
  obtain ⟨hh, -, -⟩ := initialize_hdr env henv pg0 slots_type a ha
  have ht : ( sort_spage_initialize env pg0 slots_type a).hdr.tfree =
      env.DB_PAGESIZE - SIZEOF_SLOTTED_PAGE_HEADER := by rw [hh]
  have hn : ( sort_spage_initialize env pg0 slots_type a).hdr.nslots = 0 := by rw [hh]
  have hp : padded a r.length = r.length + DB_WASTED_ALIGN r.length a := rfl
  have hb := padded_bounds ha r.length
  have hmax : SORT_MAXREC_LENGTH env = env.DB_PAGESIZE - SIZEOF_SLOTTED_PAGE_HEADER - SIZEOF_SLOT :=
    rfl
  rw [← hp]
  rcases insert_cases env henv a ha qs calloc_ok _ hI r hr with ⟨h1, h2, h3⟩ | ⟨h2, h3⟩
  · rw [h3, hn]
    rw [ht] at h2
    refine ⟨⟨_, rfl⟩, ⟨fun _ => h2, fun _ => ⟨_, rfl⟩⟩, fun h => ?_, fun h => ?_,
      fun _ _ => ⟨_, rfl⟩⟩
    · omega
    · omega
  · rw [h3]
    rw [ht] at h2
    refine ⟨⟨_, rfl⟩, ⟨?_, fun h => ?_⟩, fun _ => rfl, fun _ => rfl, fun h1 h2' => ?_⟩
    · rintro ⟨pg1, h⟩
      simp at h
    · exact absurd ⟨by omega, h⟩ h2
    · exfalso
      apply h2
      refine ⟨h1, ?_⟩
      have : padded a r.length = r.length := by
        rw [padded_eq]; exact DB_ALIGN_of_aligned ha h2'
      omega

/-- C11, at the failing input: on a page of 16384 bytes initialised with the
alignment 8, the record of 16362 bytes (`SORT_MAXREC_LENGTH`, the
`page_payload_max` of the claim) is refused, the record of 16360 bytes gets
slot 0. -/
theorem insert_into_initialized_page_witness :
    env16k.Valid ∧ ValidAlignment 8 ∧ rec_longest_short.WF ∧
    0 ≤ rec_longest_short.length ∧
    rec_longest_short.length ≤ env16k.DB_PAGESIZE - SIZEOF_SLOTTED_PAGE_HEADER - SIZEOF_SLOT ∧
    sort_spage_insert env16k insertion_qsort true
      ( sort_spage_initialize env16k blank_page 0 8) rec_longest_short =
      some ( sort_spage_initialize env16k blank_page 0 8, none) := by
  have hwf : rec_longest_short.WF := by
    show ((16362 : Int)) = ((List.replicate 16362 (0 : Nat)).length : Int)
    rw [List.length_replicate]
    rfl
  exact ⟨by decide, by decide, hwf, by decide, by decide,
    (insert_into_initialized_page env16k (by decide) 8 (by decide) insertion_qsort true
      blank_page 0 rec_longest_short hwf).2.2.2.1 (by decide)⟩

/-! ### The ledgers of the runs -/

theorem float_of_nat_small (m : Nat) (h1 : m < 2 ^ 24) : float_of_nat m = m := by
  unfold float_of_nat float_ulp
  simp only [h1, if_true, Nat.div_one, Nat.mod_one, Nat.mul_one]
  simp

theorem float_of_nat_near (m : Nat) (h0 : 1 ≤ m) (h1 : m < 2 ^ 30) :
    2 * m + 1 ≤ 3 * float_of_nat m ∧ float_of_nat m ≤ 2 ^ 30 := by
  unfold float_of_nat float_ulp
  simp only []
  split_ifs <;> omega

theorem float_of_int_small (n : Int) (h0 : 0 ≤ n) (h1 : n < 2 ^ 24) : float_of_int n = n := by
  unfold float_of_int
  have hn : ¬ n < 0 := by omega
  rw [if_neg hn, float_of_nat_small _ (by omega)]
  omega

theorem float_of_int_near (n : Int) (h0 : 1 ≤ n) (h1 : n < 2 ^ 30) :
    2 * n + 1 ≤ 3 * float_of_int n ∧ float_of_int n ≤ 2 ^ 30 := by
  unfold float_of_int
  have hn : ¬ n < 0 := by omega
  rw [if_neg hn]
  have := float_of_nat_near n.natAbs (by omega) (by omega)
  omega

theorem add_new_ok (fc : FILE_CONTENTS) (n : Int) (hwf : LedgerWF fc)
    (hs : fc.num_slots < 2 ^ 30) :
    ∃ fc1, sort_run_add_new true fc n = some (true, fc1) ∧
      fc1.first_run = (if fc.first_run = -1 then 0 else fc.first_run) ∧
      fc1.last_run = (if fc.first_run = -1 then 0 else fc.last_run + 1) ∧
      fc1.num_pages = (fun j => if j = fc1.last_run then n else fc.num_pages j) ∧
      fc1.num_slots = (if fc.first_run ≠ -1 ∧ fc.last_run + 1 = fc.num_slots then
        (3 * float_of_int fc.num_slots + 1) / 2 else fc.num_slots) ∧
      fc1.last_run < fc1.num_slots ∧ fc.num_slots ≤ fc1.num_slots := by
  obtain ⟨h1, h2⟩ := hwf
  obtain ⟨hf1, hf2⟩ := float_of_int_near fc.num_slots h1 hs
  have hg : Int.tdiv (3 * float_of_int fc.num_slots + 1) 2 =
      (3 * float_of_int fc.num_slots + 1) / 2 := Int.tdiv_eq_ediv (by omega) (by omega)
  unfold sort_run_add_new
  by_cases he : fc.first_run = -1
  · have hc : ¬ (fc.first_run ≠ -1 ∧ fc.last_run + 1 ≥ 2 ^ 31) := fun h => h.1 he
    rw [if_neg hc]
    simp only [he, if_true]
    have hng : ¬ ((0 : Int) ≥ fc.num_slots) := by omega
    rw [if_neg hng]
    unfold sort_run_store
    have hin : (0 : Int) ≤ 0 ∧ (0 : Int) < fc.num_slots := ⟨le_refl _, by omega⟩
    simp only [hin, and_self, if_true]
    refine ⟨_, rfl, rfl, rfl, rfl, ?_, hin.2, le_refl _⟩
    simp
  · have h2 : 0 ≤ fc.first_run ∧ fc.first_run ≤ fc.last_run ∧ fc.last_run < fc.num_slots := by
      rcases h2 with h | h
      · exact absurd h he
      · exact h
    have hc : ¬ (fc.first_run ≠ -1 ∧ fc.last_run + 1 ≥ 2 ^ 31) := by omega
    rw [if_neg hc]
    simp only [he, if_false]
    by_cases hfull : fc.last_run + 1 ≥ fc.num_slots
    · rw [if_pos hfull, hg]
      have hr : ¬ ((3 * float_of_int fc.num_slots + 1) / 2 < -(2 ^ 31) ∨
          (3 * float_of_int fc.num_slots + 1) / 2 ≥ 2 ^ 31) := by omega
      rw [if_neg hr]
      simp only [Bool.true_eq_false, if_false]
      unfold sort_run_store
      have hin : 0 ≤ fc.last_run + 1 ∧
          fc.last_run + 1 < (3 * float_of_int fc.num_slots + 1) / 2 := by omega
      simp only [hin, and_self, if_true]
      have hfe : fc.last_run + 1 = fc.num_slots := by omega
      refine ⟨_, rfl, rfl, rfl, rfl, ?_, hin.2, ?_⟩
      · simp [he, hfe]
      · show fc.num_slots ≤ (3 * float_of_int fc.num_slots + 1) / 2
        omega
    · rw [if_neg hfull]
      unfold sort_run_store
      have hin : 0 ≤ fc.last_run + 1 ∧ fc.last_run + 1 < fc.num_slots := by omega
      simp only [hin, and_self, if_true]
      have hfe : ¬ fc.last_run + 1 = fc.num_slots := by omega
      refine ⟨_, rfl, rfl, rfl, rfl, ?_, hin.2, le_refl _⟩
      simp [he, hfe]

theorem add_new_failed (fc : FILE_CONTENTS) (n : Int) (r : Bool × FILE_CONTENTS)
    (h : sort_run_add_new true fc n = some r) :
    sort_run_add_new false fc n = some r ∨
    sort_run_add_new false fc n =
      some (false, if fc.first_run = -1 then { fc with first_run := 0, last_run := 0 }
        else { fc with last_run := fc.last_run + 1 }) := by
  unfold sort_run_add_new at h ⊢
  by_cases he : fc.first_run = -1
  · simp only [he, if_true] at h ⊢
    split_ifs at h ⊢ <;> simp_all
  · simp only [he, if_false] at h ⊢
    split_ifs at h ⊢ <;> simp_all

theorem add_new_inv (ok : Bool) (fc : FILE_CONTENTS) (n : Int) (r : Bool × FILE_CONTENTS)
    (h : sort_run_add_new ok fc n = some r)
    (hwf : fc.first_run = -1 ∨ (0 ≤ fc.first_run ∧ fc.first_run ≤ fc.last_run)) :
    r.2.first_run ≠ -1 ∧ 0 ≤ r.2.first_run ∧ r.2.first_run ≤ r.2.last_run ∧
    (r.1 = true → r.2.last_run < r.2.num_slots) := by
  unfold sort_run_add_new sort_run_store at h
  by_cases he : fc.first_run = -1
  · simp only [he, if_true] at h
    split_ifs at h <;> simp only [Option.some.injEq] at h <;> subst h <;>
      simp_all
  · simp only [he, if_false] at h
    have hwf2 : 0 ≤ fc.first_run ∧ fc.first_run ≤ fc.last_run := by
      rcases hwf with h | h
      · exact absurd h he
      · exact h
    split_ifs at h <;> simp only [Option.some.injEq] at h <;> subst h <;>
      simp_all <;> omega

theorem remove_first_inv (fc : FILE_CONTENTS)
    (hwf : fc.first_run = -1 ∨ (0 ≤ fc.first_run ∧ fc.first_run ≤ fc.last_run)) :
    ((sort_run_remove_first fc).first_run = -1 ∨
      (0 ≤ (sort_run_remove_first fc).first_run ∧
        (sort_run_remove_first fc).first_run ≤ (sort_run_remove_first fc).last_run)) ∧
    (sort_run_remove_first fc).last_run = fc.last_run ∧
    (sort_run_remove_first fc).num_slots = fc.num_slots ∧
    (sort_run_remove_first fc).num_pages = fc.num_pages := by
  unfold sort_run_remove_first
  split_ifs <;> simp <;> omega

theorem ledger_calls_inv (calls : List LedgerCall) :
    ∀ (fc fc1 : FILE_CONTENTS) (ok : Bool),
      (fc.first_run = -1 ∨ (0 ≤ fc.first_run ∧ fc.first_run ≤ fc.last_run)) →
      fc.last_run < fc.num_slots →
      ledger_calls fc calls = some (fc1, ok) →
      (fc1.first_run = -1 ∨ (0 ≤ fc1.first_run ∧ fc1.first_run ≤ fc1.last_run)) ∧
      (ok = true → fc1.last_run < fc1.num_slots) := by
  induction calls with
  | nil =>
    intro fc fc1 ok h1 h2 h
    simp only [ledger_calls, Option.some.injEq, Prod.mk.injEq] at h
    rw [← h.1]
    exact ⟨h1, fun _ => h2⟩
  | cons c rest ih =>
    intro fc fc1 ok h1 h2 h
    cases c with
    | add_new realloc_ok n =>
      simp only [ledger_calls] at h
      cases hr : sort_run_add_new realloc_ok fc n with
      | none => rw [hr] at h; cases h
      | some r =>
        obtain ⟨b, fc2⟩ := r
        have hi := add_new_inv realloc_ok fc n _ hr h1
        rw [hr] at h
        cases b with
        | false =>
          simp only [Option.some.injEq, Prod.mk.injEq] at h
          rw [← h.1, ← h.2]
          exact ⟨Or.inr ⟨hi.2.1, hi.2.2.1⟩, fun hh => by cases hh⟩
        | true =>
          exact ih fc2 fc1 ok (Or.inr ⟨hi.2.1, hi.2.2.1⟩) (hi.2.2.2 rfl) h
    | remove_first =>
      simp only [ledger_calls] at h
      obtain ⟨q1, q2, q3, -⟩ := remove_first_inv fc h1
      exact ih _ fc1 ok q1 (by rw [q2, q3]; exact h2) h

theorem add_new_bound (fc : FILE_CONTENTS) (n k : Int) (hwf : LedgerWF fc)
    (hb : LedgerBound fc k) (hk0 : 0 ≤ k) (hk : k < 2 ^ 24) :
    ∃ fc1, sort_run_add_new true fc n = some (true, fc1) ∧ LedgerWF fc1 ∧
      LedgerBound fc1 (k + 1) ∧
      fc1.first_run = (if fc.first_run = -1 then 0 else fc.first_run) ∧
      fc1.last_run = (if fc.first_run = -1 then 0 else fc.last_run + 1) ∧
      fc1.num_pages = (fun j => if j = fc1.last_run then n else fc.num_pages j) := by
  obtain ⟨b1, b2, b3⟩ := hb
  have hs : fc.num_slots < 2 ^ 30 := by omega
  obtain ⟨fc1, e, q1, q2, q3, q4, q5, q6⟩ := add_new_ok fc n hwf hs
  obtain ⟨w1, w2⟩ := hwf
  refine ⟨fc1, e, ⟨by omega, Or.inr ?_⟩, ⟨?_, ?_, q5⟩, q1, q2, q3⟩
  · rw [q1, q2]
    rw [q2] at q5
    split_ifs at q5 ⊢ with he
    · omega
    · have : 0 ≤ fc.first_run ∧ fc.first_run ≤ fc.last_run := by
        rcases w2 with h | h
        · exact absurd h he
        · exact ⟨h.1, h.2.1⟩
      omega
  · rw [q4]
    split_ifs with hfull
    · have hsm : fc.num_slots < 2 ^ 24 := by omega
      rw [float_of_int_small _ (by omega) hsm]
      omega
    · omega
  · rw [q2]
    split_ifs <;> omega

theorem remove_first_bound (fc : FILE_CONTENTS) (k : Int) (hwf : LedgerWF fc)
    (hb : LedgerBound fc k) :
    LedgerWF (sort_run_remove_first fc) ∧ LedgerBound (sort_run_remove_first fc) k := by
  obtain ⟨w1, w2⟩ := hwf
  obtain ⟨b1, b2, b3⟩ := hb
  unfold LedgerWF LedgerBound sort_run_remove_first
  split_ifs <;> simp <;> omega

theorem ledger_calls_defined (calls : List LedgerCall) :
    ∀ (fc : FILE_CONTENTS) (k : Int), LedgerWF fc → LedgerBound fc k → 0 ≤ k →
      k + calls.length ≤ 2 ^ 24 → ∃ res, ledger_calls fc calls = some res := by
  induction calls with
  | nil => intro fc k _ _ _ _; exact ⟨_, rfl⟩
  | cons c rest ih =>
    intro fc k hwf hb hk0 hk
    simp only [List.length_cons, Nat.cast_add, Nat.cast_one] at hk
    cases c with
    | add_new realloc_ok n =>
      obtain ⟨fc1, e, q1, q2, -⟩ := add_new_bound fc n k hwf hb hk0 (by omega)
      simp only [ledger_calls]
      cases realloc_ok with
      | true =>
        rw [e]
        exact ih fc1 (k + 1) q1 q2 (by omega) (by omega)
      | false =>
        rcases add_new_failed fc n _ e with h | h
        · rw [h]
          exact ih fc1 (k + 1) q1 q2 (by omega) (by omega)
        · rw [h]
          exact ⟨_, rfl⟩
    | remove_first =>
      simp only [ledger_calls]
      obtain ⟨q1, q2⟩ := remove_first_bound fc k hwf hb
      exact ih _ k q1 q2 hk0 (by omega)

theorem file_contents_init_bound (junk : Int → Int) :
    LedgerWF (file_contents_init junk) ∧ LedgerBound (file_contents_init junk) 0 := by
  unfold LedgerWF LedgerBound file_contents_init
  simp

/-- C14 (amended): for every ledger that a sequence of `sort_run_add_new` and
`sort_run_remove_first` calls reaches from the ledger `sort_listfile`
initialises (`first_run = last_run = -1`, 30 cells), `first_run = -1` if and
only if `sort_get_num_file_contents` returns 0, and otherwise
`0 ≤ first_run ≤ last_run`; and `last_run < num_slots` when every call of
`sort_run_add_new` returned `NO_ERROR`. A sequence of at most `2 ^ 24` calls
is defined. -/
theorem ledger_invariant (junk : Int → Int) (calls : List LedgerCall) :
    (∀ fc ok, ledger_calls (file_contents_init junk) calls = some (fc, ok) →
      (fc.first_run = -1 ↔ sort_get_num_file_contents fc = 0) ∧
      (fc.first_run ≠ -1 → 0 ≤ fc.first_run ∧ fc.first_run ≤ fc.last_run) ∧
      (ok = true → fc.last_run < fc.num_slots)) ∧
    ((calls.length : Int) ≤ 2 ^ 24 →
      ∃ res, ledger_calls (file_contents_init junk) calls = some res) := by
  refine ⟨fun fc ok h => ?_, fun hl => ?_⟩
  · obtain ⟨q1, q2⟩ := ledger_calls_inv calls (file_contents_init junk) fc ok (Or.inl rfl)
      (by unfold file_contents_init; simp) h
    refine ⟨?_, ?_, q2⟩
    · unfold sort_get_num_file_contents
      constructor
      · intro h1
        simp [h1]
      · intro h1
        by_contra hne
        rw [if_pos hne] at h1
        rcases q1 with h | h
        · exact hne h
        · omega
    · intro hne
      rcases q1 with h | h
      · exact absurd h hne
      · exact h
  · obtain ⟨w1, w2⟩ := file_contents_init_bound junk
    exact ledger_calls_defined calls _ 0 w1 w2 (le_refl _) (by omega)

/-- C14 (amended), at a concrete input: two runs are added, one is removed. -/
theorem ledger_invariant_witness :
    ledger_calls (file_contents_init (fun _ => 0))
      [LedgerCall.add_new true 5, LedgerCall.add_new true 6, LedgerCall.remove_first] ≠ none ∧
    ∀ fc ok, ledger_calls (file_contents_init (fun _ => 0))
        [LedgerCall.add_new true 5, LedgerCall.add_new true 6, LedgerCall.remove_first] =
        some (fc, ok) →
      (fc.first_run = -1 ↔ sort_get_num_file_contents fc = 0) ∧
      (fc.first_run ≠ -1 → 0 ≤ fc.first_run ∧ fc.first_run ≤ fc.last_run) ∧
      (ok = true → fc.last_run < fc.num_slots) := by
  refine ⟨?_, (ledger_invariant (fun _ => 0) _).1⟩
  obtain ⟨res, h⟩ := (ledger_invariant (fun _ => 0)
    [LedgerCall.add_new true 5, LedgerCall.add_new true 6, LedgerCall.remove_first]).2
    (by decide)
  rw [h]
  exact Option.some_ne_none _

/-- C14 (the claim as it stands fails): after thirty runs were added to the
ledger that `sort_listfile` initialises, a call of `sort_run_add_new` whose
reallocation fails returns `ER_FAILED` and leaves `first_run = 0` and
`last_run = 30 = num_slots`. -/
theorem ledger_failed_realloc_counterexample :
    (ledger_calls (file_contents_init (fun _ => 0))
      (List.replicate 30 (LedgerCall.add_new true 1) ++ [LedgerCall.add_new false 1])).map
      (fun r => (r.1.first_run, r.1.last_run, r.1.num_slots, r.2)) =
      some (0, 30, 30, false) := by
  decide

theorem live_runs_empty (fc : FILE_CONTENTS) (h : fc.first_run = -1) : live_runs fc = [] := by
  unfold live_runs sort_get_num_file_contents
  simp [h]

theorem live_runs_length (fc : FILE_CONTENTS) :
    (live_runs fc).length = (sort_get_num_file_contents fc).toNat := by
  unfold live_runs
  simp

theorem live_runs_add_new (fc fc1 : FILE_CONTENTS) (n : Int) (hwf : LedgerWF fc)
    (q1 : fc1.first_run = (if fc.first_run = -1 then 0 else fc.first_run))
    (q2 : fc1.last_run = (if fc.first_run = -1 then 0 else fc.last_run + 1))
    (q3 : fc1.num_pages = (fun j => if j = fc1.last_run then n else fc.num_pages j)) :
    sort_get_num_file_contents fc1 = sort_get_num_file_contents fc + 1 ∧
    live_runs fc1 = live_runs fc ++ [n] := by
  obtain ⟨w1, w2⟩ := hwf
  by_cases he : fc.first_run = -1
  · rw [if_pos he] at q1 q2
    have hc : sort_get_num_file_contents fc1 = 1 := by
      unfold sort_get_num_file_contents; rw [q1, q2]; simp
    have hc0 : sort_get_num_file_contents fc = 0 := by
      unfold sort_get_num_file_contents; simp [he]
    refine ⟨by rw [hc, hc0]; rfl, ?_⟩
    rw [live_runs_empty fc he]
    unfold live_runs
    rw [hc, q3, q1, q2]
    simp [List.range_succ]
  · rw [if_neg he] at q1 q2
    have w : 0 ≤ fc.first_run ∧ fc.first_run ≤ fc.last_run := by
      rcases w2 with h | h
      · exact absurd h he
      · exact ⟨h.1, h.2.1⟩
    have hc0 : sort_get_num_file_contents fc = fc.last_run - fc.first_run + 1 := by
      unfold sort_get_num_file_contents; simp [he]
    have hc : sort_get_num_file_contents fc1 = fc.last_run - fc.first_run + 1 + 1 := by
      unfold sort_get_num_file_contents
      have : fc1.first_run ≠ -1 := by rw [q1]; exact he
      rw [if_pos this, q1, q2]
      omega
    refine ⟨by rw [hc, hc0], ?_⟩
    unfold live_runs
    rw [hc, hc0]
    have ht : (fc.last_run - fc.first_run + 1 + 1).toNat =
        (fc.last_run - fc.first_run + 1).toNat + 1 := by omega
    rw [ht, List.range_succ, List.map_append, List.map_singleton]
    congr 1
    · apply List.map_congr_left
      intro i hi
      rw [List.mem_range] at hi
      rw [q3, q1]
      have : ¬ (fc.first_run + (i : Int) = fc1.last_run) := by rw [q2]; omega
      simp only [this, if_false]
    · rw [q3, q1]
      have : fc.first_run + (((fc.last_run - fc.first_run + 1).toNat : Nat) : Int) =
          fc1.last_run := by rw [q2]; omega
      simp only [this, if_true]

/-- C15 (amended): on a well-formed ledger whose array has fewer than `2 ^ 30`
cells, `sort_run_add_new` with a successful reallocation returns `NO_ERROR`,
makes the number of runs grow by exactly 1, stores `n` as the last run and keeps
the runs before it in their order; `last_run < num_slots` holds afterwards. When
the array was full (every cell up to the last one taken) and has fewer than
`2 ^ 24` cells, `num_slots` becomes `(3 * num_slots + 1) / 2`, the integer
nearest to `1.5 * num_slots`; when it was not full, `num_slots` stays. -/
theorem add_new_spec (fc : FILE_CONTENTS) (n : Int) (hwf : LedgerWF fc)
    (hs : fc.num_slots < 2 ^ 30) :
    ∃ fc1, sort_run_add_new true fc n = some (true, fc1) ∧
      sort_get_num_file_contents fc1 = sort_get_num_file_contents fc + 1 ∧
      live_runs fc1 = live_runs fc ++ [n] ∧
      fc1.num_pages fc1.last_run = n ∧
      (fc.first_run ≠ -1 ∧ fc.last_run + 1 = fc.num_slots → fc.num_slots < 2 ^ 24 →
        fc1.num_slots = (3 * fc.num_slots + 1) / 2 ∧
        3 * fc.num_slots - 1 ≤ 2 * fc1.num_slots ∧ 2 * fc1.num_slots ≤ 3 * fc.num_slots + 1) ∧
      (¬ (fc.first_run ≠ -1 ∧ fc.last_run + 1 = fc.num_slots) →
        fc1.num_slots = fc.num_slots) ∧
      fc1.last_run < fc1.num_slots ∧ LedgerWF fc1 := by
  obtain ⟨fc1, e, q1, q2, q3, q4, q5, q6⟩ := add_new_ok fc n hwf hs
  obtain ⟨c1, c2⟩ := live_runs_add_new fc fc1 n hwf q1 q2 q3
  refine ⟨fc1, e, c1, c2, ?_, ?_, ?_, q5, ?_⟩
  · rw [q3]; simp
  · intro hfull hsm
    rw [q4, if_pos hfull, float_of_int_small _ (by have := hwf.1; omega) hsm]
    omega
  · intro hfull
    rw [q4, if_neg hfull]
  · obtain ⟨w1, w2⟩ := hwf
    refine ⟨by omega, Or.inr ?_⟩
    rw [q1, q2]
    rw [q2] at q5
    split_ifs at q5 ⊢ with he
    · omega
    · have : 0 ≤ fc.first_run ∧ fc.first_run ≤ fc.last_run := by
        rcases w2 with h | h
        · exact absurd h he
        · exact ⟨h.1, h.2.1⟩
      omega

/-- C15 (amended), at a concrete input: a run of 9 pages is added to the ledger
with the runs of 5, 6 and 7 pages in a full array of three cells; the array
grows to 5 cells. -/
theorem add_new_spec_witness :
    LedgerWF ledger_three ∧ ledger_three.num_slots < 2 ^ 30 ∧
    ∃ fc1, sort_run_add_new true ledger_three 9 = some (true, fc1) ∧
      live_runs fc1 = live_runs ledger_three ++ [9] ∧ fc1.num_slots = 5 := by
  refine ⟨by decide, by decide, ?_⟩
  obtain ⟨fc1, e, -, c2, -, c4, -, -, -⟩ :=
    add_new_spec ledger_three 9 (by decide) (by decide)
  exact ⟨fc1, e, c2, (c4 ⟨by decide, by decide⟩ (by decide)).1.trans (by decide)⟩

/-- C15 (the claim as it stands fails): the array of `ledger_full_big` has
29449089 cells and is full; `(float) 29449089` is 29449088, so
`sort_run_add_new` makes the array 44173632 cells long, whereas `1.5 * 29449089`
is 44173633.5: the new size is more than one below it. -/
theorem add_new_float_counterexample :
    LedgerWF ledger_full_big ∧
    ledger_full_big.last_run + 1 = ledger_full_big.num_slots ∧
    float_of_int ledger_full_big.num_slots = 29449088 ∧
    (sort_run_add_new true ledger_full_big 1).map
      (fun r => (r.1, r.2.num_slots, r.2.last_run)) = some (true, 44173632, 29449089) ∧
    2 * (44173632 : Int) + 2 < 3 * ledger_full_big.num_slots := by
  decide

theorem live_runs_remove_first (fc : FILE_CONTENTS) (hwf : LedgerWF fc)
    (hne : fc.first_run ≠ -1) :
    live_runs (sort_run_remove_first fc) = (live_runs fc).tail ∧
    sort_get_num_file_contents (sort_run_remove_first fc) =
      sort_get_num_file_contents fc - 1 ∧
    (sort_get_num_file_contents fc = 1 → (sort_run_remove_first fc).first_run = -1) ∧
    LedgerWF (sort_run_remove_first fc) := by
  obtain ⟨w1, w2⟩ := hwf
  have w : 0 ≤ fc.first_run ∧ fc.first_run ≤ fc.last_run ∧ fc.last_run < fc.num_slots := by
    rcases w2 with h | h
    · exact absurd h hne
    · exact h
  have hc0 : sort_get_num_file_contents fc = fc.last_run - fc.first_run + 1 := by
    unfold sort_get_num_file_contents; simp [hne]
  by_cases hl : fc.first_run + 1 > fc.last_run
  · have hr : sort_run_remove_first fc = { fc with first_run := -1 } := by
      unfold sort_run_remove_first; simp [hne, hl]
    have hc : sort_get_num_file_contents (sort_run_remove_first fc) = 0 := by
      rw [hr]; unfold sort_get_num_file_contents; simp
    refine ⟨?_, by rw [hc, hc0]; omega, fun _ => by rw [hr], ?_⟩
    · rw [live_runs_empty _ (by rw [hr])]
      have : (live_runs fc).length = 1 := by rw [live_runs_length, hc0]; omega
      match hm : live_runs fc, this with
      | [a], _ => rfl
    · rw [hr]; exact ⟨w1, Or.inl rfl⟩
  · have hr : sort_run_remove_first fc = { fc with first_run := fc.first_run + 1 } := by
      unfold sort_run_remove_first; simp [hne, hl]
    have hne1 : fc.first_run + 1 ≠ -1 := by omega
    have hc : sort_get_num_file_contents (sort_run_remove_first fc) =
        fc.last_run - fc.first_run := by
      rw [hr]; unfold sort_get_num_file_contents; simp only [hne1, ne_eq, not_false_eq_true,
        if_true]; omega
    refine ⟨?_, by rw [hc, hc0]; omega, fun h => by omega, ?_⟩
    · unfold live_runs
      rw [hc, hc0]
      have ht : (fc.last_run - fc.first_run + 1).toNat = (fc.last_run - fc.first_run).toNat + 1 := by
        omega
      rw [ht, List.range_succ_eq_map, List.map_cons, List.tail_cons, List.map_map, hr]
      apply List.map_congr_left
      intro i _
      show fc.num_pages (fc.first_run + 1 + (i : Int)) = fc.num_pages (fc.first_run + ((i + 1 : Nat) : Int))
      congr 1
      push_cast
      omega
    · rw [hr]; exact ⟨w1, Or.inr ⟨by show 0 ≤ fc.first_run + 1; omega,
        by show fc.first_run + 1 ≤ fc.last_run; omega, w.2.2⟩⟩

theorem live_runs_first (fc : FILE_CONTENTS) (a : Int) (l : List Int)
    (h : live_runs fc = a :: l) : fc.first_run ≠ -1 ∧ fc.num_pages fc.first_run = a := by
  constructor
  · intro he
    rw [live_runs_empty fc he] at h
    cases h
  · unfold live_runs at h
    have hl := congrArg List.length h
    simp only [List.length_map, List.length_range, List.length_cons] at hl
    obtain ⟨k, hk⟩ : ∃ k, (sort_get_num_file_contents fc).toNat = k + 1 := ⟨_, hl⟩
    rw [hk, List.range_succ_eq_map, List.map_cons] at h
    have := (List.cons.inj h).1
    simpa using this

theorem remove_first_times_spec (j : Nat) :
    ∀ (fc : FILE_CONTENTS), LedgerWF fc →
      LedgerWF (remove_first_times j fc) ∧
      live_runs (remove_first_times j fc) = (live_runs fc).drop j := by
  induction j with
  | zero => intro fc h; exact ⟨h, rfl⟩
  | succ j ih =>
    intro fc h
    show LedgerWF (remove_first_times j (sort_run_remove_first fc)) ∧
      live_runs (remove_first_times j (sort_run_remove_first fc)) = _
    by_cases he : fc.first_run = -1
    · have hr : sort_run_remove_first fc = fc := by
        unfold sort_run_remove_first; simp [he]
      rw [hr]
      obtain ⟨q1, q2⟩ := ih fc h
      refine ⟨q1, ?_⟩
      rw [q2, live_runs_empty fc he]
      simp
    · obtain ⟨r1, -, -, r4⟩ := live_runs_remove_first fc h he
      obtain ⟨q1, q2⟩ := ih _ r4
      refine ⟨q1, ?_⟩
      rw [q2, r1, List.drop_tail]

theorem ledger_calls_add_all (runs : List Int) :
    ∀ (fc : FILE_CONTENTS) (k : Int), LedgerWF fc → LedgerBound fc k → 0 ≤ k →
      k + runs.length ≤ 2 ^ 24 →
      ∃ fc1, ledger_calls fc (runs.map (LedgerCall.add_new true)) = some (fc1, true) ∧
        LedgerWF fc1 ∧ live_runs fc1 = live_runs fc ++ runs := by
  induction runs with
  | nil =>
    intro fc k hwf _ _ _
    exact ⟨fc, rfl, hwf, by simp⟩
  | cons a rest ih =>
    intro fc k hwf hb hk0 hk
    simp only [List.length_cons, Nat.cast_add, Nat.cast_one] at hk
    obtain ⟨fc1, e, q1, q2, q3, q4, q5⟩ := add_new_bound fc a k hwf hb hk0 (by omega)
    obtain ⟨fc2, e2, w2, l2⟩ := ih fc1 (k + 1) q1 q2 (by omega) (by omega)
    refine ⟨fc2, ?_, w2, ?_⟩
    · simp only [List.map_cons, ledger_calls]
      rw [e]
      exact e2
    · rw [l2, (live_runs_add_new fc fc1 a hwf q3 q4 q5).2]
      simp

/-- C16: `sort_run_remove_first` on a well-formed ledger with `k ≥ 1` runs
leaves exactly the last `k - 1` runs, in the same order, and sets
`first_run = -1` when `k = 1`; on an empty ledger it changes nothing. Hence runs
`a1 .. an` added to the ledger that `sort_listfile` initialises are exposed as
first run in the order `a1 .. an`: after `j` removals the runs are
`a(j+1) .. an`, the first run read through `num_pages[first_run]` is `a(j+1)`,
and after `n` removals `first_run = -1`. -/
theorem remove_first_spec (fc : FILE_CONTENTS) (junk : Int → Int) (runs : List Int) :
    (LedgerWF fc → 1 ≤ sort_get_num_file_contents fc →
      live_runs (sort_run_remove_first fc) = (live_runs fc).tail ∧
      sort_get_num_file_contents (sort_run_remove_first fc) =
        sort_get_num_file_contents fc - 1 ∧
      (sort_get_num_file_contents fc = 1 → (sort_run_remove_first fc).first_run = -1)) ∧
    (fc.first_run = -1 → sort_run_remove_first fc = fc) ∧
    ((runs.length : Int) ≤ 2 ^ 24 →
      ∃ fc1, ledger_calls (file_contents_init junk) (runs.map (LedgerCall.add_new true)) =
          some (fc1, true) ∧
        live_runs fc1 = runs ∧
        (∀ j, live_runs (remove_first_times j fc1) = runs.drop j) ∧
        (∀ j a, runs[j]? = some a →
          (remove_first_times j fc1).first_run ≠ -1 ∧
          (remove_first_times j fc1).num_pages (remove_first_times j fc1).first_run = a) ∧
        (remove_first_times runs.length fc1).first_run = -1) := by
  refine ⟨fun hwf hk => ?_, fun he => ?_, fun hl => ?_⟩
  · have hne : fc.first_run ≠ -1 := by
      intro he
      unfold sort_get_num_file_contents at hk
      simp [he] at hk
    obtain ⟨r1, r2, r3, -⟩ := live_runs_remove_first fc hwf hne
    exact ⟨r1, r2, r3⟩
  · unfold sort_run_remove_first; simp [he]
  · obtain ⟨w1, w2⟩ := file_contents_init_bound junk
    obtain ⟨fc1, e, hwf1, l1⟩ := ledger_calls_add_all runs _ 0 w1 w2 (le_refl _) (by omega)
    rw [live_runs_empty (file_contents_init junk) rfl, List.nil_append] at l1
    have hd : ∀ j, live_runs (remove_first_times j fc1) = runs.drop j := by
      intro j
      rw [(remove_first_times_spec j fc1 hwf1).2, l1]
    refine ⟨fc1, e, l1, hd, ?_, ?_⟩
    · intro j a hj
      have hlt : j < runs.length := by
        rcases Nat.lt_or_ge j runs.length with h | h
        · exact h
        · rw [List.getElem?_eq_none h] at hj; cases hj
      have hx : runs.drop j = a :: runs.drop (j + 1) := by
        rw [List.drop_eq_getElem_cons hlt]
        rw [List.getElem?_eq_getElem hlt] at hj
        rw [Option.some.inj hj]
      exact live_runs_first _ a _ ((hd j).trans hx)
    · have h0 := hd runs.length
      rw [List.drop_length] at h0
      by_contra hne
      have hwf2 := (remove_first_times_spec runs.length fc1 hwf1).1
      have hlen := live_runs_length (remove_first_times runs.length fc1)
      rw [h0] at hlen
      unfold sort_get_num_file_contents at hlen
      rw [if_pos hne] at hlen
      rcases hwf2.2 with h | h
      · exact hne h
      · simp only [List.length_nil] at hlen
        omega

/-- C16, at a concrete input: the ledger with the runs of 5, 6 and 7 pages. -/
theorem remove_first_spec_witness :
    LedgerWF ledger_three ∧ 1 ≤ sort_get_num_file_contents ledger_three ∧
    live_runs (sort_run_remove_first ledger_three) = [6, 7] ∧
    ∃ fc1, ledger_calls (file_contents_init (fun _ => 0))
        ([5, 6, 7].map (LedgerCall.add_new true)) = some (fc1, true) ∧
      live_runs fc1 = [5, 6, 7] ∧
      (remove_first_times 1 fc1).num_pages (remove_first_times 1 fc1).first_run = 6 := by
  have h := remove_first_spec ledger_three (fun _ => 0) [5, 6, 7]
  refine ⟨by decide, by decide, (h.1 (by decide) (by decide)).1.trans (by decide), ?_⟩
  obtain ⟨fc1, e, l1, -, l3, -⟩ := h.2.2 (by decide)
  exact ⟨fc1, e, l1, (l3 1 6 rfl).2⟩

/-! ### The input phase and the driver: empty input, one record -/

theorem first_failed_ledger_none (W : SortWorld) (t : Int) (h : ∀ i, W.alloc_ledger_ok i = true)
    (n : Nat) : ∀ i, first_failed_ledger W t n i = none := by
  induction n with
  | zero => intro i; rfl
  | succ n ih =>
    intro i
    simp only [first_failed_ledger, h, Bool.true_eq_false, if_false, ih, ite_self]

theorem destroy_temp_files_none (st : ParamState)
    (h : ∀ i, 0 ≤ i → i < st.sp.tot_tempfiles → st.temp_volid_set i = false) (n : Nat) :
    ∀ k, 0 ≤ k → destroy_temp_files st n k = [] := by
  induction n with
  | zero => intro k _; rfl
  | succ n ih =>
    intro k hk
    simp only [destroy_temp_files]
    split_ifs with h1 h2
    · rw [h k hk h1] at h2; cases h2
    · rw [ih (k + 1) (by omega)]; rfl
    · rfl

theorem return_used_resources_none (st : ParamState)
    (h : ∀ i, 0 ≤ i → i < st.sp.tot_tempfiles → st.temp_volid_set i = false)
    (hm : st.multipage_volid_set = false) : sort_return_used_resources st = st := by
  unfold sort_return_used_resources
  have e : (if st.multipage_volid_set = true then [SortEvent.destroy_multipage] else []) = [] := by
    rw [hm]; rfl
  rw [destroy_temp_files_none st h _ 0 (le_refl _), e, List.append_nil, List.append_nil]

theorem listfile_init_spec (W : SortWorld) (arena_ok : Bool) (est : Int) (junk : ParamState) :
    4 ≤ (listfile_init W arena_ok est junk).sp.tot_buffers ∧
    (listfile_init W arena_ok est junk).log = [] ∧
    (listfile_init W arena_ok est junk).multipage_volid_set = false ∧
    (∀ i, 0 ≤ i → i < (listfile_init W arena_ok est junk).sp.tot_tempfiles →
      (listfile_init W arena_ok est junk).temp_volid_set i = false) := by
  refine ⟨?_, rfl, rfl, ?_⟩
  · show 4 ≤ (if arena_ok then _ else 4)
    split_ifs <;> first | exact le_max_left (4 : Int) _ | exact le_refl (4 : Int)
  · intro i h0 h1
    show (if 0 ≤ i ∧ i < _ then false else _) = false
    rw [if_pos ⟨h0, h1⟩]

/-- The state of the loop of the input phase as long as no record was
delivered. -/
theorem inphase_get_idle (W : SortWorld) (v : InVars) :
    ((inphase_get W v).1 = SORT_STATUS.SORT_REC_DOESNT_FIT ∧
      (inphase_get W v).2.st = v.st ∧ (inphase_get W v).2.numrecs = v.numrecs ∧
      (inphase_get W v).2.temp_recdes.length = v.temp_recdes.length) ∨
    (∃ d : RECDES, inphase_get W v = inphase_call W v d ∧
      d.length = v.temp_recdes.length) := by
  unfold inphase_get
  simp only []
  split_ifs <;> first | exact Or.inl ⟨rfl, rfl, rfl, rfl⟩ | exact Or.inr ⟨_, rfl, rfl⟩

theorem inphase_get_call (W : SortWorld) (v : InVars)
    (h1 : v.item_ptr ≤ cell_addr W v v.index_buff)
    (h2 : W.SIZEOF_SORT_REC < v.temp_recdes.area_size)
    (h3 : SORT_MAXREC_LENGTH W.M.env ≤ cell_addr W v v.index_buff - v.item_ptr) :
    inphase_get W v = inphase_call W v v.temp_recdes := by
  unfold inphase_get
  simp only []
  have hn : ¬ cell_addr W v v.index_buff < v.item_ptr := by omega
  have hr : ¬ cell_addr W v v.index_buff - v.item_ptr < SORT_MAXREC_LENGTH W.M.env := by omega
  have ha : ¬ (v.temp_recdes.area_size ≤ W.SIZEOF_SORT_REC) := by omega
  rw [if_neg hn, if_neg hr, if_neg ha]

theorem inphase_loop_no_record (W : SortWorld) (option : SORT_DUP_OPTION)
    (hmax : 0 ≤ SORT_MAXREC_LENGTH W.M.env)
    (hfirst : ∀ d, (W.get_fn [] d).1 = SORT_STATUS.SORT_NOMORE_RECS) (n : Nat) :
    ∀ v : InVars, v.numrecs = 0 → v.temp_recdes.length = 0 → v.st.log = [] →
      (∃ v1, inphase_loop W option n v = Flow.out_of_fuel v1 ∧ v1.st = v.st) ∨
      (∃ v1 d, inphase_loop W option n v = Flow.leave v1 ∧
        v1.st = { v.st with log := [SortEvent.get SORT_STATUS.SORT_NOMORE_RECS d] } ∧
        v1.numrecs = 0) := by
  induction n with
  | zero => intro v _ _ _; exact Or.inl ⟨v, rfl, rfl⟩
  | succ n ih =>
    intro v hn hl hlog
    rcases inphase_get_idle W v with ⟨q1, q2, q3, q4⟩ | ⟨d, q1, q2⟩
    · have hit : inphase_iteration W option v = Flow.next (inphase_get W v).2 := by
        unfold inphase_iteration
        cases hg : inphase_get W v with
        | mk s v1 =>
          rw [hg] at q1 q3 q4
          simp only at q1 q3 q4
          subst q1
          simp only [inphase_doesnt_fit]
          have h0 : ¬ v1.numrecs > 0 := by omega
          have h1 : ¬ v1.temp_recdes.length > SORT_MAXREC_LENGTH W.M.env := by omega
          simp only [h0, if_false, h1]
      simp only [inphase_loop, hit]
      rcases ih (inphase_get W v).2 (by omega) (by omega) (by rw [q2]; exact hlog) with
        ⟨v1, e1, e2⟩ | ⟨v1, d, e1, e2, e3⟩
      · exact Or.inl ⟨v1, e1, by rw [e2, q2]⟩
      · exact Or.inr ⟨v1, d, e1, by rw [e2, q2], e3⟩
    · right
      have hs : (inphase_call W v d).1 = SORT_STATUS.SORT_NOMORE_RECS := by
        show (W.get_fn v.st.log d).1 = _
        rw [hlog]; exact hfirst d
      have hloop : inphase_loop W option (n + 1) v = Flow.leave (inphase_call W v d).2 := by
        simp only [inphase_loop, inphase_iteration, q1]
        cases hc : inphase_call W v d with
        | mk s v1 =>
          rw [hc] at hs
          simp only at hs
          subst hs
          rfl
      refine ⟨(inphase_call W v d).2,
        { d with length := (W.get_fn v.st.log d).2.1, data := (W.get_fn v.st.log d).2.2 },
        hloop, ?_, hn⟩
      show ({ v.st with log := v.st.log ++ [SortEvent.get (W.get_fn v.st.log d).1 _] } :
        ParamState) = _
      have hs2 : (W.get_fn v.st.log d).1 = SORT_STATUS.SORT_NOMORE_RECS := hs
      rw [hs2, hlog]
      rfl

theorem inphase_init_cell (W : SortWorld) (st : ParamState) (junk : InVars)
    (hb : 4 ≤ st.sp.tot_buffers) (hr : W.Roomy) (c : Int) :
    3 * W.M.env.DB_PAGESIZE + c * W.SIZEOF_POINTER ≤ cell_addr W (inphase_init W st junk) c := by
  obtain ⟨⟨h1, -, -⟩, -⟩ := hr
  unfold SIZEOF_SLOTTED_PAGE_HEADER SIZEOF_SLOT at h1
  show _ ≤ (st.sp.tot_buffers - 1) * W.M.env.DB_PAGESIZE + c * W.SIZEOF_POINTER
  have : 3 * W.M.env.DB_PAGESIZE ≤ (st.sp.tot_buffers - 1) * W.M.env.DB_PAGESIZE :=
    Int.mul_le_mul_of_nonneg_right (by omega) (by omega)
  omega

theorem inphase_finish_no_record (W : SortWorld) (option : SORT_DUP_OPTION) (v : InVars)
    (hn : v.numrecs = 0) (ht : v.st.tot_runs = 0) :
    inphase_finish W option v = Flow.stop SortCode.NO_ERROR v := by
  unfold inphase_finish
  have h0 : ¬ v.numrecs > 0 := by omega
  have h1 : ¬ v.st.tot_runs = 1 := by omega
  rw [if_neg h0, if_neg h1]

theorem inphase_empty (W : SortWorld) (fuel : Nat) (option : SORT_DUP_OPTION)
    (st : ParamState) (junk : InVars) (hlog : st.log = [])
    (hmax : 0 ≤ SORT_MAXREC_LENGTH W.M.env)
    (hfirst : ∀ d, (W.get_fn [] d).1 = SORT_STATUS.SORT_NOMORE_RECS) :
    (∃ v1, sort_inphase_sort W fuel option st junk = Flow.out_of_fuel v1 ∧
      v1.st = { st with tot_runs := 0 }) ∨
    (∃ v1 d, sort_inphase_sort W fuel option st junk = Flow.stop SortCode.NO_ERROR v1 ∧
      v1.st = { st with tot_runs := 0,
                        log := [SortEvent.get SORT_STATUS.SORT_NOMORE_RECS d] }) := by
  unfold sort_inphase_sort
  rcases inphase_loop_no_record W option hmax hfirst fuel (inphase_init W st junk) rfl rfl hlog
    with ⟨v1, e1, e2⟩ | ⟨v1, d, e1, e2, e3⟩
  · rw [e1]
    exact Or.inl ⟨v1, rfl, e2⟩
  · rw [e1]
    refine Or.inr ⟨v1, d, ?_, e2⟩
    exact inphase_finish_no_record W option v1 e3 (by rw [e2]; rfl)

theorem inphase_empty_returns (W : SortWorld) (fuel : Nat) (option : SORT_DUP_OPTION)
    (st : ParamState) (junk : InVars) (hlog : st.log = [])
    (hfirst : ∀ d, (W.get_fn [] d).1 = SORT_STATUS.SORT_NOMORE_RECS)
    (hb : 4 ≤ st.sp.tot_buffers) (hr : W.Roomy) (hfuel : 1 ≤ fuel) :
    ∃ v1 d, sort_inphase_sort W fuel option st junk = Flow.stop SortCode.NO_ERROR v1 ∧
      v1.st = { st with tot_runs := 0,
                        log := [SortEvent.get SORT_STATUS.SORT_NOMORE_RECS d] } := by
  have hc := inphase_init_cell W st junk hb hr (-2)
  obtain ⟨⟨r1, -, -⟩, -, r3, r4, r0, r5, r6⟩ := hr
  unfold SIZEOF_SLOTTED_PAGE_HEADER SIZEOF_SLOT at r1
  have hmaxdef : SORT_MAXREC_LENGTH W.M.env = W.M.env.DB_PAGESIZE - 16 - 6 := rfl
  obtain ⟨n, rfl⟩ : ∃ n, fuel = n + 1 := ⟨fuel - 1, by omega⟩
  have q1 := inphase_get_call W (inphase_init W st junk)
    (by show W.SORT_RECORD_LENGTH_SIZE ≤ _
        have : (inphase_init W st junk).index_buff = -2 := rfl
        rw [this]; omega)
    (by show _ < SORT_MAXREC_LENGTH W.M.env; exact r5)
    (by have e1 : (inphase_init W st junk).index_buff = -2 := rfl
        have e2 : (inphase_init W st junk).item_ptr = W.SORT_RECORD_LENGTH_SIZE := rfl
        rw [e1, e2]; omega)
  generalize hd : (inphase_init W st junk).temp_recdes = d at q1
  have hl0 : (inphase_init W st junk).st.log = [] := hlog
  have hs : (W.get_fn (inphase_init W st junk).st.log d).1 = SORT_STATUS.SORT_NOMORE_RECS := by
    rw [hl0]; exact hfirst d
  have hloop : inphase_loop W option (n + 1) (inphase_init W st junk) =
      Flow.leave (inphase_call W (inphase_init W st junk) d).2 := by
    simp only [inphase_loop, inphase_iteration, q1]
    cases hc : inphase_call W (inphase_init W st junk) d with
    | mk s v1 =>
      have hs1 : (inphase_call W (inphase_init W st junk) d).1 =
          SORT_STATUS.SORT_NOMORE_RECS := hs
      rw [hc] at hs1
      simp only at hs1
      subst hs1
      rfl
  unfold sort_inphase_sort
  rw [hloop]
  refine ⟨(inphase_call W (inphase_init W st junk) d).2,
    { d with length := (W.get_fn (inphase_init W st junk).st.log d).2.1,
             data := (W.get_fn (inphase_init W st junk).st.log d).2.2 }, ?_, ?_⟩
  · exact inphase_finish_no_record W option _ rfl rfl
  · show ({ (inphase_init W st junk).st with
      log := (inphase_init W st junk).st.log ++
        [SortEvent.get (W.get_fn (inphase_init W st junk).st.log d).1 _] } : ParamState) = _
    rw [hs, hl0]
    rfl

/-- C19: when the producer returns `SORT_NOMORE_RECS` on its first call,
`sort_listfile` calls `put_fn` zero times and creates no temp file and no file
for long records, however it ends; and when its allocations succeed and the
internal memory has room for a record (so that the producer is called at all),
it returns `NO_ERROR` after that one call of the producer, with `tot_runs = 0`
and every file identifier still `NULL_VOLID`. -/
theorem listfile_empty_input (W : SortWorld) (fuel : Nat) (est_inp_pg_cnt : Int)
    (option : SORT_DUP_OPTION) (junk : InVars) (hvalid : W.M.env.Valid)
    (hfirst : ∀ d, (W.get_fn [] d).1 = SORT_STATUS.SORT_NOMORE_RECS) :
    put_calls (sort_listfile W fuel est_inp_pg_cnt option junk).state.log = [] ∧
    create_calls (sort_listfile W fuel est_inp_pg_cnt option junk).state.log = [] ∧
    (W.Allocates → W.Roomy → 1 ≤ fuel →
      ∃ st d, sort_listfile W fuel est_inp_pg_cnt option junk =
          ListfileOutcome.returned SortCode.NO_ERROR st ∧
        st.log = [SortEvent.get SORT_STATUS.SORT_NOMORE_RECS d] ∧ st.tot_runs = 0 ∧
        (∀ i, 0 ≤ i → i < st.sp.tot_tempfiles → st.temp_volid_set i = false) ∧
        st.multipage_volid_set = false) := by
  have hmax : 0 ≤ SORT_MAXREC_LENGTH W.M.env := by
    obtain ⟨h1, -, -⟩ := hvalid
    unfold SIZEOF_SLOTTED_PAGE_HEADER SIZEOF_SLOT at h1
    show 0 ≤ W.M.env.DB_PAGESIZE - 16 - 6
    omega
  unfold sort_listfile
  by_cases hm : W.malloc_arena_ok = false ∧ W.malloc_arena_again_ok = false
  · rw [if_pos hm]
    refine ⟨rfl, rfl, fun ha _ _ => ?_⟩
    rcases ha.1 with h | h
    · rw [hm.1] at h; cases h
    · rw [hm.2] at h; cases h
  · rw [if_neg hm]
    simp only []
    obtain ⟨i1, i2, i3, i4⟩ := listfile_init_spec W W.malloc_arena_ok est_inp_pg_cnt junk.st
    cases hfl : first_failed_ledger W (listfile_init W W.malloc_arena_ok est_inp_pg_cnt junk.st).sp.tot_tempfiles
        (listfile_init W W.malloc_arena_ok est_inp_pg_cnt junk.st).sp.tot_tempfiles.toNat 0 with
    | some i =>
      simp only []
      refine ⟨?_, ?_, fun ha _ _ => ?_⟩
      · show put_calls (listfile_init W W.malloc_arena_ok est_inp_pg_cnt junk.st).log = []
        rw [i2]; rfl
      · show create_calls (listfile_init W W.malloc_arena_ok est_inp_pg_cnt junk.st).log = []
        rw [i2]; rfl
      · rw [first_failed_ledger_none W _ ha.2] at hfl
        cases hfl
    | none =>
      simp only []
      have hres : ∀ (v1 : InVars) (d : RECDES),
          v1.st = { listfile_init W W.malloc_arena_ok est_inp_pg_cnt junk.st with
            tot_runs := 0, log := [SortEvent.get SORT_STATUS.SORT_NOMORE_RECS d] } →
          sort_return_used_resources v1.st = v1.st ∧ ¬ v1.st.tot_runs > 1 := by
        intro v1 d e
        constructor
        · apply return_used_resources_none
          · rw [e]; exact i4
          · rw [e]; exact i3
        · rw [e]; show ¬ (0 : Int) > 1; omega
      refine ⟨?_, ?_, fun ha hr hf => ?_⟩
      · rcases inphase_empty W fuel option _ junk i2 hmax hfirst with ⟨v1, e1, e2⟩ | ⟨v1, d, e1, e2⟩
        · rw [e1]
          show put_calls v1.st.log = []
          rw [e2]; show put_calls (listfile_init W W.malloc_arena_ok est_inp_pg_cnt junk.st).log = []
          rw [i2]; rfl
        · rw [e1]
          obtain ⟨r1, r2⟩ := hres v1 d e2
          simp only [r2, if_false, r1]
          show put_calls v1.st.log = []
          rw [e2]; rfl
      · rcases inphase_empty W fuel option _ junk i2 hmax hfirst with ⟨v1, e1, e2⟩ | ⟨v1, d, e1, e2⟩
        · rw [e1]
          show create_calls v1.st.log = []
          rw [e2]; show create_calls (listfile_init W W.malloc_arena_ok est_inp_pg_cnt junk.st).log = []
          rw [i2]; rfl
        · rw [e1]
          obtain ⟨r1, r2⟩ := hres v1 d e2
          simp only [r2, if_false, r1]
          show create_calls v1.st.log = []
          rw [e2]; rfl
      · obtain ⟨v1, d, e1, e2⟩ := inphase_empty_returns W fuel option _ junk i2 hfirst i1 hr hf
        rw [e1]
        obtain ⟨r1, r2⟩ := hres v1 d e2
        simp only [r2, if_false, r1]
        refine ⟨v1.st, d, rfl, by rw [e2], by rw [e2], ?_, by rw [e2]; exact i3⟩
        rw [e2]; exact i4

theorem inphase_sort_one (W : SortWorld) (option : SORT_DUP_OPTION) (v : InVars)
    (hn : v.numrecs = 1) (hs : v.sort_numrecs = 0) (hb : v.index_buff < v.index_area) :
    ∃ v1, inphase_sort W option v = some v1 ∧ v1.st = v.st ∧ v1.numrecs = 1 ∧
      v1.index_area = v.index_area + 1 ∧ v1.cells (v.index_area + 1) = v.cells (v.index_area + 1) ∧
      v1.recs = v.recs ∧ v1.temp_recdes = v.temp_recdes := by
  unfold inphase_sort
  simp only []
  have h1 : ¬ (v.index_buff + v.numrecs > v.index_area + 1) := by omega
  rw [if_neg h1]
  have hsort : ∀ cmp m, sort_run_sort cmp option m v.numrecs v.sort_numrecs v.numrecs =
      some { mem := m, base_side := Side.H, base := 0, srun_limit := v.numrecs } := by
    intro cmp m
    unfold sort_run_sort
    simp only []
    rw [if_pos (Or.inr ⟨by omega, hs⟩)]
  rw [hsort]
  refine ⟨_, rfl, rfl, hn, ?_, ?_, rfl, rfl⟩
  · show (if Side.H = Side.H then v.index_area + 1 else v.index_buff) + 0 = v.index_area + 1
    simp
  · show (if v.index_buff ≤ v.index_area + 1 ∧ v.index_area + 1 < v.index_buff + v.numrecs then _
      else if v.index_area + 1 ≤ v.index_area + 1 ∧
        v.index_area + 1 < v.index_area + 1 + v.numrecs then _ else _) = _
    have c1 : ¬ (v.index_buff ≤ v.index_area + 1 ∧ v.index_area + 1 < v.index_buff + v.numrecs) := by
      omega
    have c2 : v.index_area + 1 ≤ v.index_area + 1 ∧
        v.index_area + 1 < v.index_area + 1 + v.numrecs := by omega
    rw [if_neg c1, if_pos c2]
    show v.cells (v.index_area + 1 + (v.index_area + 1 - (v.index_area + 1))) = _
    congr 1
    omega

theorem put_records_one (W : SortWorld) (v : InVars) (base : Int) (k : Nat)
    (hc : v.cells base = some k) :
    ∃ v1, (match put_records W base 1 2 0 v with
        | Flow.next v2 => Flow.stop SortCode.NO_ERROR v2
        | f => f) =
        Flow.stop (code_of_put W (W.M.put_fn (published_of v.st.log)
          { v.temp_recdes with data := (v.recs (k : Int)).data,
                               length := (v.recs (k : Int)).length })) v1 ∧
      v1.st = { v.st with log := v.st.log ++
        [SortEvent.put { v.temp_recdes with data := (v.recs (k : Int)).data,
                                            length := (v.recs (k : Int)).length }
          (W.M.put_fn (published_of v.st.log)
            { v.temp_recdes with data := (v.recs (k : Int)).data,
                                 length := (v.recs (k : Int)).length })] } := by
  have hc0 : v.cells (base + 0) = some k := by rw [Int.add_zero]; exact hc
  simp only [put_records, show (0 : Int) < 1 by omega, if_true, hc0]
  by_cases hret : W.M.put_fn (published_of v.st.log)
      { v.temp_recdes with data := (v.recs (k : Int)).data,
                           length := (v.recs (k : Int)).length } = 0
  · simp only [hret, ne_eq, not_true_eq_false, if_false, show ¬ ((0 : Int) + 1 < 1) by omega,
      code_of_put, true_or, if_true]
    exact ⟨_, rfl, rfl⟩
  · simp only [ne_eq, hret, not_false_eq_true, if_true, code_of_put, false_or]
    exact ⟨_, rfl, rfl⟩

theorem inphase_iteration_success (W : SortWorld) (option : SORT_DUP_OPTION) (v : InVars)
    (d : RECDES) (hg : inphase_get W v = inphase_call W v d)
    (hs : (W.get_fn v.st.log d).1 = SORT_STATUS.SORT_SUCCESS) :
    inphase_iteration W option v = Flow.next (inphase_success W (inphase_call W v d).2) := by
  unfold inphase_iteration
  rw [hg]
  cases hc : inphase_call W v d with
  | mk s v1 =>
    have : (inphase_call W v d).1 = SORT_STATUS.SORT_SUCCESS := hs
    rw [hc] at this
    simp only at this
    subst this
    rfl

theorem inphase_iteration_nomore (W : SortWorld) (option : SORT_DUP_OPTION) (v : InVars)
    (d : RECDES) (hg : inphase_get W v = inphase_call W v d)
    (hs : (W.get_fn v.st.log d).1 = SORT_STATUS.SORT_NOMORE_RECS) :
    inphase_iteration W option v = Flow.leave (inphase_call W v d).2 := by
  unfold inphase_iteration
  rw [hg]
  cases hc : inphase_call W v d with
  | mk s v1 =>
    have : (inphase_call W v d).1 = SORT_STATUS.SORT_NOMORE_RECS := hs
    rw [hc] at this
    simp only at this
    subst this
    rfl

theorem inphase_single_record (W : SortWorld) (fuel : Nat) (option : SORT_DUP_OPTION)
    (st : ParamState) (junk : InVars) (hlog : st.log = []) (hb : 4 ≤ st.sp.tot_buffers)
    (hr : W.Roomy) (hfuel : 2 ≤ fuel) (L : Int) (data : List Byte) (L2 : Int)
    (data2 : List Byte)
    (h1 : W.get_fn [] (delivered W junk 0 junk.temp_recdes.data) =
      (SORT_STATUS.SORT_SUCCESS, L, data))
    (hL : 0 ≤ L ∧ L ≤ SORT_MAXREC_LENGTH W.M.env)
    (h2 : W.get_fn [SortEvent.get SORT_STATUS.SORT_SUCCESS (delivered W junk L data)]
        (delivered W junk L data) = (SORT_STATUS.SORT_NOMORE_RECS, L2, data2)) :
    ∃ v1, sort_inphase_sort W fuel option st junk =
        Flow.stop (code_of_put W (W.M.put_fn [] (delivered W junk L data))) v1 ∧
      v1.st = { st with
        tot_runs := 0,
        log := [SortEvent.get SORT_STATUS.SORT_SUCCESS (delivered W junk L data),
                SortEvent.get SORT_STATUS.SORT_NOMORE_RECS (delivered W junk L2 data2),
                SortEvent.put (delivered W junk L data)
                  (W.M.put_fn [] (delivered W junk L data))] } := by
  have hc2 := inphase_init_cell W st junk hb hr (-2)
  have hc4 := inphase_init_cell W st junk hb hr (-4)
  obtain ⟨⟨r1, -, -⟩, ra, r3, r4, r0, r5, r6⟩ := hr
  unfold SIZEOF_SLOTTED_PAGE_HEADER SIZEOF_SLOT at r1
  have hmaxdef : SORT_MAXREC_LENGTH W.M.env = W.M.env.DB_PAGESIZE - 16 - 6 := rfl
  obtain ⟨n, rfl⟩ : ∃ n, fuel = n + 2 := ⟨fuel - 2, by omega⟩
  -- the first iteration
  have g1 := inphase_get_call W (inphase_init W st junk)
    (by show W.SORT_RECORD_LENGTH_SIZE ≤ _
        have : (inphase_init W st junk).index_buff = -2 := rfl
        rw [this]; omega)
    (by show _ < SORT_MAXREC_LENGTH W.M.env; exact r5)
    (by have e1 : (inphase_init W st junk).index_buff = -2 := rfl
        have e2 : (inphase_init W st junk).item_ptr = W.SORT_RECORD_LENGTH_SIZE := rfl
        rw [e1, e2]; omega)
  have hd0 : (inphase_init W st junk).temp_recdes = delivered W junk 0 junk.temp_recdes.data := rfl
  have hl0 : (inphase_init W st junk).st.log = [] := hlog
  rw [hd0] at g1
  have it1 := inphase_iteration_success W option (inphase_init W st junk) _ g1
    (by rw [hl0, h1])
  have hcall1 : inphase_call W (inphase_init W st junk) (delivered W junk 0 junk.temp_recdes.data) =
      (SORT_STATUS.SORT_SUCCESS,
        { inphase_init W st junk with
          temp_recdes := delivered W junk L data,
          st := { (inphase_init W st junk).st with
            log := [SortEvent.get SORT_STATUS.SORT_SUCCESS (delivered W junk L data)] } }) := by
    unfold inphase_call
    simp only [hl0, h1, List.nil_append]
    rfl
  rw [hcall1] at it1
  simp only at it1
  -- the second iteration
  generalize hv1 : inphase_success W
    { inphase_init W st junk with
      temp_recdes := delivered W junk L data,
      st := { (inphase_init W st junk).st with
        log := [SortEvent.get SORT_STATUS.SORT_SUCCESS (delivered W junk L data)] } } = v1 at it1
  have e_item : v1.item_ptr = W.SORT_RECORD_LENGTH_SIZE +
      (DB_ALIGN L W.M.MAX_ALIGNMENT + W.SORT_RECORD_LENGTH_SIZE) := by rw [← hv1]; rfl
  have e_buff : v1.index_buff = -4 := by rw [← hv1]; rfl
  have e_area : v1.index_area = -2 := by rw [← hv1]; rfl
  have e_num : v1.numrecs = 1 := by rw [← hv1]; rfl
  have e_snum : v1.sort_numrecs = 0 := by rw [← hv1]; rfl
  have e_temp : v1.temp_recdes = delivered W junk L data := by rw [← hv1]; rfl
  have e_log : v1.st.log = [SortEvent.get SORT_STATUS.SORT_SUCCESS (delivered W junk L data)] := by
    rw [← hv1]; rfl
  have e_st : v1.st = { st with
      tot_runs := 0,
      log := [SortEvent.get SORT_STATUS.SORT_SUCCESS (delivered W junk L data)] } := by
    rw [← hv1]; rfl
  have e_cell : v1.cells (-1) = some W.SORT_RECORD_LENGTH_SIZE.toNat := by
    rw [← hv1]
    simp only [inphase_success, aset, if_true]
    rfl
  have e_rec : v1.recs W.SORT_RECORD_LENGTH_SIZE = delivered W junk L data := by
    rw [← hv1]
    simp only [inphase_success, aset]
    exact if_pos rfl
  have e_cadr : cell_addr W v1 (-4) = cell_addr W (inphase_init W st junk) (-4) := by
    rw [← hv1]; rfl
  have hal := DB_ALIGN_bounds ra L
  have hpos := ra.pos
  have g2 := inphase_get_call W v1
    (by rw [e_item, e_buff, e_cadr]; omega)
    (by rw [e_temp]; show _ < SORT_MAXREC_LENGTH W.M.env; exact r5)
    (by rw [e_item, e_buff, e_cadr]; omega)
  rw [e_temp] at g2
  have it2 := inphase_iteration_nomore W option v1 _ g2 (by rw [e_log, h2])
  have hcall2 : (inphase_call W v1 (delivered W junk L data)).2 =
      { v1 with
        temp_recdes := delivered W junk L2 data2,
        st := { v1.st with
          log := [SortEvent.get SORT_STATUS.SORT_SUCCESS (delivered W junk L data),
                  SortEvent.get SORT_STATUS.SORT_NOMORE_RECS (delivered W junk L2 data2)] } } := by
    unfold inphase_call
    simp only [e_log, h2]
    rfl
  rw [hcall2] at it2
  generalize hv2 : ({ v1 with
        temp_recdes := delivered W junk L2 data2,
        st := { v1.st with
          log := [SortEvent.get SORT_STATUS.SORT_SUCCESS (delivered W junk L data),
                  SortEvent.get SORT_STATUS.SORT_NOMORE_RECS (delivered W junk L2 data2)] } } :
      InVars) = v2 at it2
  have hloop : inphase_loop W option (n + 2) (inphase_init W st junk) = Flow.leave v2 := by
    simp only [inphase_loop, it1, it2]
  unfold sort_inphase_sort
  rw [hloop]
  simp only []
  -- after the loop
  have f_num : v2.numrecs = 1 := by rw [← hv2]; exact e_num
  have f_snum : v2.sort_numrecs = 0 := by rw [← hv2]; exact e_snum
  have f_buff : v2.index_buff = -4 := by rw [← hv2]; exact e_buff
  have f_area : v2.index_area = -2 := by rw [← hv2]; exact e_area
  have f_cell : v2.cells (-1) = some W.SORT_RECORD_LENGTH_SIZE.toNat := by
    rw [← hv2]; exact e_cell
  have f_rec : v2.recs W.SORT_RECORD_LENGTH_SIZE = delivered W junk L data := by
    rw [← hv2]; exact e_rec
  have f_temp : v2.temp_recdes = delivered W junk L2 data2 := by rw [← hv2]
  have f_st : v2.st = { st with
      tot_runs := 0,
      log := [SortEvent.get SORT_STATUS.SORT_SUCCESS (delivered W junk L data),
              SortEvent.get SORT_STATUS.SORT_NOMORE_RECS (delivered W junk L2 data2)] } := by
    rw [← hv2]
    show ({ v1.st with log := _ } : ParamState) = _
    rw [e_st]
  obtain ⟨v3, s1, s2, s3, s4, s5, s6, s7⟩ := inphase_sort_one W option v2 f_num f_snum
    (by rw [f_buff, f_area]; omega)
  rw [f_area] at s4 s5
  have s5' : v3.cells v3.index_area = some W.SORT_RECORD_LENGTH_SIZE.toNat := by
    rw [s4]
    have : (-2 : Int) + 1 = -1 := by omega
    rw [this] at s5 ⊢
    rw [s5, f_cell]
  obtain ⟨v4, p1, p2⟩ := put_records_one W v3 v3.index_area _ s5'
  have hk : ((W.SORT_RECORD_LENGTH_SIZE.toNat : Nat) : Int) = W.SORT_RECORD_LENGTH_SIZE := by
    omega
  have hput : ({ v3.temp_recdes with
      data := (v3.recs ((W.SORT_RECORD_LENGTH_SIZE.toNat : Nat) : Int)).data,
      length := (v3.recs ((W.SORT_RECORD_LENGTH_SIZE.toNat : Nat) : Int)).length } : RECDES) =
      delivered W junk L data := by
    rw [hk, s6, f_rec, s7, f_temp]
    rfl
  rw [hput] at p1 p2
  have hpub : published_of v3.st.log = [] := by
    rw [s2, f_st]; rfl
  rw [hpub] at p1 p2
  have htr : ¬ v3.st.tot_runs > 0 := by
    rw [s2, f_st]; show ¬ (0 : Int) > 0; omega
  refine ⟨v4, ?_, ?_⟩
  · unfold inphase_finish
    have hnum : v2.numrecs > 0 := by omega
    rw [if_pos hnum, s1]
    simp only [htr, if_false]
    have hto : v3.numrecs.toNat + 1 = 2 := by rw [s3]; rfl
    rw [hto, s3]
    exact p1
  · rw [p2, s2, f_st]
    rfl

theorem listfile_single_record_eq (W : SortWorld) (fuel : Nat) (est_inp_pg_cnt : Int)
    (option : SORT_DUP_OPTION) (junk : InVars) (ha : W.Allocates) (hr : W.Roomy)
    (hfuel : 2 ≤ fuel) (L : Int) (data : List Byte) (L2 : Int) (data2 : List Byte)
    (h1 : W.get_fn [] (delivered W junk 0 junk.temp_recdes.data) =
      (SORT_STATUS.SORT_SUCCESS, L, data))
    (hL : 0 ≤ L ∧ L ≤ SORT_MAXREC_LENGTH W.M.env)
    (h2 : W.get_fn [SortEvent.get SORT_STATUS.SORT_SUCCESS (delivered W junk L data)]
        (delivered W junk L data) = (SORT_STATUS.SORT_NOMORE_RECS, L2, data2)) :
    sort_listfile W fuel est_inp_pg_cnt option junk =
      ListfileOutcome.returned (code_of_put W (W.M.put_fn [] (delivered W junk L data)))
        { listfile_init W W.malloc_arena_ok est_inp_pg_cnt junk.st with
          tot_runs := 0,
          log := [SortEvent.get SORT_STATUS.SORT_SUCCESS (delivered W junk L data),
                  SortEvent.get SORT_STATUS.SORT_NOMORE_RECS (delivered W junk L2 data2),
                  SortEvent.put (delivered W junk L data)
                    (W.M.put_fn [] (delivered W junk L data))] } := by
  unfold sort_listfile
  have hm : ¬ (W.malloc_arena_ok = false ∧ W.malloc_arena_again_ok = false) := by
    rintro ⟨h, h'⟩
    rcases ha.1 with q | q
    · rw [h] at q; cases q
    · rw [h'] at q; cases q
  rw [if_neg hm]
  simp only []
  obtain ⟨i1, i2, i3, i4⟩ := listfile_init_spec W W.malloc_arena_ok est_inp_pg_cnt junk.st
  rw [first_failed_ledger_none W _ ha.2]
  simp only []
  obtain ⟨v1, e1, e2⟩ := inphase_single_record W fuel option _ junk i2 i1 hr hfuel L data L2
    data2 h1 hL h2
  rw [e1]
  have hres : sort_return_used_resources v1.st = v1.st := by
    apply return_used_resources_none
    · rw [e2]; exact i4
    · rw [e2]; exact i3
  have htr : ¬ v1.st.tot_runs > 1 := by
    rw [e2]; show ¬ (0 : Int) > 1; omega
  cases hcode : code_of_put W (W.M.put_fn [] (delivered W junk L data)) with
  | NO_ERROR =>
    simp only [htr, if_false, hres]
    rw [e2]
  | ER_OUT_OF_VIRTUAL_MEMORY => simp only [hres]; rw [e2]
  | ER_GENERIC_ERROR => simp only [hres]; rw [e2]
  | er_errid => simp only [hres]; rw [e2]
  | put_error c => simp only [hres]; rw [e2]

/-- C20: when the producer delivers one record of at most
`SORT_MAXREC_LENGTH` bytes and then `SORT_NOMORE_RECS` (the allocations
succeeding, the internal memory having room), `sort_listfile` returns after
exactly one call of `put_fn`, with the length and the bytes of that record;
`tot_runs` is 0, no file was created and every `temp[i].volid` is still
`NULL_VOLID`; and the outcome is the same for every comparator: the only call of
`sort_run_sort` is for one record and returns at its first test. The value
returned is `NO_ERROR` when `put_fn` returns `NO_ERROR` or `SORT_PUT_STOP`,
otherwise the value of `put_fn`. -/
theorem listfile_single_record (W : SortWorld) (fuel : Nat) (est_inp_pg_cnt : Int)
    (option : SORT_DUP_OPTION) (junk : InVars) (ha : W.Allocates) (hr : W.Roomy)
    (hfuel : 2 ≤ fuel) (L : Int) (data : List Byte) (L2 : Int) (data2 : List Byte)
    (h1 : W.get_fn [] (delivered W junk 0 junk.temp_recdes.data) =
      (SORT_STATUS.SORT_SUCCESS, L, data))
    (hL : 0 ≤ L ∧ L ≤ SORT_MAXREC_LENGTH W.M.env)
    (h2 : W.get_fn [SortEvent.get SORT_STATUS.SORT_SUCCESS (delivered W junk L data)]
        (delivered W junk L data) = (SORT_STATUS.SORT_NOMORE_RECS, L2, data2)) :
    ∃ st p ret,
      sort_listfile W fuel est_inp_pg_cnt option junk =
        ListfileOutcome.returned (code_of_put W ret) st ∧
      put_calls st.log = [SortEvent.put p ret] ∧ p.length = L ∧ p.data = data ∧
      ret = W.M.put_fn [] p ∧
      st.tot_runs = 0 ∧ create_calls st.log = [] ∧
      (∀ i, 0 ≤ i → i < st.sp.tot_tempfiles → st.temp_volid_set i = false) ∧
      st.multipage_volid_set = false ∧
      ∀ compare : List Byte → List Byte → Int,
        sort_listfile { W with M := { W.M with compare := compare } } fuel est_inp_pg_cnt
          option junk = sort_listfile W fuel est_inp_pg_cnt option junk := by
  have e := listfile_single_record_eq W fuel est_inp_pg_cnt option junk ha hr hfuel L data L2
    data2 h1 hL h2
  obtain ⟨-, -, i3, i4⟩ := listfile_init_spec W W.malloc_arena_ok est_inp_pg_cnt junk.st
  refine ⟨_, delivered W junk L data, _, e, rfl, rfl, rfl, rfl, rfl, rfl, i4, i3, ?_⟩
  intro compare
  rw [e]
  exact listfile_single_record_eq { W with M := { W.M with compare := compare } } fuel
    est_inp_pg_cnt option junk ha hr hfuel L data L2 data2 h1 hL h2

theorem example_world_roomy (records : List (List Byte)) :
    (example_world records).Allocates ∧ (example_world records).Roomy := by
  refine ⟨⟨Or.inl rfl, fun _ => rfl⟩, ?_, ?_, ?_, ?_, ?_, ?_, ?_⟩
  · show env16k.Valid; decide
  · show ValidAlignment 8; decide
  · show (0 : Int) ≤ 8; decide
  · show (0 : Int) ≤ 8; decide
  · show (0 : Int) ≤ 16; decide
  · show (16 : Int) < SORT_MAXREC_LENGTH env16k; decide
  · show (16 : Int) + 8 * 8 + 4 * 8 + 8 < 2 * env16k.DB_PAGESIZE; decide

/-- C19, at a concrete input: the producer without records on a host with pages
of 16384 bytes. -/
theorem listfile_empty_input_witness :
    (example_world []).M.env.Valid ∧
    (∀ d, ((example_world []).get_fn [] d).1 = SORT_STATUS.SORT_NOMORE_RECS) ∧
    put_calls (sort_listfile (example_world []) 1 0 SORT_DUP_OPTION.SORT_ELIM_DUP
      example_vars).state.log = [] ∧
    ∃ st d, sort_listfile (example_world []) 1 0 SORT_DUP_OPTION.SORT_ELIM_DUP example_vars =
        ListfileOutcome.returned SortCode.NO_ERROR st ∧
      st.log = [SortEvent.get SORT_STATUS.SORT_NOMORE_RECS d] := by
  have h := listfile_empty_input (example_world []) 1 0 SORT_DUP_OPTION.SORT_ELIM_DUP
    example_vars (by decide) (fun _ => rfl)
  refine ⟨by decide, fun _ => rfl, h.1, ?_⟩
  obtain ⟨st, d, e1, e2, -⟩ := h.2.2 (example_world_roomy []).1 (example_world_roomy []).2
    (le_refl 1)
  exact ⟨st, d, e1, e2⟩

/-- C20, at a concrete input: the producer delivers the record `[7, 1, 2]`. -/
theorem listfile_single_record_witness :
    (example_world [[7, 1, 2]]).Allocates ∧ (example_world [[7, 1, 2]]).Roomy ∧
    (example_world [[7, 1, 2]]).get_fn []
      (delivered (example_world [[7, 1, 2]]) example_vars 0 example_vars.temp_recdes.data) =
      (SORT_STATUS.SORT_SUCCESS, 3, [7, 1, 2]) ∧
    ∃ st p,
      sort_listfile (example_world [[7, 1, 2]]) 2 0 SORT_DUP_OPTION.SORT_DUP example_vars =
        ListfileOutcome.returned SortCode.NO_ERROR st ∧
      put_calls st.log = [SortEvent.put p 0] ∧ p.length = 3 ∧ p.data = [7, 1, 2] ∧
      st.tot_runs = 0 := by
  refine ⟨(example_world_roomy _).1, (example_world_roomy _).2, by decide, ?_⟩
  obtain ⟨st, p, ret, e1, e2, e3, e4, e5, e6, -⟩ :=
    listfile_single_record (example_world [[7, 1, 2]]) 2 0 SORT_DUP_OPTION.SORT_DUP example_vars
      (example_world_roomy _).1 (example_world_roomy _).2 (le_refl 2) 3 [7, 1, 2] 3 [7, 1, 2]
      (by decide) (by decide) (by decide)
  have hret : ret = 0 := e5
  subst hret
  exact ⟨st, p, e1, e2, e3, e4, e6⟩

/-! ### The loop that outputs the records of a run -/

theorem Step.Safe.mono {σ : Type} (E : MergeEnv) (P Q : σ → Prop) (h : ∀ s, P s → Q s)
    (st : Step σ) (hs : st.Safe E P) : st.Safe E Q := by
  cases st with
  | next s => exact h s hs
  | stop w p => exact hs

theorem RunLoopInv.loop_pub_ok (E : MergeEnv) (v : MergeVars) (EM : List (List Byte))
    (hinv : RunLoopInv E v EM) : PubOK E v.published := by
  cases hv : v.very_last_run with
  | true => exact (hinv.pub hv).asc
  | false =>
    rw [(hinv.out hv).published]
    exact List.Pairwise.nil

theorem EmitPost.emit_pub_ok (E : MergeEnv) (v v1 : MergeVars) (min : Int) (EM1 : List (List Byte))
    (h : EmitPost E v v1 min EM1) : PubOK E v1.published := by
  cases hv : v.very_last_run with
  | true => exact (h.pub hv).asc
  | false =>
    rw [(h.out hv).published]
    exact List.Pairwise.nil

theorem fetch_smallest_stop (E : MergeEnv) (w : MergeVars) (i : Int) (k : StopKind)
    (p : List RECDES) (h : fetch_smallest E w i = Step.stop k p) : p = w.published := by
  unfold fetch_smallest at h
  simp only [] at h
  split_ifs at h
  · cases h; rfl
  · split at h
    · cases h; rfl
    · cases h

theorem emit_record_spec (E : MergeEnv) (hE : EnvSift E) (v : MergeVars)
    (EM : List (List Byte)) (hinv : RunLoopInv E v EM) (h : SORT_REC_LIST)
    (t : List SORT_REC_LIST) (hl : v.sr_list = h :: t) :
    (emit_record E v h).Safe E (fun v1 => ∃ EM1,
      EmitPost E v v1 h.rec_pos EM1 ∧ TailInv E.compare v.data EM1 t ∧
      (∀ l ∈ EM1, E.compare l (v.data h.rec_pos) ≤ 0) ∧
      ((h.is_duplicated = false ∧ ∃ kk, EM1 = EM ++ [kk] ∧
          (∀ x, E.compare kk x = E.compare (v.data h.rec_pos) x) ∧
          (∀ x, E.compare x kk = E.compare x (v.data h.rec_pos))) ∨
        (h.is_duplicated = true ∧ EM1 = EM))) := by
  have hord : OrderInv E.compare v.data EM (h :: t) := by rw [← hl]; exact hinv.order
  have hnode := (hinv.nodes h (by rw [hl]; exact List.mem_cons_self _ _)).2.2
  unfold emit_record
  by_cases hflag : h.is_duplicated = false
  · rw [if_pos hflag]
    cases hv : v.very_last_run with
    | true =>
      simp only [if_true]
      refine Step.Safe.mono E _ _ ?_ _ (publish_record_spec E hE v EM hinv h t hl hflag hv)
      rintro v1 ⟨kk, k1, k2, hp⟩
      obtain ⟨q1, q2⟩ := TailInv_of_emit E.compare hE.order v.data EM h t hord hflag kk k1
      exact ⟨_, hp, q1, q2, Or.inl ⟨hflag, kk, rfl, k1, k2⟩⟩
    | false =>
      simp only [Bool.false_eq_true, if_false]
      refine Step.Safe.mono E _ _ ?_ _ (output_record_spec E hE v EM hinv h t hl hflag hv)
      intro v1 hp
      obtain ⟨q1, q2⟩ := TailInv_of_emit E.compare hE.order v.data EM h t hord hflag
        (v.data h.rec_pos) (fun _ => rfl)
      exact ⟨_, hp, q1, q2, Or.inl ⟨hflag, _, rfl, fun _ => rfl, fun _ => rfl⟩⟩
  · rw [if_neg hflag]
    obtain ⟨q1, q2⟩ := TailInv_of_skip E.compare v.data EM h t hord
    refine ⟨EM, EmitPost_skip E v EM hinv h.rec_pos hnode, q1, q2, Or.inr ⟨?_, rfl⟩⟩
    cases hd : h.is_duplicated with
    | false => exact absurd hd hflag
    | true => rfl

theorem last_element_comparison_stop (E : MergeEnv) (v : MergeVars) (k : StopKind)
    (p : List RECDES) (h : last_element_comparison E v = Step.stop k p) : p = v.published := by
  unfold last_element_comparison at h
  split at h
  · simp only [] at h
    split_ifs at h
    · cases h; rfl
    · split at h
      · cases h; rfl
      · cases h
  · cases h

theorem last_element_comparison_spec (E : MergeEnv) (v v5 : MergeVars)
    (h : last_element_comparison E v = Step.next v5) :
    v5 = { v with last_elem_ptr := v5.last_elem_ptr, last_long_recdes := v5.last_long_recdes,
                  last_elem_cmp := v5.last_elem_cmp } ∧
    (∀ m p t, v.sr_list = m :: p :: t →
      v5.last_elem_cmp = E.compare
        (E.key (slot_record (v.sp.internal_memory (v.in_cur_bufaddr m.rec_pos))
          (v.last_slot m.rec_pos - 1).toNat))
        (v.data p.rec_pos)) ∧
    ((∀ m p t, v.sr_list ≠ m :: p :: t) → v5 = v) := by
  unfold last_element_comparison at h
  split at h
  · rename_i m0 p0 t0 hl
    simp only [] at h
    by_cases hc : (sort_spage_get_record E.env
        (v.sp.internal_memory (v.in_cur_bufaddr m0.rec_pos))
        (v.last_slot m0.rec_pos - 1) v.last_elem_ptr PeekMode.PEEK).1 ≠ SCAN_CODE.S_SUCCESS
    · rw [if_pos hc] at h
      cases h
    · rw [if_neg hc] at h
      obtain ⟨g1, g2, g3⟩ := get_peek_success _ _ _ _ (not_not.1 hc)
      rw [g3] at h
      by_cases hb : (slot_record (v.sp.internal_memory (v.in_cur_bufaddr m0.rec_pos))
          (v.last_slot m0.rec_pos - 1).toNat).type = RecType.REC_BIGONE
      · simp only [if_pos hb] at h
        unfold sort_retrieve_longrec at h
        cases ho : E.overflow_get (slot_record (v.sp.internal_memory
            (v.in_cur_bufaddr m0.rec_pos)) (v.last_slot m0.rec_pos - 1).toNat).data with
        | none => rw [ho] at h; simp at h
        | some content =>
          rw [ho] at h
          simp only [Step.next.injEq] at h
          subst h
          refine ⟨rfl, ?_, fun hn => absurd hl (hn _ _ _)⟩
          intro m p t hl2
          rw [hl] at hl2
          simp only [List.cons.injEq] at hl2
          obtain ⟨e1, e2, _⟩ := hl2
          subst e1; subst e2
          unfold MergeEnv.key
          rw [if_pos hb, ho]
          rfl
      · simp only [if_neg hb] at h
        simp only [Step.next.injEq] at h
        subst h
        refine ⟨rfl, ?_, fun hn => absurd hl (hn _ _ _)⟩
        intro m p t hl2
        rw [hl] at hl2
        simp only [List.cons.injEq] at hl2
        obtain ⟨e1, e2, _⟩ := hl2
        subst e1; subst e2
        unfold MergeEnv.key
        rw [if_neg hb]
  · simp only [Step.next.injEq] at h
    subst h
    refine ⟨rfl, ?_, fun _ => rfl⟩
    intro m p t hl2
    rename_i hne
    exact absurd hl2 (hne m p t)

theorem advance_input_published (v : MergeVars) (min : Int) :
    (advance_input v min).1.published = v.published := by
  unfold advance_input
  simp only
  split_ifs <;> rfl

theorem advance_input_done_sp (v : MergeVars) (min : Int)
    (h : (advance_input v min).2 = true) : (advance_input v min).1.sp = v.sp := by
  unfold advance_input at h ⊢
  simp only at h ⊢
  split_ifs at h ⊢
  rfl

theorem emitted_data (E : MergeEnv) (v v1 v3 : MergeVars) (min : Int)
    (EM1 : List (List Byte)) (hpost : EmitPost E v v1 min EM1) (hadv : AdvFrame v1 v3 min)
    (j : Int) (hj : 0 ≤ j) (hj2 : j < v.act_infiles) (hne : j ≠ min) :
    v3.data j = v.data j := by
  have h1 := hpost.inputs j hj hj2 hne
  obtain ⟨_, _, _, _, _, a6, a7⟩ := hadv.inputs j hne
  exact MergeVars.data_frame v v3 j (by rw [a6, h1.smallest_elem_ptr])
    (by rw [a7, h1.long_recdes])

theorem OrderInv_nil (compare : List Byte → List Byte → Int) (K : Int → List Byte)
    (EM : List (List Byte)) : OrderInv compare K EM [] := by
  refine ⟨List.nodup_nil, List.Pairwise.nil, ?_, ?_, List.Pairwise.nil, ?_⟩
  · intro n hn; cases hn
  · intro n hn; cases hn
  · intro h hh; simp at hh

theorem TailInv_emitted (E : MergeEnv) (v v1 v3 v4 : MergeVars) (EM EM1 : List (List Byte))
    (h : SORT_REC_LIST) (t : List SORT_REC_LIST) (hinv : RunLoopInv E v EM)
    (hl : v.sr_list = h :: t) (hpost : EmitPost E v v1 h.rec_pos EM1)
    (hadv : AdvFrame v1 v3 h.rec_pos)
    (h4 : v4.smallest_elem_ptr = v3.smallest_elem_ptr ∧ v4.long_recdes = v3.long_recdes)
    (htail : TailInv E.compare v.data EM1 t) : TailInv E.compare v4.data EM1 t := by
  have hnd : (v.sr_list.map (fun n => n.rec_pos)).Nodup := hinv.order.nodup
  rw [hl] at hnd
  simp only [List.map_cons] at hnd
  have hnd1 := (List.nodup_cons.1 hnd).1
  refine TailInv_congr _ _ _ _ _ ?_ htail
  intro n hn
  have hmem : n ∈ v.sr_list := by rw [hl]; exact List.mem_cons_of_mem _ hn
  obtain ⟨n1, n2, _⟩ := hinv.nodes n hmem
  have hne : n.rec_pos ≠ h.rec_pos := by
    intro e
    exact hnd1 (by rw [← e]; exact List.mem_map_of_mem _ hn)
  rw [← emitted_data E v v1 v3 h.rec_pos EM1 hpost hadv n.rec_pos n1 n2 hne]
  exact MergeVars.data_frame v3 v4 n.rec_pos (by rw [h4.1]) (by rw [h4.2])

/-- The invariant after a pass of the loop in which the input of the first node
got its next record. -/
theorem close_entered (E : MergeEnv) (v v1 v3 v4 : MergeVars) (EM EM1 : List (List Byte))
    (h : SORT_REC_LIST) (t : List SORT_REC_LIST) (hinv : RunLoopInv E v EM)
    (hl : v.sr_list = h :: t) (hpost : EmitPost E v v1 h.rec_pos EM1)
    (hadv : AdvFrame v1 v3 h.rec_pos) (hnode : NodeOK E v3 h.rec_pos)
    (h4 : v4 = { v3 with sr_list := v4.sr_list, last_elem_ptr := v4.last_elem_ptr,
                         last_long_recdes := v4.last_long_recdes,
                         last_elem_cmp := v4.last_elem_cmp })
    (hperm : List.Perm (v4.sr_list.map (fun n => n.rec_pos))
      ((h :: t).map (fun n => n.rec_pos)))
    (horder : OrderInv E.compare v4.data EM1 v4.sr_list) (hlc : LCInv E v4) :
    RunLoopInv E v4 EM1 ∧ LoopFrame v v4 := by
  obtain ⟨hm0, hm1, _⟩ := hinv.nodes h (by rw [hl]; exact List.mem_cons_self _ _)
  refine loop_assemble E v v1 v3 v4 EM EM1 h.rec_pos hinv hm0 hm1 hpost hadv h4 ?_ ?_ ?_
    horder hlc
  · intro n hn
    by_cases e : n.rec_pos = h.rec_pos
    · exact Or.inl ⟨e, hnode⟩
    · refine Or.inr ⟨e, ?_⟩
      have hm : n.rec_pos ∈ (h :: t).map (fun n => n.rec_pos) :=
        hperm.subset (List.mem_map_of_mem _ hn)
      simp only [List.map_cons, List.mem_cons, List.mem_map] at hm
      rcases hm with e1 | ⟨n0, hn0, e1⟩
      · exact absurd e1 e
      · exact ⟨n0, by rw [hl]; exact List.mem_cons_of_mem _ hn0, e1⟩
  · intro n hn hne
    rw [hl] at hn
    have hm : n.rec_pos ∈ (h :: t).map (fun n => n.rec_pos) := List.mem_map_of_mem _ hn
    have hm2 := hperm.symm.subset hm
    simp only [List.mem_map] at hm2
    exact hm2
  · left
    have hm : h.rec_pos ∈ (h :: t).map (fun n => n.rec_pos) :=
      List.mem_map_of_mem _ (List.mem_cons_self _ _)
    have hm2 := hperm.symm.subset hm
    simp only [List.mem_map] at hm2
    exact hm2

/-- The invariant after a pass of the loop in which the current run of the input
of the first node finished. -/
theorem close_done (E : MergeEnv) (v v1 : MergeVars)
    (EM EM1 : List (List Byte))
    (h : SORT_REC_LIST) (t : List SORT_REC_LIST) (hinv : RunLoopInv E v EM)
    (hl : v.sr_list = h :: t) (hpost : EmitPost E v v1 h.rec_pos EM1)
    (htail : TailInv E.compare v.data EM1 t)
    (hdone : (advance_input v1 h.rec_pos).2 = true)
    (hadv : AdvFrame v1 (advance_input v1 h.rec_pos).1 h.rec_pos)
    (hcmp : (advance_input v1 h.rec_pos).1.last_elem_cmp = 1)
    (hnp : (v1.sp.file_contents (v1.sp.in_half + h.rec_pos)).num_pages
        (v1.sp.file_contents (v1.sp.in_half + h.rec_pos)).first_run = 0) :
    RunLoopInv E { (advance_input v1 h.rec_pos).1 with sr_list := t } EM1 ∧
      LoopFrame v { (advance_input v1 h.rec_pos).1 with sr_list := t } := by
  obtain ⟨hm0, hm1, _⟩ := hinv.nodes h (by rw [hl]; exact List.mem_cons_self _ _)
  have hnd : (v.sr_list.map (fun n => n.rec_pos)).Nodup := hinv.order.nodup
  rw [hl] at hnd
  simp only [List.map_cons] at hnd
  have hnd1 := (List.nodup_cons.1 hnd).1
  refine loop_assemble E v v1 (advance_input v1 h.rec_pos).1 _ EM EM1 h.rec_pos hinv hm0 hm1
    hpost hadv rfl ?_ ?_ ?_ ?_ ?_
  · intro n hn
    refine Or.inr ⟨?_, n, by rw [hl]; exact List.mem_cons_of_mem _ hn, rfl⟩
    intro e
    exact hnd1 (by rw [← e]; exact List.mem_map_of_mem _ hn)
  · intro n hn hne
    rw [hl] at hn
    rcases List.mem_cons.1 hn with e | e
    · rw [e] at hne; exact absurd rfl hne
    · exact ⟨n, e, rfl⟩
  · right
    rw [advance_input_done_sp v1 h.rec_pos hdone, ← hpost.static.in_half]
    exact hnp
  · exact OrderInv_of_tail _ _ _ _
      (TailInv_emitted E v v1 (advance_input v1 h.rec_pos).1 _ EM EM1 h t hinv hl hpost hadv
        ⟨rfl, rfl⟩ htail)
  · intro hle
    have : (1 : Int) ≤ 0 := by
      have h2 : ({ (advance_input v1 h.rec_pos).1 with sr_list := t } : MergeVars).last_elem_cmp
        = 1 := hcmp
      rw [h2] at hle
      exact hle
    omega

theorem slot_mem_drop (pg : Page) (l : List Page) (a b : Nat) (hab : a < b)
    (hb : (b : Int) < pg.hdr.nslots) :
    slot_record pg b ∈ (recs_of (pg :: l)).drop (a + 1) := by
  have h1 : slot_record pg b ∈ (recs_of (pg :: l)).drop b := by
    rw [recs_of_drop_slot pg l b hb]
    exact List.mem_cons_self _ _
  have h2 : (recs_of (pg :: l)).drop b =
      ((recs_of (pg :: l)).drop (a + 1)).drop (b - (a + 1)) := by
    rw [List.drop_drop]
    congr 1
    omega
  rw [h2] at h1
  exact List.mem_of_mem_drop h1

theorem in_pages_cons (v : MergeVars) (i : Int)
    (hb : v.in_act_bufno i < v.in_last_buf i) :
    ∃ l, in_pages v i = v.sp.internal_memory (v.in_cur_bufaddr i) :: l := by
  unfold in_pages
  simp only
  rw [pages_seq_succ _ _ _ (by omega)]
  exact ⟨_, rfl⟩

/-- The last record of the active page of an input is behind the smallest
element of the input when that is not the last record of the page. -/
theorem last_record_greater (E : MergeEnv) (v : MergeVars) (i : Int) (hn : NodeOK E v i)
    (hlt : v.act_slot i < v.last_slot i - 1) :
    E.compare (v.data i) (E.key (slot_record (v.sp.internal_memory (v.in_cur_bufaddr i))
      (v.last_slot i - 1).toNat)) < 0 := by
  obtain ⟨l, hl⟩ := in_pages_cons v i hn.input.bufno.2.1
  apply hn.input.head
  unfold in_rest
  rw [hl]
  have h0 := hn.input.slot
  have hlast := hn.input.last
  apply slot_mem_drop
  · omega
  · rw [← hlast]; omega

theorem last_record_same (E : MergeEnv) (v : MergeVars) (i : Int) (hn : NodeOK E v i)
    (heq : v.act_slot i = v.last_slot i - 1) :
    v.data i = E.key (slot_record (v.sp.internal_memory (v.in_cur_bufaddr i))
      (v.last_slot i - 1).toNat) := by
  rw [hn.key, hn.small, heq]

/-- The new record of the input of the first node enters the list in the active
page of the input, and `last_elem_cmp` is not positive: it stays the first
node. -/
theorem enter_same_page (E : MergeEnv) (hE : EnvSift E) (v v1 v3 : MergeVars)
    (EM EM1 : List (List Byte)) (h : SORT_REC_LIST) (t : List SORT_REC_LIST)
    (hinv : RunLoopInv E v EM) (hl : v.sr_list = h :: t)
    (hpost : EmitPost E v v1 h.rec_pos EM1) (htail : TailInv E.compare v.data EM1 t)
    (hlow : ∀ l ∈ EM1, E.compare l (v.data h.rec_pos) ≤ 0)
    (hadv : AdvFrame v1 v3 h.rec_pos) (hnode : NodeOK E v3 h.rec_pos)
    (hklt : E.compare (v.data h.rec_pos) (v3.data h.rec_pos) < 0)
    (hle : v3.last_elem_cmp ≤ 0)
    (hsame : v3.last_elem_cmp = v1.last_elem_cmp ∧
      v1.act_slot h.rec_pos + 1 < v1.last_slot h.rec_pos ∧
      v3.act_slot h.rec_pos = v1.act_slot h.rec_pos + 1 ∧
      v3.last_slot h.rec_pos = v1.last_slot h.rec_pos ∧
      v3.in_cur_bufaddr h.rec_pos = v1.in_cur_bufaddr h.rec_pos ∧
      v3.sp.internal_memory = v1.sp.internal_memory) (d : Bool)
    (hd : d = decide (v3.act_slot h.rec_pos = v3.last_slot h.rec_pos - 1 ∧
      v3.last_elem_cmp = 0)) :
    RunLoopInv E { v3 with sr_list := { h with is_duplicated := d } :: t } EM1 ∧
      LoopFrame v { v3 with sr_list := { h with is_duplicated := d } :: t } := by
  obtain ⟨s1, s2, s3, s4, s5, s6⟩ := hsame
  have hcmp0 : v.last_elem_cmp = v3.last_elem_cmp := by rw [s1, hpost.last_elem_cmp]
  obtain ⟨h0, p, t0, hl0, hcmp⟩ := hinv.lc (by rw [hcmp0]; exact hle)
  rw [hl] at hl0
  simp only [List.cons.injEq] at hl0
  obtain ⟨e1, e2⟩ := hl0
  subst e1
  subst e2
  obtain ⟨hm0, hm1, _⟩ := hinv.nodes h (by rw [hl]; exact List.mem_cons_self _ _)
  have hnd : (v.sr_list.map (fun n => n.rec_pos)).Nodup := hinv.order.nodup
  rw [hl] at hnd
  simp only [List.map_cons] at hnd
  have hnd1 := (List.nodup_cons.1 hnd).1
  have hpmem : p ∈ v.sr_list := by
    rw [hl]; exact List.mem_cons_of_mem _ (List.mem_cons_self _ _)
  obtain ⟨hp0, hp1, _⟩ := hinv.nodes p hpmem
  have hpne : p.rec_pos ≠ h.rec_pos := by
    intro e
    exact hnd1 (by rw [← e]; exact List.mem_cons_self _ _)
  have hdp : v3.data p.rec_pos = v.data p.rec_pos :=
    emitted_data E v v1 v3 h.rec_pos EM1 hpost hadv p.rec_pos hp0 hp1 hpne
  -- the last record of the active page
  have hact : v.act_slot h.rec_pos + 1 < v.last_slot h.rec_pos := by
    rw [← hpost.act_slot, ← hpost.last_slot]; exact s2
  have hL : slot_record (v3.sp.internal_memory (v3.in_cur_bufaddr h.rec_pos))
      (v3.last_slot h.rec_pos - 1).toNat =
      slot_record (v.sp.internal_memory (v.in_cur_bufaddr h.rec_pos))
        (v.last_slot h.rec_pos - 1).toNat := by
    rw [s6, s5, s4, hpost.in_cur_bufaddr, hpost.last_slot]
    exact hpost.lastrec hact
  have hcmp3 : v3.last_elem_cmp = E.compare
      (E.key (slot_record (v3.sp.internal_memory (v3.in_cur_bufaddr h.rec_pos))
        (v3.last_slot h.rec_pos - 1).toNat)) (v3.data p.rec_pos) := by
    rw [← hcmp0, hcmp, hL, hdp]
  have hnew_le : E.compare (v3.data h.rec_pos) (v3.data p.rec_pos) ≤ 0 := by
    by_cases hs : v3.act_slot h.rec_pos = v3.last_slot h.rec_pos - 1
    · rw [last_record_same E v3 h.rec_pos hnode hs, ← hcmp3]; exact hle
    · have hs2 : v3.act_slot h.rec_pos < v3.last_slot h.rec_pos - 1 := by
        have := hnode.input.slot; omega
      have hlt1 := last_record_greater E v3 h.rec_pos hnode hs2
      rw [hcmp3] at hle
      exact le_of_lt (hE.order.lt_of_lt_of_le hlt1 hle)
  have hnew_lt : d = false → E.compare (v3.data h.rec_pos) (v3.data p.rec_pos) < 0 := by
    intro hdf
    rw [hd] at hdf
    have hdf2 := of_decide_eq_false hdf
    by_cases hs : v3.act_slot h.rec_pos = v3.last_slot h.rec_pos - 1
    · have hne0 : v3.last_elem_cmp ≠ 0 := fun e => hdf2 ⟨hs, e⟩
      rw [last_record_same E v3 h.rec_pos hnode hs, ← hcmp3]
      omega
    · have hs2 : v3.act_slot h.rec_pos < v3.last_slot h.rec_pos - 1 := by
        have := hnode.input.slot; omega
      have hlt1 := last_record_greater E v3 h.rec_pos hnode hs2
      rw [hcmp3] at hle
      exact hE.order.lt_of_lt_of_le hlt1 hle
  have htail3 : TailInv E.compare v3.data EM1 (p :: t0) :=
    TailInv_emitted E v v1 v3 v3 EM EM1 h (p :: t0) hinv hl hpost hadv ⟨rfl, rfl⟩ htail
  have horder : OrderInv E.compare v3.data EM1 ({ h with is_duplicated := d } :: p :: t0) := by
    refine OrderInv_enter E.compare hE.order v3.data EM1 { h with is_duplicated := d } p t0
      htail3 hnd1 ?_ hnew_le hnew_lt
    intro l hlm
    exact hE.order.lt_of_le_of_lt (hlow l hlm) hklt
  refine close_entered E v v1 v3 _ EM EM1 h (p :: t0) hinv hl hpost hadv hnode rfl
    (List.Perm.refl _) horder ?_
  intro _
  exact ⟨{ h with is_duplicated := d }, p, t0, rfl, hcmp3⟩

/-- The end of a pass of the loop after the input of the first node got its
next record. -/
theorem enter_record_spec (E : MergeEnv) (hE : EnvSift E) (v v1 v3 : MergeVars)
    (EM EM1 : List (List Byte)) (h : SORT_REC_LIST) (t : List SORT_REC_LIST)
    (hinv : RunLoopInv E v EM) (hl : v.sr_list = h :: t)
    (hpost : EmitPost E v v1 h.rec_pos EM1) (htail : TailInv E.compare v.data EM1 t)
    (hlow : ∀ l ∈ EM1, E.compare l (v.data h.rec_pos) ≤ 0)
    (hadv : AdvFrame v1 v3 h.rec_pos) (hnode : NodeOK E v3 h.rec_pos)
    (hklt : E.compare (v.data h.rec_pos) (v3.data h.rec_pos) < 0)
    (hsame : (v3.last_elem_cmp = v1.last_elem_cmp ∧
      v1.act_slot h.rec_pos + 1 < v1.last_slot h.rec_pos ∧
      v3.act_slot h.rec_pos = v1.act_slot h.rec_pos + 1 ∧
      v3.last_slot h.rec_pos = v1.last_slot h.rec_pos ∧
      v3.in_cur_bufaddr h.rec_pos = v1.in_cur_bufaddr h.rec_pos ∧
      v3.sp.internal_memory = v1.sp.internal_memory) ∨ v3.last_elem_cmp = 1) :
    (enter_record E v3 h t).Safe E (fun r => RunLoopInv E r.1 EM1 ∧
      LoopFrame v r.1 ∧ r.2 = true) := by
  have hpub3 : PubOK E v3.published := by
    rw [hadv.published]; exact hpost.emit_pub_ok
  unfold enter_record
  simp only
  by_cases hle : v3.last_elem_cmp ≤ 0
  · rw [if_pos hle]
    have hs : v3.last_elem_cmp = v1.last_elem_cmp ∧
        v1.act_slot h.rec_pos + 1 < v1.last_slot h.rec_pos ∧
        v3.act_slot h.rec_pos = v1.act_slot h.rec_pos + 1 ∧
        v3.last_slot h.rec_pos = v1.last_slot h.rec_pos ∧
        v3.in_cur_bufaddr h.rec_pos = v1.in_cur_bufaddr h.rec_pos ∧
        v3.sp.internal_memory = v1.sp.internal_memory := by
      rcases hsame with hs | hs
      · exact hs
      · omega
    obtain ⟨r1, r2⟩ := enter_same_page E hE v v1 v3 EM EM1 h t hinv hl hpost htail hlow hadv
      hnode hklt hle hs _ rfl
    exact ⟨r1, r2, rfl⟩
  · rw [if_neg hle]
    have hdf : decide (v3.act_slot h.rec_pos = v3.last_slot h.rec_pos - 1 ∧
        v3.last_elem_cmp = 0) = false := by
      apply decide_eq_false
      intro hc
      omega
    rw [hdf]
    have hnd : (v.sr_list.map (fun n => n.rec_pos)).Nodup := hinv.order.nodup
    rw [hl] at hnd
    simp only [List.map_cons] at hnd
    have hnd1 := (List.nodup_cons.1 hnd).1
    have htail3 : TailInv E.compare v3.data EM1 t :=
      TailInv_emitted E v v1 v3 v3 EM EM1 h t hinv hl hpost hadv ⟨rfl, rfl⟩ htail
    obtain ⟨ho, hperm⟩ := OrderInv_bubble E hE.order v3 EM1 { h with is_duplicated := false } t
      rfl htail3 hnd1 (fun l hlm => hE.order.lt_of_le_of_lt (hlow l hlm) hklt)
    have hfm : find_minimum E v3 ({ h with is_duplicated := false } :: t) =
        find_minimum_from E v3 { h with is_duplicated := false } t := rfl
    rw [hfm]
    generalize find_minimum_from E v3 { h with is_duplicated := false } t = fm at ho hperm ⊢
    have hclose : ∀ v4 : MergeVars,
        v4 = { v3 with sr_list := fm,
                       last_elem_ptr := v4.last_elem_ptr,
                       last_long_recdes := v4.last_long_recdes,
                       last_elem_cmp := v4.last_elem_cmp } →
        LCInv E v4 → RunLoopInv E v4 EM1 ∧ LoopFrame v v4 := by
      intro v4 h4 hlc
      have e_sr : v4.sr_list = fm := by
        rw [h4]
      have e_d : v4.data = v3.data := by rw [h4]; rfl
      refine close_entered E v v1 v3 v4 EM EM1 h t hinv hl hpost hadv hnode ?_ ?_ ?_ hlc
      · conv_lhs => rw [h4]
        rw [e_sr]
      · rw [e_sr]; exact hperm
      · rw [e_sr, e_d]; exact ho
    have hplain : RunLoopInv E { v3 with sr_list := fm } EM1 ∧
        LoopFrame v { v3 with sr_list := fm } := by
      apply hclose _ rfl
      intro hc
      exact absurd hc hle
    rcases fm with _ | ⟨h2, t2⟩
    · exact ⟨hplain.1, hplain.2, rfl⟩
    · simp only
      split_ifs
      · cases hlec : last_element_comparison E { v3 with sr_list := h2 :: t2 } with
        | stop w p =>
          simp only
          have := last_element_comparison_stop E _ w p hlec
          rw [this]
          exact hpub3
        | next v5 =>
          simp only
          obtain ⟨q1, q2, q3⟩ := last_element_comparison_spec E _ v5 hlec
          have e_sp : v5.sp = v3.sp := by rw [q1]
          have e_cb : v5.in_cur_bufaddr = v3.in_cur_bufaddr := by rw [q1]
          have e_ls : v5.last_slot = v3.last_slot := by rw [q1]
          have e_d : v5.data = v3.data := by rw [q1]; rfl
          have e_sr : v5.sr_list = h2 :: t2 := by rw [q1]
          have hc := hclose v5 (by
            conv_lhs => rw [q1]) (by
            intro hc5
            by_cases hform : ∃ m p t', h2 :: t2 = m :: p :: t'
            · obtain ⟨m, p, t', hm⟩ := hform
              refine ⟨m, p, t', by rw [e_sr, hm], ?_⟩
              rw [q2 m p t' hm, e_sp, e_cb, e_ls, e_d]
              rfl
            · have := q3 (fun m p t' hm => hform ⟨m, p, t', hm⟩)
              rw [this] at hc5
              exact absurd hc5 hle)
          exact ⟨hc.1, hc.2, rfl⟩
      · exact ⟨hplain.1, hplain.2, rfl⟩

/-- One pass of the loop that outputs the records of a run keeps the invariant
of the loop; when the loop ends, the list of the smallest elements is empty. -/
theorem merge_iteration_spec (E : MergeEnv) (hE : EnvSift E) (v : MergeVars)
    (EM : List (List Byte)) (hinv : RunLoopInv E v EM) :
    (merge_iteration E v).Safe E (fun r => ∃ EM1, RunLoopInv E r.1 EM1 ∧
      LoopFrame v r.1 ∧ (r.2 = false → r.1.sr_list = [])) := by
  unfold merge_iteration
  cases hl : v.sr_list with
  | nil => exact hinv.loop_pub_ok
  | cons h t =>
    simp only
    have hem := emit_record_spec E hE v EM hinv h t hl
    cases hemit : emit_record E v h with
    | stop w p =>
      rw [hemit] at hem
      exact hem
    | next v1 =>
      rw [hemit] at hem
      obtain ⟨EM1, hpost, htail, hlow, -⟩ := hem
      simp only
      unfold proceed_input
      simp only
      rcases advance_fetch_spec E v1 h.rec_pos (v.data h.rec_pos) hpost.input with
        ⟨a2, hadv, hlc1, hnp, -⟩ | ⟨a2, hf⟩
      · rw [a2]
        simp only [if_true]
        obtain ⟨r1, r2⟩ := close_done E v v1 EM EM1 h t hinv hl hpost htail a2 hadv hlc1 hnp
        cases t with
        | nil => exact ⟨EM1, r1, r2, fun _ => rfl⟩
        | cons p t' => exact ⟨EM1, r1, r2, fun hc => by cases hc⟩
      · rw [a2]
        simp only [Bool.false_eq_true, if_false]
        cases hfs : fetch_smallest E (advance_input v1 h.rec_pos).1 h.rec_pos with
        | stop w p =>
          simp only
          rw [fetch_smallest_stop E _ _ w p hfs, advance_input_published]
          exact hpost.emit_pub_ok
        | next v3 =>
          simp only
          obtain ⟨hadv, hnode, hklt, hsame, -⟩ := hf v3 hfs
          refine Step.Safe.mono E _ _ ?_ _
            (enter_record_spec E hE v v1 v3 EM EM1 h t hinv hl hpost htail hlow hadv hnode
              hklt hsame)
          rintro r ⟨q1, q2, q3⟩
          exact ⟨EM1, q1, q2, fun hc => by rw [q3] at hc; cases hc⟩

/-- The loop that outputs the records of a run: the records published are in
strictly ascending order whenever it stops, and when it ends the invariant holds
with an empty list of the smallest elements. -/
theorem output_loop_spec (E : MergeEnv) (hE : EnvSift E) (fuel : Nat) :
    ∀ (v : MergeVars) (EM : List (List Byte)), RunLoopInv E v EM →
    (merge_loop E fuel v).Safe E (fun v1 => ∃ EM1, RunLoopInv E v1 EM1 ∧
      LoopFrame v v1 ∧ v1.sr_list = []) := by
  induction fuel with
  | zero =>
    intro v EM hinv
    exact hinv.loop_pub_ok
  | succ n ih =>
    intro v EM hinv
    unfold merge_loop
    have hit := merge_iteration_spec E hE v EM hinv
    cases hm : merge_iteration E v with
    | stop w p =>
      rw [hm] at hit
      exact hit
    | next r =>
      rw [hm] at hit
      obtain ⟨EM1, q1, q2, q3⟩ := hit
      obtain ⟨v1, b⟩ := r
      cases b with
      | true =>
        simp only
        refine Step.Safe.mono E _ _ ?_ _ (ih v1 EM1 q1)
        rintro v2 ⟨EM2, r1, r2, r3⟩
        exact ⟨EM2, r1, LoopFrame_trans q2 r2, r3⟩
      | false =>
        simp only
        exact ⟨EM1, q1, q2, q3 rfl⟩

/-! ### The start and the end of a run -/

theorem node_establish_first (E : MergeEnv) (w v3 : MergeVars) (min : Int)
    (hasc : KeyAsc E ((recs_of (in_pages w min)).drop (w.act_slot min).toNat))
    (hbuf : 0 ≤ w.in_act_bufno min ∧ w.in_act_bufno min < w.in_last_buf min ∧
      w.in_last_buf min ≤ w.in_sectsize)
    (haddr : w.in_cur_bufaddr min = w.in_sectaddr min + w.in_act_bufno min)
    (hlast : w.last_slot min =
      sort_spage_get_numrecs (w.sp.internal_memory (w.in_cur_bufaddr min)))
    (hnp : 0 ≤ (w.sp.file_contents (w.sp.in_half + min)).num_pages
      (w.sp.file_contents (w.sp.in_half + min)).first_run)
    (hpages : ∀ pg ∈ in_pages w min, PageInv E.env E.MAX_ALIGNMENT pg)
    (hf : fetch_smallest E w min = Step.next v3) :
    NodeOK E v3 min ∧ (recs_of (in_pages w min)).drop (w.act_slot min).toNat =
      v3.smallest_elem_ptr min :: in_rest v3 min := by
  obtain ⟨f1, f2, f3, f4, _, f6⟩ := fetch_smallest_spec E w v3 min hf
  have e_sp : v3.sp = w.sp := by rw [f6]
  have e_cp : v3.cur_page = w.cur_page := by rw [f6]
  have e_ab : v3.in_act_bufno = w.in_act_bufno := by rw [f6]
  have e_lb : v3.in_last_buf = w.in_last_buf := by rw [f6]
  have e_as : v3.act_slot = w.act_slot := by rw [f6]
  have e_ls : v3.last_slot = w.last_slot := by rw [f6]
  have e_cb : v3.in_cur_bufaddr = w.in_cur_bufaddr := by rw [f6]
  have e_sa : v3.in_sectaddr = w.in_sectaddr := by rw [f6]
  have e_ss : v3.in_sectsize = w.in_sectsize := by rw [f6]
  have hp : in_pages v3 min = in_pages w min := by
    unfold in_pages; rw [e_sp, e_cp, e_cb, e_lb, e_ab]
  obtain ⟨l, hl⟩ := in_pages_cons w min hbuf.2.1
  have hpg : PageInv E.env E.MAX_ALIGNMENT (w.sp.internal_memory (w.in_cur_bufaddr min)) :=
    hpages _ (by rw [hl]; exact List.mem_cons_self _ _)
  have hsplit := recs_of_drop_slot (w.sp.internal_memory (w.in_cur_bufaddr min)) l
    (w.act_slot min).toNat (by omega)
  rw [← hl] at hsplit
  have hr3 : in_rest v3 min = (recs_of (in_pages w min)).drop ((w.act_slot min).toNat + 1) := by
    unfold in_rest; rw [hp, e_as]
  have hrun : (recs_of (in_pages w min)).drop (w.act_slot min).toNat =
      v3.smallest_elem_ptr min :: in_rest v3 min := by
    rw [hsplit, ← hr3, ← f3]
  rw [hsplit, ← hr3, ← f3] at hasc
  have hkey : v3.data min = E.key (v3.smallest_elem_ptr min) := f4
  have hasc' := List.pairwise_cons.1 hasc
  refine ⟨⟨⟨?_, ?_, ?_, ?_, ?_, ?_, hasc'.2, ?_⟩, ?_, hkey⟩, hrun⟩
  · rw [e_ab, e_lb, e_ss]; exact hbuf
  · rw [e_cb, e_sa, e_ab]; exact haddr
  · rw [e_as, e_ls, hlast]
    unfold sort_spage_get_numrecs
    rw [hpg.nrecs]
    exact ⟨f1, f2⟩
  · rw [e_ls, e_cb, e_sp, hlast]
    unfold sort_spage_get_numrecs
    exact hpg.nrecs
  · rw [e_sp]; exact hnp
  · rw [hp]; exact hpages
  · intro r hr
    rw [hkey]
    exact hasc'.1 r hr
  · rw [f3, e_sp, e_cb, e_as]

theorem RunsInv_frame (E : MergeEnv) (v v1 : MergeVars) (f : Int) (hf : SameFile v v1 f)
    (h : RunsInv E v f) : RunsInv E v1 f := by
  unfold RunsInv at h ⊢
  rw [hf.contents, hf.cur_page, hf.temp]
  exact h

theorem RunsInv_rest (E : MergeEnv) (v : MergeVars) (f : Int) (h : RunsInv E v f) :
    RestInv E v f := by
  unfold RunsInv at h
  unfold RestInv
  rcases h with h | ⟨h1, h2, _, q, h4⟩
  · exact Or.inl h
  · refine Or.inr ⟨h1, h2, q, ?_⟩
    have e : ((v.sp.file_contents f).last_run - (v.sp.file_contents f).first_run + 1).toNat =
        ((v.sp.file_contents f).last_run - (v.sp.file_contents f).first_run).toNat + 1 := by
      omega
    rw [e] at h4
    simp only [RunsTo] at h4
    exact h4.2.2

theorem LoopFrame_of_adv (v v1 : MergeVars) (min : Int) (hl : Layout v) (hm0 : 0 ≤ min)
    (hm1 : min < v.act_infiles) (h : AdvFrame v v1 min) : LoopFrame v v1 := by
  have hhf := hl.act.2
  refine ⟨h.static, ?_, ?_, ?_, ?_⟩
  · intro f
    by_cases e : f = v.sp.in_half + min
    · rw [e]; exact h.first_run
    · rw [(h.files f e).1]
  · intro f
    by_cases e : f = v.sp.in_half + min
    · rw [e]; exact h.last_run
    · rw [(h.files f e).1]
  · intro f k hk
    by_cases e : f = v.sp.in_half + min
    · rw [e] at hk ⊢; exact h.num_pages k hk
    · rw [(h.files f e).1]
  · intro i hi hi2
    have hne : v.out_half + i ≠ v.sp.in_half + min :=
      Ne.symm (in_file_ne_out_file v hl min i hm0 (by omega) hi hi2)
    exact (h.files _ hne).1

theorem read_input_section_frame (v : MergeVars) (i : Int) :
    AdvFrame v (read_input_section v i) i := by
  unfold read_input_section
  refine AdvFrame.mk ⟨rfl, rfl, rfl, rfl, rfl, rfl, rfl, rfl, rfl, rfl, rfl, rfl⟩ rfl
    ?_ ?_ ?_ ?_ ?_ ?_ ?_ rfl rfl rfl rfl rfl
  · intro b hb
    show (if _ then _ else _) = _
    rw [if_neg]
    intro hc
    apply hb
    refine ⟨hc.1, ?_⟩
    have := hc.2
    split_ifs at this <;> omega
  · intro f hf'
    exact ⟨by simp only [aset_other _ _ _ _ hf']; rfl,
      by simp only [aset_other _ _ _ _ hf']⟩
  · simp only [aset_same]; rfl
  · simp only [aset_same]; rfl
  · intro k' hk'
    simp only [aset_same]
    exact aset_other _ _ _ _ hk'
  · simp only [aset_same, sort_read_area]
    split_ifs <;> omega
  · intro j hj
    simp only [aset_other _ _ _ _ hj, and_self]

theorem read_input_pages (v : MergeVars) (i : Int) (hss : 1 ≤ v.in_sectsize)
    (hnp : 1 ≤ (v.sp.file_contents (v.sp.in_half + i)).num_pages
      (v.sp.file_contents (v.sp.in_half + i)).first_run) :
    in_pages (read_input_section v i) i =
      pages_seq (v.sp.temp (v.sp.in_half + i)) (v.cur_page (v.sp.in_half + i))
        ((v.sp.file_contents (v.sp.in_half + i)).num_pages
          (v.sp.file_contents (v.sp.in_half + i)).first_run) := by
  obtain ⟨rp, hrp⟩ : ∃ rp, rp = (if v.in_sectsize <
      (v.sp.file_contents (v.sp.in_half + i)).num_pages
        (v.sp.file_contents (v.sp.in_half + i)).first_run then v.in_sectsize
    else (v.sp.file_contents (v.sp.in_half + i)).num_pages
      (v.sp.file_contents (v.sp.in_half + i)).first_run) := ⟨_, rfl⟩
  have hrp1 : 0 < rp ∧ rp ≤ v.in_sectsize ∧
      rp ≤ (v.sp.file_contents (v.sp.in_half + i)).num_pages
        (v.sp.file_contents (v.sp.in_half + i)).first_run := by
    rw [hrp]; split_ifs <;> omega
  have e_mem : ∀ b, (read_input_section v i).sp.internal_memory b =
      if v.in_sectaddr i ≤ b ∧ b < v.in_sectaddr i + rp then
        v.sp.temp (v.sp.in_half + i) (v.cur_page (v.sp.in_half + i) + (b - v.in_sectaddr i))
      else v.sp.internal_memory b := by
    intro b; rw [hrp]; rfl
  have e1 : in_pages (read_input_section v i) i =
      pages_seq (read_input_section v i).sp.internal_memory (v.in_sectaddr i) rp ++
      pages_seq (v.sp.temp (v.sp.in_half + i)) (v.cur_page (v.sp.in_half + i) + rp)
        ((v.sp.file_contents (v.sp.in_half + i)).num_pages
          (v.sp.file_contents (v.sp.in_half + i)).first_run - rp) := by
    rw [hrp]
    unfold in_pages read_input_section sort_read_area
    simp only [aset_same, sub_zero]
  rw [e1]
  have e2 : pages_seq (read_input_section v i).sp.internal_memory (v.in_sectaddr i) rp =
      pages_seq (v.sp.temp (v.sp.in_half + i)) (v.cur_page (v.sp.in_half + i)) rp := by
    apply pages_seq_shift
    intro j h0 h1
    rw [e_mem, if_pos (by omega)]
    congr 1
    omega
  rw [e2, ← pages_seq_append _ _ _ _ (by omega) (by omega)]
  congr 1
  omega

/-- The first record of the current run of the input `i` after its input
section is read. -/
theorem read_input_node (E : MergeEnv) (v v2 : MergeVars) (i : Int) (hss : 1 ≤ v.in_sectsize)
    (hr : RunsInv E v (v.sp.in_half + i))
    (hne : (v.sp.file_contents (v.sp.in_half + i)).first_run ≠ -1)
    (hf : fetch_smallest E (read_input_section v i) i = Step.next v2) :
    NodeOK E v2 i ∧ run_records v i = v2.smallest_elem_ptr i :: in_rest v2 i := by
  unfold RunsInv at hr
  rcases hr with hr | ⟨h1, h2, hpos, q, hruns⟩
  · exact absurd hr hne
  · have e : ((v.sp.file_contents (v.sp.in_half + i)).last_run -
          (v.sp.file_contents (v.sp.in_half + i)).first_run + 1).toNat =
        ((v.sp.file_contents (v.sp.in_half + i)).last_run -
          (v.sp.file_contents (v.sp.in_half + i)).first_run).toNat + 1 := by omega
    rw [e] at hruns
    simp only [RunsTo] at hruns
    obtain ⟨_, ⟨hpg, hasc⟩, _⟩ := hruns
    have hnp := hpos _ (le_refl _) h2
    have hp := read_input_pages v i hss hnp
    have hrp1 : 0 < (read_input_section v i).in_last_buf i ∧
        (read_input_section v i).in_last_buf i ≤ v.in_sectsize ∧
        (read_input_section v i).in_last_buf i ≤
          (v.sp.file_contents (v.sp.in_half + i)).num_pages
            (v.sp.file_contents (v.sp.in_half + i)).first_run := by
      unfold read_input_section
      simp only [aset_same]
      split_ifs <;> omega
    have e1 : ((read_input_section v i).act_slot i).toNat = 0 := by
      unfold read_input_section; simp only [aset_same]; rfl
    have hne1 := node_establish_first E (read_input_section v i) v2 i ?_ ?_ ?_ ?_ ?_ ?_ hf
    · refine ⟨hne1.1, ?_⟩
      have := hne1.2
      rw [hp, e1, List.drop_zero] at this
      exact this
    · rw [hp, e1, List.drop_zero]
      exact hasc
    · refine ⟨?_, ?_, hrp1.2.1⟩
      · unfold read_input_section; simp only [aset_same]; omega
      · have : (read_input_section v i).in_act_bufno i = 0 := by
          unfold read_input_section; simp only [aset_same]
        rw [this]; exact hrp1.1
    · unfold read_input_section; simp only [aset_same]; omega
    · unfold read_input_section; simp only [aset_same]
    · have : (read_input_section v i).sp.in_half = v.sp.in_half := rfl
      rw [this]
      have hfr : ((read_input_section v i).sp.file_contents (v.sp.in_half + i)).first_run =
          (v.sp.file_contents (v.sp.in_half + i)).first_run :=
        (read_input_section_frame v i).first_run
      have htot := (read_input_section_frame v i).total
      rw [hfr]
      have hcp : (read_input_section v i).cur_page (v.sp.in_half + i) =
          v.cur_page (v.sp.in_half + i) + (read_input_section v i).in_last_buf i := by
        unfold read_input_section; simp only [aset_same]
      omega
    · rw [hp]; exact hpg

theorem InitInv_start (E : MergeEnv) (v0 : MergeVars) : InitInv E v0 v0 0 :=
  ⟨LoopFrame_refl v0, rfl, fun _ h0 h1 => absurd h1 (by omega),
    fun _ h0 h1 => absurd h1 (by omega),
    fun _ h0 h1 => absurd h1 (by omega), fun _ _ _ => SameFile_refl _ _,
    fun _ _ _ => SameFile_refl _ _, rfl, rfl⟩

theorem init_input_step (E : MergeEnv) (v0 v v2 : MergeVars) (i : Int)
    (hs0 : RunStartInv E v0) (hinv : InitInv E v0 v i) (hi0 : 0 ≤ i)
    (hi1 : i < v0.act_infiles)
    (hf : fetch_smallest E (read_input_section v i) i = Step.next v2) :
    InitInv E v0 v2 (i + 1) := by
  have hst := hinv.frame.static
  have hl : Layout v := Layout_frame v0 v hst hs0.layout
  have hih : v.sp.in_half = v0.sp.in_half := hst.in_half
  have hoh : v.out_half = v0.out_half := hst.out_half
  have hact : v.act_infiles = v0.act_infiles := hst.act_infiles
  have hhf : v.sp.half_files = v0.sp.half_files := hst.half_files
  have hile : v0.act_infiles ≤ v0.sp.half_files := hs0.layout.act.2
  have hadv : AdvFrame v v2 i :=
    AdvFrame_of_fetch E v _ v2 i hf (read_input_section_frame v i)
  have hruns : RunsInv E v (v.sp.in_half + i) := by
    rw [hih]
    exact RunsInv_frame E v0 v _ (hinv.todo i (le_refl _) (by omega))
      (hs0.inputs i hi0 (by omega))
  have hne : (v.sp.file_contents (v.sp.in_half + i)).first_run ≠ -1 := by
    rw [hinv.frame.first_run, hih]
    exact hs0.active i hi0 hi1
  obtain ⟨hnode, hrun⟩ := read_input_node E v v2 i hl.sectsize hruns hne hf
  refine ⟨LoopFrame_trans hinv.frame (LoopFrame_of_adv v v2 i hl hi0 (by omega) hadv),
    hadv.temp.trans hinv.temp, ?_, ?_, ?_, ?_, ?_, hadv.published.trans hinv.published,
    hadv.sr_list.trans hinv.sr_list⟩
  · intro j hj0 hj1
    by_cases e : j = i
    · rw [e]; exact hnode
    · exact NodeOK_frame E v v2 j hadv.static
        (hadv.same_input hl hi0 (by omega) j hj0 (by omega) e)
        (hadv.same_file _ (by omega)) (hinv.nodes j hj0 (by omega))
  · intro j hj0 hj1
    by_cases e : j = i
    · rw [e, ← hrun]
      have hsf := hinv.todo i (le_refl _) (by omega)
      unfold run_records
      rw [hih, hsf.contents, hsf.cur_page, hsf.temp]
    · have hsi := hadv.same_input hl hi0 (by omega) j hj0 (by omega) e
      have hnj := hinv.nodes j hj0 (by omega)
      rw [hinv.runs j hj0 (by omega), hsi.smallest_elem_ptr,
        in_rest_frame v v2 j hadv.static hsi (hadv.same_file _ (by omega))
          ⟨hnj.input.bufno.1, hnj.input.bufno.2.2⟩ hnj.input.addr]
  · intro j hj0 hj1
    by_cases e : j = i
    · rw [e]
      have := RestInv_adv E v v2 i hadv (RunsInv_rest E v _ hruns)
      rw [hih] at this
      exact this
    · exact RestInv_frame E v v2 _ (hadv.same_file _ (by omega)) (hinv.rest j hj0 (by omega))
  · intro j hj0 hj1
    exact SameFile_trans (hinv.todo j (by omega) hj1) (hadv.same_file _ (by omega))
  · intro j hj0 hj1
    refine SameFile_trans (hinv.outs j hj0 hj1) (hadv.same_file _ ?_)
    have := in_file_ne_out_file v0 hs0.layout i j hi0 (by omega) hj0 hj1
    rw [hih]
    exact Ne.symm this

theorem read_input_section_published (v : MergeVars) (i : Int) :
    (read_input_section v i).published = v.published := rfl

/-- The loop that reads the input sections: every active input gets its
smallest element. -/
theorem init_input_sections_spec (E : MergeEnv) (v0 : MergeVars) (hs0 : RunStartInv E v0) :
    ∀ (n : Nat) (v : MergeVars) (i : Int), InitInv E v0 v i → 0 ≤ i → i ≤ v0.act_infiles →
      v0.act_infiles ≤ i + n →
      (init_input_sections E n v i).Safe E (fun v2 => InitInv E v0 v2 v0.act_infiles) := by
  intro n
  induction n with
  | zero =>
    intro v i hinv _ h1 h2
    have : i = v0.act_infiles := by omega
    rw [← this]
    exact hinv
  | succ n ih =>
    intro v i hinv h0 h1 h2
    unfold init_input_sections
    have hact : v.act_infiles = v0.act_infiles := hinv.frame.static.act_infiles
    by_cases hc : i < v.act_infiles
    · rw [if_pos hc]
      cases hf : fetch_smallest E (read_input_section v i) i with
      | stop w p =>
        simp only
        rw [fetch_smallest_stop E _ _ w p hf, read_input_section_published, hinv.published,
          hs0.published]
        exact PubOK_nil E
      | next v2 =>
        simp only
        exact ih v2 (i + 1) (init_input_step E v0 v v2 i hs0 hinv h0 (by omega) hf)
          (by omega) (by omega) (by push_cast at h2; omega)
    · rw [if_neg hc]
      have : i = v0.act_infiles := by omega
      rw [← this]
      exact hinv

theorem sr_list_init_positions (a : Int) (h : 2 ≤ a) (i : Int) :
    i ∈ (sr_list_init a).map (fun n => n.rec_pos) ↔ 0 ≤ i ∧ i < a := by
  unfold sr_list_init
  rw [if_pos (by omega)]
  simp only [List.map_map, List.mem_map, List.mem_range, Function.comp]
  constructor
  · rintro ⟨k, hk, rfl⟩
    omega
  · rintro ⟨h0, h1⟩
    exact ⟨i.toNat, by omega, by omega⟩

/-- The start of a run establishes the invariant of the loop that outputs its
records. -/
theorem start_run_spec (E : MergeEnv) (hE : EnvSift E) (v1 : MergeVars)
    (hs : RunStartInv E v1) :
    (start_run E v1).Safe E (fun v4 => RunLoopInv E v4 [] ∧ LoopFrame v1 v4) := by
  unfold start_run
  have hinit := init_input_sections_spec E v1 hs v1.act_infiles.toNat v1 0
    (InitInv_start E v1) (le_refl _) (by have := hs.act; omega) (by have := hs.act; omega)
  cases hi : init_input_sections E v1.act_infiles.toNat v1 0 with
  | stop w p =>
    rw [hi] at hinit
    exact hinit
  | next v2 =>
    rw [hi] at hinit
    simp only
    have hinv : InitInv E v1 v2 v1.act_infiles := hinit
    have hst := hinv.frame.static
    have hact : v2.act_infiles = v1.act_infiles := hst.act_infiles
    obtain ⟨ho, hperm⟩ := sr_list_init_order E hE.order v2 v2.act_infiles
    obtain ⟨l1, hl1⟩ : ∃ l1, l1 = sr_list_find_duplicate E v2
        (sr_list_sort E v2 (sr_list_init v2.act_infiles).length
          (sr_list_init v2.act_infiles)) := ⟨_, rfl⟩
    rw [← hl1] at ho hperm
    have hsl : start_list E v2 = { v2 with sr_list := l1, last_elem_cmp := 1 } := by
      rw [hl1]; rfl
    rw [hsl]
    have hpos : ∀ n ∈ l1, 0 ≤ n.rec_pos ∧ n.rec_pos < v1.act_infiles := by
      intro n hn
      have := hperm.subset (List.mem_map_of_mem (fun n => n.rec_pos) hn)
      rw [sr_list_init_positions _ (by rw [hact]; exact hs.act), hact] at this
      exact this
    have hpub2 : v2.published = [] := by rw [hinv.published, hs.published]
    cases hlec : last_element_comparison E { v2 with sr_list := l1, last_elem_cmp := 1 } with
    | stop w p =>
      simp only
      rw [last_element_comparison_stop E _ w p hlec]
      show PubOK E v2.published
      rw [hpub2]
      exact PubOK_nil E
    | next v3 =>
      simp only
      obtain ⟨q1, q2, q3⟩ := last_element_comparison_spec E _ v3 hlec
      have e_sp : v3.sp = v2.sp := by rw [q1]
      have e_sr : v3.sr_list = l1 := by rw [q1]
      have e_d : v3.data = v2.data := by rw [q1]; rfl
      -- the state the loop starts with
      obtain ⟨vF, hvF⟩ : ∃ vF : MergeVars, vF = start_output E v3 := ⟨_, rfl⟩
      rw [← hvF]
      show RunLoopInv E vF [] ∧ LoopFrame v1 vF
      have hs2F : SameStatic v2 vF := by
        rw [hvF, q1]
        exact ⟨rfl, rfl, rfl, rfl, rfl, rfl, rfl, rfl, rfl, rfl, rfl, rfl⟩
      have hs1F : SameStatic v1 vF := SameStatic_trans hst hs2F
      have hl2 : Layout v2 := Layout_frame v1 v2 hst hs.layout
      have hlF : Layout vF := Layout_frame v1 vF hs1F hs.layout
      have hmemF : ∀ b, vF.sp.internal_memory b =
          if v2.out_sectaddr ≤ b ∧ b < v2.out_sectaddr + v2.out_sectsize then
            sort_spage_initialize E.env (v2.sp.internal_memory b) E.UNANCHORED_KEEP_SEQUENCE
              E.MAX_ALIGNMENT
          else v2.sp.internal_memory b := by
        intro b; rw [hvF, q1]; rfl
      have hfileF : ∀ f, SameFile v2 vF f := by
        intro f; rw [hvF, q1]; exact ⟨rfl, rfl, rfl⟩
      have hinF : ∀ j, 0 ≤ j → j < v2.act_infiles → SameInput v2 vF j := by
        intro j hj0 hj1
        rw [hvF, q1]
        refine ⟨rfl, rfl, rfl, rfl, rfl, rfl, rfl, ?_⟩
        intro b hb1 hb2
        have hm := hmemF b
        rw [hvF, q1] at hm
        rw [hm, if_neg]
        intro hc
        exact section_out_disjoint v2 hl2 j hj0 hj1 b ⟨hb1, hb2⟩ hc.1
      have e_dF : vF.data = v2.data := by rw [hvF, q1]; rfl
      have e_srF : vF.sr_list = l1 := by rw [hvF]; exact e_sr
      have e_pubF : vF.published = [] := by rw [hvF, q1]; exact hpub2
      have hnodesF : ∀ n ∈ l1, NodeOK E vF n.rec_pos := by
        intro n hn
        obtain ⟨p0, p1⟩ := hpos n hn
        exact NodeOK_frame E v2 vF _ hs2F (hinF _ p0 (by omega)) (hfileF _)
          (hinv.nodes _ p0 p1)
      have hinitpg : ∀ b, PageInv E.env E.MAX_ALIGNMENT
          ( sort_spage_initialize E.env (v2.sp.internal_memory b) E.UNANCHORED_KEEP_SEQUENCE
            E.MAX_ALIGNMENT) ∧
          page_records ( sort_spage_initialize E.env (v2.sp.internal_memory b)
            E.UNANCHORED_KEEP_SEQUENCE E.MAX_ALIGNMENT) = [] :=
        fun b => ⟨initialize_inv E.env hE.env _ _ _ hE.align,
          page_records_initialize E.env hE.env _ _ _ hE.align⟩
      have e_oa : vF.out_sectaddr = v2.out_sectaddr := hs2F.out_sectaddr
      have e_os : vF.out_sectsize = v2.out_sectsize := hs2F.out_sectsize
      have e_ab : vF.out_act_bufno = 0 := by rw [hvF]; rfl
      have e_rs : vF.out_runsize = 0 := by rw [hvF]; rfl
      have e_cb : vF.out_cur_bufaddr = v2.out_sectaddr := by rw [hvF, q1]; rfl
      have hosz : 1 ≤ v2.out_sectsize := hl2.out_size
      refine ⟨⟨hlF, ?_, ?_, ?_, ?_, ?_, ?_, ?_, ?_⟩, ?_⟩
      · intro n hn
        rw [e_srF] at hn
        obtain ⟨p0, p1⟩ := hpos n hn
        exact ⟨p0, by rw [hs1F.act_infiles]; exact p1, hnodesF n hn⟩
      · rw [e_srF, e_dF]; exact ho
      · intro hle
        by_cases hform : ∃ m p t, l1 = m :: p :: t
        · obtain ⟨m, p, t, hm⟩ := hform
          refine ⟨m, p, t, by rw [e_srF, hm], ?_⟩
          have hmn : m ∈ l1 := by rw [hm]; exact List.mem_cons_self _ _
          obtain ⟨p0, p1⟩ := hpos m hmn
          have hnd := hinv.nodes _ p0 p1
          have hsi := hinF m.rec_pos p0 (by omega)
          have e1 : vF.last_elem_cmp = v3.last_elem_cmp := by rw [hvF]; rfl
          rw [e1, q2 m p t hm, e_dF, hsi.in_cur_bufaddr, hsi.last_slot,
            hsi.memory _ (by have := hnd.input.addr; have := hnd.input.bufno; omega)
              (by have := hnd.input.addr; have := hnd.input.bufno; omega)]
          rfl
        · have := q3 (fun m p t hm => hform ⟨m, p, t, hm⟩)
          have e1 : vF.last_elem_cmp = 1 := by rw [hvF, this]; rfl
          rw [e1] at hle
          omega
      · intro _
        exact ⟨by rw [e_pubF]; exact PubOK_nil E, by rw [e_pubF]; rfl⟩
      · intro _
        have hop : out_pages vF = [vF.sp.internal_memory v2.out_sectaddr] := by
          unfold out_pages
          rw [e_rs, e_ab, e_oa, pages_seq_nonpos _ _ _ (le_refl _), List.nil_append]
          exact pages_seq_one _ _
        have hpg0 : vF.sp.internal_memory v2.out_sectaddr =
            sort_spage_initialize E.env (v2.sp.internal_memory v2.out_sectaddr)
              E.UNANCHORED_KEEP_SEQUENCE E.MAX_ALIGNMENT := by
          rw [hmemF, if_pos (by omega)]
        have hrec : recs_of (out_pages vF) = [] := by
          rw [hop, recs_of_cons, recs_of_nil, hpg0, (hinitpg _).2]
          rfl
        refine ⟨by rw [e_ab, e_os]; omega, by rw [e_cb, e_oa, e_ab]; omega,
          by rw [e_rs], ?_, ?_, by rw [hrec]; exact List.Pairwise.nil, by rw [hrec]; rfl,
          e_pubF⟩
        · intro pg hpg
          rw [hop] at hpg
          simp only [List.mem_singleton] at hpg
          rw [hpg, hpg0]
          exact (hinitpg _).1
        · intro b hb1 hb2
          rw [e_cb] at hb1
          rw [e_oa, e_os] at hb2
          rw [hmemF, if_pos (by omega)]
          exact hinitpg b
      · intro i hi0 hi1
        rw [hs1F.half_files] at hi1
        rw [hs1F.in_half]
        refine RestInv_frame E v2 vF _ (hfileF _) ?_
        by_cases hc : i < v1.act_infiles
        · exact hinv.rest i hi0 hc
        · exact RestInv_frame E v1 v2 _ (hinv.todo i (by omega) hi1)
            (RunsInv_rest E v1 _ (hs.inputs i hi0 hi1))
      · intro i hi0 hi1
        rw [hs1F.half_files] at hi1
        rw [hs1F.out_half, e_rs]
        have : (if v1.out_half + i = vF.cur_outfile then (0 : Int) else 0) = 0 := by
          split_ifs <;> rfl
        rw [this]
        exact OutFileInv_frame E v2 vF _ _ (hfileF _)
          (OutFileInv_frame E v1 v2 _ _ (hinv.outs i hi0 hi1) (hs.outfiles i hi0 hi1))
      · intro i hi0 hi1
        rw [hs1F.act_infiles] at hi1
        left
        have : i ∈ (sr_list_init v2.act_infiles).map (fun n => n.rec_pos) := by
          rw [sr_list_init_positions _ (by rw [hact]; exact hs.act), hact]
          exact ⟨hi0, hi1⟩
        have := hperm.symm.subset this
        rw [e_srF]
        simp only [List.mem_map] at this
        exact this
      · have h2F : LoopFrame v2 vF := by
          refine ⟨hs2F, ?_, ?_, ?_, ?_⟩
          · intro f; rw [(hfileF f).contents]
          · intro f; rw [(hfileF f).contents]
          · intro f k _; rw [(hfileF f).contents]
          · intro i _ _; rw [(hfileF _).contents]
        exact LoopFrame_trans hinv.frame h2F

theorem add_new_shape (fc fc1 : FILE_CONTENTS) (n : Int)
    (h : sort_run_add_new true fc n = some (true, fc1)) :
    fc1.first_run = (if fc.first_run = -1 then 0 else fc.first_run) ∧
    fc1.last_run = (if fc.first_run = -1 then 0 else fc.last_run + 1) ∧
    fc1.num_pages = (fun j => if j = fc1.last_run then n else fc.num_pages j) := by
  unfold sort_run_add_new sort_run_store at h
  by_cases he : fc.first_run = -1
  · simp only [he, if_true] at h ⊢
    split_ifs at h <;> simp only [Option.some.injEq, Prod.mk.injEq, true_and] at h <;>
      first
      | exact absurd h (by simp)
      | (subst h; exact ⟨rfl, rfl, rfl⟩)
  · simp only [he, if_false] at h ⊢
    split_ifs at h <;> simp only [Option.some.injEq, Prod.mk.injEq, true_and] at h <;>
      first
      | exact absurd h (by simp)
      | (subst h; exact ⟨rfl, rfl, rfl⟩)

theorem remove_first_runs_spec : ∀ (n : Nat) (sp : SortParam) (i : Int),
    (remove_first_runs n sp i).temp = sp.temp ∧
    (remove_first_runs n sp i).internal_memory = sp.internal_memory ∧
    (remove_first_runs n sp i).tot_buffers = sp.tot_buffers ∧
    (remove_first_runs n sp i).tot_tempfiles = sp.tot_tempfiles ∧
    (remove_first_runs n sp i).half_files = sp.half_files ∧
    (remove_first_runs n sp i).in_half = sp.in_half ∧
    ∀ f, (remove_first_runs n sp i).file_contents f =
      if i ≤ f ∧ f < i + n ∧ f < sp.in_half + sp.half_files then
        sort_run_remove_first (sp.file_contents f)
      else sp.file_contents f := by
  intro n
  induction n with
  | zero =>
    intro sp i
    refine ⟨rfl, rfl, rfl, rfl, rfl, rfl, ?_⟩
    intro f
    rw [if_neg (by push_cast; omega)]
    rfl
  | succ n ih =>
    intro sp i
    unfold remove_first_runs
    by_cases hc : i < sp.in_half + sp.half_files
    · rw [if_pos hc]
      obtain ⟨a1, a2, a3, a4, a5, a6, a7⟩ := ih
        { sp with file_contents := aset sp.file_contents i
                    (sort_run_remove_first (sp.file_contents i)) } (i + 1)
      refine ⟨a1, a2, a3, a4, a5, a6, ?_⟩
      intro f
      rw [a7 f]
      simp only
      by_cases e : f = i
      · rw [e, if_neg (by omega), if_pos (by push_cast; omega), aset_same]
      · rw [aset_other _ _ _ _ e]
        by_cases hr : i + 1 ≤ f ∧ f < i + 1 + (n : Int) ∧ f < sp.in_half + sp.half_files
        · rw [if_pos hr, if_pos (by push_cast; omega)]
        · rw [if_neg hr, if_neg (by push_cast; omega)]
    · rw [if_neg hc]
      refine ⟨rfl, rfl, rfl, rfl, rfl, rfl, ?_⟩
      intro f
      rw [if_neg (by omega)]

theorem RunsTo_snoc (E : MergeEnv) (pages : Int → Page) (num_pages : Int → Int) :
    ∀ (n : Nat) (k p q : Int), RunsTo E pages num_pages n k p q →
      0 ≤ num_pages (k + n) → RunOK E pages q (num_pages (k + n)) →
      RunsTo E pages num_pages (n + 1) k p (q + num_pages (k + n)) := by
  intro n
  induction n with
  | zero =>
    intro k p q h h0 hr
    simp only [RunsTo] at h ⊢
    subst h
    simp only [Nat.cast_zero, add_zero] at h0 hr ⊢
    exact ⟨h0, hr, trivial⟩
  | succ n ih =>
    intro k p q h h0 hr
    rw [RunsTo] at h
    obtain ⟨h1, h2, h3⟩ := h
    have e : k + ((n + 1 : Nat) : Int) = (k + 1) + (n : Int) := by push_cast; omega
    rw [e] at h0 hr ⊢
    have := ih (k + 1) (p + num_pages k) q h3 h0 hr
    rw [RunsTo]
    exact ⟨h1, h2, this⟩

theorem end_run_cases (v : MergeVars)
    (hco : ¬ (v.sp.in_half ≤ v.cur_outfile ∧ v.cur_outfile < v.sp.in_half + v.sp.half_files))
    (hhf : 0 ≤ v.sp.half_files) :
    (∃ k, end_run v = Step.stop k v.published) ∨
    (∃ w oc, end_run v = Step.next w ∧
      sort_run_add_new true (v.sp.file_contents v.cur_outfile) v.out_runsize = some (true, oc) ∧
      EndPost v w oc) := by
  unfold end_run
  simp only
  obtain ⟨a1, a2, a3, a4, a5, a6, a7⟩ := remove_first_runs_spec v.sp.half_files.toNat
    v.sp v.sp.in_half
  have e7 : (remove_first_runs v.sp.half_files.toNat v.sp
      v.sp.in_half).file_contents v.cur_outfile = v.sp.file_contents v.cur_outfile := by
    rw [a7, if_neg]
    intro hc
    exact hco ⟨hc.1, hc.2.2⟩
  rw [e7]
  cases hadd : sort_run_add_new true (v.sp.file_contents v.cur_outfile) v.out_runsize with
  | none => exact Or.inl ⟨_, rfl⟩
  | some r =>
    obtain ⟨b, oc⟩ := r
    cases b with
    | false => exact Or.inl ⟨_, rfl⟩
    | true =>
      refine Or.inr ⟨_, oc, rfl, rfl, ?_⟩
      refine ⟨a1, rfl, ?_, ?_, rfl, rfl⟩
      · intro f
        show aset _ _ _ f = _
        by_cases e : f = v.cur_outfile
        · rw [e, aset_same, if_pos rfl]
        · rw [aset_other _ _ _ _ e, if_neg e, a7]
          by_cases hr : v.sp.in_half ≤ f ∧ f < v.sp.in_half + v.sp.half_files
          · rw [if_pos hr, if_pos]
            refine ⟨hr.1, ?_, hr.2⟩
            have : ((v.sp.half_files.toNat : Nat) : Int) = v.sp.half_files := by omega
            rw [this]; exact hr.2
          · rw [if_neg hr, if_neg]
            intro hc
            exact hr ⟨hc.1, hc.2.2⟩
      · exact ⟨a3, a4, a5, a6, rfl, rfl, rfl, rfl, rfl, rfl, rfl, rfl⟩

/-- The run in the output file after the buffers of the output section in use
went to the file. -/
theorem final_flush_run (E : MergeEnv) (v : MergeVars) (EM : List (List Byte))
    (ho : OutInv E v EM) (hv : v.very_last_run = false) :
    RunOK E ((final_flush v).sp.temp v.cur_outfile)
      (v.cur_page v.cur_outfile - v.out_runsize) (final_flush v).out_runsize ∧
    (final_flush v).out_runsize = v.out_runsize + (v.out_act_bufno + 1) ∧
    (final_flush v).cur_page = aset v.cur_page v.cur_outfile
      (v.cur_page v.cur_outfile + (v.out_act_bufno + 1)) ∧
    (∀ f p, ¬ (f = v.cur_outfile ∧ v.cur_page v.cur_outfile ≤ p) →
      (final_flush v).sp.temp f p = v.sp.temp f p) ∧
    (final_flush v).sp.file_contents = v.sp.file_contents ∧
    (final_flush v).published = v.published ∧
    SameStatic v (final_flush v) := by
  have hb := ho.bufno
  have hr := ho.runsize
  have htemp : ∀ f p, (final_flush v).sp.temp f p =
      if f = v.cur_outfile ∧ v.cur_page v.cur_outfile ≤ p ∧
          p < v.cur_page v.cur_outfile + (v.out_act_bufno + 1) then
        v.sp.internal_memory (v.out_sectaddr + (p - v.cur_page v.cur_outfile))
      else v.sp.temp f p := by
    intro f p; unfold final_flush; rw [if_pos hv]; rfl
  have e_rs : (final_flush v).out_runsize = v.out_runsize + (v.out_act_bufno + 1) := by
    unfold final_flush; rw [if_pos hv]
  refine ⟨?_, e_rs, by unfold final_flush; rw [if_pos hv], ?_,
    by unfold final_flush; rw [if_pos hv]; rfl, by unfold final_flush; rw [if_pos hv],
    by unfold final_flush; rw [if_pos hv]
       exact ⟨rfl, rfl, rfl, rfl, rfl, rfl, rfl, rfl, rfl, rfl, rfl, rfl⟩⟩
  · rw [e_rs]
    have hpages : pages_seq ((final_flush v).sp.temp v.cur_outfile)
        (v.cur_page v.cur_outfile - v.out_runsize) (v.out_runsize + (v.out_act_bufno + 1)) =
        out_pages v := by
      rw [pages_seq_append _ _ _ _ hr (by omega)]
      unfold out_pages
      congr 1
      · apply pages_seq_congr
        intro p hp1 hp2
        rw [htemp, if_neg (by omega)]
      · apply pages_seq_shift
        intro k hk0 hk1
        rw [htemp, if_pos ⟨rfl, by omega, by omega⟩]
        congr 1
        omega
    unfold RunOK
    rw [hpages]
    exact ⟨ho.pages, ho.asc⟩
  · intro f p hn
    rw [htemp, if_neg]
    intro hc
    exact hn ⟨hc.1, hc.2.1⟩

/-- The ledger and the runs of an input file after its first run, which is
read to its end, is removed. -/
theorem input_after_run (E : MergeEnv) (v1 v5 w : MergeVars) (f : Int)
    (hr1 : RunsInv E v1 f)
    (hfr : (v5.sp.file_contents f).first_run = (v1.sp.file_contents f).first_run)
    (hlr : (v5.sp.file_contents f).last_run = (v1.sp.file_contents f).last_run)
    (hnp : ∀ k, k ≠ (v1.sp.file_contents f).first_run →
      (v5.sp.file_contents f).num_pages k = (v1.sp.file_contents f).num_pages k)
    (hrest : RestInv E v5 f)
    (hdone : (v5.sp.file_contents f).first_run ≠ -1 →
      (v5.sp.file_contents f).num_pages (v5.sp.file_contents f).first_run = 0)
    (hw_fc : w.sp.file_contents f = sort_run_remove_first (v5.sp.file_contents f))
    (hw_temp : w.sp.temp f = v5.sp.temp f) (hw_cp : w.cur_page f = v5.cur_page f) :
    RunsInv E w f ∧
    sort_get_num_file_contents (w.sp.file_contents f) =
      (if (v1.sp.file_contents f).first_run = -1 then 0
        else sort_get_num_file_contents (v1.sp.file_contents f) - 1) ∧
    (sort_get_num_file_contents (v1.sp.file_contents f) ≤ 1 →
      (w.sp.file_contents f).first_run = -1) := by
  unfold RestInv at hrest
  unfold RunsInv at hr1 ⊢
  rw [hw_fc, hw_temp, hw_cp]
  by_cases he : (v5.sp.file_contents f).first_run = -1
  · have e1 : sort_run_remove_first (v5.sp.file_contents f) = v5.sp.file_contents f := by
      unfold sort_run_remove_first; rw [if_neg (by simpa using he)]
    rw [e1]
    refine ⟨Or.inl he, ?_, fun _ => he⟩
    unfold sort_get_num_file_contents
    rw [if_neg (by simpa using he), if_pos (by rw [← hfr]; exact he)]
  · rcases hrest with hrest | ⟨r1, r2, q, r3⟩
    · exact absurd hrest he
    · rcases hr1 with hr1 | ⟨s1, s2, spos, _⟩
      · rw [← hfr] at hr1; exact absurd hr1 he
      · have hz := hdone he
        have hne1 : (v1.sp.file_contents f).first_run ≠ -1 := by rw [← hfr]; exact he
        by_cases hc : (v5.sp.file_contents f).first_run + 1 > (v5.sp.file_contents f).last_run
        · have e1 : (sort_run_remove_first (v5.sp.file_contents f)).first_run = -1 := by
            unfold sort_run_remove_first; rw [if_pos he, if_pos hc]
          refine ⟨Or.inl e1, ?_, fun _ => e1⟩
          unfold sort_get_num_file_contents
          rw [if_neg (by simpa using e1), if_neg hne1, if_pos hne1]
          omega
        · have e1 : sort_run_remove_first (v5.sp.file_contents f) =
              { v5.sp.file_contents f with
                first_run := (v5.sp.file_contents f).first_run + 1 } := by
            unfold sort_run_remove_first; rw [if_pos he, if_neg hc]
          rw [e1]
          simp only
          refine ⟨Or.inr ⟨by omega, by omega, ?_, q, ?_⟩, ?_, ?_⟩
          · intro k hk1 hk2
            rw [hnp k (by omega)]
            exact spos k (by omega) (by omega)
          · have e2 : ((v5.sp.file_contents f).last_run -
                ((v5.sp.file_contents f).first_run + 1) + 1).toNat =
                ((v5.sp.file_contents f).last_run -
                  (v5.sp.file_contents f).first_run).toNat := by omega
            rw [e2]
            rw [hz, add_zero] at r3
            exact r3
          · unfold sort_get_num_file_contents
            simp only
            rw [if_pos (by omega), if_neg hne1, if_pos hne1]
            omega
          · intro hle
            unfold sort_get_num_file_contents at hle
            rw [if_pos hne1] at hle
            omega

/-- The ledger and the runs of an output file after a new run of `n` pages,
which lies behind its runs, enters its ledger. -/
theorem output_after_run (E : MergeEnv) (v w : MergeVars) (g extra n : Int)
    (oc : FILE_CONTENTS) (hout : OutFileInv E v g extra) (hpos : OutPos v g)
    (q1 : oc.first_run = (if (v.sp.file_contents g).first_run = -1 then 0
      else (v.sp.file_contents g).first_run))
    (q2 : oc.last_run = (if (v.sp.file_contents g).first_run = -1 then 0
      else (v.sp.file_contents g).last_run + 1))
    (q3 : oc.num_pages = (fun j => if j = oc.last_run then n
      else (v.sp.file_contents g).num_pages j))
    (hn : 1 ≤ n) (hrun : RunOK E (w.sp.temp g) (v.cur_page g - extra) n)
    (hw_fc : w.sp.file_contents g = oc)
    (hw_temp : ∀ p, p < v.cur_page g - extra → w.sp.temp g p = v.sp.temp g p)
    (hw_cp : w.cur_page g = v.cur_page g - extra + n) :
    OutFileInv E w g 0 ∧ OutPos w g ∧
    sort_get_num_file_contents oc = sort_get_num_file_contents (v.sp.file_contents g) + 1 := by
  unfold OutFileInv at hout ⊢
  unfold OutPos at hpos ⊢
  rw [hw_fc, hw_cp]
  rcases hout with ⟨h1, h2⟩ | ⟨h1, h2, h3⟩
  · rw [if_pos h1] at q1 q2
    have hnp : oc.num_pages 0 = n := by rw [q3]; simp only; rw [if_pos q2.symm]
    refine ⟨Or.inr ⟨q1, by omega, ?_⟩, ?_, ?_⟩
    · rw [q2]
      show RunsTo E (w.sp.temp g) oc.num_pages 1 0 0 _
      simp only [RunsTo]
      rw [hnp]
      rw [h2] at hrun
      exact ⟨by omega, hrun, by omega⟩
    · intro _ k hk0 hk1
      have : k = 0 := by omega
      rw [this, hnp]; exact hn
    · unfold sort_get_num_file_contents
      rw [if_pos (by omega), if_neg (by simpa using h1)]
      omega
  · have hne : (v.sp.file_contents g).first_run ≠ -1 := by omega
    rw [if_neg hne] at q1 q2
    have hnp : oc.num_pages ((v.sp.file_contents g).last_run + 1) = n := by
      rw [q3]; simp only; rw [if_pos q2.symm]
    refine ⟨Or.inr ⟨by omega, by omega, ?_⟩, ?_, ?_⟩
    · have e : (oc.last_run + 1).toNat = ((v.sp.file_contents g).last_run + 1).toNat + 1 := by
        omega
      rw [e]
      have hcong := RunsTo_congr E (v.sp.temp g) (w.sp.temp g) (v.sp.file_contents g).num_pages
        oc.num_pages _ 0 0 (v.cur_page g - extra) (fun j _ hj => hw_temp j hj)
        (fun j hj0 hj1 => by rw [q3]; simp only; rw [if_neg (by omega)]) h3
      have hidx : (0 : Int) + (((v.sp.file_contents g).last_run + 1).toNat : Int) =
          (v.sp.file_contents g).last_run + 1 := by omega
      have hs := RunsTo_snoc E (w.sp.temp g) oc.num_pages _ 0 0 (v.cur_page g - extra) hcong
        (by rw [hidx, hnp]; omega) (by rw [hidx, hnp]; exact hrun)
      rw [hidx, hnp] at hs
      have e2 : v.cur_page g - extra + n - 0 = v.cur_page g - extra + n := by omega
      rw [e2]
      exact hs
    · intro _ k hk0 hk1
      by_cases e : k = oc.last_run
      · rw [e, q2, hnp]; exact hn
      · rw [q3]; simp only; rw [if_neg e]
        exact hpos hne k hk0 (by omega)
    · unfold sort_get_num_file_contents
      rw [if_pos (by omega), if_pos hne]
      omega

theorem turn_step (hf m c : Int) (hc1 : c < hf) (i : Int) :
    turn_runs (if c + 1 ≥ hf then m + 1 else m) (if c + 1 ≥ hf then 0 else c + 1) i =
      turn_runs m c i + (if i = c then 1 else 0) ∨ ¬ (0 ≤ i ∧ i < hf) := by
  by_cases hi : 0 ≤ i ∧ i < hf
  · left
    unfold turn_runs
    split_ifs <;> omega
  · exact Or.inr hi

theorem out_file_not_input (v : MergeVars) (hl : Layout v) :
    ¬ (v.sp.in_half ≤ v.cur_outfile ∧ v.cur_outfile < v.sp.in_half + v.sp.half_files) := by
  have h1 := hl.outfile
  rcases hl.halves with ⟨a, b⟩ | ⟨a, b⟩ <;> omega

/-- The end of a run that is not the very last one. -/
theorem finish_more (E : MergeEnv) (v1 v5 : MergeVars) (EM : List (List Byte))
    (j k : Int) (hled : LedgerInv E v1 j k) (hlay : Layout v1)
    (hv : v1.very_last_run = false)
    (hact : v1.act_infiles = if j = 1 then k else v1.sp.half_files)
    (hfr : LoopFrame v1 v5) (hinv : RunLoopInv E v5 EM) (hnil : v5.sr_list = []) :
    (finish_run v5).Safe E (fun w => (j = 1 → PassEnd E w) ∧
      (2 ≤ j → PassInv E w (j - 1) k)) := by
  have hst := hfr.static
  have hv5 : v5.very_last_run = false := by rw [hst.very_last_run]; exact hv
  have ho := hinv.out hv5
  have hl5 : Layout v5 := hinv.layout
  obtain ⟨frun, frs, fcp, ftemp, ffc, fpub, fst⟩ := final_flush_run E v5 EM ho hv5
  have hl6 : Layout (final_flush v5) := Layout_frame v5 _ fst hl5
  have hj := hled.run
  have htwo := hled.two
  unfold finish_run
  rcases end_run_cases (final_flush v5) (out_file_not_input _ hl6)
      (by rw [fst.half_files, hst.half_files]; omega) with ⟨s, hs⟩ | ⟨w, oc, hw, hadd, hpost⟩
  · rw [hs]
    show PubOK E (final_flush v5).published
    rw [fpub, ho.published]
    exact PubOK_nil E
  · rw [hw]
    show (j = 1 → PassEnd E w) ∧ (2 ≤ j → PassInv E w (j - 1) k)
    rw [ffc, fst.cur_outfile, frs] at hadd
    obtain ⟨q1, q2, q3⟩ := add_new_shape _ _ _ hadd
    -- the variables that stay
    have e_ih : w.sp.in_half = v1.sp.in_half := by
      have := hpost.static.in_half
      rw [fst.in_half, hst.in_half] at this; exact this
    have e_oh : w.out_half = v1.out_half := by
      have := hpost.static.out_half
      rw [fst.out_half, hst.out_half] at this; exact this
    have e_hf : w.sp.half_files = v1.sp.half_files := by
      have := hpost.static.half_files
      rw [fst.half_files, hst.half_files] at this; exact this
    have e_tb : w.sp.tot_buffers = v1.sp.tot_buffers := by
      have := hpost.static.tot_buffers
      rw [fst.tot_buffers, hst.tot_buffers] at this; exact this
    have e_tt : w.sp.tot_tempfiles = v1.sp.tot_tempfiles := by
      have := hpost.static.tot_tempfiles
      rw [fst.tot_tempfiles, hst.tot_tempfiles] at this; exact this
    have e_vl : w.very_last_run = false := by
      have := hpost.static.very_last_run
      rw [fst.very_last_run] at this
      exact this.trans hv5
    have e_pub : w.published = [] := by rw [hpost.published, fpub, ho.published]
    have e_co5 : v5.cur_outfile = v1.cur_outfile := hst.cur_outfile
    have e_ih5 : v5.sp.in_half = v1.sp.in_half := hst.in_half
    have e_oh5 : v5.out_half = v1.out_half := hst.out_half
    have e_hf5 : v5.sp.half_files = v1.sp.half_files := hst.half_files
    have hco1 := hlay.outfile
    have hhalves := hlay.halves
    have e_cow : w.cur_outfile = if v1.cur_outfile + 1 ≥ v1.sp.half_files + v1.out_half
        then v1.out_half else v1.cur_outfile + 1 := by
      rw [hpost.cur_outfile, fst.cur_outfile, fst.half_files, fst.out_half, e_co5, e_hf5, e_oh5]
    have hfc : ∀ f, w.sp.file_contents f =
        if f = v1.cur_outfile then oc
        else if v1.sp.in_half ≤ f ∧ f < v1.sp.in_half + v1.sp.half_files then
          sort_run_remove_first (v5.sp.file_contents f)
        else v5.sp.file_contents f := by
      intro f
      rw [hpost.contents, ffc, fst.cur_outfile, fst.in_half, fst.half_files, e_co5, e_ih5, e_hf5]
    have htmp : ∀ f p, ¬ (f = v1.cur_outfile ∧ v5.cur_page v1.cur_outfile ≤ p) →
        w.sp.temp f p = v5.sp.temp f p := by
      intro f p hn
      rw [hpost.temp]
      exact ftemp f p (by rw [e_co5]; exact hn)
    have hcp : ∀ f, w.cur_page f = if f = v1.cur_outfile then
        v5.cur_page v1.cur_outfile + (v5.out_act_bufno + 1) else v5.cur_page f := by
      intro f
      rw [hpost.cur_page, fcp, e_co5]
      rfl
    -- the input files
    have hin : ∀ i, 0 ≤ i → i < v1.sp.half_files →
        RunsInv E w (v1.sp.in_half + i) ∧
        sort_get_num_file_contents (w.sp.file_contents (v1.sp.in_half + i)) =
          (if (v1.sp.file_contents (v1.sp.in_half + i)).first_run = -1 then 0
            else sort_get_num_file_contents (v1.sp.file_contents (v1.sp.in_half + i)) - 1) ∧
        (sort_get_num_file_contents (v1.sp.file_contents (v1.sp.in_half + i)) ≤ 1 →
          (w.sp.file_contents (v1.sp.in_half + i)).first_run = -1) := by
      intro i hi0 hi1
      have hne : v1.sp.in_half + i ≠ v1.cur_outfile := by
        rcases hhalves with ⟨a, b⟩ | ⟨a, b⟩ <;> omega
      have hlen := hled.len_in i hi0 hi1
      refine input_after_run E v1 v5 w _ (hled.runs_in i hi0 hi1) (hfr.first_run _)
        (hfr.last_run _) (hfr.num_pages _) ?_ ?_ ?_ ?_ ?_
      · have := hinv.rest i hi0 (by rw [e_hf5]; exact hi1)
        rw [e_ih5] at this
        exact this
      · intro hne5
        by_cases hia : i < v5.act_infiles
        · rcases hinv.done i hi0 hia with ⟨n, hn, _⟩ | hz
          · rw [hnil] at hn; cases hn
          · rw [e_ih5] at hz; exact hz
        · exfalso
          rw [hst.act_infiles, hact] at hia
          rw [hfr.first_run] at hne5
          unfold sort_get_num_file_contents at hlen
          rw [if_pos hne5] at hlen
          by_cases hj1 : j = 1
          · rw [if_pos hj1] at hia
            rw [if_neg (by omega)] at hlen
            have := hled.runs_in i hi0 hi1
            unfold RunsInv at this
            rcases this with h | ⟨_, h, _⟩
            · exact hne5 h
            · omega
          · rw [if_neg hj1] at hia
            omega
      · rw [hfc, if_neg hne, if_pos ⟨by omega, by omega⟩]
      · funext p
        exact htmp _ p (fun hc => hne hc.1)
      · rw [hcp, if_neg hne]
    -- the output files
    have hpos5 : ∀ i, 0 ≤ i → i < v1.sp.half_files → OutPos v5 (v1.out_half + i) := by
      intro i hi0 hi1
      have := (hled.outfiles i hi0 hi1).2
      unfold OutPos at this ⊢
      rw [hfr.outputs i hi0 hi1]
      exact this
    have hn1 : 1 ≤ v5.out_runsize + (v5.out_act_bufno + 1) := by
      have := ho.runsize; have := ho.bufno; omega
    have hout : ∀ i, 0 ≤ i → i < v1.sp.half_files →
        OutFileInv E w (v1.out_half + i) 0 ∧ OutPos w (v1.out_half + i) ∧
        sort_get_num_file_contents (w.sp.file_contents (v1.out_half + i)) =
          sort_get_num_file_contents (v1.sp.file_contents (v1.out_half + i)) +
            (if v1.out_half + i = v1.cur_outfile then 1 else 0) := by
      intro i hi0 hi1
      have hof := hinv.outfiles i hi0 (by rw [e_hf5]; exact hi1)
      rw [e_oh5, e_co5] at hof
      by_cases he : v1.out_half + i = v1.cur_outfile
      · rw [if_pos he] at hof ⊢
        rw [he] at hof ⊢
        have hp5 := hpos5 i hi0 hi1
        rw [he] at hp5
        rw [e_co5] at q1 q2 q3 frun
        have hwfc : w.sp.file_contents v1.cur_outfile = oc := by rw [hfc, if_pos rfl]
        obtain ⟨r1, r2, r3⟩ := output_after_run E v5 w v1.cur_outfile v5.out_runsize
          (v5.out_runsize + (v5.out_act_bufno + 1)) oc hof hp5 q1 q2 q3 hn1
          (by rw [hpost.temp, ← frs]; exact frun) hwfc
          (fun p hp => htmp _ p (fun hc => by have := ho.runsize; omega))
          (by rw [hcp, if_pos rfl]; omega)
        refine ⟨r1, r2, ?_⟩
        rw [hwfc, r3]
        have := hfr.outputs i hi0 hi1
        rw [he] at this
        rw [this]
      · rw [if_neg he] at hof ⊢
        have hni : ¬ (v1.sp.in_half ≤ v1.out_half + i ∧
            v1.out_half + i < v1.sp.in_half + v1.sp.half_files) := by
          rcases hhalves with ⟨a, b⟩ | ⟨a, b⟩ <;> omega
        have hsf : SameFile v5 w (v1.out_half + i) := by
          refine ⟨by rw [hfc, if_neg he, if_neg hni], by rw [hcp, if_neg he], ?_⟩
          funext p
          exact htmp _ p (fun hc => he hc.1)
        refine ⟨OutFileInv_frame E v5 w _ _ hsf hof, ?_, ?_⟩
        · have := hpos5 i hi0 hi1
          unfold OutPos at this ⊢
          rw [hsf.contents]
          exact this
        · rw [hsf.contents, hfr.outputs i hi0 hi1]
          omega
    -- the turn of the output files
    obtain ⟨m, c, hm0, hc0, hc1, hcc, hturn⟩ := hled.out_turn
    have hturn' : ∀ i, 0 ≤ i → i < v1.sp.half_files →
        sort_get_num_file_contents (w.sp.file_contents (v1.out_half + i)) =
          turn_runs (if c + 1 ≥ v1.sp.half_files then m + 1 else m)
            (if c + 1 ≥ v1.sp.half_files then 0 else c + 1) i := by
      intro i hi0 hi1
      rw [(hout i hi0 hi1).2.2, hturn i hi0 hi1]
      rcases turn_step v1.sp.half_files m c hc1 i with h | h
      · rw [h]
        congr 1
        rw [hcc]
        by_cases e : i = c
        · rw [if_pos e, if_pos (by omega)]
        · rw [if_neg e, if_neg (by omega)]
      · exact absurd ⟨hi0, hi1⟩ h
    have hcw : w.cur_outfile = v1.out_half +
        (if c + 1 ≥ v1.sp.half_files then 0 else c + 1) := by
      rw [e_cow, hcc]
      split_ifs <;> omega
    constructor
    · intro hj1
      right
      refine ⟨e_vl, e_pub, by rw [e_hf]; exact htwo, by rw [e_hf, e_tb]; exact hled.buffers,
        by rw [e_tt, e_hf]; exact hled.tempfiles, by rw [e_ih, e_oh, e_hf]; exact hhalves,
        ?_, ?_, ?_⟩
      · intro i hi0 hi1
        rw [e_hf] at hi1
        rw [e_oh]
        exact ⟨(hout i hi0 hi1).1, (hout i hi0 hi1).2.1⟩
      · refine ⟨(if c + 1 ≥ v1.sp.half_files then m + 1 else m),
          (if c + 1 ≥ v1.sp.half_files then 0 else c + 1), ?_, ?_, ?_, ?_⟩
        · split_ifs <;> omega
        · split_ifs <;> omega
        · rw [e_hf]
          split_ifs <;> omega
        · intro i hi0 hi1
          rw [e_hf] at hi1
          rw [e_oh]
          exact hturn' i hi0 hi1
      · intro i hi0 hi1
        rw [e_hf] at hi1
        rw [e_ih]
        apply (hin i hi0 hi1).2.2
        rw [hled.len_in i hi0 hi1, hj1]
        split_ifs <;> omega
    · intro hj2
      have hlw : Layout w := by
        have hL := Layout_frame v1 { w with cur_outfile := v1.cur_outfile }
          (SameStatic_trans hst
            (by
              have h6 := SameStatic_trans fst hpost.static
              rw [fst.cur_outfile, e_co5] at h6
              exact h6)) hlay
        refine ⟨hL.sectsize, hL.act, hL.in_addr, hL.out_addr, hL.out_size, hL.halves, ?_⟩
        rw [e_cow, e_oh, e_hf]
        split_ifs <;> omega
      refine ⟨⟨by omega, by rw [e_hf]; exact htwo, by rw [e_hf, e_tb]; exact hled.buffers,
        by rw [e_tt, e_hf]; exact hled.tempfiles, by rw [e_ih, e_oh, e_hf]; exact hhalves,
        by rw [e_hf]; exact hled.sizes, ?_, ?_, ?_, ?_, ?_, e_pub⟩, hlw, ?_, ?_⟩
      · intro i hi0 hi1
        rw [e_hf] at hi1
        rw [e_ih]
        exact (hin i hi0 hi1).1
      · intro i hi0 hi1
        rw [e_hf] at hi1
        rw [e_ih, (hin i hi0 hi1).2.1]
        have hlen := hled.len_in i hi0 hi1
        have hne : (v1.sp.file_contents (v1.sp.in_half + i)).first_run ≠ -1 := by
          intro hc
          unfold sort_get_num_file_contents at hlen
          rw [if_neg (by simpa using hc)] at hlen
          split_ifs at hlen <;> omega
        rw [if_neg hne, hlen]
        split_ifs <;> omega
      · intro i hi0 hi1
        rw [e_hf] at hi1
        rw [e_oh]
        exact ⟨(hout i hi0 hi1).1, (hout i hi0 hi1).2.1⟩
      · refine ⟨(if c + 1 ≥ v1.sp.half_files then m + 1 else m),
          (if c + 1 ≥ v1.sp.half_files then 0 else c + 1), ?_, ?_, ?_, ?_, ?_⟩
        · split_ifs <;> omega
        · split_ifs <;> omega
        · rw [e_hf]
          split_ifs <;> omega
        · rw [e_oh]; exact hcw
        · intro i hi0 hi1
          rw [e_hf] at hi1
          rw [e_oh]
          exact hturn' i hi0 hi1
      · intro hc
        rw [e_vl] at hc
        cases hc
      · intro _
        have h6 := hpost.static.act_infiles
        rw [fst.act_infiles, hst.act_infiles, hact, if_neg (by omega)] at h6
        rw [e_hf]
        exact h6
      · intro hc
        rw [e_vl] at hc
        cases hc

/-- The end of the very last run. -/
theorem finish_last (E : MergeEnv) (v1 v5 : MergeVars) (EM : List (List Byte))
    (j k : Int) (hled : LedgerInv E v1 j k) (hlay : Layout v1)
    (hv : v1.very_last_run = true)
    (hfr : LoopFrame v1 v5) (hinv : RunLoopInv E v5 EM) :
    (finish_run v5).Safe E (fun w => PassEnd E w) := by
  have hst := hfr.static
  have hv5 : v5.very_last_run = true := by rw [hst.very_last_run]; exact hv
  have hl5 : Layout v5 := hinv.layout
  have htwo := hled.two
  obtain ⟨_, _, hco, hempty⟩ := hled.last_out hv
  have hff : final_flush v5 = v5 := by
    unfold final_flush
    rw [if_neg (by rw [hv5]; simp)]
  unfold finish_run
  rw [hff]
  rcases end_run_cases v5 (out_file_not_input _ hl5)
      (by rw [hst.half_files]; omega) with ⟨s, hs⟩ | ⟨w, oc, hw, hadd, hpost⟩
  · rw [hs]
    exact hinv.loop_pub_ok
  · rw [hw]
    show PassEnd E w
    obtain ⟨q1, q2, q3⟩ := add_new_shape _ _ _ hadd
    have e_oh : w.out_half = v1.out_half := by
      have := hpost.static.out_half
      rw [hst.out_half] at this; exact this
    have e_hf : w.sp.half_files = v1.sp.half_files := by
      have := hpost.static.half_files
      rw [hst.half_files] at this; exact this
    have e_vl : w.very_last_run = true := by
      have := hpost.static.very_last_run
      exact this.trans hv5
    have e_co5 : v5.cur_outfile = v1.out_half := by rw [hst.cur_outfile, hco]
    left
    refine ⟨e_vl, by rw [hpost.published]; exact hinv.loop_pub_ok, by rw [e_hf]; exact htwo, ?_, ?_⟩
    · rw [hpost.contents, e_oh, if_pos e_co5.symm, q1]
      split_ifs <;> omega
    · intro i hi1 hi2
      rw [e_hf] at hi2
      have hne : w.out_half + i ≠ v5.cur_outfile := by rw [e_oh, e_co5]; omega
      have hni : ¬ (v5.sp.in_half ≤ w.out_half + i ∧
          w.out_half + i < v5.sp.in_half + v5.sp.half_files) := by
        rw [e_oh, hst.in_half, hst.half_files]
        rcases hlay.halves with ⟨a, b⟩ | ⟨a, b⟩ <;> omega
      rw [hpost.contents, if_neg hne, if_neg hni, e_oh, hfr.outputs i (by omega) hi2]
      exact hempty i (by omega) hi2

/-! ### The runs of a pass -/

theorem sections_ok (tb a : Int) (h1 : 1 ≤ a) (h2 : a < tb) :
    1 ≤ sort_find_inbuf_size tb a ∧ 1 ≤ tb - sort_find_inbuf_size tb a * a := by
  unfold sort_find_inbuf_size
  simp only
  have hq : Int.tdiv tb (a * 2) = tb / (a * 2) := Int.tdiv_eq_ediv (by omega) (by omega)
  rw [hq]
  have hpos : 0 < a * 2 := by omega
  have hle : tb / (a * 2) * (a * 2) ≤ tb := Int.ediv_mul_le tb (by omega)
  have hq0 : 0 ≤ tb / (a * 2) := Int.ediv_nonneg (by omega) (by omega)
  by_cases hz : tb / (a * 2) ≠ 0
  · rw [if_pos hz]
    have hq1 : 1 ≤ tb / (a * 2) := by omega
    have hx : a ≤ tb / (a * 2) * a := by nlinarith
    have hy : tb / (a * 2) * (a * 2) = 2 * (tb / (a * 2) * a) := by ring
    constructor
    · exact hq1
    · omega
  · rw [if_neg hz]
    omega

theorem active_infiles_loop_spec (sp : SortParam) (k : Int) (hk1 : k ≤ sp.half_files)
    (hne : ∀ i, 0 ≤ i → i < k → (sp.file_contents (sp.in_half + i)).first_run ≠ -1)
    (he : k < sp.half_files → (sp.file_contents (sp.in_half + k)).first_run = -1) :
    ∀ (n : Nat) (i : Int), 0 ≤ i → i ≤ k → k ≤ i + n →
      active_infiles_loop sp n (sp.in_half + i) = sp.in_half + k := by
  intro n
  induction n with
  | zero =>
    intro i _ h1 h2
    have : i = k := by push_cast at h2; omega
    rw [this]; rfl
  | succ n ih =>
    intro i h0 h1 h2
    unfold active_infiles_loop
    by_cases hc : sp.in_half + i < sp.in_half + sp.half_files
    · rw [if_pos hc]
      by_cases hf : (sp.file_contents (sp.in_half + i)).first_run = -1
      · rw [if_pos hf]
        by_cases hik : i = k
        · rw [hik]
        · exact absurd hf (hne i h0 (by omega))
      · rw [if_neg hf]
        have hik : i ≠ k := by
          intro e
          rw [e] at hf hc
          exact hf (he (by omega))
        have := ih (i + 1) (by omega) (by omega) (by push_cast at h2; omega)
        rw [← this]
        congr 1
        omega
    · rw [if_neg hc]
      have : i = k := by omega
      rw [this]

theorem active_count (sp : SortParam) (k : Int) (hk0 : 0 ≤ k) (hk1 : k ≤ sp.half_files)
    (hne : ∀ i, 0 ≤ i → i < k → (sp.file_contents (sp.in_half + i)).first_run ≠ -1)
    (he : k < sp.half_files → (sp.file_contents (sp.in_half + k)).first_run = -1) :
    sort_get_numpages_of_active_infiles sp = k := by
  unfold sort_get_numpages_of_active_infiles
  have := active_infiles_loop_spec sp k hk1 hne he sp.half_files.toNat 0 (le_refl _) hk0
    (by omega)
  rw [add_zero] at this
  rw [this]
  omega

theorem find_last_run_file_first (sp : SortParam) (pre : Int) (n : Nat) (hn : 1 ≤ n)
    (hpre : 1 ≤ pre) (hne : (sp.file_contents sp.in_half).first_run ≠ -1) :
    find_last_run_file sp pre n sp.in_half = sp.in_half := by
  cases n with
  | zero => omega
  | succ n =>
    unfold find_last_run_file
    rw [if_pos (by omega), if_pos hne]

theorem copy_run_loop_spec (act : Int) : ∀ (n : Nat) (v : MergeVars) (cp : Int),
    1 ≤ v.sp.tot_buffers → 0 ≤ cp → act ≠ v.cur_outfile →
    (∃ s, copy_run_loop act n v cp = Step.stop s v.published) ∨
    (∃ w, copy_run_loop act n v cp = Step.next w ∧ CopyPost v w act cp) := by
  intro n
  induction n with
  | zero =>
    intro v cp _ _ _
    exact Or.inl ⟨_, rfl⟩
  | succ n ih =>
    intro v cp htb hcp hne
    unfold copy_run_loop
    by_cases hc : cp > 0
    · rw [if_pos hc]
      simp only
      obtain ⟨rp, hrp⟩ : ∃ rp, rp = (if cp > v.sp.tot_buffers then v.sp.tot_buffers else cp) :=
        ⟨_, rfl⟩
      rw [← hrp]
      have hrp1 : 1 ≤ rp ∧ rp ≤ cp := by rw [hrp]; split_ifs <;> omega
      obtain ⟨v', hv'⟩ : ∃ v' : MergeVars, v' = { v with
          sp := sort_write_area (sort_read_area v.sp act (v.cur_page act) rp 0) v.cur_outfile
            (aset v.cur_page act (v.cur_page act + rp) v.cur_outfile) rp 0,
          cur_page := aset (aset v.cur_page act (v.cur_page act + rp)) v.cur_outfile
            (aset v.cur_page act (v.cur_page act + rp) v.cur_outfile + rp) } := ⟨_, rfl⟩
      rw [← hv']
      have e_co : v'.cur_outfile = v.cur_outfile := by rw [hv']
      have e_pub : v'.published = v.published := by rw [hv']
      have e_tb : v'.sp.tot_buffers = v.sp.tot_buffers := by rw [hv']; rfl
      have e_fc : v'.sp.file_contents = v.sp.file_contents := by rw [hv']; rfl
      have e_cpa : v'.cur_page act = v.cur_page act + rp := by
        rw [hv']
        show aset _ _ _ act = _
        rw [aset_other _ _ _ _ hne, aset_same]
      have e_cpo : v'.cur_page v.cur_outfile = v.cur_page v.cur_outfile + rp := by
        rw [hv']
        show aset _ _ _ v.cur_outfile = _
        rw [aset_same, aset_other _ _ _ _ (Ne.symm hne)]
      have e_cpx : ∀ f, f ≠ act → f ≠ v.cur_outfile → v'.cur_page f = v.cur_page f := by
        intro f h1 h2
        rw [hv']
        show aset _ _ _ f = _
        rw [aset_other _ _ _ _ h2, aset_other _ _ _ _ h1]
      have e_tmp : ∀ f p, v'.sp.temp f p =
          if f = v.cur_outfile ∧ v.cur_page v.cur_outfile ≤ p ∧
              p < v.cur_page v.cur_outfile + rp then
            v.sp.temp act (v.cur_page act + (p - v.cur_page v.cur_outfile))
          else v.sp.temp f p := by
        intro f p
        rw [hv']
        show (if f = v.cur_outfile ∧ aset v.cur_page act (v.cur_page act + rp) v.cur_outfile ≤ p ∧
            p < aset v.cur_page act (v.cur_page act + rp) v.cur_outfile + rp then
            (sort_read_area v.sp act (v.cur_page act) rp 0).internal_memory
              (0 + (p - aset v.cur_page act (v.cur_page act + rp) v.cur_outfile))
          else v.sp.temp f p) = _
        rw [aset_other _ _ _ _ (Ne.symm hne)]
        by_cases hr : f = v.cur_outfile ∧ v.cur_page v.cur_outfile ≤ p ∧
            p < v.cur_page v.cur_outfile + rp
        · rw [if_pos hr, if_pos hr]
          show (if (0 : Int) ≤ 0 + (p - v.cur_page v.cur_outfile) ∧
              0 + (p - v.cur_page v.cur_outfile) < 0 + rp then
              v.sp.temp act (v.cur_page act + (0 + (p - v.cur_page v.cur_outfile) - 0))
            else v.sp.internal_memory (0 + (p - v.cur_page v.cur_outfile))) = _
          rw [if_pos (by omega)]
          congr 1
          omega
        · rw [if_neg hr, if_neg hr]
      have e_st : SameStatic v v' := by
        rw [hv']
        exact ⟨rfl, rfl, rfl, rfl, rfl, rfl, rfl, rfl, rfl, rfl, rfl, rfl⟩
      rcases ih v' (cp - rp) (by rw [e_tb]; exact htb) (by omega) (by rw [e_co]; exact hne) with
        ⟨s, hs⟩ | ⟨w, hw, hpost⟩
      · left
        rw [e_pub] at hs
        exact ⟨s, hs⟩
      · right
        refine ⟨w, hw, SameStatic_trans e_st hpost.static, hpost.contents.trans e_fc,
          hpost.published.trans e_pub, ?_, ?_, ?_, ?_⟩
        · rw [hpost.cur_act, e_cpa]; omega
        · have := hpost.cur_out
          rw [e_co] at this
          rw [this, e_cpo]; omega
        · intro f h1 h2
          rw [hpost.cur_other f h1 (by rw [e_co]; exact h2), e_cpx f h1 h2]
        · intro f p
          rw [hpost.temp, e_co, e_cpo, e_cpa]
          by_cases hr : f = v.cur_outfile ∧ v.cur_page v.cur_outfile + rp ≤ p ∧
              p < v.cur_page v.cur_outfile + rp + (cp - rp)
          · rw [if_pos hr, if_pos ⟨hr.1, by omega, by omega⟩, e_tmp,
              if_neg (fun hc => hne hc.1)]
            congr 1
            omega
          · rw [if_neg hr, e_tmp]
            by_cases hr2 : f = v.cur_outfile ∧ v.cur_page v.cur_outfile ≤ p ∧
                p < v.cur_page v.cur_outfile + rp
            · rw [if_pos hr2, if_pos ⟨hr2.1, hr2.2.1, by omega⟩]
            · rw [if_neg hr2, if_neg]
              intro hc
              by_cases hlt : p < v.cur_page v.cur_outfile + rp
              · exact hr2 ⟨hc.1, hc.2.1, hlt⟩
              · exact hr ⟨hc.1, by omega, by omega⟩
    · rw [if_neg hc]
      right
      refine ⟨v, rfl, SameStatic_refl v, rfl, rfl, by omega, by omega, fun _ _ _ => rfl, ?_⟩
      intro f p
      rw [if_neg (by omega)]

theorem ledger_active (E : MergeEnv) (v : MergeVars) (j k : Int) (hled : LedgerInv E v j k)
    (i : Int) (hi0 : 0 ≤ i) (hi1 : i < v.sp.half_files) :
    ((v.sp.file_contents (v.sp.in_half + i)).first_run ≠ -1 ↔ (2 ≤ j ∨ i < k)) := by
  have hlen := hled.len_in i hi0 hi1
  have hj := hled.run
  have hr := hled.runs_in i hi0 hi1
  unfold sort_get_num_file_contents at hlen
  unfold RunsInv at hr
  constructor
  · intro hne
    rw [if_pos hne] at hlen
    rcases hr with h | ⟨_, h2, _⟩
    · exact absurd h hne
    · by_cases hik : i < k
      · exact Or.inr hik
      · rw [if_neg hik] at hlen
        left; omega
  · intro h hc
    rw [if_neg (by simpa using hc)] at hlen
    rcases h with h | h
    · split_ifs at hlen <;> omega
    · rw [if_pos h] at hlen
      omega

theorem run_start_of (E : MergeEnv) (v : MergeVars) (j k : Int) (hled : LedgerInv E v j k)
    (hlay : Layout v) (hact : v.act_infiles = if j = 1 then k else v.sp.half_files)
    (h2 : 2 ≤ v.act_infiles) : RunStartInv E v := by
  refine ⟨hlay, h2, hled.runs_in, ?_, fun i h0 h1 => (hled.outfiles i h0 h1).1, hled.published⟩
  intro i hi0 hi1
  have hk := hled.sizes
  have hj := hled.run
  apply (ledger_active E v j k hled i hi0 (by rw [hact] at hi1; split_ifs at hi1 <;> omega)).2
  rw [hact] at hi1
  by_cases hj1 : j = 1
  · rw [if_pos hj1] at hi1
    exact Or.inr hi1
  · left; omega

theorem ledger_count (E : MergeEnv) (v : MergeVars) (k : Int) (hled : LedgerInv E v 1 k) :
    sort_get_numpages_of_active_infiles v.sp = k := by
  have hk := hled.sizes
  apply active_count v.sp k (by omega) hk.2
  · intro i hi0 hi1
    exact (ledger_active E v 1 k hled i hi0 (by omega)).2 (Or.inr hi1)
  · intro hlt
    have := (ledger_active E v 1 k hled k (by omega) hlt).1
    by_cases hne : (v.sp.file_contents (v.sp.in_half + k)).first_run = -1
    · exact hne
    · rcases this hne with h | h <;> omega

theorem redistribute_layout (v : MergeVars) (hlay : Layout v) (a : Int) (ha1 : 1 ≤ a)
    (ha2 : a ≤ v.sp.half_files) (hb : v.sp.half_files < v.sp.tot_buffers) :
    Layout (redistribute_buffers { v with act_infiles := a }) := by
  obtain ⟨s1, s2⟩ := sections_ok v.sp.tot_buffers a ha1 (by omega)
  unfold redistribute_buffers
  refine ⟨s1, ⟨by show 0 ≤ a; omega, ha2⟩, ?_, rfl, s2, hlay.halves, hlay.outfile⟩
  intro i hi0 hi1
  show (if 0 ≤ i ∧ i < a then i * sort_find_inbuf_size v.sp.tot_buffers a
    else v.in_sectaddr i) = _
  rw [if_pos ⟨hi0, hi1⟩]

/-- The copy branch: the single run left goes to the output file as it is. -/
theorem copy_last_run_spec (E : MergeEnv) (fuel : Nat) (v1 : MergeVars) (pre : Int)
    (hled : LedgerInv E v1 1 1) (hv : v1.very_last_run = false) (hpre : 1 ≤ pre)
    (hco : v1.out_half ≤ v1.cur_outfile ∧ v1.cur_outfile < v1.out_half + v1.sp.half_files) :
    (copy_last_run fuel v1 pre).Safe E (fun r => r.2 = true ∧ PassEnd E r.1) := by
  have htwo := hled.two
  have hhalves := hled.halves
  have hpub := hled.published
  have hne0 : (v1.sp.file_contents v1.sp.in_half).first_run ≠ -1 := by
    have := (ledger_active E v1 1 1 hled 0 (le_refl _) (by omega)).2 (Or.inr (by omega))
    rw [add_zero] at this
    exact this
  have hact : find_last_run_file v1.sp pre pre.toNat v1.sp.in_half = v1.sp.in_half :=
    find_last_run_file_first v1.sp pre pre.toNat (by omega) hpre hne0
  have hneco : v1.sp.in_half ≠ v1.cur_outfile := by
    rcases hhalves with ⟨a, b⟩ | ⟨a, b⟩ <;> omega
  have hruns := hled.runs_in 0 (le_refl _) (by omega)
  rw [add_zero] at hruns
  unfold RunsInv at hruns
  rcases hruns with hruns | ⟨r1, r2, rpos, q, rto⟩
  · exact absurd hruns hne0
  have hlen := hled.len_in 0 (le_refl _) (by omega)
  rw [add_zero, if_pos (by omega)] at hlen
  unfold sort_get_num_file_contents at hlen
  rw [if_pos hne0] at hlen
  have e1 : ((v1.sp.file_contents v1.sp.in_half).last_run -
      (v1.sp.file_contents v1.sp.in_half).first_run + 1).toNat = 0 + 1 := by omega
  rw [e1] at rto
  simp only [RunsTo] at rto
  obtain ⟨_, hrunin, _⟩ := rto
  have hcp1 := rpos _ (le_refl _) r2
  unfold copy_last_run
  simp only
  rw [hact, if_neg (by rcases hhalves with ⟨a, b⟩ | ⟨a, b⟩ <;> omega)]
  cases hadd : sort_run_add_new true (v1.sp.file_contents v1.cur_outfile)
      ((v1.sp.file_contents v1.sp.in_half).num_pages
        (v1.sp.file_contents v1.sp.in_half).first_run) with
  | none =>
    show PubOK E v1.published
    rw [hpub]; exact PubOK_nil E
  | some r =>
    obtain ⟨b, oc⟩ := r
    cases b with
    | false =>
      show PubOK E v1.published
      rw [hpub]; exact PubOK_nil E
    | true =>
      simp only
      obtain ⟨q1, q2, q3⟩ := add_new_shape _ _ _ hadd
      obtain ⟨vc, hvc⟩ : ∃ vc : MergeVars, vc = { v1 with sp := { v1.sp with
          file_contents := aset (aset v1.sp.file_contents v1.cur_outfile oc) v1.sp.in_half
            (sort_run_remove_first
              (aset v1.sp.file_contents v1.cur_outfile oc v1.sp.in_half)) } } := ⟨_, rfl⟩
      rw [← hvc]
      have c_co : vc.cur_outfile = v1.cur_outfile := by rw [hvc]
      have c_cp : vc.cur_page = v1.cur_page := by rw [hvc]
      have c_tmp : vc.sp.temp = v1.sp.temp := by rw [hvc]
      have c_pub : vc.published = [] := by rw [hvc]; exact hpub
      have c_st : SameStatic v1 vc := by
        rw [hvc]; exact ⟨rfl, rfl, rfl, rfl, rfl, rfl, rfl, rfl, rfl, rfl, rfl, rfl⟩
      have c_fc : ∀ f, vc.sp.file_contents f =
          if f = v1.sp.in_half then sort_run_remove_first (v1.sp.file_contents v1.sp.in_half)
          else if f = v1.cur_outfile then oc else v1.sp.file_contents f := by
        intro f
        rw [hvc]
        show aset (aset v1.sp.file_contents v1.cur_outfile oc) v1.sp.in_half
          (sort_run_remove_first (aset v1.sp.file_contents v1.cur_outfile oc v1.sp.in_half)) f = _
        rw [aset_other _ _ _ _ hneco]
        by_cases e : f = v1.sp.in_half
        · rw [e, aset_same, if_pos rfl]
        · rw [aset_other _ _ _ _ e, if_neg e]
          by_cases e2 : f = v1.cur_outfile
          · rw [e2, aset_same, if_pos rfl]
          · rw [aset_other _ _ _ _ e2, if_neg e2]
      rcases copy_run_loop_spec v1.sp.in_half fuel vc
          ((v1.sp.file_contents v1.sp.in_half).num_pages
            (v1.sp.file_contents v1.sp.in_half).first_run)
          (by rw [c_st.tot_buffers]; have := hled.buffers; omega) (by omega)
          (by rw [c_co]; exact hneco) with ⟨s, hs⟩ | ⟨w, hw, hpost⟩
      · rw [hs]
        show PubOK E vc.published
        rw [c_pub]; exact PubOK_nil E
      · rw [hw]
        refine ⟨rfl, ?_⟩
        show PassEnd E w
        have hst := SameStatic_trans c_st hpost.static
        have w_fc : ∀ f, w.sp.file_contents f =
            if f = v1.sp.in_half then
              sort_run_remove_first (v1.sp.file_contents v1.sp.in_half)
            else if f = v1.cur_outfile then oc else v1.sp.file_contents f := by
          intro f; rw [hpost.contents]; exact c_fc f
        have w_tmp : ∀ f p, w.sp.temp f p =
            if f = v1.cur_outfile ∧ v1.cur_page v1.cur_outfile ≤ p ∧
                p < v1.cur_page v1.cur_outfile +
                  (v1.sp.file_contents v1.sp.in_half).num_pages
                    (v1.sp.file_contents v1.sp.in_half).first_run then
              v1.sp.temp v1.sp.in_half
                (v1.cur_page v1.sp.in_half + (p - v1.cur_page v1.cur_outfile))
            else v1.sp.temp f p := by
          intro f p
          rw [hpost.temp, c_co, c_cp, c_tmp]
        have w_cpo : w.cur_page v1.cur_outfile = v1.cur_page v1.cur_outfile +
            (v1.sp.file_contents v1.sp.in_half).num_pages
              (v1.sp.file_contents v1.sp.in_half).first_run := by
          have := hpost.cur_out
          rw [c_co, c_cp] at this
          exact this
        have w_cpx : ∀ f, f ≠ v1.sp.in_half → f ≠ v1.cur_outfile →
            w.cur_page f = v1.cur_page f := by
          intro f h1 h2
          rw [hpost.cur_other f h1 (by rw [c_co]; exact h2), c_cp]
        have hout : ∀ i, 0 ≤ i → i < v1.sp.half_files →
            OutFileInv E w (v1.out_half + i) 0 ∧ OutPos w (v1.out_half + i) ∧
            sort_get_num_file_contents (w.sp.file_contents (v1.out_half + i)) =
              sort_get_num_file_contents (v1.sp.file_contents (v1.out_half + i)) +
                (if v1.out_half + i = v1.cur_outfile then 1 else 0) := by
          intro i hi0 hi1
          obtain ⟨hof, hop⟩ := hled.outfiles i hi0 hi1
          have hni : v1.out_half + i ≠ v1.sp.in_half := by
            rcases hhalves with ⟨a, b⟩ | ⟨a, b⟩ <;> omega
          by_cases he : v1.out_half + i = v1.cur_outfile
          · rw [if_pos he]
            rw [he] at hof hop ⊢
            have hwfc : w.sp.file_contents v1.cur_outfile = oc := by
              rw [w_fc, if_neg (Ne.symm hneco), if_pos rfl]
            have hrun : RunOK E (w.sp.temp v1.cur_outfile) (v1.cur_page v1.cur_outfile - 0)
                ((v1.sp.file_contents v1.sp.in_half).num_pages
                  (v1.sp.file_contents v1.sp.in_half).first_run) := by
              unfold RunOK at hrunin ⊢
              have : pages_seq (w.sp.temp v1.cur_outfile) (v1.cur_page v1.cur_outfile - 0)
                  ((v1.sp.file_contents v1.sp.in_half).num_pages
                    (v1.sp.file_contents v1.sp.in_half).first_run) =
                  pages_seq (v1.sp.temp v1.sp.in_half) (v1.cur_page v1.sp.in_half)
                    ((v1.sp.file_contents v1.sp.in_half).num_pages
                      (v1.sp.file_contents v1.sp.in_half).first_run) := by
                apply pages_seq_shift
                intro t ht0 ht1
                rw [w_tmp, if_pos ⟨rfl, by omega, by omega⟩]
                congr 1
                omega
              rw [this]
              exact hrunin
            obtain ⟨o1, o2, o3⟩ := output_after_run E v1 w v1.cur_outfile 0 _ oc hof hop q1 q2 q3
              hcp1 hrun hwfc (fun p hp => by rw [w_tmp, if_neg (by omega)])
              (by rw [w_cpo]; omega)
            exact ⟨o1, o2, by rw [hwfc, o3]⟩
          · rw [if_neg he]
            have hsf : SameFile v1 w (v1.out_half + i) := by
              refine ⟨by rw [w_fc, if_neg hni, if_neg he], w_cpx _ hni he, ?_⟩
              funext p
              rw [w_tmp, if_neg (fun hc => he hc.1)]
            refine ⟨OutFileInv_frame E v1 w _ _ hsf hof, ?_, by rw [hsf.contents]; omega⟩
            unfold OutPos at hop ⊢
            rw [hsf.contents]
            exact hop
        obtain ⟨m, c, hm0, hc0, hc1, hcc, hturn⟩ := hled.out_turn
        right
        refine ⟨by rw [hst.very_last_run]; exact hv, by rw [hpost.published]; exact c_pub,
          by rw [hst.half_files]; exact htwo,
          by rw [hst.half_files, hst.tot_buffers]; exact hled.buffers,
          by rw [hst.tot_tempfiles, hst.half_files]; exact hled.tempfiles,
          by rw [hst.in_half, hst.out_half, hst.half_files]; exact hhalves, ?_, ?_, ?_⟩
        · intro i hi0 hi1
          rw [hst.half_files] at hi1
          rw [hst.out_half]
          exact ⟨(hout i hi0 hi1).1, (hout i hi0 hi1).2.1⟩
        · refine ⟨(if c + 1 ≥ v1.sp.half_files then m + 1 else m),
            (if c + 1 ≥ v1.sp.half_files then 0 else c + 1), ?_, ?_, ?_, ?_⟩
          · split_ifs <;> omega
          · split_ifs <;> omega
          · rw [hst.half_files]
            split_ifs <;> omega
          · intro i hi0 hi1
            rw [hst.half_files] at hi1
            rw [hst.out_half, (hout i hi0 hi1).2.2, hturn i hi0 hi1]
            rcases turn_step v1.sp.half_files m c hc1 i with h | h
            · rw [h]
              congr 1
              rw [hcc]
              by_cases e : i = c
              · rw [if_pos e, if_pos (by omega)]
              · rw [if_neg e, if_neg (by omega)]
            · exact absurd ⟨hi0, hi1⟩ h
        · intro i hi0 hi1
          rw [hst.half_files] at hi1
          rw [hst.in_half, w_fc]
          by_cases e : i = 0
          · rw [e, add_zero, if_pos rfl]
            unfold sort_run_remove_first
            rw [if_pos hne0, if_pos (by omega)]
          · have hni : v1.sp.in_half + i ≠ v1.sp.in_half := by omega
            have hnc : v1.sp.in_half + i ≠ v1.cur_outfile := by
              rcases hhalves with ⟨a, b⟩ | ⟨a, b⟩ <;> omega
            rw [if_neg hni, if_neg hnc]
            by_contra hc
            rcases (ledger_active E v1 1 1 hled i hi0 hi1).1 hc with h | h <;> omega

theorem LedgerInv_congr (E : MergeEnv) (v w : MergeVars) (j k : Int)
    (h : LedgerInv E v j k) (e_sp : w.sp = v.sp) (e_cp : w.cur_page = v.cur_page)
    (e_oh : w.out_half = v.out_half) (e_co : w.cur_outfile = v.cur_outfile)
    (e_vl : w.very_last_run = v.very_last_run) (e_pub : w.published = v.published) :
    LedgerInv E w j k := by
  cases v
  cases w
  simp only at e_sp e_cp e_oh e_co e_vl e_pub
  subst e_sp e_cp e_oh e_co e_vl e_pub
  exact ⟨h.run, h.two, h.buffers, h.tempfiles, h.halves, h.sizes, h.runs_in, h.len_in,
    h.outfiles, h.out_turn, h.last_out, h.published⟩

/-- The head of the body of the loop `PRODUCE RUNS`. -/
theorem prepare_run_spec (E : MergeEnv) (fuel : Nat) (v : MergeVars) (j k : Int)
    (hp : PassInv E v j k) :
    (prepare_run fuel v j).Safe E (fun r =>
      (r.2 = false → RunStartInv E r.1 ∧ LedgerInv E r.1 j k ∧
        r.1.act_infiles = (if j = 1 then k else r.1.sp.half_files) ∧
        r.1.very_last_run = v.very_last_run) ∧
      (r.2 = true → j = 1 ∧ PassEnd E r.1)) := by
  have hled := hp.ledgers
  have hlay := hp.layout
  have hk := hled.sizes
  have htwo := hled.two
  have hj := hled.run
  unfold prepare_run
  by_cases hc : v.very_last_run = false ∧ j = 1
  · rw [if_pos hc]
    simp only
    obtain ⟨hv, hj1⟩ := hc
    subst hj1
    have hact := hp.act_all hv
    rw [ledger_count E v k hled, hact]
    by_cases hne : k ≠ v.sp.half_files
    · rw [if_pos hne]
      by_cases h1 : k = 1
      · rw [if_pos h1]
        subst h1
        refine Step.Safe.mono E _ _ ?_ _ (copy_last_run_spec E fuel { v with act_infiles := 1 }
          v.sp.half_files (LedgerInv_congr E v _ 1 1 hled rfl rfl rfl rfl rfl rfl) hv
          (by omega) hlay.outfile)
        rintro r ⟨r1, r2⟩
        exact ⟨fun hc => (by rw [r1] at hc; cases hc), fun _ => ⟨rfl, r2⟩⟩
      · rw [if_neg h1, if_neg (by omega)]
        show (_ → _) ∧ (_ → _)
        refine ⟨fun _ => ?_, fun hc => (by cases hc)⟩
        have hlr := redistribute_layout v hlay k hk.1 hk.2 hled.buffers
        have hledr : LedgerInv E (redistribute_buffers { v with act_infiles := k }) 1 k :=
          LedgerInv_congr E v _ 1 k hled rfl rfl rfl rfl rfl rfl
        have hactr : (redistribute_buffers { v with act_infiles := k }).act_infiles = k := rfl
        refine ⟨run_start_of E _ 1 k hledr hlr (by rw [hactr, if_pos rfl])
          (by rw [hactr]; omega), hledr, by rw [hactr, if_pos rfl], rfl⟩
    · rw [if_neg hne]
      have hkh : k = v.sp.half_files := not_not.1 hne
      show (_ → _) ∧ (_ → _)
      refine ⟨fun _ => ?_, fun hc => (by cases hc)⟩
      have hledr : LedgerInv E { v with act_infiles := k } 1 k :=
        LedgerInv_congr E v _ 1 k hled rfl rfl rfl rfl rfl rfl
      have hlr : Layout { v with act_infiles := k } := by
        have e : ({ v with act_infiles := k } : MergeVars) = v := by
          rw [hkh, ← hact]
        rw [e]; exact hlay
      refine ⟨run_start_of E _ 1 k hledr hlr (by show k = _; rw [if_pos rfl])
        (by show 2 ≤ k; omega), hledr, by show k = _; rw [if_pos rfl], rfl⟩
  · rw [if_neg hc]
    show (_ → _) ∧ (_ → _)
    refine ⟨fun _ => ?_, fun hc => (by cases hc)⟩
    have hact : v.act_infiles = if j = 1 then k else v.sp.half_files := by
      cases hv : v.very_last_run with
      | true =>
        obtain ⟨l1, _⟩ := hled.last_out hv
        rw [if_pos l1]
        exact hp.act_last hv
      | false =>
        have : j ≠ 1 := fun e => hc ⟨hv, e⟩
        rw [if_neg this]
        exact hp.act_all hv
    refine ⟨run_start_of E v j k hled hlay hact ?_, hled, hact, rfl⟩
    rw [hact]
    cases hv : v.very_last_run with
    | true =>
      obtain ⟨l1, l2, _⟩ := hled.last_out hv
      rw [if_pos l1]; exact l2
    | false =>
      have : j ≠ 1 := fun e => hc ⟨hv, e⟩
      rw [if_neg this]; exact htwo

/-- The body of the loop `PRODUCE RUNS`: the run `j` of a pass. -/
theorem produce_run_spec (E : MergeEnv) (hE : EnvSift E) (fuel : Nat) (v : MergeVars)
    (j k : Int) (hp : PassInv E v j k) :
    (produce_run E fuel v j).Safe E (fun w => (j = 1 → PassEnd E w) ∧
      (2 ≤ j → PassInv E w (j - 1) k)) := by
  unfold produce_run
  have hprep := prepare_run_spec E fuel v j k hp
  cases hpr : prepare_run fuel v j with
  | stop s p =>
    rw [hpr] at hprep
    exact hprep
  | next r =>
    rw [hpr] at hprep
    obtain ⟨v1, b⟩ := r
    obtain ⟨g1, g2⟩ := hprep
    cases b with
    | true =>
      simp only
      obtain ⟨e1, e2⟩ := g2 rfl
      exact ⟨fun _ => e2, fun h2 => (by omega)⟩
    | false =>
      simp only
      obtain ⟨hstart, hled1, hact1, hvl1⟩ := g1 rfl
      have hsr := start_run_spec E hE v1 hstart
      cases hst : start_run E v1 with
      | stop s p =>
        rw [hst] at hsr
        exact hsr
      | next v4 =>
        rw [hst] at hsr
        obtain ⟨hinv4, hfr4⟩ := hsr
        simp only
        have hloop := output_loop_spec E hE fuel v4 [] hinv4
        cases hml : merge_loop E fuel v4 with
        | stop s p =>
          rw [hml] at hloop
          exact hloop
        | next v5 =>
          rw [hml] at hloop
          obtain ⟨EM, hinv5, hfr5, hnil⟩ := hloop
          simp only
          have hfr := LoopFrame_trans hfr4 hfr5
          cases hv : v1.very_last_run with
          | false =>
            exact finish_more E v1 v5 EM j k hled1 hstart.layout hv hact1 hfr hinv5 hnil
          | true =>
            obtain ⟨l1, _⟩ := hled1.last_out hv
            refine Step.Safe.mono E _ _ ?_ _
              (finish_last E v1 v5 EM j k hled1 hstart.layout hv hfr hinv5)
            intro w hw
            exact ⟨fun _ => hw, fun h2 => (by omega)⟩

/-- The loop `PRODUCE RUNS`. -/
theorem produce_runs_spec (E : MergeEnv) (hE : EnvSift E) (fuel : Nat) (k : Int) :
    ∀ (n : Nat) (v : MergeVars) (j : Int), 0 ≤ j → (1 ≤ j → PassInv E v j k) →
      (j = 0 → PassEnd E v) →
      (produce_runs E fuel n v j).Safe E (fun w => PassEnd E w) := by
  intro n
  induction n with
  | zero =>
    intro v j hj h1 h0
    show PubOK E v.published
    by_cases hc : j = 0
    · rcases h0 hc with ⟨_, h, _⟩ | ⟨_, h, _⟩
      · exact h
      · rw [h]; exact PubOK_nil E
    · rw [(h1 (by omega)).ledgers.published]; exact PubOK_nil E
  | succ n ih =>
    intro v j hj h1 h0
    unfold produce_runs
    by_cases hc : j > 0
    · rw [if_pos hc]
      have hpr := produce_run_spec E hE fuel v j k (h1 (by omega))
      cases hp : produce_run E fuel v j with
      | stop s p =>
        rw [hp] at hpr
        exact hpr
      | next v1 =>
        rw [hp] at hpr
        obtain ⟨g1, g2⟩ := hpr
        simp only
        exact ih v1 (j - 1) (by omega) (fun h => g2 (by omega)) (fun h => g1 (by omega))
    · rw [if_neg hc]
      exact h0 (by omega)

theorem count_num_runs_spec (sp : SortParam) (act n : Int)
    (hle : ∀ i, 0 ≤ i → i < act →
      sort_get_num_file_contents (sp.file_contents (sp.in_half + i)) ≤ n) :
    ∀ (fuel : Nat) (t acc : Int), 0 ≤ t → act ≤ t + fuel → acc ≤ n →
      (acc = n ∨ ∃ i, t ≤ i ∧ i < act ∧
        sort_get_num_file_contents (sp.file_contents (sp.in_half + i)) = n) →
      count_num_runs sp act fuel (sp.in_half + t) acc = n := by
  intro fuel
  induction fuel with
  | zero =>
    intro t acc h0 h1 h2 h3
    rcases h3 with h3 | ⟨i, a, b, _⟩
    · exact h3
    · push_cast at h1; omega
  | succ fuel ih =>
    intro t acc h0 h1 h2 h3
    unfold count_num_runs
    by_cases hc : sp.in_half + t < sp.in_half + act
    · rw [if_pos hc]
      simp only
      have e : sp.in_half + t + 1 = sp.in_half + (t + 1) := by omega
      rw [e]
      have hlt := hle t h0 (by omega)
      apply ih (t + 1) _ (by omega) (by push_cast at h1; omega)
      · split_ifs <;> omega
      · rcases h3 with h3 | ⟨i, a, b, c⟩
        · left
          rw [if_neg (by omega)]
          exact h3
        · by_cases hit : i = t
          · left
            rw [hit] at c
            split_ifs <;> omega
          · exact Or.inr ⟨i, by omega, b, c⟩
    · rw [if_neg hc]
      rcases h3 with h3 | ⟨i, a, b, _⟩
      · exact h3
      · omega

/-! ### The passes of the merge -/

theorem file_runs_first (E : MergeEnv) (sp : SortParam) (f : Int) (h : FileRuns E sp f) :
    ((sp.file_contents f).first_run ≠ -1 ↔ 1 ≤ sort_get_num_file_contents (sp.file_contents f)) := by
  unfold FileRuns at h
  unfold sort_get_num_file_contents
  rcases h with h | ⟨h1, h2, _⟩
  · rw [if_neg (by simpa using h)]
    constructor
    · intro hc; exact absurd h hc
    · intro hc; omega
  · rw [if_pos (by omega)]
    constructor
    · intro _; omega
    · intro _; omega

/-- The state after the swap of the halves at the end of a pass has the invariant
of the outer loop. -/
theorem pass_end_outer (E : MergeEnv) (v3 : MergeVars) (h : PassEnd E v3) :
    OuterInv E (exchange_halves v3) := by
  unfold exchange_halves
  rcases h with ⟨h1, h2, h3, h4, h5⟩ | ⟨h1, h2, h3, h4, h5, h6, h7, h8, h9⟩
  · left
    refine ⟨h1, h2, ?_⟩
    have := active_count { v3.sp with in_half := v3.out_half } 1 (by omega)
      (by show 1 ≤ v3.sp.half_files; omega)
      (by
        intro i hi0 hi1
        have : i = 0 := by omega
        rw [this]
        show (v3.sp.file_contents (v3.out_half + 0)).first_run ≠ -1
        rw [add_zero]; exact h4)
      (fun _ => h5 1 (by omega) (by omega))
    rw [this]
  · right
    refine ⟨h1, h2, h4, h5, ?_, ?_, ?_, ?_⟩
    · show (v3.out_half = 0 ∧ v3.sp.in_half = v3.sp.half_files) ∨
        (v3.out_half = v3.sp.half_files ∧ v3.sp.in_half = 0)
      rcases h6 with ⟨a, b⟩ | ⟨a, b⟩
      · exact Or.inr ⟨b, a⟩
      · exact Or.inl ⟨b, a⟩
    · intro i hi0 hi1
      show FileRuns E _ (v3.out_half + i)
      obtain ⟨o1, o2⟩ := h7 i hi0 hi1
      unfold OutFileInv at o1
      unfold OutPos at o2
      unfold FileRuns
      rcases o1 with ⟨a, _⟩ | ⟨a, b, c⟩
      · exact Or.inl a
      · exact Or.inr ⟨a, b, o2 (by omega), _, c⟩
    · exact h8
    · exact h9

theorem distribute_layout (v : MergeVars) (a : Int) (ha1 : 1 ≤ a) (ha2 : a ≤ v.sp.half_files)
    (hb : v.sp.half_files < v.sp.tot_buffers)
    (hh : (v.sp.in_half = 0 ∧ v.out_half = v.sp.half_files) ∨
      (v.sp.in_half = v.sp.half_files ∧ v.out_half = 0)) (b : Bool) :
    Layout { distribute_memory v a with very_last_run := b } := by
  obtain ⟨s1, s2⟩ := sections_ok v.sp.tot_buffers a ha1 (by omega)
  unfold distribute_memory
  refine ⟨s1, ⟨by show 0 ≤ a; omega, ha2⟩, ?_, rfl, s2, hh, ?_⟩
  · intro i hi0 hi1
    show (if 0 ≤ i ∧ i < a then i * sort_find_inbuf_size v.sp.tot_buffers a
      else v.in_sectaddr i) = _
    rw [if_pos ⟨hi0, hi1⟩]
  · show v.out_half ≤ v.out_half ∧ v.out_half < v.out_half + v.sp.half_files
    omega

/-- The state after the head of a pass has the invariant of the loop `PRODUCE
RUNS`. -/
theorem pass_start (E : MergeEnv) (v : MergeVars)
    (hpub : v.published = []) (hms : MergeStart E v.sp v.out_half)
    (hact : sort_get_numpages_of_active_infiles v.sp > 1) :
    ∃ n k, 1 ≤ n ∧
      count_num_runs v.sp (sort_get_numpages_of_active_infiles v.sp)
        (sort_get_numpages_of_active_infiles v.sp).toNat v.sp.in_half 0 = n ∧
      PassInv E { distribute_memory v (sort_get_numpages_of_active_infiles v.sp) with
        very_last_run := decide (n = 1) } n k := by
  obtain ⟨m, c, hm0, hc0, hc1, hturn⟩ := hms.turn
  have hfirst : ∀ i, 0 ≤ i → i < v.sp.half_files →
      ((v.sp.file_contents (v.sp.in_half + i)).first_run ≠ -1 ↔ 1 ≤ turn_runs m c i) := by
    intro i hi0 hi1
    rw [← hturn i hi0 hi1]
    exact file_runs_first E v.sp _ (hms.runs i hi0 hi1)
  -- the number of active input files
  have hcount : sort_get_numpages_of_active_infiles v.sp =
      (if 1 ≤ m then v.sp.half_files else c) := by
    apply active_count
    · split_ifs <;> omega
    · split_ifs <;> omega
    · intro i hi0 hi1
      have hi2 : i < v.sp.half_files := by split_ifs at hi1 <;> omega
      apply (hfirst i hi0 hi2).2
      unfold turn_runs
      split_ifs at hi1 ⊢ <;> omega
    · intro hlt
      have hm : ¬ 1 ≤ m := by
        intro h
        rw [if_pos h] at hlt
        omega
      rw [if_neg hm] at hlt ⊢
      by_contra hne
      have := (hfirst c hc0 hc1).1 hne
      unfold turn_runs at this
      rw [if_neg (by omega)] at this
      omega
  rw [hcount] at hact ⊢
  obtain ⟨a, ha⟩ : ∃ a, a = (if 1 ≤ m then v.sp.half_files else c) := ⟨_, rfl⟩
  rw [← ha] at hact ⊢
  have ha2 : a ≤ v.sp.half_files := by rw [ha]; split_ifs <;> omega
  obtain ⟨n, hn⟩ : ∃ n, n = (if c = 0 then m else m + 1) := ⟨_, rfl⟩
  obtain ⟨k, hk⟩ : ∃ k, k = (if c = 0 then v.sp.half_files else c) := ⟨_, rfl⟩
  have hn1 : 1 ≤ n := by
    rw [hn]
    rw [ha] at hact
    split_ifs at hact ⊢ <;> omega
  have hk1 : 1 ≤ k ∧ k ≤ v.sp.half_files := by
    rw [hk]; split_ifs <;> omega
  have hlen : ∀ i, 0 ≤ i → i < v.sp.half_files →
      sort_get_num_file_contents (v.sp.file_contents (v.sp.in_half + i)) =
        if i < k then n else n - 1 := by
    intro i hi0 hi1
    rw [hturn i hi0 hi1, hn, hk]
    unfold turn_runs
    split_ifs <;> omega
  have hcnt : count_num_runs v.sp a a.toNat v.sp.in_half 0 = n := by
    have := count_num_runs_spec v.sp a n
      (by
        intro i hi0 hi1
        rw [hlen i hi0 (by omega)]
        split_ifs <;> omega)
      a.toNat 0 0 (le_refl _) (by omega) (by omega)
      (Or.inr ⟨0, le_refl _, by omega, by rw [hlen 0 (le_refl _) (by omega), if_pos (by omega)]⟩)
    rw [add_zero] at this
    exact this
  have han : (n = 1 → a = k ∧ 2 ≤ k) ∧ (n ≠ 1 → a = v.sp.half_files) := by
    rw [hn, ha, hk]
    rw [ha] at hact
    constructor
    · intro h
      split_ifs at h hact ⊢ <;> omega
    · intro h
      split_ifs at h hact ⊢ <;> omega
  refine ⟨n, k, hn1, hcnt, ?_, ?_, ?_, ?_⟩
  · refine ⟨hn1, by show 2 ≤ v.sp.half_files; omega, hms.buffers, hms.tempfiles, hms.halves,
      hk1, ?_, hlen, ?_, ?_, ?_, hpub⟩
    · intro i hi0 hi1'
      have hi1 : i < v.sp.half_files := hi1'
      clear hi1'
      have hfr := hms.runs i hi0 hi1
      unfold FileRuns at hfr
      have hcp : (distribute_memory v a).cur_page (v.sp.in_half + i) = 0 := by
        show (if 0 ≤ v.sp.in_half + i ∧ v.sp.in_half + i < v.sp.tot_tempfiles then 0
          else v.cur_page (v.sp.in_half + i)) = 0
        rw [if_pos]
        have := hms.tempfiles
        rcases hms.halves with ⟨x, y⟩ | ⟨x, y⟩ <;> omega
      have goal : (v.sp.file_contents (v.sp.in_half + i)).first_run = -1 ∨
          (0 ≤ (v.sp.file_contents (v.sp.in_half + i)).first_run ∧
            (v.sp.file_contents (v.sp.in_half + i)).first_run ≤
              (v.sp.file_contents (v.sp.in_half + i)).last_run ∧
            (∀ t, (v.sp.file_contents (v.sp.in_half + i)).first_run ≤ t →
              t ≤ (v.sp.file_contents (v.sp.in_half + i)).last_run →
              1 ≤ (v.sp.file_contents (v.sp.in_half + i)).num_pages t) ∧
            ∃ q, RunsTo E (v.sp.temp (v.sp.in_half + i))
              (v.sp.file_contents (v.sp.in_half + i)).num_pages
              ((v.sp.file_contents (v.sp.in_half + i)).last_run -
                (v.sp.file_contents (v.sp.in_half + i)).first_run + 1).toNat
              (v.sp.file_contents (v.sp.in_half + i)).first_run
              ((distribute_memory v a).cur_page (v.sp.in_half + i)) q) := by
        rcases hfr with h | ⟨h1, h2, h3, q, h4⟩
        · exact Or.inl h
        · right
          refine ⟨by omega, by omega, ?_, q, ?_⟩
          · intro t ht0 ht1
            exact h3 t (by omega) ht1
          · rw [hcp, h1, sub_zero]
            exact h4
      exact goal
    · intro i hi0 hi1'
      have hi1 : i < v.sp.half_files := hi1'
      clear hi1'
      have he := hms.empty i hi0 hi1
      constructor
      · left
        refine ⟨he, ?_⟩
        show (if 0 ≤ v.out_half + i ∧ v.out_half + i < v.sp.tot_tempfiles then 0
          else v.cur_page (v.out_half + i)) - 0 = 0
        rw [if_pos]
        · rfl
        · have := hms.tempfiles
          rcases hms.halves with ⟨x, y⟩ | ⟨x, y⟩ <;> omega
      · intro hne
        exact absurd he hne
    · refine ⟨0, 0, le_refl _, le_refl _, by show 0 < v.sp.half_files; omega,
        by show v.out_half = v.out_half + 0; omega, ?_⟩
      intro i hi0 hi1'
      have hi1 : i < v.sp.half_files := hi1'
      clear hi1'
      have he := hms.empty i hi0 hi1
      show sort_get_num_file_contents (v.sp.file_contents (v.out_half + i)) = _
      unfold sort_get_num_file_contents turn_runs
      rw [if_neg (by simpa using he), if_neg (by omega)]
      rfl
    · intro hv
      have hn1' : n = 1 := of_decide_eq_true hv
      exact ⟨hn1', (han.1 hn1').2, rfl, hms.empty⟩
  · exact distribute_layout v a (by omega) ha2 hms.buffers hms.halves _
  · intro hv
    have hn1' : n ≠ 1 := of_decide_eq_false hv
    exact han.2 hn1'
  · intro hv
    have hn1' : n = 1 := of_decide_eq_true hv
    exact (han.1 hn1').1

/-- One pass of the merge keeps the invariant of the outer loop. -/
theorem merge_pass_spec (E : MergeEnv) (hE : EnvSift E) (fuel : Nat) (v : MergeVars)
    (hvl : v.very_last_run = false) (hpub : v.published = [])
    (hms : MergeStart E v.sp v.out_half)
    (hact : sort_get_numpages_of_active_infiles v.sp > 1) :
    (merge_pass E fuel v (sort_get_numpages_of_active_infiles v.sp)).Safe E
      (fun w => OuterInv E w) := by
  obtain ⟨n, k, hn1, hcnt, hpass⟩ := pass_start E v hpub hms hact
  unfold merge_pass
  simp only
  have hcnt' : count_num_runs
      (distribute_memory v (sort_get_numpages_of_active_infiles v.sp)).sp
      (sort_get_numpages_of_active_infiles v.sp)
      (sort_get_numpages_of_active_infiles v.sp).toNat
      (distribute_memory v (sort_get_numpages_of_active_infiles v.sp)).sp.in_half 0 = n := hcnt
  rw [hcnt']
  have e2 : mark_last_run (distribute_memory v (sort_get_numpages_of_active_infiles v.sp)) n =
      { distribute_memory v (sort_get_numpages_of_active_infiles v.sp) with
        very_last_run := decide (n = 1) } := by
    unfold mark_last_run
    by_cases h : n = 1
    · rw [if_pos h]
      simp only [h, decide_True]
    · rw [if_neg h]
      simp only [h, decide_False]
      have : (distribute_memory v (sort_get_numpages_of_active_infiles v.sp)).very_last_run =
          false := hvl
      rw [← this]
  rw [e2]
  have hruns := produce_runs_spec E hE fuel k fuel _ n (by omega) (fun _ => hpass)
    (fun h => by omega)
  cases hp : produce_runs E fuel fuel
      { distribute_memory v (sort_get_numpages_of_active_infiles v.sp) with
        very_last_run := decide (n = 1) } n with
  | stop s p =>
    rw [hp] at hruns
    exact hruns
  | next v3 =>
    rw [hp] at hruns
    exact pass_end_outer E v3 hruns

/-- The outer loop of the merge: the records published are in strictly ascending
order whenever it stops or ends. -/
theorem merge_outer_loop_spec (E : MergeEnv) (hE : EnvSift E) (fuel : Nat) :
    ∀ (n : Nat) (v : MergeVars), OuterInv E v →
      (merge_outer_loop E fuel n v).Safe E (fun w => PubOK E w.published) := by
  intro n
  induction n with
  | zero =>
    intro v hinv
    show PubOK E v.published
    rcases hinv with ⟨_, h, _⟩ | ⟨_, h, _⟩
    · exact h
    · rw [h]; exact PubOK_nil E
  | succ n ih =>
    intro v hinv
    unfold merge_outer_loop
    simp only
    by_cases hc : sort_get_numpages_of_active_infiles v.sp > 1
    · rw [if_pos hc]
      rcases hinv with ⟨_, _, h⟩ | ⟨h1, h2, h3⟩
      · omega
      · have hpass := merge_pass_spec E hE fuel v h1 h2 h3 hc
        cases hp : merge_pass E fuel v (sort_get_numpages_of_active_infiles v.sp) with
        | stop s p =>
          rw [hp] at hpass
          exact hpass
        | next v1 =>
          rw [hp] at hpass
          exact ih v1 hpass
    · rw [if_neg hc]
      show PubOK E v.published
      rcases hinv with ⟨_, h, _⟩ | ⟨_, h, _⟩
      · exact h
      · rw [h]; exact PubOK_nil E

theorem Step.Safe.published (E : MergeEnv) (st : Step MergeVars)
    (h : st.Safe E (fun w => PubOK E w.published)) : PubOK E st.published_records := by
  cases st with
  | next s => exact h
  | stop w p => exact h

/-- The records that `sort_exphase_merge_elim_dup` publishes are in strictly
ascending order of the comparator, for every bound on the number of iterations,
whether it runs to its end or stops. -/
theorem merge_elim_dup_ascending (E : MergeEnv) (hE : EnvSift E) (fuel : Nat) (sp : SortParam)
    (junk : MergeVars)
    (hms : MergeStart E sp (if sp.in_half = 0 then sp.half_files else 0)) :
    PubOK E (sort_exphase_merge_elim_dup E fuel sp junk).published_records := by
  apply Step.Safe.published
  unfold sort_exphase_merge_elim_dup
  apply merge_outer_loop_spec E hE fuel fuel
  right
  exact ⟨rfl, rfl, hms⟩

/-! ### The claim on the elimination of duplicates -/

theorem example_env_ok : EnvOK example_env := by
  refine ⟨by show env16k.Valid; decide, by show ValidAlignment 8; decide, ?_,
    fun _ _ => rfl, fun _ _ => rfl⟩
  refine ⟨fun a => ?_, fun a b => ?_, fun a b c => ?_, fun a b c => ?_⟩ <;>
    simp only [example_env] <;> omega

theorem page_of_keys_inv (keys : List Nat)
    (h : (insert_records env16k insertion_qsort ( sort_spage_initialize env16k blank_page 0 8)
      (keys.map (fun k => (true, key_record k)))).isSome = true) :
    PageInv env16k 8 (page_of_keys keys) := by
  unfold page_of_keys
  cases hi : insert_records env16k insertion_qsort ( sort_spage_initialize env16k blank_page 0 8)
      (keys.map (fun k => (true, key_record k))) with
  | none => rw [hi] at h; cases h
  | some pg =>
    simp only [Option.getD_some]
    refine insert_records_inv env16k (by decide) 8 (by decide) insertion_qsort _ _ pg
      (initialize_inv env16k (by decide) _ _ _ (by decide)) ?_ hi
    intro x hx
    simp only [List.mem_map] at hx
    obtain ⟨k, _, e⟩ := hx
    rw [← e]
    rfl

theorem example_run_ok (f p : Int) (keys : List Nat)
    (hpg : example_merge_param.temp f p = page_of_keys keys)
    (h : (insert_records env16k insertion_qsort ( sort_spage_initialize env16k blank_page 0 8)
      (keys.map (fun k => (true, key_record k)))).isSome = true)
    (hasc : KeyAsc example_env (page_records (page_of_keys keys))) :
    RunOK example_env (example_merge_param.temp f) p 1 := by
  unfold RunOK
  rw [pages_seq_one, hpg]
  constructor
  · intro pg hp
    simp only [List.mem_singleton] at hp
    rw [hp]
    exact page_of_keys_inv keys h
  · rw [recs_of_cons, recs_of_nil, List.append_nil]
    exact hasc

theorem example_merge_start : MergeStart example_env example_merge_param 2 := by
  have r13 : RunOK example_env (example_merge_param.temp 0) 0 1 :=
    example_run_ok 0 0 [1, 3] rfl (by decide) (by unfold KeyAsc; decide)
  have r23 : RunOK example_env (example_merge_param.temp 0) 1 1 :=
    example_run_ok 0 1 [2, 3] rfl (by decide) (by unfold KeyAsc; decide)
  have r23' : RunOK example_env (example_merge_param.temp 1) 0 1 :=
    example_run_ok 1 0 [2, 3] rfl (by decide) (by unfold KeyAsc; decide)
  refine ⟨by decide, by decide, Or.inl ⟨rfl, rfl⟩, ?_, ?_, ?_⟩
  · intro i hi0 hi1
    have hi1' : i < 2 := hi1
    have h01 : i = 0 ∨ i = 1 := by omega
    rcases h01 with e | e
    · rw [e]
      right
      refine ⟨rfl, by decide, fun _ _ _ => le_refl _, 2, ?_⟩
      show RunsTo example_env (example_merge_param.temp 0) (fun _ => 1) 2 0 0 2
      simp only [RunsTo]
      exact ⟨by decide, r13, by decide, r23, by decide⟩
    · rw [e]
      right
      refine ⟨rfl, by decide, fun _ _ _ => le_refl _, 1, ?_⟩
      show RunsTo example_env (example_merge_param.temp 1) (fun _ => 1) 1 0 0 1
      simp only [RunsTo]
      exact ⟨by decide, r23', by decide⟩
  · refine ⟨1, 1, by decide, by decide, by decide, ?_⟩
    intro i hi0 hi1
    have hi1' : i < 2 := hi1
    have h01 : i = 0 ∨ i = 1 := by omega
    rcases h01 with e | e <;> rw [e] <;> decide
  · intro i hi0 hi1
    have hi1' : i < 2 := hi1
    have h01 : i = 0 ∨ i = 1 := by omega
    rcases h01 with e | e <;> rw [e] <;> decide

theorem PubOK.adjacent (E : MergeEnv) (p : List RECDES) (h : PubOK E p) :
    List.Chain' (fun a b => E.compare a.data b.data ≠ 0) p := by
  unfold PubOK at h
  exact (List.Pairwise.chain' h).imp (fun {a b} hab => by omega)

/-- C2: with the policy `SORT_ELIM_DUP` the comparator is not zero on two
adjacent records of what is handed out. (a) For every pointer array of distinct
records whose cells `0 .. limit - sort_numrecs - 1` hold the new records `A` and
whose other cells hold the records `Kpre` kept by the sort before in strictly
ascending order, `sort_run_sort` returns, and the comparator is not zero on two
adjacent records of the array it hands back. (b) On a host whose comparator
imposes a strict weak order (`EnvOK`), from temp files that hold runs in strictly
ascending order that went to the files of the input half in turn (`MergeStart`),
the comparator is not zero on two adjacent records of the records that
`sort_exphase_merge_elim_dup` publishes, for every bound on the number of
iterations, whether it runs to its end or stops. (c) For the input
`[3, 1, 2, 3, 2, 3]`, `sort_run_sort` hands back the records of the keys
`[1, 2, 3]`; the merge of its runs `[1, 3]`, `[2, 3]`, `[2, 3]` runs to its end
and publishes `[1]`, `[2]`, `[3]`; and `sort_listfile` hands `[1]`, `[2]`, `[3]` to
the consumer. -/
theorem elim_dup_no_equal_neighbours (compare : Nat → Nat → Int)
    (hswo : StrictWeakOrder compare) (m : SortMem) (limit sort_numrecs : Int)
    (A Kpre : List Nat) (h0 : 0 ≤ sort_numrecs) (h1 : sort_numrecs ≤ limit)
    (hA : seg m.high 0 (limit - sort_numrecs - 1) = A.map some)
    (hpre : seg m.high (limit - sort_numrecs) (limit - 1) = Kpre.map some)
    (hasc : StrictAsc compare Kpre) (hnd : (A ++ Kpre).Nodup)
    (E : MergeEnv) (hE : EnvOK E) (fuel : Nat) (sp : SortParam) (junk : MergeVars)
    (hms : MergeStart E sp (if sp.in_half = 0 then sp.half_files else 0)) :
    (∃ (r : SortResult) (K : List Nat), sort_run_sort compare SORT_DUP_OPTION.SORT_ELIM_DUP m limit sort_numrecs limit =
        some r ∧ r.cells = K.map some ∧
      ∀ i, i + 1 < K.length → compare (K.getD i 0) (K.getD (i + 1) 0) ≠ 0) ∧
    List.Chain' (fun a b => E.compare a.data b.data ≠ 0)
      (sort_exphase_merge_elim_dup E fuel sp junk).published_records ∧
    (sort_run_sort (compare_keys example_keys) SORT_DUP_OPTION.SORT_ELIM_DUP (initial_mem 6)
        6 0 6).map (fun r => r.cells.map (Option.map (fun k => example_keys.getD k 0))) =
      some [some 1, some 2, some 3] ∧
    (sort_exphase_merge_elim_dup example_env 8 example_merge_param
      merge_vars_ten).finished.map (List.map (fun r => r.data)) = some [[1], [2], [3]] ∧
    put_data (sort_listfile (example_world [[3], [1], [2], [3], [2], [3]]) 7 0
      SORT_DUP_OPTION.SORT_ELIM_DUP example_vars).state.log = [[1], [2], [3]] := by
  refine ⟨?_, ?_, ?_, ?_, ?_⟩
  · obtain ⟨r, K, q1, q2, q3, _, _⟩ := sort_run_sort_elim_dup_ascending compare hswo m limit
      sort_numrecs A Kpre h0 h1 hA hpre hasc hnd
    exact ⟨r, K, q1, q2, fun i hi => StrictAsc_adjacent K q3 i hi⟩
  · exact PubOK.adjacent E _ (merge_elim_dup_ascending E hE.sift fuel sp junk hms)
  · decide
  · decide
  · decide

/-- C2 at a concrete input: the six records of the example of the specification
in the memory, and the merge of their runs on a host with pages of 16384
bytes. -/
theorem elim_dup_no_equal_neighbours_witness :
    StrictWeakOrder (compare_keys example_keys) ∧
    seg (initial_mem 6).high 0 (6 - 0 - 1) = [5, 4, 3, 2, 1, 0].map some ∧
    EnvOK example_env ∧
    MergeStart example_env example_merge_param 2 ∧
    (∃ (r : SortResult) (K : List Nat), sort_run_sort (compare_keys example_keys) SORT_DUP_OPTION.SORT_ELIM_DUP
        (initial_mem 6) 6 0 6 = some r ∧ r.cells = K.map some ∧
      ∀ i, i + 1 < K.length →
        compare_keys example_keys (K.getD i 0) (K.getD (i + 1) 0) ≠ 0) ∧
    List.Chain' (fun a b => example_env.compare a.data b.data ≠ 0)
      (sort_exphase_merge_elim_dup example_env 8 example_merge_param
        merge_vars_ten).published_records := by
  have h := elim_dup_no_equal_neighbours (compare_keys example_keys)
    (compare_keys_swo example_keys) (initial_mem 6) 6 0 [5, 4, 3, 2, 1, 0] []
    (by decide) (by decide) (by decide) (by decide) List.Pairwise.nil (by decide)
    example_env example_env_ok 8 example_merge_param merge_vars_ten example_merge_start
  exact ⟨compare_keys_swo example_keys, by decide, example_env_ok, example_merge_start,
    h.1, h.2.1⟩

/-! ## The in-memory sort: the runs found, sorted input, reverse input -/

/-! ### The run of `sort_run_find` is the longest one in its direction -/

/-- The scanning loops of `sort_run_find` with enough iterations: every
comparison they passed continued the run, and they end at the last cell or at a
comparison that does not continue the run. The cells compared are cells of the
source as it was at the start. -/
theorem scan_loop_mono (compare : Nat → Nat → Int) (hswo : StrictWeakOrder compare)
    (option : SORT_DUP_OPTION) (fuel : Nat) (m0 : SortMem) (start limit : Int) (A : List Nat)
    (hA : seg m0.high start (limit - 1) = A.map some) (hnd : A.Nodup)
    (hA0 : option = SORT_DUP_OPTION.SORT_DUP → ∀ x ∈ A, m0.next x = none) (inc : Bool) :
    ∀ (n : Nat) (m : SortMem) (stop d : Int), stop < limit →
      ScanInv compare option m0 start A inc m stop d → (limit - stop - 1).toNat ≤ n →
      ∃ sc, sort_run_find_scan compare fuel option limit inc n
          { mem := m, stop := stop, dup_num := d } = some sc ∧
        ScanInv compare option m0 start A inc sc.mem sc.stop sc.dup_num ∧
        stop ≤ sc.stop ∧ sc.stop < limit ∧
        (∀ i a y, stop ≤ i → i < sc.stop → m0.high i = some a → m0.high (i + 1) = some y →
          (if inc = true then compare a y ≤ 0 else compare a y ≥ 0)) ∧
        (∀ a y, sc.stop + 1 < limit → m0.high sc.stop = some a →
          m0.high (sc.stop + 1) = some y →
          ¬ (if inc = true then compare a y ≤ 0 else compare a y ≥ 0)) := by
  intro n
  induction n with
  | zero =>
    intro m stop d hlim hI hn
    exact ⟨_, rfl, hI, le_refl _, hlim, fun i a y h1 h2 => by simp only [] at h2; omega,
      fun a y h => by simp only [] at h; omega⟩
  | succ n ih =>
    intro m stop d hlim hI hn
    by_cases h1 : stop + 1 < limit
    · obtain ⟨a, y, hma, hmy, hstep⟩ := scan_step compare hswo option fuel m0 start limit A hA hnd
        hA0 inc m stop d hI h1
      have hm0a : m0.high stop = some a := by
        obtain ⟨K, B, R, g1, g2, g3, g4, g5, g6, g7, g8, g9, g10, g11, g12⟩ := hI
        rw [← g5]; exact hma
      have hm0y : m0.high (stop + 1) = some y := by
        obtain ⟨K, B, R, g1, g2, g3, g4, g5, g6, g7, g8, g9, g10, g11, g12⟩ := hI
        rw [← g10 _ (Or.inr (by omega))]; exact hmy
      by_cases hcond : (if inc = true then compare a y ≤ 0 else compare a y ≥ 0)
      · obtain ⟨m1, d1, e1, hI1⟩ := hstep hcond
        obtain ⟨sc, e2, hI2, h2, h3, h4, h5⟩ := ih m1 (stop + 1) d1 h1 hI1 (by omega)
        refine ⟨sc, ?_, hI2, by omega, h3, ?_, h5⟩
        · simp only [sort_run_find_scan, if_pos h1, hma, hmy, compare_cells, if_pos hcond, e1]
          exact e2
        · intro i a1 y1 hi1 hi2 ha1 hy1
          by_cases hi : i = stop
          · subst hi
            rw [hm0a] at ha1
            rw [hm0y] at hy1
            obtain rfl := Option.some.inj ha1
            obtain rfl := Option.some.inj hy1
            exact hcond
          · exact h4 i a1 y1 (by omega) hi2 ha1 hy1
      · refine ⟨{ mem := m, stop := stop, dup_num := d }, ?_, hI, le_refl _, hlim,
          fun i a y h1 h2 => by simp only [] at h2; omega, ?_⟩
        · simp only [sort_run_find_scan, if_pos h1, hma, hmy, compare_cells, if_neg hcond]
        · intro a1 y1 _ ha1 hy1
          simp only [] at ha1 hy1
          rw [hm0a] at ha1
          rw [hm0y] at hy1
          obtain rfl := Option.some.inj ha1
          obtain rfl := Option.some.inj hy1
          exact hcond
    · refine ⟨{ mem := m, stop := stop, dup_num := d }, ?_, hI, le_refl _, hlim,
        fun i a y h1 h2 => by simp only [] at h2; omega, fun a y h => by simp only [] at h; omega⟩
      simp only [sort_run_find_scan, if_neg h1]

/-- `sort_run_find` returns and pushes a run as in `sort_run_find_spec`; the
direction `inc` of the run is that of its first comparison (`<= 0`: increasing),
every two neighbouring cells it went through continue the run in that direction,
the cell behind the last one does not, and the cursor moved on by two cells or
to `limit`. -/
theorem sort_run_find_run (compare : Nat → Nat → Int) (hswo : StrictWeakOrder compare)
    (option : SORT_DUP_OPTION) (fuel : Nat) (limit : Int) (s : SortState) (A : List Nat)
    (htop : s.top < limit) (hA : seg s.mem.high s.top (limit - 1) = A.map some)
    (hnd : A.Nodup) (hA0 : option = SORT_DUP_OPTION.SORT_DUP → ∀ x ∈ A, s.mem.next x = none) :
    ∃ s1 e B R inc, sort_run_find compare fuel option limit s = some s1 ∧
      s1.stack = e :: s.stack ∧ s1.top = e.stop + 1 ∧ s1.top ≤ limit ∧
      e.low_high = Side.H ∧ e.tree_depth = 1 ∧
      A = B.reverse ++ R ∧ RunInv compare option s1.mem e s.top B ∧
      (∀ i, (i < s.top ∨ e.stop < i) → s1.mem.high i = s.mem.high i) ∧
      s1.mem.low = s.mem.low ∧ (∀ x, x ∉ B → s1.mem.next x = s.mem.next x) ∧
      (s.top + 2 ≤ s1.top ∨ s1.top = limit) ∧
      (∀ a y, s.top + 1 < limit → s.mem.high s.top = some a → s.mem.high (s.top + 1) = some y →
        inc = decide (compare a y ≤ 0)) ∧
      (∀ i a y, s.top ≤ i → i < e.stop → s.mem.high i = some a → s.mem.high (i + 1) = some y →
        (if inc = true then compare a y ≤ 0 else compare a y ≥ 0)) ∧
      (∀ a y, e.stop + 1 < limit → s.mem.high e.stop = some a →
        s.mem.high (e.stop + 1) = some y →
        ¬ (if inc = true then compare a y ≤ 0 else compare a y ≥ 0)) := by
  have hI0 : ∀ inc, ScanInv compare option s.mem s.top A inc s.mem s.top 0 :=
    fun inc => scan_init compare hswo option s.mem s.top limit A hA hA0 inc htop
  by_cases hdeg : s.top ≥ limit - 1
  · have hstop : limit - 1 = s.top := by omega
    obtain ⟨a, ha, -⟩ := seg_eq_map_iff s.mem.high s.top (limit - 1) A hA s.top (le_refl _)
      (by omega)
    obtain ⟨B, R, q1, q2, q3, q4, q5⟩ := find_finish compare option s.mem s.top A true s.mem s.top
      0 ⟨a, ha⟩ (hI0 true) s.mem s.mem (by simp) (by simp)
    refine ⟨{ mem := s.mem,
              stack := { low_high := Side.H, tree_depth := 1, start := s.top, stop := limit - 1 } ::
                s.stack,
              top := limit },
      { low_high := Side.H, tree_depth := 1, start := s.top, stop := limit - 1 }, B, R, true,
      by simp only [sort_run_find, if_pos hdeg], rfl, by simp only []; omega,
      le_refl _, rfl, rfl, q1, ?_, ?_, q4, q5, Or.inr rfl, fun _ _ h => by omega,
      fun i _ _ h1 h2 => by simp only [] at h2; omega, fun _ _ h => by simp only [] at h; omega⟩
    · rw [hstop]
      simpa using q2
    · intro i _
      rfl
  · obtain ⟨a, ha, -⟩ := seg_eq_map_iff s.mem.high s.top (limit - 1) A hA s.top (le_refl _)
      (by omega)
    obtain ⟨y, hy, -⟩ := seg_eq_map_iff s.mem.high s.top (limit - 1) A hA (s.top + 1) (by omega)
      (by omega)
    obtain ⟨a1, y1, hma, hmy, hstep⟩ := scan_step compare hswo option fuel s.mem s.top limit A hA
      hnd hA0 (decide (¬ (compare a y > 0))) s.mem s.top 0 (hI0 _) (by omega)
    rw [ha] at hma
    rw [hy] at hmy
    obtain rfl : a = a1 := Option.some.inj hma
    obtain rfl : y = y1 := Option.some.inj hmy
    have hcond0 : (if decide (¬ (compare a y > 0)) = true then compare a y ≤ 0
        else compare a y ≥ 0) := by
      by_cases hc : compare a y > 0
      · rw [if_neg (by simpa using hc)]; omega
      · rw [if_pos (by simpa using hc)]; omega
    -- the first comparison and its `SORT_CHECK_DUPLICATE`
    have hfirst : ∃ m1 d1, (if compare a y > 0 then some (s.mem, (0 : Int))
          else SORT_CHECK_DUPLICATE fuel option (compare a y) s.mem 0 s.top (s.top + 1)) =
          some (m1, d1) ∧
        ScanInv compare option s.mem s.top A (decide (¬ (compare a y > 0))) m1 (s.top + 1) d1 := by
      obtain ⟨m1, d1, e1, hI1⟩ := hstep hcond0
      by_cases hc : compare a y > 0
      · refine ⟨m1, d1, ?_, hI1⟩
        rw [if_pos hc, ← e1]
        simp only [SORT_CHECK_DUPLICATE, if_neg (show ¬ compare a y = 0 by omega)]
      · exact ⟨m1, d1, by rw [if_neg hc, e1], hI1⟩
    obtain ⟨m1, d1, e1, hI1⟩ := hfirst
    obtain ⟨sc, e2, hI2, hs1, hs2, hs3, hs4⟩ := scan_loop_mono compare hswo option fuel s.mem s.top
      limit A hA hnd hA0 (decide (¬ (compare a y > 0))) (limit - (s.top + 1)).toNat m1 (s.top + 1)
      d1 (by omega) hI1 (by omega)
    obtain ⟨z, hz, -⟩ := seg_eq_map_iff s.mem.high s.top (limit - 1) A hA sc.stop (by omega)
      (by omega)
    obtain ⟨M1, hM1⟩ : ∃ M1, M1 = if sc.dup_num ≠ 0 then
        sort_run_find_shift s.top (sc.stop - s.top).toNat sc.mem (sc.stop - 1) (sc.stop - 2)
        else sc.mem := ⟨_, rfl⟩
    obtain ⟨M2, hM2⟩ : ∃ M2, M2 = if decide (¬ (compare a y > 0)) ≠ true then
        sort_run_flip Side.H M1 (s.top + sc.dup_num) sc.stop else M1 := ⟨_, rfl⟩
    obtain ⟨B, R, q1, q2, q3, q4, q5⟩ := find_finish compare option s.mem s.top A _ sc.mem sc.stop
      sc.dup_num ⟨z, hz⟩ hI2 M1 M2 hM1 hM2
    have etop : s.top + (sc.stop - s.top) = sc.stop := by omega
    refine ⟨{ mem := M2,
              stack := { low_high := Side.H, tree_depth := 1, start := s.top + sc.dup_num,
                         stop := s.top + (sc.stop - s.top) } :: s.stack,
              top := s.top + (sc.stop - s.top) + 1 },
      { low_high := Side.H, tree_depth := 1, start := s.top + sc.dup_num,
        stop := s.top + (sc.stop - s.top) }, B, R, decide (¬ (compare a y > 0)),
      ?_, rfl, rfl, ?_, rfl, rfl, q1, ?_, ?_, q4, q5, ?_, ?_, ?_, ?_⟩
    · rw [hM2, hM1]
      simp only [sort_run_find, if_neg hdeg, ha, hy, compare_cells, e1, e2]
    · simp only []
      omega
    · simp only []
      rw [etop]
      exact q2
    · simp only []
      rw [etop]
      exact q3
    · left
      simp only []
      omega
    · intro a2 y2 _ ha2 hy2
      rw [ha] at ha2
      rw [hy] at hy2
      obtain rfl := Option.some.inj ha2
      obtain rfl := Option.some.inj hy2
      by_cases hc : compare a y > 0
      · simp [hc]
      · simp [hc]
        omega
    · intro i a2 y2 hi1 hi2 ha2 hy2
      simp only [] at hi2
      rw [etop] at hi2
      by_cases hi : i = s.top
      · subst hi
        rw [ha] at ha2
        rw [hy] at hy2
        obtain rfl := Option.some.inj ha2
        obtain rfl := Option.some.inj hy2
        exact hcond0
      · exact hs3 i a2 y2 (by omega) hi2 ha2 hy2
    · intro a2 y2 h1 ha2 hy2
      simp only [] at h1 ha2 hy2
      rw [etop] at h1 ha2 hy2
      exact hs4 a2 y2 h1 ha2 hy2

/-- Two flips of the same cells leave every cell as it was. -/
theorem sort_run_flip_twice (s : Side) (m : SortMem) (a b : Int) (t : Side) (i : Int) :
    (sort_run_flip s (sort_run_flip s m a b) a b).get t i = m.get t i := by
  obtain ⟨h1, h2, -⟩ := flip_loop_spec s (b - a).toNat m a b (le_refl _)
  obtain ⟨g1, g2, -⟩ := flip_loop_spec s (b - a).toNat (sort_run_flip s m a b) a b (le_refl _)
  by_cases hin : t = s ∧ a ≤ i ∧ i ≤ b
  · obtain ⟨rfl, hi1, hi2⟩ := hin
    show (sort_run_flip_loop t (b - a).toNat (sort_run_flip t m a b) a b).get t i = _
    rw [g1 i hi1 hi2]
    show (sort_run_flip_loop t (b - a).toNat m a b).get t (a + b - i) = _
    rw [h1 (a + b - i) (by omega) (by omega)]
    congr 1
    omega
  · have hout : t = s → i < a ∨ b < i := by
      intro e
      by_contra hc
      exact hin ⟨e, by omega, by omega⟩
    show (sort_run_flip_loop s (b - a).toNat (sort_run_flip s m a b) a b).get t i = _
    rw [g2 t i hout]
    exact h2 t i hout

/-- The cell `start + i` of a buffer whose cells from `start` hold the records `A`. -/
theorem seg_cell (buf : Int → Option Nat) (a b : Int) (A : List Nat)
    (hA : seg buf a b = A.map some) (i : Nat) (hi : i < A.length) :
    buf (a + (i : Int)) = some A[i] := by
  have hlen : A.length = (b + 1 - a).toNat := by
    have := congrArg List.length hA
    rw [seg_length, List.length_map] at this
    exact this.symm
  obtain ⟨x, hx, hxA⟩ := seg_eq_map_iff buf a b A hA (a + (i : Int)) (by omega) (by omega)
  have e : (a + (i : Int) - a).toNat = i := by omega
  rw [e, List.getElem?_eq_getElem hi] at hxA
  rw [hx, ← Option.some.inj hxA]

/-- C27 (amended): after a `sort_run_find` call on the cells `top .. limit - 1` of
the source, which hold the distinct records `A`: the call returns; it went
through the cells of a prefix `P` of `A` and moved the cursor behind them, by at
least one cell; the run it pushes lies within these cells and ends at the last of
them, its cells hold no `NULL` and are in strictly ascending order of the
comparator, and it holds one record of every class of equal records of `P` (the
duplicates are removed); `P` is the longest prefix of `A` that continues in the
direction of its first comparison: weakly ascending when the first two records
compare `<= 0`, weakly descending when they compare `> 0`. `sort_run_flip`
reverses the cells `start .. stop` in place and touches no other cell, and two
flips restore every cell. -/
theorem find_pushes_longest_directed_run (compare : Nat → Nat → Int)
    (hswo : StrictWeakOrder compare) (option : SORT_DUP_OPTION) (fuel : Nat) (limit : Int)
    (s : SortState) (A : List Nat) (htop : s.top < limit)
    (hA : seg s.mem.high s.top (limit - 1) = A.map some) (hnd : A.Nodup)
    (hA0 : option = SORT_DUP_OPTION.SORT_DUP → ∀ x ∈ A, s.mem.next x = none) :
    (∃ s1 e P R K inc, sort_run_find compare fuel option limit s = some s1 ∧
      s1.stack = e :: s.stack ∧ A = P ++ R ∧ (P.length : Int) = s1.top - s.top ∧
      s.top + 1 ≤ s1.top ∧ s1.top ≤ limit ∧
      s.top ≤ e.start ∧ e.start ≤ e.stop ∧ e.stop + 1 = s1.top ∧
      seg s1.mem.high e.start e.stop = K.map some ∧ StrictAsc compare K ∧
      (∀ k ∈ K, k ∈ P) ∧ (∀ x ∈ P, ∃ k ∈ K, compare x k = 0) ∧
      (∀ a y rest, A = a :: y :: rest → inc = decide (compare a y ≤ 0)) ∧
      WeaklyMonotone compare inc P ∧
      (∀ r R1, R = r :: R1 → ¬ WeaklyMonotone compare inc (P ++ [r]))) ∧
    (∀ (side : Side) (m : SortMem) (start stop : Int),
      seg (fun i => (sort_run_flip side m start stop).get side i) start stop =
        (seg (fun i => m.get side i) start stop).reverse ∧
      (∀ t i, (t = side → i < start ∨ stop < i) →
        (sort_run_flip side m start stop).get t i = m.get t i) ∧
      (∀ t i, (sort_run_flip side (sort_run_flip side m start stop) start stop).get t i =
        m.get t i)) := by
  refine ⟨?_, fun side m start stop =>
    ⟨(sort_run_flip_spec side m start stop).1, (sort_run_flip_spec side m start stop).2.1,
      fun t i => sort_run_flip_twice side m start stop t i⟩⟩
  obtain ⟨s1, e, B, R, inc, h1, h2, h3, h4, h5, h6, h7, h8, h9, h10, h11, h12, h13, h14, h15⟩ :=
    sort_run_find_run compare hswo option fuel limit s A htop hA hnd hA0
  obtain ⟨K, r1, r2, r3, r4, r5, r6, r7, -⟩ := h8
  have hAlen : (A.length : Int) = limit - s.top := by
    have := congrArg List.length hA
    rw [seg_length, List.length_map] at this
    omega
  have hPlen : (B.reverse.length : Int) = e.stop + 1 - s.top := by
    rw [List.length_reverse]; exact r3
  have hcell : ∀ (i : Nat) (hi : i < A.length), s.mem.high (s.top + (i : Int)) = some A[i] :=
    fun i hi => seg_cell s.mem.high s.top (limit - 1) A hA i hi
  have hPA : ∀ (i : Nat) (hi : i < B.reverse.length), ∃ hi1 : i < A.length,
      B.reverse[i] = A[i] := by
    intro i hi
    have hi1 : i < A.length := by
      rw [h7, List.length_append]; omega
    refine ⟨hi1, ?_⟩
    simp only [h7]
    rw [List.getElem_append_left hi]
  refine ⟨s1, e, B.reverse, R, K, inc, h1, h2, h7, by omega, by omega, h4, r1, r2, h3.symm,
    ?_, r5, ?_, ?_, ?_, ?_, ?_⟩
  · rw [h5] at r4
    exact r4
  · intro k hk
    exact List.mem_reverse.2 (r6 k hk)
  · intro x hx
    exact r7 x (List.mem_reverse.1 hx)
  · intro a y rest hAe
    have hl : 2 ≤ A.length := by rw [hAe]; simp
    have c0 := hcell 0 (by omega)
    have c1 := hcell 1 (by omega)
    simp only [hAe, List.getElem_cons_zero, List.getElem_cons_succ, Nat.cast_zero, add_zero,
      Nat.cast_one] at c0 c1
    exact h13 a y (by omega) c0 c1
  · intro i hi
    obtain ⟨hi1, e1⟩ := hPA i (by omega)
    obtain ⟨hi2, e2⟩ := hPA (i + 1) (by omega)
    have hi3 : i < B.reverse.length := by omega
    have hi4 : i + 1 < B.reverse.length := by omega
    have g1 : B.reverse.getD i 0 = A[i] := by
      rw [List.getD_eq_getElem _ _ hi3, e1]
    have g2 : B.reverse.getD (i + 1) 0 = A[i + 1] := by
      rw [List.getD_eq_getElem _ _ hi4, e2]
    rw [g1, g2]
    have c0 := hcell i hi1
    have c1 := hcell (i + 1) hi2
    have e3 : s.top + ((i + 1 : Nat) : Int) = s.top + (i : Int) + 1 := by push_cast; omega
    rw [e3] at c1
    exact h14 (s.top + (i : Int)) _ _ (by omega) (by omega) c0 c1
  · intro r R1 hR hmono
    have hPpos : 0 < B.reverse.length := by omega
    have hn : B.reverse.length - 1 < B.reverse.length := by omega
    have hlen1 : (B.reverse ++ [r]).length = B.reverse.length + 1 := by simp
    have hlast := hmono (B.reverse.length - 1) (by omega)
    have g1 : (B.reverse ++ [r]).getD (B.reverse.length - 1) 0 =
        B.reverse[B.reverse.length - 1] := by
      rw [List.getD_eq_getElem _ _ (by omega), List.getElem_append_left hn]
    have g2 : (B.reverse ++ [r]).getD (B.reverse.length - 1 + 1) 0 = r := by
      have e : B.reverse.length - 1 + 1 = B.reverse.length := by omega
      rw [e, List.getD_eq_getElem _ _ (by omega), List.getElem_append_right (le_refl _)]
      simp
    rw [g1, g2] at hlast
    obtain ⟨hi1, e1⟩ := hPA (B.reverse.length - 1) hn
    have hi2 : B.reverse.length < A.length := by
      rw [h7, hR]; simp
    have hr : A[B.reverse.length] = r := by
      simp only [h7, hR]
      rw [List.getElem_append_right (le_refl _)]
      simp
    have c0 := hcell (B.reverse.length - 1) hi1
    have c1 := hcell B.reverse.length hi2
    have e3 : s.top + ((B.reverse.length - 1 : Nat) : Int) = e.stop := by omega
    have e4 : s.top + (B.reverse.length : Int) = e.stop + 1 := by omega
    rw [e3] at c0
    rw [e4, hr] at c1
    have hlt : e.stop + 1 < limit := by
      have : (A.length : Int) = B.reverse.length + R.length := by
        rw [h7, List.length_append]; push_cast; rfl
      rw [hR] at this
      simp only [List.length_cons] at this
      push_cast at this
      omega
    apply h15 _ _ hlt c0 c1
    rw [← e1]
    exact hlast

/-- C27 (the claim as stated fails): the pointer array reads `5, 5, 3`. The first
comparison gives `0`, so `sort_run_find` builds an increasing run, ends it at the
`3` and leaves the cursor at the cell 2, with the run `[5]` in the cell 1; yet
the three cells together are weakly monotone (descending), so the run is not the
longest weakly monotone prefix. -/
theorem find_stops_at_direction_change_counterexample :
    (sort_run_find (compare_keys keys_five_five_three) 3 SORT_DUP_OPTION.SORT_ELIM_DUP 3
      { mem := initial_mem 3, stack := [], top := 0 }).map
        (fun s => (s.stack, s.top, seg s.mem.high 0 2)) =
      some ([{ low_high := Side.H, tree_depth := 1, start := 1, stop := 1 }], 2,
        [none, some 1, some 0]) ∧
    seg (initial_mem 3).high 0 2 = [2, 1, 0].map some ∧
    [2, 1, 0].map (fun k => keys_five_five_three.getD k 0) = [5, 5, 3] ∧
    WeaklyMonotone (compare_keys keys_five_five_three) false [2, 1, 0] := by
  decide

theorem find_pushes_longest_directed_run_witness :
    StrictWeakOrder (compare_keys keys_five_five_three) ∧
    (0 : Int) < 3 ∧ seg (initial_mem 3).high 0 (3 - 1) = [2, 1, 0].map some ∧
    [2, 1, 0].Nodup ∧
    ((∃ s1 e P R K inc, sort_run_find (compare_keys keys_five_five_three) 3
        SORT_DUP_OPTION.SORT_ELIM_DUP 3
        ({ mem := initial_mem 3, stack := [], top := 0 } : SortState) = some s1 ∧
      s1.stack = e :: ([] : List SRUN) ∧ [2, 1, 0] = P ++ R ∧ (P.length : Int) = s1.top - 0 ∧
      (0 : Int) + 1 ≤ s1.top ∧ s1.top ≤ 3 ∧
      (0 : Int) ≤ e.start ∧ e.start ≤ e.stop ∧ e.stop + 1 = s1.top ∧
      seg s1.mem.high e.start e.stop = K.map some ∧
      StrictAsc (compare_keys keys_five_five_three) K ∧
      (∀ k ∈ K, k ∈ P) ∧ (∀ x ∈ P, ∃ k ∈ K, compare_keys keys_five_five_three x k = 0) ∧
      (∀ a y rest, [2, 1, 0] = a :: y :: rest →
        inc = decide (compare_keys keys_five_five_three a y ≤ 0)) ∧
      WeaklyMonotone (compare_keys keys_five_five_three) inc P ∧
      (∀ r R1, R = r :: R1 →
        ¬ WeaklyMonotone (compare_keys keys_five_five_three) inc (P ++ [r]))) ∧
    (∀ (side : Side) (m : SortMem) (start stop : Int),
      seg (fun i => (sort_run_flip side m start stop).get side i) start stop =
        (seg (fun i => m.get side i) start stop).reverse ∧
      (∀ t i, (t = side → i < start ∨ stop < i) →
        (sort_run_flip side m start stop).get t i = m.get t i) ∧
      (∀ t i, (sort_run_flip side (sort_run_flip side m start stop) start stop).get t i =
        m.get t i))) :=
  ⟨compare_keys_swo keys_five_five_three, by decide, by decide, by decide,
    find_pushes_longest_directed_run (compare_keys keys_five_five_three)
      (compare_keys_swo keys_five_five_three) SORT_DUP_OPTION.SORT_ELIM_DUP 3 3
      { mem := initial_mem 3, stack := [], top := 0 } [2, 1, 0] (by decide) (by decide)
      (by decide) (fun h => by cases h)⟩

/-! ### An input in ascending order is one run -/

theorem index_area_from_seg (l : List Nat) :
    seg (index_area_from l) 0 ((l.length : Int) - 1) = l.reverse.map some := by
  apply List.ext_getElem
  · rw [seg_length, List.length_map, List.length_reverse]; omega
  · intro k h1 h2
    rw [seg_getElem]
    rw [List.length_map, List.length_reverse] at h2
    have hk : 0 ≤ (0 : Int) + (k : Int) ∧ (0 : Int) + (k : Int) < l.length := by omega
    have e : ((0 : Int) + (k : Int)).toNat = k := by omega
    simp only [index_area_from, hk, and_self, if_true, e, List.getElem_map, List.getElem_reverse]
    rw [List.get?_eq_getElem?, List.getElem?_eq_getElem]

/-- A list in strictly ascending order has no record twice. -/
theorem StrictAsc.nodup {compare : Nat → Nat → Int} (hswo : StrictWeakOrder compare)
    {K : List Nat} (h : StrictAsc compare K) : K.Nodup := by
  unfold StrictAsc at h
  refine h.imp ?_
  intro a b hab e
  rw [e, hswo.refl] at hab
  omega

/-- Two lists in strictly ascending order with the same records are equal. -/
theorem StrictAsc.unique {compare : Nat → Nat → Int} (hswo : StrictWeakOrder compare) :
    ∀ (K1 K2 : List Nat), StrictAsc compare K1 → StrictAsc compare K2 →
      (∀ x, x ∈ K1 ↔ x ∈ K2) → K1 = K2 := by
  intro K1
  induction K1 with
  | nil =>
    intro K2 _ _ h
    cases K2 with
    | nil => rfl
    | cons b t => exact absurd ((h b).2 (List.mem_cons_self _ _)) (List.not_mem_nil _)
  | cons a t1 ih =>
    intro K2 h1 h2 h
    cases K2 with
    | nil => exact absurd ((h a).1 (List.mem_cons_self _ _)) (List.not_mem_nil _)
    | cons b t2 =>
      have p1 := List.pairwise_cons.1 h1
      have p2 := List.pairwise_cons.1 h2
      have hab : a = b := by
        by_contra hne
        have ha : a ∈ t2 := by
          rcases List.mem_cons.1 ((h a).1 (List.mem_cons_self _ _)) with e | e
          · exact absurd e hne
          · exact e
        have hb : b ∈ t1 := by
          rcases List.mem_cons.1 ((h b).2 (List.mem_cons_self _ _)) with e | e
          · exact absurd e.symm hne
          · exact e
        have c1 := p1.1 b hb
        have c2 := p2.1 a ha
        have := (hswo.symm a b).1 c1
        omega
      subst hab
      congr 1
      apply ih t2 p1.2 p2.2
      intro x
      have hna1 : a ∉ t1 := fun hx => by
        have := p1.1 a hx
        rw [hswo.refl] at this
        omega
      have hna2 : a ∉ t2 := fun hx => by
        have := p2.1 a hx
        rw [hswo.refl] at this
        omega
      constructor
      · intro hx
        rcases List.mem_cons.1 ((h x).1 (List.mem_cons_of_mem _ hx)) with e | e
        · rw [e] at hx; exact absurd hx hna1
        · exact e
      · intro hx
        rcases List.mem_cons.1 ((h x).2 (List.mem_cons_of_mem _ hx)) with e | e
        · rw [e] at hx; exact absurd hx hna2
        · exact e

/-- Records of a list in strictly ascending order that compare equal are the
same record. -/
theorem StrictAsc.eq_of_compare_eq {compare : Nat → Nat → Int} (hswo : StrictWeakOrder compare)
    {K : List Nat} (h : StrictAsc compare K) {x y : Nat} (hx : x ∈ K) (hy : y ∈ K)
    (hxy : compare x y = 0) : x = y := by
  by_contra hne
  unfold StrictAsc at h
  have h2 : K.Pairwise (fun a b => compare a b ≠ 0) := h.imp (fun {a b} hab => by omega)
  have hsym : Symmetric (fun a b => compare a b ≠ 0) := by
    intro a b hab hba
    exact hab (hswo.eq_symm hba)
  exact h2.forall hsym hx hy hne hxy

/-- The records of a list in strictly ascending order, kept in strictly ascending
order with one record of every class, are the list itself. -/
theorem Keeps.eq_of_sorted {compare : Nat → Nat → Int} (hswo : StrictWeakOrder compare)
    (option : SORT_DUP_OPTION) (next : Nat → Option Nat) (l K : List Nat)
    (hl : StrictAsc compare l) (hK : StrictAsc compare K) (hk : Keeps compare option next l K) :
    K = l := by
  apply StrictAsc.unique hswo K l hK hl
  intro x
  constructor
  · exact hk.1 x
  · intro hx
    obtain ⟨k, hk1, hk2⟩ := hk.2.1 x hx
    rw [StrictAsc.eq_of_compare_eq hswo hl hx (hk.1 k hk1) hk2]
    exact hk1

/-- C25: for every producer input `l` in ascending order with pairwise distinct
keys that fits the arena (the index area holds its records in the reverse
order), and both duplicate options: `sort_run_sort` returns and the pointer
array it hands back holds the records in the order of the input; sorting the
sequence of that array again gives the same array. With two records or more the
first call of `sort_run_find` goes through the whole array and pushes one run
that covers it, and the loop of `sort_run_sort` ends in the state that this call
left: there is no second run and no call of `sort_run_merge`. -/
theorem sorted_input_is_one_run (compare : Nat → Nat → Int) (hswo : StrictWeakOrder compare)
    (option : SORT_DUP_OPTION) (l : List Nat) (hasc : StrictAsc compare l) :
    (∃ r, sort_run_sort compare option (mem_of_input l) l.length 0 l.length = some r ∧
      r.cells = l.map some ∧
      sort_run_sort compare option (mem_of_input (r.cells.filterMap id)) l.length 0 l.length =
        some r) ∧
    (2 ≤ l.length →
      ∃ s1, sort_run_find compare l.length option l.length
          { mem := mem_of_input l, stack := [], top := 0 } = some s1 ∧
        s1.stack = [{ low_high := Side.H, tree_depth := 1, start := 0,
                      stop := (l.length : Int) - 1 }] ∧
        s1.top = l.length ∧ seg s1.mem.high 0 ((l.length : Int) - 1) = l.map some ∧
        sort_run_sort_loop compare l.length option l.length l.length
          { mem := mem_of_input l, stack := [], top := 0 } = some s1) := by
  have hnd : l.Nodup := hasc.nodup hswo
  have hseg : seg (mem_of_input l).high 0 ((l.length : Int) - 1) = l.reverse.map some :=
    index_area_from_seg l
  constructor
  · obtain ⟨r, K, h1, h2, h3, h4⟩ := sort_run_sort_spec compare hswo option (mem_of_input l)
      l.length 0 l.reverse [] (le_refl _) (by omega)
      (by
        have e : (l.length : Int) - 0 - 1 = (l.length : Int) - 1 := by omega
        rw [e]; exact hseg)
      (fun _ _ _ => rfl) (by simp) (by
        rw [List.nil_append, List.reverse_reverse]; exact hnd)
    rw [List.nil_append, List.reverse_reverse] at h4
    have hK : K = l := Keeps.eq_of_sorted hswo option r.mem.next l K hasc h3 h4
    rw [hK] at h2
    refine ⟨r, h1, h2, ?_⟩
    have e : r.cells.filterMap id = l := by
      rw [h2, List.filterMap_map]
      simp
    rw [e]
    exact h1
  · intro hlen
    obtain ⟨s1, e, B, R, inc, h1, h2, h3, h4, h5, h6, h7, h8, h9, h10, h11, h12, h13, h14, h15⟩ :=
      sort_run_find_run compare hswo option l.length l.length
        { mem := mem_of_input l, stack := [], top := 0 } l.reverse (by simp only []; omega) hseg
        (List.nodup_reverse.2 hnd) (fun _ _ _ => rfl)
    simp only [] at h2 h4 h8 h12 h13 h14 h15
    -- the array is strictly descending
    have hAlen : l.reverse.length = l.length := List.length_reverse l
    have hcell : ∀ (i : Nat) (hi : i < l.reverse.length),
        (mem_of_input l).high (0 + (i : Int)) = some l.reverse[i] :=
      fun i hi => seg_cell (mem_of_input l).high 0 ((l.length : Int) - 1) l.reverse hseg i hi
    have hdesc : ∀ (i : Nat) (hi : i + 1 < l.reverse.length),
        0 < compare l.reverse[i] l.reverse[i + 1] := by
      intro i hi
      have hp : l.reverse.Pairwise (fun a b => 0 < compare a b) := by
        rw [List.pairwise_reverse]
        exact hasc.imp (fun {a b} hab => (hswo.symm a b).1 hab)
      exact (List.pairwise_iff_getElem.1 hp) i (i + 1) (by omega) hi (by omega)
    -- the direction is the descending one
    have hinc : inc = false := by
      have c0 := hcell 0 (by omega)
      have c1 := hcell 1 (by omega)
      have e0 : (0 : Int) + ((0 : Nat) : Int) = 0 := by omega
      have e1 : (0 : Int) + ((1 : Nat) : Int) = 0 + 1 := by omega
      rw [e0] at c0
      rw [e1] at c1
      have := h13 _ _ (by omega) c0 c1
      rw [this]
      have hd := hdesc 0 (by omega)
      simp only [zero_add] at hd
      simp only [decide_eq_false_iff_not]
      omega
    -- the run ends at the last cell
    have hstop : e.stop + 1 = l.length := by
      by_contra hne
      have hlt : e.stop + 1 < l.length := by omega
      obtain ⟨K, r1, r2, r3, r4, r5, r6⟩ := h8
      have hi1 : e.stop.toNat + 1 < l.reverse.length := by omega
      have c0 := hcell e.stop.toNat (by omega)
      have c1 := hcell (e.stop.toNat + 1) hi1
      have e0 : (0 : Int) + ((e.stop.toNat : Nat) : Int) = e.stop := by omega
      have e1 : (0 : Int) + ((e.stop.toNat + 1 : Nat) : Int) = e.stop + 1 := by omega
      rw [e0] at c0
      rw [e1] at c1
      have := h15 _ _ hlt c0 c1
      rw [hinc] at this
      simp only [Bool.false_eq_true, if_false, ge_iff_le, not_le] at this
      have := hdesc e.stop.toNat hi1
      omega
    obtain ⟨K, r1, r2, r3, r4, r5, r6⟩ := h8
    have hKlen : (K.length : Int) = e.stop + 1 - e.start := by
      have := congrArg List.length r4
      rw [seg_length, List.length_map] at this
      omega
    have hBsub : ∀ x ∈ B, x ∈ l := by
      intro x hx
      have : x ∈ l.reverse := by rw [h7]; exact List.mem_append_left _ (List.mem_reverse.2 hx)
      exact List.mem_reverse.1 this
    have hBK : B ⊆ K := by
      intro x hx
      obtain ⟨k, hk1, hk2⟩ := r6.2.1 x hx
      rw [StrictAsc.eq_of_compare_eq hswo hasc (hBsub x hx) (hBsub k (r6.1 k hk1)) hk2]
      exact hk1
    have hBnd : B.Nodup := by
      have : (B.reverse ++ R).Nodup := by rw [← h7]; exact List.nodup_reverse.2 hnd
      exact List.nodup_reverse.1 (List.nodup_append.1 this).1
    have hle : B.length ≤ K.length := (hBnd.subperm hBK).length_le
    have hstart : e.start = 0 := by omega
    have hR : R = [] := by
      apply List.eq_nil_of_length_eq_zero
      have := congrArg List.length h7
      rw [List.length_append, List.length_reverse, List.length_reverse] at this
      omega
    have hlB : ∀ x ∈ l, x ∈ B := by
      intro x hx
      have : x ∈ l.reverse := List.mem_reverse.2 hx
      rw [h7, hR, List.append_nil] at this
      exact List.mem_reverse.1 this
    have hK : K = l := by
      apply StrictAsc.unique hswo K l r5 hasc
      intro x
      exact ⟨fun hx => hBsub x (r6.1 x hx), fun hx => hBK (hlB x hx)⟩
    have he : e = { low_high := Side.H, tree_depth := 1, start := 0,
                    stop := (l.length : Int) - 1 } := by
      cases e
      simp only [SRUN.mk.injEq] at h5 h6 hstart hstop ⊢
      exact ⟨h5, h6, hstart, by omega⟩
    have htop : s1.top = l.length := by omega
    refine ⟨s1, h1, by rw [h2, he], htop, ?_, ?_⟩
    · rw [h5, hstart, hK] at r4
      have e2 : e.stop = (l.length : Int) - 1 := by omega
      rw [e2] at r4
      exact r4
    · obtain ⟨k, hk⟩ : ∃ k, l.length = k + 1 := ⟨l.length - 1, by omega⟩
      have hlen1 : s1.stack.length = 1 := by rw [h2]; rfl
      have hnot : ¬ s1.top < (l.length : Int) := by omega
      rw [hk] at h1 hnot ⊢
      simp only [sort_run_sort_loop, h1, if_neg hnot, hlen1, sort_run_sort_merges]
      simp
      intro h
      push_cast at hnot
      omega

/-! ### The input `[10, 9, ..., 1]` -/

/-- C28 (the claim as stated fails): for the producer input `[10, 9, ..., 1]` the
first comparison of `sort_run_find` is negative, so the run is an increasing one
and `sort_run_flip` is not called: after `sort_run_find` the pointer array is the
array as it was, not its flip. -/
theorem reverse_input_not_flipped_counterexample :
    compare_cells (compare_keys keys_down) ((initial_mem 10).high 0) ((initial_mem 10).high 1) =
      some (-1) ∧
    (sort_run_find (compare_keys keys_down) 10 SORT_DUP_OPTION.SORT_DUP 10
      { mem := initial_mem 10, stack := [], top := 0 }).map
        (fun s => (s.stack, s.top, seg s.mem.high 0 9)) =
      some ([{ low_high := Side.H, tree_depth := 1, start := 0, stop := 9 }], 10,
        seg (initial_mem 10).high 0 9) ∧
    seg (sort_run_flip Side.H (initial_mem 10) 0 9).high 0 9 ≠ seg (initial_mem 10).high 0 9 := by
  decide

/-- C28 (amended): for the producer input `[10, 9, ..., 1]` under `SORT_DUP` the
index area, which `sort_inphase_sort` fills downwards, reads `1, 2, ..., 10` when
`sort_run_sort` is called; `sort_run_find` goes through it as one increasing run
and leaves it as it is, the loop of `sort_run_sort` ends in that state (no flip,
no merge), the array handed back reads `1, ..., 10` and `sort_listfile` hands
`1, ..., 10` to `put_fn`. It is for the producer input `[1, 2, ..., 10]` that the
array is one descending run, which `sort_run_find` flips as a whole. -/
theorem reverse_input_is_ascending_array :
    index_area_data (inphase_loop (example_world (keys_down.map (fun k => [k])))
      SORT_DUP_OPTION.SORT_DUP 11
      (inphase_init (example_world (keys_down.map (fun k => [k])))
        (listfile_init (example_world (keys_down.map (fun k => [k]))) true 0 example_vars.st)
        example_vars)).vars 10 = keys_up.map (fun k => [k]) ∧
    (seg (initial_mem 10).high 0 9).map (Option.map (fun k => keys_down.getD k 0)) =
      keys_up.map some ∧
    (sort_run_find (compare_keys keys_down) 10 SORT_DUP_OPTION.SORT_DUP 10
      { mem := initial_mem 10, stack := [], top := 0 }).map
        (fun s => (s.stack, s.top, seg s.mem.high 0 9)) =
      some ([{ low_high := Side.H, tree_depth := 1, start := 0, stop := 9 }], 10,
        seg (initial_mem 10).high 0 9) ∧
    (sort_run_sort_loop (compare_keys keys_down) 10 SORT_DUP_OPTION.SORT_DUP 10 10
      { mem := initial_mem 10, stack := [], top := 0 }).map
        (fun s => (s.stack, s.top, seg s.mem.high 0 9)) =
      some ([{ low_high := Side.H, tree_depth := 1, start := 0, stop := 9 }], 10,
        seg (initial_mem 10).high 0 9) ∧
    (sort_run_sort (compare_keys keys_down) SORT_DUP_OPTION.SORT_DUP (initial_mem 10) 10 0
      10).map (fun r => r.cells.map (Option.map (fun k => keys_down.getD k 0))) =
      some (keys_up.map some) ∧
    put_data (sort_listfile (example_world (keys_down.map (fun k => [k]))) 11 0
      SORT_DUP_OPTION.SORT_DUP example_vars).state.log = keys_up.map (fun k => [k]) ∧
    compare_cells (compare_keys keys_up) ((initial_mem 10).high 0) ((initial_mem 10).high 1) =
      some 1 ∧
    (sort_run_find (compare_keys keys_up) 10 SORT_DUP_OPTION.SORT_DUP 10
      { mem := initial_mem 10, stack := [], top := 0 }).map
        (fun s => (s.stack, s.top, seg s.mem.high 0 9)) =
      some ([{ low_high := Side.H, tree_depth := 1, start := 0, stop := 9 }], 10,
        seg (sort_run_flip Side.H (initial_mem 10) 0 9).high 0 9) ∧
    (sort_run_sort (compare_keys keys_up) SORT_DUP_OPTION.SORT_DUP (initial_mem 10) 10 0
      10).map (fun r => r.cells.map (Option.map (fun k => keys_up.getD k 0))) =
      some (keys_up.map some) := by
  decide

theorem sorted_input_is_one_run_witness :
    StrictWeakOrder (compare_keys keys_up) ∧
    StrictAsc (compare_keys keys_up) [0, 1, 2, 3, 4, 5, 6, 7, 8, 9] ∧
    ((∃ r, sort_run_sort (compare_keys keys_up) SORT_DUP_OPTION.SORT_ELIM_DUP
        (mem_of_input [0, 1, 2, 3, 4, 5, 6, 7, 8, 9])
        [0, 1, 2, 3, 4, 5, 6, 7, 8, 9].length 0 [0, 1, 2, 3, 4, 5, 6, 7, 8, 9].length = some r ∧
      r.cells = [0, 1, 2, 3, 4, 5, 6, 7, 8, 9].map some ∧
      sort_run_sort (compare_keys keys_up) SORT_DUP_OPTION.SORT_ELIM_DUP
        (mem_of_input (r.cells.filterMap id))
        [0, 1, 2, 3, 4, 5, 6, 7, 8, 9].length 0 [0, 1, 2, 3, 4, 5, 6, 7, 8, 9].length = some r) ∧
    (2 ≤ [0, 1, 2, 3, 4, 5, 6, 7, 8, 9].length →
      ∃ s1, sort_run_find (compare_keys keys_up) [0, 1, 2, 3, 4, 5, 6, 7, 8, 9].length
          SORT_DUP_OPTION.SORT_ELIM_DUP [0, 1, 2, 3, 4, 5, 6, 7, 8, 9].length
          { mem := mem_of_input [0, 1, 2, 3, 4, 5, 6, 7, 8, 9], stack := [], top := 0 } =
          some s1 ∧
        s1.stack = [{ low_high := Side.H, tree_depth := 1, start := 0,
                      stop := ([0, 1, 2, 3, 4, 5, 6, 7, 8, 9].length : Int) - 1 }] ∧
        s1.top = [0, 1, 2, 3, 4, 5, 6, 7, 8, 9].length ∧
        seg s1.mem.high 0 (([0, 1, 2, 3, 4, 5, 6, 7, 8, 9].length : Int) - 1) =
          [0, 1, 2, 3, 4, 5, 6, 7, 8, 9].map some ∧
        sort_run_sort_loop (compare_keys keys_up) [0, 1, 2, 3, 4, 5, 6, 7, 8, 9].length
          SORT_DUP_OPTION.SORT_ELIM_DUP [0, 1, 2, 3, 4, 5, 6, 7, 8, 9].length
          [0, 1, 2, 3, 4, 5, 6, 7, 8, 9].length
          { mem := mem_of_input [0, 1, 2, 3, 4, 5, 6, 7, 8, 9], stack := [], top := 0 } =
          some s1)) :=
  ⟨compare_keys_swo keys_up, by decide,
    sorted_input_is_one_run (compare_keys keys_up) (compare_keys_swo keys_up)
      SORT_DUP_OPTION.SORT_ELIM_DUP [0, 1, 2, 3, 4, 5, 6, 7, 8, 9] (by decide)⟩

/-! ### The array handed back has one pointer for every class -/

/-- Records in strictly ascending order that stand for the classes of the records
`X`, one for each class, are as many as `X` has classes. -/
theorem kept_length {compare : Nat → Nat → Int} (hswo : StrictWeakOrder compare) :
    ∀ (X K : List Nat), StrictAsc compare K → (∀ k ∈ K, ∃ x ∈ X, compare k x = 0) →
      (∀ x ∈ X, ∃ k ∈ K, compare x k = 0) → K.length + dup_count compare X = X.length := by
  intro X
  induction X with
  | nil =>
    intro K _ h1 _
    cases K with
    | nil => rfl
    | cons k K =>
      obtain ⟨x, hx, -⟩ := h1 k (List.mem_cons_self _ _)
      exact absurd hx (List.not_mem_nil _)
  | cons x rest ih =>
    intro K hK h1 h2
    by_cases hdup : rest.any (fun y => decide (compare x y = 0)) = true
    · obtain ⟨y, hy, hxy⟩ := List.any_eq_true.1 hdup
      have hxy : compare x y = 0 := by simpa using hxy
      have := ih K hK
        (fun k hk => by
          obtain ⟨z, hz, hkz⟩ := h1 k hk
          rcases List.mem_cons.1 hz with e | e
          · exact ⟨y, hy, hswo.trans_eq _ _ _ (by rw [← e]; exact hkz) hxy⟩
          · exact ⟨z, e, hkz⟩)
        (fun z hz => h2 z (List.mem_cons_of_mem _ hz))
      simp only [dup_count, hdup, if_true, List.length_cons]
      omega
    · have hnone : ∀ y ∈ rest, compare x y ≠ 0 := by
        intro y hy hxy
        apply hdup
        exact List.any_eq_true.2 ⟨y, hy, by simpa using hxy⟩
      have hone := filter_class_length_one hswo x K hK (h2 x (List.mem_cons_self _ _))
      have hsplit : K.length = (K.filter (fun k => decide (compare x k = 0))).length +
          (K.filter (fun k => ! decide (compare x k = 0))).length := by
        have := List.length_eq_length_filter_add (l := K) (fun k => decide (compare x k = 0))
        omega
      have hK1 : StrictAsc compare (K.filter (fun k => ! decide (compare x k = 0))) :=
        List.Pairwise.sublist (List.filter_sublist _) hK
      have := ih (K.filter (fun k => ! decide (compare x k = 0))) hK1
        (fun k hk => by
          obtain ⟨hk1, hk2⟩ := List.mem_filter.1 hk
          have hk2 : compare x k ≠ 0 := by simpa using hk2
          obtain ⟨z, hz, hkz⟩ := h1 k hk1
          rcases List.mem_cons.1 hz with e | e
          · rw [e] at hkz
            exact absurd (hswo.eq_symm hkz) hk2
          · exact ⟨z, e, hkz⟩)
        (fun z hz => by
          obtain ⟨k, hk, hzk⟩ := h2 z (List.mem_cons_of_mem _ hz)
          refine ⟨k, List.mem_filter.2 ⟨hk, ?_⟩, hzk⟩
          have : compare x k ≠ 0 := by
            intro hxk
            exact hnone z hz (hswo.trans_eq _ _ _ hxk (hswo.eq_symm hzk))
          simpa using this)
      simp only [dup_count, hdup, List.length_cons]
      simp only [Bool.false_eq_true, if_false, zero_add]
      omega

/-- C26: for every pointer array of `N = limit` distinct records, the new records
`A` in front of the records `Kpre` that an earlier call left in strictly ascending
order (with `SORT_DUP` there are none: `sort_inphase_sort` flushes after every
sort), `d` of which compare equal to another record behind them in the array:
`sort_run_sort` returns, under both duplicate options, and hands back through
`*base` and `*srun_limit` exactly `N - d` cells; none of them is `NULL`, they are
in strictly ascending order, they point to records of the array, and every
record of the array compares equal to exactly one of them. -/
theorem sort_returns_one_pointer_per_class (compare : Nat → Nat → Int)
    (hswo : StrictWeakOrder compare) (option : SORT_DUP_OPTION) (m : SortMem)
    (limit sort_numrecs : Int) (A Kpre : List Nat)
    (h0 : 0 ≤ sort_numrecs) (h1 : sort_numrecs ≤ limit)
    (hA : seg m.high 0 (limit - sort_numrecs - 1) = A.map some)
    (hpre : seg m.high (limit - sort_numrecs) (limit - 1) = Kpre.map some)
    (hasc : StrictAsc compare Kpre)
    (hlink : option = SORT_DUP_OPTION.SORT_DUP → sort_numrecs = 0 ∧ ∀ x ∈ A, m.next x = none)
    (hnd : (A ++ Kpre).Nodup) :
    ∃ r K, sort_run_sort compare option m limit sort_numrecs limit = some r ∧
      r.cells = K.map some ∧ r.srun_limit = K.length ∧
      (K.length : Int) = limit - dup_count compare (A ++ Kpre) ∧
      StrictAsc compare K ∧ (∀ k ∈ K, k ∈ A ++ Kpre) ∧
      (∀ x ∈ A ++ Kpre, (K.filter (fun k => decide (compare x k = 0))).length = 1) := by
  have hlenA : (A.length : Int) = limit - sort_numrecs := by
    have := congrArg List.length hA
    rw [seg_length, List.length_map] at this
    omega
  have hlen : (Kpre.length : Int) = sort_numrecs := by
    have := congrArg List.length hpre
    rw [seg_length, List.length_map] at this
    omega
  obtain ⟨r, K, q1, q2, q3, q4, q5, -⟩ := sort_run_sort_spec compare hswo option m limit
    sort_numrecs A Kpre h0 h1 hA (fun ho => (hlink ho).2)
    (by
      by_cases hz : sort_numrecs = 0
      · rw [if_pos hz]
        exact List.eq_nil_of_length_eq_zero (by omega)
      · rw [if_neg hz]
        refine ⟨Kpre, le_refl _, by simp only []; omega, by simp only []; omega, hpre, hasc,
          fun k hk => hk, fun x hx => ⟨x, hx, hswo.refl x⟩, fun ho => ?_⟩
        exact absurd (hlink ho).1 hz)
    (by
      have hp : (Kpre ++ A.reverse).Perm (A ++ Kpre) :=
        (List.perm_append_comm).trans (List.Perm.append_right _ (List.reverse_perm A))
      exact hp.nodup_iff.2 hnd)
  have hmem : ∀ x, x ∈ Kpre ++ A.reverse ↔ x ∈ A ++ Kpre := by
    intro x
    simp only [List.mem_append, List.mem_reverse]
    exact or_comm
  have hsub : ∀ k ∈ K, k ∈ A ++ Kpre := fun k hk => (hmem k).1 (q4 k hk)
  have hcov : ∀ x ∈ A ++ Kpre, ∃ k ∈ K, compare x k = 0 := fun x hx => q5 x ((hmem x).2 hx)
  have hcount := kept_length hswo (A ++ Kpre) K q3
    (fun k hk => ⟨k, hsub k hk, hswo.refl k⟩) hcov
  have hXlen : ((A ++ Kpre).length : Int) = limit := by
    rw [List.length_append]; push_cast; omega
  have hKlen : (K.length : Int) = limit - dup_count compare (A ++ Kpre) := by omega
  refine ⟨r, K, q1, q2, ?_, hKlen, q3, hsub,
    fun x hx => filter_class_length_one hswo x K q3 (hcov x hx)⟩
  -- the value of `*srun_limit`
  have hcl : r.srun_limit.toNat = K.length := by
    have := congrArg List.length q2
    simpa [SortResult.cells] using this
  by_cases hl0 : limit = 0
  · have hearly : limit - sort_numrecs = 0 ∨ (limit - sort_numrecs = 1 ∧ sort_numrecs = 0) := by
      left; omega
    simp only [sort_run_sort, if_pos hearly, Option.some.injEq] at q1
    rw [← q1] at hcl ⊢
    simp only [] at hcl ⊢
    omega
  · have hpos : 1 ≤ K.length := by
      have hX : (A ++ Kpre) ≠ [] := by
        intro e
        rw [e] at hXlen
        simp at hXlen
        omega
      obtain ⟨x, hx⟩ := List.exists_mem_of_ne_nil _ hX
      obtain ⟨k, hk, -⟩ := hcov x hx
      exact List.length_pos_of_mem hk
    omega

theorem sort_returns_one_pointer_per_class_witness :
    StrictWeakOrder (compare_keys example_keys) ∧ (0 : Int) ≤ 0 ∧ (0 : Int) ≤ 6 ∧
    seg (initial_mem 6).high 0 (6 - 0 - 1) = [5, 4, 3, 2, 1, 0].map some ∧
    seg (initial_mem 6).high (6 - 0) (6 - 1) = ([] : List Nat).map some ∧
    StrictAsc (compare_keys example_keys) [] ∧ ([5, 4, 3, 2, 1, 0] ++ ([] : List Nat)).Nodup ∧
    dup_count (compare_keys example_keys) ([5, 4, 3, 2, 1, 0] ++ []) = 3 ∧
    ∃ r K, sort_run_sort (compare_keys example_keys) SORT_DUP_OPTION.SORT_DUP (initial_mem 6) 6 0
        6 = some r ∧
      r.cells = K.map some ∧ r.srun_limit = K.length ∧
      (K.length : Int) = 6 - dup_count (compare_keys example_keys) ([5, 4, 3, 2, 1, 0] ++ []) ∧
      StrictAsc (compare_keys example_keys) K ∧ (∀ k ∈ K, k ∈ [5, 4, 3, 2, 1, 0] ++ []) ∧
      (∀ x ∈ [5, 4, 3, 2, 1, 0] ++ [],
        (K.filter (fun k => decide (compare_keys example_keys x k = 0))).length = 1) :=
  ⟨compare_keys_swo example_keys, by decide, by decide, by decide, by decide, by decide,
    by decide, by decide,
    sort_returns_one_pointer_per_class (compare_keys example_keys)
      (compare_keys_swo example_keys) SORT_DUP_OPTION.SORT_DUP (initial_mem 6) 6 0
      [5, 4, 3, 2, 1, 0] [] (by decide) (by decide) (by decide) (by decide) (by decide)
      (fun _ => ⟨rfl, fun _ _ => rfl⟩) (by decide)⟩

/-! ### The branch `con == TRUE` of `sort_run_merge` and the merge proper -/

theorem two_way_merge_loop_append (compare : Nat → Nat → Int) :
    ∀ (n : Nat) (l r : List Nat), l.length + r.length ≤ n →
      (∀ x ∈ l, ∀ z ∈ r, compare x z < 0) → two_way_merge_loop compare n l r = l ++ r := by
  intro n
  induction n with
  | zero =>
    intro l r hn _
    have h1 : l = [] := List.eq_nil_of_length_eq_zero (by omega)
    have h2 : r = [] := List.eq_nil_of_length_eq_zero (by omega)
    rw [h1, h2]
    rfl
  | succ n ih =>
    intro l r hn hlt
    cases l with
    | nil => rfl
    | cons a l =>
      cases r with
      | nil => simp [two_way_merge_loop]
      | cons b r =>
        have hab : compare a b < 0 := hlt a (List.mem_cons_self _ _) b (List.mem_cons_self _ _)
        simp only [two_way_merge_loop, if_pos hab, List.cons_append]
        congr 1
        apply ih
        · simp only [List.length_cons] at hn ⊢
          omega
        · intro x hx z hz
          exact hlt x (List.mem_cons_of_mem _ hx) z hz

/-- When the last record of an ascending run compares less than the first record
of another one, every record of the first compares less than every record of the
second. -/
theorem runs_lt_of_last_first {compare : Nat → Nat → Int} (hswo : StrictWeakOrder compare)
    (Kl0 Kr0 : List Nat) (ll rf : Nat) (hl : StrictAsc compare (Kl0 ++ [ll]))
    (hr : StrictAsc compare (rf :: Kr0)) (hc : compare ll rf < 0) :
    ∀ x ∈ Kl0 ++ [ll], ∀ z ∈ rf :: Kr0, compare x z < 0 := by
  intro x hx z hz
  have hxr : compare x rf < 0 := by
    rcases List.mem_append.1 hx with h | h
    · exact hswo.trans_lt _ _ _
        ((List.pairwise_append.1 hl).2.2 x h ll (List.mem_singleton_self _)) hc
    · rw [List.mem_singleton.1 h]; exact hc
  rcases List.mem_cons.1 hz with h | h
  · rw [h]; exact hxr
  · exact hswo.trans_lt _ _ _ hxr ((List.pairwise_cons.1 hr).1 z h)

/-- C29: in `sort_run_merge`, for the two runs on top of the stack, the left one
below the right one, each in strictly ascending order (no duplicates), with
`compare (last of left, first of right) < 0`: the code takes the branch
`con == TRUE`, and the run it leaves holds the records of the left run followed
by those of the right run; the branch `con == FALSE`, the merge proper, run on
the same two runs returns as well and leaves a run of the same cells numbers
with the same sequence, which is also what the two-way merge of the specification
gives; and when the two runs lie in the same buffer and the left one ends right
in front of the right one, the branch `con == TRUE` leaves the whole memory as it
is. -/
theorem append_con_same_as_merge (compare : Nat → Nat → Int) (hswo : StrictWeakOrder compare)
    (option : SORT_DUP_OPTION) (fuel : Nat) (m : SortMem) (right left : SRUN) (rest : List SRUN)
    (lo : Int) (Br Bl : List Nat)
    (hr : RunInv compare option m right (left.stop + 1) Br)
    (hl : RunInv compare option m left lo Bl)
    (hnd : (Br ++ Bl).Nodup) (hfuel : (Br ++ Bl).length ≤ fuel) (c : Int)
    (hc : compare_cells compare (m.get left.low_high left.stop)
      (m.get right.low_high right.start) = some c) (hlt : c < 0) :
    ∃ Kl Kr m2 e2,
      seg (fun i => m.get left.low_high i) left.start left.stop = Kl.map some ∧
      seg (fun i => m.get right.low_high i) right.start right.stop = Kr.map some ∧
      sort_run_merge_step compare fuel option m (right :: left :: rest) =
        some ((sort_run_merge_con m right left).1, (sort_run_merge_con m right left).2 :: rest) ∧
      seg (fun i => (sort_run_merge_con m right left).1.get
          (sort_run_merge_con m right left).2.low_high i)
        (sort_run_merge_con m right left).2.start (sort_run_merge_con m right left).2.stop =
        (Kl ++ Kr).map some ∧
      sort_run_merge_general compare fuel option m right left = some (m2, e2) ∧
      seg (fun i => m2.get e2.low_high i) e2.start e2.stop = (Kl ++ Kr).map some ∧
      e2.start = (sort_run_merge_con m right left).2.start ∧
      e2.stop = (sort_run_merge_con m right left).2.stop ∧
      two_way_merge_spec compare Kl Kr = Kl ++ Kr ∧
      (left.low_high = right.low_high ∧ left.stop + 1 = right.start →
        (sort_run_merge_con m right left).1 = m) := by
  obtain ⟨m1, e, q1, q2, q3, q4, q5, q6⟩ := sort_run_merge_step_spec compare hswo option fuel m
    right left rest lo Br Bl hr hl hnd hfuel
  obtain ⟨Kr, r1, r2, r3, r4, r5, r6⟩ := hr
  obtain ⟨Kl, l1, l2, l3, l4, l5, l6⟩ := hl
  have hlenl : (Kl.length : Int) = left.stop + 1 - left.start := by
    have := congrArg List.length l4
    rw [seg_length, List.length_map] at this
    omega
  have hlenr : (Kr.length : Int) = right.stop + 1 - right.start := by
    have := congrArg List.length r4
    rw [seg_length, List.length_map] at this
    omega
  obtain ⟨Kl0, ll, hKl⟩ : ∃ Kl0 ll, Kl = Kl0 ++ [ll] := by
    rcases List.eq_nil_or_concat Kl with h | ⟨L, b, h⟩
    · rw [h] at hlenl; simp at hlenl; omega
    · exact ⟨L, b, by rw [h, List.concat_eq_append]⟩
  obtain ⟨rf, Kr0, hKr⟩ : ∃ rf Kr0, Kr = rf :: Kr0 := by
    cases Kr with
    | nil => simp at hlenr; omega
    | cons a K => exact ⟨a, K, rfl⟩
  have hcl : m.get left.low_high left.stop = some ll := by
    have := seg_split_cell (fun i => m.get left.low_high i) left.start left.stop Kl0 ll []
      (by rw [l4, hKl])
    have e : left.start + (Kl0.length : Int) = left.stop := by
      rw [hKl] at hlenl; simp at hlenl; omega
    rw [e] at this
    exact this
  have hcr : m.get right.low_high right.start = some rf := by
    have := seg_split_cell (fun i => m.get right.low_high i) right.start right.stop [] rf Kr0
      (by rw [r4, hKr]; rfl)
    simpa using this
  have hcmp : compare ll rf < 0 := by
    rw [hcl, hcr] at hc
    simp only [compare_cells, Option.some.injEq] at hc
    omega
  have hall : ∀ x ∈ Kl, ∀ z ∈ Kr, compare x z < 0 := by
    rw [hKl, hKr]
    exact runs_lt_of_last_first hswo Kl0 Kr0 ll rf (by rw [← hKl]; exact l5)
      (by rw [← hKr]; exact r5) hcmp
  have hA : StrictAsc compare (Kl ++ Kr) := List.pairwise_append.2 ⟨l5, r5, hall⟩
  -- the branch `con == TRUE`
  have hstep : sort_run_merge_step compare fuel option m (right :: left :: rest) =
      some ((sort_run_merge_con m right left).1, (sort_run_merge_con m right left).2 :: rest) := by
    simp only [sort_run_merge_step, hcl, hcr, compare_cells, if_pos hcmp]
  rw [hstep] at q1
  have hm1 : (sort_run_merge_con m right left).1 = m1 := (Prod.mk.inj (Option.some.inj q1)).1
  have he : (sort_run_merge_con m right left).2 = e :=
    (List.cons.inj (Prod.mk.inj (Option.some.inj q1)).2).1
  have hcon : seg (fun i => (sort_run_merge_con m right left).1.get
        (sort_run_merge_con m right left).2.low_high i)
      (sort_run_merge_con m right left).2.start (sort_run_merge_con m right left).2.stop =
      (Kl ++ Kr).map some := by
    obtain ⟨K, k1, k2, k3, k4, k5, k6⟩ := q4
    rw [hm1, he, k4]
    congr 1
    -- the run of the branch holds records of the two runs
    have hKsub : ∀ k ∈ K, k ∈ Kl ++ Kr := by
      intro k hk
      have hseg := k4
      rw [← hm1, ← he] at hseg
      by_cases hadj : left.low_high = right.low_high ∧ left.stop + 1 = right.start
      · have e1 : (sort_run_merge_con m right left).1 = m := by
          simp only [sort_run_merge_con, if_pos hadj]
        have e2 : (sort_run_merge_con m right left).2.low_high = right.low_high := rfl
        have e3 : (sort_run_merge_con m right left).2.start = left.start := by
          simp only [sort_run_merge_con]; omega
        have e4 : (sort_run_merge_con m right left).2.stop = right.stop := rfl
        rw [e1, e2, e3, e4, seg_append _ left.start left.stop right.stop (by omega) (by omega),
          hadj.2, r4] at hseg
        rw [hadj.1] at l4
        rw [l4, ← List.map_append] at hseg
        have := List.map_injective_iff.2 (Option.some_injective Nat) hseg
        rw [this]; exact hk
      · have qs := merge_copy_seg left.low_high right.low_high left.start left.stop
          (right.start - 1) m Kl l4 (by omega) (fun _ => by omega)
        obtain ⟨c1, c2, c3, c4⟩ := merge_copy_spec left.low_high right.low_high left.start
          (left.stop - left.start + 1).toNat m left.stop (right.start - 1) (le_refl _) (by omega)
          (fun _ => by omega)
        have e1 : (sort_run_merge_con m right left).1 =
            (sort_run_merge_copy left.low_high right.low_high left.start
              (left.stop - left.start + 1).toNat m left.stop (right.start - 1)).1 := by
          simp only [sort_run_merge_con, if_neg hadj]
        have e2 : (sort_run_merge_con m right left).2.low_high = right.low_high := rfl
        have e3 : (sort_run_merge_con m right left).2.start =
            right.start - 1 - (Kl.length : Int) + 1 := by
          simp only [sort_run_merge_con]; omega
        have e4 : (sort_run_merge_con m right left).2.stop = right.stop := rfl
        have e5 : right.start - 1 + 1 = right.start := by omega
        rw [e1, e2, e3, e4, seg_append _ _ (right.start - 1) right.stop (by omega) (by omega),
          qs, e5] at hseg
        have hrs : seg (fun i => (sort_run_merge_copy left.low_high right.low_high left.start
            (left.stop - left.start + 1).toNat m left.stop (right.start - 1)).1.get
              right.low_high i) right.start right.stop = Kr.map some := by
          rw [← r4]
          apply seg_congr
          intro i h1 h2
          exact c3 right.low_high i (fun _ => Or.inr (by omega))
        rw [hrs, ← List.map_append] at hseg
        have := List.map_injective_iff.2 (Option.some_injective Nat) hseg
        rw [this]; exact hk
    apply StrictAsc.unique hswo K (Kl ++ Kr) k5 hA
    intro x
    constructor
    · exact hKsub x
    · intro hx
      have hxB : x ∈ Br ++ Bl := by
        rcases List.mem_append.1 hx with h | h
        · exact List.mem_append_right _ (l6.1 x h)
        · exact List.mem_append_left _ (r6.1 x h)
      obtain ⟨k, hk1, hk2⟩ := k6.2.1 x hxB
      rw [StrictAsc.eq_of_compare_eq hswo hA hx (hKsub k hk1) hk2]
      exact hk1
  -- the branch `con == FALSE`
  obtain ⟨m2, e2, K2, g1, g2, g3, g4, g5, g6, g7, g8, g9, g10, -, -⟩ :=
    sort_run_merge_general_spec compare hswo option fuel m right left lo Br Bl Kr Kl r1 r2 r3 r4
      r5 r6 l1 l2 l3 l4 l5 l6 hnd hfuel
  have hK2 : K2 = Kl ++ Kr := by
    apply StrictAsc.unique hswo K2 (Kl ++ Kr) g8 hA
    intro x
    constructor
    · intro hx
      exact List.mem_append.2 (g10 x hx)
    · intro hx
      have hxB : x ∈ Br ++ Bl := by
        rcases List.mem_append.1 hx with h | h
        · exact List.mem_append_right _ (l6.1 x h)
        · exact List.mem_append_left _ (r6.1 x h)
      obtain ⟨k, hk1, hk2⟩ := g9.2.1 x hxB
      rw [StrictAsc.eq_of_compare_eq hswo hA hx (List.mem_append.2 (g10 k hk1)) hk2]
      exact hk1
  have hlen2 : (K2.length : Int) = e2.stop + 1 - e2.start := by
    have := congrArg List.length g7
    rw [seg_length, List.length_map] at this
    omega
  rw [hK2] at g7 hlen2
  rw [List.length_append] at hlen2
  push_cast at hlen2
  refine ⟨Kl, Kr, m2, e2, l4, r4, hstep, hcon, g1, g7, ?_, g2, ?_, ?_⟩
  · simp only [sort_run_merge_con]
    omega
  · exact two_way_merge_loop_append compare _ Kl Kr (le_refl _) hall
  · intro hadj
    simp only [sort_run_merge_con, if_pos hadj]

theorem append_con_same_as_merge_witness :
    StrictWeakOrder (compare_keys keys_six) ∧
    RunInv (compare_keys keys_six) SORT_DUP_OPTION.SORT_ELIM_DUP mem_six
      { low_high := Side.H, tree_depth := 1, start := 3, stop := 5 } (2 + 1) [5, 4, 3] ∧
    RunInv (compare_keys keys_six) SORT_DUP_OPTION.SORT_ELIM_DUP mem_six
      { low_high := Side.H, tree_depth := 1, start := 0, stop := 2 } 0 [2, 1, 0] ∧
    ([5, 4, 3] ++ [2, 1, 0]).Nodup ∧ ([5, 4, 3] ++ [2, 1, 0]).length ≤ 6 ∧
    compare_cells (compare_keys keys_six) (mem_six.get Side.H 2) (mem_six.get Side.H 3) =
      some (-1) ∧ (-1 : Int) < 0 ∧
    ∃ Kl Kr m2 e2,
      seg (fun i => mem_six.get Side.H i) 0 2 = Kl.map some ∧
      seg (fun i => mem_six.get Side.H i) 3 5 = Kr.map some ∧
      sort_run_merge_step (compare_keys keys_six) 6 SORT_DUP_OPTION.SORT_ELIM_DUP mem_six
          ({ low_high := Side.H, tree_depth := 1, start := 3, stop := 5 } ::
            { low_high := Side.H, tree_depth := 1, start := 0, stop := 2 } :: []) =
        some ((sort_run_merge_con mem_six
            { low_high := Side.H, tree_depth := 1, start := 3, stop := 5 }
            { low_high := Side.H, tree_depth := 1, start := 0, stop := 2 }).1,
          (sort_run_merge_con mem_six
            { low_high := Side.H, tree_depth := 1, start := 3, stop := 5 }
            { low_high := Side.H, tree_depth := 1, start := 0, stop := 2 }).2 :: []) ∧
      seg (fun i => (sort_run_merge_con mem_six
            { low_high := Side.H, tree_depth := 1, start := 3, stop := 5 }
            { low_high := Side.H, tree_depth := 1, start := 0, stop := 2 }).1.get
          (sort_run_merge_con mem_six
            { low_high := Side.H, tree_depth := 1, start := 3, stop := 5 }
            { low_high := Side.H, tree_depth := 1, start := 0, stop := 2 }).2.low_high i)
        (sort_run_merge_con mem_six
            { low_high := Side.H, tree_depth := 1, start := 3, stop := 5 }
            { low_high := Side.H, tree_depth := 1, start := 0, stop := 2 }).2.start
        (sort_run_merge_con mem_six
            { low_high := Side.H, tree_depth := 1, start := 3, stop := 5 }
            { low_high := Side.H, tree_depth := 1, start := 0, stop := 2 }).2.stop =
        (Kl ++ Kr).map some ∧
      sort_run_merge_general (compare_keys keys_six) 6 SORT_DUP_OPTION.SORT_ELIM_DUP mem_six
          { low_high := Side.H, tree_depth := 1, start := 3, stop := 5 }
          { low_high := Side.H, tree_depth := 1, start := 0, stop := 2 } = some (m2, e2) ∧
      seg (fun i => m2.get e2.low_high i) e2.start e2.stop = (Kl ++ Kr).map some ∧
      e2.start = (sort_run_merge_con mem_six
            { low_high := Side.H, tree_depth := 1, start := 3, stop := 5 }
            { low_high := Side.H, tree_depth := 1, start := 0, stop := 2 }).2.start ∧
      e2.stop = (sort_run_merge_con mem_six
            { low_high := Side.H, tree_depth := 1, start := 3, stop := 5 }
            { low_high := Side.H, tree_depth := 1, start := 0, stop := 2 }).2.stop ∧
      two_way_merge_spec (compare_keys keys_six) Kl Kr = Kl ++ Kr ∧
      (Side.H = Side.H ∧ (2 : Int) + 1 = 3 →
        (sort_run_merge_con mem_six
            { low_high := Side.H, tree_depth := 1, start := 3, stop := 5 }
            { low_high := Side.H, tree_depth := 1, start := 0, stop := 2 }).1 = mem_six) :=
  have hr : RunInv (compare_keys keys_six) SORT_DUP_OPTION.SORT_ELIM_DUP mem_six
      { low_high := Side.H, tree_depth := 1, start := 3, stop := 5 } (2 + 1) [5, 4, 3] :=
    ⟨[3, 4, 5], by decide, by decide, by decide, by decide, by decide, by decide, by decide,
      fun h => by cases h⟩
  have hl : RunInv (compare_keys keys_six) SORT_DUP_OPTION.SORT_ELIM_DUP mem_six
      { low_high := Side.H, tree_depth := 1, start := 0, stop := 2 } 0 [2, 1, 0] :=
    ⟨[0, 1, 2], by decide, by decide, by decide, by decide, by decide, by decide, by decide,
      fun h => by cases h⟩
  ⟨compare_keys_swo keys_six, hr, hl, by decide, by decide, by decide, by decide,
    append_con_same_as_merge (compare_keys keys_six) (compare_keys_swo keys_six)
      SORT_DUP_OPTION.SORT_ELIM_DUP 6 mem_six
      { low_high := Side.H, tree_depth := 1, start := 3, stop := 5 }
      { low_high := Side.H, tree_depth := 1, start := 0, stop := 2 } [] 0 [5, 4, 3] [2, 1, 0]
      hr hl (by decide) (by decide) (-1) (by decide) (by decide)⟩

/-! ### The stack of runs of `sort_run_sort` is never full -/

theorem log2_loop_ge : ∀ (fuel n L : Nat), n ≤ fuel → 2 ^ L ≤ n → L ≤ log2_loop fuel n := by
  intro fuel
  induction fuel with
  | zero =>
    intro n L hn hL
    have : 0 < 2 ^ L := Nat.pow_pos (by omega)
    omega
  | succ fuel ih =>
    intro n L hn hL
    cases L with
    | zero => exact Nat.zero_le _
    | succ L =>
      have h2 : 2 ≤ n := by
        have : 2 ^ 1 ≤ 2 ^ (L + 1) := Nat.pow_le_pow_right (by omega) (by omega)
        omega
      simp only [log2_loop, ge_iff_le, h2, if_true]
      have := ih (n / 2) L (by omega) (by
        rw [Nat.le_div_iff_mul_le (by omega)]
        rw [pow_succ] at hL
        exact hL)
      omega

/-- The runs of a stack whose depths grow strictly from `j + 1` on stand for at
least `2 ^ j + 2 ^ (j + 1) + ...` runs. -/
theorem depth_sum_ge : ∀ (stack : List SRUN) (j : Nat),
    stack.Pairwise (fun a b => a.tree_depth < b.tree_depth) →
    (∀ e ∈ stack, j + 1 ≤ e.tree_depth) →
    2 ^ j * 2 ^ stack.length ≤ (stack.map (fun e => 2 ^ (e.tree_depth - 1))).sum + 2 ^ j := by
  intro stack
  induction stack with
  | nil =>
    intro j _ _
    simp
  | cons e rest ih =>
    intro j hp hd
    obtain ⟨p1, p2⟩ := List.pairwise_cons.1 hp
    have he := hd e (List.mem_cons_self _ _)
    have := ih (j + 1) p2 (fun x hx => by
      have := p1 x hx
      omega)
    have hw : 2 ^ j ≤ 2 ^ (e.tree_depth - 1) := Nat.pow_le_pow_right (by omega) (by omega)
    simp only [List.map_cons, List.sum_cons, List.length_cons]
    rw [pow_succ] at this ⊢
    nlinarith [this, hw]

theorem DepthInv.length_le {stack : List SRUN} {k : Nat} (h : DepthInv stack k) :
    2 ^ stack.length ≤ k + 1 := by
  obtain ⟨h1, h2, h3⟩ := h
  have := depth_sum_ge stack 1 h1 (fun e he => h2 e he)
  rw [h3] at this
  omega

theorem DepthInv.not_merge_again {stack : List SRUN} {k : Nat} (h : DepthInv stack k) :
    merge_again stack = false := by
  obtain ⟨h1, -, -⟩ := h
  match stack, h1 with
  | [], _ => rfl
  | [_], _ => rfl
  | a :: b :: rest, h1 =>
    have := (List.pairwise_cons.1 h1).1 b (List.mem_cons_self _ _)
    simp only [merge_again, decide_eq_false_iff_not]
    omega

/-- The room in a stack of `cnt` runs for the first run of a pass of the loop. -/
theorem stack_room_first (stack : List SRUN) (k : Nat) (top limit sort_numrecs cnt : Int)
    (h : DepthInv stack k) (h1 : 4 * (k : Int) ≤ top) (h2 : top < limit)
    (hcnt : sort_stack_count limit sort_numrecs - 1 ≤ cnt) : (stack.length : Int) < cnt := by
  have hL := h.length_le
  have hc : k + 1 ≤ ((limit + 1) / 2).toNat := by omega
  have := log2_loop_ge ((limit + 1) / 2).toNat ((limit + 1) / 2).toNat stack.length (le_refl _)
    (le_trans hL hc)
  unfold sort_stack_count at hcnt
  split_ifs at hcnt <;> omega

/-- The room in a stack of `cnt` runs for the second run of a pass of the loop. -/
theorem stack_room_second (stack : List SRUN) (k : Nat) (top limit sort_numrecs cnt : Int)
    (h : DepthInv stack k) (h1 : 4 * (k : Int) + 2 ≤ top) (h2 : top < limit)
    (hcnt : sort_stack_count limit sort_numrecs - 1 ≤ cnt) :
    ((stack.length + 1 : Nat) : Int) < cnt := by
  have hL := h.length_le
  have hc : 2 * k + 2 ≤ ((limit + 1) / 2).toNat := by omega
  have hp : 2 ^ (stack.length + 1) ≤ ((limit + 1) / 2).toNat := by
    rw [pow_succ]; omega
  have := log2_loop_ge ((limit + 1) / 2).toNat ((limit + 1) / 2).toNat (stack.length + 1)
    (le_refl _) hp
  unfold sort_stack_count at hcnt
  split_ifs at hcnt <;> omega

theorem find_scan_stop (compare : Nat → Nat → Int) (fuel : Nat) (option : SORT_DUP_OPTION)
    (limit : Int) (inc : Bool) :
    ∀ (n : Nat) (st sc : ScanState),
      sort_run_find_scan compare fuel option limit inc n st = some sc →
      st.stop ≤ sc.stop ∧ (st.stop < limit → sc.stop < limit) := by
  intro n
  induction n with
  | zero =>
    intro st sc h
    simp only [sort_run_find_scan, Option.some.injEq] at h
    rw [← h]
    exact ⟨le_refl _, fun h => h⟩
  | succ n ih =>
    intro st sc h
    simp only [sort_run_find_scan] at h
    by_cases h1 : st.stop + 1 < limit
    · rw [if_pos h1] at h
      split at h
      · cases h
      · rename_i cmp _
        by_cases h2 : (if inc = true then cmp ≤ 0 else cmp ≥ 0)
        · rw [if_pos h2] at h
          split at h
          · cases h
          · obtain ⟨q1, q2⟩ := ih _ _ h
            simp only [] at q1 q2
            exact ⟨by omega, fun _ => q2 h1⟩
        · rw [if_neg h2] at h
          have h3 : st = sc := by simpa using h
          rw [← h3]
          exact ⟨le_refl _, fun h => h⟩
    · rw [if_neg h1] at h
      have h3 : st = sc := by simpa using h
      rw [← h3]
      exact ⟨le_refl _, fun h => h⟩

/-- What `sort_run_find` does to the stack and the cursor, whatever the cells
hold: it pushes a run of depth 1 and moves the cursor on by two cells or more, or
to `limit`. -/
theorem find_shape (compare : Nat → Nat → Int) (fuel : Nat) (option : SORT_DUP_OPTION)
    (limit : Int) (s s1 : SortState) (h : sort_run_find compare fuel option limit s = some s1) :
    ∃ e, s1.stack = e :: s.stack ∧ e.tree_depth = 1 ∧
      (s1.top = limit ∨ (s.top + 2 ≤ s1.top ∧ s1.top ≤ limit)) := by
  unfold sort_run_find at h
  split_ifs at h with hdeg
  · simp only [Option.some.injEq] at h
    rw [← h]
    exact ⟨_, rfl, rfl, Or.inl rfl⟩
  · simp only [] at h
    split at h
    · cases h
    · split at h
      · cases h
      · split at h
        · cases h
        · rename_i sc hsc
          simp only [Option.some.injEq] at h
          obtain ⟨q1, q2⟩ := find_scan_stop compare fuel option limit _ _ _ _ hsc
          simp only [] at q1 q2
          have := q2 (by omega)
          rw [← h]
          refine ⟨_, rfl, rfl, Or.inr ?_⟩
          simp only []
          omega

/-- What one merge does to the stack: the two runs on top are replaced by one run,
one deeper than the lower one of them. -/
theorem merge_step_shape (compare : Nat → Nat → Int) (fuel : Nat) (option : SORT_DUP_OPTION)
    (m m1 : SortMem) (stack st1 : List SRUN)
    (h : sort_run_merge_step compare fuel option m stack = some (m1, st1)) :
    ∃ right left rest e, stack = right :: left :: rest ∧ st1 = e :: rest ∧
      e.tree_depth = (left.tree_depth + 1) % 65536 := by
  match stack, h with
  | right :: left :: rest, h =>
    simp only [sort_run_merge_step] at h
    split at h
    · cases h
    · split_ifs at h with hc
      · simp only [Option.some.injEq, Prod.mk.injEq] at h
        exact ⟨right, left, rest, _, rfl, h.2.symm, rfl⟩
      · split at h
        · cases h
        · rename_i m2 e hg
          simp only [Option.some.injEq, Prod.mk.injEq] at h
          refine ⟨right, left, rest, e, rfl, h.2.symm, ?_⟩
          simp only [sort_run_merge_general] at hg
          split at hg
          · cases hg
          · simp only [Option.some.injEq, Prod.mk.injEq] at hg
            rw [← hg.2]
  | [], h => simp [sort_run_merge_step] at h
  | [_], h => simp [sort_run_merge_step] at h

/-- `sort_run_merge` leaves fewer runs on the stack, at least one. -/
theorem merge_shorter (compare : Nat → Nat → Int) (fuel : Nat) (option : SORT_DUP_OPTION) :
    ∀ (n : Nat) (m m1 : SortMem) (stack st1 : List SRUN),
      sort_run_merge compare fuel option n m stack = some (m1, st1) →
      st1.length < stack.length ∧ 1 ≤ st1.length := by
  intro n
  induction n with
  | zero =>
    intro m m1 stack st1 h
    simp only [sort_run_merge] at h
    obtain ⟨right, left, rest, e, h1, h2, -⟩ := merge_step_shape compare fuel option m m1 stack st1 h
    rw [h1, h2]
    simp
  | succ n ih =>
    intro m m1 stack st1 h
    simp only [sort_run_merge] at h
    split at h
    · cases h
    · rename_i m2 st2 hs
      obtain ⟨right, left, rest, e, h1, h2, -⟩ :=
        merge_step_shape compare fuel option m m2 stack st2 hs
      split_ifs at h with ha
      · obtain ⟨q1, q2⟩ := ih m2 m1 st2 st1 h
        rw [h1]
        rw [h2] at q1
        simp only [List.length_cons] at q1 ⊢
        omega
      · simp only [Option.some.injEq, Prod.mk.injEq] at h
        rw [← h.2, h1, h2]
        simp

/-- The carry of `sort_run_merge`: the two runs of equal depth on top become one
run, one deeper, and again while the two runs on top are of equal depth. -/
theorem merge_carry (compare : Nat → Nat → Int) (fuel : Nat) (option : SORT_DUP_OPTION) :
    ∀ (n : Nat) (m m1 : SortMem) (stack st1 : List SRUN) (K : Nat),
      stack.length ≤ n + 2 → PreMerge stack K → 2 * K < 2 ^ 64 →
      sort_run_merge compare fuel option n m stack = some (m1, st1) → DepthInv st1 K := by
  have key : ∀ (m m2 : SortMem) (stack st2 : List SRUN) (K : Nat),
      PreMerge stack K → 2 * K < 2 ^ 64 →
      sort_run_merge_step compare fuel option m stack = some (m2, st2) →
      st2.length + 1 = stack.length ∧
      (merge_again st2 = true → PreMerge st2 K) ∧ (merge_again st2 = false → DepthInv st2 K) := by
    intro m m2 stack st2 K hpre hK hs
    obtain ⟨a, b, rest, e1, e2, e3, e4, e5, e6⟩ := hpre
    obtain ⟨right, left, rest1, e, f1, f2, f3⟩ :=
      merge_step_shape compare fuel option m m2 stack st2 hs
    rw [e1] at f1
    simp only [List.cons.injEq] at f1
    obtain ⟨g1, g2, g3⟩ := f1
    rw [← g2] at f3
    rw [← g3] at f2
    have hb : b.tree_depth < 64 := by
      have h1 : 2 ^ b.tree_depth < 2 ^ 64 := by omega
      exact (Nat.pow_lt_pow_iff_right (by omega)).1 h1
    have hd : e.tree_depth = b.tree_depth + 1 := by omega
    refine ⟨by rw [f2, e1]; simp, ?_, ?_⟩
    · intro hm
      rw [f2] at hm ⊢
      match rest, e4, e5, e6, hm with
      | c :: rest2, e4, e5, e6, hm =>
        simp only [merge_again, decide_eq_true_eq] at hm
        obtain ⟨p1, p2⟩ := List.pairwise_cons.1 e4
        refine ⟨e, c, rest2, rfl, hm, by omega, p2, fun x hx => ?_, ?_⟩
        · have := p1 x hx
          omega
        · simp only [List.map_cons, List.sum_cons] at e6
          have hc : c.tree_depth - 1 = b.tree_depth := by omega
          rw [hc] at e6
          have hc2 : c.tree_depth = b.tree_depth + 1 := by omega
          rw [hc2, pow_succ]
          omega
      | [], _, _, _, hm => simp [merge_again] at hm
    · intro hm
      rw [f2] at hm ⊢
      refine ⟨List.pairwise_cons.2 ⟨fun x hx => ?_, e4⟩, fun x hx => ?_, ?_⟩
      · match rest, e4, e5, hm, hx with
        | c :: rest2, e4, e5, hm, hx =>
          simp only [merge_again, decide_eq_false_iff_not] at hm
          have hc := e5 c (List.mem_cons_self _ _)
          rcases List.mem_cons.1 hx with hx | hx
          · rw [hx]; omega
          · have := (List.pairwise_cons.1 e4).1 x hx
            omega
      · rcases List.mem_cons.1 hx with hx | hx
        · rw [hx]; omega
        · have := e5 x hx
          omega
      · simp only [List.map_cons, List.sum_cons]
        have : e.tree_depth - 1 = b.tree_depth := by omega
        rw [this]
        exact e6
  intro n
  induction n with
  | zero =>
    intro m m1 stack st1 K hlen hpre hK h
    simp only [sort_run_merge] at h
    obtain ⟨k1, k2, k3⟩ := key m m1 stack st1 K hpre hK h
    apply k3
    match st1, k1 with
    | [], _ => rfl
    | [_], _ => rfl
    | _ :: _ :: _, k1 =>
      simp only [List.length_cons] at k1
      omega
  | succ n ih =>
    intro m m1 stack st1 K hlen hpre hK h
    simp only [sort_run_merge] at h
    split at h
    · cases h
    · rename_i m2 st2 hs
      obtain ⟨k1, k2, k3⟩ := key m m2 stack st2 K hpre hK hs
      by_cases ha : merge_again st2 = true
      · rw [if_pos ha] at h
        exact ih m2 m1 st2 st1 K (by omega) (k2 ha) hK h
      · rw [if_neg ha] at h
        simp only [Option.some.injEq, Prod.mk.injEq] at h
        rw [← h.2]
        exact k3 (by simpa using ha)

/-- The merges of `sort_run_sort` leave the cursor alone. -/
theorem sort_merges_top (compare : Nat → Nat → Int) (fuel : Nat) (option : SORT_DUP_OPTION)
    (limit : Int) : ∀ (n : Nat) (s s3 : SortState),
      sort_run_sort_merges compare fuel option limit n s = some s3 → s3.top = s.top := by
  intro n
  induction n with
  | zero =>
    intro s s3 h
    have h3 : s = s3 := by simpa [sort_run_sort_merges] using h
    rw [h3]
  | succ n ih =>
    intro s s3 h
    simp only [sort_run_sort_merges] at h
    by_cases hc : s.stack.length ≥ 2 ∧ (s.top ≥ limit ∨ (s.top < limit ∧ merge_again s.stack))
    · rw [if_pos hc] at h
      split at h
      · cases h
      · rename_i m1 st1 _
        exact ih { s with mem := m1, stack := st1 } _ h
    · rw [if_neg hc] at h
      have h3 : s = s3 := by simpa using h
      rw [h3]

/-- The final merge stage (`src_top >= limit`) leaves one run on the stack. -/
theorem sort_merges_final (compare : Nat → Nat → Int) (fuel : Nat) (option : SORT_DUP_OPTION)
    (limit : Int) : ∀ (n : Nat) (s s3 : SortState), s.top ≥ limit → s.stack.length ≤ n + 1 →
      sort_run_sort_merges compare fuel option limit n s = some s3 → s3.stack.length ≤ 1 := by
  intro n
  induction n with
  | zero =>
    intro s s3 _ hl h
    have h3 : s = s3 := by simpa [sort_run_sort_merges] using h
    rw [← h3]
    omega
  | succ n ih =>
    intro s s3 ht hl h
    simp only [sort_run_sort_merges] at h
    by_cases hc : s.stack.length ≥ 2 ∧ (s.top ≥ limit ∨ (s.top < limit ∧ merge_again s.stack))
    · rw [if_pos hc] at h
      split at h
      · cases h
      · rename_i m1 st1 hm
        have := (merge_shorter compare fuel option _ _ _ _ _ hm).1
        exact ih { s with mem := m1, stack := st1 } _ ht (by show st1.length ≤ n + 1; omega) h
    · rw [if_neg hc] at h
      have h3 : s = s3 := by simpa using h
      rw [← h3]
      have : ¬ s.stack.length ≥ 2 := fun h2 => hc ⟨h2, Or.inl ht⟩
      omega

/-- The non-final merge stage after two runs were found: the stack is in the
shape of `DepthInv` again. -/
theorem sort_merges_pair (compare : Nat → Nat → Int) (fuel : Nat) (option : SORT_DUP_OPTION)
    (limit : Int) (n : Nat) (s s3 : SortState) (e2 e1 : SRUN) (old : List SRUN) (k : Nat)
    (hs : s.stack = e2 :: e1 :: old) (h2 : e2.tree_depth = 1) (h1 : e1.tree_depth = 1)
    (hold : DepthInv old k) (ht : s.top < limit) (hk : 2 * (k + 1) < 2 ^ 64) (hn : 1 ≤ n)
    (h : sort_run_sort_merges compare fuel option limit n s = some s3) :
    DepthInv s3.stack (k + 1) := by
  obtain ⟨n, rfl⟩ : ∃ n1, n = n1 + 1 := ⟨n - 1, by omega⟩
  simp only [sort_run_sort_merges] at h
  have hc : s.stack.length ≥ 2 ∧ (s.top ≥ limit ∨ (s.top < limit ∧ merge_again s.stack)) := by
    rw [hs]
    refine ⟨by simp, Or.inr ⟨ht, ?_⟩⟩
    simp only [merge_again, decide_eq_true_eq]
    omega
  rw [if_pos hc] at h
  split at h
  · cases h
  · rename_i m1 st1 hm
    obtain ⟨o1, o2, o3⟩ := hold
    have hd : DepthInv st1 (k + 1) :=
      merge_carry compare fuel option _ _ _ _ _ (k + 1) (by omega)
        ⟨e2, e1, old, hs, by omega, by omega, o1, fun x hx => by
            have := o2 x hx
            omega, by
            rw [h1, o3]
            omega⟩ hk hm
    cases n with
    | zero =>
      have h3 : ({ s with mem := m1, stack := st1 } : SortState) = s3 := by
        simpa [sort_run_sort_merges] using h
      rw [← h3]
      exact hd
    | succ n =>
      simp only [sort_run_sort_merges] at h
      have hnc : ¬ (st1.length ≥ 2 ∧ (s.top ≥ limit ∨ (s.top < limit ∧ merge_again st1))) := by
        rintro ⟨-, h4 | ⟨-, h4⟩⟩
        · omega
        · rw [hd.not_merge_again] at h4
          cases h4
      rw [if_neg hnc] at h
      have h3 : ({ s with mem := m1, stack := st1 } : SortState) = s3 := by simpa using h
      rw [← h3]
      exact hd

/-- The loop of `sort_run_sort` never finds the stack full: with room for `cnt`
runs it does what it does with room for any number of them, and between two passes
the stack is in the shape of `DepthInv`. -/
theorem sort_loop_within (compare : Nat → Nat → Int) (fuel : Nat) (option : SORT_DUP_OPTION)
    (limit sort_numrecs cnt : Int) (hlim : limit < 2 ^ 63)
    (hcnt : sort_stack_count limit sort_numrecs - 1 ≤ cnt) :
    ∀ (n : Nat) (s : SortState) (k : Nat), DepthInv s.stack k → 4 * (k : Int) ≤ s.top →
      s.top < limit →
      sort_run_sort_loop_within cnt compare fuel option limit n s =
        sort_run_sort_loop compare fuel option limit n s ∧
      ∀ s3, sort_run_sort_loop compare fuel option limit n s = some s3 →
        s3.stack.length ≤ 1 ∨
          ∃ k3 : Nat, DepthInv s3.stack k3 ∧ 4 * (k3 : Int) ≤ s3.top ∧ s3.top < limit := by
  intro n
  induction n with
  | zero =>
    intro s k hd hk ht
    refine ⟨rfl, fun s3 h => Or.inr ⟨k, ?_⟩⟩
    have h3 : s = s3 := by simpa [sort_run_sort_loop] using h
    rw [← h3]
    exact ⟨hd, hk, ht⟩
  | succ n ih =>
    intro s k hd hk ht
    have r1 := stack_room_first s.stack k s.top limit sort_numrecs cnt hd hk ht hcnt
    simp only [sort_run_sort_loop_within, sort_run_sort_loop, sort_run_find_within, if_pos r1]
    cases hf1 : sort_run_find compare fuel option limit s with
    | none => exact ⟨rfl, fun s3 h => by cases h⟩
    | some s1 =>
      simp only []
      obtain ⟨e1, a1, a2, a3⟩ := find_shape compare fuel option limit s s1 hf1
      by_cases ht1 : s1.top < limit
      · have a4 : s.top + 2 ≤ s1.top := by
          rcases a3 with a3 | a3
          · omega
          · exact a3.1
        have r2 : (s1.stack.length : Int) < cnt := by
          rw [a1, List.length_cons]
          exact stack_room_second s.stack k s1.top limit sort_numrecs cnt hd (by omega) ht1 hcnt
        simp only [if_pos ht1, if_pos r2]
        cases hf2 : sort_run_find compare fuel option limit s1 with
        | none => exact ⟨rfl, fun s3 h => by cases h⟩
        | some s2 =>
          simp only []
          obtain ⟨e2, b1, b2, b3⟩ := find_shape compare fuel option limit s1 s2 hf2
          cases hm : sort_run_sort_merges compare fuel option limit s2.stack.length s2 with
          | none => exact ⟨rfl, fun s3 h => by cases h⟩
          | some s3 =>
            simp only []
            have htop := sort_merges_top compare fuel option limit _ _ _ hm
            by_cases ht2 : s2.top < limit
            · have b4 : s1.top + 2 ≤ s2.top := by
                rcases b3 with b3 | b3
                · omega
                · exact b3.1
              have hd3 : DepthInv s3.stack (k + 1) :=
                sort_merges_pair compare fuel option limit _ s2 s3 e2 e1 s.stack k
                  (by rw [b1, a1]) b2 a2 hd ht2 (by omega) (by rw [b1]; simp) hm
              have ht3 : s3.top < limit := by omega
              obtain ⟨i1, i2⟩ := ih s3 (k + 1) hd3 (by push_cast; omega) ht3
              simp only [if_pos ht3]
              exact ⟨i1, i2⟩
            · have hl3 : s3.stack.length ≤ 1 :=
                sort_merges_final compare fuel option limit _ s2 s3 (by omega) (by omega) hm
              have ht3 : ¬ s3.top < limit := by omega
              simp only [if_neg ht3]
              refine ⟨trivial, fun s4 h => Or.inl ?_⟩
              have h3 : s3 = s4 := by simpa using h
              rw [← h3]
              exact hl3
      · simp only [if_neg ht1]
        cases hm : sort_run_sort_merges compare fuel option limit s1.stack.length s1 with
        | none => exact ⟨rfl, fun s3 h => by cases h⟩
        | some s3 =>
          simp only []
          have htop := sort_merges_top compare fuel option limit _ _ _ hm
          have hl3 : s3.stack.length ≤ 1 :=
            sort_merges_final compare fuel option limit _ s1 s3 (by omega) (by omega) hm
          have ht3 : ¬ s3.top < limit := by omega
          simp only [if_neg ht3]
          refine ⟨trivial, fun s4 h => Or.inl ?_⟩
          have h3 : s3 = s4 := by simpa using h
          rw [← h3]
          exact hl3

/-- The C `sort_run_sort` with a stack of `cnt` runs does what it does with a stack
that is never full, for every `cnt` from one below the number the code
allocates. -/
theorem sort_run_sort_within_eq (compare : Nat → Nat → Int) (option : SORT_DUP_OPTION)
    (m : SortMem) (limit sort_numrecs srun_limit cnt : Int)
    (hN : 2 ≤ limit - sort_numrecs) (hmax : limit - sort_numrecs < 2 ^ 63)
    (hcnt : sort_stack_count (limit - sort_numrecs) sort_numrecs - 1 ≤ cnt) :
    sort_run_sort_within cnt compare option m limit sort_numrecs srun_limit =
      sort_run_sort compare option m limit sort_numrecs srun_limit := by
  have hearly : ¬ (limit - sort_numrecs = 0 ∨ (limit - sort_numrecs = 1 ∧ sort_numrecs = 0)) := by
    omega
  obtain ⟨l1, l2⟩ := sort_loop_within compare limit.toNat option (limit - sort_numrecs)
    sort_numrecs cnt hmax hcnt (limit - sort_numrecs).toNat { mem := m, stack := [], top := 0 } 0
    ⟨List.Pairwise.nil, fun e he => by simp at he, by simp⟩ (by simp) (by simp only []; omega)
  simp only [sort_run_sort_within, sort_run_sort, if_neg hearly, l1]
  cases hl : sort_run_sort_loop compare limit.toNat option (limit - sort_numrecs)
      (limit - sort_numrecs).toNat { mem := m, stack := [], top := 0 } with
  | none => rfl
  | some s =>
    simp only []
    by_cases hz : sort_numrecs = 0
    · simp only [hz, ne_eq, not_true_eq_false, if_false]
    · have hroom : (s.stack.length : Int) < cnt := by
        rcases l2 s hl with h | ⟨k, h1, h2, h3⟩
        · have : (0 : Int) ≤ (log2_loop ((limit - sort_numrecs + 1) / 2).toNat
              ((limit - sort_numrecs + 1) / 2).toNat : Int) := Int.natCast_nonneg _
          unfold sort_stack_count at hcnt
          rw [if_pos hz] at hcnt
          omega
        · exact stack_room_first s.stack k s.top (limit - sort_numrecs) sort_numrecs cnt h1 h2 h3
            hcnt
      simp only [ne_eq, hz, not_false_eq_true, if_true, if_pos hroom]

/-- C30: `sort_run_sort` is called with `N = limit - sort_numrecs >= 2` new records
in the cells `0 .. N - 1` of `*base` and, behind them, `sort_numrecs` records in
strictly ascending order (none with `SORT_DUP`); `limit` is a `long`. The stack of
runs is an array of `cnt` entries, where `cnt` is any number from one below
`sort_stack_count N sort_numrecs`, the logarithm to the base 2 of `ceil (N / 2)`
cut to an integer, plus 2, plus 1 when `sort_numrecs` is not 0; so the number the
code allocates is covered, also when the quotient of the two `log10` comes out one
too small or too large. Then no run is ever pushed onto a full stack: the sort with
the stack of `cnt` entries, which is undefined at such a push, returns, and with
the result of the sort whose stack is never full. -/
theorem sort_stack_never_full (compare : Nat → Nat → Int)
    (hswo : StrictWeakOrder compare) (option : SORT_DUP_OPTION) (m : SortMem)
    (limit sort_numrecs cnt : Int) (A Kpre : List Nat)
    (h0 : 0 ≤ sort_numrecs) (hN : 2 ≤ limit - sort_numrecs) (hmax : limit < 2 ^ 63)
    (hA : seg m.high 0 (limit - sort_numrecs - 1) = A.map some)
    (hpre : seg m.high (limit - sort_numrecs) (limit - 1) = Kpre.map some)
    (hasc : StrictAsc compare Kpre)
    (hlink : option = SORT_DUP_OPTION.SORT_DUP → sort_numrecs = 0 ∧ ∀ x ∈ A, m.next x = none)
    (hnd : (A ++ Kpre).Nodup)
    (hcnt : sort_stack_count (limit - sort_numrecs) sort_numrecs - 1 ≤ cnt) :
    ∃ r, sort_run_sort_within cnt compare option m limit sort_numrecs limit = some r ∧
      sort_run_sort compare option m limit sort_numrecs limit = some r := by
  have hlen : (Kpre.length : Int) = sort_numrecs := by
    have := congrArg List.length hpre
    rw [seg_length, List.length_map] at this
    omega
  obtain ⟨r, K, q1, -⟩ := sort_run_sort_spec compare hswo option m limit
    sort_numrecs A Kpre h0 (by omega) hA (fun ho => (hlink ho).2)
    (by
      by_cases hz : sort_numrecs = 0
      · rw [if_pos hz]
        exact List.eq_nil_of_length_eq_zero (by omega)
      · rw [if_neg hz]
        refine ⟨Kpre, le_refl _, by simp only []; omega, by simp only []; omega, hpre, hasc,
          fun k hk => hk, fun x hx => ⟨x, hx, hswo.refl x⟩, fun ho => ?_⟩
        exact absurd (hlink ho).1 hz)
    (by
      have hp : (Kpre ++ A.reverse).Perm (A ++ Kpre) :=
        (List.perm_append_comm).trans (List.Perm.append_right _ (List.reverse_perm A))
      exact hp.nodup_iff.2 hnd)
  refine ⟨r, ?_, q1⟩
  rw [sort_run_sort_within_eq compare option m limit sort_numrecs limit cnt hN (by omega) hcnt]
  exact q1

theorem sort_stack_never_full_witness :
    StrictWeakOrder (compare_keys example_keys) ∧ (0 : Int) ≤ 0 ∧ (2 : Int) ≤ 6 - 0 ∧
    (6 : Int) < 2 ^ 63 ∧
    seg (initial_mem 6).high 0 (6 - 0 - 1) = [5, 4, 3, 2, 1, 0].map some ∧
    seg (initial_mem 6).high (6 - 0) (6 - 1) = ([] : List Nat).map some ∧
    StrictAsc (compare_keys example_keys) [] ∧ ([5, 4, 3, 2, 1, 0] ++ ([] : List Nat)).Nodup ∧
    sort_stack_count (6 - 0) 0 = 3 ∧
    ∃ r, sort_run_sort_within 3 (compare_keys example_keys) SORT_DUP_OPTION.SORT_ELIM_DUP
        (initial_mem 6) 6 0 6 = some r ∧
      sort_run_sort (compare_keys example_keys) SORT_DUP_OPTION.SORT_ELIM_DUP (initial_mem 6) 6 0
        6 = some r :=
  ⟨compare_keys_swo example_keys, by decide, by decide, by decide, by decide, by decide,
    by decide, by decide, by decide,
    sort_stack_never_full (compare_keys example_keys)
      (compare_keys_swo example_keys) SORT_DUP_OPTION.SORT_ELIM_DUP (initial_mem 6) 6 0 3
      [5, 4, 3, 2, 1, 0] [] (by decide) (by decide) (by decide) (by decide) (by decide)
      (by decide) (fun h => by cases h) (by decide) (by decide)⟩

/-- A stack of one entry is too small for the six records of the example: the
second run is pushed onto a full stack. -/
theorem sort_stack_full_example :
    (sort_run_sort_within 1 (compare_keys example_keys) SORT_DUP_OPTION.SORT_ELIM_DUP
      (initial_mem 6) 6 0 6).isNone = true := by
  decide

/-! ### `sort_add_new_file` with `force_alloc` -/

/-- C24, the claim as it stands fails: on a volume where every allocation fails
with "not enough pages in volume", a request of 100 pages with 50 pages at most in
a new volume is retried with 47 pages, the retry fails with the same error, and
`sort_add_new_file` returns `NO_ERROR`; with 1000 pages at most in a new volume the
request of 100 pages is not retried at all, and `NO_ERROR` is returned. -/
theorem add_new_file_same_error_counterexample :
    (host_full 50).file_alloc_pages [100] = some (host_full 50).ER_FILE_NOT_ENOUGH_PAGES_IN_VOLUME ∧
    (host_full 50).file_alloc_pages [100, 47] =
      some (host_full 50).ER_FILE_NOT_ENOUGH_PAGES_IN_VOLUME ∧
    sort_add_new_file (host_full 50) 100 true = (AddFileCode.NO_ERROR, [100, 47]) ∧
    (host_full 1000).file_alloc_pages [100] =
      some (host_full 1000).ER_FILE_NOT_ENOUGH_PAGES_IN_VOLUME ∧
    sort_add_new_file (host_full 1000) 100 true = (AddFileCode.NO_ERROR, [100]) := by
  decide

/-- C24, amended: `sort_add_new_file` is called with `force_alloc`, the file is
created, and a new volume holds `boot_max_pages_new_volume () >= 0` pages at most;
`p = max (1, floor (0.95 * boot_max_pages_new_volume ()))`. When the first
allocation fails with another error than "not enough pages in volume", the
function returns `ER_FAILED` without a second allocation. When it fails with "not
enough pages in volume": if `p` is less than the requested count, the allocation
is tried once more, with `p` pages, and the function returns `ER_FAILED` if and
only if this second allocation fails with another error than "not enough pages in
volume" (so it returns `NO_ERROR` when the second allocation fails with the same
error); if `p` is not less than the requested count, there is no second
allocation and the function returns `NO_ERROR`. -/
theorem add_new_file_retry (H : FileHost) (file_pg_cnt_est : Int)
    (hc : H.file_create_tmp_ok = true) (hmax : 0 ≤ H.boot_max_pages_new_volume) :
    (∀ e1, H.file_alloc_pages [file_pg_cnt_est] = some e1 →
      e1 ≠ H.ER_FILE_NOT_ENOUGH_PAGES_IN_VOLUME →
      sort_add_new_file H file_pg_cnt_est true = (AddFileCode.ER_FAILED, [file_pg_cnt_est])) ∧
    (H.file_alloc_pages [file_pg_cnt_est] = some H.ER_FILE_NOT_ENOUGH_PAGES_IN_VOLUME →
      (max 1 (H.boot_max_pages_new_volume * 19 / 20) < file_pg_cnt_est →
        (sort_add_new_file H file_pg_cnt_est true).2 =
          [file_pg_cnt_est, max 1 (H.boot_max_pages_new_volume * 19 / 20)] ∧
        ((sort_add_new_file H file_pg_cnt_est true).1 = AddFileCode.ER_FAILED ↔
          ∃ e2, H.file_alloc_pages
              [file_pg_cnt_est, max 1 (H.boot_max_pages_new_volume * 19 / 20)] = some e2 ∧
            e2 ≠ H.ER_FILE_NOT_ENOUGH_PAGES_IN_VOLUME)) ∧
      (file_pg_cnt_est ≤ max 1 (H.boot_max_pages_new_volume * 19 / 20) →
        sort_add_new_file H file_pg_cnt_est true = (AddFileCode.NO_ERROR, [file_pg_cnt_est]))) := by
  have hp : pg_cnt_est2 H = max 1 (H.boot_max_pages_new_volume * 19 / 20) := by
    unfold pg_cnt_est2
    rw [Int.tdiv_eq_ediv (by omega) (by omega)]
  rw [← hp]
  refine ⟨fun e1 h1 hne => ?_, fun h1 => ⟨fun hlt => ?_, fun hge => ?_⟩⟩
  · simp only [sort_add_new_file, hc, h1, Bool.true_eq_false, if_false, ne_eq, hne,
      not_false_eq_true, if_true]
  · cases h2 : H.file_alloc_pages [file_pg_cnt_est, pg_cnt_est2 H] with
    | none =>
      simp only [sort_add_new_file, hc, h1, h2, Bool.true_eq_false, if_false, ne_eq,
        not_true_eq_false, if_pos hlt, true_and]
      constructor
      · intro h
        cases h
      · rintro ⟨e2, h, -⟩
        cases h
    | some e2 =>
      by_cases hne : e2 = H.ER_FILE_NOT_ENOUGH_PAGES_IN_VOLUME
      · simp only [sort_add_new_file, hc, h1, h2, Bool.true_eq_false, if_false, ne_eq,
          not_true_eq_false, if_pos hlt, hne, true_and]
        constructor
        · intro h
          cases h
        · rintro ⟨e3, h, h3⟩
          simp only [Option.some.injEq] at h
          exact absurd h.symm h3
      · simp only [sort_add_new_file, hc, h1, h2, Bool.true_eq_false, if_false, ne_eq,
          not_true_eq_false, if_pos hlt, hne, not_false_eq_true, if_true, true_and, true_iff]
        exact ⟨e2, rfl, hne⟩
  · have hnl : ¬ pg_cnt_est2 H < file_pg_cnt_est := by omega
    simp only [sort_add_new_file, hc, h1, Bool.true_eq_false, if_false, ne_eq,
      not_true_eq_false, if_neg hnl]

theorem add_new_file_retry_witness :
    (host_second_error 50 3).file_create_tmp_ok = true ∧
    (0 : Int) ≤ (host_second_error 50 3).boot_max_pages_new_volume ∧
    (host_second_error 50 3).file_alloc_pages [100] =
      some (host_second_error 50 3).ER_FILE_NOT_ENOUGH_PAGES_IN_VOLUME ∧
    max 1 ((host_second_error 50 3).boot_max_pages_new_volume * 19 / 20) = 47 ∧
    sort_add_new_file (host_second_error 50 3) 100 true = (AddFileCode.ER_FAILED, [100, 47]) ∧
    ((∀ e1, (host_second_error 50 3).file_alloc_pages [100] = some e1 →
      e1 ≠ (host_second_error 50 3).ER_FILE_NOT_ENOUGH_PAGES_IN_VOLUME →
      sort_add_new_file (host_second_error 50 3) 100 true = (AddFileCode.ER_FAILED, [100])) ∧
    ((host_second_error 50 3).file_alloc_pages [100] =
        some (host_second_error 50 3).ER_FILE_NOT_ENOUGH_PAGES_IN_VOLUME →
      (max 1 ((host_second_error 50 3).boot_max_pages_new_volume * 19 / 20) < 100 →
        (sort_add_new_file (host_second_error 50 3) 100 true).2 =
          [100, max 1 ((host_second_error 50 3).boot_max_pages_new_volume * 19 / 20)] ∧
        ((sort_add_new_file (host_second_error 50 3) 100 true).1 = AddFileCode.ER_FAILED ↔
          ∃ e2, (host_second_error 50 3).file_alloc_pages
              [100, max 1 ((host_second_error 50 3).boot_max_pages_new_volume * 19 / 20)] =
                some e2 ∧
            e2 ≠ (host_second_error 50 3).ER_FILE_NOT_ENOUGH_PAGES_IN_VOLUME)) ∧
      (100 ≤ max 1 ((host_second_error 50 3).boot_max_pages_new_volume * 19 / 20) →
        sort_add_new_file (host_second_error 50 3) 100 true = (AddFileCode.NO_ERROR, [100])))) :=
  ⟨by decide, by decide, by decide, by decide, by decide,
    add_new_file_retry (host_second_error 50 3) 100 (by decide) (by decide)⟩

/-! ### The temp files are destroyed: the path of a failed creation -/

/-- C23, at a failing input: the producer delivers two records of 20000 bytes,
longer than a page, each of which becomes a run of its own. The overflow file and
the temp file 0 are created for the first record; for the second record the
creation of the temp file 1 fails. `sort_run_flush` then calls
`sort_return_used_resources`, and so does `sort_listfile` after it: the temp file
0 and the overflow file are destroyed twice each. On the sibling path, where the
creations succeed and `overflow_insert` fails for the second record, the two
files are destroyed once each. -/
theorem failed_creation_destroys_twice :
    (sort_listfile (long_record_world 2 2 2 0) 10 0 SORT_DUP_OPTION.SORT_ELIM_DUP
      example_vars).returns = some SortCode.er_errid ∧
    create_calls (sort_listfile (long_record_world 2 2 2 0) 10 0 SORT_DUP_OPTION.SORT_ELIM_DUP
      example_vars).state.log =
      [SortEvent.create_multipage true, SortEvent.create_temp 0 true,
        SortEvent.create_temp 1 false] ∧
    destroy_calls (sort_listfile (long_record_world 2 2 2 0) 10 0 SORT_DUP_OPTION.SORT_ELIM_DUP
      example_vars).state.log =
      [SortEvent.destroy_temp 0, SortEvent.destroy_multipage, SortEvent.destroy_temp 0,
        SortEvent.destroy_multipage] ∧
    (sort_listfile (long_record_world 2 3 1 0) 10 0 SORT_DUP_OPTION.SORT_ELIM_DUP
      example_vars).returns = some SortCode.er_errid ∧
    create_calls (sort_listfile (long_record_world 2 3 1 0) 10 0 SORT_DUP_OPTION.SORT_ELIM_DUP
      example_vars).state.log =
      [SortEvent.create_multipage true, SortEvent.create_temp 0 true] ∧
    destroy_calls (sort_listfile (long_record_world 2 3 1 0) 10 0 SORT_DUP_OPTION.SORT_ELIM_DUP
      example_vars).state.log = [SortEvent.destroy_temp 0, SortEvent.destroy_multipage] := by
  decide

/-! ### The input phase hands its records over until the consumer refuses -/

theorem Quiet.nothing (l : List SortEvent) : Quiet l l := rfl

theorem Quiet.followed {l l1 l2 : List SortEvent} (h1 : Quiet l l1) (h2 : Quiet l1 l2) :
    Quiet l l2 := by
  unfold Quiet at *
  rw [h2, h1]

theorem put_calls_append (l E : List SortEvent) :
    put_calls (l ++ E) = put_calls l ++ put_calls E := by
  unfold put_calls
  rw [List.filter_append]

theorem put_rets_append (l E : List SortEvent) : put_rets (l ++ E) = put_rets l ++ put_rets E := by
  induction l with
  | nil => rfl
  | cons e l ih =>
    cases e <;> simp [put_rets, ih]

theorem published_of_append (l E : List SortEvent) :
    published_of (l ++ E) = published_of l ++ published_of E := by
  induction l with
  | nil => rfl
  | cons e l ih =>
    cases e <;> simp [published_of, ih]

theorem put_rets_put_calls (l : List SortEvent) :
    put_rets (put_calls l) = put_rets l ∧ published_of (put_calls l) = published_of l := by
  induction l with
  | nil => exact ⟨rfl, rfl⟩
  | cons e l ih =>
    cases e <;> simpa [put_calls, put_rets, published_of, List.filter_cons] using ih

theorem Quiet.put_rets_eq {l l1 : List SortEvent} (h : Quiet l l1) :
    put_rets l1 = put_rets l ∧ published_of l1 = published_of l := by
  unfold Quiet at h
  rw [← (put_rets_put_calls l1).1, ← (put_rets_put_calls l1).2, h, (put_rets_put_calls l).1,
    (put_rets_put_calls l).2]
  exact ⟨rfl, rfl⟩

theorem Quiet.after_get (l : List SortEvent) (s : SORT_STATUS) (d : RECDES) :
    Quiet l (l ++ [SortEvent.get s d]) := by
  unfold Quiet
  rw [put_calls_append]
  simp [put_calls]

theorem Quiet.after_create_temp (l : List SortEvent) (f : Int) (ok : Bool) :
    Quiet l (l ++ [SortEvent.create_temp f ok]) := by
  unfold Quiet
  rw [put_calls_append]
  simp [put_calls]

theorem Quiet.after_create_multipage (l : List SortEvent) (ok : Bool) :
    Quiet l (l ++ [SortEvent.create_multipage ok]) := by
  unfold Quiet
  rw [put_calls_append]
  simp [put_calls]

theorem put_rets_put_events (v : InVars) : ∀ (rets : List Int) (c : Int),
    put_rets (put_events v c rets) = rets ∧
      published_of (put_events v c rets) = cell_records v c rets.length := by
  intro rets
  induction rets with
  | nil => intro c; exact ⟨rfl, rfl⟩
  | cons r rets ih =>
    intro c
    obtain ⟨h1, h2⟩ := ih (c + 1)
    simp only [put_events, put_rets, published_of, List.length_cons, cell_records, h1, h2,
      and_self]

theorem put_records_step (W : SortWorld) (base numrecs : Int) (n : Nat) (i : Int) (v : InVars)
    (k : Nat) (hi : i < numrecs) (hc : v.cells (base + i) = some k) :
    ∃ v1, v1.st.log = v.st.log ++ [SortEvent.put (cell_recdes v (base + i))
          (W.M.put_fn (published_of v.st.log) (cell_recdes v (base + i)))] ∧
      v1.cells = v.cells ∧ (∀ c, cell_recdes v1 c = cell_recdes v c) ∧
      put_records W base numrecs (n + 1) i v =
        if W.M.put_fn (published_of v.st.log) (cell_recdes v (base + i)) ≠ 0 then
          Flow.stop (if W.M.put_fn (published_of v.st.log) (cell_recdes v (base + i)) =
              W.SORT_PUT_STOP then SortCode.NO_ERROR
            else SortCode.put_error
              (W.M.put_fn (published_of v.st.log) (cell_recdes v (base + i)))) v1
        else put_records W base numrecs n (i + 1) v1 := by
  have hd : cell_recdes v (base + i) =
      { v.temp_recdes with data := (v.recs (k : Int)).data,
                           length := (v.recs (k : Int)).length } := by
    simp only [cell_recdes, hc]
  simp only [put_records, if_pos hi, hc]
  rw [← hd]
  refine ⟨{ v with
      temp_recdes := cell_recdes v (base + i),
      st := { v.st with
        log := v.st.log ++ [SortEvent.put (cell_recdes v (base + i))
          (W.M.put_fn (published_of v.st.log) (cell_recdes v (base + i)))] } },
    rfl, rfl, fun c => ?_, rfl⟩
  simp only [cell_recdes, hc]

/-- The loops of `sort_inphase_sort` over the pointer cells have a `PutTrace`. -/
theorem put_records_trace (W : SortWorld) (base numrecs : Int) :
    ∀ (n : Nat) (i : Int) (v : InVars), (numrecs - i).toNat < n →
      ∃ rets, PutTrace W base numrecs i v (put_records W base numrecs n i v) rets := by
  intro n
  induction n with
  | zero =>
    intro i v h
    omega
  | succ n ih =>
    intro i v hn
    by_cases hi : i < numrecs
    · cases hc : v.cells (base + i) with
      | none =>
        simp only [put_records, if_pos hi, hc]
        refine ⟨[], ?_, fun r hr => by simp at hr, fun t ht => by simp at ht, ?_, ?_⟩
        · simp [Flow.vars, put_events]
        · simp
        · exact fun r hr => by simp at hr
      | some k =>
        obtain ⟨v1, s1, s2, s3, s4⟩ := put_records_step W base numrecs n i v k hi hc
        rw [s4]
        by_cases hret : W.M.put_fn (published_of v.st.log) (cell_recdes v (base + i)) ≠ 0
        · rw [if_pos hret]
          refine ⟨[W.M.put_fn (published_of v.st.log) (cell_recdes v (base + i))], ?_,
            fun r hr => by simp at hr, fun t ht => ?_, ?_, ?_⟩
          · simp only [Flow.vars, put_events, s1]
          · simp only [List.length_singleton, Nat.lt_one_iff] at ht
            rw [ht, Nat.cast_zero, Int.add_zero, hc]
            exact fun h => by cases h
          · simp only [List.length_singleton, Nat.cast_one]
            omega
          · exact ⟨_, rfl, hret, rfl⟩
        · rw [if_neg hret]
          have hz : W.M.put_fn (published_of v.st.log) (cell_recdes v (base + i)) = 0 := by
            by_contra h
            exact hret h
          obtain ⟨rets, t1, t2, t3, t4, t5⟩ := ih (i + 1) v1 (by omega)
          have hev : ∀ (R : List Int) (c : Int), put_events v1 c R = put_events v c R := by
            intro R
            induction R with
            | nil => intro c; rfl
            | cons r R ihR =>
              intro c
              simp only [put_events, s3, ihR]
          refine ⟨0 :: rets, ?_, ?_, ?_, ?_, ?_⟩
          · rw [t1, s1, hz, hev, List.append_assoc]
            simp only [put_events, List.singleton_append]
            rw [Int.add_assoc]
          · intro r hr
            cases rets with
            | nil => simp at hr
            | cons r1 rets1 =>
              rw [List.dropLast_cons₂] at hr
              rcases List.mem_cons.1 hr with h | h
              · exact h
              · exact t2 r h
          · intro t ht
            cases t with
            | zero =>
              rw [Nat.cast_zero, Int.add_zero, hc]
              exact fun h => by cases h
            | succ t =>
              have := t3 t (by simpa using ht)
              rw [s2] at this
              have e : base + i + ((t + 1 : Nat) : Int) = base + (i + 1) + (t : Int) := by
                push_cast; omega
              rw [e]
              exact this
          · simp only [List.length_cons, Nat.cast_add, Nat.cast_one]
            omega
          · cases hf : put_records W base numrecs n (i + 1) v1 with
            | next v2 =>
              rw [hf] at t5
              simp only [] at t5 ⊢
              refine ⟨fun r hr => ?_, ?_⟩
              · rcases List.mem_cons.1 hr with h | h
                · exact h
                · exact t5.1 r h
              · rw [List.length_cons, t5.2]
                omega
            | stop e v2 =>
              rw [hf] at t5
              simp only [] at t5 ⊢
              obtain ⟨r, q1, q2, q3⟩ := t5
              refine ⟨r, ?_, q2, q3⟩
              cases rets with
              | nil => simp at q1
              | cons r1 rets1 =>
                rw [List.getLast?_cons_cons]
                exact q1
            | undefined v2 =>
              rw [hf] at t5
              simp only [] at t5 ⊢
              intro r hr
              rcases List.mem_cons.1 hr with h | h
              · exact h
              · exact t5 r h
            | leave v2 =>
              rw [hf] at t5
              exact t5
            | out_of_fuel v2 =>
              rw [hf] at t5
              exact t5
    · simp only [put_records, if_neg hi]
      refine ⟨[], ?_, fun r hr => by simp at hr, fun t ht => by simp at ht, ?_, ?_⟩
      · simp [Flow.vars, put_events]
      · simp
      · refine ⟨fun r hr => by simp at hr, ?_⟩
        simp only [List.length_nil]
        omega
theorem destroy_temp_files_quiet (st : ParamState) : ∀ (n : Nat) (k : Int),
    put_calls (destroy_temp_files st n k) = [] := by
  intro n
  induction n with
  | zero =>
    intro k
    rfl
  | succ n ih =>
    intro k
    simp only [destroy_temp_files]
    split_ifs
    · rw [put_calls_append, ih]
      rfl
    · rw [put_calls_append, ih]
      rfl
    · rfl

theorem return_used_resources_quiet (st : ParamState) :
    Quiet st.log (sort_return_used_resources st).log := by
  unfold sort_return_used_resources Quiet
  simp only [put_calls_append, destroy_temp_files_quiet, List.append_nil]
  split_ifs
  · simp [put_calls]
  · simp [put_calls]

theorem add_new_file_noalloc_quiet (W : SortWorld) (st : ParamState) (file : Int) :
    Quiet st.log (sort_add_new_file_noalloc W st file).2.log := by
  unfold sort_add_new_file_noalloc
  exact Quiet.after_create_temp _ _ _

theorem run_flush_file_quiet (W : SortWorld) (v v1 : InVars) (rec_type : RecType) (e : SortCode)
    (h : sort_run_flush_file W v rec_type = some (e, v1)) : Quiet v.st.log v1.st.log := by
  have hc : Quiet v.st.log
      (if v.st.temp_volid_set v.out_curfile = false then
        sort_add_new_file_noalloc W v.st v.out_curfile else (true, v.st)).2.log := by
    split_ifs
    · exact add_new_file_noalloc_quiet W v.st v.out_curfile
    · exact Quiet.nothing _
  unfold sort_run_flush_file at h
  simp only [] at h
  generalize (if v.st.temp_volid_set v.out_curfile = false then
    sort_add_new_file_noalloc W v.st v.out_curfile else (true, v.st)) = created at h hc
  by_cases h1 : created.1 = false
  · rw [if_pos h1] at h
    simp only [Option.some.injEq, Prod.mk.injEq] at h
    rw [← h.2]
    exact hc.followed (return_used_resources_quiet _)
  · rw [if_neg h1] at h
    split at h
    · cases h
    · rename_i r _
      by_cases h2 : r.ok = false
      · rw [if_pos h2] at h
        simp only [Option.some.injEq, Prod.mk.injEq] at h
        rw [← h.2]
        exact hc
      · rw [if_neg h2] at h
        split at h
        · cases h
        · simp only [Option.some.injEq, Prod.mk.injEq] at h
          rw [← h.2]
          exact hc
        · simp only [Option.some.injEq, Prod.mk.injEq] at h
          rw [← h.2]
          exact hc

theorem inphase_sort_state (W : SortWorld) (option : SORT_DUP_OPTION) (v v1 : InVars)
    (h : inphase_sort W option v = some v1) : v1.st = v.st ∧ v1.recs = v.recs ∧
      v1.temp_recdes = v.temp_recdes ∧ v1.once_flushed = v.once_flushed := by
  unfold inphase_sort at h
  simp only [] at h
  split_ifs at h
  split at h
  · cases h
  · simp only [Option.some.injEq] at h
    rw [← h]
    exact ⟨rfl, rfl, rfl, rfl⟩

theorem inphase_reset_state (W : SortWorld) (v v1 : InVars)
    (h : inphase_reset_item_ptr W v = some v1) : v1.st = v.st := by
  unfold inphase_reset_item_ptr at h
  simp only [] at h
  split_ifs at h
  simp only [Option.some.injEq] at h
  rw [← h]

theorem inphase_get_quiet (W : SortWorld) (v : InVars) :
    Quiet v.st.log (inphase_get W v).2.st.log := by
  unfold inphase_get inphase_call
  simp only []
  split_ifs
  · exact Quiet.nothing _
  · exact Quiet.nothing _
  · exact Quiet.after_get _ _ _
  · exact Quiet.nothing _
  · exact Quiet.after_get _ _ _

theorem put_calls_get (s : SORT_STATUS) (d : RECDES) : put_calls [SortEvent.get s d] = [] := rfl

theorem put_calls_create_multipage (ok : Bool) :
    put_calls [SortEvent.create_multipage ok] = [] := rfl

theorem inphase_long_record_quiet (W : SortWorld) (v : InVars) :
    Quiet v.st.log (inphase_long_record W v).vars.st.log := by
  unfold inphase_long_record
  simp only []
  split_ifs <;>
    first
    | (simp only [Flow.vars, Quiet, put_calls_append, put_calls_get, put_calls_create_multipage,
        List.append_nil]; done)
    | (split <;>
        first
        | (simp only [Flow.vars, Quiet, put_calls_append, put_calls_get,
            put_calls_create_multipage, List.append_nil]; done)
        | (split <;>
            first
            | (simp only [Flow.vars, Quiet, put_calls_append, put_calls_get,
                put_calls_create_multipage, List.append_nil]; done)
            | (have hq := run_flush_file_quiet W _ _ _ _ (by assumption)
               simp only [Flow.vars, Quiet, put_calls_append, put_calls_get,
                 put_calls_create_multipage, List.append_nil, inphase_next_run] at hq ⊢
               exact hq)))
theorem inphase_end_run_quiet (W : SortWorld) (option : SORT_DUP_OPTION) (v : InVars) :
    Quiet v.st.log (inphase_end_run W option v).vars.st.log := by
  unfold inphase_end_run
  cases hs : inphase_sort W option v with
  | none => exact Quiet.nothing _
  | some v1 =>
    simp only []
    have e1 := (inphase_sort_state W option v v1 hs).1
    cases hr : (if option = SORT_DUP_OPTION.SORT_ELIM_DUP then inphase_reset_item_ptr W v1
        else some v1) with
    | none =>
      simp only [Flow.vars]
      rw [e1]
      exact Quiet.nothing _
    | some v2 =>
      have e2 : v2.st = v.st := by
        split_ifs at hr
        · rw [inphase_reset_state W v1 v2 hr, e1]
        · simp only [Option.some.injEq] at hr
          rw [← hr, e1]
      simp only []
      split_ifs
      · simp only [Flow.vars]
        rw [e2]
        exact Quiet.nothing _
      · split
        · simp only [Flow.vars]
          rw [e2]
          exact Quiet.nothing _
        · rename_i v3 hf
          have hq := run_flush_file_quiet W _ _ _ _ hf
          rw [e2] at hq
          split_ifs <;> exact hq
        · rename_i e v3 _ hf
          have hq := run_flush_file_quiet W _ _ _ _ hf
          rw [e2] at hq
          exact hq

theorem inphase_doesnt_fit_quiet (W : SortWorld) (option : SORT_DUP_OPTION) (v : InVars) :
    Quiet v.st.log (inphase_doesnt_fit W option v).vars.st.log := by
  have h0 : Quiet v.st.log
      (if v.numrecs > 0 then inphase_end_run W option v else Flow.next v).vars.st.log := by
    split_ifs
    · exact inphase_end_run_quiet W option v
    · exact Quiet.nothing _
  unfold inphase_doesnt_fit
  generalize (if v.numrecs > 0 then inphase_end_run W option v else Flow.next v) = f at h0
  cases f with
  | next v1 =>
    simp only []
    split_ifs
    · exact h0.followed (inphase_long_record_quiet W v1)
    · exact h0
  | leave v1 => exact h0
  | stop e v1 => exact h0
  | undefined v1 => exact h0
  | out_of_fuel v1 => exact h0

theorem inphase_iteration_quiet (W : SortWorld) (option : SORT_DUP_OPTION) (v : InVars) :
    Quiet v.st.log (inphase_iteration W option v).vars.st.log := by
  have h0 := inphase_get_quiet W v
  unfold inphase_iteration
  generalize inphase_get W v = g at h0
  obtain ⟨s, v1⟩ := g
  cases s with
  | SORT_NOMORE_RECS => exact h0
  | SORT_ERROR_OCCURRED => exact h0
  | SORT_REC_DOESNT_FIT => exact h0.followed (inphase_doesnt_fit_quiet W option v1)
  | SORT_SUCCESS => exact h0
  | other => exact h0

theorem inphase_loop_quiet (W : SortWorld) (option : SORT_DUP_OPTION) :
    ∀ (n : Nat) (v : InVars), Quiet v.st.log (inphase_loop W option n v).vars.st.log := by
  intro n
  induction n with
  | zero =>
    intro v
    exact Quiet.nothing _
  | succ n ih =>
    intro v
    have h0 := inphase_iteration_quiet W option v
    simp only [inphase_loop]
    generalize inphase_iteration W option v = f at h0
    cases f with
    | next v1 => exact h0.followed (ih v1)
    | leave v1 => exact h0
    | stop e v1 => exact h0
    | undefined v1 => exact h0
    | out_of_fuel v1 => exact h0
/-- The loops of `sort_inphase_sort` over the pointer cells, with the jump to
`exit_on_error` behind them: what they hand over. -/
theorem put_records_puts (W : SortWorld) (base numrecs : Int) (v : InVars)
    (h0 : put_calls v.st.log = []) :
    ∃ rets : List Int,
      put_rets (match put_records W base numrecs (numrecs.toNat + 1) 0 v with
        | Flow.next v2 => Flow.stop SortCode.NO_ERROR v2
        | f => f).vars.st.log = rets ∧
      published_of (match put_records W base numrecs (numrecs.toNat + 1) 0 v with
        | Flow.next v2 => Flow.stop SortCode.NO_ERROR v2
        | f => f).vars.st.log = cell_records v base rets.length ∧
      (∀ r ∈ rets.dropLast, r = 0) ∧
      (∀ t : Nat, t < rets.length → v.cells (base + (t : Int)) ≠ none) ∧
      rets.length ≤ numrecs.toNat ∧
      (∀ e v1, (match put_records W base numrecs (numrecs.toNat + 1) 0 v with
          | Flow.next v2 => Flow.stop SortCode.NO_ERROR v2
          | f => f) = Flow.stop e v1 → e ≠ SortCode.NO_ERROR →
        ∃ r, rets.getLast? = some r ∧ r ≠ 0) ∧
      ((∀ r ∈ rets, r = 0) →
        (∃ e v1, (match put_records W base numrecs (numrecs.toNat + 1) 0 v with
          | Flow.next v2 => Flow.stop SortCode.NO_ERROR v2
          | f => f) = Flow.stop e v1) → rets.length = numrecs.toNat) := by
  obtain ⟨rets, t1, t2, t3, t4, t5⟩ := put_records_trace W base numrecs (numrecs.toNat + 1) 0 v
    (by omega)
  have hq : put_rets v.st.log = [] ∧ published_of v.st.log = [] := by
    have := put_rets_put_calls v.st.log
    rw [h0] at this
    exact ⟨this.1.symm, this.2.symm⟩
  have hlog : ∀ f : Flow, f.vars.st.log = v.st.log ++ put_events v (base + 0) rets →
      put_rets f.vars.st.log = rets ∧
        published_of f.vars.st.log = cell_records v base rets.length := by
    intro f hf
    rw [hf, put_rets_append, published_of_append, hq.1, hq.2, List.nil_append, List.nil_append,
      (put_rets_put_events v rets _).1, (put_rets_put_events v rets _).2, Int.add_zero]
    exact ⟨rfl, rfl⟩
  have hcell : ∀ t : Nat, t < rets.length → v.cells (base + (t : Int)) ≠ none := by
    intro t ht
    have := t3 t ht
    rw [Int.add_zero] at this
    exact this
  have hlen : rets.length ≤ numrecs.toNat := by omega
  cases hf : put_records W base numrecs (numrecs.toNat + 1) 0 v with
  | next v2 =>
    rw [hf] at t1 t5
    simp only [] at t5 ⊢
    obtain ⟨l1, l2⟩ := hlog (Flow.stop SortCode.NO_ERROR v2) t1
    refine ⟨rets, l1, l2, t2, hcell, hlen, ?_, ?_⟩
    · intro e v1 h hne
      simp only [Flow.stop.injEq] at h
      exact absurd h.1.symm hne
    · intro _ _
      rw [t5.2, Int.sub_zero]
  | stop e v2 =>
    rw [hf] at t1 t5
    simp only [] at t5 ⊢
    obtain ⟨l1, l2⟩ := hlog (Flow.stop e v2) t1
    refine ⟨rets, l1, l2, t2, hcell, hlen, ?_, ?_⟩
    · intro e1 v1 _ _
      obtain ⟨r, q1, q2, -⟩ := t5
      exact ⟨r, q1, q2⟩
    · intro hall _
      obtain ⟨r, q1, q2, -⟩ := t5
      exact absurd (hall r (List.mem_of_getLast?_eq_some q1)) q2
  | undefined v2 =>
    rw [hf] at t1 t5
    simp only [] at t5 ⊢
    obtain ⟨l1, l2⟩ := hlog (Flow.undefined v2) t1
    refine ⟨rets, l1, l2, t2, hcell, hlen, ?_, ?_⟩
    · intro e1 v1 h
      cases h
    · rintro - ⟨e1, v1, h⟩
      cases h
  | leave v2 =>
    rw [hf] at t5
    exact t5.elim
  | out_of_fuel v2 =>
    rw [hf] at t5
    exact t5.elim
theorem put_rets_of_quiet (l : List SortEvent) (h : put_calls l = []) :
    put_rets l = [] ∧ published_of l = [] := by
  have := put_rets_put_calls l
  rw [h] at this
  exact ⟨this.1.symm, this.2.symm⟩

theorem inphase_single_long_puts (W : SortWorld) (v : InVars) (h0 : put_calls v.st.log = []) :
    (∀ r ∈ (put_rets (inphase_single_long W v).vars.st.log).dropLast, r = 0) ∧
    (∀ e v1, inphase_single_long W v = Flow.stop e v1 → e ≠ SortCode.NO_ERROR →
      put_rets v1.st.log = [] ∨ ∃ r, (put_rets v1.st.log).getLast? = some r ∧ r ≠ 0) := by
  have hq := (put_rets_of_quiet v.st.log h0).1
  unfold inphase_single_long
  simp only []
  split_ifs with h1
  · simp only [Flow.vars, hq, List.dropLast_nil]
    refine ⟨fun r hr => by simp at hr, fun e v1 h _ => Or.inl ?_⟩
    simp only [Flow.stop.injEq] at h
    rw [← h.2]
    exact hq
  · split
    · simp only [Flow.vars, hq, List.dropLast_nil]
      refine ⟨fun r hr => by simp at hr, fun e v1 h _ => Or.inl ?_⟩
      simp only [Flow.stop.injEq] at h
      rw [← h.2]
      exact hq
    · rename_i long1 _
      split_ifs with h2
      · simp only [Flow.vars, put_rets_append, hq, List.nil_append, put_rets,
          List.dropLast_single]
        refine ⟨fun r hr => by simp at hr, fun e v1 h _ => Or.inr ⟨_, ?_, h2⟩⟩
        simp only [Flow.stop.injEq] at h
        rw [← h.2]
        simp only [put_rets_append, hq, List.nil_append, put_rets]
        rfl
      · simp only [Flow.vars, put_rets_append, hq, List.nil_append, put_rets,
          List.dropLast_single]
        refine ⟨fun r hr => by simp at hr, fun e v1 h hne => ?_⟩
        simp only [Flow.stop.injEq] at h
        exact absurd h.1.symm hne

theorem inphase_finish_puts (W : SortWorld) (option : SORT_DUP_OPTION) (v : InVars)
    (h0 : put_calls v.st.log = []) :
    (∀ r ∈ (put_rets (inphase_finish W option v).vars.st.log).dropLast, r = 0) ∧
    (∀ e v1, inphase_finish W option v = Flow.stop e v1 → e ≠ SortCode.NO_ERROR →
      put_rets v1.st.log = [] ∨ ∃ r, (put_rets v1.st.log).getLast? = some r ∧ r ≠ 0) := by
  have hq := (put_rets_of_quiet v.st.log h0).1
  have hquiet : ∀ f : Flow, Quiet v.st.log f.vars.st.log →
      (∀ r ∈ (put_rets f.vars.st.log).dropLast, r = 0) ∧
      (∀ e v1, f = Flow.stop e v1 → e ≠ SortCode.NO_ERROR →
        put_rets v1.st.log = [] ∨ ∃ r, (put_rets v1.st.log).getLast? = some r ∧ r ≠ 0) := by
    intro f hf
    have h1 : put_rets f.vars.st.log = [] := by rw [hf.put_rets_eq.1, hq]
    refine ⟨fun r hr => ?_, fun e v1 h _ => Or.inl ?_⟩
    · rw [h1] at hr
      simp at hr
    · rw [h] at h1
      exact h1
  have hput : ∀ (u : InVars) (base numrecs : Int), u.st.log = v.st.log →
      (∀ r ∈ (put_rets (match put_records W base numrecs (numrecs.toNat + 1) 0 u with
        | Flow.next v2 => Flow.stop SortCode.NO_ERROR v2
        | f => f).vars.st.log).dropLast, r = 0) ∧
      (∀ e v1, (match put_records W base numrecs (numrecs.toNat + 1) 0 u with
          | Flow.next v2 => Flow.stop SortCode.NO_ERROR v2
          | f => f) = Flow.stop e v1 → e ≠ SortCode.NO_ERROR →
        put_rets v1.st.log = [] ∨ ∃ r, (put_rets v1.st.log).getLast? = some r ∧ r ≠ 0) := by
    intro u base numrecs hu
    obtain ⟨rets, p1, -, p3, -, -, p6, -⟩ := put_records_puts W base numrecs u (by rw [hu]; exact h0)
    refine ⟨by rw [p1]; exact p3, fun e v1 h hne => Or.inr ?_⟩
    obtain ⟨r, q1, q2⟩ := p6 e v1 h hne
    rw [h] at p1
    simp only [Flow.vars] at p1
    rw [p1]
    exact ⟨r, q1, q2⟩
  unfold inphase_finish
  by_cases hn : v.numrecs > 0
  · rw [if_pos hn]
    cases hs : inphase_sort W option v with
    | none => exact hquiet _ (Quiet.nothing _)
    | some v1 =>
      simp only []
      have e1 := (inphase_sort_state W option v v1 hs).1
      by_cases ht : v1.st.tot_runs > 0
      · rw [if_pos ht]
        cases hf : sort_run_flush_file W v1 RecType.REC_HOME with
        | none =>
          simp only []
          apply hquiet
          simp only [Flow.vars]
          rw [e1]
          exact Quiet.nothing _
        | some p =>
          obtain ⟨e, v2⟩ := p
          simp only []
          apply hquiet
          have := run_flush_file_quiet W _ _ _ _ hf
          rw [e1] at this
          exact this
      · rw [if_neg ht]
        exact hput v1 _ _ (by rw [e1])
  · rw [if_neg hn]
    by_cases ht : v.st.tot_runs = 1
    · rw [if_pos ht]
      by_cases ho : v.once_flushed = true
      · rw [if_pos ho]
        exact hput v _ _ rfl
      · rw [if_neg ho]
        exact inphase_single_long_puts W v h0
    · rw [if_neg ht]
      exact hquiet _ (Quiet.nothing _)

theorem sort_inphase_sort_puts (W : SortWorld) (fuel : Nat) (option : SORT_DUP_OPTION)
    (st : ParamState) (junk : InVars) (h0 : put_calls st.log = []) :
    (∀ r ∈ (put_rets (sort_inphase_sort W fuel option st junk).vars.st.log).dropLast, r = 0) ∧
    (∀ e v1, sort_inphase_sort W fuel option st junk = Flow.stop e v1 → e ≠ SortCode.NO_ERROR →
      put_rets v1.st.log = [] ∨ ∃ r, (put_rets v1.st.log).getLast? = some r ∧ r ≠ 0) := by
  have hl := inphase_loop_quiet W option fuel (inphase_init W st junk)
  have hi : put_calls (inphase_init W st junk).st.log = [] := h0
  have hq : put_calls (inphase_loop W option fuel (inphase_init W st junk)).vars.st.log = [] := by
    have : Quiet _ _ := hl
    unfold Quiet at this
    rw [this, hi]
  have hr := (put_rets_of_quiet _ hq).1
  unfold sort_inphase_sort
  cases hf : inphase_loop W option fuel (inphase_init W st junk) with
  | leave v =>
    rw [hf] at hq
    exact inphase_finish_puts W option v hq
  | next v =>
    rw [hf] at hr
    simp only [Flow.vars] at hr ⊢
    rw [hr]
    exact ⟨fun r h => by simp at h, fun e v1 h => by cases h⟩
  | stop e v =>
    rw [hf] at hr
    simp only [Flow.vars] at hr ⊢
    rw [hr]
    refine ⟨fun r h => by simp at h, fun e1 v1 h _ => Or.inl ?_⟩
    simp only [Flow.stop.injEq] at h
    rw [← h.2]
    exact hr
  | undefined v =>
    rw [hf] at hr
    simp only [Flow.vars] at hr ⊢
    rw [hr]
    exact ⟨fun r h => by simp at h, fun e v1 h => by cases h⟩
  | out_of_fuel v =>
    rw [hf] at hr
    simp only [Flow.vars] at hr ⊢
    rw [hr]
    exact ⟨fun r h => by simp at h, fun e v1 h => by cases h⟩
/-- After the allocations the driver `sort_listfile` adds no call of `put_fn` to
those of the input phase, and it returns what the input phase returned. -/
theorem listfile_flow (W : SortWorld) (fuel : Nat) (est_inp_pg_cnt : Int)
    (option : SORT_DUP_OPTION) (junk : InVars) :
    ((sort_listfile W fuel est_inp_pg_cnt option junk).state.log = [] ∧ ¬ W.Allocates) ∨
    (Quiet (sort_inphase_sort W fuel option
        (listfile_init W W.malloc_arena_ok est_inp_pg_cnt junk.st) junk).vars.st.log
      (sort_listfile W fuel est_inp_pg_cnt option junk).state.log ∧
     (∀ e st, sort_listfile W fuel est_inp_pg_cnt option junk = ListfileOutcome.returned e st →
       ∃ v, sort_inphase_sort W fuel option
         (listfile_init W W.malloc_arena_ok est_inp_pg_cnt junk.st) junk = Flow.stop e v)) := by
  unfold sort_listfile
  by_cases ha : W.malloc_arena_ok = false ∧ W.malloc_arena_again_ok = false
  · rw [if_pos ha]
    refine Or.inl ⟨rfl, fun h => ?_⟩
    rcases h.1 with h1 | h1
    · rw [ha.1] at h1; cases h1
    · rw [ha.2] at h1; cases h1
  · rw [if_neg ha]
    simp only []
    cases hl : first_failed_ledger W (listfile_init W W.malloc_arena_ok est_inp_pg_cnt junk.st).sp.tot_tempfiles
        (listfile_init W W.malloc_arena_ok est_inp_pg_cnt junk.st).sp.tot_tempfiles.toNat 0 with
    | some i =>
      refine Or.inl ⟨rfl, fun h => ?_⟩
      rw [first_failed_ledger_none W _ h.2] at hl
      cases hl
    | none =>
      right
      simp only []
      cases hf : sort_inphase_sort W fuel option
          (listfile_init W W.malloc_arena_ok est_inp_pg_cnt junk.st) junk with
      | next v => exact ⟨Quiet.nothing _, fun e st h => by cases h⟩
      | leave v => exact ⟨Quiet.nothing _, fun e st h => by cases h⟩
      | undefined v => exact ⟨Quiet.nothing _, fun e st h => by cases h⟩
      | out_of_fuel v => exact ⟨Quiet.nothing _, fun e st h => by cases h⟩
      | stop e v =>
        cases e with
        | NO_ERROR =>
          simp only []
          split_ifs
          · exact ⟨Quiet.nothing _, fun e st h => by cases h⟩
          · refine ⟨return_used_resources_quiet _, fun e st h => ?_⟩
            simp only [ListfileOutcome.returned.injEq] at h
            rw [← h.1]
            exact ⟨v, rfl⟩
        | ER_OUT_OF_VIRTUAL_MEMORY =>
          refine ⟨return_used_resources_quiet _, fun e st h => ?_⟩
          simp only [ListfileOutcome.returned.injEq] at h
          rw [← h.1]
          exact ⟨v, rfl⟩
        | ER_GENERIC_ERROR =>
          refine ⟨return_used_resources_quiet _, fun e st h => ?_⟩
          simp only [ListfileOutcome.returned.injEq] at h
          rw [← h.1]
          exact ⟨v, rfl⟩
        | er_errid =>
          refine ⟨return_used_resources_quiet _, fun e st h => ?_⟩
          simp only [ListfileOutcome.returned.injEq] at h
          rw [← h.1]
          exact ⟨v, rfl⟩
        | put_error c =>
          refine ⟨return_used_resources_quiet _, fun e st h => ?_⟩
          simp only [ListfileOutcome.returned.injEq] at h
          rw [← h.1]
          exact ⟨v, rfl⟩

theorem active_infiles_loop_run (sp : SortParam) : ∀ (n : Nat) (i : Int),
    sp.in_half ≤ i → i ≤ sp.in_half + sp.half_files → sp.in_half + sp.half_files ≤ i + n →
    i ≤ active_infiles_loop sp n i ∧
    active_infiles_loop sp n i ≤ sp.in_half + sp.half_files ∧
    (∀ j, i ≤ j → j < active_infiles_loop sp n i → (sp.file_contents j).first_run ≠ -1) ∧
    (active_infiles_loop sp n i < sp.in_half + sp.half_files →
      (sp.file_contents (active_infiles_loop sp n i)).first_run = -1) := by
  intro n
  induction n with
  | zero =>
    intro i h1 h2 h3
    simp only [active_infiles_loop]
    refine ⟨le_refl _, h2, fun j a b => by omega, fun h => ?_⟩
    simp only [Nat.cast_zero] at h3
    omega
  | succ n ih =>
    intro i h1 h2 h3
    simp only [active_infiles_loop]
    by_cases hc : i < sp.in_half + sp.half_files
    · rw [if_pos hc]
      by_cases hf : (sp.file_contents i).first_run = -1
      · rw [if_pos hf]
        exact ⟨le_refl _, h2, fun j a b => by omega, fun _ => hf⟩
      · rw [if_neg hf]
        obtain ⟨q1, q2, q3, q4⟩ := ih (i + 1) (by omega) (by omega) (by push_cast at h3; omega)
        refine ⟨by omega, q2, fun j a b => ?_, q4⟩
        by_cases hj : j = i
        · rw [hj]; exact hf
        · exact q3 j (by omega) b
    · rw [if_neg hc]
      exact ⟨le_refl _, h2, fun j a b => by omega, fun h => absurd h hc⟩

theorem filter_lt_length (k : Nat) : ∀ n : Nat,
    ((List.range n).filter (fun (i : Nat) => decide (i < k))).length = min n k := by
  intro n
  induction n with
  | zero => simp
  | succ n ih =>
    rw [List.range_succ, List.filter_append, List.length_append, ih]
    by_cases h : n < k
    · simp only [List.filter_cons, h, decide_True, if_true, List.filter_nil, List.length_singleton]
      omega
    · simp only [List.filter_cons, h, decide_False, List.filter_nil, List.length_nil]
      simp only [Bool.false_eq_true, if_false, List.length_nil]
      omega

/-! ### A refused insertion -/

/-- C36: on every page reachable from `sort_spage_initialize` by
`sort_spage_insert` and `sort_spage_compact` calls, successful or not, a call of
`sort_spage_insert` with a well-formed record descriptor is defined, whatever
`calloc` and `qsort` do; it returns `NULL_SLOTID` exactly when the record is
longer than `SORT_MAXREC_LENGTH` or the record, its padding and a slot are more
than `tfree`; and a call that returns `NULL_SLOTID` leaves the header, every slot
and every byte of the page as they were. -/
theorem refused_insert_keeps_page (env : PageEnv) (henv : env.Valid) (a : Int)
    (ha : ValidAlignment a) (qs : Qsort) (only_ok : Bool) (pg : Page)
    (h : Reachable env qs a only_ok pg) (calloc_ok : Bool) (r : RECDES) (hr : r.WF) :
    (∃ res, sort_spage_insert env qs calloc_ok pg r = some res) ∧
    ((∃ pg1, sort_spage_insert env qs calloc_ok pg r = some (pg1, none)) ↔
      (r.length > SORT_MAXREC_LENGTH env ∨
        r.length + DB_WASTED_ALIGN r.length a + SIZEOF_SLOT > pg.hdr.tfree)) ∧
    (∀ pg1, sort_spage_insert env qs calloc_ok pg r = some (pg1, none) →
      pg1.hdr = pg.hdr ∧ pg1.slots = pg.slots ∧ pg1.bytes = pg.bytes) := by
  have hI := reachable_inv env henv a ha qs only_ok pg h
  have hp : padded a r.length = r.length + DB_WASTED_ALIGN r.length a := rfl
  rw [← hp]
  refine ⟨?_, ?_, ?_⟩
  · rcases insert_cases env henv a ha qs calloc_ok pg hI r hr with ⟨_, _, h3⟩ | ⟨_, h3⟩
    · exact ⟨_, h3⟩
    · exact ⟨_, h3⟩
  · rcases insert_cases env henv a ha qs calloc_ok pg hI r hr with ⟨h1, h2, h3⟩ | ⟨h2, h3⟩
    · rw [h3]
      constructor
      · rintro ⟨pg1, e⟩
        simp at e
      · intro hc
        omega
    · rw [h3]
      constructor
      · intro _
        by_contra hn
        exact h2 ⟨by omega, by omega⟩
      · intro _
        exact ⟨pg, rfl⟩
  · intro pg1 e
    have := insert_refused env henv a ha qs calloc_ok pg hI r hr pg1 e
    rw [this]
    exact ⟨rfl, rfl, rfl⟩

theorem refused_insert_keeps_page_witness :
    env16k.Valid ∧ ValidAlignment 8 ∧ Reachable env16k insertion_qsort 8 false page_one_byte ∧
    rec_longest_short.WF ∧
    sort_spage_insert env16k insertion_qsort false page_one_byte rec_longest_short =
      some (page_one_byte, none) ∧
    ((∃ res, sort_spage_insert env16k insertion_qsort false page_one_byte rec_longest_short =
        some res) ∧
    ((∃ pg1, sort_spage_insert env16k insertion_qsort false page_one_byte rec_longest_short =
        some (pg1, none)) ↔
      (rec_longest_short.length > SORT_MAXREC_LENGTH env16k ∨
        rec_longest_short.length + DB_WASTED_ALIGN rec_longest_short.length 8 + SIZEOF_SLOT >
          page_one_byte.hdr.tfree)) ∧
    (∀ pg1, sort_spage_insert env16k insertion_qsort false page_one_byte rec_longest_short =
        some (pg1, none) →
      pg1.hdr = page_one_byte.hdr ∧ pg1.slots = page_one_byte.slots ∧
        pg1.bytes = page_one_byte.bytes)) := by
  have hwf : rec_longest_short.WF := by
    show ((16362 : Int)) = ((List.replicate 16362 (0 : Nat)).length : Int)
    rw [List.length_replicate]
    rfl
  have hthm := refused_insert_keeps_page env16k (by decide) 8 (by decide) insertion_qsort false
    page_one_byte (page_one_byte_reachable false) false rec_longest_short hwf
  refine ⟨by decide, by decide, page_one_byte_reachable false, hwf, ?_, hthm⟩
  obtain ⟨pg1, e⟩ := hthm.2.1.2 (Or.inr (by decide))
  obtain ⟨e1, e2, e3⟩ := hthm.2.2 pg1 e
  have : pg1 = page_one_byte := by
    cases pg1
    simp only at e1 e2 e3
    subst e1 e2 e3
    rfl
  rw [this] at e
  exact e

/-! ### Pages built by insertions alone -/

theorem insert_records_page (env : PageEnv) (henv : env.Valid) (a : Int) (ha : ValidAlignment a)
    (qs : Qsort) (recs : List (Bool × RECDES)) :
    ∀ (pg pg1 : Page), PageInv env a pg → (∀ x ∈ recs, x.2.WF) →
      insert_records env qs pg recs = some pg1 →
      page_records pg1 = page_records pg ++ recs.map (fun x => stored_recdes x.2) := by
  induction recs with
  | nil =>
    intro pg pg1 _ _ h
    simp only [insert_records, Option.some.injEq] at h
    rw [← h]
    simp
  | cons x rest ih =>
    intro pg pg1 hI hwf h
    obtain ⟨ok, r⟩ := x
    have hr : r.WF := hwf (ok, r) (List.mem_cons_self _ _)
    simp only [insert_records] at h
    cases hins : sort_spage_insert env qs ok pg r with
    | none => rw [hins] at h; simp at h
    | some res =>
      obtain ⟨pg2, sid⟩ := res
      rw [hins] at h
      cases sid with
      | none => simp at h
      | some sid =>
        simp only at h
        obtain ⟨hI2, hp⟩ := insert_page_records env henv a ha qs ok pg hI r hr pg2 sid hins
        rw [ih pg2 pg1 hI2 (fun y hy => hwf y (List.mem_cons_of_mem _ hy)) h, hp,
          List.append_assoc]
        rfl

/-- C37, the claim as it stands fails: a page built by `sort_spage_initialize`
and the insertions of a record without bytes (slot 0) and of a record of one byte
(slot 1), both at the offset 16. `qsort` may put the slot 1 in front of the slot 0,
as their offsets are equal; `sort_spage_compact` then gives the slot 0 the offset
24: it is not the identity on this page. -/
theorem compact_moves_empty_record_counterexample :
    insert_records env16k reversing_qsort ( sort_spage_initialize env16k blank_page 0 8)
      [(true, rec_no_bytes), (true, rec_one_byte)] = some page_empty_record ∧
    (page_empty_record.slots 0).roffset = 16 ∧ (page_empty_record.slots 1).roffset = 16 ∧
    (sort_spage_compact env16k reversing_qsort true page_empty_record).map
      (fun x => (x.1, (x.2.slots 0).roffset, (x.2.slots 1).roffset)) = some (true, 24, 16) := by
  refine ⟨eq_some_getD _ blank_page (by decide), by decide, by decide, by decide⟩

/-- C37, amended: on every page built by `sort_spage_initialize` and successful
`sort_spage_insert` calls of the records `recs`, `nslots = nrecs` is the number of
the records and `cfree = tfree`; the slots hold the records in the order of the
insertions (`page_records` is what `sort_spage_get_record` hands out in `PEEK` mode
for the slots `0 .. nslots - 1`); a further accepted insertion returns the slot id
`nslots`, so the `k`-th accepted insertion gets the slot `k`; what a further
insertion does is the same for every `qsort` and every outcome of `calloc`, which
only `sort_spage_compact` uses: the compaction is not reached; and
`sort_spage_compact`, called on the page, leaves the header, the bytes, and the
length and the type of every slot as they are, and the offset of every slot that
holds a record of one byte or more. -/
theorem inserted_page_shape (env : PageEnv) (henv : env.Valid) (a : Int)
    (ha : ValidAlignment a) (qs : Qsort) (pg0 : Page) (slots_type : Int)
    (recs : List (Bool × RECDES)) (pg : Page)
    (hwf : ∀ x ∈ recs, x.2.WF)
    (hbuild : insert_records env qs ( sort_spage_initialize env pg0 slots_type a) recs =
      some pg) :
    pg.hdr.nslots = (recs.length : Int) ∧ pg.hdr.nrecs = (recs.length : Int) ∧
    pg.hdr.cfree = pg.hdr.tfree ∧
    page_records pg = recs.map (fun x => stored_recdes x.2) ∧
    (∀ (k : Nat) (buf : RECDES), k < recs.length →
      (sort_spage_get_record env pg (k : Int) buf PeekMode.PEEK).1 = SCAN_CODE.S_SUCCESS ∧
      (recs.map (fun x => stored_recdes x.2)).get? k =
        some (sort_spage_get_record env pg (k : Int) buf PeekMode.PEEK).2) ∧
    (∀ (ok : Bool) (r : RECDES) (pg1 : Page) (sid : Int), r.WF →
      sort_spage_insert env qs ok pg r = some (pg1, some sid) → sid = (recs.length : Int)) ∧
    (∀ (qs1 : Qsort) (ok ok1 : Bool) (r : RECDES), r.WF →
      sort_spage_insert env qs1 ok1 pg r = sort_spage_insert env qs ok pg r) ∧
    (∀ (qs1 : Qsort) (ok : Bool),
      ∃ pg1, sort_spage_compact env qs1 ok pg = some (ok, pg1) ∧
        pg1.hdr = pg.hdr ∧ pg1.bytes = pg.bytes ∧
        ∀ i : Nat, (pg1.slots i).rlength = (pg.slots i).rlength ∧
          (pg1.slots i).rtype = (pg.slots i).rtype ∧
          ((pg.slots i).rlength ≠ 0 → pg1.slots i = pg.slots i)) := by
  have hI0 := initialize_inv env henv pg0 slots_type a ha
  have hI := insert_records_inv env henv a ha qs recs _ pg hI0 hwf hbuild
  have hrec := insert_records_page env henv a ha qs recs _ pg hI0 hwf hbuild
  have hinit : page_records ( sort_spage_initialize env pg0 slots_type a) = [] := by
    unfold page_records
    rw [(initialize_spec env henv pg0 slots_type a ha).1]
    rfl
  rw [hinit, List.nil_append] at hrec
  have hlen : pg.hdr.nslots.toNat = recs.length := by
    have := congrArg List.length hrec
    rw [page_records_length, List.length_map] at this
    exact this
  have hn : pg.hdr.nslots = (recs.length : Int) := by
    have := hI.nslots_nonneg
    omega
  refine ⟨hn, by rw [hI.nrecs, hn], hI.cfree, hrec, ?_, ?_, ?_, ?_⟩
  · intro k buf hk
    have hoff : (pg.slots k).roffset ≠ env.NULL_OFFSET := by
      have := (hI.slot k (by rw [hn]; exact_mod_cast hk)).2.1
      have h3 := henv.2.2
      unfold SIZEOF_SLOTTED_PAGE_HEADER at this
      omega
    have hs : sort_spage_get_record env pg (k : Int) buf PeekMode.PEEK =
        (SCAN_CODE.S_SUCCESS, slot_record pg k) := by
      unfold sort_spage_get_record
      have hcast : ((k : Int)).toNat = k := by omega
      rw [hcast]
      have hc : ¬ ((k : Int) < 0 ∨ (k : Int) ≥ pg.hdr.nslots ∨
          (pg.slots k).roffset = env.NULL_OFFSET) := by
        rw [hn]
        push_neg
        exact ⟨by omega, by exact_mod_cast hk, hoff⟩
      simp only [if_neg hc]
      rfl
    rw [hs]
    refine ⟨rfl, ?_⟩
    rw [← hrec]
    unfold page_records
    rw [List.get?_eq_getElem?, List.getElem?_map, List.getElem?_range (by omega)]
    rfl
  · intro ok r pg1 sid hr hins
    rcases insert_cases env henv a ha qs ok pg hI r hr with ⟨_, _, h3⟩ | ⟨_, h3⟩
    · rw [h3] at hins
      simp only [Option.some.injEq, Prod.mk.injEq] at hins
      rw [← hins.2, hn]
    · rw [h3] at hins
      simp at hins
  · intro qs1 ok ok1 r hr
    rcases insert_cases env henv a ha qs ok pg hI r hr with ⟨h1, h2, h3⟩ | ⟨h2, h3⟩
    · rw [h3, insert_fits env henv a ha qs1 ok1 pg hI r hr h1 h2]
    · rw [h3, insert_full env henv a ha qs1 ok1 pg hI r hr h2]
  · intro qs1 ok
    obtain ⟨pg1, c1, -, c3, c4, c5⟩ := compact_cases env henv a ha qs1 ok pg hI
    refine ⟨pg1, c1, c3, c4, fun i => ⟨(c5 i).1, (c5 i).2.1, fun hne => ?_⟩⟩
    have e1 := (c5 i).1
    have e2 := (c5 i).2.1
    have e3 := (c5 i).2.2 hne
    cases hs1 : pg1.slots i
    cases hs : pg.slots i
    rw [hs1] at e1 e2 e3
    rw [hs] at e1 e2 e3
    simp only at e1 e2 e3
    rw [e1, e2, e3]

theorem inserted_page_shape_witness :
    env16k.Valid ∧ ValidAlignment 8 ∧
    (∀ x ∈ [(true, rec_one_byte), (false, rec_three_bytes)], x.2.WF) ∧
    insert_records env16k insertion_qsort ( sort_spage_initialize env16k blank_page 0 8)
      [(true, rec_one_byte), (false, rec_three_bytes)] = some page_two_records ∧
    page_two_records.hdr.nslots = 2 ∧ page_two_records.hdr.nrecs = 2 ∧
    page_two_records.hdr.cfree = page_two_records.hdr.tfree ∧
    page_records page_two_records = [stored_recdes rec_one_byte, stored_recdes rec_three_bytes] :=
  have h := inserted_page_shape env16k (by decide) 8 (by decide) insertion_qsort blank_page 0
    [(true, rec_one_byte), (false, rec_three_bytes)] page_two_records (by decide)
    page_two_records_built
  ⟨by decide, by decide, by decide, page_two_records_built, h.1, h.2.1, h.2.2.1, h.2.2.2.1⟩

/-! ### The output section of the merge -/

theorem half_files_below_buffers (CEIL_PTVDIV : Int → Int → Int) (tot_buffers input_pages : Int)
    (h : 4 ≤ tot_buffers) :
    sort_get_num_half_tmpfiles CEIL_PTVDIV tot_buffers input_pages < tot_buffers := by
  have hd : Int.tdiv tot_buffers 2 = tot_buffers / 2 := Int.tdiv_eq_ediv (by omega) (by omega)
  unfold sort_get_num_half_tmpfiles
  simp only [hd]
  split_ifs <;> omega

/-- C39: for every `tot_buffers >= 4`, every page estimate, whatever the macro
`CEIL_PTVDIV` computes, `half_files = sort_get_num_half_tmpfiles (tot_buffers,
estimate)` and every `active_inputs` with `2 <= active_inputs <= half_files`: the
input sections have `sort_find_inbuf_size (tot_buffers, active_inputs) >= 1`
buffers each, and the output section, `tot_buffers - active_inputs *
sort_find_inbuf_size (tot_buffers, active_inputs)`, has one buffer at least. -/
theorem output_section_has_a_page (CEIL_PTVDIV : Int → Int → Int)
    (tot_buffers input_pages active_inputs : Int) (h : 4 ≤ tot_buffers)
    (h2 : 2 ≤ active_inputs)
    (h3 : active_inputs ≤ sort_get_num_half_tmpfiles CEIL_PTVDIV tot_buffers input_pages) :
    1 ≤ sort_find_inbuf_size tot_buffers active_inputs ∧
    1 ≤ tot_buffers - active_inputs * sort_find_inbuf_size tot_buffers active_inputs := by
  have hlt := half_files_below_buffers CEIL_PTVDIV tot_buffers input_pages h
  obtain ⟨s1, s2⟩ := sections_ok tot_buffers active_inputs (by omega) (by omega)
  refine ⟨s1, ?_⟩
  rw [mul_comm]
  exact s2

theorem output_section_has_a_page_witness :
    (4 : Int) ≤ 4 ∧ (2 : Int) ≤ 3 ∧
    (3 : Int) ≤ sort_get_num_half_tmpfiles (fun a b => (a + b - 1) / b) 4 0 ∧
    sort_find_inbuf_size 4 3 = 1 ∧
    (1 ≤ sort_find_inbuf_size 4 3 ∧ 1 ≤ (4 : Int) - 3 * sort_find_inbuf_size 4 3) :=
  ⟨by decide, by decide, by decide, by decide,
    output_section_has_a_page (fun a b => (a + b - 1) / b) 4 0 3 (by decide) (by decide)
      (by decide)⟩

/-! ### Flushing a run: the pages, the ledger, the records -/

theorem empty_page_offset (env : PageEnv) (a : Int) (pg : Page) (hI : PageInv env a pg)
    (h0 : pg.hdr.nslots = 0) : pg.hdr.tfree = env.DB_PAGESIZE - SIZEOF_SLOTTED_PAGE_HEADER := by
  obtain ⟨σ, hp, hl⟩ := hI.layout
  rw [h0] at hp
  simp only [Int.toNat_zero, List.range_zero, List.perm_nil] at hp
  rw [hp] at hl
  simp only [LayoutZ] at hl
  rw [hI.tfree, h0, ← hl]
  omega

theorem page_records_nil_iff (env : PageEnv) (a : Int) (pg : Page) (hI : PageInv env a pg) :
    page_records pg = [] ↔ pg.hdr.nslots = 0 := by
  have hn := hI.nslots_nonneg
  constructor
  · intro h
    have := congrArg List.length h
    rw [page_records_length] at this
    simp only [List.length_nil] at this
    omega
  · intro h
    apply List.eq_nil_of_length_eq_zero
    rw [page_records_length, h]
    rfl

/-- The loop of `sort_run_flush` on an output buffer that is a slotted page: it is
defined; when it runs to its end, the pages written and the buffer hold the
records before and the records of the loop, in their order, and every page
written holds a record, provided the buffer held one or no page was written. -/
theorem flush_loop_spec (env : PageEnv) (henv : env.Valid) (a : Int) (ha : ValidAlignment a)
    (qs : Qsort) (calloc_ok : Bool) (U : Int) :
    ∀ (records : List RECDES) (st : FlushState), PageInv env a st.output_buffer →
      (∀ r ∈ records, r.WF) →
      ∃ b st1, sort_run_flush_loop env qs calloc_ok U a records st = some (b, st1) ∧
        PageInv env a st1.output_buffer ∧
        ∃ ps : List Page, st1.written = st.written ++ ps ∧
          st1.run_size = st.run_size + (ps.length : Int) ∧
          (∀ pg ∈ ps, PageInv env a pg) ∧
          (b = true →
            recs_of ps ++ page_records st1.output_buffer =
              page_records st.output_buffer ++ records.map stored_recdes ∧
            (∀ pg ∈ ps, page_records pg ≠ []) ∧
            (records ≠ [] → page_records st1.output_buffer ≠ [])) := by
  intro records
  induction records with
  | nil =>
    intro st hI _
    refine ⟨true, st, rfl, hI, [], by simp, by simp, fun pg hpg => by simp at hpg, fun _ => ?_⟩
    refine ⟨by simp [recs_of], fun pg hpg => by simp at hpg, fun h => absurd rfl h⟩
  | cons r rest ih =>
    intro st hI hwf
    have hr : r.WF := hwf r (List.mem_cons_self _ _)
    have hrest : ∀ x ∈ rest, x.WF := fun x hx => hwf x (List.mem_cons_of_mem _ hx)
    simp only [sort_run_flush_loop]
    rcases insert_cases env henv a ha qs calloc_ok st.output_buffer hI r hr with
      ⟨h1, h2, h3⟩ | ⟨h2, h3⟩
    · -- the record goes into the buffer
      obtain ⟨hI1, hp1⟩ := insert_page_records env henv a ha qs calloc_ok st.output_buffer hI r hr
        _ _ h3
      rw [h3]
      simp only []
      obtain ⟨b, st1, e, hI2, ps, w1, w2, w3, w4⟩ := ih { st with output_buffer := _ } hI1 hrest
      refine ⟨b, st1, e, hI2, ps, w1, w2, w3, fun hb => ?_⟩
      obtain ⟨x1, x2, x3⟩ := w4 hb
      refine ⟨?_, x2, fun _ => ?_⟩
      · rw [x1]
        simp only []
        rw [hp1, List.map_cons, List.append_assoc]
        rfl
      · by_cases hre : rest = []
        · have hps : recs_of ps ++ page_records st1.output_buffer ≠ [] := by
            rw [x1]
            simp only []
            rw [hp1]
            simp
          intro hnil
          rw [hnil, List.append_nil] at hps
          rw [hnil, List.append_nil] at x1
          cases ps with
          | nil => exact hps rfl
          | cons p ps1 =>
            -- the last page written holds a record, and the buffer too
            rw [hre] at e
            simp only [sort_run_flush_loop, Option.some.injEq, Prod.mk.injEq] at e
            rw [← e.2] at w1
            simp only [] at w1
            have := congrArg List.length w1
            simp at this
        · exact x3 hre
    · -- the buffer is full: it is written, and the record goes into a new page
      rw [h3]
      simp only []
      have hI2 := initialize_inv env henv st.output_buffer U a ha
      have hrec2 := page_records_initialize env henv st.output_buffer U a ha
      rcases insert_cases env henv a ha qs calloc_ok
          ( sort_spage_initialize env st.output_buffer U a) hI2 r hr with ⟨g1, g2, g3⟩ | ⟨g2, g3⟩
      · obtain ⟨hI3, hp3⟩ := insert_page_records env henv a ha qs calloc_ok _ hI2 r hr _ _ g3
        rw [g3]
        simp only []
        obtain ⟨b, st1, e, hI4, ps, w1, w2, w3, w4⟩ := ih
          { output_buffer := _, written := st.written ++ [st.output_buffer],
            run_size := st.run_size + 1 } hI3 hrest
        refine ⟨b, st1, e, hI4, st.output_buffer :: ps, ?_, ?_, ?_, fun hb => ?_⟩
        · rw [w1]
          simp
        · rw [w2]
          simp only [List.length_cons]
          push_cast
          omega
        · intro pg hpg
          rcases List.mem_cons.1 hpg with h | h
          · rw [h]; exact hI
          · exact w3 pg h
        · obtain ⟨x1, x2, x3⟩ := w4 hb
          refine ⟨?_, ?_, fun _ => ?_⟩
          · have : recs_of (st.output_buffer :: ps) =
                page_records st.output_buffer ++ recs_of ps := by
              simp [recs_of]
            rw [this, List.append_assoc, x1]
            simp only []
            rw [hp3, hrec2, List.nil_append, List.map_cons]
            rfl
          · intro pg hpg
            rcases List.mem_cons.1 hpg with h | h
            · rw [h]
              intro hnil
              have h0 := (page_records_nil_iff env a _ hI).1 hnil
              have t1 := empty_page_offset env a _ hI h0
              have t2 := empty_page_offset env a _ hI2
                (initialize_spec env henv st.output_buffer U a ha).1
              rw [t2] at g2
              rw [t1] at h2
              exact h2 ⟨g1, g2⟩
            · exact x2 pg h
          · by_cases hre : rest = []
            · rw [hre] at e
              simp only [sort_run_flush_loop, Option.some.injEq, Prod.mk.injEq] at e
              rw [← e.2]
              simp only []
              rw [hp3]
              simp
            · exact x3 hre
      · rw [g3]
        simp only []
        refine ⟨false, _, rfl, hI2, [st.output_buffer], rfl, by simp, ?_, fun hb => by cases hb⟩
        intro pg hpg
        simp only [List.mem_singleton] at hpg
        rw [hpg]
        exact hI
/-- The C `sort_run_flush` on its record descriptors: when it returns `NO_ERROR`,
`run_size` is the number of the pages written, each of them is a slotted page that
holds a record, and the pages hold the records in their order. -/
theorem run_flush_pages (env : PageEnv) (henv : env.Valid) (a : Int) (ha : ValidAlignment a)
    (qs : Qsort) (calloc_ok : Bool) (U : Int) (records : List RECDES) (output_buffer : Page)
    (hwf : ∀ r ∈ records, r.WF) :
    ∃ res, sort_run_flush env qs calloc_ok U a records output_buffer = some res ∧
      res.run_size = (res.written.length : Int) ∧
      (res.ok = true →
        (∀ pg ∈ res.written, PageInv env a pg ∧ page_records pg ≠ []) ∧
        recs_of res.written = records.map stored_recdes) := by
  obtain ⟨b, st1, e, hI1, ps, w1, w2, w3, w4⟩ := flush_loop_spec env henv a ha qs calloc_ok U
    records { output_buffer := sort_spage_initialize env output_buffer U a, written := [],
              run_size := 0 }
    (initialize_inv env henv output_buffer U a ha) hwf
  simp only [List.nil_append, zero_add] at w1 w2
  unfold sort_run_flush
  simp only []
  rw [e]
  cases b with
  | false =>
    refine ⟨_, rfl, ?_, fun h => by cases h⟩
    simp only []
    rw [w1, w2]
  | true =>
    obtain ⟨x1, x2, x3⟩ := w4 rfl
    simp only [] at x1
    rw [ page_records_initialize env henv output_buffer U a ha, List.nil_append] at x1
    simp only []
    by_cases hn : sort_spage_get_numrecs st1.output_buffer ≠ 0
    · rw [if_pos hn]
      refine ⟨_, rfl, ?_, fun _ => ⟨fun pg hpg => ?_, ?_⟩⟩
      · simp only [List.length_append, List.length_singleton]
        rw [w1, w2]
        push_cast
        rfl
      · rcases List.mem_append.1 hpg with h | h
        · rw [w1] at h
          exact ⟨w3 pg h, x2 pg h⟩
        · simp only [List.mem_singleton] at h
          rw [h]
          refine ⟨hI1, fun hnil => ?_⟩
          have h0 := (page_records_nil_iff env a _ hI1).1 hnil
          unfold sort_spage_get_numrecs at hn
          rw [hI1.nrecs] at hn
          exact hn h0
      · rw [w1, ← x1]
        simp [recs_of]
    · rw [if_neg hn]
      refine ⟨_, rfl, ?_, fun _ => ⟨fun pg hpg => ?_, ?_⟩⟩
      · simp only []
        rw [w1, w2]
      · simp only [] at hpg
        rw [w1] at hpg
        exact ⟨w3 pg hpg, x2 pg hpg⟩
      · simp only []
        have h0 : st1.output_buffer.hdr.nslots = 0 := by
          unfold sort_spage_get_numrecs at hn
          rw [hI1.nrecs] at hn
          by_contra h
          exact hn h
        rw [(page_records_nil_iff env a _ hI1).2 h0, List.append_nil] at x1
        rw [w1, x1]

theorem add_new_shape_any (ok : Bool) (fc fc1 : FILE_CONTENTS) (n : Int)
    (h : sort_run_add_new ok fc n = some (true, fc1)) :
    fc1.first_run = (if fc.first_run = -1 then 0 else fc.first_run) ∧
    fc1.last_run = (if fc.first_run = -1 then 0 else fc.last_run + 1) ∧
    fc1.num_pages = (fun j => if j = fc1.last_run then n else fc.num_pages j) := by
  cases ok with
  | true => exact add_new_shape fc fc1 n h
  | false =>
    apply add_new_shape fc fc1 n
    unfold sort_run_add_new at h ⊢
    simp only [Bool.true_eq_false, if_false] at h ⊢
    split_ifs at h ⊢ <;> first
      | exact h
      | (exact absurd h (by simp))
theorem write_pages_seq (sp : SortParam) (file first_page : Int) (pages : List Page) :
    pages_seq ((write_pages sp file first_page pages).temp file) first_page
      (pages.length : Int) = pages := by
  unfold pages_seq write_pages
  simp only [Int.toNat_ofNat]
  apply List.ext_getElem
  · simp
  · intro i h1 h2
    simp only [List.getElem_map, List.getElem_range]
    rw [if_pos ⟨trivial, by omega, by omega⟩]
    have : (first_page + (i : Int) - first_page).toNat = i := by omega
    rw [this, List.getD_eq_getElem _ _ h2]

/-- C34: `sort_run_flush` is called for the file `out_curfile` with a pointer list
whose record descriptors are well formed, on a host with usable constants, and the
ledger of the file is well formed; it returns `NO_ERROR`. Then there are pages
`ps`, each a slotted page that holds one record at least, such that: the pages
`cur_page[out_file] ..` of the file are `ps`, in this order, and no other page of
a temp file has changed; the ledger of the file has one run more, of
`ps.length` pages, behind the runs it had, and the other ledgers are as before;
`cur_page[out_file]` has grown by `ps.length` (the other entries not at all) and
`tot_runs` by 1; and the records of the pages, read page after page and slot
after slot, are the records of the pointer list in the order in which
`sort_run_flush` visits them: for each cell the record it points to and then,
with `REC_HOME`, the records linked to it. -/
theorem run_flush_spec (W : SortWorld) (v v1 : InVars) (rec_type : RecType)
    (henv : W.M.env.Valid) (ha : ValidAlignment W.M.MAX_ALIGNMENT)
    (hwf : ∀ r ∈ flush_records W v rec_type, r.WF)
    (hled : LedgerWF (v.st.sp.file_contents v.out_curfile))
    (h : sort_run_flush_file W v rec_type = some (SortCode.NO_ERROR, v1)) :
    ∃ ps : List Page,
      (∀ pg ∈ ps, PageInv W.M.env W.M.MAX_ALIGNMENT pg ∧ 1 ≤ pg.hdr.nrecs ∧
        page_records pg ≠ []) ∧
      pages_seq (v1.st.sp.temp v.out_curfile) (v.cur_page v.out_curfile) (ps.length : Int) = ps ∧
      (∀ f p, ¬ (f = v.out_curfile ∧ v.cur_page v.out_curfile ≤ p ∧
          p < v.cur_page v.out_curfile + (ps.length : Int)) →
        v1.st.sp.temp f p = v.st.sp.temp f p) ∧
      live_runs (v1.st.sp.file_contents v.out_curfile) =
        live_runs (v.st.sp.file_contents v.out_curfile) ++ [(ps.length : Int)] ∧
      (∀ f, f ≠ v.out_curfile → v1.st.sp.file_contents f = v.st.sp.file_contents f) ∧
      v1.cur_page v.out_curfile = v.cur_page v.out_curfile + (ps.length : Int) ∧
      (∀ f, f ≠ v.out_curfile → v1.cur_page f = v.cur_page f) ∧
      v1.st.tot_runs = v.st.tot_runs + 1 ∧
      recs_of ps = (flush_records W v rec_type).map stored_recdes := by
  have hcr : (if v.st.temp_volid_set v.out_curfile = false then
        sort_add_new_file_noalloc W v.st v.out_curfile else (true, v.st)).2.sp = v.st.sp ∧
      (if v.st.temp_volid_set v.out_curfile = false then
        sort_add_new_file_noalloc W v.st v.out_curfile else (true, v.st)).2.tot_runs =
          v.st.tot_runs := by
    split_ifs
    · exact ⟨rfl, rfl⟩
    · exact ⟨rfl, rfl⟩
  unfold sort_run_flush_file at h
  simp only [] at h
  generalize (if v.st.temp_volid_set v.out_curfile = false then
    sort_add_new_file_noalloc W v.st v.out_curfile else (true, v.st)) = created at h hcr
  obtain ⟨c1, c2⟩ := hcr
  by_cases h1 : created.1 = false
  · rw [if_pos h1] at h
    simp only [Option.some.injEq, Prod.mk.injEq] at h
    exact absurd h.1 (by decide)
  · rw [if_neg h1] at h
    obtain ⟨res, e, r1, r2⟩ := run_flush_pages W.M.env henv W.M.MAX_ALIGNMENT ha W.M.qs
      W.M.calloc_ok W.M.UNANCHORED_KEEP_SEQUENCE (flush_records W v rec_type)
      (created.2.sp.internal_memory (created.2.sp.tot_buffers - 1)) hwf
    rw [e] at h
    simp only [] at h
    by_cases h2 : res.ok = false
    · rw [if_pos h2] at h
      simp only [Option.some.injEq, Prod.mk.injEq] at h
      exact absurd h.1 (by decide)
    · rw [if_neg h2] at h
      have hok : res.ok = true := by
        cases hb : res.ok
        · exact absurd hb h2
        · rfl
      obtain ⟨p1, p2⟩ := r2 hok
      have hfc : (write_pages created.2.sp v.out_curfile (v.cur_page v.out_curfile)
          res.written).file_contents v.out_curfile = v.st.sp.file_contents v.out_curfile := by
        show created.2.sp.file_contents v.out_curfile = _
        rw [c1]
      rw [hfc] at h
      cases ha1 : sort_run_add_new (W.realloc_ok created.2.log)
          (v.st.sp.file_contents v.out_curfile) res.run_size with
      | none =>
        rw [ha1] at h
        cases h
      | some p =>
        obtain ⟨b, fc⟩ := p
        rw [ha1] at h
        cases b with
        | false =>
          simp only [Option.some.injEq, Prod.mk.injEq] at h
          exact absurd h.1 (by decide)
        | true =>
          simp only [Option.some.injEq, Prod.mk.injEq, true_and] at h
          obtain ⟨s1, s2, s3⟩ := add_new_shape_any _ _ _ _ ha1
          obtain ⟨-, l2⟩ := live_runs_add_new _ fc res.run_size hled s1 s2 s3
          refine ⟨res.written, fun pg hpg => ⟨(p1 pg hpg).1, ?_, (p1 pg hpg).2⟩, ?_, ?_, ?_, ?_,
            ?_, ?_, ?_, p2⟩
          · have hI := (p1 pg hpg).1
            have hne := (p1 pg hpg).2
            have h0 : pg.hdr.nslots ≠ 0 := fun h0 =>
              hne ((page_records_nil_iff W.M.env W.M.MAX_ALIGNMENT pg hI).2 h0)
            have := hI.nslots_nonneg
            rw [hI.nrecs]
            omega
          · rw [← h]
            simp only []
            exact write_pages_seq _ _ _ _
          · intro f p hn
            rw [← h]
            show (write_pages created.2.sp v.out_curfile (v.cur_page v.out_curfile)
              res.written).temp f p = _
            unfold write_pages
            simp only []
            rw [if_neg hn, c1]
          · rw [← h]
            simp only [aset, if_true]
            rw [l2, r1]
          · intro f hf
            rw [← h]
            simp only [aset, if_neg hf]
            show created.2.sp.file_contents f = _
            rw [c1]
          · rw [← h]
            simp only [aset, if_true]
            rw [r1]
          · intro f hf
            rw [← h]
            simp only [aset, if_neg hf]
          · rw [← h]
            simp only []
            rw [c2]
theorem run_flush_spec_witness :
    (example_world []).M.env.Valid ∧ ValidAlignment (example_world []).M.MAX_ALIGNMENT ∧
    (∀ r ∈ flush_records (example_world []) flush_vars RecType.REC_HOME, r.WF) ∧
    LedgerWF (flush_vars.st.sp.file_contents flush_vars.out_curfile) ∧
    (flush_records (example_world []) flush_vars RecType.REC_HOME).map stored_recdes =
      [{ area_size := -1, length := 24, type := RecType.REC_HOME, data := keyed_record 3 },
       { area_size := -1, length := 24, type := RecType.REC_HOME, data := keyed_record 7 }] ∧
    ∃ v1, sort_run_flush_file (example_world []) flush_vars RecType.REC_HOME =
        some (SortCode.NO_ERROR, v1) ∧
      ∃ ps : List Page,
        (∀ pg ∈ ps, PageInv (example_world []).M.env (example_world []).M.MAX_ALIGNMENT pg ∧
          1 ≤ pg.hdr.nrecs ∧ page_records pg ≠ []) ∧
        pages_seq (v1.st.sp.temp flush_vars.out_curfile)
          (flush_vars.cur_page flush_vars.out_curfile) (ps.length : Int) = ps ∧
        (∀ f p, ¬ (f = flush_vars.out_curfile ∧ flush_vars.cur_page flush_vars.out_curfile ≤ p ∧
            p < flush_vars.cur_page flush_vars.out_curfile + (ps.length : Int)) →
          v1.st.sp.temp f p = flush_vars.st.sp.temp f p) ∧
        live_runs (v1.st.sp.file_contents flush_vars.out_curfile) =
          live_runs (flush_vars.st.sp.file_contents flush_vars.out_curfile) ++
            [(ps.length : Int)] ∧
        (∀ f, f ≠ flush_vars.out_curfile →
          v1.st.sp.file_contents f = flush_vars.st.sp.file_contents f) ∧
        v1.cur_page flush_vars.out_curfile =
          flush_vars.cur_page flush_vars.out_curfile + (ps.length : Int) ∧
        (∀ f, f ≠ flush_vars.out_curfile → v1.cur_page f = flush_vars.cur_page f) ∧
        v1.st.tot_runs = flush_vars.st.tot_runs + 1 ∧
        recs_of ps =
          (flush_records (example_world []) flush_vars RecType.REC_HOME).map stored_recdes := by
  have hchk : (match sort_run_flush_file (example_world []) flush_vars RecType.REC_HOME with
      | some (SortCode.NO_ERROR, _) => true
      | _ => false) = true := by
    decide
  have hwf : ∀ r ∈ flush_records (example_world []) flush_vars RecType.REC_HOME, r.WF := by
    decide
  refine ⟨by decide, by decide, hwf, by decide, by decide, ?_⟩
  cases hf : sort_run_flush_file (example_world []) flush_vars RecType.REC_HOME with
  | none => rw [hf] at hchk; cases hchk
  | some p =>
    obtain ⟨e, v1⟩ := p
    rw [hf] at hchk
    cases e with
    | NO_ERROR =>
      exact ⟨v1, rfl, run_flush_spec (example_world []) flush_vars v1 RecType.REC_HOME
        (by decide) (by decide) hwf (by decide) hf⟩
    | ER_OUT_OF_VIRTUAL_MEMORY => cases hchk
    | ER_GENERIC_ERROR => cases hchk
    | er_errid => cases hchk
    | put_error c => cases hchk

theorem runs_of_file_snoc (h f : Nat) (sizes : List Int) (n : Int) :
    runs_of_file h f (sizes ++ [n]) =
      runs_of_file h f sizes ++ (if sizes.length % h = f then [n] else []) := by
  unfold runs_of_file
  rw [List.length_append, List.length_singleton, List.range_succ, List.filter_append,
    List.map_append]
  congr 1
  · apply List.map_congr_left
    intro k hk
    have hk1 : k < sizes.length := by
      have := (List.mem_filter.1 hk).1
      exact List.mem_range.1 this
    simp only [List.getD_eq_getElem?_getD]
    rw [List.getElem?_append_left hk1]
  · by_cases hc : sizes.length % h = f
    · simp only [List.filter_cons, hc, decide_True, if_true, List.filter_nil, List.map_cons,
        List.map_nil]
      simp only [List.getD_eq_getElem?_getD]
      simp
    · simp only [List.filter_cons, hc, decide_False, List.filter_nil, List.map_nil]
      simp

theorem runs_of_file_nil (h f : Nat) : runs_of_file h f [] = [] := by
  unfold runs_of_file
  simp

/-- The file `f` of `h` files got a run of the first `r` runs when `f < r`. -/
theorem runs_of_file_ne_nil (h f : Nat) (sizes : List Int) (hf : f < h) :
    runs_of_file h f sizes ≠ [] ↔ f < sizes.length := by
  unfold runs_of_file
  rw [Ne, List.map_eq_nil_iff, List.filter_eq_nil_iff]
  constructor
  · intro hn
    by_contra hc
    apply hn
    intro k hk
    have hk1 := List.mem_range.1 hk
    simp only [decide_eq_true_eq]
    intro hm
    have : k % h ≤ k := Nat.mod_le k h
    omega
  · intro hlt hn
    have := hn f (List.mem_range.2 hlt)
    simp only [decide_eq_true_eq] at this
    exact this (Nat.mod_eq_of_lt hf)

theorem add_new_wf (ok : Bool) (fc fc1 : FILE_CONTENTS) (n : Int) (hwf : LedgerWF fc)
    (h : sort_run_add_new ok fc n = some (true, fc1)) : LedgerWF fc1 := by
  obtain ⟨w1, w2⟩ := hwf
  have := add_new_inv ok fc n (true, fc1) h (by
    rcases w2 with a | ⟨a, b, c⟩
    · exact Or.inl a
    · exact Or.inr ⟨a, b⟩)
  obtain ⟨a, b, c, d⟩ := this
  have d1 := d rfl
  simp only at a b c d1
  exact ⟨by omega, Or.inr ⟨b, c, d1⟩⟩

theorem ledger_nonempty_iff (fc : FILE_CONTENTS) (hwf : LedgerWF fc) :
    fc.first_run ≠ -1 ↔ live_runs fc ≠ [] := by
  obtain ⟨w1, w2⟩ := hwf
  have hl := live_runs_length fc
  unfold sort_get_num_file_contents at hl
  constructor
  · intro h hn
    rw [hn, if_pos h] at hl
    simp only [List.length_nil] at hl
    rcases w2 with a | ⟨a, b, c⟩
    · exact h a
    · omega
  · intro h hn
    exact h (live_runs_empty fc hn)
/-- A flush of `sort_run_flush` that returns `NO_ERROR` enters one run into the
ledger of the file `out_curfile` and leaves the other ledgers as they are. -/
theorem run_flush_ledger (W : SortWorld) (v v1 : InVars) (rec_type : RecType)
    (hled : LedgerWF (v.st.sp.file_contents v.out_curfile))
    (h : sort_run_flush_file W v rec_type = some (SortCode.NO_ERROR, v1)) :
    (∃ n, live_runs (v1.st.sp.file_contents v.out_curfile) =
        live_runs (v.st.sp.file_contents v.out_curfile) ++ [n]) ∧
      LedgerWF (v1.st.sp.file_contents v.out_curfile) ∧
      (∀ f, f ≠ v.out_curfile → v1.st.sp.file_contents f = v.st.sp.file_contents f) ∧
      v1.st.tot_runs = v.st.tot_runs + 1 ∧ v1.out_curfile = v.out_curfile ∧
      v1.st.sp.half_files = v.st.sp.half_files ∧ v1.st.sp.in_half = v.st.sp.in_half := by
  have hcr : (if v.st.temp_volid_set v.out_curfile = false then
        sort_add_new_file_noalloc W v.st v.out_curfile else (true, v.st)).2.sp = v.st.sp ∧
      (if v.st.temp_volid_set v.out_curfile = false then
        sort_add_new_file_noalloc W v.st v.out_curfile else (true, v.st)).2.tot_runs =
          v.st.tot_runs := by
    split_ifs
    · exact ⟨rfl, rfl⟩
    · exact ⟨rfl, rfl⟩
  unfold sort_run_flush_file at h
  simp only [] at h
  generalize (if v.st.temp_volid_set v.out_curfile = false then
    sort_add_new_file_noalloc W v.st v.out_curfile else (true, v.st)) = created at h hcr
  obtain ⟨c1, c2⟩ := hcr
  by_cases h1 : created.1 = false
  · rw [if_pos h1] at h
    simp only [Option.some.injEq, Prod.mk.injEq] at h
    exact absurd h.1 (by decide)
  · rw [if_neg h1] at h
    cases e : sort_run_flush W.M.env W.M.qs W.M.calloc_ok W.M.UNANCHORED_KEEP_SEQUENCE
        W.M.MAX_ALIGNMENT (flush_records W v rec_type)
        (created.2.sp.internal_memory (created.2.sp.tot_buffers - 1)) with
    | none =>
      rw [e] at h
      cases h
    | some res =>
      rw [e] at h
      simp only [] at h
      by_cases h2 : res.ok = false
      · rw [if_pos h2] at h
        simp only [Option.some.injEq, Prod.mk.injEq] at h
        exact absurd h.1 (by decide)
      · rw [if_neg h2] at h
        have hfc : (write_pages created.2.sp v.out_curfile (v.cur_page v.out_curfile)
            res.written).file_contents v.out_curfile = v.st.sp.file_contents v.out_curfile := by
          show created.2.sp.file_contents v.out_curfile = _
          rw [c1]
        rw [hfc] at h
        cases ha1 : sort_run_add_new (W.realloc_ok created.2.log)
            (v.st.sp.file_contents v.out_curfile) res.run_size with
        | none =>
          rw [ha1] at h
          cases h
        | some p =>
          obtain ⟨b, fc⟩ := p
          rw [ha1] at h
          cases b with
          | false =>
            simp only [Option.some.injEq, Prod.mk.injEq] at h
            exact absurd h.1 (by decide)
          | true =>
            simp only [Option.some.injEq, Prod.mk.injEq, true_and] at h
            obtain ⟨s1, s2, s3⟩ := add_new_shape_any _ _ _ _ ha1
            obtain ⟨-, l2⟩ := live_runs_add_new _ fc res.run_size hled s1 s2 s3
            have hw := add_new_wf _ _ _ _ hled ha1
            refine ⟨⟨res.run_size, ?_⟩, ?_, ?_, ?_, ?_, ?_, ?_⟩
            · rw [← h]
              simp only [aset, if_true]
              rw [l2]
            · rw [← h]
              simp only [aset, if_true]
              exact hw
            · intro f hf
              rw [← h]
              simp only [aset, if_neg hf]
              show created.2.sp.file_contents f = _
              rw [c1]
            · rw [← h]
              simp only []
              rw [c2]
            · rw [← h]
            · rw [← h]
              show created.2.sp.half_files = _
              rw [c1]
            · rw [← h]
              show created.2.sp.in_half = _
              rw [c1]

/-- After a flush that returns `NO_ERROR` the runs flushed went to the files in
turn, the last one to the file `out_curfile`. -/
theorem flush_dealt (W : SortWorld) (v v1 : InVars) (rec_type : RecType) (hd : Dealt v)
    (h : sort_run_flush_file W v rec_type = some (SortCode.NO_ERROR, v1)) :
    (∃ sizes, Flushed v1.st sizes) ∧ v1.out_curfile = v.st.tot_runs % v.st.sp.half_files ∧
      v1.st.tot_runs = v.st.tot_runs + 1 ∧ v1.st.sp.half_files = v.st.sp.half_files := by
  obtain ⟨⟨sizes, hf⟩, hoc⟩ := hd
  have hh := hf.half
  have hc := hf.count
  have hoc0 : 0 ≤ v.out_curfile := by rw [hoc]; exact Int.emod_nonneg _ (by omega)
  have hoc1 : v.out_curfile < v.st.sp.half_files := by rw [hoc]; exact Int.emod_lt_of_pos _ (by omega)
  have hocn : v.out_curfile = ((v.out_curfile.toNat : Nat) : Int) := by omega
  have hl := hf.ledgers v.out_curfile.toNat (by omega)
  rw [← hocn] at hl
  obtain ⟨⟨n, r1⟩, r2, r3, r4, r5, r6, r7⟩ := run_flush_ledger W v v1 rec_type hl.1 h
  refine ⟨⟨sizes ++ [n], ⟨by rw [r7]; exact hf.in_half, by rw [r6]; exact hh, ?_, ?_⟩⟩,
    by rw [r5]; exact hoc, r4, r6⟩
  · rw [r4, ← hc]
    simp
  · intro f hfl
    rw [r6] at hfl ⊢
    have hl2 := hf.ledgers f hfl
    rw [runs_of_file_snoc]
    by_cases hfo : (f : Int) = v.out_curfile
    · rw [hfo]
      refine ⟨r2, ?_⟩
      rw [r1, hl.2]
      have e1 : v.out_curfile.toNat = f := by omega
      rw [e1]
      have e2 : sizes.length % v.st.sp.half_files.toNat = f := by
        have e3 : ((sizes.length % v.st.sp.half_files.toNat : Nat) : Int) = (f : Int) := by
          rw [Int.natCast_mod, hc, Int.toNat_of_nonneg (by omega), ← hoc, hfo]
        exact_mod_cast e3
      rw [if_pos e2]
    · rw [r3 _ hfo]
      refine ⟨hl2.1, ?_⟩
      rw [hl2.2]
      have e2 : sizes.length % v.st.sp.half_files.toNat ≠ f := by
        intro e
        apply hfo
        have e3 : ((sizes.length % v.st.sp.half_files.toNat : Nat) : Int) = (f : Int) := by
          rw [e]
        rw [Int.natCast_mod, hc, Int.toNat_of_nonneg (by omega), ← hoc] at e3
        exact e3.symm
      rw [if_neg e2, List.append_nil]

theorem SameDeal.same (v : InVars) : SameDeal v v := ⟨rfl, rfl, rfl, rfl, rfl⟩

theorem SameDeal.then {u v w : InVars} (h1 : SameDeal u v) (h2 : SameDeal v w) :
    SameDeal u w :=
  ⟨h2.1.trans h1.1, h2.2.1.trans h1.2.1, h2.2.2.1.trans h1.2.2.1,
    h2.2.2.2.1.trans h1.2.2.2.1, h2.2.2.2.2.trans h1.2.2.2.2⟩

theorem Flushed.carry {v w : InVars} (hs : SameDeal v w)
    (hd : ∃ sizes, Flushed v.st sizes) : ∃ sizes, Flushed w.st sizes := by
  obtain ⟨sizes, hf⟩ := hd
  obtain ⟨h1, h2, h3, h4, h5⟩ := hs
  refine ⟨sizes, ⟨by rw [h3]; exact hf.in_half, by rw [h2]; exact hf.half,
    by rw [h4]; exact hf.count, ?_⟩⟩
  intro f hfl
  rw [h2] at hfl ⊢
  rw [h1]
  exact hf.ledgers f hfl

/-- A state with the same ledgers, counts and output file has the invariant. -/
theorem Dealt.of_same {v w : InVars} (hd : Dealt v) (hs : SameDeal v w) : Dealt w := by
  refine ⟨Flushed.carry hs hd.1, ?_⟩
  obtain ⟨h1, h2, h3, h4, h5⟩ := hs
  rw [h2, h4, h5]
  exact hd.2

theorem next_turn (t h : Int) (hh : 1 ≤ h) :
    (if t % h + 1 ≥ h then 0 else t % h + 1) = (t + 1) % h := by
  have a1 := Int.emod_nonneg t (by omega : h ≠ 0)
  have a2 := Int.emod_lt_of_pos t (by omega : 0 < h)
  rw [← Int.emod_add_emod t h 1]
  by_cases hc : t % h + 1 ≥ h
  · rw [if_pos hc]
    have e : t % h + 1 = h := by omega
    rw [e, Int.emod_self]
  · rw [if_neg hc]
    exact (Int.emod_eq_of_lt (by omega) (by omega)).symm

/-- After a flush that returns `NO_ERROR`, the switch to the next temp file gives
the invariant of the loop again. -/
theorem next_run_dealt (W : SortWorld) (v v1 v4 : InVars) (rec_type : RecType) (hd : Dealt v)
    (h : sort_run_flush_file W v rec_type = some (SortCode.NO_ERROR, v1))
    (h4 : v4.st = v1.st ∧ v4.out_curfile = v1.out_curfile) :
    Dealt (inphase_next_run W v4) := by
  obtain ⟨⟨sizes, hf⟩, q2, q3, q4⟩ := flush_dealt W v v1 rec_type hd h
  have hh := hf.half
  have hin := hf.in_half
  obtain ⟨⟨s0, hf0⟩, _⟩ := hd
  have ht0 : 0 ≤ v.st.tot_runs := by rw [← hf0.count]; omega
  refine ⟨⟨sizes, ?_⟩, ?_⟩
  · show Flushed v4.st sizes
    rw [h4.1]
    exact hf
  · show (if v4.out_curfile + 1 ≥ v4.st.sp.half_files then v4.st.sp.in_half
      else v4.out_curfile + 1) = v4.st.tot_runs % v4.st.sp.half_files
    rw [h4.1, h4.2, q2, q3, hin, q4]
    exact next_turn v.st.tot_runs v.st.sp.half_files (by rw [← q4]; omega)
theorem inphase_get_same (W : SortWorld) (v : InVars) : SameDeal v (inphase_get W v).2 := by
  unfold inphase_get inphase_call
  simp only []
  split_ifs <;> exact ⟨rfl, rfl, rfl, rfl, rfl⟩

theorem inphase_sort_same (W : SortWorld) (option : SORT_DUP_OPTION) (v v1 : InVars)
    (h : inphase_sort W option v = some v1) : SameDeal v v1 := by
  unfold inphase_sort at h
  simp only [] at h
  split_ifs at h
  split at h
  · cases h
  · simp only [Option.some.injEq] at h
    rw [← h]
    exact ⟨rfl, rfl, rfl, rfl, rfl⟩

theorem inphase_reset_same (W : SortWorld) (v v1 : InVars)
    (h : inphase_reset_item_ptr W v = some v1) : SameDeal v v1 := by
  unfold inphase_reset_item_ptr at h
  simp only [] at h
  split_ifs at h
  simp only [Option.some.injEq] at h
  rw [← h]
  exact ⟨rfl, rfl, rfl, rfl, rfl⟩

theorem put_records_same (W : SortWorld) (base numrecs : Int) :
    ∀ (n : Nat) (i : Int) (v : InVars), SameDeal v (put_records W base numrecs n i v).vars := by
  intro n
  induction n with
  | zero =>
    intro i v
    exact SameDeal.same v
  | succ n ih =>
    intro i v
    unfold put_records
    split_ifs with h1
    · split
      · exact SameDeal.same v
      · simp only []
        split_ifs <;> first
          | exact ⟨rfl, rfl, rfl, rfl, rfl⟩
          | (refine SameDeal.then ?_ (ih _ _); exact ⟨rfl, rfl, rfl, rfl, rfl⟩)
    · exact SameDeal.same v

theorem inphase_single_long_same (W : SortWorld) (v : InVars) :
    SameDeal v (inphase_single_long W v).vars := by
  unfold inphase_single_long
  simp only []
  split_ifs
  · exact ⟨rfl, rfl, rfl, rfl, rfl⟩
  · split
    · exact ⟨rfl, rfl, rfl, rfl, rfl⟩
    · split_ifs <;> exact ⟨rfl, rfl, rfl, rfl, rfl⟩
theorem inphase_long_record_dealt (W : SortWorld) (v : InVars) (hd : Dealt v) :
    (inphase_long_record W v).Deals := by
  unfold inphase_long_record
  simp only []
  split_ifs <;>
    first
    | (intro he; cases he)
    | (split <;>
        first
        | (intro he; cases he)
        | (split <;>
            first
            | trivial
            | (rename_i e v4 hne hf
               intro he
               exact absurd he hne)
            | (rename_i v4 hf
               refine next_run_dealt W _ _ v4 _ ?_ hf ⟨rfl, rfl⟩
               exact hd.of_same ⟨rfl, rfl, rfl, rfl, rfl⟩)))

theorem inphase_end_run_dealt (W : SortWorld) (option : SORT_DUP_OPTION) (v : InVars)
    (hd : Dealt v) : (inphase_end_run W option v).Deals := by
  unfold inphase_end_run
  cases hs : inphase_sort W option v with
  | none => trivial
  | some v1 =>
    simp only []
    have e1 := inphase_sort_same W option v v1 hs
    cases hr : (if option = SORT_DUP_OPTION.SORT_ELIM_DUP then inphase_reset_item_ptr W v1
        else some v1) with
    | none => trivial
    | some v2 =>
      have e2 : SameDeal v v2 := by
        split_ifs at hr
        · exact e1.then (inphase_reset_same W v1 v2 hr)
        · simp only [Option.some.injEq] at hr
          rw [← hr]
          exact e1
      simp only []
      split_ifs
      · exact hd.of_same (e2.then ⟨rfl, rfl, rfl, rfl, rfl⟩)
      · split
        · trivial
        · rename_i v3 hf
          refine next_run_dealt W v2 v3 _ _ (hd.of_same e2) hf ?_
          split_ifs <;> exact ⟨rfl, rfl⟩
        · rename_i e v3 hne hf
          intro he
          exact absurd he hne

theorem inphase_doesnt_fit_dealt (W : SortWorld) (option : SORT_DUP_OPTION) (v : InVars)
    (hd : Dealt v) : (inphase_doesnt_fit W option v).Deals := by
  have h0 : (if v.numrecs > 0 then inphase_end_run W option v else Flow.next v).Deals := by
    split_ifs
    · exact inphase_end_run_dealt W option v hd
    · exact hd
  unfold inphase_doesnt_fit
  generalize (if v.numrecs > 0 then inphase_end_run W option v else Flow.next v) = f at h0
  cases f with
  | next v1 =>
    simp only []
    split_ifs
    · exact inphase_long_record_dealt W v1 h0
    · exact h0
  | leave v1 => exact h0
  | stop e v1 => exact h0
  | undefined v1 => exact h0
  | out_of_fuel v1 => exact h0

theorem inphase_iteration_dealt (W : SortWorld) (option : SORT_DUP_OPTION) (v : InVars)
    (hd : Dealt v) : (inphase_iteration W option v).Deals := by
  have h0 := hd.of_same (inphase_get_same W v)
  unfold inphase_iteration
  generalize inphase_get W v = g at h0
  obtain ⟨s, v1⟩ := g
  cases s with
  | SORT_NOMORE_RECS => exact h0
  | SORT_ERROR_OCCURRED => exact fun he => absurd he (by decide)
  | SORT_REC_DOESNT_FIT => exact inphase_doesnt_fit_dealt W option v1 h0
  | SORT_SUCCESS => exact h0.of_same ⟨rfl, rfl, rfl, rfl, rfl⟩
  | other => exact fun he => absurd he (by decide)

theorem inphase_loop_dealt (W : SortWorld) (option : SORT_DUP_OPTION) :
    ∀ (n : Nat) (v : InVars), Dealt v → (inphase_loop W option n v).Deals := by
  intro n
  induction n with
  | zero =>
    intro v _
    trivial
  | succ n ih =>
    intro v hd
    have h0 := inphase_iteration_dealt W option v hd
    simp only [inphase_loop]
    generalize inphase_iteration W option v = f at h0
    cases f with
    | next v1 => exact ih v1 h0
    | leave v1 => exact h0
    | stop e v1 => exact h0
    | undefined v1 => exact h0
    | out_of_fuel v1 => exact h0

theorem inphase_finish_dealt (W : SortWorld) (option : SORT_DUP_OPTION) (v : InVars)
    (hd : Dealt v) : (inphase_finish W option v).Deals := by
  have hput : ∀ (u : InVars) (base numrecs : Int) (n : Nat), SameDeal v u →
      (match put_records W base numrecs n 0 u with
        | Flow.next v2 => Flow.stop SortCode.NO_ERROR v2
        | f => f).Deals := by
    intro u base numrecs n hu
    have hs := put_records_same W base numrecs n 0 u
    have hdu := hd.of_same hu
    generalize put_records W base numrecs n 0 u = f at hs
    cases f with
    | next w => exact fun _ => Flushed.carry hs hdu.1
    | leave w => exact hdu.of_same hs
    | stop e w => exact fun _ => Flushed.carry hs hdu.1
    | undefined w => trivial
    | out_of_fuel w => trivial
  unfold inphase_finish
  by_cases hn : v.numrecs > 0
  · rw [if_pos hn]
    cases hs : inphase_sort W option v with
    | none => trivial
    | some v1 =>
      simp only []
      have e1 := inphase_sort_same W option v v1 hs
      split_ifs
      · split
        · trivial
        · rename_i e v2 hf
          intro he
          rw [he] at hf
          exact (flush_dealt W v1 v2 _ (hd.of_same e1) hf).1
      · exact hput v1 _ _ _ e1
  · rw [if_neg hn]
    split_ifs
    · exact hput v _ _ _ (SameDeal.same v)
    · have hs := inphase_single_long_same W v
      generalize hg : inphase_single_long W v = f at hs
      cases f with
      | next w => exact hd.of_same hs
      | leave w => exact hd.of_same hs
      | stop e w => exact fun _ => Flushed.carry hs hd.1
      | undefined w => trivial
      | out_of_fuel w => trivial
    · exact fun _ => hd.1

theorem inphase_init_dealt (W : SortWorld) (st : ParamState) (junk : InVars)
    (h0 : st.sp.in_half = 0) (hh : 1 ≤ st.sp.half_files)
    (hl : ∀ f : Nat, (f : Int) < st.sp.half_files →
      LedgerWF (st.sp.file_contents (f : Int)) ∧ (st.sp.file_contents (f : Int)).first_run = -1) :
    Dealt (inphase_init W st junk) := by
  refine ⟨⟨[], ⟨h0, hh, rfl, ?_⟩⟩, ?_⟩
  · intro f hf
    have := hl f hf
    refine ⟨this.1, ?_⟩
    show live_runs (st.sp.file_contents (f : Int)) = _
    rw [live_runs_empty _ this.2, runs_of_file_nil]
  · show st.sp.in_half = (0 : Int) % st.sp.half_files
    rw [h0]
    simp

theorem sort_inphase_sort_dealt (W : SortWorld) (fuel : Nat) (option : SORT_DUP_OPTION)
    (st : ParamState) (junk : InVars)
    (h0 : st.sp.in_half = 0) (hh : 1 ≤ st.sp.half_files)
    (hl : ∀ f : Nat, (f : Int) < st.sp.half_files →
      LedgerWF (st.sp.file_contents (f : Int)) ∧ (st.sp.file_contents (f : Int)).first_run = -1) :
    (sort_inphase_sort W fuel option st junk).Deals := by
  have h1 := inphase_loop_dealt W option fuel _ (inphase_init_dealt W st junk h0 hh hl)
  unfold sort_inphase_sort
  generalize inphase_loop W option fuel (inphase_init W st junk) = f at h1
  cases f with
  | next w => exact h1
  | leave w => exact inphase_finish_dealt W option w h1
  | stop e w => exact h1
  | undefined w => trivial
  | out_of_fuel w => trivial
/-- When the files of the input half with a run are the first `k` ones,
`sort_get_numpages_of_active_infiles` returns `k`, the number of the files with a
run. -/
theorem leading_count (sp : SortParam) (k : Int) (hk0 : 0 ≤ k) (hk1 : k ≤ sp.half_files)
    (h : ∀ i, 0 ≤ i → i < sp.half_files →
      ((sp.file_contents (sp.in_half + i)).first_run ≠ -1 ↔ i < k)) :
    sort_get_numpages_of_active_infiles sp = k ∧ (nonempty_infiles sp : Int) = k := by
  constructor
  · apply active_count sp k hk0 hk1
    · intro i hi0 hi1
      exact (h i hi0 (by omega)).2 hi1
    · intro hlt
      by_contra hc
      have := (h k hk0 hlt).1 hc
      omega
  · unfold nonempty_infiles
    have e : (List.range sp.half_files.toNat).filter
        (fun (i : Nat) => decide ((sp.file_contents (sp.in_half + (i : Int))).first_run ≠ -1)) =
        (List.range sp.half_files.toNat).filter (fun (i : Nat) => decide (i < k.toNat)) := by
      apply List.filter_congr
      intro i hi
      have hi1 := List.mem_range.1 hi
      have := h (i : Int) (by omega) (by omega)
      have hiff : (sp.file_contents (sp.in_half + (i : Int))).first_run ≠ -1 ↔ i < k.toNat := by
        rw [this]
        omega
      exact decide_eq_decide.2 hiff
    rw [e, filter_lt_length]
    omega

/-- C31: in every sort state in which the runs went to the files of the input
half in turn (the balanced distribution of the runs that the source relies on:
`m` rounds over the files and `c` more runs, so the file `i` of the half has
`m + 1` runs when `i < c` and `m` runs otherwise),
`sort_get_numpages_of_active_infiles` returns the number of temp files of the
input half whose ledger is not empty. -/
theorem active_infiles_counts_nonempty (sp : SortParam) (hh : 0 ≤ sp.half_files)
    (hwf : ∀ i, 0 ≤ i → i < sp.half_files →
      (sp.file_contents (sp.in_half + i)).first_run ≠ -1 →
      (sp.file_contents (sp.in_half + i)).first_run ≤
        (sp.file_contents (sp.in_half + i)).last_run)
    (hturn : ∃ m c, 0 ≤ m ∧ 0 ≤ c ∧ c ≤ sp.half_files ∧
      ∀ i, 0 ≤ i → i < sp.half_files →
        sort_get_num_file_contents (sp.file_contents (sp.in_half + i)) = turn_runs m c i) :
    sort_get_numpages_of_active_infiles sp = (nonempty_infiles sp : Int) := by
  obtain ⟨m, c, hm0, hc0, hc1, ht⟩ := hturn
  have hcnt := leading_count sp (if 1 ≤ m then sp.half_files else c)
    (by split_ifs <;> omega) (by split_ifs <;> omega) (by
      intro i hi0 hi1
      have h1 := ht i hi0 hi1
      have h2 := hwf i hi0 hi1
      unfold sort_get_num_file_contents turn_runs at h1
      by_cases hf : (sp.file_contents (sp.in_half + i)).first_run = -1
      · rw [if_neg (by simpa using hf)] at h1
        constructor
        · intro hc; exact absurd hf hc
        · intro hlt
          split_ifs at h1 hlt <;> omega
      · rw [if_pos hf] at h1
        have := h2 hf
        constructor
        · intro _
          split_ifs at h1 ⊢ <;> omega
        · intro _; exact hf)
  rw [hcnt.1, hcnt.2]

theorem active_infiles_counts_nonempty_witness :
    sort_get_numpages_of_active_infiles example_merge_param = 2 ∧
    nonempty_infiles example_merge_param = 2 ∧
    sort_get_numpages_of_active_infiles example_merge_param =
      (nonempty_infiles example_merge_param : Int) :=
  ⟨by decide, by decide,
    active_infiles_counts_nonempty example_merge_param (by decide)
      (by
        intro i hi0 hi1 _
        have hi2 : i < 2 := hi1
        have : i = 0 ∨ i = 1 := by omega
        rcases this with h | h <;> subst h <;> decide)
      ⟨1, 1, by decide, by decide, by decide, by
        intro i hi0 hi1
        have hi2 : i < 2 := hi1
        have : i = 0 ∨ i = 1 := by omega
        rcases this with h | h <;> subst h <;> decide⟩⟩

/-- The ledgers after `sort_inphase_sort` has returned `NO_ERROR`: the files with a
run are the first `min tot_runs half_files` ones. -/
theorem flushed_leading (st : ParamState) (sizes : List Int) (hf : Flushed st sizes) :
    ∀ i, 0 ≤ i → i < st.sp.half_files →
      ((st.sp.file_contents (st.sp.in_half + i)).first_run ≠ -1 ↔
        i < min st.tot_runs st.sp.half_files) := by
  intro i hi0 hi1
  have hl := hf.ledgers i.toNat (by omega)
  have e : ((i.toNat : Nat) : Int) = i := by omega
  rw [e] at hl
  rw [hf.in_half, zero_add, ledger_nonempty_iff _ hl.1, hl.2,
    runs_of_file_ne_nil _ _ _ (by omega), ← hf.count]
  omega

theorem merge_pass_end (E : MergeEnv) (hE : EnvSift E) (fuel : Nat) (v : MergeVars)
    (hvl : v.very_last_run = false) (hpub : v.published = [])
    (hms : MergeStart E v.sp v.out_half)
    (hact : sort_get_numpages_of_active_infiles v.sp > 1) :
    (merge_pass E fuel v (sort_get_numpages_of_active_infiles v.sp)).Safe E
      (fun w => ∃ v3, PassEnd E v3 ∧ w = exchange_halves v3) := by
  obtain ⟨n, k, hn1, hcnt, hpass⟩ := pass_start E v hpub hms hact
  unfold merge_pass
  simp only
  have hcnt' : count_num_runs
      (distribute_memory v (sort_get_numpages_of_active_infiles v.sp)).sp
      (sort_get_numpages_of_active_infiles v.sp)
      (sort_get_numpages_of_active_infiles v.sp).toNat
      (distribute_memory v (sort_get_numpages_of_active_infiles v.sp)).sp.in_half 0 = n := hcnt
  rw [hcnt']
  have e2 : mark_last_run (distribute_memory v (sort_get_numpages_of_active_infiles v.sp)) n =
      { distribute_memory v (sort_get_numpages_of_active_infiles v.sp) with
        very_last_run := decide (n = 1) } := by
    unfold mark_last_run
    by_cases h : n = 1
    · rw [if_pos h]
      simp only [h, decide_True]
    · rw [if_neg h]
      simp only [h, decide_False]
      have : (distribute_memory v (sort_get_numpages_of_active_infiles v.sp)).very_last_run =
          false := hvl
      rw [← this]
  rw [e2]
  have hruns := produce_runs_spec E hE fuel k fuel _ n (by omega) (fun _ => hpass)
    (fun h => by omega)
  cases hp : produce_runs E fuel fuel
      { distribute_memory v (sort_get_numpages_of_active_infiles v.sp) with
        very_last_run := decide (n = 1) } n with
  | stop s p =>
    rw [hp] at hruns
    exact hruns
  | next v3 =>
    rw [hp] at hruns
    exact ⟨v3, hruns, rfl⟩
/-- After a pass of the merge the files of the new input half with a run are the
first ones of the half. -/
theorem pass_end_leading (E : MergeEnv) (v3 : MergeVars) (h : PassEnd E v3) :
    ∃ k, 0 ≤ k ∧ k ≤ (exchange_halves v3).sp.half_files ∧
      ∀ i, 0 ≤ i → i < (exchange_halves v3).sp.half_files →
        (((exchange_halves v3).sp.file_contents ((exchange_halves v3).sp.in_half + i)).first_run
          ≠ -1 ↔ i < k) := by
  have hout := pass_end_outer E v3 h
  rcases h with ⟨h1, h2, h3, h4, h5⟩ | ⟨h1, h2, h3, h4, h5, h6, h7, h8, h9⟩
  · refine ⟨1, by omega, by show 1 ≤ v3.sp.half_files; omega, ?_⟩
    intro i hi0 hi1
    show (v3.sp.file_contents (v3.out_half + i)).first_run ≠ -1 ↔ i < 1
    by_cases hi : i = 0
    · rw [hi, add_zero]
      exact ⟨fun _ => by omega, fun _ => h4⟩
    · have := h5 i (by omega) hi1
      constructor
      · intro hc; exact absurd this hc
      · intro hc; omega
  · rcases hout with ⟨a, _⟩ | ⟨_, _, hms⟩
    · have : v3.very_last_run = true := a
      rw [h1] at this
      cases this
    · obtain ⟨m, c, hm0, hc0, hc1, hturn⟩ := hms.turn
      have hhf : (exchange_halves v3).sp.half_files = v3.sp.half_files := rfl
      refine ⟨if 1 ≤ m then v3.sp.half_files else c, by split_ifs <;> omega, ?_, ?_⟩
      · rw [hhf]; split_ifs <;> omega
      · intro i hi0 hi1
        rw [file_runs_first E _ _ (hms.runs i hi0 hi1), hturn i hi0 hi1]
        rw [hhf] at hi1
        unfold turn_runs
        split_ifs <;> omega

/-- C38: the runs go to the temp files in turn. When `sort_inphase_sort`, started
with the first half of the temp files as the input half and with empty ledgers,
returns `NO_ERROR`, the runs it flushed have page counts `sizes`, as many as
`tot_runs` tells, and the ledger of the file `f` holds the runs `k` with
`k % half_files = f` in the order of their flushes; so the files with a run are
the files below `min tot_runs half_files`, and
`sort_get_numpages_of_active_infiles` returns that number, which is the number
of the input files with a run. And when a pass of `sort_exphase_merge_elim_dup`
that starts with runs that went to the input files in turn (`MergeStart`) runs to
its end, the files of the half it wrote to, the input half from then on, with a
run are the first ones of the half, their number is what
`sort_get_numpages_of_active_infiles` returns, and the invariant of the outer loop
holds again. -/
theorem runs_go_to_files_in_turn (W : SortWorld) (fuel : Nat) (option : SORT_DUP_OPTION)
    (st : ParamState) (junk v : InVars)
    (h0 : st.sp.in_half = 0) (hh : 1 ≤ st.sp.half_files)
    (hl : ∀ f : Nat, (f : Int) < st.sp.half_files →
      LedgerWF (st.sp.file_contents (f : Int)) ∧ (st.sp.file_contents (f : Int)).first_run = -1)
    (hin : sort_inphase_sort W fuel option st junk = Flow.stop SortCode.NO_ERROR v)
    (E : MergeEnv) (hE : EnvOK E) (mfuel : Nat) (mv w : MergeVars)
    (hvl : mv.very_last_run = false) (hpub : mv.published = [])
    (hms : MergeStart E mv.sp mv.out_half)
    (hact : sort_get_numpages_of_active_infiles mv.sp > 1)
    (hpass : merge_pass E mfuel mv (sort_get_numpages_of_active_infiles mv.sp) = Step.next w) :
    (∃ sizes : List Int, (sizes.length : Int) = v.st.tot_runs ∧
      (∀ f : Nat, (f : Int) < v.st.sp.half_files →
        live_runs (v.st.sp.file_contents (f : Int)) =
          runs_of_file v.st.sp.half_files.toNat f sizes) ∧
      (∀ i, 0 ≤ i → i < v.st.sp.half_files →
        ((v.st.sp.file_contents i).first_run ≠ -1 ↔ i < min v.st.tot_runs v.st.sp.half_files)) ∧
      sort_get_numpages_of_active_infiles v.st.sp = min v.st.tot_runs v.st.sp.half_files ∧
      sort_get_numpages_of_active_infiles v.st.sp = (nonempty_infiles v.st.sp : Int)) ∧
    ((∃ v3, w = exchange_halves v3) ∧
      (∀ i, 0 ≤ i → i < w.sp.half_files →
        ((w.sp.file_contents (w.sp.in_half + i)).first_run ≠ -1 ↔
          i < sort_get_numpages_of_active_infiles w.sp)) ∧
      sort_get_numpages_of_active_infiles w.sp = (nonempty_infiles w.sp : Int) ∧
      OuterInv E w) := by
  constructor
  · have hd := sort_inphase_sort_dealt W fuel option st junk h0 hh hl
    rw [hin] at hd
    obtain ⟨sizes, hf⟩ := hd rfl
    have hp := flushed_leading v.st sizes hf
    have hc0 : 0 ≤ v.st.tot_runs := by rw [← hf.count]; omega
    have hcnt := leading_count v.st.sp (min v.st.tot_runs v.st.sp.half_files)
      (by have := hf.half; omega) (by omega) hp
    refine ⟨sizes, hf.count, fun f hfl => (hf.ledgers f hfl).2, ?_, hcnt.1, ?_⟩
    · intro i hi0 hi1
      have := hp i hi0 hi1
      rw [hf.in_half, zero_add] at this
      exact this
    · rw [hcnt.1, hcnt.2]
  · have hend := merge_pass_end E hE.sift mfuel mv hvl hpub hms hact
    have hout := merge_pass_spec E hE.sift mfuel mv hvl hpub hms hact
    rw [hpass] at hend hout
    obtain ⟨v3, hpe, hw⟩ := hend
    obtain ⟨k, hk0, hk1, hk⟩ := pass_end_leading E v3 hpe
    rw [← hw] at hk hk1
    have hcnt := leading_count w.sp k hk0 hk1 hk
    refine ⟨⟨v3, hw⟩, ?_, ?_, hout⟩
    · rw [hcnt.1]; exact hk
    · rw [hcnt.1, hcnt.2]
/-- C38 at a concrete input: three long records, each flushed as a run of its
own, go to two temp files in turn; and the first pass of the merge of the runs
`[1, 3]`, `[2, 3]` in the first file and `[2, 3]` in the second one. -/
theorem runs_go_to_files_in_turn_witness :
    example_vars.st.sp.in_half = 0 ∧ 1 ≤ example_vars.st.sp.half_files ∧
    EnvOK example_env ∧
    MergeStart example_env (merge_vars_init example_merge_param merge_vars_ten).sp
      (merge_vars_init example_merge_param merge_vars_ten).out_half ∧
    sort_get_numpages_of_active_infiles (merge_vars_init example_merge_param merge_vars_ten).sp
      > 1 ∧
    ∃ (v : InVars) (w : MergeVars),
      sort_inphase_sort (long_record_world 3 4 3 0) 10 SORT_DUP_OPTION.SORT_DUP
        example_vars.st example_vars = Flow.stop SortCode.NO_ERROR v ∧
      merge_pass example_env 8 (merge_vars_init example_merge_param merge_vars_ten)
        (sort_get_numpages_of_active_infiles
          (merge_vars_init example_merge_param merge_vars_ten).sp) = Step.next w ∧
      v.st.tot_runs = 3 ∧
      (∃ sizes : List Int, (sizes.length : Int) = v.st.tot_runs ∧
        (∀ f : Nat, (f : Int) < v.st.sp.half_files →
          live_runs (v.st.sp.file_contents (f : Int)) =
            runs_of_file v.st.sp.half_files.toNat f sizes) ∧
        (∀ i, 0 ≤ i → i < v.st.sp.half_files →
          ((v.st.sp.file_contents i).first_run ≠ -1 ↔
            i < min v.st.tot_runs v.st.sp.half_files)) ∧
        sort_get_numpages_of_active_infiles v.st.sp = min v.st.tot_runs v.st.sp.half_files ∧
        sort_get_numpages_of_active_infiles v.st.sp = (nonempty_infiles v.st.sp : Int)) ∧
      ((∃ v3, w = exchange_halves v3) ∧
        (∀ i, 0 ≤ i → i < w.sp.half_files →
          ((w.sp.file_contents (w.sp.in_half + i)).first_run ≠ -1 ↔
            i < sort_get_numpages_of_active_infiles w.sp)) ∧
        sort_get_numpages_of_active_infiles w.sp = (nonempty_infiles w.sp : Int) ∧
        OuterInv example_env w) := by
  have hchk : (match sort_inphase_sort (long_record_world 3 4 3 0) 10 SORT_DUP_OPTION.SORT_DUP
        example_vars.st example_vars with
      | Flow.stop SortCode.NO_ERROR _ => true
      | _ => false) = true := by
    decide
  have hruns : (sort_inphase_sort (long_record_world 3 4 3 0) 10 SORT_DUP_OPTION.SORT_DUP
      example_vars.st example_vars).vars.st.tot_runs = 3 := by
    decide
  have hchk2 : (match merge_pass example_env 8
        (merge_vars_init example_merge_param merge_vars_ten)
        (sort_get_numpages_of_active_infiles
          (merge_vars_init example_merge_param merge_vars_ten).sp) with
      | Step.next _ => true
      | _ => false) = true := by
    decide
  have hl : ∀ f : Nat, (f : Int) < example_vars.st.sp.half_files →
      LedgerWF (example_vars.st.sp.file_contents (f : Int)) ∧
        (example_vars.st.sp.file_contents (f : Int)).first_run = -1 := by
    intro f _
    exact ⟨(by decide : LedgerWF (file_contents_init (fun _ => 0))), rfl⟩
  have hact : sort_get_numpages_of_active_infiles
      (merge_vars_init example_merge_param merge_vars_ten).sp > 1 := by decide
  refine ⟨rfl, by decide, example_env_ok, example_merge_start, hact, ?_⟩
  cases hp : merge_pass example_env 8 (merge_vars_init example_merge_param merge_vars_ten)
      (sort_get_numpages_of_active_infiles
        (merge_vars_init example_merge_param merge_vars_ten).sp) with
  | stop s p => rw [hp] at hchk2; cases hchk2
  | next w =>
    cases hf : sort_inphase_sort (long_record_world 3 4 3 0) 10 SORT_DUP_OPTION.SORT_DUP
        example_vars.st example_vars with
    | next v => rw [hf] at hchk; cases hchk
    | leave v => rw [hf] at hchk; cases hchk
    | undefined v => rw [hf] at hchk; cases hchk
    | out_of_fuel v => rw [hf] at hchk; cases hchk
    | stop e v =>
      rw [hf] at hchk hruns
      cases e with
      | NO_ERROR =>
        have h := runs_go_to_files_in_turn (long_record_world 3 4 3 0) 10
          SORT_DUP_OPTION.SORT_DUP example_vars.st example_vars v rfl (by decide) hl hf
          example_env example_env_ok 8 (merge_vars_init example_merge_param merge_vars_ten) w
          rfl rfl example_merge_start hact hp
        exact ⟨v, w, rfl, rfl, hruns, h.1, h.2⟩
      | ER_OUT_OF_VIRTUAL_MEMORY => cases hchk
      | ER_GENERIC_ERROR => cases hchk
      | er_errid => cases hchk
      | put_error c => cases hchk

/-- The inputs other than the input `min`, and what is published, in two states:
the smallest elements and the long records of the other inputs are the same. -/
theorem publish_record_others (E : MergeEnv) (v v1 : MergeVars) (min : Int)
    (h : publish_record E v min = Step.next v1) :
    v1.published = v.published ++
      [if (v.smallest_elem_ptr min).type = RecType.REC_BIGONE then v.long_recdes min
       else { v.smallest_elem_ptr min with data := E.cut_link (v.smallest_elem_ptr min).data }] ∧
    v1.sr_list = v.sr_list ∧ v1.long_recdes = v.long_recdes ∧
    ∀ j, j ≠ min → v1.smallest_elem_ptr j = v.smallest_elem_ptr j := by
  unfold publish_record at h
  simp only [] at h
  split_ifs at h with h1 h2 h2
  · simp only [Step.next.injEq] at h
    rw [← h, if_pos h1]
    exact ⟨rfl, rfl, rfl, fun _ _ => rfl⟩
  · simp only [Step.next.injEq] at h
    rw [← h, if_neg h1]
    refine ⟨rfl, rfl, rfl, fun j hj => ?_⟩
    simp only [aset, if_neg hj]

theorem insert_into_empty_others (E : MergeEnv) (v v1 : MergeVars) (record : RECDES)
    (h : insert_into_empty E v record = Step.next v1) :
    v1.published = v.published ∧ v1.sr_list = v.sr_list ∧ v1.long_recdes = v.long_recdes ∧
      v1.smallest_elem_ptr = v.smallest_elem_ptr := by
  unfold insert_into_empty at h
  split at h
  · cases h
  · simp only [Step.next.injEq] at h
    rw [← h]
    exact ⟨rfl, rfl, rfl, rfl⟩
  · cases h

theorem output_record_others (E : MergeEnv) (v v1 : MergeVars) (min : Int)
    (h : output_record E v min = Step.next v1) :
    v1.published = v.published ∧ v1.sr_list = v.sr_list ∧ v1.long_recdes = v.long_recdes ∧
      v1.smallest_elem_ptr = v.smallest_elem_ptr := by
  unfold output_record at h
  simp only [] at h
  split at h
  · cases h
  · simp only [Step.next.injEq] at h
    rw [← h]
    exact ⟨rfl, rfl, rfl, rfl⟩
  · split_ifs at h
    · have := insert_into_empty_others E _ v1 _ h
      exact this
    · have := insert_into_empty_others E _ v1 _ h
      exact this

theorem advance_input_others (v : MergeVars) (min : Int) :
    (advance_input v min).1.published = v.published ∧
      (advance_input v min).1.sr_list = v.sr_list ∧
      (advance_input v min).1.long_recdes = v.long_recdes ∧
      (advance_input v min).1.smallest_elem_ptr = v.smallest_elem_ptr := by
  unfold advance_input
  simp only
  split_ifs <;> exact ⟨rfl, rfl, rfl, rfl⟩

theorem fetch_smallest_others (E : MergeEnv) (v v1 : MergeVars) (i : Int)
    (h : fetch_smallest E v i = Step.next v1) :
    v1.published = v.published ∧ v1.sr_list = v.sr_list ∧
      (∀ j, j ≠ i → v1.long_recdes j = v.long_recdes j) ∧
      ∀ j, j ≠ i → v1.smallest_elem_ptr j = v.smallest_elem_ptr j := by
  unfold fetch_smallest at h
  simp only [] at h
  split_ifs at h
  · split at h
    · cases h
    · simp only [Step.next.injEq] at h
      rw [← h]
      refine ⟨rfl, rfl, fun j hj => ?_, fun j hj => ?_⟩ <;> simp only [aset, if_neg hj]
  · simp only [Step.next.injEq] at h
    rw [← h]
    refine ⟨rfl, rfl, fun j hj => rfl, fun j hj => ?_⟩
    simp only [aset, if_neg hj]

theorem link_last_element_comparison_others (E : MergeEnv) (v v1 : LinkVars)
    (h : link_last_element_comparison E v = Step.next v1) :
    v1.vars.published = v.vars.published ∧ v1.vars.sr_list = v.vars.sr_list ∧
      v1.vars.long_recdes = v.vars.long_recdes ∧
      v1.vars.smallest_elem_ptr = v.vars.smallest_elem_ptr := by
  unfold link_last_element_comparison at h
  split at h
  · rename_i min_p p t hl
    simp only [] at h
    by_cases h1 : (sort_spage_get_record E.env
      (v.vars.sp.internal_memory (v.vars.in_cur_bufaddr min_p.rec_pos))
      (v.vars.last_slot min_p.rec_pos - 1) v.vars.last_elem_ptr PeekMode.PEEK).1 ≠
        SCAN_CODE.S_SUCCESS
    · rw [if_pos h1] at h
      cases h
    · rw [if_neg h1] at h
      split at h
      · cases h
      · simp only [Step.next.injEq] at h
        rw [← h]
        exact ⟨rfl, rfl, rfl, rfl⟩
  · simp only [Step.next.injEq] at h
    rw [← h]
    exact ⟨rfl, rfl, rfl, rfl⟩

/-- The loop `find minimum` of `sort_exphase_merge` keeps every node of the
list. -/
theorem link_find_minimum_from_perm (E : MergeEnv) (v : MergeVars) (s : SORT_REC_LIST) :
    ∀ l : List SORT_REC_LIST, List.Perm (link_find_minimum_from E v s l) (s :: l) := by
  intro l
  induction l with
  | nil => exact List.Perm.refl _
  | cons p rest ih =>
    simp only [link_find_minimum_from]
    split_ifs
    · exact (List.Perm.cons p ih).trans (List.Perm.swap s p rest)
    · exact List.Perm.refl _

theorem link_enter_record_others (E : MergeEnv) (v3 w : LinkVars) (min_p : SORT_REC_LIST)
    (rest : List SORT_REC_LIST) (b : Bool)
    (h : link_enter_record E v3 min_p rest = Step.next (w, b)) :
    w.vars.published = v3.vars.published ∧ List.Perm w.vars.sr_list (min_p :: rest) ∧
      w.vars.long_recdes = v3.vars.long_recdes ∧
      w.vars.smallest_elem_ptr = v3.vars.smallest_elem_ptr := by
  unfold link_enter_record at h
  split_ifs at h
  · simp only [Step.next.injEq, Prod.mk.injEq] at h
    rw [← h.1]
    exact ⟨rfl, List.Perm.refl _, rfl, rfl⟩
  · simp only [] at h
    have hperm : List.Perm (link_find_minimum E v3.vars (min_p :: rest)) (min_p :: rest) :=
      link_find_minimum_from_perm E v3.vars min_p rest
    split at h
    · simp only [Step.next.injEq, Prod.mk.injEq] at h
      rw [← h.1]
      exact ⟨rfl, hperm, rfl, rfl⟩
    · split_ifs at h
      · split at h
        · cases h
        · rename_i v5 hv5
          simp only [Step.next.injEq, Prod.mk.injEq] at h
          obtain ⟨q1, q2, q3, q4⟩ := link_last_element_comparison_others E _ v5 hv5
          rw [← h.1]
          exact ⟨q1, by rw [q2]; exact hperm, q3, q4⟩
      · simp only [Step.next.injEq, Prod.mk.injEq] at h
        rw [← h.1]
        exact ⟨rfl, hperm, rfl, rfl⟩

theorem link_proceed_input_others (E : MergeEnv) (v1 w : LinkVars) (min_p : SORT_REC_LIST)
    (rest : List SORT_REC_LIST) (b : Bool)
    (h : link_proceed_input E v1 min_p rest = Step.next (w, b)) :
    w.vars.published = v1.vars.published ∧ (∀ n ∈ rest, n ∈ w.vars.sr_list) ∧
      (∀ j, j ≠ min_p.rec_pos → w.vars.long_recdes j = v1.vars.long_recdes j) ∧
      ∀ j, j ≠ min_p.rec_pos → w.vars.smallest_elem_ptr j = v1.vars.smallest_elem_ptr j := by
  obtain ⟨a1, a2, a3, a4⟩ := advance_input_others v1.vars min_p.rec_pos
  unfold link_proceed_input at h
  simp only [link_advance_input] at h
  by_cases hfin : (advance_input v1.vars min_p.rec_pos).2 = true
  · rw [if_pos hfin] at h
    cases rest with
    | nil =>
      simp only [Step.next.injEq, Prod.mk.injEq] at h
      rw [← h.1]
      exact ⟨a1, fun n hn => absurd hn (List.not_mem_nil n), fun j _ => by rw [← a3],
        fun j _ => by rw [← a4]⟩
    | cons p t =>
      simp only [Step.next.injEq, Prod.mk.injEq] at h
      rw [← h.1]
      exact ⟨a1, fun n hn => hn, fun j _ => by rw [← a3], fun j _ => by rw [← a4]⟩
  · rw [if_neg hfin] at h
    cases hv3 : fetch_smallest E (advance_input v1.vars min_p.rec_pos).1 min_p.rec_pos with
    | stop k p =>
      rw [hv3] at h
      cases h
    | next v3 =>
      rw [hv3] at h
      simp only [] at h
      obtain ⟨f1, f2, f3, f4⟩ := fetch_smallest_others E _ v3 _ hv3
      obtain ⟨e1, e2, e3, e4⟩ := link_enter_record_others E _ w min_p rest b h
      refine ⟨by rw [e1]; exact f1.trans a1, fun n hn => ?_, fun j hj => ?_, fun j hj => ?_⟩
      · exact e2.symm.subset (List.mem_cons_of_mem _ hn)
      · rw [e3]
        show v3.long_recdes j = _
        rw [f3 j hj, a3]
      · rw [e4]
        show v3.smallest_elem_ptr j = _
        rw [f4 j hj, a4]
/-- C33, the counterexample: from two input files that each hold the run of the
keys 2 and 3, `sort_exphase_merge` publishes four records; the records that
compare equal are published one after the other, each as a record of its own. -/
theorem link_merge_separate_counterexample :
    (link_finished (sort_exphase_merge example_env 8 link_equal_param link_vars_ten)).map
        (List.map (fun r => r.data)) = some [[2], [2], [3], [3]] ∧
      example_env.compare [2] [2] = 0 := by
  decide

/-- C33, amended: `sort_exphase_merge` appends no record to a list of
duplicates; every pass of its loop `for (;;)` that runs to its end sends out the
record of the first node of the list as a record of its own, whatever the records
of the other nodes compare to: in the very last run exactly that record is
handed to `put_fn` (a long record as retrieved, any other one with its link cut
off), in another run nothing is handed to `put_fn` and the record goes to
`sort_spage_insert` through the output section; and every other node stays in the
list, with the smallest element and the long record of its input as they were, so
a record that compares equal is sent out by a later pass. -/
theorem link_iteration_sends_head (E : MergeEnv) (v w : LinkVars) (min_p : SORT_REC_LIST)
    (rest : List SORT_REC_LIST) (b : Bool) (hl : v.vars.sr_list = min_p :: rest)
    (h : link_merge_iteration E v = Step.next (w, b)) :
    (v.vars.very_last_run = true →
      w.vars.published = v.vars.published ++
        [if (v.vars.smallest_elem_ptr min_p.rec_pos).type = RecType.REC_BIGONE then
           v.vars.long_recdes min_p.rec_pos
         else { v.vars.smallest_elem_ptr min_p.rec_pos with
                data := E.cut_link (v.vars.smallest_elem_ptr min_p.rec_pos).data }]) ∧
    (v.vars.very_last_run = false →
      w.vars.published = v.vars.published ∧
        ∃ v1, output_record E v.vars min_p.rec_pos = Step.next v1) ∧
    (∀ n ∈ rest, n ∈ w.vars.sr_list) ∧
    ∀ j, j ≠ min_p.rec_pos →
      w.vars.smallest_elem_ptr j = v.vars.smallest_elem_ptr j ∧
        w.vars.long_recdes j = v.vars.long_recdes j := by
  unfold link_merge_iteration at h
  rw [hl] at h
  simp only [] at h
  cases he : link_emit_record E v.vars min_p with
  | stop k p =>
    rw [he] at h
    cases h
  | next v1 =>
    rw [he] at h
    simp only [] at h
    obtain ⟨p1, p2, p3, p4⟩ := link_proceed_input_others E _ w min_p rest b h
    unfold link_emit_record at he
    cases hv : v.vars.very_last_run with
    | true =>
      rw [hv] at he
      simp only [if_true] at he
      obtain ⟨q1, q2, q3, q4⟩ := publish_record_others E v.vars v1 _ he
      refine ⟨fun _ => (by rw [p1]; exact q1), fun hc => (by cases hc), p2, fun j hj => ?_⟩
      exact ⟨(p4 j hj).trans (q4 j hj), (p3 j hj).trans (by rw [← q3])⟩
    | false =>
      rw [hv] at he
      simp only [Bool.false_eq_true, if_false] at he
      obtain ⟨q1, q2, q3, q4⟩ := output_record_others E v.vars v1 _ he
      refine ⟨fun hc => (by cases hc), fun _ => ⟨(by rw [p1]; exact q1), v1, he⟩, p2,
        fun j hj => ?_⟩
      exact ⟨(p4 j hj).trans (by rw [← q4]), (p3 j hj).trans (by rw [← q3])⟩

/-- C33 at a concrete input: the first pass of the loop over the runs of the keys
2 and 3 in two input files, in the very last run; both smallest elements are
records of the key 2, one is published and the node of the other one stays in
the list. -/
theorem link_iteration_sends_head_witness :
    link_equal_vars.vars.sr_list =
      [{ rec_pos := 0, is_duplicated := false }, { rec_pos := 1, is_duplicated := false }] ∧
    link_equal_vars.vars.very_last_run = true ∧
    example_env.compare (link_equal_vars.vars.data 0) (link_equal_vars.vars.data 1) = 0 ∧
    ∃ (w : LinkVars) (b : Bool), link_merge_iteration example_env link_equal_vars =
        Step.next (w, b) ∧
      w.vars.published = link_equal_vars.vars.published ++
        [{ link_equal_vars.vars.smallest_elem_ptr 0 with
           data := example_env.cut_link (link_equal_vars.vars.smallest_elem_ptr 0).data }] ∧
      ({ rec_pos := 1, is_duplicated := false } : SORT_REC_LIST) ∈ w.vars.sr_list ∧
      w.vars.smallest_elem_ptr 1 = link_equal_vars.vars.smallest_elem_ptr 1 := by
  have hl : link_equal_vars.vars.sr_list =
      [{ rec_pos := 0, is_duplicated := false }, { rec_pos := 1, is_duplicated := false }] := by
    decide
  have hchk : (match link_merge_iteration example_env link_equal_vars with
      | Step.next _ => true
      | _ => false) = true := by
    decide
  refine ⟨hl, by decide, by decide, ?_⟩
  cases hf : link_merge_iteration example_env link_equal_vars with
  | stop k p => rw [hf] at hchk; cases hchk
  | next r =>
    obtain ⟨w, b⟩ := r
    have h := link_iteration_sends_head example_env link_equal_vars w
      { rec_pos := 0, is_duplicated := false } [{ rec_pos := 1, is_duplicated := false }] b hl hf
    refine ⟨w, b, rfl, ?_, h.2.2.1 _ (List.mem_singleton.2 rfl), (h.2.2.2 1 (by decide)).1⟩
    have h1 := h.1 (by decide)
    rw [h1]
    rfl

theorem find_minimum_from_cover (E : MergeEnv) (v : MergeVars) (s : SORT_REC_LIST) :
    ∀ rest : List SORT_REC_LIST,
      s ∈ find_minimum_from E v s rest ∧
      (∀ n ∈ rest, n ∈ find_minimum_from E v s rest ∨
        ({ n with is_duplicated := true } ∈ find_minimum_from E v s rest ∧
          E.compare (v.data s.rec_pos) (v.data n.rec_pos) = 0)) ∧
      ∀ m ∈ find_minimum_from E v s rest, m.rec_pos = s.rec_pos ∨
        ∃ n ∈ rest, n.rec_pos = m.rec_pos := by
  intro rest
  induction rest with
  | nil =>
    refine ⟨List.mem_singleton.2 rfl, ?_, ?_⟩
    · intro n hn; cases hn
    · intro m hm
      left
      rw [List.mem_singleton.1 hm]
  | cons p rest ih =>
    unfold find_minimum_from
    by_cases h1 : E.compare (v.data s.rec_pos) (v.data p.rec_pos) > 0
    · rw [if_pos h1]
      refine ⟨List.mem_cons_of_mem _ ih.1, ?_, ?_⟩
      · intro n hn
        rcases List.mem_cons.1 hn with e | hn'
        · left; rw [e]; exact List.mem_cons_self _ _
        · rcases ih.2.1 n hn' with q | ⟨q1, q2⟩
          · left; exact List.mem_cons_of_mem _ q
          · right; exact ⟨List.mem_cons_of_mem _ q1, q2⟩
      · intro m hm
        rcases List.mem_cons.1 hm with e | hm'
        · right; exact ⟨p, List.mem_cons_self _ _, by rw [e]⟩
        · rcases ih.2.2 m hm' with q | ⟨n, q1, q2⟩
          · left; exact q
          · right; exact ⟨n, List.mem_cons_of_mem _ q1, q2⟩
    · rw [if_neg h1]
      by_cases h2 : E.compare (v.data s.rec_pos) (v.data p.rec_pos) = 0
      · rw [if_pos h2]
        refine ⟨List.mem_cons_self _ _, ?_, ?_⟩
        · intro n hn
          rcases List.mem_cons.1 hn with e | hn'
          · right
            rw [e]
            exact ⟨List.mem_cons_of_mem _ (List.mem_cons_self _ _), h2⟩
          · left; exact List.mem_cons_of_mem _ (List.mem_cons_of_mem _ hn')
        · intro m hm
          rcases List.mem_cons.1 hm with e | hm'
          · left; rw [e]
          · rcases List.mem_cons.1 hm' with e | hm2
            · right; exact ⟨p, List.mem_cons_self _ _, by rw [e]⟩
            · right; exact ⟨m, List.mem_cons_of_mem _ hm2, rfl⟩
      · rw [if_neg h2]
        refine ⟨List.mem_cons_self _ _, ?_, ?_⟩
        · intro n hn
          left
          exact List.mem_cons_of_mem _ hn
        · intro m hm
          rcases List.mem_cons.1 hm with e | hm'
          · left; rw [e]
          · right; exact ⟨m, hm', rfl⟩

theorem Covered_congr (E : MergeEnv) (hord : DataOrder E.compare) (v : MergeVars)
    (EM : List (List Byte)) (k k1 : List Byte) (he : E.compare k k1 = 0)
    (h : Covered E v EM k) : Covered E v EM k1 := by
  rcases h with ⟨l, hl, hc⟩ | ⟨n, hn, hf, hc⟩
  · exact Or.inl ⟨l, hl, hord.trans_eq _ _ _ hc he⟩
  · exact Or.inr ⟨n, hn, hf, hord.trans_eq _ _ _ hc he⟩

/-- A key that compares equal to a record of a list in strictly ascending order
compares equal to exactly one of its records. -/
theorem filter_eqv_length (compare : List Byte → List Byte → Int) (hord : DataOrder compare)
    (k : List Byte) :
    ∀ EM : List (List Byte), EM.Pairwise (fun a b => compare a b < 0) →
      (∃ l ∈ EM, compare l k = 0) →
      (EM.filter (fun x => decide (compare x k = 0))).length = 1 := by
  intro EM
  induction EM with
  | nil =>
    rintro _ ⟨l, hl, _⟩
    cases hl
  | cons a EM ih =>
    intro hasc hex
    obtain ⟨ha, hasc'⟩ := List.pairwise_cons.1 hasc
    by_cases hak : compare a k = 0
    · have hnil : EM.filter (fun x => decide (compare x k = 0)) = [] := by
        rw [List.filter_eq_nil_iff]
        intro b hb hc
        have hbk : compare b k = 0 := of_decide_eq_true hc
        have hab := hord.trans_eq a k b hak (hord.eqv_symm hbk)
        have := ha b hb
        omega
      rw [List.filter_cons_of_pos (by simpa using hak), hnil]
      rfl
    · rw [List.filter_cons_of_neg (by simpa using hak)]
      apply ih hasc'
      obtain ⟨l, hl, hc⟩ := hex
      rcases List.mem_cons.1 hl with e | hl'
      · rw [e] at hc; exact absurd hc hak
      · exact ⟨l, hl', hc⟩

/-- The keys accounted for before a pass of the loop are accounted for after
it: `t` are the nodes behind the first node `h` of the list, whose record is sent
out unless it is marked as duplicated. -/
theorem cover_transfer (E : MergeEnv) (hord : DataOrder E.compare) (v w : MergeVars)
    (EM EM1 : List (List Byte)) (h : SORT_REC_LIST) (t : List SORT_REC_LIST)
    (hl : v.sr_list = h :: t)
    (hsent : (h.is_duplicated = false ∧ ∃ kk, EM1 = EM ++ [kk] ∧
        (∀ x, E.compare kk x = E.compare (v.data h.rec_pos) x) ∧
        (∀ x, E.compare x kk = E.compare x (v.data h.rec_pos))) ∨
      (h.is_duplicated = true ∧ EM1 = EM))
    (hdata : ∀ n ∈ t, w.data n.rec_pos = v.data n.rec_pos)
    (hkeep : ∀ n ∈ t, n.is_duplicated = false → n ∈ w.sr_list ∨
      ∃ s ∈ w.sr_list, s.is_duplicated = false ∧
        E.compare (w.data s.rec_pos) (w.data n.rec_pos) = 0)
    (k : List Byte) (hc : Covered E v EM k) : Covered E w EM1 k := by
  have hsub : ∀ l ∈ EM, l ∈ EM1 := by
    intro l hlm
    rcases hsent with ⟨_, kk, e, _⟩ | ⟨_, e⟩
    · rw [e]; exact List.mem_append_left _ hlm
    · rw [e]; exact hlm
  rcases hc with ⟨l, hlm, hc⟩ | ⟨n, hn, hf, hc⟩
  · exact Or.inl ⟨l, hsub l hlm, hc⟩
  · rw [hl] at hn
    rcases List.mem_cons.1 hn with e | hn'
    · rw [e] at hf hc
      rcases hsent with ⟨_, kk, e1, k1, _⟩ | ⟨hd, _⟩
      · left
        refine ⟨kk, by rw [e1]; exact List.mem_append_right _ (List.mem_singleton.2 rfl), ?_⟩
        rw [k1]; exact hc
      · rw [hd] at hf; cases hf
    · rw [← hdata n hn'] at hc
      rcases hkeep n hn' hf with q | ⟨s, hs, hsf, hsc⟩
      · exact Or.inr ⟨n, q, hf, hc⟩
      · exact Or.inr ⟨s, hs, hsf, hord.trans_eq _ _ _ hsc hc⟩

/-- The invariant of the records of the inputs after a pass of the loop, in
which the input `h.rec_pos` of the first node moved on. -/
theorem cover_assemble (E : MergeEnv) (R : Int → List RECDES)
    (v w : MergeVars) (EM EM1 : List (List Byte)) (h : SORT_REC_LIST)
    (t : List SORT_REC_LIST) (hl : v.sr_list = h :: t) (hcov : CoverInv E R v EM)
    (htr : ∀ k, Covered E v EM k → Covered E w EM1 k)
    (hact : w.act_infiles = v.act_infiles)
    (hdata : ∀ n ∈ t, w.data n.rec_pos = v.data n.rec_pos)
    (hpos : ∀ n ∈ t, ∃ n1 ∈ w.sr_list, n1.rec_pos = n.rec_pos)
    (hrest : ∀ n ∈ t, in_rest w n.rec_pos = in_rest v n.rec_pos)
    (hsub : ∀ n ∈ w.sr_list, n.rec_pos = h.rec_pos ∨ ∃ n0 ∈ t, n0.rec_pos = n.rec_pos)
    (hnew : ∀ n ∈ w.sr_list, n.rec_pos = h.rec_pos → Covered E w EM1 (w.data h.rec_pos))
    (hmin : in_rest v h.rec_pos = [] ∨
      ∃ r0, in_rest v h.rec_pos = r0 :: in_rest w h.rec_pos ∧ E.key r0 = w.data h.rec_pos ∧
        ∃ s ∈ w.sr_list, s.rec_pos = h.rec_pos) :
    CoverInv E R w EM1 := by
  refine ⟨?_, ?_⟩
  · intro n hn
    rcases hsub n hn with e | ⟨n0, hn0, e⟩
    · rw [e]; exact hnew n hn e
    · rw [← e, hdata n0 hn0]
      exact htr _ (hcov.nodes n0 (by rw [hl]; exact List.mem_cons_of_mem _ hn0))
  · intro i hi0 hi1 r hr
    rw [hact] at hi1
    rcases hcov.recs i hi0 hi1 r hr with ⟨⟨n, hn, e⟩, hin⟩ | hc
    · rw [hl] at hn
      rcases List.mem_cons.1 hn with e1 | hn'
      · rw [e1] at e
        rw [← e] at hin
        rcases hmin with hm | ⟨r0, hm, hk, s, hs, hsp⟩
        · rw [hm] at hin; cases hin
        · rw [hm] at hin
          rcases List.mem_cons.1 hin with e2 | hin'
          · right
            rw [e2, hk]
            exact hnew s hs hsp
          · left
            rw [← e]
            exact ⟨⟨s, hs, hsp⟩, hin'⟩
      · left
        obtain ⟨n1, hn1, e1⟩ := hpos n hn'
        rw [← e, ← hrest n hn'] at hin
        rw [← e]
        exact ⟨⟨n1, hn1, e1⟩, hin⟩
    · right
      exact htr _ hc

theorem RunLoopInv.sent (E : MergeEnv) (v : MergeVars) (EM : List (List Byte))
    (h : RunLoopInv E v EM) : EM = sent_keys E v := by
  unfold sent_keys
  cases hv : v.very_last_run with
  | true => rw [if_pos rfl]; exact (h.pub hv).keys
  | false => rw [if_neg (by simp)]; exact (h.out hv).keys

theorem RunLoopInv.sent_asc (E : MergeEnv) (v : MergeVars) (EM : List (List Byte))
    (h : RunLoopInv E v EM) : EM.Pairwise (fun a b => E.compare a b < 0) := by
  cases hv : v.very_last_run with
  | true =>
    rw [(h.pub hv).keys, List.pairwise_map]
    exact (h.pub hv).asc
  | false =>
    rw [(h.out hv).keys, List.pairwise_map]
    exact (h.out hv).asc

/-- What `enter_record` leaves of the state, and the list it ends with. -/
theorem enter_record_shape (E : MergeEnv) (v3 : MergeVars) (h : SORT_REC_LIST)
    (t : List SORT_REC_LIST) (r : MergeVars × Bool)
    (hr : enter_record E v3 h t = Step.next r) :
    r.1 = { v3 with sr_list := r.1.sr_list, last_elem_ptr := r.1.last_elem_ptr,
                    last_long_recdes := r.1.last_long_recdes,
                    last_elem_cmp := r.1.last_elem_cmp } ∧
    ((v3.last_elem_cmp ≤ 0 ∧ r.1.last_elem_cmp = v3.last_elem_cmp ∧
        r.1.sr_list = { h with is_duplicated := (decide
          (v3.act_slot h.rec_pos = v3.last_slot h.rec_pos - 1 ∧ v3.last_elem_cmp = 0)) }
          :: t) ∨
      (¬ v3.last_elem_cmp ≤ 0 ∧
        r.1.sr_list = find_minimum_from E v3 { h with is_duplicated := false } t)) := by
  unfold enter_record at hr
  simp only at hr
  by_cases hle : v3.last_elem_cmp ≤ 0
  · rw [if_pos hle] at hr
    cases hr
    exact ⟨rfl, Or.inl ⟨hle, rfl, rfl⟩⟩
  · rw [if_neg hle] at hr
    have hdf : decide (v3.act_slot h.rec_pos = v3.last_slot h.rec_pos - 1 ∧
        v3.last_elem_cmp = 0) = false := by
      apply decide_eq_false
      intro hc
      omega
    rw [hdf] at hr
    have hfm : find_minimum E v3 ({ h with is_duplicated := false } :: t) =
        find_minimum_from E v3 { h with is_duplicated := false } t := rfl
    rw [hfm] at hr
    generalize find_minimum_from E v3 { h with is_duplicated := false } t = fm at hr ⊢
    rcases fm with _ | ⟨h2, t2⟩
    · simp only at hr
      cases hr
      exact ⟨rfl, Or.inr ⟨hle, rfl⟩⟩
    · simp only at hr
      split_ifs at hr
      · cases hlec : last_element_comparison E { v3 with sr_list := h2 :: t2 } with
        | stop w p => rw [hlec] at hr; cases hr
        | next v5 =>
          rw [hlec] at hr
          simp only at hr
          cases hr
          obtain ⟨q1, _, _⟩ := last_element_comparison_spec E _ v5 hlec
          have e_sr : v5.sr_list = h2 :: t2 := by rw [q1]
          refine ⟨?_, Or.inr ⟨hle, e_sr⟩⟩
          show v5 = _
          conv_lhs => rw [q1]
          rw [e_sr]
      · cases hr
        exact ⟨rfl, Or.inr ⟨hle, rfl⟩⟩

/-- The records that the input of a node behind the first one still has are
the same after the record of the first node is sent out and its input moves
on. -/
theorem in_rest_other (E : MergeEnv) (v v1 v3 : MergeVars) (EM EM1 : List (List Byte))
    (h : SORT_REC_LIST) (t : List SORT_REC_LIST) (hinv : RunLoopInv E v EM)
    (hl : v.sr_list = h :: t) (hpost : EmitPost E v v1 h.rec_pos EM1)
    (hadv : AdvFrame v1 v3 h.rec_pos) (n : SORT_REC_LIST) (hn : n ∈ t) :
    n.rec_pos ≠ h.rec_pos ∧ 0 ≤ n.rec_pos ∧ n.rec_pos < v.act_infiles ∧
      in_rest v3 n.rec_pos = in_rest v n.rec_pos ∧ v3.data n.rec_pos = v.data n.rec_pos := by
  have hnd : (v.sr_list.map (fun n => n.rec_pos)).Nodup := hinv.order.nodup
  rw [hl] at hnd
  simp only [List.map_cons] at hnd
  have hnd1 := (List.nodup_cons.1 hnd).1
  have hne : n.rec_pos ≠ h.rec_pos := by
    intro e
    exact hnd1 (by rw [← e]; exact List.mem_map_of_mem _ hn)
  obtain ⟨n0, n1, hnode⟩ := hinv.nodes n (by rw [hl]; exact List.mem_cons_of_mem _ hn)
  obtain ⟨h0, h1, _⟩ := hinv.nodes h (by rw [hl]; exact List.mem_cons_self _ _)
  have hhf := hinv.layout.act.2
  have hl1 : Layout v1 := Layout_frame v v1 hpost.static hinv.layout
  have hsi := hpost.inputs n.rec_pos n0 n1 hne
  have hsf := hpost.files n.rec_pos n0 (by omega)
  have hnode1 : NodeOK E v1 n.rec_pos := NodeOK_frame E v v1 _ hpost.static hsi hsf hnode
  have hsi2 := hadv.same_input hl1 h0 (by rw [hpost.static.act_infiles]; exact h1) n.rec_pos n0
    (by rw [hpost.static.act_infiles]; exact n1) hne
  have hsf2 := hadv.same_file (v1.sp.in_half + n.rec_pos) (by omega)
  refine ⟨hne, n0, n1, ?_, emitted_data E v v1 v3 h.rec_pos EM1 hpost hadv n.rec_pos n0 n1 hne⟩
  rw [in_rest_frame v1 v3 _ hadv.static hsi2 hsf2
      ⟨hnode1.input.bufno.1, hnode1.input.bufno.2.2⟩ hnode1.input.addr,
    in_rest_frame v v1 _ hpost.static hsi hsf
      ⟨hnode.input.bufno.1, hnode.input.bufno.2.2⟩ hnode.input.addr]

/-- One pass of the loop that outputs the records of a run keeps the invariant
of the records of the inputs. -/
theorem merge_iteration_cover (E : MergeEnv) (hE : EnvOK E) (R : Int → List RECDES)
    (v : MergeVars) (EM : List (List Byte)) (hinv : RunLoopInv E v EM)
    (hcov : CoverInv E R v EM) (r : MergeVars × Bool)
    (hm : merge_iteration E v = Step.next r) :
    ∃ EM1, RunLoopInv E r.1 EM1 ∧ CoverInv E R r.1 EM1 := by
  unfold merge_iteration at hm
  cases hl : v.sr_list with
  | nil => rw [hl] at hm; cases hm
  | cons h t =>
    rw [hl] at hm
    simp only at hm
    have hem := emit_record_spec E hE.sift v EM hinv h t hl
    cases hemit : emit_record E v h with
    | stop w p => rw [hemit] at hm; cases hm
    | next v1 =>
      rw [hemit] at hem hm
      obtain ⟨EM1, hpost, htail, hlow, hsent⟩ := hem
      simp only at hm
      unfold proceed_input at hm
      simp only at hm
      rcases advance_fetch_spec E v1 h.rec_pos (v.data h.rec_pos) hpost.input with
        ⟨a2, hadv, hlc1, hnp, hnil⟩ | ⟨a2, hf⟩
      · rw [a2] at hm
        simp only [if_true] at hm
        obtain ⟨r1, r2⟩ := close_done E v v1 EM EM1 h t hinv hl hpost htail a2 hadv hlc1 hnp
        have hw : r.1 = { (advance_input v1 h.rec_pos).1 with sr_list := t } := by
          cases t with
          | nil => cases hm; rfl
          | cons p t' => cases hm; rfl
        rw [hw]
        refine ⟨EM1, r1, ?_⟩
        have hoth := in_rest_other E v v1 (advance_input v1 h.rec_pos).1 EM EM1 h t hinv hl
          hpost hadv
        have htr := cover_transfer E hE.order v
          { (advance_input v1 h.rec_pos).1 with sr_list := t } EM EM1 h t hl hsent
          (fun n hn => (hoth n hn).2.2.2.2) (fun n hn _ => Or.inl hn)
        refine cover_assemble E R v _ EM EM1 h t hl hcov htr ?_ ?_ ?_ ?_ ?_ ?_ ?_
        · exact hadv.static.act_infiles.trans hpost.static.act_infiles
        · exact fun n hn => (hoth n hn).2.2.2.2
        · exact fun n hn => ⟨n, hn, rfl⟩
        · exact fun n hn => (hoth n hn).2.2.2.1
        · exact fun n hn => Or.inr ⟨n, hn, rfl⟩
        · intro n hn e
          exact absurd e (hoth n hn).1
        · left
          rw [← hpost.rest]
          exact hnil
      · rw [a2] at hm
        simp only [Bool.false_eq_true, if_false] at hm
        cases hfs : fetch_smallest E (advance_input v1 h.rec_pos).1 h.rec_pos with
        | stop w p => rw [hfs] at hm; cases hm
        | next v3 =>
          rw [hfs] at hm
          simp only at hm
          obtain ⟨hadv, hnode, hklt, hsame, hrest3⟩ := hf v3 hfs
          have hsp := enter_record_spec E hE.sift v v1 v3 EM EM1 h t hinv hl hpost htail hlow hadv
            hnode hklt hsame
          rw [hm] at hsp
          obtain ⟨q1, q2, q3⟩ := hsp
          obtain ⟨hshape, hlist⟩ := enter_record_shape E v3 h t r hm
          have e_d : r.1.data = v3.data := by rw [hshape]; rfl
          have e_rest : ∀ i, in_rest r.1 i = in_rest v3 i := by
            intro i; rw [hshape]; rfl
          have e_act : r.1.act_infiles = v3.act_infiles := by rw [hshape]
          have hoth := in_rest_other E v v1 v3 EM EM1 h t hinv hl hpost hadv
          have hdata : ∀ n ∈ t, r.1.data n.rec_pos = v.data n.rec_pos := by
            intro n hn
            rw [e_d]
            exact (hoth n hn).2.2.2.2
          -- the nodes of the list after the pass
          have hfacts : (∃ s ∈ r.1.sr_list, s.rec_pos = h.rec_pos) ∧
              (∀ n ∈ t, n.is_duplicated = false → n ∈ r.1.sr_list ∨
                ∃ s ∈ r.1.sr_list, s.is_duplicated = false ∧
                  E.compare (r.1.data s.rec_pos) (r.1.data n.rec_pos) = 0) ∧
              (∀ n ∈ t, ∃ n1 ∈ r.1.sr_list, n1.rec_pos = n.rec_pos) ∧
              (∀ n ∈ r.1.sr_list, n.rec_pos = h.rec_pos ∨
                ∃ n0 ∈ t, n0.rec_pos = n.rec_pos) := by
            rcases hlist with ⟨_, _, e⟩ | ⟨_, e⟩
            · rw [e]
              refine ⟨⟨_, List.mem_cons_self _ _, rfl⟩,
                fun n hn _ => Or.inl (List.mem_cons_of_mem _ hn),
                fun n hn => ⟨n, List.mem_cons_of_mem _ hn, rfl⟩, ?_⟩
              intro n hn
              rcases List.mem_cons.1 hn with e1 | hn'
              · left; rw [e1]
              · right; exact ⟨n, hn', rfl⟩
            · obtain ⟨c1, c2, c3⟩ := find_minimum_from_cover E v3
                { h with is_duplicated := false } t
              rw [e]
              refine ⟨⟨_, c1, rfl⟩, ?_, ?_, ?_⟩
              · intro n hn _
                rcases c2 n hn with c | ⟨_, c⟩
                · exact Or.inl c
                · right
                  refine ⟨_, c1, rfl, ?_⟩
                  rw [e_d]
                  exact c
              · intro n hn
                rcases c2 n hn with c | ⟨c, _⟩
                · exact ⟨n, c, rfl⟩
                · exact ⟨_, c, rfl⟩
              · intro n hn
                exact c3 n hn
          obtain ⟨f1, f2, f3, f4⟩ := hfacts
          have htr := cover_transfer E hE.order v r.1 EM EM1 h t hl hsent hdata f2
          -- the record that entered is accounted for
          have hnew : Covered E r.1 EM1 (r.1.data h.rec_pos) := by
            rcases hlist with ⟨hle, elc, e⟩ | ⟨_, e⟩
            · by_cases hd : v3.act_slot h.rec_pos = v3.last_slot h.rec_pos - 1 ∧
                  v3.last_elem_cmp = 0
              · obtain ⟨h', p, t', e2, e3⟩ := q1.lc (by rw [elc]; exact hle)
                rw [e] at e2
                have eh : h'.rec_pos = h.rec_pos := by
                  have := (List.cons.inj e2).1
                  rw [← this]
                have ep : p ∈ t := by
                  have := (List.cons.inj e2).2
                  rw [this]
                  exact List.mem_cons_self _ _
                have hnode' : NodeOK E r.1 h.rec_pos := by
                  obtain ⟨s, hs, hsp⟩ := f1
                  have := (q1.nodes s hs).2.2
                  rw [hsp] at this
                  exact this
                have e_as : r.1.act_slot = v3.act_slot := by rw [hshape]
                have e_ls : r.1.last_slot = v3.last_slot := by rw [hshape]
                have hlast := last_record_same E r.1 h.rec_pos hnode'
                  (by rw [e_as, e_ls]; exact hd.1)
                rw [eh, ← hlast, elc, hd.2] at e3
                have hcp : Covered E r.1 EM1 (r.1.data p.rec_pos) := by
                  rw [hdata p ep]
                  exact htr _ (hcov.nodes p (by rw [hl]; exact List.mem_cons_of_mem _ ep))
                exact Covered_congr E hE.order r.1 EM1 _ _
                  (hE.order.eqv_symm e3.symm) hcp
              · right
                rw [decide_eq_false hd] at e
                exact ⟨{ h with is_duplicated := false },
                  by rw [e]; exact List.mem_cons_self _ _, rfl, hE.order.refl _⟩
            · right
              obtain ⟨c1, _, _⟩ := find_minimum_from_cover E v3
                { h with is_duplicated := false } t
              exact ⟨{ h with is_duplicated := false }, by rw [e]; exact c1, rfl,
                hE.order.refl _⟩
          refine ⟨EM1, q1, ?_⟩
          refine cover_assemble E R v r.1 EM EM1 h t hl hcov htr ?_ hdata f3 ?_ f4 ?_ ?_
          · rw [e_act]
            exact hadv.static.act_infiles.trans hpost.static.act_infiles
          · intro n hn
            rw [e_rest]
            exact (hoth n hn).2.2.2.1
          · exact fun _ _ _ => hnew
          · right
            refine ⟨v3.smallest_elem_ptr h.rec_pos, ?_, ?_, f1⟩
            · rw [e_rest, ← hpost.rest]
              exact hrest3
            · rw [e_d]
              exact hnode.key.symm

theorem sr_list_sort_inner_unflagged (E : MergeEnv) (v : MergeVars) :
    ∀ (rest : List SORT_REC_LIST) (s_pos : Int), (∀ n ∈ rest, n.is_duplicated = false) →
      ∀ n ∈ (sr_list_sort_inner E v s_pos rest).2, n.is_duplicated = false := by
  intro rest
  induction rest with
  | nil =>
    intro s_pos _ n hn
    cases hn
  | cons p rest ih =>
    intro s_pos hl n hn
    have hp := hl p (List.mem_cons_self _ _)
    have hr : ∀ n ∈ rest, n.is_duplicated = false :=
      fun n hn => hl n (List.mem_cons_of_mem _ hn)
    unfold sr_list_sort_inner at hn
    split_ifs at hn
    · rcases List.mem_cons.1 hn with e | hn'
      · rw [e]; exact hp
      · exact ih p.rec_pos hr n hn'
    · rcases List.mem_cons.1 hn with e | hn'
      · rw [e]; exact hp
      · exact ih s_pos hr n hn'

theorem sr_list_sort_unflagged (E : MergeEnv) (v : MergeVars) :
    ∀ (k : Nat) (l : List SORT_REC_LIST), (∀ n ∈ l, n.is_duplicated = false) →
      ∀ n ∈ sr_list_sort E v k l, n.is_duplicated = false := by
  intro k
  induction k with
  | zero =>
    intro l hl n hn
    exact hl n hn
  | succ k ih =>
    intro l hl n hn
    cases l with
    | nil => cases hn
    | cons s rest =>
      unfold sr_list_sort at hn
      rcases List.mem_cons.1 hn with e | hn'
      · rw [e]; exact hl s (List.mem_cons_self _ _)
      · exact ih _ (sr_list_sort_inner_unflagged E v rest s.rec_pos
          (fun n hn => hl n (List.mem_cons_of_mem _ hn))) n hn'

theorem sr_list_init_unflagged (a : Int) : ∀ n ∈ sr_list_init a, n.is_duplicated = false := by
  intro n hn
  unfold sr_list_init at hn
  obtain ⟨i, _, e⟩ := List.mem_map.1 hn
  rw [← e]

theorem find_duplicate_from_cover (E : MergeEnv) (hord : DataOrder E.compare) (v : MergeVars) :
    ∀ (rest : List SORT_REC_LIST) (s_pos : Int) (c : List Byte),
      (∀ n ∈ rest, n.is_duplicated = false) → E.compare c (v.data s_pos) = 0 →
      ∀ n ∈ sr_list_find_duplicate_from E v s_pos rest,
        E.compare c (v.data n.rec_pos) = 0 ∨
        ∃ m ∈ sr_list_find_duplicate_from E v s_pos rest, m.is_duplicated = false ∧
          E.compare (v.data m.rec_pos) (v.data n.rec_pos) = 0 := by
  intro rest
  induction rest with
  | nil =>
    intro s_pos c _ _ n hn
    cases hn
  | cons p rest ih =>
    intro s_pos c hl hc n hn
    have hp := hl p (List.mem_cons_self _ _)
    have hr : ∀ n ∈ rest, n.is_duplicated = false :=
      fun n hn => hl n (List.mem_cons_of_mem _ hn)
    unfold sr_list_find_duplicate_from at hn ⊢
    by_cases heq : E.compare (v.data s_pos) (v.data p.rec_pos) = 0
    · rw [if_pos heq] at hn ⊢
      have hcp := hord.trans_eq _ _ _ hc heq
      rcases List.mem_cons.1 hn with e | hn'
      · left; rw [e]; exact hcp
      · rcases ih p.rec_pos c hr hcp n hn' with q | ⟨m, q1, q2, q3⟩
        · exact Or.inl q
        · exact Or.inr ⟨m, List.mem_cons_of_mem _ q1, q2, q3⟩
    · rw [if_neg heq] at hn ⊢
      rcases List.mem_cons.1 hn with e | hn'
      · right
        rw [e]
        exact ⟨p, List.mem_cons_self _ _, hp, hord.refl _⟩
      · right
        rcases ih p.rec_pos (v.data p.rec_pos) hr (hord.refl _) n hn' with q | ⟨m, q1, q2, q3⟩
        · exact ⟨p, List.mem_cons_self _ _, hp, q⟩
        · exact ⟨m, List.mem_cons_of_mem _ q1, q2, q3⟩

/-- After `find duplicate` on nodes that are not marked, every node has a node
that is not marked with an equal smallest element. -/
theorem find_duplicate_cover (E : MergeEnv) (hord : DataOrder E.compare) (v : MergeVars)
    (l : List SORT_REC_LIST) (hl : ∀ n ∈ l, n.is_duplicated = false) :
    ∀ n ∈ sr_list_find_duplicate E v l,
      ∃ m ∈ sr_list_find_duplicate E v l, m.is_duplicated = false ∧
        E.compare (v.data m.rec_pos) (v.data n.rec_pos) = 0 := by
  intro n hn
  cases l with
  | nil => cases hn
  | cons s rest =>
    unfold sr_list_find_duplicate at hn ⊢
    have hs := hl s (List.mem_cons_self _ _)
    rcases List.mem_cons.1 hn with e | hn'
    · rw [e]
      exact ⟨s, List.mem_cons_self _ _, hs, hord.refl _⟩
    · rcases find_duplicate_from_cover E hord v rest s.rec_pos (v.data s.rec_pos)
        (fun n hn => hl n (List.mem_cons_of_mem _ hn)) (hord.refl _) n hn' with
        q | ⟨m, q1, q2, q3⟩
      · exact ⟨s, List.mem_cons_self _ _, hs, q⟩
      · exact ⟨m, List.mem_cons_of_mem _ q1, q2, q3⟩

/-- The start of a run establishes the invariant of the records of the inputs,
for the records of the first runs of the active input files. -/
theorem start_run_cover (E : MergeEnv) (hE : EnvOK E) (v1 v4 : MergeVars)
    (hs : RunStartInv E v1) (hst : start_run E v1 = Step.next v4) :
    CoverInv E (run_records v1) v4 [] := by
  unfold start_run at hst
  have hinit := init_input_sections_spec E v1 hs v1.act_infiles.toNat v1 0
    (InitInv_start E v1) (le_refl _) (by have := hs.act; omega) (by have := hs.act; omega)
  cases hi : init_input_sections E v1.act_infiles.toNat v1 0 with
  | stop w p => rw [hi] at hst; cases hst
  | next v2 =>
    rw [hi] at hinit hst
    simp only at hst
    have hinv : InitInv E v1 v2 v1.act_infiles := hinit
    have hstat := hinv.frame.static
    have hact : v2.act_infiles = v1.act_infiles := hstat.act_infiles
    obtain ⟨ho, hperm⟩ := sr_list_init_order E hE.order.sift_order v2 v2.act_infiles
    have hcov1 := find_duplicate_cover E hE.order v2
      (sr_list_sort E v2 (sr_list_init v2.act_infiles).length (sr_list_init v2.act_infiles))
      (sr_list_sort_unflagged E v2 _ _ (sr_list_init_unflagged _))
    obtain ⟨l1, hl1⟩ : ∃ l1, l1 = sr_list_find_duplicate E v2
        (sr_list_sort E v2 (sr_list_init v2.act_infiles).length
          (sr_list_init v2.act_infiles)) := ⟨_, rfl⟩
    rw [← hl1] at ho hperm hcov1
    have hsl : start_list E v2 = { v2 with sr_list := l1, last_elem_cmp := 1 } := by
      rw [hl1]; rfl
    rw [hsl] at hst
    cases hlec : last_element_comparison E { v2 with sr_list := l1, last_elem_cmp := 1 } with
    | stop w p => rw [hlec] at hst; cases hst
    | next v3 =>
      rw [hlec] at hst
      simp only at hst
      obtain ⟨q1, _, _⟩ := last_element_comparison_spec E _ v3 hlec
      have hvF : v4 = start_output E v3 := by cases hst; rfl
      have hs2F : SameStatic v2 v4 := by
        rw [hvF, q1]
        exact ⟨rfl, rfl, rfl, rfl, rfl, rfl, rfl, rfl, rfl, rfl, rfl, rfl⟩
      have hl2 : Layout v2 := Layout_frame v1 v2 hstat hs.layout
      have hmemF : ∀ b, v4.sp.internal_memory b =
          if v2.out_sectaddr ≤ b ∧ b < v2.out_sectaddr + v2.out_sectsize then
            sort_spage_initialize E.env (v2.sp.internal_memory b) E.UNANCHORED_KEEP_SEQUENCE
              E.MAX_ALIGNMENT
          else v2.sp.internal_memory b := by
        intro b; rw [hvF, q1]; rfl
      have hfileF : ∀ f, SameFile v2 v4 f := by
        intro f; rw [hvF, q1]; exact ⟨rfl, rfl, rfl⟩
      have hinF : ∀ j, 0 ≤ j → j < v2.act_infiles → SameInput v2 v4 j := by
        intro j hj0 hj1
        rw [hvF, q1]
        refine ⟨rfl, rfl, rfl, rfl, rfl, rfl, rfl, ?_⟩
        intro b hb1 hb2
        have hm := hmemF b
        rw [hvF, q1] at hm
        rw [hm, if_neg]
        intro hc
        exact section_out_disjoint v2 hl2 j hj0 hj1 b ⟨hb1, hb2⟩ hc.1
      have e_dF : v4.data = v2.data := by rw [hvF, q1]; rfl
      have e_srF : v4.sr_list = l1 := by rw [hvF, q1]; rfl
      have hnodes : ∀ n ∈ v4.sr_list, Covered E v4 [] (v4.data n.rec_pos) := by
        intro n hn
        rw [e_srF] at hn
        obtain ⟨m, hm, hmf, hmc⟩ := hcov1 n hn
        right
        exact ⟨m, by rw [e_srF]; exact hm, hmf, by rw [e_dF]; exact hmc⟩
      refine ⟨hnodes, ?_⟩
      intro i hi0 hi1 r hr
      rw [hs2F.act_infiles, hact] at hi1
      have hlisted : ∃ n ∈ v4.sr_list, n.rec_pos = i := by
        have : i ∈ (sr_list_init v2.act_infiles).map (fun n => n.rec_pos) := by
          rw [sr_list_init_positions _ (by rw [hact]; exact hs.act), hact]
          exact ⟨hi0, hi1⟩
        have := hperm.symm.subset this
        rw [e_srF]
        simp only [List.mem_map] at this
        exact this
      have hnode := hinv.nodes i hi0 hi1
      have hsi := hinF i hi0 (by omega)
      rw [hinv.runs i hi0 hi1] at hr
      rcases List.mem_cons.1 hr with e | hr'
      · right
        obtain ⟨n, hn, hp⟩ := hlisted
        have := hnodes n hn
        rw [hp, e_dF, hnode.key] at this
        rw [e]
        exact this
      · left
        refine ⟨hlisted, ?_⟩
        rw [in_rest_frame v2 v4 i hs2F hsi (hfileF _)
          ⟨hnode.input.bufno.1, hnode.input.bufno.2.2⟩ hnode.input.addr]
        exact hr'

/-- The loop that outputs the records of a run, when it runs to its end: the
list of the smallest elements is empty and the invariants hold. -/
theorem merge_loop_cover (E : MergeEnv) (hE : EnvOK E) (R : Int → List RECDES) (fuel : Nat) :
    ∀ (v : MergeVars) (EM : List (List Byte)), RunLoopInv E v EM → CoverInv E R v EM →
      ∀ w, merge_loop E fuel v = Step.next w →
        ∃ EM1, RunLoopInv E w EM1 ∧ CoverInv E R w EM1 ∧ w.sr_list = [] := by
  induction fuel with
  | zero =>
    intro v EM _ _ w hw
    cases hw
  | succ n ih =>
    intro v EM hinv hcov w hw
    unfold merge_loop at hw
    have hit := merge_iteration_spec E hE.sift v EM hinv
    cases hm : merge_iteration E v with
    | stop s p => rw [hm] at hw; cases hw
    | next r =>
      rw [hm] at hit hw
      obtain ⟨EM1, q1, q2⟩ := merge_iteration_cover E hE R v EM hinv hcov r hm
      obtain ⟨_, _, _, q3⟩ := hit
      obtain ⟨v1, b⟩ := r
      cases b with
      | true =>
        simp only at hw
        exact ih v1 EM1 q1 q2 w hw
      | false =>
        simp only at hw
        cases hw
        exact ⟨EM1, q1, q2, q3 rfl⟩

/-- The invariants hold at the head of every pass of the loop that outputs the
records of a run. -/
theorem merge_loop_at_inv (E : MergeEnv) (hE : EnvOK E) (R : Int → List RECDES) :
    ∀ (n : Nat) (v : MergeVars) (EM : List (List Byte)), RunLoopInv E v EM →
      CoverInv E R v EM → ∀ u, merge_loop_at E n v = some u →
        ∃ EM1, RunLoopInv E u EM1 ∧ CoverInv E R u EM1 := by
  intro n
  induction n with
  | zero =>
    intro v EM hinv hcov u hu
    cases hu
    exact ⟨EM, hinv, hcov⟩
  | succ n ih =>
    intro v EM hinv hcov u hu
    unfold merge_loop_at at hu
    cases hm : merge_iteration E v with
    | stop s p => rw [hm] at hu; cases hu
    | next r =>
      rw [hm] at hu
      obtain ⟨EM1, q1, q2⟩ := merge_iteration_cover E hE R v EM hinv hcov r hm
      obtain ⟨v1, b⟩ := r
      cases b with
      | true =>
        simp only at hu
        exact ih v1 EM1 q1 q2 u hu
      | false => cases hu

/-- Of two nodes of the list with equal smallest elements, the one behind is
marked as duplicated, or the one before is the first node and is marked. -/
theorem equal_nodes_marked (compare : List Byte → List Byte → Int) (K : Int → List Byte)
    (EM : List (List Byte)) (nodes l1 l2 l3 : List SORT_REC_LIST) (a b : SORT_REC_LIST)
    (hinv : OrderInv compare K EM nodes) (hl : nodes = l1 ++ a :: (l2 ++ b :: l3))
    (he : compare (K a.rec_pos) (K b.rec_pos) = 0) :
    b.is_duplicated = true ∨ (l1 = [] ∧ a.is_duplicated = true) := by
  cases hb : b.is_duplicated with
  | true => exact Or.inl rfl
  | false =>
    right
    cases l1 with
    | nil =>
      refine ⟨rfl, ?_⟩
      have hh := hinv.head a (by rw [hl]; rfl) b
        (by rw [hl]; exact List.mem_append_right _ (List.mem_cons_self _ _)) hb
      rcases hh with hh | hh
      · exact hh
      · omega
    | cons x l1 =>
      exfalso
      have hf := hinv.flags
      rw [hl] at hf
      simp only [List.cons_append, List.tail_cons] at hf
      unfold FlagPair at hf
      have h1 := (List.pairwise_append.1 hf).2.1
      have h2 := (List.pairwise_cons.1 h1).1 b
        (List.mem_append_right _ (List.mem_cons_self _ _)) hb
      omega

theorem pass_head_inv (E : MergeEnv) (v : MergeVars) (hvl : v.very_last_run = false)
    (hpub : v.published = []) (hms : MergeStart E v.sp v.out_half)
    (hact : sort_get_numpages_of_active_infiles v.sp > 1) :
    1 ≤ pass_runs v ∧ ∃ k, PassInv E (pass_head v) (pass_runs v) k := by
  obtain ⟨n, k, hn1, hcnt, hpass⟩ := pass_start E v hpub hms hact
  have hcnt' : pass_runs v = n := hcnt
  have e2 : pass_head v =
      { distribute_memory v (sort_get_numpages_of_active_infiles v.sp) with
        very_last_run := decide (n = 1) } := by
    show mark_last_run (distribute_memory v (sort_get_numpages_of_active_infiles v.sp))
      (pass_runs v) = _
    rw [hcnt']
    unfold mark_last_run
    by_cases h : n = 1
    · rw [if_pos h]
      simp only [h, decide_True]
    · rw [if_neg h]
      simp only [h, decide_False]
      have : (distribute_memory v (sort_get_numpages_of_active_infiles v.sp)).very_last_run =
          false := hvl
      rw [← this]
  rw [e2, hcnt']
  exact ⟨hn1, k, hpass⟩

/-- The invariant of the loop `PRODUCE RUNS` holds whenever
`sort_exphase_merge_elim_dup` gets to the head of the loop. -/
theorem at_run_inv (E : MergeEnv) (hE : EnvSift E) (fuel : Nat) (v0 : MergeVars)
    (hvl : v0.very_last_run = false) (hpub : v0.published = [])
    (hms : MergeStart E v0.sp v0.out_half) :
    ∀ (v : MergeVars) (j : Int), AtRun E fuel v0 v j →
      (1 ≤ j → ∃ k, PassInv E v j k) ∧ (¬ 1 ≤ j → PassEnd E v) := by
  intro v j h
  induction h with
  | first_pass hact =>
    obtain ⟨h1, k, hp⟩ := pass_head_inv E v0 hvl hpub hms hact
    exact ⟨fun _ => ⟨k, hp⟩, fun hc => absurd h1 hc⟩
  | next_run v v1 j _ hj hpr ih =>
    obtain ⟨k, hp⟩ := ih.1 (by omega)
    have hs := produce_run_spec E hE fuel v j k hp
    rw [hpr] at hs
    exact ⟨fun h1 => ⟨k, hs.2 (by omega)⟩, fun hc => hs.1 (by omega)⟩
  | next_pass v j _ hj hact ih =>
    have hpe := ih.2 (by omega)
    rcases pass_end_outer E v hpe with ⟨_, _, h⟩ | ⟨h1, h2, h3⟩
    · omega
    · obtain ⟨g1, k, hp⟩ := pass_head_inv E (exchange_halves v) h1 h2 h3 hact
      exact ⟨fun _ => ⟨k, hp⟩, fun hc => absurd g1 hc⟩

/-- C32, the counterexample: the input files hold the runs `[1, 5]` and `[5, 7]`,
one page each. After the first pass of the loop that outputs the records of their
merge, the smallest elements of the two nodes of the list are the records of the
key 5, which compare equal; the first node, whose record is the last one of its
input page, is marked `is_duplicated`, the node behind it is not. The merge
publishes the keys 1, 5, 7. -/
theorem trailing_node_unmarked_counterexample :
    (match prepare_run 8 (pass_head (merge_vars_init last_equal_param merge_vars_ten))
        (pass_runs (merge_vars_init last_equal_param merge_vars_ten)) with
      | Step.next (v1, false) =>
        (match start_run example_env v1 with
          | Step.next v4 => (merge_loop_at example_env 1 v4).map
              (fun (u : MergeVars) => (u.sr_list, example_env.compare (u.data 0) (u.data 1)))
          | Step.stop _ _ => none)
      | _ => none) =
        some ([{ rec_pos := 0, is_duplicated := true },
          { rec_pos := 1, is_duplicated := false }], 0) ∧
    (sort_exphase_merge_elim_dup example_env 8 last_equal_param merge_vars_ten).finished.map
      (List.map (fun r => r.data)) = some [[1], [5], [7]] := by
  decide

theorem get_peek_ok (env : PageEnv) (henv : env.Valid) (a : Int) (pg : Page)
    (hI : PageInv env a pg) (s : Int) (buf : RECDES) (h0 : 0 ≤ s) (h1 : s < pg.hdr.nslots) :
    sort_spage_get_record env pg s buf PeekMode.PEEK =
      (SCAN_CODE.S_SUCCESS, slot_record pg s.toNat) := by
  have hs := hI.slot s.toNat (by omega)
  have hn := henv.2.2
  have hh : SIZEOF_SLOTTED_PAGE_HEADER = 16 := rfl
  rw [(get_record_doesnt_exist_iff env pg s buf PeekMode.PEEK).2.2, if_neg]
  · rfl
  · intro hc
    rcases hc with hc | hc | hc
    · omega
    · omega
    · omega

/-- Getting the record of a slot in use succeeds when every long record can be
read. -/
theorem fetch_smallest_next (E : MergeEnv) (henv : E.env.Valid)
    (hov : ∀ d, E.overflow_get d ≠ none) (w : MergeVars) (i : Int)
    (hpg : PageInv E.env E.MAX_ALIGNMENT (w.sp.internal_memory (w.in_cur_bufaddr i)))
    (h0 : 0 ≤ w.act_slot i)
    (h1 : w.act_slot i < (w.sp.internal_memory (w.in_cur_bufaddr i)).hdr.nslots) :
    ∃ v3, fetch_smallest E w i = Step.next v3 := by
  unfold fetch_smallest
  simp only
  rw [get_peek_ok E.env henv _ _ hpg _ _ h0 h1]
  simp only [ne_eq, not_true_eq_false, if_false]
  split_ifs with hb
  · unfold sort_retrieve_longrec
    cases ho : E.overflow_get
        (slot_record (w.sp.internal_memory (w.in_cur_bufaddr i)) (w.act_slot i).toNat).data with
    | none => exact absurd ho (hov _)
    | some content => exact ⟨_, rfl⟩
  · exact ⟨_, rfl⟩

theorem last_element_comparison_next (E : MergeEnv) (henv : E.env.Valid)
    (hov : ∀ d, E.overflow_get d ≠ none) (v : MergeVars)
    (hpg : ∀ m p t, v.sr_list = m :: p :: t →
      PageInv E.env E.MAX_ALIGNMENT (v.sp.internal_memory (v.in_cur_bufaddr m.rec_pos)) ∧
      1 ≤ v.last_slot m.rec_pos ∧
      v.last_slot m.rec_pos ≤
        (v.sp.internal_memory (v.in_cur_bufaddr m.rec_pos)).hdr.nslots) :
    ∃ v5, last_element_comparison E v = Step.next v5 := by
  unfold last_element_comparison
  cases hl : v.sr_list with
  | nil => exact ⟨_, rfl⟩
  | cons m t =>
    cases t with
    | nil => exact ⟨_, rfl⟩
    | cons p t' =>
      obtain ⟨q1, q2, q3⟩ := hpg m p t' hl
      simp only
      rw [get_peek_ok E.env henv _ _ q1 _ _ (by omega) (by omega)]
      simp only [ne_eq, not_true_eq_false, if_false]
      split_ifs with hb
      · unfold sort_retrieve_longrec
        cases ho : E.overflow_get
            (slot_record (v.sp.internal_memory (v.in_cur_bufaddr m.rec_pos))
              (v.last_slot m.rec_pos - 1).toNat).data with
        | none => exact absurd ho (hov _)
        | some content => exact ⟨_, rfl⟩
      · exact ⟨_, rfl⟩

/-- A record of a slotted page fits a page that holds nothing. -/
theorem record_fits (env : PageEnv) (a : Int) (ha : ValidAlignment a) (pg : Page)
    (hI : PageInv env a pg) (i : Nat) (hi : (i : Int) < pg.hdr.nslots) :
    (slot_record pg i).length ≤ SORT_MAXREC_LENGTH env ∧
      padded a (slot_record pg i).length + SIZEOF_SLOT ≤
        env.DB_PAGESIZE - SIZEOF_SLOTTED_PAGE_HEADER := by
  obtain ⟨s1, s2, s3, s4⟩ := hI.slot i hi
  have t1 := hI.tfree
  have t2 := hI.tfree_nonneg
  have t3 := hI.foffset_al
  have hh : SIZEOF_SLOTTED_PAGE_HEADER = 16 := rfl
  have hs : SIZEOF_SLOT = 6 := rfl
  have hl : (slot_record pg i).length = (pg.slots i).rlength := rfl
  rw [hl]
  unfold SORT_MAXREC_LENGTH padded DB_WASTED_ALIGN DB_ALIGN
  have hn : (1 : Int) ≤ pg.hdr.nslots := by omega
  have hmul : SIZEOF_SLOT ≤ pg.hdr.nslots * SIZEOF_SLOT := by
    rw [hs]; omega
  rcases ha with e | e | e | e <;> subst e <;> constructor <;> omega

/-- A page that refuses a record of a slotted page holds a record. -/
theorem refused_nonempty (env : PageEnv) (henv : env.Valid) (a : Int) (ha : ValidAlignment a)
    (qs : Qsort) (ok : Bool) (pg pg0 : Page) (hI : PageInv env a pg) (hI0 : PageInv env a pg0)
    (i : Nat) (hi : (i : Int) < pg0.hdr.nslots) (pg1 : Page)
    (h : sort_spage_insert env qs ok pg (slot_record pg0 i) = some (pg1, none)) :
    1 ≤ pg.hdr.nslots := by
  by_contra hc
  have h0 : pg.hdr.nslots = 0 := by have := hI.nslots_nonneg; omega
  obtain ⟨f1, f2⟩ := record_fits env a ha pg0 hI0 i hi
  have ht := empty_page_offset env a pg hI h0
  have := insert_fits env henv a ha qs ok pg hI (slot_record pg0 i)
    (slot_record_WF env a pg0 hI0 i hi) f1 (by rw [ht]; exact f2)
  rw [this] at h
  cases h

/-- A page that holds nothing takes a record of a slotted page. -/
theorem empty_takes (env : PageEnv) (henv : env.Valid) (a : Int) (ha : ValidAlignment a)
    (qs : Qsort) (ok : Bool) (pg pg0 : Page) (hI : PageInv env a pg) (hI0 : PageInv env a pg0)
    (i : Nat) (hi : (i : Int) < pg0.hdr.nslots) (h0 : page_records pg = []) :
    ∃ pg1 sid, sort_spage_insert env qs ok pg (slot_record pg0 i) = some (pg1, some sid) := by
  have hn := (page_records_nil_iff env a pg hI).1 h0
  obtain ⟨f1, f2⟩ := record_fits env a ha pg0 hI0 i hi
  have ht := empty_page_offset env a pg hI hn
  exact ⟨_, _, insert_fits env henv a ha qs ok pg hI (slot_record pg0 i)
    (slot_record_WF env a pg0 hI0 i hi) f1 (by rw [ht]; exact f2)⟩
theorem inserted_nonempty (env : PageEnv) (henv : env.Valid) (a : Int) (ha : ValidAlignment a)
    (qs : Qsort) (ok : Bool) (pg : Page) (hI : PageInv env a pg) (r : RECDES) (hr : r.WF)
    (pg1 : Page) (sid : Int) (h : sort_spage_insert env qs ok pg r = some (pg1, some sid)) :
    1 ≤ pg1.hdr.nslots := by
  obtain ⟨h1, h2⟩ := insert_page_records env henv a ha qs ok pg hI r hr pg1 sid h
  have hl := page_records_length pg1
  rw [h2, List.length_append, List.length_singleton] at hl
  have := h1.nslots_nonneg
  omega

theorem insert_some (env : PageEnv) (henv : env.Valid) (a : Int) (ha : ValidAlignment a)
    (qs : Qsort) (ok : Bool) (pg : Page) (hI : PageInv env a pg) (r : RECDES) (hr : r.WF) :
    sort_spage_insert env qs ok pg r ≠ none := by
  rcases insert_cases env henv a ha qs ok pg hI r hr with h | h
  · rw [h.2.2]; exact Option.some_ne_none _
  · rw [h.2]; exact Option.some_ne_none _

/-- The second attempt to insert a record of a slotted page, into a page that
holds nothing, succeeds. -/
theorem insert_into_empty_next (E : MergeEnv) (hE : EnvSift E) (w : MergeVars) (pg0 : Page)
    (hI0 : PageInv E.env E.MAX_ALIGNMENT pg0) (i : Nat) (hi : (i : Int) < pg0.hdr.nslots)
    (hI : PageInv E.env E.MAX_ALIGNMENT (w.sp.internal_memory w.out_cur_bufaddr))
    (h0 : page_records (w.sp.internal_memory w.out_cur_bufaddr) = []) :
    ∃ pg, insert_into_empty E w (slot_record pg0 i) =
        Step.next (w.set_buffer w.out_cur_bufaddr pg) ∧ 1 ≤ pg.hdr.nslots := by
  obtain ⟨pg1, sid, h⟩ := empty_takes E.env hE.env E.MAX_ALIGNMENT hE.align E.qs E.calloc_ok
    _ pg0 hI hI0 i hi h0
  refine ⟨pg1, ?_, inserted_nonempty E.env hE.env E.MAX_ALIGNMENT hE.align E.qs E.calloc_ok _ hI
    _ (slot_record_WF E.env E.MAX_ALIGNMENT pg0 hI0 i hi) pg1 sid h⟩
  unfold insert_into_empty
  rw [h]

theorem OutFull_set_buffer (v : MergeVars) (s : Prop) (pg : Page) (hf : OutFull v s)
    (hpg : 1 ≤ pg.hdr.nslots) : OutFull (v.set_buffer v.out_cur_bufaddr pg) True := by
  refine ⟨hf.files, ?_, ?_⟩
  · intro b hb1 hb2
    have hb2' : b < v.out_cur_bufaddr := hb2
    have e : (v.set_buffer v.out_cur_bufaddr pg).sp.internal_memory b =
        v.sp.internal_memory b := aset_other _ _ _ _ (by omega)
    rw [e]
    exact hf.buffers b hb1 hb2'
  · intro _
    have e : (v.set_buffer v.out_cur_bufaddr pg).sp.internal_memory
        (v.set_buffer v.out_cur_bufaddr pg).out_cur_bufaddr = pg := aset_same _ _ _
    rw [e]
    exact hpg

/-- Sending the smallest element of the first input of the list to the output
section succeeds; the pages of the output hold a record each afterwards. -/
theorem output_record_next (E : MergeEnv) (hE : EnvSift E) (v : MergeVars)
    (EM : List (List Byte)) (hinv : RunLoopInv E v EM) (h : SORT_REC_LIST)
    (t : List SORT_REC_LIST) (hl : v.sr_list = h :: t)
    (hlast : v.very_last_run = false) (hfull : OutFull v (EM ≠ [])) :
    ∃ v1, output_record E v h.rec_pos = Step.next v1 ∧ OutFrame v v1 ∧ OutFull v1 True := by
  have hmem : h ∈ v.sr_list := by rw [hl]; exact List.mem_cons_self _ _
  obtain ⟨hm0, hm1, hnode⟩ := hinv.nodes h hmem
  have ho := hinv.out hlast
  have hi := hnode.input
  have hpg : PageInv E.env E.MAX_ALIGNMENT
      (v.sp.internal_memory (v.in_cur_bufaddr h.rec_pos)) := by
    apply hi.pages
    unfold in_pages
    simp only
    rw [pages_seq_succ _ _ _ (by have := hi.bufno; omega)]
    exact List.mem_cons_self _ _
  have hslot : ((v.act_slot h.rec_pos).toNat : Int) <
      (v.sp.internal_memory (v.in_cur_bufaddr h.rec_pos)).hdr.nslots := by
    have := hi.slot; have := hi.last; omega
  have hwf : (v.smallest_elem_ptr h.rec_pos).WF := by
    rw [hnode.small]
    exact slot_record_WF E.env E.MAX_ALIGNMENT _ hpg _ hslot
  have hcur : PageInv E.env E.MAX_ALIGNMENT (v.sp.internal_memory v.out_cur_bufaddr) := by
    apply ho.pages
    unfold out_pages
    rw [pages_seq_snoc _ _ _ ho.bufno.1, ← ho.addr]
    simp
  have hb := ho.bufno
  have ha := ho.addr
  unfold output_record
  simp only
  cases hins : sort_spage_insert E.env E.qs E.calloc_ok
      (v.sp.internal_memory v.out_cur_bufaddr) (v.smallest_elem_ptr h.rec_pos) with
  | none =>
    exact absurd hins (insert_some E.env hE.env E.MAX_ALIGNMENT hE.align E.qs E.calloc_ok _
      hcur _ hwf)
  | some res =>
    obtain ⟨pg, sid⟩ := res
    cases sid with
    | some sid =>
      exact ⟨_, rfl, OutFrame_set_buffer v _ pg (by omega),
        OutFull_set_buffer v _ pg hfull
          (inserted_nonempty E.env hE.env E.MAX_ALIGNMENT hE.align E.qs E.calloc_ok _ hcur _
            hwf pg sid hins)⟩
    | none =>
      have hpg1 := insert_refused E.env hE.env E.MAX_ALIGNMENT hE.align E.qs E.calloc_ok _ hcur
        _ hwf pg hins
      have hne : 1 ≤ (v.sp.internal_memory v.out_cur_bufaddr).hdr.nslots := by
        rw [hnode.small] at hins
        exact refused_nonempty E.env hE.env E.MAX_ALIGNMENT hE.align E.qs E.calloc_ok _ _
          hcur hpg _ hslot pg hins
      simp only [hpg1, set_buffer_same]
      rw [hnode.small]
      by_cases hlt : v.out_act_bufno + 1 < v.out_sectsize
      · rw [if_pos hlt]
        have hsp := ho.spare (v.out_cur_bufaddr + 1) (by omega) (by omega)
        obtain ⟨pg2, e2, n2⟩ := insert_into_empty_next E hE (next_output_buffer v) _ hpg _ hslot
          hsp.1 hsp.2
        refine ⟨_, e2, OutFrame_trans (OutFrame_next v)
          (OutFrame_set_buffer _ _ pg2 (by
            show v.out_sectaddr ≤ v.out_cur_bufaddr + 1
            omega)), ?_⟩
        refine OutFull_set_buffer (next_output_buffer v) False pg2
          ⟨hfull.files, ?_, fun hc => hc.elim⟩ n2
        intro b hb1 hb2
        have hb2' : b < v.out_cur_bufaddr + 1 := hb2
        by_cases hbc : b = v.out_cur_bufaddr
        · rw [hbc]; exact hne
        · exact hfull.buffers b hb1 (by omega)
      · rw [if_neg hlt]
        have hsz : v.out_act_bufno + 1 = v.out_sectsize := by omega
        have hinit : PageInv E.env E.MAX_ALIGNMENT
            ((flush_output_section E v).sp.internal_memory
              (flush_output_section E v).out_cur_bufaddr) ∧
            page_records ((flush_output_section E v).sp.internal_memory
              (flush_output_section E v).out_cur_bufaddr) = [] := by
          have e_cb : (flush_output_section E v).out_cur_bufaddr = v.out_sectaddr := rfl
          rw [e_cb, flush_memory, if_pos (by omega)]
          exact ⟨initialize_inv E.env hE.env _ _ _ hE.align,
            page_records_initialize E.env hE.env _ _ _ hE.align⟩
        obtain ⟨pg2, e2, n2⟩ := insert_into_empty_next E hE (flush_output_section E v) _ hpg _
          hslot hinit.1 hinit.2
        refine ⟨_, e2, OutFrame_trans (OutFrame_flush E v (by omega))
          (OutFrame_set_buffer _ _ pg2 (le_refl _)), ?_⟩
        refine OutFull_set_buffer (flush_output_section E v) False pg2
          ⟨?_, ?_, fun hc => hc.elim⟩ n2
        · intro i hi0 hi1 p hp0 hp1
          have e_oh : (flush_output_section E v).out_half = v.out_half := rfl
          have e_cp : (flush_output_section E v).cur_page =
              aset v.cur_page v.cur_outfile (v.cur_page v.cur_outfile + v.out_sectsize) := rfl
          rw [e_oh] at hp1 ⊢
          rw [flush_temp]
          by_cases hc : v.out_half + i = v.cur_outfile
          · rw [e_cp, hc, aset_same] at hp1
            rw [hc]
            by_cases hr : v.cur_page v.cur_outfile ≤ p
            · rw [if_pos ⟨rfl, hr, hp1⟩]
              by_cases hbc : v.out_sectaddr + (p - v.cur_page v.cur_outfile) = v.out_cur_bufaddr
              · rw [hbc]; exact hne
              · exact hfull.buffers _ (by omega) (by omega)
            · rw [if_neg (by omega)]
              have := hfull.files i hi0 hi1 p hp0 (by rw [hc]; omega)
              rw [hc] at this
              exact this
          · rw [e_cp, aset_other _ _ _ _ hc] at hp1
            rw [if_neg (fun hx => hc hx.1)]
            exact hfull.files i hi0 hi1 p hp0 hp1
        · intro b hb1 hb2
          have e_cb : (flush_output_section E v).out_cur_bufaddr = v.out_sectaddr := rfl
          have e_sa : (flush_output_section E v).out_sectaddr = v.out_sectaddr := rfl
          rw [e_cb] at hb2
          rw [e_sa] at hb1
          omega
theorem OutFull_weaken (v : MergeVars) (s s1 : Prop) (h : OutFull v s) (hs : s1 → s) :
    OutFull v s1 :=
  ⟨h.files, h.buffers, fun h1 => h.active (hs h1)⟩

/-- Handing the smallest element of an input to the consumer succeeds when the
consumer accepts it; the pages keep their numbers of records. -/
theorem publish_record_next (E : MergeEnv) (hio : NoRefusal E) (v : MergeVars) (min : Int) :
    ∃ v1, publish_record E v min = Step.next v1 ∧
      (∀ b, (v1.sp.internal_memory b).hdr.nslots = (v.sp.internal_memory b).hdr.nslots) ∧
      v1.in_last_buf = v.in_last_buf ∧ v1.in_cur_bufaddr = v.in_cur_bufaddr := by
  unfold publish_record
  simp only [hio.put, ne_eq, not_true_eq_false, if_false]
  refine ⟨_, rfl, ?_, ?_, ?_⟩
  · intro b
    split_ifs with hb
    · rfl
    · show (aset v.sp.internal_memory (v.in_cur_bufaddr min) _ b).hdr.nslots = _
      by_cases hc : b = v.in_cur_bufaddr min
      · rw [hc, aset_same]; rfl
      · rw [aset_other _ _ _ _ hc]
  · split_ifs <;> rfl
  · split_ifs <;> rfl

/-- The part `OUTPUT A RECORD` of a pass of the loop succeeds: the buffers
before the output section keep their numbers of records, and the pages of the
output hold a record each. -/
theorem emit_record_next (E : MergeEnv) (hE : EnvSift E) (hio : NoRefusal E) (v : MergeVars)
    (EM : List (List Byte)) (hinv : RunLoopInv E v EM) (h : SORT_REC_LIST)
    (t : List SORT_REC_LIST) (hl : v.sr_list = h :: t)
    (hfull : v.very_last_run = false → OutFull v (EM ≠ [])) :
    ∃ v1, emit_record E v h = Step.next v1 ∧
      (∀ b, b < v.out_sectaddr →
        (v1.sp.internal_memory b).hdr.nslots = (v.sp.internal_memory b).hdr.nslots) ∧
      v1.in_last_buf = v.in_last_buf ∧ v1.in_cur_bufaddr = v.in_cur_bufaddr ∧
      (v.very_last_run = false → OutFull v1 (h.is_duplicated = false ∨ EM ≠ [])) := by
  unfold emit_record
  by_cases hd : h.is_duplicated = false
  · rw [if_pos hd]
    by_cases hv : v.very_last_run = true
    · rw [if_pos hv]
      obtain ⟨v1, e1, e2, e3, e4⟩ := publish_record_next E hio v h.rec_pos
      exact ⟨v1, e1, fun b _ => e2 b, e3, e4, fun hc => by rw [hv] at hc; cases hc⟩
    · rw [if_neg hv]
      have hv' : v.very_last_run = false := by
        cases hx : v.very_last_run with
        | true => exact absurd hx hv
        | false => rfl
      obtain ⟨v1, e1, e2, e3⟩ := output_record_next E hE v EM hinv h t hl hv' (hfull hv')
      exact ⟨v1, e1, fun b hb => by rw [e2.memory b hb], e2.in_last_buf, e2.in_cur_bufaddr,
        fun _ => OutFull_weaken v1 _ _ e3 (fun _ => trivial)⟩
  · rw [if_neg hd]
    refine ⟨v, rfl, fun _ _ => rfl, rfl, rfl, fun hv => ?_⟩
    exact OutFull_weaken v _ _ (hfull hv) (fun hc => by
      rcases hc with hc | hc
      · exact absurd hc hd
      · exact hc)
/-- Moving an input on to its next record, and getting that record, succeeds
when every page that the input still has holds a record; the buffers of the
input hold a record each afterwards, and the file is read forwards. -/
theorem advance_next (E : MergeEnv) (hE : EnvSift E) (hio : NoRefusal E) (v : MergeVars) (min : Int)
    (k : List Byte) (hI : InputInv E v min k) (hbuf : InFull v min)
    (hfr : (v.sp.file_contents (v.sp.in_half + min)).first_run ≠ -1)
    (hrest : RestInv E v (v.sp.in_half + min)) (hfile : FileFull E v (v.sp.in_half + min)) :
    InFull (advance_input v min).1 min ∧
    v.cur_page (v.sp.in_half + min) ≤ (advance_input v min).1.cur_page (v.sp.in_half + min) ∧
    ((advance_input v min).2 = false →
      ∃ v3, fetch_smallest E (advance_input v min).1 min = Step.next v3) := by
  obtain ⟨⟨b1, b2, b3⟩, haddr, ⟨s1, s2⟩, hlast, hnp, hpages, hasc, hhead⟩ := hI
  have hcons : in_pages v min = v.sp.internal_memory (v.in_cur_bufaddr min) ::
      (pages_seq v.sp.internal_memory (v.in_cur_bufaddr min + 1)
        (v.in_last_buf min - v.in_act_bufno min - 1) ++
      pages_seq (v.sp.temp (v.sp.in_half + min)) (v.cur_page (v.sp.in_half + min))
        ((v.sp.file_contents (v.sp.in_half + min)).num_pages
          (v.sp.file_contents (v.sp.in_half + min)).first_run)) := by
    unfold in_pages
    simp only
    rw [pages_seq_succ _ _ _ (by omega)]
    rfl
  have hq : ∀ p, v.cur_page (v.sp.in_half + min) ≤ p →
      p < v.cur_page (v.sp.in_half + min) +
        (v.sp.file_contents (v.sp.in_half + min)).num_pages
          (v.sp.file_contents (v.sp.in_half + min)).first_run →
      1 ≤ (v.sp.temp (v.sp.in_half + min) p).hdr.nslots := by
    intro p hp1 hp2
    rcases hrest with hr | ⟨_, _, q, hr⟩
    · exact absurd hr hfr
    · have hle := RunsTo_le E _ _ _ _ _ _ hr
      exact hfile hfr q hr p hp1 (by omega)
  unfold advance_input
  simp only [aset_same]
  by_cases c1 : v.act_slot min + 1 ≥ v.last_slot min
  · rw [if_pos c1]
    by_cases c2 : v.in_act_bufno min + 1 < v.in_last_buf min
    · rw [if_pos c2]
      refine ⟨?_, le_refl _, fun _ => ?_⟩
      · intro b hb1 hb2
        simp only [aset_same] at hb1 hb2
        exact hbuf b (by omega) hb2
      · apply fetch_smallest_next E hE.env hio.overflow
        · simp only [aset_same]
          apply hpages
          rw [hcons]
          apply List.mem_cons_of_mem
          apply List.mem_append_left
          rw [pages_seq_succ _ _ _ (by omega)]
          have e2 : v.in_sectaddr min + (v.in_act_bufno min + 1) = v.in_cur_bufaddr min + 1 := by
            omega
          rw [e2]
          exact List.mem_cons_self _ _
        · simp only [aset_same]; exact le_refl _
        · simp only [aset_same]
          have := hbuf (v.in_sectaddr min + (v.in_act_bufno min + 1)) (by omega) (by omega)
          omega
    · rw [if_neg c2]
      by_cases c3 : (v.sp.file_contents (v.sp.in_half + min)).num_pages
          (v.sp.file_contents (v.sp.in_half + min)).first_run ≠ 0
      · rw [if_pos c3]
        generalize hrp : (if v.in_sectsize <
            (v.sp.file_contents (v.sp.in_half + min)).num_pages
              (v.sp.file_contents (v.sp.in_half + min)).first_run then v.in_sectsize
          else (v.sp.file_contents (v.sp.in_half + min)).num_pages
            (v.sp.file_contents (v.sp.in_half + min)).first_run) = rp
        have hrp1 : 0 < rp ∧ rp ≤ v.in_sectsize ∧
            rp ≤ (v.sp.file_contents (v.sp.in_half + min)).num_pages
              (v.sp.file_contents (v.sp.in_half + min)).first_run := by
          rw [← hrp]; split_ifs <;> omega
        have hmem : ∀ b, v.in_sectaddr min ≤ b → b < v.in_sectaddr min + rp →
            (sort_read_area v.sp (v.sp.in_half + min) (v.cur_page (v.sp.in_half + min)) rp
              (v.in_sectaddr min)).internal_memory b =
            v.sp.temp (v.sp.in_half + min)
              (v.cur_page (v.sp.in_half + min) + (b - v.in_sectaddr min)) := by
          intro b hb1 hb2
          unfold sort_read_area
          simp only
          rw [if_pos ⟨hb1, hb2⟩]
        refine ⟨?_, ?_, fun _ => ?_⟩
        · intro b hb1 hb2
          simp only [aset_same] at hb1 hb2
          show 1 ≤ ((sort_read_area v.sp (v.sp.in_half + min)
            (v.cur_page (v.sp.in_half + min)) rp (v.in_sectaddr min)).internal_memory b).hdr.nslots
          rw [hmem b hb1 hb2]
          exact hq _ (by omega) (by omega)
        · show _ ≤ aset v.cur_page (v.sp.in_half + min) _ (v.sp.in_half + min)
          rw [aset_same]; omega
        · apply fetch_smallest_next E hE.env hio.overflow
          · simp only [aset_same]
            show PageInv E.env E.MAX_ALIGNMENT ((sort_read_area v.sp (v.sp.in_half + min)
              (v.cur_page (v.sp.in_half + min)) rp (v.in_sectaddr min)).internal_memory
                (v.in_sectaddr min))
            rw [hmem _ (le_refl _) (by omega)]
            apply hpages
            rw [hcons]
            apply List.mem_cons_of_mem
            apply List.mem_append_right
            rw [pages_seq_succ _ _ _ (by omega), sub_self, add_zero]
            exact List.mem_cons_self _ _
          · simp only [aset_same]; exact le_refl _
          · simp only [aset_same]
            show 0 < ((sort_read_area v.sp (v.sp.in_half + min)
              (v.cur_page (v.sp.in_half + min)) rp (v.in_sectaddr min)).internal_memory
                (v.in_sectaddr min)).hdr.nslots
            rw [hmem _ (le_refl _) (by omega)]
            have := hq (v.cur_page (v.sp.in_half + min) + (v.in_sectaddr min - v.in_sectaddr min))
              (by omega) (by omega)
            omega
      · rw [if_neg c3]
        refine ⟨?_, le_refl _, fun hc => by cases hc⟩
        intro b hb1 hb2
        simp only [aset_same] at hb1 hb2
        exact hbuf b hb1 hb2
  · rw [if_neg c1]
    refine ⟨hbuf, le_refl _, fun _ => ?_⟩
    apply fetch_smallest_next E hE.env hio.overflow
    · exact hpages _ (by rw [hcons]; exact List.mem_cons_self _ _)
    · simp only [aset_same]; omega
    · simp only [aset_same]; omega
theorem FileFull_frame (E : MergeEnv) (v v1 : MergeVars) (f : Int) (hf : SameFile v v1 f)
    (h : FileFull E v f) : FileFull E v1 f := by
  unfold FileFull at h ⊢
  rw [hf.contents, hf.cur_page, hf.temp]
  exact h

theorem FileFull_adv (E : MergeEnv) (v v1 : MergeVars) (min : Int) (hf : AdvFrame v v1 min)
    (hcur : v.cur_page (v.sp.in_half + min) ≤ v1.cur_page (v.sp.in_half + min))
    (h : FileFull E v (v.sp.in_half + min)) : FileFull E v1 (v.sp.in_half + min) := by
  unfold FileFull at h ⊢
  rw [hf.first_run, hf.last_run, hf.temp, hf.total]
  intro hfr q hr p hp1 hp2
  refine h hfr q ?_ p (by omega) hp2
  refine RunsTo_congr E _ _ _ _ _ _ _ _ (fun _ _ _ => rfl) ?_ hr
  intro j hj1 _
  exact Eq.symm (hf.num_pages j (by omega))

theorem InFull_frame (v v1 : MergeVars) (i : Int) (hs : SameStatic v v1)
    (hi : SameInput v v1 i) (haddr : v.in_sectaddr i ≤ v.in_cur_bufaddr i)
    (hlb : v.in_last_buf i ≤ v.in_sectsize) (h : InFull v i) : InFull v1 i := by
  intro b hb1 hb2
  rw [hi.in_cur_bufaddr] at hb1
  rw [hs.in_sectaddr, hi.in_last_buf] at hb2
  rw [hi.memory b (by omega) (by omega)]
  exact h b hb1 hb2

theorem advance_input_slots (v : MergeVars) (min : Int) :
    SlotsFrame v (advance_input v min).1 := by
  intro f
  unfold advance_input
  simp only
  split_ifs
  all_goals first
    | rfl
    | (show FILE_CONTENTS.num_slots (aset _ (v.sp.in_half + min) _ f) = _
       by_cases hc : f = v.sp.in_half + min
       · rw [hc, aset_same]
       · rw [aset_other _ _ _ _ hc]; rfl)

/-- The end of a pass of the loop, after the next record of the input of the
first node is got, succeeds when every long record can be read. -/
theorem enter_record_next (E : MergeEnv) (hE : EnvSift E) (hio : NoRefusal E) (v v1 v3 : MergeVars)
    (EM EM1 : List (List Byte)) (h : SORT_REC_LIST) (t : List SORT_REC_LIST)
    (hinv : RunLoopInv E v EM) (hl : v.sr_list = h :: t)
    (hpost : EmitPost E v v1 h.rec_pos EM1) (htail : TailInv E.compare v.data EM1 t)
    (hlow : ∀ l ∈ EM1, E.compare l (v.data h.rec_pos) ≤ 0)
    (hadv : AdvFrame v1 v3 h.rec_pos) (hnode : NodeOK E v3 h.rec_pos)
    (hklt : E.compare (v.data h.rec_pos) (v3.data h.rec_pos) < 0) :
    ∃ r, enter_record E v3 h t = Step.next r := by
  unfold enter_record
  simp only
  by_cases hle : v3.last_elem_cmp ≤ 0
  · rw [if_pos hle]
    exact ⟨_, rfl⟩
  · rw [if_neg hle]
    have hdf : decide (v3.act_slot h.rec_pos = v3.last_slot h.rec_pos - 1 ∧
        v3.last_elem_cmp = 0) = false := by
      apply decide_eq_false
      intro hc
      omega
    rw [hdf]
    have hnd : (v.sr_list.map (fun n => n.rec_pos)).Nodup := hinv.order.nodup
    rw [hl] at hnd
    simp only [List.map_cons] at hnd
    have hnd1 := (List.nodup_cons.1 hnd).1
    have htail3 : TailInv E.compare v3.data EM1 t :=
      TailInv_emitted E v v1 v3 v3 EM EM1 h t hinv hl hpost hadv ⟨rfl, rfl⟩ htail
    obtain ⟨ho, hperm⟩ := OrderInv_bubble E hE.order v3 EM1 { h with is_duplicated := false } t
      rfl htail3 hnd1 (fun l hlm => hE.order.lt_of_le_of_lt (hlow l hlm) hklt)
    have hfm : find_minimum E v3 ({ h with is_duplicated := false } :: t) =
        find_minimum_from E v3 { h with is_duplicated := false } t := rfl
    rw [hfm]
    generalize find_minimum_from E v3 { h with is_duplicated := false } t = fm at ho hperm ⊢
    have hplain : RunLoopInv E { v3 with sr_list := fm } EM1 ∧
        LoopFrame v { v3 with sr_list := fm } := by
      refine close_entered E v v1 v3 _ EM EM1 h t hinv hl hpost hadv hnode rfl hperm ho ?_
      intro hc
      exact absurd hc hle
    rcases fm with _ | ⟨h2, t2⟩
    · exact ⟨_, rfl⟩
    · simp only
      split_ifs
      · obtain ⟨v5, e5⟩ := last_element_comparison_next E hE.env hio.overflow
          { v3 with sr_list := h2 :: t2 } (by
            intro m p t' hm
            obtain ⟨_, _, hn⟩ := hplain.1.nodes m (by
              show m ∈ h2 :: t2
              have hm' : h2 :: t2 = m :: p :: t' := hm
              rw [hm']; exact List.mem_cons_self _ _)
            have hi := hn.input
            have hb : v3.in_act_bufno m.rec_pos < v3.in_last_buf m.rec_pos := hi.bufno.2.1
            have hs : 0 ≤ v3.act_slot m.rec_pos ∧
                v3.act_slot m.rec_pos < v3.last_slot m.rec_pos := hi.slot
            have hlast : v3.last_slot m.rec_pos =
                (v3.sp.internal_memory (v3.in_cur_bufaddr m.rec_pos)).hdr.nslots := hi.last
            refine ⟨?_, ?_, ?_⟩
            · apply hi.pages
              show _ ∈ pages_seq v3.sp.internal_memory (v3.in_cur_bufaddr m.rec_pos)
                (v3.in_last_buf m.rec_pos - v3.in_act_bufno m.rec_pos) ++ _
              rw [pages_seq_succ _ _ _ (by omega)]
              exact List.mem_cons_self _ _
            · show 1 ≤ v3.last_slot m.rec_pos
              omega
            · show v3.last_slot m.rec_pos ≤ _
              rw [hlast])
        rw [e5]
        exact ⟨_, rfl⟩
      · exact ⟨_, rfl⟩
theorem find_minimum_from_perm (E : MergeEnv) (v : MergeVars) (s : SORT_REC_LIST) :
    ∀ l : List SORT_REC_LIST,
      List.Perm ((find_minimum_from E v s l).map (fun n => n.rec_pos))
        ((s :: l).map (fun n => n.rec_pos)) := by
  intro l
  induction l with
  | nil => exact List.Perm.refl _
  | cons p rest ih =>
    simp only [find_minimum_from]
    split_ifs
    · simp only [List.map_cons] at ih ⊢
      exact (List.Perm.cons _ ih).trans (List.Perm.swap _ _ _)
    · exact List.Perm.refl _
    · exact List.Perm.refl _

/-- The pages hold a record each after a pass of the loop that outputs the
records of a run: `v1` is the state after the record of the first node is sent
out, `x` the state after its input moved on, `w` the state with the list of the
smallest elements of the end of the pass. -/
theorem LoopFull_step (E : MergeEnv) (v v1 x w : MergeVars) (EM EM1 : List (List Byte))
    (h : SORT_REC_LIST) (t : List SORT_REC_LIST) (hinv : RunLoopInv E v EM)
    (hfull : LoopFull E v EM) (hl : v.sr_list = h :: t)
    (hpost : EmitPost E v v1 h.rec_pos EM1)
    (hout : v.very_last_run = false → OutFull v1 (EM1 ≠ []))
    (hadv : AdvFrame v1 x h.rec_pos) (hx : InFull x h.rec_pos)
    (hcur : v1.cur_page (v1.sp.in_half + h.rec_pos) ≤ x.cur_page (v1.sp.in_half + h.rec_pos))
    (hw : w = { x with sr_list := w.sr_list, last_elem_ptr := w.last_elem_ptr,
                       last_long_recdes := w.last_long_recdes,
                       last_elem_cmp := w.last_elem_cmp })
    (hnodes : ∀ n ∈ w.sr_list, n.rec_pos = h.rec_pos ∨ ∃ n0 ∈ t, n0.rec_pos = n.rec_pos)
    (hEM1 : EM1 ≠ []) : LoopFull E w EM1 := by
  have e_sp : w.sp = x.sp := by rw [hw]
  have e_cb : w.in_cur_bufaddr = x.in_cur_bufaddr := by rw [hw]
  have e_sa : w.in_sectaddr = x.in_sectaddr := by rw [hw]
  have e_lb : w.in_last_buf = x.in_last_buf := by rw [hw]
  have e_cp : w.cur_page = x.cur_page := by rw [hw]
  have e_ai : w.act_infiles = x.act_infiles := by rw [hw]
  have e_vl : w.very_last_run = x.very_last_run := by rw [hw]
  have e_oh : w.out_half = x.out_half := by rw [hw]
  have e_osa : w.out_sectaddr = x.out_sectaddr := by rw [hw]
  have e_ocb : w.out_cur_bufaddr = x.out_cur_bufaddr := by rw [hw]
  have hmem : h ∈ v.sr_list := by rw [hl]; exact List.mem_cons_self _ _
  obtain ⟨h0, h1, hnodeh⟩ := hinv.nodes h hmem
  have hlay := hinv.layout
  have hhf := hlay.act.2
  have hl1 : Layout v1 := Layout_frame v v1 hpost.static hlay
  have e_ih : v1.sp.in_half = v.sp.in_half := hpost.static.in_half
  have e_ihx : x.sp.in_half = v.sp.in_half := hadv.static.in_half.trans e_ih
  have e_hfx : x.sp.half_files = v.sp.half_files :=
    hadv.static.half_files.trans hpost.static.half_files
  have e_aix : x.act_infiles = v.act_infiles :=
    hadv.static.act_infiles.trans hpost.static.act_infiles
  have h1' : h.rec_pos < v1.act_infiles := by rw [hpost.static.act_infiles]; exact h1
  refine ⟨?_, ?_, ?_, ?_, Or.inl hEM1⟩
  · intro n hn
    show ∀ b, w.in_cur_bufaddr n.rec_pos ≤ b → b < w.in_sectaddr n.rec_pos +
      w.in_last_buf n.rec_pos → 1 ≤ (w.sp.internal_memory b).hdr.nslots
    rw [e_cb, e_sa, e_lb, e_sp]
    rcases hnodes n hn with e | ⟨n0, hn0, e⟩
    · rw [e]; exact hx
    · rw [← e]
      obtain ⟨hne, p0, p1, _, _⟩ := in_rest_other E v v1 x EM EM1 h t hinv hl hpost hadv n0 hn0
      have hn0' : n0 ∈ v.sr_list := by rw [hl]; exact List.mem_cons_of_mem _ hn0
      obtain ⟨_, _, hnode⟩ := hinv.nodes n0 hn0'
      have hsi := hpost.inputs n0.rec_pos p0 p1 hne
      have hsf := hpost.files n0.rec_pos p0 (by omega)
      have hnode1 : NodeOK E v1 n0.rec_pos := NodeOK_frame E v v1 _ hpost.static hsi hsf hnode
      have hsi2 := hadv.same_input hl1 h0 h1' n0.rec_pos p0
        (by rw [hpost.static.act_infiles]; exact p1) hne
      have f1 : InFull v1 n0.rec_pos := InFull_frame v v1 _ hpost.static hsi
        (by have := hnode.input.addr; have := hnode.input.bufno; omega)
        hnode.input.bufno.2.2 (hfull.inputs n0 hn0')
      exact InFull_frame v1 x _ hadv.static hsi2
        (by have := hnode1.input.addr; have := hnode1.input.bufno; omega)
        hnode1.input.bufno.2.2 f1
  · intro i hi0 hi1
    rw [e_sp] at hi1
    rw [e_hfx] at hi1
    have g1 : FileFull E v1 (v.sp.in_half + i) :=
      FileFull_frame E v v1 _ (hpost.files i hi0 hi1) (hfull.files i hi0 hi1)
    have g2 : FileFull E x (v.sp.in_half + i) := by
      by_cases hc : i = h.rec_pos
      · rw [hc, ← e_ih]
        rw [hc, ← e_ih] at g1
        exact FileFull_adv E v1 x h.rec_pos hadv hcur g1
      · exact FileFull_frame E v1 x _ (hadv.same_file _ (by rw [e_ih]; omega)) g1
    unfold FileFull at g2 ⊢
    rw [e_sp, e_cp, e_ihx]
    exact g2
  · intro i hi0 hi1
    rw [e_ai, e_aix] at hi1
    rw [e_sp, e_ihx]
    have g := hfull.active i hi0 hi1
    by_cases hc : i = h.rec_pos
    · rw [hc, ← e_ih, hadv.first_run, e_ih, hpost.contents, ← hc]
      exact g
    · rw [(hadv.files (v.sp.in_half + i) (by rw [e_ih]; omega)).1, hpost.contents]
      exact g
  · intro hv
    rw [e_vl, hadv.static.very_last_run, hpost.static.very_last_run] at hv
    have ho := hout hv
    have hoi := hpost.out hv
    have hso := hadv.same_output hl1 h0 h1'
    refine ⟨?_, ?_, ?_⟩
    · intro i hi0 hi1 p hp0 hp1
      rw [e_sp] at hi1 ⊢
      rw [e_hfx] at hi1
      rw [e_oh, hadv.static.out_half] at hp1 ⊢
      have hne : v1.out_half + i ≠ v1.sp.in_half + h.rec_pos := by
        have := in_file_ne_out_file v1 hl1 h.rec_pos i h0
          (by rw [hpost.static.half_files]; omega) hi0 (by rw [hpost.static.half_files]; exact hi1)
        exact fun hc => this hc.symm
      rw [e_cp, (hadv.files _ hne).2] at hp1
      rw [hadv.temp]
      exact ho.files i hi0 (by rw [hpost.static.half_files]; exact hi1) p hp0 hp1
    · intro b hb1 hb2
      rw [e_osa, hadv.static.out_sectaddr] at hb1
      rw [e_ocb, hso.out_cur_bufaddr] at hb2
      rw [e_sp, hso.memory b hb1 (by have := hoi.addr; have := hoi.bufno; omega)]
      exact ho.buffers b hb1 hb2
    · intro hs
      rw [e_ocb, hso.out_cur_bufaddr, e_sp,
        hso.memory _ (by have := hoi.addr; have := hoi.bufno; omega)
          (by have := hoi.addr; have := hoi.bufno; omega)]
      exact ho.active hs
theorem records_left_cons (v : MergeVars) (h : SORT_REC_LIST) (t : List SORT_REC_LIST)
    (hl : v.sr_list = h :: t) :
    records_left v = 1 + (in_rest v h.rec_pos).length +
      ((t.map (fun n => n.rec_pos)).map (fun i => 1 + (in_rest v i).length)).sum := by
  unfold records_left
  rw [hl]
  simp only [List.map_cons, List.sum_cons]

theorem records_left_congr (v w : MergeVars) (l : List SORT_REC_LIST)
    (h : ∀ n ∈ l, in_rest w n.rec_pos = in_rest v n.rec_pos) :
    ((l.map (fun n => n.rec_pos)).map (fun i => 1 + (in_rest w i).length)).sum =
      ((l.map (fun n => n.rec_pos)).map (fun i => 1 + (in_rest v i).length)).sum := by
  congr 1
  apply List.map_congr_left
  intro i hi
  obtain ⟨n, hn, e⟩ := List.mem_map.1 hi
  rw [← e, h n hn]

/-- One pass of the loop that outputs the records of a run succeeds when all
I/O succeeds and every page holds a record; it keeps the invariants of the loop,
sends out or skips a record, and an input has a record less afterwards. -/
theorem merge_iteration_next (E : MergeEnv) (hE : EnvSift E) (hio : NoRefusal E) (v : MergeVars)
    (EM : List (List Byte)) (hinv : RunLoopInv E v EM) (hfull : LoopFull E v EM)
    (hne : v.sr_list ≠ []) :
    ∃ r EM1, merge_iteration E v = Step.next r ∧ RunLoopInv E r.1 EM1 ∧ LoopFull E r.1 EM1 ∧
      LoopFrame v r.1 ∧ SlotsFrame v r.1 ∧ EM1 ≠ [] ∧
      (r.2 = false → r.1.sr_list = []) ∧
      (r.2 = true → r.1.sr_list ≠ [] ∧ records_left r.1 < records_left v) := by
  cases hl : v.sr_list with
  | nil => exact absurd hl hne
  | cons h t =>
    have hmem : h ∈ v.sr_list := by rw [hl]; exact List.mem_cons_self _ _
    obtain ⟨hm0, hm1, hnode⟩ := hinv.nodes h hmem
    have hlay := hinv.layout
    have hhf := hlay.act.2
    obtain ⟨v1, e_emit, hhdr, hlb, hcb, hout1⟩ :=
      emit_record_next E hE hio v EM hinv h t hl hfull.out
    have hem := emit_record_spec E hE v EM hinv h t hl
    rw [e_emit] at hem
    obtain ⟨EM1, hpost, htail, hlow, hsent⟩ := hem
    have hEM1 : EM1 ≠ [] := by
      rcases hsent with ⟨_, kk, e, _⟩ | ⟨hd, e⟩
      · rw [e]; simp
      · rw [e]
        rcases hfull.first with h1 | ⟨h', t', e', hd'⟩
        · exact h1
        · rw [hl] at e'
          have := (List.cons.inj e').1
          rw [this, hd'] at hd
          cases hd
    have hout1' : v.very_last_run = false → OutFull v1 (EM1 ≠ []) := fun hv =>
      OutFull_weaken v1 _ _ (hout1 hv) (fun hc => by
        rcases hsent with ⟨hd, _⟩ | ⟨_, e⟩
        · exact Or.inl hd
        · rw [e] at hc; exact Or.inr hc)
    have e_ih : v1.sp.in_half = v.sp.in_half := hpost.static.in_half
    have hin1 : InFull v1 h.rec_pos := by
      intro b hb1 hb2
      rw [hcb] at hb1
      rw [hpost.static.in_sectaddr, hlb] at hb2
      have hi := hnode.input
      have hlt := section_out_disjoint v hlay h.rec_pos hm0 hm1 b
        ⟨by have := hi.addr; have := hi.bufno; omega, by have := hi.bufno; omega⟩
      rw [hhdr b (by omega)]
      exact hfull.inputs h hmem b hb1 hb2
    have hrest1 : RestInv E v1 (v1.sp.in_half + h.rec_pos) := by
      rw [e_ih]
      exact RestInv_frame E v v1 _ (hpost.files _ hm0 (by omega)) (hinv.rest _ hm0 (by omega))
    have hfile1 : FileFull E v1 (v1.sp.in_half + h.rec_pos) := by
      rw [e_ih]
      exact FileFull_frame E v v1 _ (hpost.files _ hm0 (by omega)) (hfull.files _ hm0 (by omega))
    have hfr : (v1.sp.file_contents (v1.sp.in_half + h.rec_pos)).first_run ≠ -1 := by
      rw [e_ih, hpost.contents]
      exact hfull.active _ hm0 hm1
    obtain ⟨hin_a, hcur_a, hfetch⟩ := advance_next E hE hio v1 h.rec_pos (v.data h.rec_pos)
      hpost.input hin1 hfr hrest1 hfile1
    have hslots_a := advance_input_slots v1 h.rec_pos
    have hslots1 : SlotsFrame v v1 := by
      intro f; rw [hpost.contents]
    unfold merge_iteration
    rw [hl]
    simp only
    rw [e_emit]
    simp only
    unfold proceed_input
    simp only
    rcases advance_fetch_spec E v1 h.rec_pos (v.data h.rec_pos) hpost.input with
      ⟨a2, hadv, hlc1, hnp, hnil⟩ | ⟨a2, hf⟩
    · rw [a2]
      simp only [if_true]
      obtain ⟨r1, r2⟩ := close_done E v v1 EM EM1 h t hinv hl hpost htail a2 hadv hlc1 hnp
      have hfl : LoopFull E { (advance_input v1 h.rec_pos).1 with sr_list := t } EM1 :=
        LoopFull_step E v v1 _ _ EM EM1 h t hinv hfull hl hpost hout1' hadv hin_a hcur_a rfl
          (fun n hn => Or.inr ⟨n, hn, rfl⟩) hEM1
      have hsl : SlotsFrame v { (advance_input v1 h.rec_pos).1 with sr_list := t } := by
        intro f
        exact (hslots_a f).trans (hslots1 f)
      cases t with
      | nil =>
        exact ⟨(_, false), EM1, rfl, r1, hfl, r2, hsl, hEM1, fun _ => rfl,
          fun hc => by cases hc⟩
      | cons p t' =>
        refine ⟨(_, true), EM1, rfl, r1, hfl, r2, hsl, hEM1, (fun hc => by cases hc),
          fun _ => ⟨List.cons_ne_nil _ _, ?_⟩⟩
        rw [records_left_cons v h (p :: t') hl]
        have hoth := in_rest_other E v v1 (advance_input v1 h.rec_pos).1 EM EM1 h (p :: t')
          hinv hl hpost hadv
        have e := records_left_congr v
          { (advance_input v1 h.rec_pos).1 with sr_list := p :: t' } (p :: t')
          (fun n hn => (hoth n hn).2.2.2.1)
        have e0 : records_left { (advance_input v1 h.rec_pos).1 with sr_list := p :: t' } =
            (((p :: t').map (fun n => n.rec_pos)).map (fun i => 1 +
              (in_rest { (advance_input v1 h.rec_pos).1 with sr_list := p :: t' } i).length)).sum :=
          rfl
        rw [e0, e]
        omega
    · rw [a2]
      simp only [Bool.false_eq_true, if_false]
      obtain ⟨v3, hfs⟩ := hfetch a2
      rw [hfs]
      simp only
      obtain ⟨hadv, hnode3, hklt, hsame, hrest3⟩ := hf v3 hfs
      obtain ⟨r, hr⟩ := enter_record_next E hE hio v v1 v3 EM EM1 h t hinv hl hpost htail hlow
        hadv hnode3 hklt
      have hsp := enter_record_spec E hE v v1 v3 EM EM1 h t hinv hl hpost htail hlow hadv
        hnode3 hklt hsame
      rw [hr] at hsp ⊢
      obtain ⟨q1, q2, q3⟩ := hsp
      obtain ⟨hshape, hlist⟩ := enter_record_shape E v3 h t r hr
      obtain ⟨_, _, _, _, _, f6⟩ := fetch_smallest_spec E _ v3 h.rec_pos hfs
      have e3_sp : v3.sp = (advance_input v1 h.rec_pos).1.sp := by rw [f6]
      have e3_cb : v3.in_cur_bufaddr = (advance_input v1 h.rec_pos).1.in_cur_bufaddr := by
        rw [f6]
      have e3_sa : v3.in_sectaddr = (advance_input v1 h.rec_pos).1.in_sectaddr := by rw [f6]
      have e3_lb : v3.in_last_buf = (advance_input v1 h.rec_pos).1.in_last_buf := by rw [f6]
      have e3_cp : v3.cur_page = (advance_input v1 h.rec_pos).1.cur_page := by rw [f6]
      have hin3 : InFull v3 h.rec_pos := by
        unfold InFull
        rw [e3_sp, e3_cb, e3_sa, e3_lb]
        exact hin_a
      have hperm : List.Perm (r.1.sr_list.map (fun n => n.rec_pos))
          ((h :: t).map (fun n => n.rec_pos)) := by
        rcases hlist with ⟨_, _, e⟩ | ⟨_, e⟩
        · rw [e]; exact List.Perm.refl _
        · rw [e]
          exact find_minimum_from_perm E v3 { h with is_duplicated := false } t
      have hfl : LoopFull E r.1 EM1 :=
        LoopFull_step E v v1 v3 r.1 EM EM1 h t hinv hfull hl hpost hout1' hadv hin3
          (by rw [e3_cp]; exact hcur_a) hshape
          (fun n hn => by
            have hm : n.rec_pos ∈ (h :: t).map (fun n => n.rec_pos) :=
              hperm.subset (List.mem_map_of_mem _ hn)
            simp only [List.map_cons, List.mem_cons, List.mem_map] at hm
            rcases hm with e | ⟨n0, hn0, e⟩
            · exact Or.inl e
            · exact Or.inr ⟨n0, hn0, e⟩) hEM1
      have hsl : SlotsFrame v r.1 := by
        intro f
        have : r.1.sp = v3.sp := by rw [hshape]
        rw [this, e3_sp]
        exact (hslots_a f).trans (hslots1 f)
      refine ⟨r, EM1, rfl, q1, hfl, q2, hsl, hEM1, (fun hc => by rw [q3] at hc; cases hc),
        fun _ => ⟨?_, ?_⟩⟩
      · intro hc
        rw [hc] at hperm
        have := hperm.length_eq
        simp at this
      · rw [records_left_cons v h t hl]
        have e_rest : ∀ i, in_rest r.1 i = in_rest v3 i := by
          intro i; rw [hshape]; rfl
        have e0 : records_left r.1 =
            (((h :: t).map (fun n => n.rec_pos)).map
              (fun i => 1 + (in_rest v3 i).length)).sum := by
          unfold records_left
          rw [(hperm.map _).sum_eq]
          congr 1
          apply List.map_congr_left
          intro i _
          rw [e_rest]
        have hoth := in_rest_other E v v1 v3 EM EM1 h t hinv hl hpost hadv
        have e := records_left_congr v v3 t (fun n hn => (hoth n hn).2.2.2.1)
        rw [e0]
        simp only [List.map_cons, List.sum_cons]
        rw [e]
        have e1 : in_rest v h.rec_pos = v3.smallest_elem_ptr h.rec_pos :: in_rest v3 h.rec_pos := by
          rw [← hpost.rest]; exact hrest3
        rw [e1, List.length_cons]
        omega
theorem records_left_pos (v : MergeVars) (hne : v.sr_list ≠ []) : 1 ≤ records_left v := by
  cases hl : v.sr_list with
  | nil => exact absurd hl hne
  | cons h t =>
    rw [records_left_cons v h t hl]
    omega

theorem SlotsFrame_trans {v v1 v2 : MergeVars} (h1 : SlotsFrame v v1) (h2 : SlotsFrame v1 v2) :
    SlotsFrame v v2 := fun f => (h2 f).trans (h1 f)

/-- The loop that outputs the records of a run runs to its end when all I/O
succeeds and every page holds a record: with enough fuel it gives a state that
does not depend on the fuel, in which the list of the smallest elements is
empty and a record is sent out. -/
theorem merge_loop_next (E : MergeEnv) (hE : EnvSift E) (hio : NoRefusal E) :
    ∀ (n : Nat) (v : MergeVars) (EM : List (List Byte)), RunLoopInv E v EM →
      LoopFull E v EM → v.sr_list ≠ [] → records_left v ≤ n →
      ∃ w EM1, (∀ fuel, n ≤ fuel → merge_loop E fuel v = Step.next w) ∧
        RunLoopInv E w EM1 ∧ LoopFull E w EM1 ∧ LoopFrame v w ∧ SlotsFrame v w ∧
        EM1 ≠ [] ∧ w.sr_list = [] := by
  intro n
  induction n with
  | zero =>
    intro v EM _ _ hne hle
    have := records_left_pos v hne
    omega
  | succ m ih =>
    intro v EM hinv hfull hne hle
    obtain ⟨r, EM1, e, q1, q2, q3, q4, q5, q6, q7⟩ :=
      merge_iteration_next E hE hio v EM hinv hfull hne
    obtain ⟨v1, b⟩ := r
    cases b with
    | false =>
      refine ⟨v1, EM1, ?_, q1, q2, q3, q4, q5, q6 rfl⟩
      intro fuel hf
      obtain ⟨f, rfl⟩ : ∃ f, fuel = f + 1 := ⟨fuel - 1, by omega⟩
      simp only [merge_loop, e]
    | true =>
      obtain ⟨hne1, hlt⟩ := q7 rfl
      obtain ⟨w, EM2, g1, g2, g3, g4, g5, g6, g7⟩ := ih v1 EM1 q1 q2 hne1 (by
        have : records_left v1 < records_left v := hlt
        omega)
      refine ⟨w, EM2, ?_, g2, g3, LoopFrame_trans q3 g4, SlotsFrame_trans q4 g5, g6, g7⟩
      intro fuel hf
      obtain ⟨f, rfl⟩ : ∃ f, fuel = f + 1 := ⟨fuel - 1, by omega⟩
      simp only [merge_loop, e]
      exact g1 f (by omega)

theorem read_input_section_slots (v : MergeVars) (i : Int) :
    SlotsFrame v (read_input_section v i) := by
  intro f
  unfold read_input_section
  simp only
  show FILE_CONTENTS.num_slots (aset _ (v.sp.in_half + i) _ f) = _
  by_cases hc : f = v.sp.in_half + i
  · rw [hc, aset_same]; rfl
  · rw [aset_other _ _ _ _ hc]; rfl

/-- Reading the first pages of the current run of an input and getting its
first record succeeds when the pages of the run hold a record each. -/
theorem read_fetch_next (E : MergeEnv) (hE : EnvSift E) (hio : NoRefusal E) (v : MergeVars) (i : Int)
    (hss : 1 ≤ v.in_sectsize) (hr : RunsInv E v (v.sp.in_half + i))
    (hne : (v.sp.file_contents (v.sp.in_half + i)).first_run ≠ -1)
    (hfile : FileFull E v (v.sp.in_half + i)) :
    ∃ v2, fetch_smallest E (read_input_section v i) i = Step.next v2 ∧ InFull v2 i ∧
      v.cur_page (v.sp.in_half + i) ≤ v2.cur_page (v.sp.in_half + i) := by
  have hrest := RunsInv_rest E v _ hr
  have hq : ∀ p, v.cur_page (v.sp.in_half + i) ≤ p →
      p < v.cur_page (v.sp.in_half + i) +
        (v.sp.file_contents (v.sp.in_half + i)).num_pages
          (v.sp.file_contents (v.sp.in_half + i)).first_run →
      1 ≤ (v.sp.temp (v.sp.in_half + i) p).hdr.nslots := by
    intro p hp1 hp2
    rcases hrest with hr' | ⟨_, _, q, hr'⟩
    · exact absurd hr' hne
    · have hle := RunsTo_le E _ _ _ _ _ _ hr'
      exact hfile hne q hr' p hp1 (by omega)
  unfold RunsInv at hr
  rcases hr with hr | ⟨h1, h2, hpos, q, hruns⟩
  · exact absurd hr hne
  · have e : ((v.sp.file_contents (v.sp.in_half + i)).last_run -
          (v.sp.file_contents (v.sp.in_half + i)).first_run + 1).toNat =
        ((v.sp.file_contents (v.sp.in_half + i)).last_run -
          (v.sp.file_contents (v.sp.in_half + i)).first_run).toNat + 1 := by omega
    rw [e] at hruns
    simp only [RunsTo] at hruns
    obtain ⟨_, ⟨hpg, _⟩, _⟩ := hruns
    have hnp := hpos _ (le_refl _) h2
    obtain ⟨rp, hrp⟩ : ∃ rp, rp = (if v.in_sectsize <
        (v.sp.file_contents (v.sp.in_half + i)).num_pages
          (v.sp.file_contents (v.sp.in_half + i)).first_run then v.in_sectsize
      else (v.sp.file_contents (v.sp.in_half + i)).num_pages
        (v.sp.file_contents (v.sp.in_half + i)).first_run) := ⟨_, rfl⟩
    have hrp1 : 1 ≤ rp ∧ rp ≤ (v.sp.file_contents (v.sp.in_half + i)).num_pages
        (v.sp.file_contents (v.sp.in_half + i)).first_run := by
      rw [hrp]; split_ifs <;> omega
    have e_mem : ∀ b, (read_input_section v i).sp.internal_memory b =
        if v.in_sectaddr i ≤ b ∧ b < v.in_sectaddr i + rp then
          v.sp.temp (v.sp.in_half + i) (v.cur_page (v.sp.in_half + i) + (b - v.in_sectaddr i))
        else v.sp.internal_memory b := by
      intro b; rw [hrp]; rfl
    have e_cb : (read_input_section v i).in_cur_bufaddr i = v.in_sectaddr i := aset_same _ _ _
    have e_as : (read_input_section v i).act_slot i = 0 := aset_same _ _ _
    have e_lb : (read_input_section v i).in_last_buf i = rp := by
      rw [hrp]; exact aset_same _ _ _
    have e_cp : (read_input_section v i).cur_page (v.sp.in_half + i) =
        v.cur_page (v.sp.in_half + i) + rp := by
      rw [hrp]; exact aset_same _ _ _
    have e_sa : (read_input_section v i).in_sectaddr = v.in_sectaddr := rfl
    have hfirst : 1 ≤ (v.sp.temp (v.sp.in_half + i) (v.cur_page (v.sp.in_half + i))).hdr.nslots :=
      hq _ (le_refl _) (by omega)
    obtain ⟨v2, hf⟩ := fetch_smallest_next E hE.env hio.overflow (read_input_section v i) i
      (by
        rw [e_cb, e_mem, if_pos ⟨le_refl _, by omega⟩, sub_self, add_zero]
        apply hpg
        rw [pages_seq_succ _ _ _ (by omega)]
        exact List.mem_cons_self _ _)
      (by rw [e_as])
      (by
        rw [e_as, e_cb, e_mem, if_pos ⟨le_refl _, by omega⟩, sub_self, add_zero]
        omega)
    obtain ⟨_, _, _, _, _, f6⟩ := fetch_smallest_spec E _ v2 i hf
    refine ⟨v2, hf, ?_, ?_⟩
    · intro b hb1 hb2
      have e1 : v2.in_cur_bufaddr = (read_input_section v i).in_cur_bufaddr := by rw [f6]
      have e2 : v2.in_sectaddr = (read_input_section v i).in_sectaddr := by rw [f6]
      have e3 : v2.in_last_buf = (read_input_section v i).in_last_buf := by rw [f6]
      have e4 : v2.sp = (read_input_section v i).sp := by rw [f6]
      rw [e1, e_cb] at hb1
      rw [e2, e3, e_sa, e_lb] at hb2
      rw [e4, e_mem, if_pos ⟨hb1, hb2⟩]
      exact hq _ (by omega) (by omega)
    · have e5 : v2.cur_page = (read_input_section v i).cur_page := by rw [f6]
      rw [e5, e_cp]
      omega
/-- The loop that reads the input sections runs to its end when the pages of
the runs hold a record each. -/
theorem init_input_sections_next (E : MergeEnv) (hE : EnvSift E) (hio : NoRefusal E)
    (v0 : MergeVars) (hs0 : RunStartInv E v0) :
    ∀ (n : Nat) (v : MergeVars) (i : Int), InitInv E v0 v i →
      (∀ j, 0 ≤ j → j < i → InFull v j) →
      (∀ j, 0 ≤ j → j < v0.sp.half_files → FileFull E v (v0.sp.in_half + j)) →
      SlotsFrame v0 v → 0 ≤ i → i ≤ v0.act_infiles → v0.act_infiles ≤ i + n →
      ∃ v2, init_input_sections E n v i = Step.next v2 ∧ InitInv E v0 v2 v0.act_infiles ∧
        (∀ j, 0 ≤ j → j < v0.act_infiles → InFull v2 j) ∧
        (∀ j, 0 ≤ j → j < v0.sp.half_files → FileFull E v2 (v0.sp.in_half + j)) ∧
        SlotsFrame v0 v2 := by
  intro n
  induction n with
  | zero =>
    intro v i hinv hin hfile hsl _ h1 h2
    have : i = v0.act_infiles := by omega
    rw [← this]
    exact ⟨v, rfl, hinv, hin, hfile, hsl⟩
  | succ n ih =>
    intro v i hinv hin hfile hsl h0 h1 h2
    unfold init_input_sections
    have hst := hinv.frame.static
    have hact : v.act_infiles = v0.act_infiles := hst.act_infiles
    have hih : v.sp.in_half = v0.sp.in_half := hst.in_half
    have hile : v0.act_infiles ≤ v0.sp.half_files := hs0.layout.act.2
    by_cases hc : i < v.act_infiles
    · rw [if_pos hc]
      have hl : Layout v := Layout_frame v0 v hst hs0.layout
      have hruns : RunsInv E v (v.sp.in_half + i) := by
        rw [hih]
        exact RunsInv_frame E v0 v _ (hinv.todo i (le_refl _) (by omega))
          (hs0.inputs i h0 (by omega))
      have hne : (v.sp.file_contents (v.sp.in_half + i)).first_run ≠ -1 := by
        rw [hinv.frame.first_run, hih]
        exact hs0.active i h0 (by omega)
      obtain ⟨v2, hf, hin2, hcur⟩ := read_fetch_next E hE hio v i hl.sectsize hruns hne
        (by rw [hih]; exact hfile i h0 (by omega))
      rw [hf]
      simp only
      have hadv : AdvFrame v v2 i :=
        AdvFrame_of_fetch E v _ v2 i hf (read_input_section_frame v i)
      obtain ⟨_, _, _, _, _, f6⟩ := fetch_smallest_spec E _ v2 i hf
      refine ih v2 (i + 1) (init_input_step E v0 v v2 i hs0 hinv h0 (by omega) hf) ?_ ?_ ?_
        (by omega) (by omega) (by push_cast at h2; omega)
      · intro j hj0 hj1
        by_cases e : j = i
        · rw [e]; exact hin2
        · have hnj := hinv.nodes j hj0 (by omega)
          exact InFull_frame v v2 j hadv.static
            (hadv.same_input hl h0 (by omega) j hj0 (by omega) e)
            (by have := hnj.input.addr; have := hnj.input.bufno; omega)
            hnj.input.bufno.2.2 (hin j hj0 (by omega))
      · intro j hj0 hj1
        by_cases e : j = i
        · rw [e, ← hih]
          refine FileFull_adv E v v2 i hadv hcur ?_
          rw [hih]
          exact hfile i h0 (by omega)
        · exact FileFull_frame E v v2 _ (hadv.same_file _ (by omega)) (hfile j hj0 hj1)
      · have e4 : v2.sp = (read_input_section v i).sp := by rw [f6]
        intro f
        rw [e4]
        exact (read_input_section_slots v i f).trans (hsl f)
    · rw [if_neg hc]
      have : i = v0.act_infiles := by omega
      rw [← this]
      exact ⟨v, rfl, hinv, hin, hfile, hsl⟩

theorem sr_list_start_head (E : MergeEnv) (v : MergeVars) (a : Int) :
    ∃ h t, sr_list_find_duplicate E v (sr_list_sort E v (sr_list_init a).length
      (sr_list_init a)) = h :: t ∧ h.is_duplicated = false := by
  have hun := sr_list_sort_unflagged E v (sr_list_init a).length (sr_list_init a)
    (sr_list_init_unflagged a)
  have hlen : (sr_list_init a).length ≠ 0 := by
    unfold sr_list_init
    rw [List.length_map, List.length_range]
    split_ifs <;> omega
  cases hi : sr_list_init a with
  | nil => rw [hi] at hlen; exact absurd rfl hlen
  | cons s rest =>
    rw [hi] at hun
    simp only [List.length_cons, sr_list_sort] at hun ⊢
    exact ⟨_, _, rfl, hun _ (List.mem_cons_self _ _)⟩

/-- The start of a run succeeds when all I/O succeeds and the pages of the runs
hold a record each; it establishes the invariants of the loop that outputs the
records of the run. -/
theorem start_run_next (E : MergeEnv) (hE : EnvSift E) (hio : NoRefusal E) (v1 : MergeVars)
    (hs : RunStartInv E v1) (hfull : RunFull E v1) :
    ∃ v4, start_run E v1 = Step.next v4 ∧ RunLoopInv E v4 [] ∧ LoopFrame v1 v4 ∧
      LoopFull E v4 [] ∧ SlotsFrame v1 v4 ∧ v4.sr_list ≠ [] := by
  obtain ⟨v2, hi, hinv, hin, hfile, hsl⟩ := init_input_sections_next E hE hio v1 hs
    v1.act_infiles.toNat v1 0 (InitInv_start E v1) (fun j h0 h1 => by omega) hfull.files
    (fun _ => rfl) (le_refl _) (by have := hs.act; omega) (by have := hs.act; omega)
  have hst := hinv.frame.static
  have hact : v2.act_infiles = v1.act_infiles := hst.act_infiles
  obtain ⟨ho, hperm⟩ := sr_list_init_order E hE.order v2 v2.act_infiles
  obtain ⟨hh, ht, hhead, hflag⟩ := sr_list_start_head E v2 v2.act_infiles
  obtain ⟨l1, hl1⟩ : ∃ l1, l1 = sr_list_find_duplicate E v2
      (sr_list_sort E v2 (sr_list_init v2.act_infiles).length
        (sr_list_init v2.act_infiles)) := ⟨_, rfl⟩
  rw [← hl1] at ho hperm hhead
  have hsl1 : start_list E v2 = { v2 with sr_list := l1, last_elem_cmp := 1 } := by
    rw [hl1]; rfl
  have hpos : ∀ n ∈ l1, 0 ≤ n.rec_pos ∧ n.rec_pos < v1.act_infiles := by
    intro n hn
    have := hperm.subset (List.mem_map_of_mem (fun n => n.rec_pos) hn)
    rw [sr_list_init_positions _ (by rw [hact]; exact hs.act), hact] at this
    exact this
  obtain ⟨v3, hlec⟩ := last_element_comparison_next E hE.env hio.overflow
    { v2 with sr_list := l1, last_elem_cmp := 1 } (by
      intro m p t' hm
      have hm' : l1 = m :: p :: t' := hm
      obtain ⟨p0, p1⟩ := hpos m (by rw [hm']; exact List.mem_cons_self _ _)
      have hn := hinv.nodes m.rec_pos p0 p1
      have hi' := hn.input
      have hb : v2.in_act_bufno m.rec_pos < v2.in_last_buf m.rec_pos := hi'.bufno.2.1
      have hs' : 0 ≤ v2.act_slot m.rec_pos ∧
          v2.act_slot m.rec_pos < v2.last_slot m.rec_pos := hi'.slot
      have hlast : v2.last_slot m.rec_pos =
          (v2.sp.internal_memory (v2.in_cur_bufaddr m.rec_pos)).hdr.nslots := hi'.last
      refine ⟨?_, ?_, ?_⟩
      · apply hi'.pages
        show _ ∈ pages_seq v2.sp.internal_memory (v2.in_cur_bufaddr m.rec_pos)
          (v2.in_last_buf m.rec_pos - v2.in_act_bufno m.rec_pos) ++ _
        rw [pages_seq_succ _ _ _ (by omega)]
        exact List.mem_cons_self _ _
      · show 1 ≤ v2.last_slot m.rec_pos
        omega
      · show v2.last_slot m.rec_pos ≤ _
        rw [hlast])
  have hstart : start_run E v1 = Step.next (start_output E v3) := by
    unfold start_run
    rw [hi]
    simp only
    rw [hsl1, hlec]
  have hspec := start_run_spec E hE v1 hs
  rw [hstart] at hspec
  obtain ⟨r1, r2⟩ : RunLoopInv E (start_output E v3) [] ∧ LoopFrame v1 (start_output E v3) :=
    hspec
  obtain ⟨q1, _, _⟩ := last_element_comparison_spec E _ v3 hlec
  obtain ⟨vF, hvF⟩ : ∃ vF : MergeVars, vF = start_output E v3 := ⟨_, rfl⟩
  rw [← hvF] at r1 r2
  have hs2F : SameStatic v2 vF := by
    rw [hvF, q1]
    exact ⟨rfl, rfl, rfl, rfl, rfl, rfl, rfl, rfl, rfl, rfl, rfl, rfl⟩
  have hl2 : Layout v2 := Layout_frame v1 v2 hst hs.layout
  have hmemF : ∀ b, vF.sp.internal_memory b =
      if v2.out_sectaddr ≤ b ∧ b < v2.out_sectaddr + v2.out_sectsize then
        sort_spage_initialize E.env (v2.sp.internal_memory b) E.UNANCHORED_KEEP_SEQUENCE
          E.MAX_ALIGNMENT
      else v2.sp.internal_memory b := by
    intro b; rw [hvF, q1]; rfl
  have hfileF : ∀ f, SameFile v2 vF f := by
    intro f; rw [hvF, q1]; exact ⟨rfl, rfl, rfl⟩
  have hinF : ∀ j, 0 ≤ j → j < v2.act_infiles → SameInput v2 vF j := by
    intro j hj0 hj1
    have e1 : vF.in_act_bufno = v2.in_act_bufno := by rw [hvF, q1]; rfl
    have e2 : vF.in_last_buf = v2.in_last_buf := by rw [hvF, q1]; rfl
    have e3 : vF.act_slot = v2.act_slot := by rw [hvF, q1]; rfl
    have e4 : vF.last_slot = v2.last_slot := by rw [hvF, q1]; rfl
    have e5 : vF.in_cur_bufaddr = v2.in_cur_bufaddr := by rw [hvF, q1]; rfl
    have e6 : vF.smallest_elem_ptr = v2.smallest_elem_ptr := by rw [hvF, q1]; rfl
    have e7 : vF.long_recdes = v2.long_recdes := by rw [hvF, q1]; rfl
    refine ⟨by rw [e1], by rw [e2], by rw [e3], by rw [e4], by rw [e5], by rw [e6],
      by rw [e7], ?_⟩
    intro b hb1 hb2
    rw [hmemF, if_neg]
    intro hc
    exact section_out_disjoint v2 hl2 j hj0 hj1 b ⟨hb1, hb2⟩ hc.1
  have e_sr : vF.sr_list = l1 := by rw [hvF, q1]; rfl
  have e_ocb : vF.out_cur_bufaddr = vF.out_sectaddr := by rw [hvF]; rfl
  have e_slots : vF.sp.file_contents = v2.sp.file_contents := by rw [hvF, q1]; rfl
  refine ⟨vF, by rw [hvF]; exact hstart, r1, r2, ⟨?_, ?_, ?_, ?_, ?_⟩, ?_, ?_⟩
  · intro n hn
    rw [e_sr] at hn
    obtain ⟨p0, p1⟩ := hpos n hn
    have hnj := hinv.nodes n.rec_pos p0 p1
    exact InFull_frame v2 vF _ hs2F (hinF _ p0 (by rw [hact]; exact p1))
      (by have := hnj.input.addr; have := hnj.input.bufno; omega)
      hnj.input.bufno.2.2 (hin _ p0 p1)
  · intro i hi0 hi1
    rw [r2.static.half_files] at hi1
    rw [r2.static.in_half]
    exact FileFull_frame E v2 vF _ (hfileF _) (hfile i hi0 hi1)
  · intro i hi0 hi1
    rw [r2.static.act_infiles] at hi1
    rw [r2.static.in_half, r2.first_run]
    exact hs.active i hi0 hi1
  · intro _
    refine ⟨?_, ?_, fun hc => absurd rfl hc⟩
    · intro i hi0 hi1 p hp0 hp1
      rw [r2.static.half_files] at hi1
      rw [r2.static.out_half] at hp1 ⊢
      have hsf := SameFile_trans (hinv.outs i hi0 hi1) (hfileF _)
      rw [hsf.cur_page] at hp1
      rw [hsf.temp]
      exact hfull.outs i hi0 hi1 p hp0 hp1
    · intro b hb1 hb2
      rw [e_ocb] at hb2
      omega
  · right
    exact ⟨hh, ht, by rw [e_sr]; exact hhead, hflag⟩
  · intro f
    rw [e_slots]
    exact hsl f
  · rw [e_sr, hhead]
    exact List.cons_ne_nil _ _
theorem RunsTo_unique (E : MergeEnv) (pages : Int → Page) (num_pages : Int → Int) :
    ∀ (n : Nat) (k p q q1 : Int), RunsTo E pages num_pages n k p q →
      RunsTo E pages num_pages n k p q1 → q = q1 := by
  intro n
  induction n with
  | zero =>
    intro k p q q1 h h1
    simp only [RunsTo] at h h1
    omega
  | succ n ih =>
    intro k p q q1 h h1
    simp only [RunsTo] at h h1
    exact ih _ _ _ _ h.2.2 h1.2.2

theorem LedgerBound_mono (fc : FILE_CONTENTS) (k k1 : Int) (hk : k ≤ k1)
    (h : LedgerBound fc k) : LedgerBound fc k1 := by
  unfold LedgerBound at h ⊢
  obtain ⟨h1, h2, h3⟩ := h
  refine ⟨?_, by omega, h3⟩
  have : max 60 (3 * k + 1) ≤ max 60 (3 * k1 + 1) := max_le_max (le_refl _) (by omega)
  omega

theorem Cap_frame (v w : MergeVars) (k : Int) (hhf : w.sp.half_files = v.sp.half_files)
    (hfr : ∀ f, (w.sp.file_contents f).first_run = (v.sp.file_contents f).first_run)
    (hlr : ∀ f, (w.sp.file_contents f).last_run = (v.sp.file_contents f).last_run)
    (hsl : SlotsFrame v w) (h : Cap v k) : Cap w k := by
  intro f hf0 hf1
  rw [hhf] at hf1
  obtain ⟨h1, h2⟩ := h f hf0 hf1
  refine ⟨?_, ?_⟩
  · unfold LedgerWF at h1 ⊢
    rw [hfr, hlr, hsl]
    exact h1
  · unfold LedgerBound at h2 ⊢
    rw [hlr, hsl]
    exact h2

theorem Cap_mono (v : MergeVars) (k k1 : Int) (hk : k ≤ k1) (h : Cap v k) : Cap v k1 :=
  fun f hf0 hf1 => ⟨(h f hf0 hf1).1, LedgerBound_mono _ k k1 hk (h f hf0 hf1).2⟩

/-- `END UP THIS RUN` succeeds when the ledger of the output file is well
formed and its array is not too long. -/
theorem end_run_next (v : MergeVars) (k : Int)
    (hco : ¬ (v.sp.in_half ≤ v.cur_outfile ∧ v.cur_outfile < v.sp.in_half + v.sp.half_files))
    (hhf : 0 ≤ v.sp.half_files) (hwf : LedgerWF (v.sp.file_contents v.cur_outfile))
    (hb : LedgerBound (v.sp.file_contents v.cur_outfile) k) (hk0 : 0 ≤ k) (hk : k < 2 ^ 24) :
    ∃ w oc, end_run v = Step.next w ∧ EndPost v w oc ∧ LedgerWF oc ∧ LedgerBound oc (k + 1) ∧
      sort_get_num_file_contents oc =
        sort_get_num_file_contents (v.sp.file_contents v.cur_outfile) + 1 := by
  obtain ⟨fc1, hadd, hwf1, hb1, hf1, hl1, _⟩ := add_new_bound (v.sp.file_contents v.cur_outfile)
    v.out_runsize k hwf hb hk0 hk
  have hcnt : sort_get_num_file_contents fc1 =
      sort_get_num_file_contents (v.sp.file_contents v.cur_outfile) + 1 := by
    unfold sort_get_num_file_contents
    rw [hf1, hl1]
    unfold LedgerWF at hwf
    split_ifs <;> omega
  rcases end_run_cases v hco hhf with ⟨s, hs⟩ | ⟨w, oc, hw, hadd', hpost⟩
  · exfalso
    unfold end_run at hs
    simp only at hs
    obtain ⟨_, _, _, _, _, _, a7⟩ := remove_first_runs_spec v.sp.half_files.toNat
      v.sp v.sp.in_half
    have e7 : (remove_first_runs v.sp.half_files.toNat v.sp
        v.sp.in_half).file_contents v.cur_outfile = v.sp.file_contents v.cur_outfile := by
      rw [a7, if_neg]
      intro hc
      exact hco ⟨hc.1, hc.2.2⟩
    rw [e7, hadd] at hs
    cases hs
  · rw [hadd] at hadd'
    have e : fc1 = oc := by
      have := Option.some.inj hadd'
      exact (Prod.mk.inj this).2
    rw [← e] at hpost
    exact ⟨w, fc1, hw, hpost, hwf1, hb1, hcnt⟩

theorem final_flush_temp (v : MergeVars) (hv : v.very_last_run = false) (f p : Int) :
    (final_flush v).sp.temp f p =
      if f = v.cur_outfile ∧ v.cur_page v.cur_outfile ≤ p ∧
          p < v.cur_page v.cur_outfile + (v.out_act_bufno + 1) then
        v.sp.internal_memory (v.out_sectaddr + (p - v.cur_page v.cur_outfile))
      else v.sp.temp f p := by
  unfold final_flush
  rw [if_pos hv]
  rfl

theorem final_flush_last (v : MergeVars) (hv : v.very_last_run = true) : final_flush v = v := by
  unfold final_flush
  rw [if_neg (by rw [hv]; decide)]

/-- The pages of an input file not read yet hold a record each after its first
run, which is read to its end, is removed from its ledger. -/
theorem FileFull_after_run (E : MergeEnv) (v w : MergeVars) (f : Int)
    (hrest : RestInv E v f)
    (hdone : (v.sp.file_contents f).first_run ≠ -1 →
      (v.sp.file_contents f).num_pages (v.sp.file_contents f).first_run = 0)
    (hfull : FileFull E v f)
    (hw_fc : w.sp.file_contents f = sort_run_remove_first (v.sp.file_contents f))
    (hw_temp : w.sp.temp f = v.sp.temp f) (hw_cp : w.cur_page f = v.cur_page f) :
    FileFull E w f := by
  unfold FileFull
  rw [hw_fc, hw_temp, hw_cp]
  unfold sort_run_remove_first
  by_cases h1 : (v.sp.file_contents f).first_run = -1
  · rw [if_neg (by rw [h1]; decide)]
    intro hc
    exact absurd h1 hc
  · rw [if_pos h1]
    by_cases h2 : (v.sp.file_contents f).first_run + 1 > (v.sp.file_contents f).last_run
    · rw [if_pos h2]
      intro hc
      exact absurd rfl hc
    · rw [if_neg h2]
      intro _ q hr p hp1 hp2
      simp only at hr
      refine hfull h1 q ?_ p hp1 hp2
      rcases hrest with h | ⟨_, _, q', h3⟩
      · exact absurd h h1
      · have e : ((v.sp.file_contents f).last_run - (v.sp.file_contents f).first_run).toNat =
            ((v.sp.file_contents f).last_run -
              ((v.sp.file_contents f).first_run + 1)).toNat + 1 := by omega
        rw [e] at h3 ⊢
        simp only [RunsTo] at h3 ⊢
        rw [hdone h1, add_zero] at h3 ⊢
        exact ⟨h3.1, h3.2.1, hr⟩
theorem Cap_end_run (v w : MergeVars) (oc : FILE_CONTENTS) (k : Int) (hpost : EndPost v w oc)
    (hcap : Cap v k) (hwf : LedgerWF oc) (hb : LedgerBound oc (k + 1)) : Cap w (k + 1) := by
  intro f hf0 hf1
  have e : w.sp.half_files = v.sp.half_files := hpost.static.half_files
  rw [e] at hf1
  rw [hpost.contents f]
  obtain ⟨c1, c2⟩ := hcap f hf0 hf1
  split_ifs
  · exact ⟨hwf, hb⟩
  · obtain ⟨r1, r2⟩ := remove_first_bound _ k c1 c2
    exact ⟨r1, LedgerBound_mono _ k (k + 1) (by omega) r2⟩
  · exact ⟨c1, LedgerBound_mono _ k (k + 1) (by omega) c2⟩

theorem cur_outfile_range (v : MergeVars) (hl : Layout v) :
    0 ≤ v.cur_outfile ∧ v.cur_outfile < 2 * v.sp.half_files := by
  have h1 := hl.outfile
  have h2 := hl.act
  rcases hl.halves with ⟨_, h⟩ | ⟨_, h⟩ <;> omega

theorem end_run_out_count (v w : MergeVars) (oc : FILE_CONTENTS) (hl : Layout v)
    (hpost : EndPost v w oc)
    (hcnt : sort_get_num_file_contents oc =
      sort_get_num_file_contents (v.sp.file_contents v.cur_outfile) + 1) :
    ∀ i, 0 ≤ i → i < v.sp.half_files →
      sort_get_num_file_contents (w.sp.file_contents (v.out_half + i)) =
        sort_get_num_file_contents (v.sp.file_contents (v.out_half + i)) +
          (if v.out_half + i = v.cur_outfile then 1 else 0) := by
  intro i hi0 hi1
  rw [hpost.contents]
  by_cases hc : v.out_half + i = v.cur_outfile
  · rw [if_pos hc, if_pos hc, hc, hcnt]
  · rw [if_neg hc, if_neg hc, if_neg, add_zero]
    intro hx
    rcases hl.halves with ⟨a, b⟩ | ⟨a, b⟩ <;> omega

theorem end_run_in_ledger (v w : MergeVars) (oc : FILE_CONTENTS) (hl : Layout v)
    (hpost : EndPost v w oc) :
    ∀ i, 0 ≤ i → i < v.sp.half_files →
      w.sp.file_contents (v.sp.in_half + i) =
        sort_run_remove_first (v.sp.file_contents (v.sp.in_half + i)) := by
  intro i hi0 hi1
  rw [hpost.contents, if_neg, if_pos ⟨by omega, by omega⟩]
  have := hl.outfile
  rcases hl.halves with ⟨a, b⟩ | ⟨a, b⟩ <;> omega

/-- The end of a run, after the loop that outputs its records, succeeds when
the ledgers are well formed and their arrays not too long; the pages of the
files hold a record each for the next run. -/
theorem finish_run_next (E : MergeEnv) (v5 : MergeVars) (EM : List (List Byte)) (k : Int)
    (hinv : RunLoopInv E v5 EM) (hfull : LoopFull E v5 EM) (hEM : EM ≠ [])
    (hnil : v5.sr_list = []) (hcap : Cap v5 k) (hk0 : 0 ≤ k) (hk : k < 2 ^ 24)
    (hall : ∀ i, v5.act_infiles ≤ i → i < v5.sp.half_files →
      (v5.sp.file_contents (v5.sp.in_half + i)).first_run = -1) :
    ∃ w, finish_run v5 = Step.next w ∧ Cap w (k + 1) ∧
      w.very_last_run = v5.very_last_run ∧ (v5.very_last_run = false → RunFull E w) ∧
      w.published = v5.published ∧
      (w.sp.half_files = v5.sp.half_files ∧ w.sp.in_half = v5.sp.in_half ∧
        w.out_half = v5.out_half) ∧
      (∀ i, 0 ≤ i → i < v5.sp.half_files →
        sort_get_num_file_contents (w.sp.file_contents (v5.out_half + i)) =
          sort_get_num_file_contents (v5.sp.file_contents (v5.out_half + i)) +
            (if v5.out_half + i = v5.cur_outfile then 1 else 0)) ∧
      (∀ i, 0 ≤ i → i < v5.sp.half_files →
        w.sp.file_contents (v5.sp.in_half + i) =
          sort_run_remove_first (v5.sp.file_contents (v5.sp.in_half + i))) := by
  have hl5 := hinv.layout
  have hhf0 : 0 ≤ v5.sp.half_files := by have := hl5.act; omega
  unfold finish_run
  cases hv : v5.very_last_run with
  | true =>
    rw [final_flush_last v5 hv]
    obtain ⟨c0, c1⟩ := cur_outfile_range v5 hl5
    obtain ⟨w, oc, hw, hpost, hwf, hb, hcnt⟩ := end_run_next v5 k (out_file_not_input v5 hl5)
      hhf0 (hcap _ c0 c1).1 (hcap _ c0 c1).2 hk0 hk
    exact ⟨w, hw, Cap_end_run v5 w oc k hpost hcap hwf hb, hpost.static.very_last_run.trans hv,
      (fun hc => by cases hc), hpost.published,
      ⟨hpost.static.half_files, hpost.static.in_half, hpost.static.out_half⟩,
      end_run_out_count v5 w oc hl5 hpost hcnt, end_run_in_ledger v5 w oc hl5 hpost⟩
  | false =>
    have ho := hinv.out hv
    have hof := hfull.out hv
    obtain ⟨_, frs, fcp, ftemp, ffc, fpub, fst⟩ := final_flush_run E v5 EM ho hv
    have hl6 : Layout (final_flush v5) := Layout_frame v5 _ fst hl5
    have hcap6 : Cap (final_flush v5) k := by
      intro f hf0 hf1
      rw [fst.half_files] at hf1
      rw [ffc]
      exact hcap f hf0 hf1
    obtain ⟨c0, c1⟩ := cur_outfile_range _ hl6
    obtain ⟨w, oc, hw, hpost, hwf, hb, hcnt⟩ := end_run_next (final_flush v5) k
      (out_file_not_input _ hl6) (by rw [fst.half_files]; exact hhf0)
      (hcap6 _ c0 c1).1 (hcap6 _ c0 c1).2 hk0 hk
    have e_vl : w.very_last_run = (final_flush v5).very_last_run := hpost.static.very_last_run
    have hoc := end_run_out_count _ w oc hl6 hpost hcnt
    have hil := end_run_in_ledger _ w oc hl6 hpost
    rw [fst.half_files, fst.out_half, ffc, fst.cur_outfile] at hoc
    rw [fst.half_files, fst.in_half, ffc] at hil
    refine ⟨w, hw, Cap_end_run _ w oc k hpost hcap6 hwf hb,
      by rw [e_vl, fst.very_last_run]; exact hv, fun _ => ?_, by rw [hpost.published, fpub],
      ⟨hpost.static.half_files.trans fst.half_files, hpost.static.in_half.trans fst.in_half,
        hpost.static.out_half.trans fst.out_half⟩, hoc, hil⟩
    have e_ih : w.sp.in_half = v5.sp.in_half := by
      have : w.sp.in_half = (final_flush v5).sp.in_half := hpost.static.in_half
      rw [this, fst.in_half]
    have e_oh : w.out_half = v5.out_half := by
      have : w.out_half = (final_flush v5).out_half := hpost.static.out_half
      rw [this, fst.out_half]
    have e_hf : w.sp.half_files = v5.sp.half_files := by
      have : w.sp.half_files = (final_flush v5).sp.half_files := hpost.static.half_files
      rw [this, fst.half_files]
    have hb5 := ho.bufno
    have ha5 := ho.addr
    refine ⟨?_, ?_⟩
    · intro i hi0 hi1
      rw [e_hf] at hi1
      rw [e_ih]
      have hne : v5.sp.in_half + i ≠ v5.cur_outfile := by
        have := in_file_ne_out_file v5 hl5 i (v5.cur_outfile - v5.out_half) hi0 hi1
          (by have := hl5.outfile; omega) (by have := hl5.outfile; omega)
        intro hc; apply this; omega
      have hsf : SameFile v5 (final_flush v5) (v5.sp.in_half + i) := by
        refine ⟨by rw [ffc], by rw [fcp, aset_other _ _ _ _ hne], ?_⟩
        funext p
        exact ftemp _ p (fun hc => hne hc.1)
      have hdone : (v5.sp.file_contents (v5.sp.in_half + i)).first_run ≠ -1 →
          (v5.sp.file_contents (v5.sp.in_half + i)).num_pages
            (v5.sp.file_contents (v5.sp.in_half + i)).first_run = 0 := by
        intro hfr
        by_cases hia : i < v5.act_infiles
        · rcases hinv.done i hi0 hia with ⟨n, hn, _⟩ | h
          · rw [hnil] at hn; cases hn
          · exact h
        · exact absurd (hall i (by omega) hi1) hfr
      refine FileFull_after_run E (final_flush v5) w _
        (RestInv_frame E v5 _ _ hsf (hinv.rest i hi0 hi1)) ?_
        (FileFull_frame E v5 _ _ hsf (hfull.files i hi0 hi1)) ?_ (by rw [hpost.temp])
        (by rw [hpost.cur_page])
      · rw [hsf.contents]; exact hdone
      · rw [hpost.contents, fst.cur_outfile, if_neg hne, fst.in_half, fst.half_files,
          if_pos ⟨by omega, by omega⟩]
    · intro i hi0 hi1 p hp0 hp1
      rw [e_hf] at hi1
      rw [e_oh] at hp1 ⊢
      rw [hpost.cur_page, fcp] at hp1
      rw [hpost.temp, final_flush_temp v5 hv]
      by_cases hc : v5.out_half + i = v5.cur_outfile
      · rw [hc, aset_same] at hp1
        rw [hc]
        by_cases hr : v5.cur_page v5.cur_outfile ≤ p
        · rw [if_pos ⟨rfl, hr, hp1⟩]
          by_cases hbc : v5.out_sectaddr + (p - v5.cur_page v5.cur_outfile) = v5.out_cur_bufaddr
          · rw [hbc]; exact hof.active hEM
          · exact hof.buffers _ (by omega) (by omega)
        · rw [if_neg (by omega)]
          have := hof.files i hi0 hi1 p hp0 (by rw [hc]; omega)
          rw [hc] at this
          exact this
      · rw [aset_other _ _ _ _ hc] at hp1
        rw [if_neg (fun hx => hc hx.1)]
        exact hof.files i hi0 hi1 p hp0 hp1
/-- The pages of the current run of a file that are not read yet hold a record
each. -/
theorem FileFull_run (E : MergeEnv) (v : MergeVars) (f : Int) (hrest : RestInv E v f)
    (hne : (v.sp.file_contents f).first_run ≠ -1) (hfile : FileFull E v f) :
    ∀ p, v.cur_page f ≤ p →
      p < v.cur_page f + (v.sp.file_contents f).num_pages (v.sp.file_contents f).first_run →
      1 ≤ (v.sp.temp f p).hdr.nslots := by
  intro p hp1 hp2
  rcases hrest with hr' | ⟨_, _, q, hr'⟩
  · exact absurd hr' hne
  · have hle := RunsTo_le E _ _ _ _ _ _ hr'
    exact hfile hne q hr' p hp1 (by omega)

theorem add_new_count (fc fc1 : FILE_CONTENTS) (n : Int)
    (h : sort_run_add_new true fc n = some (true, fc1)) :
    sort_get_num_file_contents fc1 = sort_get_num_file_contents fc + 1 := by
  obtain ⟨q1, q2, _⟩ := add_new_shape fc fc1 n h
  unfold sort_get_num_file_contents
  rw [q1, q2]
  split_ifs <;> omega

/-- The loop of the copy branch runs to its end with enough fuel. -/
theorem copy_run_loop_next (act : Int) : ∀ (m : Nat) (v : MergeVars) (cp : Int),
    1 ≤ v.sp.tot_buffers → cp ≤ m →
    ∃ w, ∀ fuel, m + 1 ≤ fuel → copy_run_loop act fuel v cp = Step.next w := by
  intro m
  induction m with
  | zero =>
    intro v cp _ hcp
    refine ⟨v, ?_⟩
    intro fuel hf
    obtain ⟨f, rfl⟩ : ∃ f, fuel = f + 1 := ⟨fuel - 1, by omega⟩
    unfold copy_run_loop
    rw [if_neg (by push_cast at hcp; omega)]
  | succ m ih =>
    intro v cp htb hcp
    by_cases hc : cp > 0
    · obtain ⟨rp, hrp⟩ : ∃ rp, rp = (if cp > v.sp.tot_buffers then v.sp.tot_buffers else cp) :=
        ⟨_, rfl⟩
      have hrp1 : 1 ≤ rp := by rw [hrp]; split_ifs <;> omega
      obtain ⟨w, hw⟩ := ih
        { v with sp := sort_write_area (sort_read_area v.sp act (v.cur_page act) rp 0)
                   v.cur_outfile
                   (aset v.cur_page act (v.cur_page act + rp) v.cur_outfile) rp 0,
                 cur_page := aset (aset v.cur_page act (v.cur_page act + rp)) v.cur_outfile
                   (aset v.cur_page act (v.cur_page act + rp) v.cur_outfile + rp) }
        (cp - rp) htb (by push_cast at hcp; omega)
      refine ⟨w, ?_⟩
      intro fuel hf
      obtain ⟨f, rfl⟩ : ∃ f, fuel = f + 1 := ⟨fuel - 1, by omega⟩
      unfold copy_run_loop
      rw [if_pos hc]
      simp only
      rw [← hrp]
      exact hw f (by omega)
    · refine ⟨v, ?_⟩
      intro fuel hf
      obtain ⟨f, rfl⟩ : ∃ f, fuel = f + 1 := ⟨fuel - 1, by omega⟩
      unfold copy_run_loop
      rw [if_neg hc]

/-- The copy branch runs to its end with enough fuel when the ledgers are well
formed and their arrays not too long; the pages of the output files hold a
record each afterwards. -/
theorem copy_last_run_next (E : MergeEnv) (v1 : MergeVars) (pre c : Int)
    (hled : LedgerInv E v1 1 1) (hv : v1.very_last_run = false) (hpre : 1 ≤ pre)
    (hco : v1.out_half ≤ v1.cur_outfile ∧ v1.cur_outfile < v1.out_half + v1.sp.half_files)
    (hcap : Cap v1 c) (hc0 : 0 ≤ c) (hc : c < 2 ^ 24) (hfull : RunFull E v1) :
    ∃ r N, (∀ fuel, N ≤ fuel → copy_last_run fuel v1 pre = Step.next r) ∧ r.2 = true ∧
      PassEnd E r.1 ∧ Cap r.1 (c + 1) ∧ RunFull E r.1 ∧
      SameStatic v1 r.1 ∧
      (∀ i, 0 ≤ i → i < v1.sp.half_files →
        sort_get_num_file_contents (r.1.sp.file_contents (v1.out_half + i)) =
          sort_get_num_file_contents (v1.sp.file_contents (v1.out_half + i)) +
            (if v1.out_half + i = v1.cur_outfile then 1 else 0)) := by
  have htwo := hled.two
  have hhalves := hled.halves
  have hne0 : (v1.sp.file_contents v1.sp.in_half).first_run ≠ -1 := by
    have := (ledger_active E v1 1 1 hled 0 (le_refl _) (by omega)).2 (Or.inr (by omega))
    rw [add_zero] at this
    exact this
  have hact : find_last_run_file v1.sp pre pre.toNat v1.sp.in_half = v1.sp.in_half :=
    find_last_run_file_first v1.sp pre pre.toNat (by omega) hpre hne0
  have hneco : v1.sp.in_half ≠ v1.cur_outfile := by
    rcases hhalves with ⟨a, b⟩ | ⟨a, b⟩ <;> omega
  have hruns := hled.runs_in 0 (le_refl _) (by omega)
  rw [add_zero] at hruns
  have hrest0 := RunsInv_rest E v1 _ hruns
  have hff0 := hfull.files 0 (le_refl _) (by omega)
  rw [add_zero] at hff0
  have hpages := FileFull_run E v1 _ hrest0 hne0 hff0
  have hcor : 0 ≤ v1.cur_outfile ∧ v1.cur_outfile < 2 * v1.sp.half_files := by
    rcases hhalves with ⟨a, b⟩ | ⟨a, b⟩ <;> omega
  have hinr : 0 ≤ v1.sp.in_half ∧ v1.sp.in_half < 2 * v1.sp.half_files := by
    rcases hhalves with ⟨a, b⟩ | ⟨a, b⟩ <;> omega
  obtain ⟨oc, hadd, hwf1, hb1, _⟩ := add_new_bound (v1.sp.file_contents v1.cur_outfile)
    ((v1.sp.file_contents v1.sp.in_half).num_pages
      (v1.sp.file_contents v1.sp.in_half).first_run) c (hcap _ hcor.1 hcor.2).1
    (hcap _ hcor.1 hcor.2).2 hc0 hc
  obtain ⟨vc, hvc⟩ : ∃ vc : MergeVars, vc = { v1 with sp := { v1.sp with
      file_contents := aset (aset v1.sp.file_contents v1.cur_outfile oc) v1.sp.in_half
        (sort_run_remove_first
          (aset v1.sp.file_contents v1.cur_outfile oc v1.sp.in_half)) } } := ⟨_, rfl⟩
  have c_co : vc.cur_outfile = v1.cur_outfile := by rw [hvc]
  have c_cp : vc.cur_page = v1.cur_page := by rw [hvc]
  have c_tmp : vc.sp.temp = v1.sp.temp := by rw [hvc]
  have c_st : SameStatic v1 vc := by
    rw [hvc]; exact ⟨rfl, rfl, rfl, rfl, rfl, rfl, rfl, rfl, rfl, rfl, rfl, rfl⟩
  have c_fc : ∀ f, vc.sp.file_contents f =
      if f = v1.sp.in_half then sort_run_remove_first (v1.sp.file_contents v1.sp.in_half)
      else if f = v1.cur_outfile then oc else v1.sp.file_contents f := by
    intro f
    rw [hvc]
    show aset (aset v1.sp.file_contents v1.cur_outfile oc) v1.sp.in_half
      (sort_run_remove_first (aset v1.sp.file_contents v1.cur_outfile oc v1.sp.in_half)) f = _
    rw [aset_other _ _ _ _ hneco]
    by_cases e : f = v1.sp.in_half
    · rw [e, aset_same, if_pos rfl]
    · rw [aset_other _ _ _ _ e, if_neg e]
      by_cases e2 : f = v1.cur_outfile
      · rw [e2, aset_same, if_pos rfl]
      · rw [aset_other _ _ _ _ e2, if_neg e2]
  have htb : 1 ≤ vc.sp.tot_buffers := by
    rw [c_st.tot_buffers]; have := hled.buffers; omega
  obtain ⟨w, hw⟩ := copy_run_loop_next v1.sp.in_half
    ((v1.sp.file_contents v1.sp.in_half).num_pages
      (v1.sp.file_contents v1.sp.in_half).first_run).toNat vc
    ((v1.sp.file_contents v1.sp.in_half).num_pages
      (v1.sp.file_contents v1.sp.in_half).first_run) htb (by omega)
  obtain ⟨N, hN⟩ : ∃ N : Nat, N = ((v1.sp.file_contents v1.sp.in_half).num_pages
      (v1.sp.file_contents v1.sp.in_half).first_run).toNat + 1 := ⟨_, rfl⟩
  have heq : ∀ fuel, N ≤ fuel → copy_last_run fuel v1 pre = Step.next (w, true) := by
    intro fuel hf
    unfold copy_last_run
    simp only
    rw [hact, if_neg (by rcases hhalves with ⟨a, b⟩ | ⟨a, b⟩ <;> omega), hadd]
    simp only
    rw [← hvc, hw fuel (by omega)]
  have hspec := copy_last_run_spec E N v1 pre hled hv hpre hco
  rw [heq N (le_refl _)] at hspec
  obtain ⟨_, hend⟩ : (w, true).2 = true ∧ PassEnd E w := hspec
  have hnp0 : 0 ≤ (v1.sp.file_contents v1.sp.in_half).num_pages
      (v1.sp.file_contents v1.sp.in_half).first_run := by
    unfold RunsInv at hruns
    rcases hruns with hr | ⟨_, r2, rpos, _⟩
    · exact absurd hr hne0
    · have := rpos _ (le_refl _) r2
      omega
  have hpost : CopyPost vc w v1.sp.in_half ((v1.sp.file_contents v1.sp.in_half).num_pages
      (v1.sp.file_contents v1.sp.in_half).first_run) := by
    rcases copy_run_loop_spec v1.sp.in_half N vc _ htb hnp0
        (by rw [c_co]; exact hneco) with ⟨s, hs⟩ | ⟨w', hw', hp⟩
    · rw [hw N (by omega)] at hs; cases hs
    · rw [hw N (by omega)] at hw'
      cases hw'
      exact hp
  have hst := SameStatic_trans c_st hpost.static
  refine ⟨(w, true), N, heq, rfl, hend, ?_, ⟨?_, ?_⟩, hst, ?_⟩
  rotate_left 3
  · intro i hi0 hi1
    show sort_get_num_file_contents (w.sp.file_contents (v1.out_half + i)) = _
    have hni : v1.out_half + i ≠ v1.sp.in_half := by
      rcases hhalves with ⟨a, b⟩ | ⟨a, b⟩ <;> omega
    rw [hpost.contents, c_fc, if_neg hni]
    by_cases he : v1.out_half + i = v1.cur_outfile
    · rw [if_pos he, if_pos he, he]
      exact add_new_count _ _ _ hadd
    · rw [if_neg he, if_neg he, add_zero]
  · intro f hf0 hf1
    rw [hst.half_files] at hf1
    show LedgerWF (w.sp.file_contents f) ∧ LedgerBound (w.sp.file_contents f) (c + 1)
    rw [hpost.contents, c_fc]
    obtain ⟨d1, d2⟩ := hcap f hf0 hf1
    split_ifs with e1 e2
    · obtain ⟨r1, r2⟩ := remove_first_bound _ c (hcap _ hinr.1 hinr.2).1 (hcap _ hinr.1 hinr.2).2
      exact ⟨r1, LedgerBound_mono _ c (c + 1) (by omega) r2⟩
    · exact ⟨hwf1, hb1⟩
    · exact ⟨d1, LedgerBound_mono _ c (c + 1) (by omega) d2⟩
  · intro i hi0 hi1
    show FileFull E w (w.sp.in_half + i)
    unfold FileFull
    intro hfr
    exfalso
    apply hfr
    rcases hend with ⟨hvl, _⟩ | ⟨_, _, _, _, _, _, _, _, hemp⟩
    · have : w.very_last_run = v1.very_last_run := hst.very_last_run
      rw [this, hv] at hvl
      cases hvl
    · exact hemp i hi0 hi1
  · intro i hi0 hi1 p hp0 hp1
    have hi1' : i < v1.sp.half_files := by
      have : w.sp.half_files = v1.sp.half_files := hst.half_files
      rw [← this]; exact hi1
    have e_oh : w.out_half = v1.out_half := hst.out_half
    show 1 ≤ (w.sp.temp (w.out_half + i) p).hdr.nslots
    have hp1' : p < w.cur_page (w.out_half + i) := hp1
    rw [e_oh] at hp1' ⊢
    rw [hpost.temp, c_co, c_cp, c_tmp]
    have hni : v1.out_half + i ≠ v1.sp.in_half := by
      rcases hhalves with ⟨a, b⟩ | ⟨a, b⟩ <;> omega
    by_cases he : v1.out_half + i = v1.cur_outfile
    · rw [he] at hp1' ⊢
      have := hpost.cur_out
      rw [c_co, c_cp] at this
      rw [this] at hp1'
      by_cases hr : v1.cur_page v1.cur_outfile ≤ p
      · rw [if_pos ⟨rfl, hr, hp1'⟩]
        exact hpages _ (by omega) (by omega)
      · rw [if_neg (by omega)]
        have := hfull.outs i hi0 hi1' p hp0 (by rw [he]; omega)
        rw [he] at this
        exact this
    · rw [hpost.cur_other _ hni (by rw [c_co]; exact he), c_cp] at hp1'
      rw [if_neg (fun hx => he hx.1)]
      exact hfull.outs i hi0 hi1' p hp0 hp1'
/-- The head of the body of the loop `PRODUCE RUNS` succeeds with enough
fuel. -/
theorem prepare_run_next (E : MergeEnv) (v : MergeVars) (j k c : Int)
    (hp : PassInv E v j k) (hcap : Cap v c) (hc0 : 0 ≤ c) (hc : c < 2 ^ 24)
    (hfull : RunFull E v) :
    ∃ r N, (∀ fuel, N ≤ fuel → prepare_run fuel v j = Step.next r) ∧ RunFull E r.1 ∧
      (r.2 = false → Cap r.1 c ∧ r.1.sp = v.sp ∧ r.1.cur_outfile = v.cur_outfile ∧
        r.1.out_half = v.out_half ∧ r.1.published = v.published) ∧
      (r.2 = true → Cap r.1 (c + 1) ∧ r.1.very_last_run = v.very_last_run ∧
        r.1.sp.in_half = v.sp.in_half ∧ r.1.sp.half_files = v.sp.half_files ∧
        r.1.out_half = v.out_half ∧
        ∀ i, 0 ≤ i → i < v.sp.half_files →
          sort_get_num_file_contents (r.1.sp.file_contents (v.out_half + i)) =
            sort_get_num_file_contents (v.sp.file_contents (v.out_half + i)) +
              (if v.out_half + i = v.cur_outfile then 1 else 0)) := by
  have hled := hp.ledgers
  by_cases hcond : v.very_last_run = false ∧ j = 1
  · obtain ⟨hv, hj⟩ := hcond
    rw [hj] at hled
    have hcount := ledger_count E v k hled
    have hk := hled.sizes
    by_cases hne : sort_get_numpages_of_active_infiles v.sp ≠ v.act_infiles
    · by_cases h1 : sort_get_numpages_of_active_infiles v.sp = 1
      · have hk1 : k = 1 := by omega
        rw [hk1] at hled
        have hact := hp.act_all hv
        have hled1 : LedgerInv E { v with act_infiles := sort_get_numpages_of_active_infiles v.sp }
            1 1 := LedgerInv_congr E v _ 1 1 hled rfl rfl rfl rfl rfl rfl
        obtain ⟨r, N, e, r2, _, rcap, rfull, rvl, rcnt⟩ := copy_last_run_next E
          { v with act_infiles := sort_get_numpages_of_active_infiles v.sp } v.act_infiles c
          hled1 hv (by rw [hact]; have := hled.two; omega) hp.layout.outfile
          (show Cap { v with act_infiles := sort_get_numpages_of_active_infiles v.sp } c from hcap)
          hc0 hc ⟨hfull.files, hfull.outs⟩
        refine ⟨r, N, ?_, rfull, (fun hc' => by rw [r2] at hc'; cases hc'),
          fun _ => ⟨rcap, rvl.very_last_run, rvl.in_half, rvl.half_files, rvl.out_half, rcnt⟩⟩
        intro fuel hf
        unfold prepare_run
        rw [if_pos ⟨hv, hj⟩]
        simp only
        rw [if_pos hne, if_pos h1]
        exact e fuel hf
      · refine ⟨(redistribute_buffers
          { v with act_infiles := sort_get_numpages_of_active_infiles v.sp }, false), 0, ?_,
          ⟨hfull.files, hfull.outs⟩, fun _ => ⟨hcap, rfl, rfl, rfl, rfl⟩,
          fun hc' => by cases hc'⟩
        intro fuel _
        unfold prepare_run
        rw [if_pos ⟨hv, hj⟩]
        simp only
        rw [if_pos hne, if_neg h1, if_neg (by omega)]
    · refine ⟨({ v with act_infiles := sort_get_numpages_of_active_infiles v.sp }, false), 0, ?_,
        ⟨hfull.files, hfull.outs⟩, fun _ => ⟨hcap, rfl, rfl, rfl, rfl⟩,
        fun hc' => by cases hc'⟩
      intro fuel _
      unfold prepare_run
      rw [if_pos ⟨hv, hj⟩]
      simp only
      rw [if_neg hne]
  · refine ⟨(v, false), 0, ?_, hfull, fun _ => ⟨hcap, rfl, rfl, rfl, rfl⟩,
      fun hc' => by cases hc'⟩
    intro fuel _
    unfold prepare_run
    rw [if_neg hcond]

theorem remove_last_first (fc : FILE_CONTENTS) (h : sort_get_num_file_contents fc ≤ 1) :
    (sort_run_remove_first fc).first_run = -1 := by
  unfold sort_get_num_file_contents at h
  unfold sort_run_remove_first
  by_cases h1 : fc.first_run = -1
  · rw [if_neg (by rw [h1]; decide)]; exact h1
  · rw [if_pos h1] at h ⊢
    rw [if_pos (by omega)]

/-- The body of the loop `PRODUCE RUNS` runs to its end with enough fuel when
all I/O succeeds, the pages of the runs hold a record each, and the ledgers are
well formed and their arrays not too long: it adds a run to the ledger of the
current output file, and the last run of a pass leaves the ledgers of the input
files empty. -/
theorem produce_run_next (E : MergeEnv) (hE : EnvSift E) (hio : NoRefusal E) (v : MergeVars)
    (j k c : Int) (hp : PassInv E v j k) (hcap : Cap v c) (hc0 : 0 ≤ c) (hc : c < 2 ^ 24)
    (hfull : RunFull E v) :
    ∃ w N, (∀ fuel, N ≤ fuel → produce_run E fuel v j = Step.next w) ∧
      (j = 1 → PassEnd E w) ∧ (2 ≤ j → PassInv E w (j - 1) k) ∧ Cap w (c + 1) ∧
      (w.very_last_run = false → RunFull E w) ∧
      w.very_last_run = v.very_last_run ∧
      (w.very_last_run = true → w.published ≠ []) ∧
      (w.sp.half_files = v.sp.half_files ∧ w.sp.in_half = v.sp.in_half ∧
        w.out_half = v.out_half) ∧
      (∀ i, 0 ≤ i → i < v.sp.half_files →
        sort_get_num_file_contents (w.sp.file_contents (v.out_half + i)) =
          sort_get_num_file_contents (v.sp.file_contents (v.out_half + i)) +
            (if v.out_half + i = v.cur_outfile then 1 else 0)) ∧
      (j = 1 → ∀ i, 0 ≤ i → i < v.sp.half_files →
        (w.sp.file_contents (v.sp.in_half + i)).first_run = -1) := by
  obtain ⟨r, N1, e1, rfull, rc0, rc1⟩ := prepare_run_next E v j k c hp hcap hc0 hc hfull
  have hprep := prepare_run_spec E N1 v j k hp
  rw [e1 N1 (le_refl _)] at hprep
  obtain ⟨v1, b⟩ := r
  obtain ⟨g1, g2⟩ : ((v1, b).2 = false → RunStartInv E v1 ∧ LedgerInv E v1 j k ∧
        v1.act_infiles = (if j = 1 then k else v1.sp.half_files) ∧
        v1.very_last_run = v.very_last_run) ∧
      ((v1, b).2 = true → j = 1 ∧ PassEnd E v1) := hprep
  cases b with
  | true =>
    have heq : ∀ fuel, N1 ≤ fuel → produce_run E fuel v j = Step.next v1 := by
      intro fuel hf
      unfold produce_run
      rw [e1 fuel hf]
    obtain ⟨ej, eend⟩ := g2 rfl
    obtain ⟨t1, t2, t3, t4, t6, t5⟩ := rc1 rfl
    have hvl : v.very_last_run = false := by
      by_contra hcn
      have hvt : v.very_last_run = true := by
        cases hx : v.very_last_run with
        | true => rfl
        | false => exact absurd hx hcn
      have := e1 N1 (le_refl _)
      unfold prepare_run at this
      rw [if_neg (by rw [hvt]; simp)] at this
      cases this
    refine ⟨v1, N1, heq, fun _ => eend, (fun h2 => by omega), t1, fun _ => rfull, t2,
      (fun hc => by rw [t2, hvl] at hc; cases hc), ⟨t4, t3, t6⟩, t5, fun _ => ?_⟩
    rcases eend with ⟨hx, _⟩ | ⟨_, _, _, _, _, _, _, _, hemp⟩
    · rw [t2, hvl] at hx; cases hx
    · intro i hi0 hi1
      rw [← t3]
      exact hemp i hi0 (by rw [t4]; exact hi1)
  | false =>
    obtain ⟨hstart, hled1, hact1, hvl1⟩ := g1 rfl
    obtain ⟨rcap, e_sp, e_co, e_oh, e_pub⟩ := rc0 rfl
    obtain ⟨v4, e4, hinv4, hfr4, hfull4, hsl4, hne4⟩ :=
      start_run_next E hE hio v1 hstart rfull
    obtain ⟨v5, EM, e5, hinv5, hfull5, hfr5, hsl5, hEM, hnil⟩ :=
      merge_loop_next E hE hio (records_left v4) v4 [] hinv4 hfull4 hne4 (le_refl _)
    have hfr := LoopFrame_trans hfr4 hfr5
    have hcap5 : Cap v5 c := Cap_frame v1 v5 c hfr.static.half_files hfr.first_run hfr.last_run
      (SlotsFrame_trans hsl4 hsl5) rcap
    have hall : ∀ i, v5.act_infiles ≤ i → i < v5.sp.half_files →
        (v5.sp.file_contents (v5.sp.in_half + i)).first_run = -1 := by
      intro i hi0 hi1
      rw [hfr.static.act_infiles] at hi0
      rw [hfr.static.half_files] at hi1
      rw [hfr.static.in_half, hfr.first_run]
      have hi00 : 0 ≤ i := by have := hstart.act; omega
      by_contra hcn
      have := (ledger_active E v1 j k hled1 i hi00 hi1).1 hcn
      rw [hact1] at hi0
      split_ifs at hi0 <;> omega
    obtain ⟨w, e6, hcapw, evl, hfullw, epub, ⟨w_hf, w_ih, w_oh⟩, hcnt, hil⟩ :=
      finish_run_next E v5 EM c hinv5 hfull5 hEM hnil hcap5 hc0 hc hall
    obtain ⟨N, hN⟩ : ∃ N : Nat, N = max N1 (records_left v4) := ⟨_, rfl⟩
    have heq : ∀ fuel, N ≤ fuel → produce_run E fuel v j = Step.next w := by
      intro fuel hf
      unfold produce_run
      rw [e1 fuel (by rw [hN] at hf; exact le_trans (le_max_left _ _) hf)]
      simp only
      rw [e4]
      simp only
      rw [e5 fuel (by rw [hN] at hf; exact le_trans (le_max_right _ _) hf)]
      simp only
      exact e6
    have hspec := produce_run_spec E hE N v j k hp
    rw [heq N (le_refl _)] at hspec
    obtain ⟨s1, s2⟩ : (j = 1 → PassEnd E w) ∧ (2 ≤ j → PassInv E w (j - 1) k) := hspec
    have e_vl5 : v5.very_last_run = v.very_last_run := hfr.static.very_last_run.trans hvl1
    have e_hf5 : v5.sp.half_files = v.sp.half_files := by
      rw [hfr.static.half_files, e_sp]
    have e_ih5 : v5.sp.in_half = v.sp.in_half := by
      rw [hfr.static.in_half, e_sp]
    have e_oh5 : v5.out_half = v.out_half := hfr.static.out_half.trans e_oh
    have e_co5 : v5.cur_outfile = v.cur_outfile := hfr.static.cur_outfile.trans e_co
    refine ⟨w, N, heq, s1, s2, hcapw, (fun hv => hfullw (by rw [← evl]; exact hv)),
      evl.trans e_vl5, ?_, ⟨w_hf.trans e_hf5, w_ih.trans e_ih5, w_oh.trans e_oh5⟩, ?_, ?_⟩
    · intro hv
      rw [evl] at hv
      have hk := (hinv5.pub hv).keys
      rw [epub]
      intro hc'
      rw [hc'] at hk
      exact hEM hk
    · intro i hi0 hi1
      have := hcnt i hi0 (by rw [e_hf5]; exact hi1)
      rw [e_oh5, e_co5] at this
      rw [this]
      have e := hfr.outputs i hi0 (by rw [e_sp]; exact hi1)
      rw [e_oh, e_sp] at e
      rw [e]
    · intro hj i hi0 hi1
      have := hil i hi0 (by rw [e_hf5]; exact hi1)
      rw [e_ih5] at this
      rw [this]
      apply remove_last_first
      have hlen := hled1.len_in i hi0 (by rw [e_sp]; exact hi1)
      rw [e_sp] at hlen
      unfold sort_get_num_file_contents at hlen ⊢
      rw [hfr.first_run, hfr.last_run, e_sp]
      rw [hlen]
      split_ifs <;> omega
theorem sum_range_step (f g : Nat → Int) (c : Nat) :
    ∀ n : Nat, (∀ i, i < n → g i = f i + (if i = c then 1 else 0)) →
      ((List.range n).map g).sum = ((List.range n).map f).sum + (if c < n then 1 else 0) := by
  intro n
  induction n with
  | zero => intro _; simp
  | succ n ih =>
    intro h
    rw [List.range_succ, List.map_append, List.map_append, List.sum_append, List.sum_append,
      ih (fun i hi => h i (by omega)), List.map_singleton, List.map_singleton,
      List.sum_singleton, List.sum_singleton, h n (by omega)]
    by_cases h1 : n = c
    · rw [if_pos h1, if_neg (by omega), if_pos (by omega)]
      omega
    · rw [if_neg h1]
      by_cases h2 : c < n
      · rw [if_pos h2, if_pos (by omega)]
        omega
      · rw [if_neg h2, if_neg (by omega)]
        omega

/-- A run that goes to one of the files of a half makes the number of the runs
of the half one more. -/
theorem runs_in_half_step (sp sp1 : SortParam) (base co : Int) (hhf : sp1.half_files = sp.half_files)
    (hco : base ≤ co ∧ co < base + sp.half_files)
    (h : ∀ i, 0 ≤ i → i < sp.half_files →
      sort_get_num_file_contents (sp1.file_contents (base + i)) =
        sort_get_num_file_contents (sp.file_contents (base + i)) +
          (if base + i = co then 1 else 0)) :
    runs_in_half sp1 base = runs_in_half sp base + 1 := by
  unfold runs_in_half
  rw [hhf]
  rw [sum_range_step
    (fun (i : Nat) => sort_get_num_file_contents (sp.file_contents (base + (i : Int))))
    (fun (i : Nat) => sort_get_num_file_contents (sp1.file_contents (base + (i : Int))))
    (co - base).toNat sp.half_files.toNat ?_, if_pos (by omega)]
  intro i hi
  simp only
  rw [h i (by omega) (by omega)]
  congr 1
  by_cases hc : base + (i : Int) = co
  · rw [if_pos hc, if_pos (by omega)]
  · rw [if_neg hc, if_neg (by omega)]

theorem runs_in_half_congr (sp sp1 : SortParam) (base : Int)
    (hhf : sp1.half_files = sp.half_files)
    (h : ∀ i, 0 ≤ i → i < sp.half_files →
      sort_get_num_file_contents (sp1.file_contents (base + i)) =
        sort_get_num_file_contents (sp.file_contents (base + i))) :
    runs_in_half sp1 base = runs_in_half sp base := by
  unfold runs_in_half
  rw [hhf]
  congr 1
  apply List.map_congr_left
  intro i hi
  rw [List.mem_range] at hi
  exact h i (by omega) (by omega)

/-- The loop `PRODUCE RUNS` runs to its end with enough fuel: the runs of the
pass are in the ledgers of the output files, and the ledgers of the input files
are empty. -/
theorem produce_runs_next (E : MergeEnv) (hE : EnvSift E) (hio : NoRefusal E) (k : Int) :
    ∀ (n : Nat) (v : MergeVars) (j c : Int), 1 ≤ j → j ≤ n → PassInv E v j k →
      RunFull E v → Cap v c → 0 ≤ c → c + j ≤ 2 ^ 24 →
      ∃ w N, (∀ fuel m, N ≤ fuel → n + 1 ≤ m → produce_runs E fuel m v j = Step.next w) ∧
        PassEnd E w ∧ Cap w (c + j) ∧ (w.very_last_run = false → RunFull E w) ∧
        w.very_last_run = v.very_last_run ∧ (w.very_last_run = true → w.published ≠ []) ∧
        (w.sp.half_files = v.sp.half_files ∧ w.sp.in_half = v.sp.in_half ∧
          w.out_half = v.out_half) ∧
        runs_in_half w.sp v.out_half = runs_in_half v.sp v.out_half + j ∧
        (∀ i, 0 ≤ i → i < v.sp.half_files →
          (w.sp.file_contents (v.sp.in_half + i)).first_run = -1) := by
  intro n
  induction n with
  | zero =>
    intro v j c h1 h2
    push_cast at h2
    omega
  | succ n ih =>
    intro v j c hj1 hjn hp hfull hcap hc0 hcj
    obtain ⟨w1, N1, e1, s1, s2, hcap1, hfull1, evl1, hpub1, ⟨a1, a2, a3⟩, hcnt1, hemp1⟩ :=
      produce_run_next E hE hio v j k c hp hcap hc0 (by omega) hfull
    have hstep : runs_in_half w1.sp v.out_half = runs_in_half v.sp v.out_half + 1 :=
      runs_in_half_step v.sp w1.sp v.out_half v.cur_outfile a1 hp.layout.outfile hcnt1
    by_cases hj : j = 1
    · refine ⟨w1, N1, ?_, s1 hj, by rw [hj]; exact hcap1, hfull1, evl1, hpub1, ⟨a1, a2, a3⟩,
        by rw [hstep, hj], hemp1 hj⟩
      intro fuel m hf hm
      obtain ⟨m1, rfl⟩ : ∃ m1, m = m1 + 1 := ⟨m - 1, by omega⟩
      obtain ⟨m2, rfl⟩ : ∃ m2, m1 = m2 + 1 := ⟨m1 - 1, by omega⟩
      unfold produce_runs
      rw [if_pos (by omega), e1 fuel hf]
      simp only
      unfold produce_runs
      rw [if_neg (by omega)]
    · have hp1 := s2 (by omega)
      have hvl1 : w1.very_last_run = false := by
        cases hx : w1.very_last_run with
        | false => rfl
        | true =>
          have := (hp1.ledgers.last_out hx).1
          have hv := hp.ledgers.last_out (by rw [← evl1]; exact hx)
          omega
      obtain ⟨w, N2, e2, r1, r2, r3, r4, r5, ⟨b1, b2, b3⟩, r6, r7⟩ :=
        ih w1 (j - 1) (c + 1) (by omega) (by push_cast at hjn; omega) hp1 (hfull1 hvl1) hcap1
          (by omega) (by omega)
      refine ⟨w, max N1 N2, ?_, r1, ?_, r3, r4.trans evl1, r5,
        ⟨b1.trans a1, b2.trans a2, b3.trans a3⟩, ?_, ?_⟩
      · intro fuel m hf hm
        obtain ⟨m1, rfl⟩ : ∃ m1, m = m1 + 1 := ⟨m - 1, by omega⟩
        unfold produce_runs
        rw [if_pos (by omega), e1 fuel (le_trans (le_max_left _ _) hf)]
        simp only
        exact e2 fuel m1 (le_trans (le_max_right _ _) hf) (by omega)
      · have : c + 1 + (j - 1) = c + j := by ring
        rw [← this]; exact r2
      · rw [a3] at r6
        rw [r6, hstep]
        ring
      · intro i hi0 hi1
        have := r7 i hi0 (by rw [a1]; exact hi1)
        rw [a2] at this
        exact this

/-! ### The driver that keeps the duplicates, and the calls of the consumer -/

theorem fetch_smallest_tie (E : MergeEnv) (v : MergeVars) (i : Int) :
    fetch_smallest (tie_env E) v i = fetch_smallest E v i := rfl

theorem fetch_smallest_lec (E : MergeEnv) (v : MergeVars) (c : Int) (i : Int) :
    fetch_smallest E (lec v c) i = (fetch_smallest E v i).map (fun u => lec u c) := by
  unfold fetch_smallest
  simp only [lec]
  split
  · rfl
  · split
    · split <;> rfl
    · rfl
theorem init_input_sections_tie (E : MergeEnv) (n : Nat) (v : MergeVars) (i : Int) :
    init_input_sections (tie_env E) n v i = init_input_sections E n v i := by
  induction n generalizing v i with
  | zero => rfl
  | succ n ih =>
    simp only [init_input_sections, fetch_smallest_tie]
    split
    · split
      · rfl
      · exact ih _ _
    · rfl

theorem init_input_sections_lec (E : MergeEnv) (c : Int) (n : Nat) (v : MergeVars) (i : Int) :
    init_input_sections E n (lec v c) i =
      (init_input_sections E n v i).map (fun u => lec u c) := by
  induction n generalizing v i with
  | zero => rfl
  | succ n ih =>
    simp only [init_input_sections]
    have e : read_input_section (lec v c) i = lec (read_input_section v i) c := rfl
    have ea : (lec v c).act_infiles = v.act_infiles := rfl
    rw [e, ea, fetch_smallest_lec]
    split
    · cases fetch_smallest E (read_input_section v i) i with
      | stop w p => rfl
      | next v2 => exact ih _ _
    · rfl

theorem publish_record_tie (E : MergeEnv) (v : MergeVars) (min : Int) :
    publish_record (tie_env E) v min = publish_record E v min := rfl

theorem publish_record_lec (E : MergeEnv) (v : MergeVars) (c : Int) (min : Int) :
    publish_record E (lec v c) min = (publish_record E v min).map (fun u => lec u c) := by
  unfold publish_record
  have e1 : (lec v c).smallest_elem_ptr = v.smallest_elem_ptr := rfl
  have e2 : (lec v c).published = v.published := rfl
  have e3 : (lec v c).long_recdes = v.long_recdes := rfl
  simp only [e1, e2, e3]
  split_ifs <;> rfl

theorem insert_into_empty_lec (E : MergeEnv) (v : MergeVars) (c : Int) (record : RECDES) :
    insert_into_empty E (lec v c) record =
      (insert_into_empty E v record).map (fun u => lec u c) := by
  unfold insert_into_empty
  simp only [lec]
  split <;> rfl

theorem output_record_tie (E : MergeEnv) (v : MergeVars) (min : Int) :
    output_record (tie_env E) v min = output_record E v min := rfl

theorem output_record_lec (E : MergeEnv) (v : MergeVars) (c : Int) (min : Int) :
    output_record E (lec v c) min = (output_record E v min).map (fun u => lec u c) := by
  unfold output_record
  have e1 : ∀ u : MergeVars, ∀ b pg, (lec u c).set_buffer b pg = lec (u.set_buffer b pg) c :=
    fun _ _ _ => rfl
  have e2 : ∀ u : MergeVars, next_output_buffer (lec u c) = lec (next_output_buffer u) c :=
    fun _ => rfl
  have e3 : ∀ u : MergeVars, flush_output_section E (lec u c) = lec (flush_output_section E u) c :=
    fun _ => rfl
  have e4 : (lec v c).sp = v.sp := rfl
  have e5 : (lec v c).out_cur_bufaddr = v.out_cur_bufaddr := rfl
  have e6 : (lec v c).smallest_elem_ptr = v.smallest_elem_ptr := rfl
  have e7 : (lec v c).published = v.published := rfl
  simp only [e1, e2, e3, e4, e5, e6, e7]
  split
  · rfl
  · rfl
  · have e8 : ∀ u : MergeVars, (lec u c).out_act_bufno = u.out_act_bufno := fun _ => rfl
    have e9 : ∀ u : MergeVars, (lec u c).out_sectsize = u.out_sectsize := fun _ => rfl
    simp only [e8, e9]
    split <;> exact insert_into_empty_lec _ _ _ _

theorem advance_input_lec (v : MergeVars) (c : Int) (min : Int) :
    advance_input (lec v c) min =
      (lec (advance_input v min).1
        (if v.act_slot min + 1 ≥ v.last_slot min then 1 else c), (advance_input v min).2) := by
  unfold advance_input
  simp only [lec, aset_same]
  split
  · split
    · rfl
    · split <;> rfl
  · rfl
theorem copy_run_loop_lec (act : Int) (c : Int) (n : Nat) (v : MergeVars) (cp : Int) :
    copy_run_loop act n (lec v c) cp = (copy_run_loop act n v cp).map (fun u => lec u c) := by
  induction n generalizing v cp with
  | zero => rfl
  | succ n ih =>
    simp only [copy_run_loop]
    split
    · exact ih { v with sp := _, cur_page := _ } _
    · rfl

theorem copy_run_loop_rel (act : Int) (c : Int) (n : Nat) (v v1 : MergeVars) (cp : Int)
    (h : v1 = lec v c) :
    copy_run_loop act n v1 cp = (copy_run_loop act n v cp).map (fun u => lec u c) := by
  subst h
  exact copy_run_loop_lec act c n v cp

theorem copy_tail (c : Int) (s s0 : Step MergeVars) :
    s = s0.map (fun u => lec u c) →
    (match s with
      | Step.stop w p => Step.stop w p
      | Step.next v2 => Step.next (v2, true)) =
    Step.map (fun (r : MergeVars × Bool) => (lec r.1 c, r.2))
      (match s0 with
        | Step.stop w p => Step.stop w p
        | Step.next v2 => Step.next (v2, true)) := by
  intro h
  subst h
  cases s0 <;> rfl

theorem copy_last_run_lec (fuel : Nat) (v : MergeVars) (c : Int) (pre : Int) :
    copy_last_run fuel (lec v c) pre =
      (copy_last_run fuel v pre).map (fun r => (lec r.1 c, r.2)) := by
  unfold copy_last_run
  have e1 : (lec v c).sp = v.sp := rfl
  have e2 : (lec v c).published = v.published := rfl
  have e3 : (lec v c).cur_outfile = v.cur_outfile := rfl
  simp only [e1, e2, e3]
  split
  · rfl
  · split
    · rfl
    · rfl
    · rename_i oc _
      have e4 : ∀ sp1, ({ lec v c with sp := sp1 } : MergeVars) = lec { v with sp := sp1 } c :=
        fun _ => rfl
      refine copy_tail c _ _ (copy_run_loop_rel _ c fuel _ _ _ ?_)
      rfl

theorem copy_last_run_rel (fuel : Nat) (v v1 : MergeVars) (c : Int) (pre : Int)
    (h : v1 = lec v c) :
    copy_last_run fuel v1 pre = (copy_last_run fuel v pre).map (fun r => (lec r.1 c, r.2)) := by
  subst h
  exact copy_last_run_lec fuel v c pre

theorem prepare_run_lec (fuel : Nat) (v : MergeVars) (c : Int) (j : Int) :
    prepare_run fuel (lec v c) j = (prepare_run fuel v j).map (fun r => (lec r.1 c, r.2)) := by
  unfold prepare_run
  have e1 : (lec v c).sp = v.sp := rfl
  have e2 : (lec v c).published = v.published := rfl
  have e3 : (lec v c).very_last_run = v.very_last_run := rfl
  have e4 : (lec v c).act_infiles = v.act_infiles := rfl
  have e5 : ∀ a, ({ lec v c with act_infiles := a } : MergeVars) = lec { v with act_infiles := a } c :=
    fun _ => rfl
  simp only [e1, e2, e3, e4, e5]
  split
  · split
    · split
      · exact copy_last_run_rel _ _ _ _ _ rfl
      · split <;> rfl
    · rfl
  · rfl

theorem end_run_lec (v : MergeVars) (c : Int) :
    end_run (lec v c) = (end_run v).map (fun u => lec u c) := by
  unfold end_run
  have e1 : (lec v c).sp = v.sp := rfl
  have e2 : (lec v c).published = v.published := rfl
  have e3 : (lec v c).cur_outfile = v.cur_outfile := rfl
  have e4 : (lec v c).out_runsize = v.out_runsize := rfl
  simp only [e1, e2, e3, e4]
  split <;> rfl

theorem final_flush_lec (v : MergeVars) (c : Int) :
    final_flush (lec v c) = lec (final_flush v) c := by
  unfold final_flush
  have e3 : (lec v c).very_last_run = v.very_last_run := rfl
  simp only [e3]
  split <;> rfl

theorem finish_run_lec (v : MergeVars) (c : Int) :
    finish_run (lec v c) = (finish_run v).map (fun u => lec u c) := by
  unfold finish_run
  rw [final_flush_lec, end_run_lec]

theorem mark_last_run_lec (v : MergeVars) (c : Int) (n : Int) :
    mark_last_run (lec v c) n = lec (mark_last_run v n) c := by
  unfold mark_last_run
  split <;> rfl

theorem lec_lec (v : MergeVars) (c d : Int) : lec (lec v c) d = lec v d := rfl

theorem lec_self (v : MergeVars) : lec v v.last_elem_cmp = v := rfl

theorem tie_gt (E : MergeEnv) (a b : List Byte) :
    (tie_env E).compare a b > 0 ↔ E.compare a b > 0 := by
  show (if E.compare a b > 0 then (1 : Int) else -1) > 0 ↔ _
  split_ifs with h
  · simp [h]
  · simp only [h, iff_false]; omega

theorem tie_ne (E : MergeEnv) (a b : List Byte) : (tie_env E).compare a b ≠ 0 := by
  show (if E.compare a b > 0 then (1 : Int) else -1) ≠ 0
  split_ifs <;> omega

theorem tie_le (E : MergeEnv) (a b : List Byte) :
    (tie_env E).compare a b ≤ 0 ↔ E.compare a b ≤ 0 := by
  show (if E.compare a b > 0 then (1 : Int) else -1) ≤ 0 ↔ _
  split_ifs with h
  · constructor <;> intro h1 <;> omega
  · constructor <;> intro h1 <;> omega

theorem data_lec (v : MergeVars) (c : Int) : (lec v c).data = v.data := rfl

theorem sr_list_sort_inner_tie (E : MergeEnv) (v : MergeVars) :
    ∀ (l : List SORT_REC_LIST) (s : Int),
      sr_list_sort_inner (tie_env E) v s l = sr_list_sort_inner E v s l := by
  intro l
  induction l with
  | nil => intro s; rfl
  | cons p rest ih =>
    intro s
    simp only [sr_list_sort_inner]
    by_cases h : E.compare (v.data s) (v.data p.rec_pos) > 0
    · rw [if_pos ((tie_gt E _ _).2 h), if_pos h, ih]
    · rw [if_neg (fun hc => h ((tie_gt E _ _).1 hc)), if_neg h, ih]

theorem sr_list_sort_tie (E : MergeEnv) (v : MergeVars) :
    ∀ (n : Nat) (l : List SORT_REC_LIST),
      sr_list_sort (tie_env E) v n l = sr_list_sort E v n l := by
  intro n
  induction n with
  | zero => intro l; rfl
  | succ n ih =>
    intro l
    cases l with
    | nil => rfl
    | cons s rest =>
      simp only [sr_list_sort, sr_list_sort_inner_tie, ih]

theorem find_duplicate_from_tie (E : MergeEnv) (v : MergeVars) :
    ∀ (l : List SORT_REC_LIST) (s : Int),
      sr_list_find_duplicate_from (tie_env E) v s l = l := by
  intro l
  induction l with
  | nil => intro s; rfl
  | cons p rest ih =>
    intro s
    simp only [sr_list_find_duplicate_from]
    rw [if_neg (tie_ne E _ _), ih]

theorem find_duplicate_tie (E : MergeEnv) (v : MergeVars) (l : List SORT_REC_LIST) :
    sr_list_find_duplicate (tie_env E) v l = l := by
  cases l with
  | nil => rfl
  | cons s rest =>
    simp only [sr_list_find_duplicate, find_duplicate_from_tie]

theorem find_minimum_from_tie (E : MergeEnv) (v : MergeVars) (s : SORT_REC_LIST) :
    ∀ l : List SORT_REC_LIST,
      find_minimum_from (tie_env E) v s l = link_find_minimum_from E v s l := by
  intro l
  induction l with
  | nil => rfl
  | cons p rest ih =>
    simp only [find_minimum_from, link_find_minimum_from]
    by_cases h : E.compare (v.data s.rec_pos) (v.data p.rec_pos) > 0
    · rw [if_pos ((tie_gt E _ _).2 h), if_pos h, ih]
    · rw [if_neg (fun hc => h ((tie_gt E _ _).1 hc)), if_neg h, if_neg (tie_ne E _ _)]

theorem find_minimum_tie (E : MergeEnv) (v : MergeVars) (l : List SORT_REC_LIST) :
    find_minimum (tie_env E) v l = link_find_minimum E v l := by
  cases l with
  | nil => rfl
  | cons s rest => exact find_minimum_from_tie E v s rest

theorem link_find_minimum_from_plain (E : MergeEnv) (v : MergeVars) (s : SORT_REC_LIST) :
    ∀ l : List SORT_REC_LIST, s.is_duplicated = false → (∀ n ∈ l, n.is_duplicated = false) →
      ∀ n ∈ link_find_minimum_from E v s l, n.is_duplicated = false := by
  intro l
  induction l with
  | nil =>
    intro hs _ n hn
    simp only [link_find_minimum_from, List.mem_singleton] at hn
    rw [hn]; exact hs
  | cons p rest ih =>
    intro hs hl n hn
    simp only [link_find_minimum_from] at hn
    split at hn
    · rcases List.mem_cons.1 hn with h | h
      · rw [h]; exact hl p (List.mem_cons_self _ _)
      · exact ih hs (fun m hm => hl m (List.mem_cons_of_mem _ hm)) n h
    · rcases List.mem_cons.1 hn with h | h
      · rw [h]; exact hs
      · exact hl n h
theorem ite_flag (x : Int) : ((if x ≤ 0 then true else false) = true ↔ x ≤ 0) := by
  by_cases hx : x ≤ 0 <;> simp [hx]

theorem last_element_comparison_sim (E : MergeEnv) (v : MergeVars) (w : LinkVars)
    (h : Sim v w) (hf : w.last_elem_is_min = false) :
    StepRel Sim (last_element_comparison (tie_env E) v) (link_last_element_comparison E w) := by
  obtain ⟨c, hc⟩ := h.vars
  obtain ⟨wv, wf⟩ := w
  simp only at hc hf
  subst hc
  subst hf
  unfold last_element_comparison link_last_element_comparison
  have e1 : (lec v c).sr_list = v.sr_list := rfl
  have e2 : (lec v c).sp = v.sp := rfl
  have e3 : (lec v c).in_cur_bufaddr = v.in_cur_bufaddr := rfl
  have e4 : (lec v c).last_slot = v.last_slot := rfl
  have e5 : (lec v c).last_elem_ptr = v.last_elem_ptr := rfl
  have e6 : (lec v c).published = v.published := rfl
  have e7 : (lec v c).last_long_recdes = v.last_long_recdes := rfl
  have t1 : (tie_env E).env = E.env := rfl
  have t2 : ∀ a b, sort_retrieve_longrec (tie_env E) a b = sort_retrieve_longrec E a b :=
    fun _ _ => rfl
  simp only [e1, e2, e3, e4, e5, e6, e7, data_lec, t1, t2]
  cases hl : v.sr_list with
  | nil => exact h
  | cons a t =>
    cases t with
    | nil => exact h
    | cons p t2 =>
      simp only []
      by_cases hg : (sort_spage_get_record E.env (v.sp.internal_memory (v.in_cur_bufaddr a.rec_pos))
            (v.last_slot a.rec_pos - 1) v.last_elem_ptr PeekMode.PEEK).1 ≠ SCAN_CODE.S_SUCCESS
      · rw [if_pos hg, if_pos hg]
        exact ⟨rfl, rfl⟩
      · rw [if_neg hg, if_neg hg]
        cases hr : (if (sort_spage_get_record E.env
              (v.sp.internal_memory (v.in_cur_bufaddr a.rec_pos))
              (v.last_slot a.rec_pos - 1) v.last_elem_ptr PeekMode.PEEK).2.type = RecType.REC_BIGONE
            then sort_retrieve_longrec E (sort_spage_get_record E.env
              (v.sp.internal_memory (v.in_cur_bufaddr a.rec_pos))
              (v.last_slot a.rec_pos - 1) v.last_elem_ptr PeekMode.PEEK).2 v.last_long_recdes
            else some v.last_long_recdes) with
        | none => exact ⟨rfl, rfl⟩
        | some m =>
          refine ⟨⟨c, rfl⟩, ?_, ?_, ?_⟩
          · show (if _ then true else false) = true ↔ (tie_env E).compare _ _ ≤ 0
            rw [tie_le]
            exact ite_flag _
          · exact tie_ne E _ _
          · intro n hn
            exact h.plain n (by rw [hl]; exact hn)
theorem sr_list_sort_inner_lec (E : MergeEnv) (v : MergeVars) (c : Int) :
    ∀ (l : List SORT_REC_LIST) (s : Int),
      sr_list_sort_inner E (lec v c) s l = sr_list_sort_inner E v s l := by
  intro l
  induction l with
  | nil => intro s; rfl
  | cons p rest ih =>
    intro s
    simp only [sr_list_sort_inner, data_lec, ih]

theorem sr_list_sort_lec (E : MergeEnv) (v : MergeVars) (c : Int) :
    ∀ (n : Nat) (l : List SORT_REC_LIST),
      sr_list_sort E (lec v c) n l = sr_list_sort E v n l := by
  intro n
  induction n with
  | zero => intro l; rfl
  | succ n ih =>
    intro l
    cases l with
    | nil => rfl
    | cons s rest =>
      simp only [sr_list_sort, sr_list_sort_inner_lec, ih]

theorem link_find_minimum_from_lec (E : MergeEnv) (v : MergeVars) (c : Int)
    (s : SORT_REC_LIST) :
    ∀ l : List SORT_REC_LIST,
      link_find_minimum_from E (lec v c) s l = link_find_minimum_from E v s l := by
  intro l
  induction l with
  | nil => rfl
  | cons p rest ih =>
    simp only [link_find_minimum_from, data_lec, ih]

theorem link_find_minimum_lec (E : MergeEnv) (v : MergeVars) (c : Int)
    (l : List SORT_REC_LIST) :
    link_find_minimum E (lec v c) l = link_find_minimum E v l := by
  cases l with
  | nil => rfl
  | cons s rest => exact link_find_minimum_from_lec E v c s rest

theorem start_run_sim (E : MergeEnv) (v1 : MergeVars) (w1 : LinkVars) (h : SameVars v1 w1) :
    StepRel Sim (start_run (tie_env E) v1) (link_start_run E w1) := by
  obtain ⟨c, hc⟩ := h
  obtain ⟨wv, wf⟩ := w1
  simp only at hc
  subst hc
  unfold start_run link_start_run
  have e1 : (lec v1 c).act_infiles = v1.act_infiles := rfl
  simp only [e1, init_input_sections_tie, init_input_sections_lec]
  cases hi : init_input_sections E v1.act_infiles.toNat v1 0 with
  | stop k p => exact ⟨rfl, rfl⟩
  | next v2 =>
  simp only [Step.map]
  have e2 : (lec v2 c).act_infiles = v2.act_infiles := rfl
  have hs : Sim (start_list (tie_env E) v2)
      { vars := { lec v2 c with
          sr_list := sr_list_sort E (lec v2 c) (sr_list_init (lec v2 c).act_infiles).length
            (sr_list_init (lec v2 c).act_infiles) },
        last_elem_is_min := false } := by
    refine ⟨⟨c, ?_⟩, ?_, ?_, ?_⟩
    · show _ = lec (start_list (tie_env E) v2) c
      unfold start_list
      simp only [e2, sr_list_sort_lec, sr_list_sort_tie, find_duplicate_tie]
      rfl
    · show false = true ↔ (1 : Int) ≤ 0
      simp
    · show (1 : Int) ≠ 0
      omega
    · intro n hn
      have hn1 : n ∈ sr_list_find_duplicate (tie_env E) v2
          (sr_list_sort (tie_env E) v2 (sr_list_init v2.act_infiles).length
            (sr_list_init v2.act_infiles)) := hn
      rw [find_duplicate_tie] at hn1
      exact sr_list_sort_unflagged _ _ _ _ (sr_list_init_unflagged _) n hn1
  have hcmp := last_element_comparison_sim E _ _ hs rfl
  revert hcmp
  cases last_element_comparison (tie_env E) (start_list (tie_env E) v2) with
  | stop k p =>
    cases link_last_element_comparison E _ with
    | stop k1 p1 => exact fun h => h
    | next w3 => exact fun h => h.elim
  | next v3 =>
    cases link_last_element_comparison E _ with
    | stop k1 p1 => exact fun h => h.elim
    | next w3 =>
      intro h3
      obtain ⟨c3, hc3⟩ := h3.vars
      obtain ⟨w3v, w3f⟩ := w3
      simp only at hc3
      subst hc3
      exact ⟨⟨c3, rfl⟩, h3.flag, h3.tie, h3.plain⟩
theorem StepRel.tail_pair (s : Step MergeVars) (t : Step LinkVars) :
    StepRel Sim s t →
    StepRel (fun (a : MergeVars × Bool) (b : LinkVars × Bool) => Sim a.1 b.1 ∧ a.2 = b.2)
      (match s with
        | Step.stop w p => Step.stop w p
        | Step.next v5 => Step.next (v5, true))
      (match t with
        | Step.stop w p => Step.stop w p
        | Step.next v5 => Step.next (v5, true)) := by
  intro h
  cases s with
  | next a =>
    cases t with
    | next b => exact ⟨h, rfl⟩
    | stop k p => exact h.elim
  | stop k p =>
    cases t with
    | next b => exact h.elim
    | stop k1 p1 => exact h

theorem enter_record_sim (E : MergeEnv) (v3 : MergeVars) (w3 : LinkVars)
    (min_p : SORT_REC_LIST) (rest : List SORT_REC_LIST)
    (hv : SameVars v3 w3) (hflag : w3.last_elem_is_min = true ↔ v3.last_elem_cmp ≤ 0)
    (htie : v3.last_elem_cmp ≠ 0) (hm : min_p.is_duplicated = false)
    (hr : ∀ n ∈ rest, n.is_duplicated = false) :
    StepRel (fun (a : MergeVars × Bool) (b : LinkVars × Bool) => Sim a.1 b.1 ∧ a.2 = b.2)
      (enter_record (tie_env E) v3 min_p rest) (link_enter_record E w3 min_p rest) := by
  obtain ⟨c, hc⟩ := hv
  obtain ⟨wv, wf⟩ := w3
  simp only at hc hflag
  subst hc
  have hmin : ({ min_p with is_duplicated := decide (v3.act_slot min_p.rec_pos =
      v3.last_slot min_p.rec_pos - 1 ∧ v3.last_elem_cmp = 0) } : SORT_REC_LIST) = min_p := by
    obtain ⟨rp, d⟩ := min_p
    simp only at hm
    subst hm
    simp [htie]
  unfold enter_record link_enter_record
  simp only [hmin]
  by_cases hle : v3.last_elem_cmp ≤ 0
  · have hf : wf = true := hflag.2 hle
    subst hf
    rw [if_pos hle]
    simp only [if_true]
    refine ⟨⟨⟨c, rfl⟩, ?_, htie, ?_⟩, rfl⟩
    · exact hflag
    · intro n hn
      rcases List.mem_cons.1 hn with h | h
      · rw [h]; exact hm
      · exact hr n h
  · have hf : wf = false := by
      cases wf with
      | false => rfl
      | true => exact absurd (hflag.1 rfl) hle
    subst hf
    rw [if_neg hle]
    simp only [Bool.false_eq_true, if_false]
    have e1 : (lec v3 c).act_slot = v3.act_slot := rfl
    have hL : find_minimum (tie_env E) v3 (min_p :: rest) =
        link_find_minimum E (lec v3 c) (min_p :: rest) := by
      rw [find_minimum_tie, link_find_minimum_lec]
    rw [hL]
    have hplain : ∀ n ∈ link_find_minimum E (lec v3 c) (min_p :: rest),
        n.is_duplicated = false := by
      intro n hn
      exact link_find_minimum_from_plain E (lec v3 c) min_p rest hm hr n hn
    have hs : Sim { v3 with sr_list := link_find_minimum E (lec v3 c) (min_p :: rest) }
        { vars := { lec v3 c with sr_list := link_find_minimum E (lec v3 c) (min_p :: rest) },
          last_elem_is_min := false } :=
      ⟨⟨c, rfl⟩, hflag, htie, hplain⟩
    revert hs hplain
    generalize link_find_minimum E (lec v3 c) (min_p :: rest) = L
    intro hplain hs
    cases L with
    | nil => exact ⟨hs, rfl⟩
    | cons h t =>
      simp only [e1]
      by_cases h0 : v3.act_slot h.rec_pos = 0
      · rw [if_pos h0, if_pos h0]
        exact StepRel.tail_pair _ _ (last_element_comparison_sim E _ _ hs rfl)
      · rw [if_neg h0, if_neg h0]
        exact ⟨hs, rfl⟩
theorem cmp_kept (f : MergeVars → Step MergeVars) (v v1 : MergeVars)
    (h : f (lec v v.last_elem_cmp) = (f v).map (fun u => lec u v.last_elem_cmp))
    (hf : f v = Step.next v1) : v1.last_elem_cmp = v.last_elem_cmp := by
  rw [lec_self, hf] at h
  simp only [Step.map, Step.next.injEq] at h
  have := congrArg MergeVars.last_elem_cmp h
  exact this

theorem advance_input_cmp (v : MergeVars) (min : Int) :
    (advance_input v min).1.last_elem_cmp =
      if v.act_slot min + 1 ≥ v.last_slot min then 1 else v.last_elem_cmp := by
  have h := advance_input_lec v v.last_elem_cmp min
  rw [lec_self] at h
  have h1 := congrArg (fun (r : MergeVars × Bool) => r.1.last_elem_cmp) h
  simp only at h1
  rw [h1]
  rfl

theorem proceed_input_sim (E : MergeEnv) (v1 : MergeVars) (w1 : LinkVars)
    (min_p : SORT_REC_LIST) (rest : List SORT_REC_LIST)
    (hv : SameVars v1 w1) (hflag : w1.last_elem_is_min = true ↔ v1.last_elem_cmp ≤ 0)
    (htie : v1.last_elem_cmp ≠ 0) (hm : min_p.is_duplicated = false)
    (hr : ∀ n ∈ rest, n.is_duplicated = false) :
    StepRel (fun (a : MergeVars × Bool) (b : LinkVars × Bool) => Sim a.1 b.1 ∧ a.2 = b.2)
      (proceed_input (tie_env E) v1 min_p rest) (link_proceed_input E w1 min_p rest) := by
  obtain ⟨c, hc⟩ := hv
  obtain ⟨wv, wf⟩ := w1
  simp only at hc hflag
  subst hc
  unfold proceed_input link_proceed_input link_advance_input
  have e1 : (lec v1 c).act_slot = v1.act_slot := rfl
  have e2 : (lec v1 c).last_slot = v1.last_slot := rfl
  simp only [advance_input_lec, e1, e2, fetch_smallest_tie]
  have hcmp := advance_input_cmp v1 min_p.rec_pos
  have hflag1 : (if v1.act_slot min_p.rec_pos + 1 ≥ v1.last_slot min_p.rec_pos then false else wf)
      = true ↔ (advance_input v1 min_p.rec_pos).1.last_elem_cmp ≤ 0 := by
    rw [hcmp]
    split_ifs
    · simp
    · exact hflag
  have htie1 : (advance_input v1 min_p.rec_pos).1.last_elem_cmp ≠ 0 := by
    rw [hcmp]
    split_ifs
    · omega
    · exact htie
  generalize (if v1.act_slot min_p.rec_pos + 1 ≥ v1.last_slot min_p.rec_pos then (1 : Int) else c)
    = c1
  generalize (if v1.act_slot min_p.rec_pos + 1 ≥ v1.last_slot min_p.rec_pos then false else wf)
    = f1 at hflag1 ⊢
  generalize advance_input v1 min_p.rec_pos = a at hflag1 htie1 ⊢
  obtain ⟨a1, a2⟩ := a
  simp only at hflag1 htie1 ⊢
  cases a2 with
  | true =>
    simp only [if_true]
    cases rest with
    | nil =>
      exact ⟨⟨⟨c1, rfl⟩, hflag1, htie1, fun n hn => by cases hn⟩, rfl⟩
    | cons r rs =>
      exact ⟨⟨⟨c1, rfl⟩, hflag1, htie1, hr⟩, rfl⟩
  | false =>
    simp only [Bool.false_eq_true, if_false, fetch_smallest_lec]
    cases hfe : fetch_smallest E a1 min_p.rec_pos with
    | stop k p => exact ⟨rfl, rfl⟩
    | next v3 =>
      simp only [Step.map]
      have hk := cmp_kept (fun u => fetch_smallest E u min_p.rec_pos) a1 v3
        (fetch_smallest_lec E a1 _ _) hfe
      exact enter_record_sim E v3 _ min_p rest ⟨c1, rfl⟩ (by rw [hk]; exact hflag1)
        (by rw [hk]; exact htie1) hm hr
theorem emit_record_sim (E : MergeEnv) (v : MergeVars) (c : Int) (min_p : SORT_REC_LIST)
    (hm : min_p.is_duplicated = false) :
    link_emit_record E (lec v c) min_p =
      (emit_record (tie_env E) v min_p).map (fun u => lec u c) := by
  unfold link_emit_record emit_record
  rw [if_pos hm]
  have e1 : (lec v c).very_last_run = v.very_last_run := rfl
  rw [e1]
  split
  · rw [publish_record_tie, publish_record_lec]
  · rw [output_record_tie, output_record_lec]

theorem emit_record_cmp (E : MergeEnv) (v v1 : MergeVars) (min_p : SORT_REC_LIST)
    (h : emit_record E v min_p = Step.next v1) : v1.last_elem_cmp = v.last_elem_cmp := by
  unfold emit_record at h
  split at h
  · split at h
    · exact cmp_kept (fun u => publish_record E u min_p.rec_pos) v v1
        (publish_record_lec E v _ _) h
    · exact cmp_kept (fun u => output_record E u min_p.rec_pos) v v1
        (output_record_lec E v _ _) h
  · simp only [Step.next.injEq] at h
    rw [← h]

theorem merge_iteration_sim (E : MergeEnv) (v : MergeVars) (w : LinkVars) (h : Sim v w) :
    StepRel (fun (a : MergeVars × Bool) (b : LinkVars × Bool) => Sim a.1 b.1 ∧ a.2 = b.2)
      (merge_iteration (tie_env E) v) (link_merge_iteration E w) := by
  obtain ⟨c, hc⟩ := h.vars
  obtain ⟨wv, wf⟩ := w
  simp only at hc
  subst hc
  unfold merge_iteration link_merge_iteration
  have e1 : (lec v c).sr_list = v.sr_list := rfl
  have e2 : (lec v c).published = v.published := rfl
  simp only [e1, e2]
  cases hl : v.sr_list with
  | nil => exact ⟨rfl, rfl⟩
  | cons min_p rest =>
    simp only []
    have hm : min_p.is_duplicated = false := h.plain min_p (by rw [hl]; exact List.mem_cons_self _ _)
    have hr : ∀ n ∈ rest, n.is_duplicated = false :=
      fun n hn => h.plain n (by rw [hl]; exact List.mem_cons_of_mem _ hn)
    rw [emit_record_sim E v c min_p hm]
    cases he : emit_record (tie_env E) v min_p with
    | stop k p => exact ⟨rfl, rfl⟩
    | next v1 =>
      simp only [Step.map]
      have hk := emit_record_cmp (tie_env E) v v1 min_p he
      exact proceed_input_sim E v1 _ min_p rest ⟨c, rfl⟩ (by rw [hk]; exact h.flag)
        (by rw [hk]; exact h.tie) hm hr

theorem merge_loop_sim (E : MergeEnv) :
    ∀ (n : Nat) (v : MergeVars) (w : LinkVars), Sim v w →
      StepRel Sim (merge_loop (tie_env E) n v) (link_merge_loop E n w) := by
  intro n
  induction n with
  | zero =>
    intro v w h
    obtain ⟨c, hc⟩ := h.vars
    refine ⟨rfl, ?_⟩
    show v.published = w.vars.published
    rw [hc]
    rfl
  | succ n ih =>
    intro v w h
    simp only [merge_loop, link_merge_loop]
    have hi := merge_iteration_sim E v w h
    revert hi
    cases merge_iteration (tie_env E) v with
    | stop k p =>
      cases link_merge_iteration E w with
      | stop k1 p1 => exact fun h => h
      | next b => exact fun h => h.elim
    | next a =>
      cases link_merge_iteration E w with
      | stop k1 p1 => exact fun h => h.elim
      | next b =>
        intro hab
        obtain ⟨a1, a2⟩ := a
        obtain ⟨b1, b2⟩ := b
        obtain ⟨hs, he⟩ := hab
        simp only at hs he
        subst he
        cases a2 with
        | true => exact ih a1 b1 hs
        | false => exact hs
theorem produce_run_sim (E : MergeEnv) (fuel : Nat) (v : MergeVars) (w : LinkVars) (j : Int)
    (h : SameVars v w) :
    StepRel SameVars (produce_run (tie_env E) fuel v j) (link_produce_run E fuel w j) := by
  obtain ⟨c, hc⟩ := h
  obtain ⟨wv, wf⟩ := w
  simp only at hc
  subst hc
  unfold produce_run link_produce_run
  simp only [prepare_run_lec]
  cases hp : prepare_run fuel v j with
  | stop k p => exact ⟨rfl, rfl⟩
  | next r =>
    obtain ⟨v1, b⟩ := r
    simp only [Step.map]
    cases b with
    | true => exact ⟨c, rfl⟩
    | false =>
      simp only []
      have hs := start_run_sim E v1 { vars := lec v1 c, last_elem_is_min := wf } ⟨c, rfl⟩
      revert hs
      cases start_run (tie_env E) v1 with
      | stop k p =>
        cases link_start_run E _ with
        | stop k1 p1 => exact fun h => h
        | next b => exact fun h => h.elim
      | next v4 =>
        cases link_start_run E _ with
        | stop k1 p1 => exact fun h => h.elim
        | next w4 =>
          intro h4
          simp only []
          have hl := merge_loop_sim E fuel v4 w4 h4
          revert hl
          cases merge_loop (tie_env E) fuel v4 with
          | stop k p =>
            cases link_merge_loop E fuel w4 with
            | stop k1 p1 => exact fun h => h
            | next b => exact fun h => h.elim
          | next v5 =>
            cases link_merge_loop E fuel w4 with
            | stop k1 p1 => exact fun h => h.elim
            | next w5 =>
              intro h5
              simp only []
              obtain ⟨c5, hc5⟩ := h5.vars
              obtain ⟨w5v, w5f⟩ := w5
              simp only at hc5
              subst hc5
              simp only [finish_run_lec]
              cases finish_run v5 with
              | stop k p => exact ⟨rfl, rfl⟩
              | next v6 => exact ⟨c5, rfl⟩

theorem produce_runs_sim (E : MergeEnv) (fuel : Nat) :
    ∀ (n : Nat) (v : MergeVars) (w : LinkVars) (j : Int), SameVars v w →
      StepRel SameVars (produce_runs (tie_env E) fuel n v j) (link_produce_runs E fuel n w j) := by
  intro n
  induction n with
  | zero =>
    intro v w j h
    obtain ⟨c, hc⟩ := h
    refine ⟨rfl, ?_⟩
    show v.published = w.vars.published
    rw [hc]
    rfl
  | succ n ih =>
    intro v w j h
    simp only [produce_runs, link_produce_runs]
    split
    · have hi := produce_run_sim E fuel v w j h
      revert hi
      cases produce_run (tie_env E) fuel v j with
      | stop k p =>
        cases link_produce_run E fuel w j with
        | stop k1 p1 => exact fun h => h
        | next b => exact fun h => h.elim
      | next a =>
        cases link_produce_run E fuel w j with
        | stop k1 p1 => exact fun h => h.elim
        | next b => exact fun hab => ih a b (j - 1) hab
    · exact h

theorem merge_pass_sim (E : MergeEnv) (fuel : Nat) (v : MergeVars) (w : LinkVars) (a : Int)
    (h : SameVars v w) :
    StepRel SameVars (merge_pass (tie_env E) fuel v a) (link_merge_pass E fuel w a) := by
  obtain ⟨c, hc⟩ := h
  obtain ⟨wv, wf⟩ := w
  simp only at hc
  subst hc
  unfold merge_pass link_merge_pass
  have e1 : distribute_memory (lec v c) a = lec (distribute_memory v a) c := rfl
  have e2 : ∀ u : MergeVars, (lec u c).sp = u.sp := fun _ => rfl
  simp only [e1, e2, mark_last_run_lec]
  have hi := produce_runs_sim E fuel fuel
    (mark_last_run (distribute_memory v a)
      (count_num_runs (distribute_memory v a).sp a a.toNat (distribute_memory v a).sp.in_half 0))
    { vars := lec (mark_last_run (distribute_memory v a)
        (count_num_runs (distribute_memory v a).sp a a.toNat
          (distribute_memory v a).sp.in_half 0)) c,
      last_elem_is_min := wf }
    (count_num_runs (distribute_memory v a).sp a a.toNat (distribute_memory v a).sp.in_half 0)
    ⟨c, rfl⟩
  revert hi
  cases produce_runs (tie_env E) fuel fuel _ _ with
  | stop k p =>
    cases link_produce_runs E fuel fuel _ _ with
    | stop k1 p1 => exact fun h => h
    | next b => exact fun h => h.elim
  | next v3 =>
    cases link_produce_runs E fuel fuel _ _ with
    | stop k1 p1 => exact fun h => h.elim
    | next w3 =>
      intro h3
      obtain ⟨c3, hc3⟩ := h3
      refine ⟨c3, ?_⟩
      show exchange_halves w3.vars = lec (exchange_halves v3) c3
      rw [hc3]
      rfl

theorem merge_outer_loop_sim (E : MergeEnv) (fuel : Nat) :
    ∀ (n : Nat) (v : MergeVars) (w : LinkVars), SameVars v w →
      StepRel SameVars (merge_outer_loop (tie_env E) fuel n v)
        (link_merge_outer_loop E fuel n w) := by
  intro n
  induction n with
  | zero =>
    intro v w h
    obtain ⟨c, hc⟩ := h
    refine ⟨rfl, ?_⟩
    show v.published = w.vars.published
    rw [hc]
    rfl
  | succ n ih =>
    intro v w h
    obtain ⟨c, hc⟩ := h
    obtain ⟨wv, wf⟩ := w
    simp only at hc
    subst hc
    simp only [merge_outer_loop, link_merge_outer_loop]
    have hsp : (lec v c).sp = v.sp := rfl
    simp only [hsp]
    split
    · have hi := merge_pass_sim E fuel v { vars := lec v c, last_elem_is_min := wf }
        (sort_get_numpages_of_active_infiles v.sp) ⟨c, rfl⟩
      revert hi
      cases merge_pass (tie_env E) fuel v _ with
      | stop k p =>
        cases link_merge_pass E fuel _ _ with
        | stop k1 p1 => exact fun h => h
        | next b => exact fun h => h.elim
      | next a =>
        cases link_merge_pass E fuel _ _ with
        | stop k1 p1 => exact fun h => h.elim
        | next b => exact fun hab => ih a b hab
    · exact ⟨c, rfl⟩

/-- The driver `sort_exphase_merge` does what `sort_exphase_merge_elim_dup` does
with a comparator that has no ties: both stop for the same reason with the same
records published, or both run to their ends with the same variables but for
`last_elem_cmp`. -/
theorem sort_exphase_merge_sim (E : MergeEnv) (fuel : Nat) (sp : SortParam) (junk : LinkVars) :
    StepRel SameVars (sort_exphase_merge_elim_dup (tie_env E) fuel sp junk.vars)
      (sort_exphase_merge E fuel sp junk) := by
  unfold sort_exphase_merge_elim_dup sort_exphase_merge
  exact merge_outer_loop_sim E fuel fuel _ _ ⟨(merge_vars_init sp junk.vars).last_elem_cmp, rfl⟩
theorem tie_lt (E : MergeEnv) (a b : List Byte) :
    (tie_env E).compare a b < 0 ↔ E.compare a b ≤ 0 := by
  show (if E.compare a b > 0 then (1 : Int) else -1) < 0 ↔ _
  split_ifs with h
  · constructor <;> intro h1 <;> omega
  · constructor <;> intro h1 <;> omega

/-- The comparator without ties of a host whose comparator imposes a strict weak
order has the properties that the sifting of the merge relies on. -/
theorem tie_env_sift (E : MergeEnv) (hE : EnvOK E) : EnvSift (tie_env E) := by
  refine ⟨hE.env, hE.align, ⟨?_, ?_, ?_, ?_, ?_, ?_⟩, ?_, ?_⟩
  · intro a
    rw [tie_le, hE.order.refl]
  · intro a b h
    rw [tie_lt]
    have := hE.order.lt_of_gt ((tie_gt E a b).1 h)
    omega
  · intro a b c h1 h2
    rw [tie_le] at *
    exact hE.order.le_trans h1 h2
  · intro a b c h1 h2
    rw [tie_lt] at *
    rw [tie_le] at h2
    exact hE.order.le_trans h1 h2
  · intro a b c h1 h2
    rw [tie_lt] at *
    rw [tie_le] at h1
    exact hE.order.le_trans h1 h2
  · intro a b c h1 _
    exact absurd h1 (tie_ne E a b)
  · intro a b
    show (if E.compare (E.cut_link a) b > 0 then (1 : Int) else -1) =
      if E.compare a b > 0 then 1 else -1
    rw [hE.cut_left]
  · intro a b
    show (if E.compare a (E.cut_link b) > 0 then (1 : Int) else -1) =
      if E.compare a b > 0 then 1 else -1
    rw [hE.cut_right]

/-- The records that `sort_exphase_merge` publishes are in ascending order of
the comparator, equal ones next to each other, when the merge starts on runs in
ascending order that went to the input files in turn, whether it runs to its end
or stops. -/
theorem merge_ascending (E : MergeEnv) (hE : EnvOK E) (fuel : Nat) (sp : SortParam)
    (junk : LinkVars)
    (hms : MergeStart (tie_env E) sp (if sp.in_half = 0 then sp.half_files else 0)) :
    (match sort_exphase_merge E fuel sp junk with
      | Step.next w => w.vars.published
      | Step.stop _ p => p).Pairwise
        (fun (a b : RECDES) => E.compare a.data b.data ≤ 0) := by
  have h1 := merge_elim_dup_ascending (tie_env E) (tie_env_sift E hE) fuel sp junk.vars hms
  have h2 := sort_exphase_merge_sim E fuel sp junk
  have h3 : ∀ p : List RECDES, PubOK (tie_env E) p →
      p.Pairwise (fun (a b : RECDES) => E.compare a.data b.data ≤ 0) := by
    intro p hp
    exact hp.imp (fun h => (tie_lt E _ _).1 h)
  revert h1 h2
  cases sort_exphase_merge_elim_dup (tie_env E) fuel sp junk.vars with
  | stop k p =>
    cases sort_exphase_merge E fuel sp junk with
    | stop k1 p1 =>
      intro h1 h2
      rw [← h2.2]
      exact h3 _ h1
    | next b => exact fun _ h => h.elim
  | next a =>
    cases sort_exphase_merge E fuel sp junk with
    | stop k1 p1 => exact fun _ h => h.elim
    | next b =>
      intro h1 h2
      obtain ⟨c, hc⟩ := h2
      show b.vars.published.Pairwise _
      rw [hc]
      exact h3 _ h1
theorem Accepted.nil (E : MergeEnv) : Accepted E [] := by
  intro q r h
  have := List.IsPrefix.length_le h
  simp at this

theorem Accepted.snoc (E : MergeEnv) (p : List RECDES) (r : RECDES) (h : Accepted E p)
    (hr : E.put_fn p r = 0) : Accepted E (p ++ [r]) := by
  intro q s hq
  rcases List.prefix_concat_iff.1 (by simpa using hq) with h1 | h1
  · have h2 : q ++ [s] = p ++ [r] := by simpa using h1
    obtain ⟨e1, e2⟩ := List.append_inj' h2 rfl
    simp only [List.cons.injEq, and_true] at e2
    rw [e1, e2]
    exact hr
  · exact h q s h1

theorem Step.Silent.puts_ok {σ : Type} (E : MergeEnv) (pub : σ → List RECDES)
    (p0 : List RECDES) (s : Step σ) (h : s.Silent pub p0) (h0 : Accepted E p0) :
    s.PutsOK E pub := by
  cases s with
  | next a =>
    show Accepted E (pub a)
    rw [show pub a = p0 from h]
    exact h0
  | stop k p =>
    obtain ⟨h1, h2⟩ := h
    subst h1
    cases k with
    | bailout e =>
      cases e with
      | put_error c => exact absurd rfl (h2 c)
      | ER_SORT_TEMP_PAGE_CORRUPTED => exact h0
      | ER_GENERIC_ERROR => exact h0
      | er_errid => exact h0
    | undefined => exact h0
    | out_of_fuel => exact h0

theorem fetch_smallest_silent (E : MergeEnv) (v : MergeVars) (i : Int) :
    (fetch_smallest E v i).Silent (fun u => u.published) v.published := by
  unfold fetch_smallest
  simp only []
  split
  · exact ⟨rfl, fun e h => by cases h⟩
  · split
    · split
      · exact ⟨rfl, fun e h => by cases h⟩
      · rfl
    · rfl

theorem last_element_comparison_silent (E : MergeEnv) (v : MergeVars) :
    (last_element_comparison E v).Silent (fun u => u.published) v.published := by
  unfold last_element_comparison
  split
  · simp only []
    split
    · exact ⟨rfl, fun e h => by cases h⟩
    · split
      · exact ⟨rfl, fun e h => by cases h⟩
      · rfl
  · rfl

theorem insert_into_empty_silent (E : MergeEnv) (v : MergeVars) (record : RECDES) :
    (insert_into_empty E v record).Silent (fun u => u.published) v.published := by
  unfold insert_into_empty
  split
  · exact ⟨rfl, fun e h => by cases h⟩
  · rfl
  · exact ⟨rfl, fun e h => by cases h⟩

theorem output_record_silent (E : MergeEnv) (v : MergeVars) (min : Int) :
    (output_record E v min).Silent (fun u => u.published) v.published := by
  unfold output_record
  simp only []
  split
  · exact ⟨rfl, fun e h => by cases h⟩
  · rfl
  · split
    · exact insert_into_empty_silent E _ _
    · exact insert_into_empty_silent E _ _

theorem publish_record_puts (E : MergeEnv) (v : MergeVars) (min : Int)
    (h : Accepted E v.published) :
    (publish_record E v min).PutsOK E (fun u => u.published) := by
  unfold publish_record
  simp only []
  generalize (if (v.smallest_elem_ptr min).type = RecType.REC_BIGONE then v.long_recdes min
    else { v.smallest_elem_ptr min with data := E.cut_link (v.smallest_elem_ptr min).data }) = r
  by_cases he : E.put_fn v.published r ≠ 0
  · rw [if_pos he]
    exact ⟨_, _, rfl, h, rfl, he⟩
  · rw [if_neg he]
    exact Accepted.snoc E _ _ h (by simpa using he)

theorem init_input_sections_silent (E : MergeEnv) :
    ∀ (n : Nat) (v : MergeVars) (i : Int),
      (init_input_sections E n v i).Silent (fun u => u.published) v.published := by
  intro n
  induction n with
  | zero => intro v i; rfl
  | succ n ih =>
    intro v i
    simp only [init_input_sections]
    split
    · have h1 := fetch_smallest_silent E (read_input_section v i) i
      revert h1
      cases fetch_smallest E (read_input_section v i) i with
      | stop k p => exact fun h => h
      | next v2 =>
        intro h1
        have h2 := ih v2 (i + 1)
        rw [show v2.published = v.published from h1] at h2
        exact h2
    · rfl
theorem Step.Silent.stop_puts {σ τ : Type} (E : MergeEnv) (pub : σ → List RECDES)
    (pub1 : τ → List RECDES) (p0 : List RECDES) (k : StopKind) (p : List RECDES)
    (h : (Step.stop k p : Step σ).Silent pub p0) (h0 : Accepted E p0) :
    (Step.stop k p : Step τ).PutsOK E pub1 :=
  Step.Silent.puts_ok E pub1 p0 (Step.stop k p) h h0

theorem Step.PutsOK.stop_any {σ τ : Type} (E : MergeEnv) (pub : σ → List RECDES)
    (pub1 : τ → List RECDES) (k : StopKind) (p : List RECDES)
    (h : (Step.stop k p : Step σ).PutsOK E pub) : (Step.stop k p : Step τ).PutsOK E pub1 := by
  cases k with
  | bailout e =>
    cases e with
    | put_error c => exact h
    | ER_SORT_TEMP_PAGE_CORRUPTED => exact h
    | ER_GENERIC_ERROR => exact h
    | er_errid => exact h
  | undefined => exact h
  | out_of_fuel => exact h

theorem Step.Silent.tail_flag (s : Step MergeVars) (p0 : List RECDES) :
    s.Silent (fun u => u.published) p0 →
    (match s with
      | Step.stop w p => Step.stop w p
      | Step.next v5 => Step.next (v5, true)).Silent
        (fun (r : MergeVars × Bool) => r.1.published) p0 := by
  intro h
  cases s with
  | stop k p => exact h
  | next v5 => exact h

theorem emit_record_puts (E : MergeEnv) (v : MergeVars) (min_p : SORT_REC_LIST)
    (h : Accepted E v.published) :
    (emit_record E v min_p).PutsOK E (fun u => u.published) := by
  unfold emit_record
  split
  · split
    · exact publish_record_puts E v _ h
    · exact (output_record_silent E v _).puts_ok E _ _ _ h
  · exact h

theorem enter_record_silent (E : MergeEnv) (v3 : MergeVars) (min_p : SORT_REC_LIST)
    (rest : List SORT_REC_LIST) :
    (enter_record E v3 min_p rest).Silent (fun (r : MergeVars × Bool) => r.1.published)
      v3.published := by
  unfold enter_record
  simp only []
  split
  · rfl
  · split
    · rfl
    · split
      · exact Step.Silent.tail_flag _ _ (last_element_comparison_silent E _)
      · rfl

theorem proceed_input_silent (E : MergeEnv) (v1 : MergeVars) (min_p : SORT_REC_LIST)
    (rest : List SORT_REC_LIST) :
    (proceed_input E v1 min_p rest).Silent (fun (r : MergeVars × Bool) => r.1.published)
      v1.published := by
  unfold proceed_input
  simp only []
  have ha := advance_input_published v1 min_p.rec_pos
  split
  · split
    · exact ha
    · exact ha
  · have h1 := fetch_smallest_silent E (advance_input v1 min_p.rec_pos).1 min_p.rec_pos
    rw [ha] at h1
    revert h1
    cases fetch_smallest E (advance_input v1 min_p.rec_pos).1 min_p.rec_pos with
    | stop k p => exact fun h => h
    | next v3 =>
      intro h1
      have h2 := enter_record_silent E v3 min_p rest
      rw [show v3.published = v1.published from h1] at h2
      exact h2

theorem merge_iteration_puts (E : MergeEnv) (v : MergeVars) (h : Accepted E v.published) :
    (merge_iteration E v).PutsOK E (fun (r : MergeVars × Bool) => r.1.published) := by
  unfold merge_iteration
  split
  · exact h
  · rename_i min_p rest _
    have h1 := emit_record_puts E v min_p h
    revert h1
    cases emit_record E v min_p with
    | stop k p => exact fun h => Step.PutsOK.stop_any E _ _ k p h
    | next v1 =>
      intro h1
      exact (proceed_input_silent E v1 min_p rest).puts_ok E _ _ _ h1

theorem merge_loop_puts (E : MergeEnv) :
    ∀ (n : Nat) (v : MergeVars), Accepted E v.published →
      (merge_loop E n v).PutsOK E (fun u => u.published) := by
  intro n
  induction n with
  | zero => exact fun v h => h
  | succ n ih =>
    intro v h
    simp only [merge_loop]
    have h1 := merge_iteration_puts E v h
    revert h1
    cases merge_iteration E v with
    | stop k p => exact fun h => Step.PutsOK.stop_any E _ _ k p h
    | next r =>
      obtain ⟨v1, b⟩ := r
      intro h1
      cases b with
      | true => exact ih v1 h1
      | false => exact h1

theorem copy_run_loop_silent (act : Int) :
    ∀ (n : Nat) (v : MergeVars) (cp : Int),
      (copy_run_loop act n v cp).Silent (fun u => u.published) v.published := by
  intro n
  induction n with
  | zero => exact fun v cp => ⟨rfl, fun e h => by cases h⟩
  | succ n ih =>
    intro v cp
    simp only [copy_run_loop]
    split
    · exact ih _ _
    · rfl

theorem copy_last_run_silent (fuel : Nat) (v1 : MergeVars) (pre : Int) :
    (copy_last_run fuel v1 pre).Silent (fun (r : MergeVars × Bool) => r.1.published)
      v1.published := by
  unfold copy_last_run
  simp only []
  split
  · exact ⟨rfl, fun e h => by cases h⟩
  · split
    · exact ⟨rfl, fun e h => by cases h⟩
    · exact ⟨rfl, fun e h => by cases h⟩
    · rename_i oc _
      exact Step.Silent.tail_flag _ _ (copy_run_loop_silent _ fuel _ _)

theorem prepare_run_silent (fuel : Nat) (v : MergeVars) (j : Int) :
    (prepare_run fuel v j).Silent (fun (r : MergeVars × Bool) => r.1.published)
      v.published := by
  unfold prepare_run
  simp only []
  split
  · split
    · split
      · exact copy_last_run_silent fuel _ _
      · split
        · exact ⟨rfl, fun e h => by cases h⟩
        · rfl
    · rfl
  · rfl

theorem start_run_silent (E : MergeEnv) (v1 : MergeVars) :
    (start_run E v1).Silent (fun u => u.published) v1.published := by
  unfold start_run
  have h1 := init_input_sections_silent E v1.act_infiles.toNat v1 0
  revert h1
  cases init_input_sections E v1.act_infiles.toNat v1 0 with
  | stop k p => exact fun h => h
  | next v2 =>
    intro h1
    simp only []
    have h2 := last_element_comparison_silent E (start_list E v2)
    revert h2
    cases last_element_comparison E (start_list E v2) with
    | stop k p =>
      intro h2
      exact ⟨h2.1.trans h1, h2.2⟩
    | next v3 =>
      intro h2
      exact (show v3.published = v2.published from h2).trans h1

theorem finish_run_silent (v5 : MergeVars) :
    (finish_run v5).Silent (fun u => u.published) v5.published := by
  unfold finish_run end_run
  have hf : (final_flush v5).published = v5.published := by
    unfold final_flush
    split <;> rfl
  simp only []
  split
  · exact ⟨hf, fun e h => by cases h⟩
  · exact ⟨hf, fun e h => by cases h⟩
  · exact hf
theorem produce_run_puts (E : MergeEnv) (fuel : Nat) (v : MergeVars) (j : Int)
    (h : Accepted E v.published) :
    (produce_run E fuel v j).PutsOK E (fun u => u.published) := by
  unfold produce_run
  have h1 := prepare_run_silent fuel v j
  revert h1
  cases prepare_run fuel v j with
  | stop k p => exact fun h1 => Step.Silent.stop_puts E _ _ _ k p h1 h
  | next r =>
    obtain ⟨v1, b⟩ := r
    intro h1
    have e1 : v1.published = v.published := h1
    cases b with
    | true =>
      show Accepted E v1.published
      rw [e1]; exact h
    | false =>
      simp only []
      have h2 := start_run_silent E v1
      revert h2
      cases start_run E v1 with
      | stop k p => exact fun h2 => Step.Silent.stop_puts E _ _ _ k p h2 (by rw [e1]; exact h)
      | next v4 =>
        intro h2
        have e2 : v4.published = v1.published := h2
        simp only []
        have h3 := merge_loop_puts E fuel v4 (by rw [e2, e1]; exact h)
        revert h3
        cases merge_loop E fuel v4 with
        | stop k p => exact fun h3 => h3
        | next v5 =>
          intro h3
          exact (finish_run_silent v5).puts_ok E _ _ _ h3

theorem produce_runs_puts (E : MergeEnv) (fuel : Nat) :
    ∀ (n : Nat) (v : MergeVars) (j : Int), Accepted E v.published →
      (produce_runs E fuel n v j).PutsOK E (fun u => u.published) := by
  intro n
  induction n with
  | zero => exact fun v j h => h
  | succ n ih =>
    intro v j h
    simp only [produce_runs]
    split
    · have h1 := produce_run_puts E fuel v j h
      revert h1
      cases produce_run E fuel v j with
      | stop k p => exact fun h1 => h1
      | next v1 => exact fun h1 => ih v1 (j - 1) h1
    · exact h

theorem merge_pass_puts (E : MergeEnv) (fuel : Nat) (v : MergeVars) (a : Int)
    (h : Accepted E v.published) :
    (merge_pass E fuel v a).PutsOK E (fun u => u.published) := by
  unfold merge_pass
  simp only []
  have hp : (mark_last_run (distribute_memory v a)
      (count_num_runs (distribute_memory v a).sp a a.toNat
        (distribute_memory v a).sp.in_half 0)).published = v.published := by
    unfold mark_last_run
    split <;> rfl
  have h1 := produce_runs_puts E fuel fuel _
    (count_num_runs (distribute_memory v a).sp a a.toNat (distribute_memory v a).sp.in_half 0)
    (by rw [hp]; exact h)
  revert h1
  cases produce_runs E fuel fuel _ _ with
  | stop k p => exact fun h1 => h1
  | next v3 => exact fun h1 => h1

theorem merge_outer_loop_puts (E : MergeEnv) (fuel : Nat) :
    ∀ (n : Nat) (v : MergeVars), Accepted E v.published →
      (merge_outer_loop E fuel n v).PutsOK E (fun u => u.published) := by
  intro n
  induction n with
  | zero => exact fun v h => h
  | succ n ih =>
    intro v h
    simp only [merge_outer_loop]
    split
    · have h1 := merge_pass_puts E fuel v (sort_get_numpages_of_active_infiles v.sp) h
      revert h1
      cases merge_pass E fuel v _ with
      | stop k p => exact fun h1 => h1
      | next v1 => exact fun h1 => ih v1 h1
    · exact h

/-- The driver `sort_exphase_merge_elim_dup` calls the consumer no more after a
call that returned another value than `NO_ERROR`, and it stops for a value of the
consumer only with that value. -/
theorem merge_elim_dup_puts (E : MergeEnv) (fuel : Nat) (sp : SortParam) (junk : MergeVars) :
    (sort_exphase_merge_elim_dup E fuel sp junk).PutsOK E (fun u => u.published) :=
  merge_outer_loop_puts E fuel fuel _ (Accepted.nil E)

/-- The driver `sort_exphase_merge` calls the consumer no more after a call that
returned another value than `NO_ERROR`, and it stops for a value of the consumer
only with that value. -/
theorem merge_puts (E : MergeEnv) (fuel : Nat) (sp : SortParam) (junk : LinkVars) :
    (sort_exphase_merge E fuel sp junk).PutsOK E (fun (u : LinkVars) => u.vars.published) := by
  have h1 := merge_elim_dup_puts (tie_env E) fuel sp junk.vars
  have h2 := sort_exphase_merge_sim E fuel sp junk
  revert h1 h2
  cases sort_exphase_merge_elim_dup (tie_env E) fuel sp junk.vars with
  | stop k p =>
    cases sort_exphase_merge E fuel sp junk with
    | stop k1 p1 =>
      intro h1 h2
      rw [← h2.1, ← h2.2]
      exact Step.PutsOK.stop_any (tie_env E) _ _ k p h1
    | next b => exact fun _ h => h.elim
  | next a =>
    cases sort_exphase_merge E fuel sp junk with
    | stop k1 p1 => exact fun _ h => h.elim
    | next b =>
      intro h1 h2
      obtain ⟨c, hc⟩ := h2
      show Accepted E b.vars.published
      rw [hc]
      exact h1

/-! ### The driver with its merge phase: a consumer that stops the sort -/

theorem NoFailure.of_nil : NoFailure [] := fun _ h => by cases h

theorem NoFailure.append {l m : List SortEvent} (h1 : NoFailure l) (h2 : NoFailure m) :
    NoFailure (l ++ m) := by
  intro e he
  rcases List.mem_append.1 he with h | h
  · exact h1 e h
  · exact h2 e h

theorem NoFailure.left {l m : List SortEvent} (h : NoFailure (l ++ m)) : NoFailure l :=
  fun e he => h e (List.mem_append_left _ he)

theorem NoFailure.one {e : SortEvent} (h : failed_call e = false) : NoFailure [e] := by
  intro x hx
  rw [List.mem_singleton.1 hx]
  exact h

theorem destroy_temp_files_unfailed (st : ParamState) : ∀ (n : Nat) (k : Int),
    NoFailure (destroy_temp_files st n k) := by
  intro n
  induction n with
  | zero =>
    intro k
    exact NoFailure.of_nil
  | succ n ih =>
    intro k
    simp only [destroy_temp_files]
    split_ifs
    · exact NoFailure.append (NoFailure.one rfl) (ih _)
    · exact NoFailure.append NoFailure.of_nil (ih _)
    · exact NoFailure.of_nil

theorem return_used_resources_unfailed (st : ParamState) (h : NoFailure st.log) :
    NoFailure (sort_return_used_resources st).log := by
  unfold sort_return_used_resources
  simp only []
  refine NoFailure.append (NoFailure.append h (destroy_temp_files_unfailed st _ _)) ?_
  split_ifs
  · exact NoFailure.one rfl
  · exact NoFailure.of_nil

theorem run_flush_file_unfailed (W : SortWorld) (v v1 : InVars) (rec_type : RecType)
    (h : sort_run_flush_file W v rec_type = some (SortCode.NO_ERROR, v1))
    (h0 : NoFailure v.st.log) : NoFailure v1.st.log := by
  have hc : (if v.st.temp_volid_set v.out_curfile = false then
        sort_add_new_file_noalloc W v.st v.out_curfile else (true, v.st)).1 = true →
      NoFailure (if v.st.temp_volid_set v.out_curfile = false then
        sort_add_new_file_noalloc W v.st v.out_curfile else (true, v.st)).2.log := by
    split_ifs
    · unfold sort_add_new_file_noalloc
      simp only []
      intro hok
      rw [hok]
      exact NoFailure.append h0 (NoFailure.one rfl)
    · exact fun _ => h0
  unfold sort_run_flush_file at h
  simp only [] at h
  generalize (if v.st.temp_volid_set v.out_curfile = false then
    sort_add_new_file_noalloc W v.st v.out_curfile else (true, v.st)) = created at h hc
  by_cases h1 : created.1 = false
  · rw [if_pos h1] at h
    simp only [Option.some.injEq, Prod.mk.injEq] at h
    exact absurd h.1 (by decide)
  · rw [if_neg h1] at h
    have hc1 := hc (by cases hb : created.1 <;> simp_all)
    split at h
    · cases h
    · rename_i r _
      by_cases h2 : r.ok = false
      · rw [if_pos h2] at h
        simp only [Option.some.injEq, Prod.mk.injEq] at h
        exact absurd h.1 (by decide)
      · rw [if_neg h2] at h
        split at h
        · cases h
        · simp only [Option.some.injEq, Prod.mk.injEq] at h
          exact absurd h.1 (by decide)
        · simp only [Option.some.injEq, Prod.mk.injEq] at h
          rw [← h.2]
          exact hc1

theorem inphase_get_unfailed (W : SortWorld) (v : InVars) (h0 : NoFailure v.st.log)
    (hs : (inphase_get W v).1 ≠ SORT_STATUS.SORT_ERROR_OCCURRED) :
    NoFailure (inphase_get W v).2.st.log := by
  unfold inphase_get inphase_call at hs ⊢
  simp only [] at hs ⊢
  split_ifs at hs ⊢
  · exact h0
  · exact h0
  · refine NoFailure.append h0 (NoFailure.one ?_)
    generalize (W.get_fn v.st.log _).1 = s at hs
    cases s <;> first | rfl | exact absurd rfl hs
  · exact h0
  · refine NoFailure.append h0 (NoFailure.one ?_)
    generalize (W.get_fn v.st.log _).1 = s at hs
    cases s <;> first | rfl | exact absurd rfl hs

theorem failed_get_success (d : RECDES) (s : SORT_STATUS) (h : ¬ s ≠ SORT_STATUS.SORT_SUCCESS) :
    failed_call (SortEvent.get s d) = false := by
  rw [not_not.1 h]
  rfl

theorem failed_create_multipage (ok : Bool) (h : ¬ ok = false) :
    failed_call (SortEvent.create_multipage ok) = false := by
  cases ok
  · exact absurd rfl h
  · rfl

theorem inphase_long_record_unfailed (W : SortWorld) (v : InVars) (h0 : NoFailure v.st.log) :
    (inphase_long_record W v).Unfailed := by
  unfold inphase_long_record
  simp only []
  split_ifs <;> (try trivial) <;> split <;> (try trivial) <;> split <;> (try trivial) <;>
    (rename_i v4 hf
     refine (run_flush_file_unfailed W _ v4 _ hf ?_ : NoFailure v4.st.log)
     first
     | exact NoFailure.append (NoFailure.append h0 (NoFailure.one (failed_get_success _ _ (by assumption))))
         (NoFailure.one (failed_create_multipage _ (by assumption)))
     | exact NoFailure.append h0 (NoFailure.one (failed_get_success _ _ (by assumption))))

theorem inphase_end_run_unfailed (W : SortWorld) (option : SORT_DUP_OPTION) (v : InVars)
    (h0 : NoFailure v.st.log) : (inphase_end_run W option v).Unfailed := by
  unfold inphase_end_run
  cases hs : inphase_sort W option v with
  | none => trivial
  | some v1 =>
    simp only []
    have e1 := (inphase_sort_state W option v v1 hs).1
    cases hr : (if option = SORT_DUP_OPTION.SORT_ELIM_DUP then inphase_reset_item_ptr W v1
        else some v1) with
    | none => trivial
    | some v2 =>
      have e2 : v2.st = v.st := by
        split_ifs at hr
        · rw [inphase_reset_state W v1 v2 hr, e1]
        · simp only [Option.some.injEq] at hr
          rw [← hr, e1]
      simp only []
      split_ifs
      · show NoFailure v2.st.log
        rw [e2]
        exact h0
      · split
        · trivial
        · rename_i v3 hf
          have hq := run_flush_file_unfailed W _ _ _ hf (by rw [e2]; exact h0)
          split_ifs <;> exact hq
        · trivial

theorem inphase_doesnt_fit_unfailed (W : SortWorld) (option : SORT_DUP_OPTION) (v : InVars)
    (h0 : NoFailure v.st.log) : (inphase_doesnt_fit W option v).Unfailed := by
  have h1 : (if v.numrecs > 0 then inphase_end_run W option v else Flow.next v).Unfailed := by
    split_ifs
    · exact inphase_end_run_unfailed W option v h0
    · exact h0
  unfold inphase_doesnt_fit
  generalize (if v.numrecs > 0 then inphase_end_run W option v else Flow.next v) = f at h1
  cases f with
  | next v1 =>
    simp only []
    split_ifs
    · exact inphase_long_record_unfailed W v1 h1
    · exact h1
  | leave v1 => exact h1
  | stop e v1 => trivial
  | undefined v1 => trivial
  | out_of_fuel v1 => trivial

theorem inphase_iteration_unfailed (W : SortWorld) (option : SORT_DUP_OPTION) (v : InVars)
    (h0 : NoFailure v.st.log) : (inphase_iteration W option v).Unfailed := by
  have h1 := inphase_get_unfailed W v h0
  unfold inphase_iteration
  generalize inphase_get W v = g at h1
  obtain ⟨s, v1⟩ := g
  cases s with
  | SORT_NOMORE_RECS => exact h1 (fun h => by cases h)
  | SORT_ERROR_OCCURRED => trivial
  | SORT_REC_DOESNT_FIT =>
    exact inphase_doesnt_fit_unfailed W option v1 (h1 (fun h => by cases h))
  | SORT_SUCCESS => exact h1 (fun h => by cases h)
  | other => trivial

theorem inphase_loop_unfailed (W : SortWorld) (option : SORT_DUP_OPTION) :
    ∀ (n : Nat) (v : InVars), NoFailure v.st.log → (inphase_loop W option n v).Unfailed := by
  intro n
  induction n with
  | zero =>
    intro v _
    trivial
  | succ n ih =>
    intro v h0
    have h1 := inphase_iteration_unfailed W option v h0
    simp only [inphase_loop]
    generalize inphase_iteration W option v = f at h1
    cases f with
    | next v1 => exact ih v1 h1
    | leave v1 => exact h1
    | stop e v1 => trivial
    | undefined v1 => trivial
    | out_of_fuel v1 => trivial

theorem put_records_tot_runs (W : SortWorld) (base numrecs : Int) :
    ∀ (n : Nat) (i : Int) (v : InVars),
      (put_records W base numrecs n i v).vars.st.tot_runs = v.st.tot_runs := by
  intro n
  induction n with
  | zero =>
    intro i v
    rfl
  | succ n ih =>
    intro i v
    simp only [put_records]
    by_cases hi : i < numrecs
    · rw [if_pos hi]
      cases hc : v.cells (base + i) with
      | none => rfl
      | some k =>
        simp only []
        by_cases hr : W.M.put_fn (published_of v.st.log)
            { v.temp_recdes with data := (v.recs (k : Int)).data,
                                 length := (v.recs (k : Int)).length } ≠ 0
        · rw [if_pos hr]
          rfl
        · rw [if_neg hr, ih]
    · rw [if_neg hi]
      rfl

/-- A value of `put_fn` other than `NO_ERROR` ends the input phase: with
`SORT_PUT_STOP` the input phase returns `NO_ERROR`, or, for the only record that
is a long one, `er_errid ()` after events without a failed call. -/
theorem inphase_finish_stop (W : SortWorld) (option : SORT_DUP_OPTION) (v : InVars)
    (hstop : W.SORT_PUT_STOP ≠ 0) (h0 : put_calls v.st.log = []) (hn : NoFailure v.st.log)
    (hm : W.SORT_PUT_STOP ∈ put_rets (inphase_finish W option v).vars.st.log) :
    ∃ e v1, inphase_finish W option v = Flow.stop e v1 ∧
      (e = SortCode.NO_ERROR ∧ v1.st.tot_runs ≤ 1 ∨
       e = SortCode.er_errid ∧ NoFailure v1.st.log) := by
  have hq := (put_rets_of_quiet v.st.log h0).1
  have hquiet : ∀ f : Flow, Quiet v.st.log f.vars.st.log →
      ¬ W.SORT_PUT_STOP ∈ put_rets f.vars.st.log := by
    intro f hf
    rw [hf.put_rets_eq.1, hq]
    simp
  have hput : ∀ (u : InVars) (base numrecs : Int), u.st.log = v.st.log → u.st.tot_runs ≤ 1 →
      W.SORT_PUT_STOP ∈ put_rets (match put_records W base numrecs (numrecs.toNat + 1) 0 u with
        | Flow.next v2 => Flow.stop SortCode.NO_ERROR v2
        | f => f).vars.st.log →
      ∃ e v1, (match put_records W base numrecs (numrecs.toNat + 1) 0 u with
        | Flow.next v2 => Flow.stop SortCode.NO_ERROR v2
        | f => f) = Flow.stop e v1 ∧
        (e = SortCode.NO_ERROR ∧ v1.st.tot_runs ≤ 1 ∨
         e = SortCode.er_errid ∧ NoFailure v1.st.log) := by
    intro u base numrecs hu ht hmem
    obtain ⟨rets, t1, t2, t3, t4, t5⟩ := put_records_trace W base numrecs (numrecs.toNat + 1) 0 u
      (by omega)
    have htr := put_records_tot_runs W base numrecs (numrecs.toNat + 1) 0 u
    have hu0 : put_rets u.st.log = [] := by rw [hu]; exact hq
    cases hf : put_records W base numrecs (numrecs.toNat + 1) 0 u with
    | next v2 =>
      rw [hf] at htr
      exact ⟨_, v2, rfl, Or.inl ⟨rfl, by simp only [Flow.vars] at htr; omega⟩⟩
    | stop e v2 =>
      rw [hf] at t1 t5 htr hmem
      simp only [Flow.vars] at t1 t5 htr hmem
      obtain ⟨r, q1, q2, q3⟩ := t5
      rw [t1, put_rets_append, hu0, List.nil_append, (put_rets_put_events u rets _).1] at hmem
      have hr : r = W.SORT_PUT_STOP := by
        by_contra hne
        have hsplit := List.dropLast_append_getLast? r q1
        rw [← hsplit] at hmem
        rcases List.mem_append.1 hmem with h | h
        · exact hstop (t2 _ h)
        · exact hne (List.mem_singleton.1 h).symm
      rw [if_pos hr] at q3
      exact ⟨e, v2, rfl, Or.inl ⟨q3, by omega⟩⟩
    | undefined v2 =>
      rw [hf] at t1 t5 hmem
      simp only [Flow.vars] at t1 t5 hmem
      rw [t1, put_rets_append, hu0, List.nil_append, (put_rets_put_events u rets _).1] at hmem
      exact absurd (t5 _ hmem) hstop
    | leave v2 =>
      rw [hf] at t5
      exact t5.elim
    | out_of_fuel v2 =>
      rw [hf] at t5
      exact t5.elim
  unfold inphase_finish at hm ⊢
  by_cases hnr : v.numrecs > 0
  · rw [if_pos hnr] at hm ⊢
    cases hs : inphase_sort W option v with
    | none =>
      rw [hs] at hm
      exact absurd hm (hquiet _ (Quiet.nothing _))
    | some v1 =>
      rw [hs] at hm
      simp only [] at hm ⊢
      have e1 := (inphase_sort_state W option v v1 hs).1
      by_cases ht : v1.st.tot_runs > 0
      · rw [if_pos ht] at hm
        cases hf : sort_run_flush_file W v1 RecType.REC_HOME with
        | none =>
          rw [hf] at hm
          refine absurd hm (hquiet _ ?_)
          simp only [Flow.vars]
          rw [e1]
          exact Quiet.nothing _
        | some p =>
          obtain ⟨e, v2⟩ := p
          rw [hf] at hm
          refine absurd hm (hquiet _ ?_)
          have := run_flush_file_quiet W _ _ _ _ hf
          rw [e1] at this
          exact this
      · rw [if_neg ht] at hm ⊢
        exact hput v1 _ _ (by rw [e1]) (by omega) hm
  · rw [if_neg hnr] at hm ⊢
    by_cases ht : v.st.tot_runs = 1
    · rw [if_pos ht] at hm ⊢
      by_cases ho : v.once_flushed = true
      · rw [if_pos ho] at hm ⊢
        exact hput v _ _ rfl (by omega) hm
      · rw [if_neg ho] at hm ⊢
        unfold inphase_single_long at hm ⊢
        simp only [] at hm ⊢
        split_ifs at hm ⊢ with h1
        · simp only [Flow.vars, hq] at hm
          simp at hm
        · split at hm
          · simp only [Flow.vars, hq] at hm
            simp at hm
          · rename_i long1 hl
            split_ifs with h2
            · refine ⟨_, _, rfl, Or.inr ⟨rfl, ?_⟩⟩
              exact NoFailure.append hn (NoFailure.one rfl)
            · rw [if_neg h2] at hm
              simp only [Flow.vars, put_rets_append, hq, List.nil_append, put_rets,
                List.mem_singleton] at hm
              rw [← hm] at h2
              exact absurd (not_not.1 h2) hstop
    · rw [if_neg ht] at hm
      exact absurd hm (hquiet _ (Quiet.nothing _))

theorem inphase_sort_stop (W : SortWorld) (fuel : Nat) (option : SORT_DUP_OPTION)
    (st : ParamState) (junk : InVars) (hstop : W.SORT_PUT_STOP ≠ 0)
    (h0 : put_calls st.log = []) (hn : NoFailure st.log)
    (hm : W.SORT_PUT_STOP ∈ put_rets (sort_inphase_sort W fuel option st junk).vars.st.log) :
    ∃ e v1, sort_inphase_sort W fuel option st junk = Flow.stop e v1 ∧
      (e = SortCode.NO_ERROR ∧ v1.st.tot_runs ≤ 1 ∨
       e = SortCode.er_errid ∧ NoFailure v1.st.log) := by
  have hl := inphase_loop_quiet W option fuel (inphase_init W st junk)
  have hu := inphase_loop_unfailed W option fuel (inphase_init W st junk) hn
  have hi : put_calls (inphase_init W st junk).st.log = [] := h0
  have hq : put_calls (inphase_loop W option fuel (inphase_init W st junk)).vars.st.log = [] := by
    have : Quiet _ _ := hl
    unfold Quiet at this
    rw [this, hi]
  have hr := (put_rets_of_quiet _ hq).1
  unfold sort_inphase_sort at hm ⊢
  cases hf : inphase_loop W option fuel (inphase_init W st junk) with
  | leave v =>
    rw [hf] at hq hu hm
    exact inphase_finish_stop W option v hstop hq hu hm
  | next v =>
    rw [hf] at hr hm
    simp only [Flow.vars] at hr hm
    rw [hr] at hm
    simp at hm
  | stop e v =>
    rw [hf] at hr hm
    simp only [Flow.vars] at hr hm
    rw [hr] at hm
    simp at hm
  | undefined v =>
    rw [hf] at hr hm
    simp only [Flow.vars] at hr hm
    rw [hr] at hm
    simp at hm
  | out_of_fuel v =>
    rw [hf] at hr hm
    simp only [Flow.vars] at hr hm
    rw [hr] at hm
    simp at hm

/-- The input phase that leaves more than one run has not called `put_fn`. -/
theorem inphase_finish_runs (W : SortWorld) (option : SORT_DUP_OPTION) (v : InVars)
    (ht : (inphase_finish W option v).vars.st.tot_runs > 1) :
    Quiet v.st.log (inphase_finish W option v).vars.st.log := by
  unfold inphase_finish at ht ⊢
  by_cases hnr : v.numrecs > 0
  · rw [if_pos hnr] at ht ⊢
    cases hs : inphase_sort W option v with
    | none => exact Quiet.nothing _
    | some v1 =>
      rw [hs] at ht
      simp only [] at ht ⊢
      have e1 := (inphase_sort_state W option v v1 hs).1
      by_cases h1 : v1.st.tot_runs > 0
      · rw [if_pos h1]
        cases hf : sort_run_flush_file W v1 RecType.REC_HOME with
        | none =>
          simp only [Flow.vars]
          rw [e1]
          exact Quiet.nothing _
        | some p =>
          obtain ⟨e, v2⟩ := p
          have := run_flush_file_quiet W _ _ _ _ hf
          rw [e1] at this
          exact this
      · rw [if_neg h1] at ht
        have htr := put_records_tot_runs W v1.index_area v1.numrecs (v1.numrecs.toNat + 1) 0 v1
        generalize put_records W v1.index_area v1.numrecs (v1.numrecs.toNat + 1) 0 v1 = f at ht htr
        cases f <;> simp only [Flow.vars] at ht htr <;> omega
  · rw [if_neg hnr] at ht ⊢
    by_cases h1 : v.st.tot_runs = 1
    · rw [if_pos h1] at ht
      by_cases ho : v.once_flushed = true
      · rw [if_pos ho] at ht
        have htr := put_records_tot_runs W v.saved_index_area v.saved_numrecs
          (v.saved_numrecs.toNat + 1) 0 v
        generalize put_records W v.saved_index_area v.saved_numrecs
          (v.saved_numrecs.toNat + 1) 0 v = f at ht htr
        cases f <;> simp only [Flow.vars] at ht htr <;> omega
      · rw [if_neg ho] at ht
        have : (inphase_single_long W v).vars.st.tot_runs = v.st.tot_runs := by
          unfold inphase_single_long
          simp only []
          split_ifs
          · rfl
          · split
            · rfl
            · split_ifs <;> rfl
        omega
    · rw [if_neg h1]
      exact Quiet.nothing _

theorem inphase_sort_runs (W : SortWorld) (fuel : Nat) (option : SORT_DUP_OPTION)
    (st : ParamState) (junk : InVars) (h0 : put_calls st.log = [])
    (ht : (sort_inphase_sort W fuel option st junk).vars.st.tot_runs > 1) :
    put_calls (sort_inphase_sort W fuel option st junk).vars.st.log = [] := by
  have hl := inphase_loop_quiet W option fuel (inphase_init W st junk)
  have hi : put_calls (inphase_init W st junk).st.log = [] := h0
  have hq : put_calls (inphase_loop W option fuel (inphase_init W st junk)).vars.st.log = [] := by
    have : Quiet _ _ := hl
    unfold Quiet at this
    rw [this, hi]
  unfold sort_inphase_sort at ht ⊢
  cases hf : inphase_loop W option fuel (inphase_init W st junk) with
  | leave v =>
    rw [hf] at hq ht
    simp only [] at ht ⊢
    have := inphase_finish_runs W option v ht
    unfold Quiet at this
    rw [this]
    exact hq
  | next v => rw [hf] at hq; exact hq
  | stop e v => rw [hf] at hq; exact hq
  | undefined v => rw [hf] at hq; exact hq
  | out_of_fuel v => rw [hf] at hq; exact hq

theorem put_calls_of_rets (l : List SortEvent) (h : put_rets l = []) : put_calls l = [] := by
  induction l with
  | nil => rfl
  | cons e l ih =>
    cases e <;> simp_all [put_calls, put_rets, List.filter_cons]

/-- After a call of `put_fn` that returned a value other than `NO_ERROR` there is
no further call, when every call but the last returned `NO_ERROR`. -/
theorem no_put_after (log l1 l2 : List SortEvent) (d : RECDES) (s : Int) (hs : s ≠ 0)
    (h : ∀ r ∈ (put_rets log).dropLast, r = 0)
    (hlog : log = l1 ++ SortEvent.put d s :: l2) : put_calls l2 = [] := by
  apply put_calls_of_rets
  by_contra hne
  apply hs
  apply h
  rw [hlog, put_rets_append]
  simp only [put_rets]
  obtain ⟨x, xs, hx⟩ := List.exists_cons_of_ne_nil hne
  rw [hx]
  rw [List.dropLast_append_of_ne_nil _ (by simp), List.dropLast_cons₂]
  simp

theorem listfile_stop (W : SortWorld) (fuel : Nat) (est_inp_pg_cnt : Int)
    (option : SORT_DUP_OPTION) (junk : InVars) (hstop : W.SORT_PUT_STOP ≠ 0)
    (hm : W.SORT_PUT_STOP ∈ put_rets (sort_listfile W fuel est_inp_pg_cnt option junk).state.log) :
    ∃ e st, sort_listfile W fuel est_inp_pg_cnt option junk = ListfileOutcome.returned e st ∧
      (e = SortCode.NO_ERROR ∨ e = SortCode.er_errid ∧ NoFailure st.log) := by
  unfold sort_listfile at hm ⊢
  by_cases ha : W.malloc_arena_ok = false ∧ W.malloc_arena_again_ok = false
  · rw [if_pos ha] at hm
    simp [ListfileOutcome.state, put_rets] at hm
  · rw [if_neg ha] at hm ⊢
    simp only [] at hm ⊢
    cases hl : first_failed_ledger W (listfile_init W W.malloc_arena_ok est_inp_pg_cnt junk.st).sp.tot_tempfiles
        (listfile_init W W.malloc_arena_ok est_inp_pg_cnt junk.st).sp.tot_tempfiles.toNat 0 with
    | some i =>
      rw [hl] at hm
      simp only [ListfileOutcome.state] at hm
      have : (listfile_init W W.malloc_arena_ok est_inp_pg_cnt junk.st).log = [] := rfl
      rw [this] at hm
      simp [put_rets] at hm
    | none =>
      rw [hl] at hm
      simp only [] at hm ⊢
      have key := inphase_sort_stop W fuel option
        (listfile_init W W.malloc_arena_ok est_inp_pg_cnt junk.st) junk hstop rfl NoFailure.of_nil
      cases hf : sort_inphase_sort W fuel option
          (listfile_init W W.malloc_arena_ok est_inp_pg_cnt junk.st) junk with
      | next v =>
        rw [hf] at hm key
        obtain ⟨e, v1, h1, -⟩ := key hm
        cases h1
      | leave v =>
        rw [hf] at hm key
        obtain ⟨e, v1, h1, -⟩ := key hm
        cases h1
      | undefined v =>
        rw [hf] at hm key
        obtain ⟨e, v1, h1, -⟩ := key hm
        cases h1
      | out_of_fuel v =>
        rw [hf] at hm key
        obtain ⟨e, v1, h1, -⟩ := key hm
        cases h1
      | stop e v =>
        rw [hf] at hm key
        have hmem : W.SORT_PUT_STOP ∈ put_rets v.st.log := by
          cases e with
          | NO_ERROR =>
            simp only [] at hm
            split_ifs at hm
            · exact hm
            · simp only [ListfileOutcome.state] at hm
              rw [(return_used_resources_quiet v.st).put_rets_eq.1] at hm
              exact hm
          | _ =>
            simp only [ListfileOutcome.state] at hm
            rw [(return_used_resources_quiet v.st).put_rets_eq.1] at hm
            exact hm
        obtain ⟨e1, v1, h1, h2⟩ := key hmem
        simp only [Flow.stop.injEq] at h1
        obtain ⟨h1a, h1b⟩ := h1
        subst h1a
        subst h1b
        rcases h2 with ⟨h2, h3⟩ | ⟨h2, h3⟩
        · subst h2
          simp only []
          rw [if_neg (by omega)]
          exact ⟨_, _, rfl, Or.inl rfl⟩
        · subst h2
          exact ⟨_, _, rfl, Or.inr ⟨rfl, return_used_resources_unfailed _ h3⟩⟩

theorem listfile_merge_quiet (W : SortWorld) (fuel : Nat) (est_inp_pg_cnt : Int)
    (option : SORT_DUP_OPTION) (junk : InVars) (st : ParamState)
    (h : sort_listfile W fuel est_inp_pg_cnt option junk = ListfileOutcome.merge_phase st) :
    put_calls st.log = [] := by
  unfold sort_listfile at h
  by_cases ha : W.malloc_arena_ok = false ∧ W.malloc_arena_again_ok = false
  · rw [if_pos ha] at h
    cases h
  · rw [if_neg ha] at h
    simp only [] at h
    cases hl : first_failed_ledger W (listfile_init W W.malloc_arena_ok est_inp_pg_cnt junk.st).sp.tot_tempfiles
        (listfile_init W W.malloc_arena_ok est_inp_pg_cnt junk.st).sp.tot_tempfiles.toNat 0 with
    | some i =>
      rw [hl] at h
      cases h
    | none =>
      rw [hl] at h
      simp only [] at h
      have key := inphase_sort_runs W fuel option
        (listfile_init W W.malloc_arena_ok est_inp_pg_cnt junk.st) junk rfl
      cases hf : sort_inphase_sort W fuel option
          (listfile_init W W.malloc_arena_ok est_inp_pg_cnt junk.st) junk with
      | next v => rw [hf] at h; cases h
      | leave v => rw [hf] at h; cases h
      | undefined v => rw [hf] at h; cases h
      | out_of_fuel v => rw [hf] at h; cases h
      | stop e v =>
        rw [hf] at h key
        cases e with
        | NO_ERROR =>
          simp only [] at h
          split_ifs at h with ht
          simp only [ListfileOutcome.merge_phase.injEq] at h
          rw [← h]
          exact key ht
        | _ => cases h

theorem put_log_rets_accepted (E : MergeEnv) : ∀ (p b : List RECDES),
    (∀ q r, q ++ [r] <+: p → E.put_fn (b ++ q) r = 0) →
    ∀ x ∈ put_rets (put_log E b p), x = 0 := by
  intro p
  induction p with
  | nil =>
    intro b _ x hx
    simp [put_log, put_rets] at hx
  | cons a p ih =>
    intro b h x hx
    simp only [put_log, put_rets, List.mem_cons] at hx
    rcases hx with hx | hx
    · rw [hx]
      have := h [] a (by simp)
      rw [List.append_nil] at this
      exact this
    · refine ih (b ++ [a]) (fun q r hq => ?_) x hx
      have := h (a :: q) r (by
        rw [List.cons_append]
        exact (List.prefix_cons_inj a).2 hq)
      rw [List.append_assoc]
      exact this

theorem put_log_append (E : MergeEnv) : ∀ (p b q : List RECDES),
    put_log E b (p ++ q) = put_log E b p ++ put_log E (b ++ p) q := by
  intro p
  induction p with
  | nil =>
    intro b q
    simp [put_log]
  | cons a p ih =>
    intro b q
    show SortEvent.put a (E.put_fn b a) :: put_log E (b ++ [a]) (p ++ q) =
      SortEvent.put a (E.put_fn b a) :: put_log E (b ++ [a]) p ++ put_log E (b ++ a :: p) q
    rw [ih, List.append_assoc]
    rfl

/-- The values that the consumer returned to a merge driver: `NO_ERROR` for every
record but the last one of a driver that the consumer stopped. -/
theorem put_log_rets (E : MergeEnv) {σ : Type} (pub : σ → List RECDES) (s : Step σ)
    (h : s.PutsOK E pub) :
    (∀ x ∈ (put_rets (put_log E [] (match s with
      | Step.next u => pub u
      | Step.stop _ p => p))).dropLast, x = 0) ∧
    (∀ x ∈ put_rets (put_log E [] (match s with
      | Step.next u => pub u
      | Step.stop _ p => p)), x ≠ 0 →
        ∃ p, s = Step.stop (StopKind.bailout (SortError.put_error x)) p) ∧
    (∀ e p, s = Step.stop (StopKind.bailout (SortError.put_error e)) p →
      (put_rets (put_log E [] p)).getLast? = some e ∧ e ≠ 0) := by
  have hacc : ∀ p, Accepted E p → ∀ x ∈ put_rets (put_log E [] p), x = 0 := by
    intro p hp
    exact put_log_rets_accepted E p [] (fun q r hq => by
      rw [List.nil_append]
      exact hp q r hq)
  have hstop : ∀ q r e, Accepted E q → E.put_fn q r = e →
      put_rets (put_log E [] (q ++ [r])) = put_rets (put_log E [] q) ++ [e] := by
    intro q r e _ he
    rw [put_log_append, put_rets_append]
    simp only [put_log, put_rets, List.nil_append, he]
  cases s with
  | next u =>
    simp only []
    refine ⟨fun x hx => hacc _ h x (List.mem_of_mem_dropLast hx),
      fun x hx hne => absurd (hacc _ h x hx) hne, fun e p hs => by cases hs⟩
  | stop k p =>
    simp only []
    cases k with
    | bailout er =>
      cases er with
      | put_error e =>
        obtain ⟨q, r, h1, h2, h3, h4⟩ := h
        rw [h1, hstop q r e h2 h3]
        refine ⟨?_, ?_, ?_⟩
        · rw [List.dropLast_concat]
          exact hacc q h2
        · intro x hx hne
          rcases List.mem_append.1 hx with hx | hx
          · exact absurd (hacc q h2 x hx) hne
          · rw [List.mem_singleton.1 hx, ← h1]
            exact ⟨p, rfl⟩
        · intro e1 p1 hs
          simp only [Step.stop.injEq, StopKind.bailout.injEq, SortError.put_error.injEq] at hs
          rw [← hs.1, hs.2.symm, hstop q r e h2 h3]
          exact ⟨List.getLast?_concat _, h4⟩
      | _ =>
        refine ⟨fun x hx => hacc _ h x (List.mem_of_mem_dropLast hx),
          fun x hx hne => absurd (hacc _ h x hx) hne, fun e p hs => by cases hs⟩
    | _ =>
      refine ⟨fun x hx => hacc _ h x (List.mem_of_mem_dropLast hx),
        fun x hx hne => absurd (hacc _ h x hx) hne, fun e p hs => by cases hs⟩

theorem Step.PutsOK.of_map {σ τ : Type} (E : MergeEnv) (g : σ → τ) (pub : τ → List RECDES)
    (s : Step σ) (h : s.PutsOK E (fun u => pub (g u))) : (s.map g).PutsOK E pub := by
  cases s with
  | next u => exact h
  | stop k p => exact Step.PutsOK.stop_any E _ _ k p h

theorem merge_driver_puts (E : MergeEnv) (mfuel : Nat) (option : SORT_DUP_OPTION)
    (sp : SortParam) (junk : LinkVars) :
    (merge_driver E mfuel option sp junk).PutsOK E (fun r => r.2) := by
  unfold merge_driver
  split_ifs
  · exact Step.PutsOK.of_map E _ _ _ (merge_elim_dup_puts E mfuel sp junk.vars)
  · exact Step.PutsOK.of_map E _ _ _ (merge_puts E mfuel sp junk)

theorem add_new_file_alloc_log (W : SortWorld) (MH : MergeHost) (st : ParamState)
    (est : Int) (i : Int) :
    Quiet st.log (sort_add_new_file_alloc W MH st est i).2.log ∧
      (sort_add_new_file_alloc W MH st est i).2.sp = st.sp := by
  unfold sort_add_new_file_alloc
  exact ⟨Quiet.after_create_temp _ _ _, rfl⟩

theorem create_output_files_log (W : SortWorld) (MH : MergeHost) (est : Int) :
    ∀ (n : Nat) (st : ParamState) (i : Int),
      Quiet st.log (create_output_files W MH est n st i).2.log ∧
        (create_output_files W MH est n st i).2.sp = st.sp := by
  intro n
  induction n with
  | zero =>
    intro st i
    exact ⟨Quiet.nothing _, rfl⟩
  | succ n ih =>
    intro st i
    simp only [create_output_files]
    split_ifs
    · have h1 := add_new_file_alloc_log W MH st est i
      generalize sort_add_new_file_alloc W MH st est i = r at h1
      obtain ⟨ok, st1⟩ := r
      cases ok with
      | false => exact h1
      | true =>
        simp only []
        have h2 := ih st1 (i + 1)
        exact ⟨h1.1.followed h2.1, by rw [h2.2, h1.2]⟩
    · exact ⟨Quiet.nothing _, rfl⟩

theorem rets_after_merge (st1 : ParamState) (sp : SortParam) (l : List SortEvent)
    (h : put_calls st1.log = []) :
    put_rets (sort_return_used_resources { st1 with sp := sp, log := st1.log ++ l }).log =
      put_rets l ∧
    put_rets (sort_return_used_resources { st1 with log := st1.log ++ l }).log = put_rets l ∧
    put_rets (st1.log ++ l) = put_rets l := by
  have h1 : put_rets (st1.log ++ l) = put_rets l := by
    rw [put_rets_append, (put_rets_of_quiet _ h).1, List.nil_append]
  refine ⟨?_, ?_, h1⟩
  · rw [(return_used_resources_quiet _).put_rets_eq.1]
    exact h1
  · rw [(return_used_resources_quiet _).put_rets_eq.1]
    exact h1

/-- The merge phase of `sort_listfile`: every call of `put_fn` but the last one
returned `NO_ERROR`; a call that returned another value ended the driver, and
`sort_listfile` returned `NO_ERROR` when the value was `SORT_PUT_STOP` and the
value otherwise. -/
theorem merge_phase_puts (W : SortWorld) (MH : MergeHost) (mfuel : Nat)
    (option : SORT_DUP_OPTION) (st : ParamState) (junk : LinkVars)
    (hq : put_calls st.log = []) :
    (∀ x ∈ (put_rets (listfile_merge_phase W MH mfuel option st junk).state.log).dropLast,
      x = 0) ∧
    (∀ x ∈ put_rets (listfile_merge_phase W MH mfuel option st junk).state.log, x ≠ 0 →
      ∃ st1, listfile_merge_phase W MH mfuel option st junk =
        ListfileEnd.returned (merge_return W (SortError.put_error x)) st1) ∧
    (∀ code st1, listfile_merge_phase W MH mfuel option st junk =
        ListfileEnd.returned code st1 → code ≠ ListfileCode.input SortCode.NO_ERROR →
      put_rets st1.log = [] ∨ (∃ r, (put_rets st1.log).getLast? = some r ∧ r ≠ 0) ∨
      ∃ e p, (∀ c, e ≠ SortError.put_error c) ∧ code = ListfileCode.merge e ∧
        ∃ stc, create_output_files W MH (max 1 (sort_get_avg_numpages_of_nonempty_tmpfile st.sp))
          (st.sp.tot_tempfiles - st.sp.half_files).toNat st st.sp.half_files = (true, stc) ∧
        merge_driver W.M mfuel option stc.sp junk = Step.stop (StopKind.bailout e) p) := by
  have hnil : ∀ l : List Int, l = [] → (∀ x ∈ l.dropLast, x = 0) ∧
      ∀ x ∈ l, x ≠ 0 → False := by
    intro l hl
    rw [hl]
    exact ⟨fun x hx => by simp at hx, fun x hx => by simp at hx⟩
  unfold listfile_merge_phase
  simp only []
  generalize (if st.sp.tot_tempfiles > st.sp.half_files then
      MH.file_create_hint_numpages
        (max 1 (sort_get_avg_numpages_of_nonempty_tmpfile st.sp) *
          (st.sp.tot_tempfiles - st.sp.half_files))
    else 0) = hint
  by_cases hh : hint ≠ 0
  · rw [if_pos hh]
    have h0 : put_rets (sort_return_used_resources st).log = [] := by
      rw [(return_used_resources_quiet _).put_rets_eq.1]
      exact (put_rets_of_quiet _ hq).1
    simp only [ListfileEnd.state]
    refine ⟨(hnil _ h0).1, fun x hx hne => ((hnil _ h0).2 x hx hne).elim, fun code st1 h _ => ?_⟩
    simp only [ListfileEnd.returned.injEq] at h
    rw [← h.2]
    exact Or.inl h0
  · rw [if_neg hh]
    have hc := create_output_files_log W MH
      (max 1 (sort_get_avg_numpages_of_nonempty_tmpfile st.sp))
      (st.sp.tot_tempfiles - st.sp.half_files).toNat st st.sp.half_files
    generalize hcr : create_output_files W MH
      (max 1 (sort_get_avg_numpages_of_nonempty_tmpfile st.sp))
      (st.sp.tot_tempfiles - st.sp.half_files).toNat st st.sp.half_files = cr at hc
    obtain ⟨ok, stc⟩ := cr
    have hqc : put_calls stc.log = [] := by
      have : Quiet _ _ := hc.1
      unfold Quiet at this
      rw [this]
      exact hq
    cases ok with
    | false =>
      have h0 : put_rets (sort_return_used_resources stc).log = [] := by
        rw [(return_used_resources_quiet _).put_rets_eq.1]
        exact (put_rets_of_quiet _ hqc).1
      simp only [ListfileEnd.state]
      refine ⟨(hnil _ h0).1, fun x hx hne => ((hnil _ h0).2 x hx hne).elim,
        fun code st1 h _ => ?_⟩
      simp only [ListfileEnd.returned.injEq] at h
      rw [← h.2]
      exact Or.inl h0
    | true =>
      simp only []
      have hp := merge_driver_puts W.M mfuel option stc.sp junk
      have hr := put_log_rets W.M _ _ hp
      generalize hd : merge_driver W.M mfuel option stc.sp junk = s at hp hr
      cases s with
      | next r =>
        simp only [] at hr ⊢
        simp only [ListfileEnd.state]
        rw [(rets_after_merge stc r.1 _ hqc).1]
        refine ⟨hr.1, fun x hx hne => ?_, fun code st1 h hne => ?_⟩
        · obtain ⟨p, hp1⟩ := hr.2.1 x hx hne
          cases hp1
        · simp only [ListfileEnd.returned.injEq] at h
          exact absurd h.1.symm hne
      | stop k p =>
        simp only [] at hr
        cases k with
        | bailout e =>
          simp only [ListfileEnd.state]
          rw [(rets_after_merge stc stc.sp _ hqc).2.1]
          refine ⟨hr.1, fun x hx hne => ?_, fun code st1 h hne => ?_⟩
          · obtain ⟨p1, hp1⟩ := hr.2.1 x hx hne
            simp only [Step.stop.injEq, StopKind.bailout.injEq] at hp1
            rw [hp1.1]
            exact ⟨_, rfl⟩
          · simp only [ListfileEnd.returned.injEq] at h
            rw [← h.2, (rets_after_merge stc stc.sp _ hqc).2.1]
            cases e with
            | put_error c =>
              exact Or.inr (Or.inl ⟨c, (hr.2.2 c p rfl).1, (hr.2.2 c p rfl).2⟩)
            | ER_SORT_TEMP_PAGE_CORRUPTED =>
              exact Or.inr (Or.inr ⟨SortError.ER_SORT_TEMP_PAGE_CORRUPTED, p, (fun c hc => by cases hc), h.1.symm,
                stc, rfl, hd⟩)
            | ER_GENERIC_ERROR =>
              exact Or.inr (Or.inr ⟨SortError.ER_GENERIC_ERROR, p, (fun c hc => by cases hc), h.1.symm,
                stc, rfl, hd⟩)
            | er_errid =>
              exact Or.inr (Or.inr ⟨SortError.er_errid, p, (fun c hc => by cases hc), h.1.symm,
                stc, rfl, hd⟩)
        | undefined =>
          simp only [ListfileEnd.state]
          rw [(rets_after_merge stc stc.sp _ hqc).2.2]
          refine ⟨hr.1, fun x hx hne => ?_, fun code st1 h hne => by cases h⟩
          obtain ⟨p1, hp1⟩ := hr.2.1 x hx hne
          cases hp1
        | out_of_fuel =>
          simp only [ListfileEnd.state]
          rw [(rets_after_merge stc stc.sp _ hqc).2.2]
          refine ⟨hr.1, fun x hx hne => ?_, fun code st1 h hne => by cases h⟩
          obtain ⟨p1, hp1⟩ := hr.2.1 x hx hne
          cases hp1

theorem split_at_put (log : List SortEvent) (k : Nat) (r : Int)
    (h : put_ret_at log k = some r) :
    ∃ d, log = log.take k ++ SortEvent.put d r :: log.drop (k + 1) := by
  unfold put_ret_at at h
  cases hg : log.get? k with
  | none => rw [hg] at h; cases h
  | some e =>
    rw [hg] at h
    have hk : k < log.length := by
      by_contra hn
      rw [List.get?_eq_none.2 (by omega)] at hg
      cases hg
    have he : log[k] = e := by
      rw [List.get?_eq_get hk] at hg
      simpa using hg
    cases e with
    | put d r1 =>
      simp only [Option.some.injEq] at h
      refine ⟨d, ?_⟩
      rw [← h, ← he, ← List.drop_eq_getElem_cons hk, List.take_append_drop]
    | _ => cases h

theorem no_failure_iff (log : List SortEvent) :
    NoFailure log ↔ log.all (fun e => !failed_call e) = true := by
  unfold NoFailure
  simp [List.all_eq_true]

/-- C21: in every run of `sort_listfile`, with both duplicate policies and
whatever the producer, the services and the consumer do, once a call of `put_fn`
returned `SORT_PUT_STOP` (a value other than `NO_ERROR`), no further call of
`put_fn` follows among the events, and `sort_listfile` returns, and what it returns
is `NO_ERROR`: on the paths of the direct stream, of the single flushed run and of
the final merge of both drivers the value is the constant `NO_ERROR`; on the path
of the single long record it is `er_errid ()`. The error module is not in the
source: `errid` is the value `er_errid ()` has right after that call of `put_fn`,
and it is `NO_ERROR` when no call of the producer or of the file service failed
among the events before (`herr`), which is the case on that path. -/
theorem put_stop_ends_sort (W : SortWorld) (MH : MergeHost) (errid : Int) (fuel mfuel : Nat)
    (est_inp_pg_cnt : Int) (option : SORT_DUP_OPTION) (junk : InVars) (mjunk : LinkVars)
    (l1 l2 : List SortEvent) (d : RECDES) (hstop : W.SORT_PUT_STOP ≠ 0)
    (hlog : (sort_listfile_all W MH fuel mfuel est_inp_pg_cnt option junk mjunk).state.log =
      l1 ++ SortEvent.put d W.SORT_PUT_STOP :: l2)
    (herr : NoFailure (l1 ++ [SortEvent.put d W.SORT_PUT_STOP]) → errid = 0) :
    put_calls l2 = [] ∧
    ∃ code st, sort_listfile_all W MH fuel mfuel est_inp_pg_cnt option junk mjunk =
        ListfileEnd.returned code st ∧ code.is_no_error errid := by
  have hmem : W.SORT_PUT_STOP ∈
      put_rets (sort_listfile_all W MH fuel mfuel est_inp_pg_cnt option junk mjunk).state.log := by
    rw [hlog, put_rets_append]
    simp [put_rets]
  have hpre : NoFailure
      (sort_listfile_all W MH fuel mfuel est_inp_pg_cnt option junk mjunk).state.log →
      errid = 0 := by
    intro h
    apply herr
    rw [hlog] at h
    intro e he
    apply h e
    rcases List.mem_append.1 he with h1 | h1
    · exact List.mem_append_left _ h1
    · rw [List.mem_singleton.1 h1]
      exact List.mem_append_right _ (List.mem_cons_self _ _)
  have hdrop : ∀ r ∈ (put_rets
      (sort_listfile_all W MH fuel mfuel est_inp_pg_cnt option junk mjunk).state.log).dropLast,
      r = 0 := by
    unfold sort_listfile_all
    cases ho : sort_listfile W fuel est_inp_pg_cnt option junk with
    | merge_phase st =>
      exact (merge_phase_puts W MH mfuel option st mjunk
        (listfile_merge_quiet W fuel est_inp_pg_cnt option junk st ho)).1
    | _ =>
      have hinit : put_calls (listfile_init W W.malloc_arena_ok est_inp_pg_cnt junk.st).log = [] :=
        rfl
      obtain ⟨s1, -⟩ := sort_inphase_sort_puts W fuel option
        (listfile_init W W.malloc_arena_ok est_inp_pg_cnt junk.st) junk hinit
      have hflow := listfile_flow W fuel est_inp_pg_cnt option junk
      rw [ho] at hflow
      simp only [ListfileEnd.state, ListfileOutcome.state] at hflow ⊢
      rcases hflow with ⟨h, -⟩ | ⟨h, -⟩
      · rw [h]
        exact fun r hr => by simp [put_rets] at hr
      · rw [h.put_rets_eq.1]
        exact s1
  refine ⟨no_put_after _ l1 l2 d _ hstop hdrop hlog, ?_⟩
  unfold sort_listfile_all at hmem hpre ⊢
  cases ho : sort_listfile W fuel est_inp_pg_cnt option junk with
  | merge_phase st =>
    rw [ho] at hmem
    simp only [] at hmem ⊢
    obtain ⟨st1, h1⟩ := (merge_phase_puts W MH mfuel option st mjunk
      (listfile_merge_quiet W fuel est_inp_pg_cnt option junk st ho)).2.1 _ hmem hstop
    refine ⟨_, st1, h1, ?_⟩
    simp only [merge_return, if_true]
    trivial
  | returned e st =>
    rw [ho] at hmem hpre
    simp only [ListfileEnd.state] at hmem hpre
    have hm1 : W.SORT_PUT_STOP ∈
        put_rets (sort_listfile W fuel est_inp_pg_cnt option junk).state.log := by
      rw [ho]
      exact hmem
    obtain ⟨e1, st1, h1, h2⟩ := listfile_stop W fuel est_inp_pg_cnt option junk hstop hm1
    rw [ho] at h1
    simp only [ListfileOutcome.returned.injEq] at h1
    refine ⟨_, st, rfl, ?_⟩
    rcases h2 with h2 | ⟨h2, h3⟩
    · rw [h1.1, h2]
      trivial
    · rw [h1.1, h2]
      rw [← h1.2] at h3
      exact hpre h3
  | undefined st =>
    have hm1 : W.SORT_PUT_STOP ∈
        put_rets (sort_listfile W fuel est_inp_pg_cnt option junk).state.log := by
      rw [ho] at hmem ⊢
      exact hmem
    obtain ⟨e1, st1, h1, -⟩ := listfile_stop W fuel est_inp_pg_cnt option junk hstop hm1
    rw [ho] at h1
    cases h1
  | out_of_fuel st =>
    have hm1 : W.SORT_PUT_STOP ∈
        put_rets (sort_listfile W fuel est_inp_pg_cnt option junk).state.log := by
      rw [ho] at hmem ⊢
      exact hmem
    obtain ⟨e1, st1, h1, -⟩ := listfile_stop W fuel est_inp_pg_cnt option junk hstop hm1
    rw [ho] at h1
    cases h1

theorem put_stop_ends_sort_witness :
    (long_record_world 1 2 1 2).SORT_PUT_STOP ≠ 0 ∧
    (sort_listfile_all (long_record_world 1 2 1 2) example_merge_host 10 10 0
      SORT_DUP_OPTION.SORT_ELIM_DUP example_vars link_vars_ten).returns =
        some (ListfileCode.input SortCode.er_errid) ∧
    NoFailure (sort_listfile_all (long_record_world 1 2 1 2) example_merge_host 10 10 0
      SORT_DUP_OPTION.SORT_ELIM_DUP example_vars link_vars_ten).state.log ∧
    ∃ l1 d l2, (sort_listfile_all (long_record_world 1 2 1 2) example_merge_host 10 10 0
        SORT_DUP_OPTION.SORT_ELIM_DUP example_vars link_vars_ten).state.log =
        l1 ++ SortEvent.put d (long_record_world 1 2 1 2).SORT_PUT_STOP :: l2 ∧
      put_calls l2 = [] ∧
      ∃ code st, sort_listfile_all (long_record_world 1 2 1 2) example_merge_host 10 10 0
          SORT_DUP_OPTION.SORT_ELIM_DUP example_vars link_vars_ten =
          ListfileEnd.returned code st ∧ code.is_no_error 0 := by
  refine ⟨by decide, by decide, (no_failure_iff _).2 (by decide), ?_⟩
  obtain ⟨d, hd⟩ := split_at_put (sort_listfile_all (long_record_world 1 2 1 2)
    example_merge_host 10 10 0 SORT_DUP_OPTION.SORT_ELIM_DUP example_vars link_vars_ten).state.log
    5 2 (by decide)
  exact ⟨_, d, _, hd, put_stop_ends_sort (long_record_world 1 2 1 2) example_merge_host 0 10 10 0
    SORT_DUP_OPTION.SORT_ELIM_DUP example_vars link_vars_ten _ _ d (by decide) hd (fun _ => rfl)⟩

/-! ### The merge runs to its end: the passes and the outer loop -/

theorem sum_turn (n k : Int) : ∀ h : Nat, 0 ≤ k →
    ((List.range h).map (fun (i : Nat) => if (i : Int) < k then n else n - 1)).sum =
      (h : Int) * (n - 1) + min (h : Int) k := by
  intro h
  induction h with
  | zero =>
    intro hk
    simp
    omega
  | succ h ih =>
    intro hk
    rw [List.range_succ, List.map_append, List.sum_append, ih hk]
    simp only [List.map_cons, List.map_nil, List.sum_cons, List.sum_nil, add_zero]
    push_cast
    by_cases hc : (h : Int) < k
    · rw [if_pos hc, min_eq_left (by omega), min_eq_left (by omega)]
      ring
    · rw [if_neg hc, min_eq_right (by omega), min_eq_right (by omega)]
      ring

/-- The runs of a half whose files have `n` runs, the first `k`, and `n - 1`, the
other ones. -/
theorem runs_in_half_turn (sp : SortParam) (base n k : Int) (hh : 0 ≤ sp.half_files)
    (hk : 0 ≤ k ∧ k ≤ sp.half_files)
    (hlen : ∀ i, 0 ≤ i → i < sp.half_files →
      sort_get_num_file_contents (sp.file_contents (base + i)) = if i < k then n else n - 1) :
    runs_in_half sp base = sp.half_files * (n - 1) + k := by
  unfold runs_in_half
  have : (List.range sp.half_files.toNat).map
      (fun (i : Nat) => sort_get_num_file_contents (sp.file_contents (base + (i : Int)))) =
      (List.range sp.half_files.toNat).map
        (fun (i : Nat) => if (i : Int) < k then n else n - 1) := by
    apply List.map_congr_left
    intro i hi
    have := List.mem_range.1 hi
    exact hlen i (by omega) (by omega)
  rw [this, sum_turn n k _ hk.1, Int.toNat_of_nonneg hh, min_eq_right hk.2]

theorem runs_in_half_empty (sp : SortParam) (base : Int)
    (h : ∀ i, 0 ≤ i → i < sp.half_files → (sp.file_contents (base + i)).first_run = -1) :
    runs_in_half sp base = 0 := by
  unfold runs_in_half
  apply List.sum_eq_zero
  intro x hx
  obtain ⟨i, hi, rfl⟩ := List.mem_map.1 hx
  have := List.mem_range.1 hi
  unfold sort_get_num_file_contents
  rw [if_neg (not_not.2 (h i (by omega) (by omega)))]

theorem half_full_head (E : MergeEnv) (v head : MergeVars) (hsp : head.sp = v.sp)
    (hms : MergeStart E v.sp v.out_half) (hfull : HalfFull E v.sp)
    (hcp : ∀ f, 0 ≤ f → f < v.sp.tot_tempfiles → head.cur_page f = 0)
    (hout : head.out_half = v.out_half) : RunFull E head := by
  have hh : 0 < v.sp.half_files →
      0 ≤ v.sp.in_half ∧ v.sp.in_half + v.sp.half_files ≤ v.sp.tot_tempfiles ∧
      0 ≤ v.out_half ∧ v.out_half + v.sp.half_files ≤ v.sp.tot_tempfiles := by
    intro h0
    have := hms.tempfiles
    rcases hms.halves with ⟨a, b⟩ | ⟨a, b⟩ <;> omega
  refine ⟨?_, ?_⟩
  · intro i hi0 hi1
    rw [hsp] at hi1 ⊢
    have hh1 := hh (by omega)
    unfold FileFull
    rw [hsp, hcp _ (by omega) (by omega)]
    intro hne q hq p hp0 hp1
    have hfr := hms.runs i hi0 hi1
    unfold FileRuns at hfr
    rcases hfr with hfr | ⟨f0, l0, -, q1, hq1⟩
    · exact absurd hfr hne
    · rw [f0] at hq
      have e1 : ((v.sp.file_contents (v.sp.in_half + i)).last_run + 1).toNat =
          ((v.sp.file_contents (v.sp.in_half + i)).last_run - 0).toNat + 1 := by omega
      rw [e1] at hq1
      simp only [RunsTo] at hq1
      refine hfull i hi0 hi1 hne q ?_ p hp0 hp1
      rw [e1]
      simp only [RunsTo]
      exact ⟨hq1.1, hq1.2.1, hq⟩
  · intro i hi0 hi1 p hp0 hp1
    rw [hsp] at hi1
    have hh1 := hh (by omega)
    rw [hout, hcp _ (by omega) (by omega)] at hp1
    omega

/-- With all I/O succeeding a pass of the merge runs to its end: the ledgers of
the old input half are empty, and unless the pass was the very last one, the new
input half has fewer runs than the old one had, on pages that hold a record each,
and the ledgers keep room for the runs to come. -/
theorem merge_pass_next (E : MergeEnv) (hE : EnvSift E) (hio : NoRefusal E) (v : MergeVars)
    (c : Int) (hvl : v.very_last_run = false) (hpub : v.published = [])
    (hms : MergeStart E v.sp v.out_half)
    (hact : sort_get_numpages_of_active_infiles v.sp > 1) (hof : OuterFull E v c) :
    ∃ w N, (∀ fuel, N ≤ fuel →
        merge_pass E fuel v (sort_get_numpages_of_active_infiles v.sp) = Step.next w) ∧
      OuterInv E w ∧ (w.very_last_run = true → w.published ≠ []) ∧
      (w.very_last_run = false → ∃ c1, OuterFull E w c1 ∧
        2 ≤ runs_in_half w.sp w.sp.in_half ∧
        runs_in_half w.sp w.sp.in_half < runs_in_half v.sp v.sp.in_half) ∧
      (∀ i, 0 ≤ i → i < v.sp.half_files →
        (w.sp.file_contents (v.sp.in_half + i)).first_run = -1) ∧
      w.sp.in_half = v.out_half ∧ w.out_half = v.sp.in_half ∧
      w.sp.half_files = v.sp.half_files ∧ 2 ≤ v.sp.half_files := by
  obtain ⟨n, k, hn1, hcnt, hpass⟩ := pass_start E v hpub hms hact
  have hcnt' : count_num_runs
      (distribute_memory v (sort_get_numpages_of_active_infiles v.sp)).sp
      (sort_get_numpages_of_active_infiles v.sp)
      (sort_get_numpages_of_active_infiles v.sp).toNat
      (distribute_memory v (sort_get_numpages_of_active_infiles v.sp)).sp.in_half 0 = n := hcnt
  have e2 : mark_last_run (distribute_memory v (sort_get_numpages_of_active_infiles v.sp)) n =
      { distribute_memory v (sort_get_numpages_of_active_infiles v.sp) with
        very_last_run := decide (n = 1) } := by
    unfold mark_last_run
    by_cases h : n = 1
    · rw [if_pos h]
      simp only [h, decide_True]
    · rw [if_neg h]
      simp only [h, decide_False]
      have : (distribute_memory v (sort_get_numpages_of_active_infiles v.sp)).very_last_run =
          false := hvl
      rw [← this]
  generalize hhead : ({ distribute_memory v (sort_get_numpages_of_active_infiles v.sp) with
        very_last_run := decide (n = 1) } : MergeVars) = head at hpass e2
  have hsp : head.sp = v.sp := by rw [← hhead]; rfl
  have hout : head.out_half = v.out_half := by rw [← hhead]; rfl
  have hvlh : head.very_last_run = decide (n = 1) := by rw [← hhead]
  have hcp : ∀ f, 0 ≤ f → f < v.sp.tot_tempfiles → head.cur_page f = 0 := by
    intro f hf0 hf1
    rw [← hhead]
    show (if 0 ≤ f ∧ f < v.sp.tot_tempfiles then 0 else v.cur_page f) = 0
    rw [if_pos ⟨hf0, hf1⟩]
  have hfullh : RunFull E head := half_full_head E v head hsp hms hof.full hcp hout
  have hcaph : Cap head c := by
    intro f hf0 hf1
    rw [hsp] at hf1 ⊢
    exact hof.cap f hf0 hf1
  -- the runs of the input half
  have hh2 : 2 ≤ v.sp.half_files := by
    have := hpass.ledgers.two
    rw [hsp] at this
    exact this
  have hR : runs_in_half v.sp v.sp.in_half = v.sp.half_files * (n - 1) + k := by
    apply runs_in_half_turn v.sp v.sp.in_half n k (by omega)
    · have := hpass.ledgers.sizes
      rw [hsp] at this
      omega
    · intro i hi0 hi1
      have := hpass.ledgers.len_in i hi0 (by rw [hsp]; exact hi1)
      rw [hsp] at this
      exact this
  have hk : 1 ≤ k ∧ (n = 1 → 2 ≤ k) := by
    refine ⟨hpass.ledgers.sizes.1, fun h1 => ?_⟩
    exact (hpass.ledgers.last_out (by rw [hvlh]; simp [h1])).2.1
  have hmul : 2 * (n - 1) ≤ v.sp.half_files * (n - 1) :=
    Int.mul_le_mul_of_nonneg_right hh2 (by omega)
  have hlt : n < runs_in_half v.sp v.sp.in_half ∧ 3 * n ≤ 2 * runs_in_half v.sp v.sp.in_half := by
    rw [hR]
    by_cases h1 : n = 1
    · have := hk.2 h1
      subst h1
      simp only [sub_self, mul_zero, zero_add]
      omega
    · omega
  have hroom := hof.room
  have hc0 := hof.calls
  obtain ⟨w, N, hrun, hend, hcapw, hfullw, hvlw, hpubw, hst, hruns, hempty⟩ :=
    produce_runs_next E hE hio k n.toNat head n c hn1 (by omega) hpass hfullh hcaph hof.calls
      (by omega)
  have hout0 : runs_in_half head.sp head.out_half = 0 := by
    apply runs_in_half_empty
    intro i hi0 hi1
    rw [hsp] at hi1 ⊢
    rw [hout]
    exact hms.empty i hi0 hi1
  rw [hout0, zero_add] at hruns
  refine ⟨exchange_halves w, max N (n.toNat + 1), ?_, pass_end_outer E w hend, ?_, ?_, ?_, ?_,
    ?_, ?_, hh2⟩
  · intro fuel hfuel
    unfold merge_pass
    simp only
    rw [hcnt', e2, hrun fuel fuel (le_trans (le_max_left _ _) hfuel)
      (le_trans (le_max_right _ _) hfuel)]
  · exact hpubw
  · intro hv
    have hv1 : w.very_last_run = false := hv
    refine ⟨c + n, ⟨?_, ?_, by omega, ?_⟩, ?_, ?_⟩
    · -- the pages of the new input half
      intro i hi0 hi1 hne q hq p hp0 hp1
      have hi1' : i < head.sp.half_files := by
        have : (exchange_halves w).sp.half_files = w.sp.half_files := rfl
        rw [this, hst.1] at hi1
        exact hi1
      show 1 ≤ (w.sp.temp (w.out_half + i) p).hdr.nslots
      have hq' : RunsTo E (w.sp.temp (w.out_half + i))
          (w.sp.file_contents (w.out_half + i)).num_pages
          ((w.sp.file_contents (w.out_half + i)).last_run + 1).toNat 0 0 q := hq
      have hne' : (w.sp.file_contents (w.out_half + i)).first_run ≠ -1 := hne
      rcases hend with ⟨hv2, _⟩ | ⟨_, _, _, _, _, _, hfiles, _, _⟩
      · rw [hv1] at hv2
        cases hv2
      · have hi1w : i < w.sp.half_files := by rw [hst.1]; exact hi1'
        obtain ⟨hofi, -⟩ := hfiles i hi0 hi1w
        rcases hofi with ⟨h1, _⟩ | ⟨_, _, h3⟩
        · exact absurd h1 hne'
        · rw [Int.sub_zero] at h3
          have := RunsTo_unique E _ _ _ _ _ _ _ hq' h3
          rw [this] at hp1
          have := (hfullw hv1).outs i hi0 hi1w p hp0 hp1
          exact this
    · intro f hf0 hf1
      exact hcapw f hf0 hf1
    · have : runs_in_half (exchange_halves w).sp (exchange_halves w).sp.in_half =
          runs_in_half w.sp head.out_half := by
        have e : (exchange_halves w).sp.in_half = head.out_half := by
          show w.out_half = head.out_half
          exact hst.2.2
        rw [e]
        rfl
      rw [this, hruns]
      omega
    · have : runs_in_half (exchange_halves w).sp (exchange_halves w).sp.in_half =
          runs_in_half w.sp head.out_half := by
        have e : (exchange_halves w).sp.in_half = head.out_half := by
          show w.out_half = head.out_half
          exact hst.2.2
        rw [e]
        rfl
      rw [this, hruns]
      have hn2 : n ≠ 1 := by
        intro h1
        rw [hvlw, hvlh, h1] at hv1
        simp at hv1
      omega
    · have : runs_in_half (exchange_halves w).sp (exchange_halves w).sp.in_half =
          runs_in_half w.sp head.out_half := by
        have e : (exchange_halves w).sp.in_half = head.out_half := by
          show w.out_half = head.out_half
          exact hst.2.2
        rw [e]
        rfl
      rw [this, hruns]
      exact hlt.1
  · intro i hi0 hi1
    have := hempty i hi0 (by rw [hsp]; exact hi1)
    rw [hsp] at this
    exact this
  · show w.out_half = v.out_half
    rw [hst.2.2, hout]
  · show w.sp.in_half = v.sp.in_half
    rw [hst.2.1, hsp]
  · show w.sp.half_files = v.sp.half_files
    rw [hst.1, hsp]

theorem active_of_runs (E : MergeEnv) (sp : SortParam) (out_half : Int)
    (hms : MergeStart E sp out_half) (hh : 2 ≤ sp.half_files)
    (hR : 2 ≤ runs_in_half sp sp.in_half) : sort_get_numpages_of_active_infiles sp > 1 := by
  obtain ⟨m, c, hm0, hc0, hc1, hturn⟩ := hms.turn
  have hfirst : ∀ i, 0 ≤ i → i < sp.half_files →
      ((sp.file_contents (sp.in_half + i)).first_run ≠ -1 ↔ 1 ≤ turn_runs m c i) := by
    intro i hi0 hi1
    rw [← hturn i hi0 hi1]
    exact file_runs_first E sp _ (hms.runs i hi0 hi1)
  have hcount : sort_get_numpages_of_active_infiles sp =
      (if 1 ≤ m then sp.half_files else c) := by
    apply active_count
    · split_ifs <;> omega
    · split_ifs <;> omega
    · intro i hi0 hi1
      have hi2 : i < sp.half_files := by split_ifs at hi1 <;> omega
      apply (hfirst i hi0 hi2).2
      unfold turn_runs
      split_ifs at hi1 ⊢ <;> omega
    · intro hlt
      have hm : ¬ 1 ≤ m := by
        intro h
        rw [if_pos h] at hlt
        omega
      rw [if_neg hm] at hlt ⊢
      by_contra hne
      have := (hfirst c hc0 hc1).1 hne
      unfold turn_runs at this
      rw [if_neg (by omega)] at this
      omega
  have hsum : runs_in_half sp sp.in_half = sp.half_files * (m + 1 - 1) + c := by
    apply runs_in_half_turn sp sp.in_half (m + 1) c (by omega) ⟨hc0, by omega⟩
    intro i hi0 hi1
    rw [hturn i hi0 hi1]
    unfold turn_runs
    split_ifs <;> omega
  rw [hcount]
  by_cases h1 : 1 ≤ m
  · rw [if_pos h1]
    omega
  · rw [if_neg h1]
    have hm : m = 0 := by omega
    rw [hm] at hsum
    simp only [zero_add, sub_self, mul_zero] at hsum
    omega

theorem outer_exit (E : MergeEnv) (fuel : Nat) (v : MergeVars)
    (h : sort_get_numpages_of_active_infiles v.sp ≤ 1) :
    ∀ m, 1 ≤ m → merge_outer_loop E fuel m v =
      Step.next { v with act_infiles := sort_get_numpages_of_active_infiles v.sp } := by
  intro m hm
  obtain ⟨m1, rfl⟩ : ∃ m1, m = m1 + 1 := ⟨m - 1, by omega⟩
  unfold merge_outer_loop
  simp only
  rw [if_neg (by omega)]

/-- With all I/O succeeding the `OUTER LOOP` runs to its end: it is left with one
active input file at most, and when it was entered with more, after the very last
run, whose records went to the consumer. -/
theorem merge_outer_loop_next (E : MergeEnv) (hE : EnvSift E) (hio : NoRefusal E) :
    ∀ (r : Nat) (v : MergeVars), OuterInv E v →
      (v.very_last_run = false →
        ∃ c, OuterFull E v c ∧ (runs_in_half v.sp v.sp.in_half).toNat ≤ r) →
      ∃ w N, (∀ fuel m, N ≤ fuel → N ≤ m → merge_outer_loop E fuel m v = Step.next w) ∧
        sort_get_numpages_of_active_infiles w.sp ≤ 1 ∧
        (sort_get_numpages_of_active_infiles v.sp > 1 →
          w.very_last_run = true ∧ w.published ≠ []) := by
  intro r
  induction r with
  | zero =>
    intro v hinv hfull
    by_cases hact : sort_get_numpages_of_active_infiles v.sp > 1
    · rcases hinv with ⟨_, _, h⟩ | ⟨h1, h2, h3⟩
      · omega
      · obtain ⟨c, hof, hr⟩ := hfull h1
        obtain ⟨w1, N1, hrun, hinv1, hpub1, hnext, -, -, -, hhf, hh2⟩ :=
          merge_pass_next E hE hio v c h1 h2 h3 hact hof
        cases hv : w1.very_last_run with
        | false =>
          obtain ⟨c1, -, hr1, hr2⟩ := hnext hv
          omega
        | true =>
          have hact1 : sort_get_numpages_of_active_infiles w1.sp ≤ 1 := by
            rcases hinv1 with ⟨_, _, h⟩ | ⟨h, _, _⟩
            · exact h
            · rw [hv] at h
              cases h
          refine ⟨{ w1 with act_infiles := sort_get_numpages_of_active_infiles w1.sp },
            N1 + 2, ?_, hact1, fun _ => ⟨hv, hpub1 hv⟩⟩
          intro fuel m hf hm
          obtain ⟨m1, rfl⟩ : ∃ m1, m = m1 + 1 := ⟨m - 1, by omega⟩
          unfold merge_outer_loop
          simp only
          rw [if_pos hact, hrun fuel (by omega)]
          exact outer_exit E fuel w1 hact1 m1 (by omega)
    · exact ⟨_, 1, fun fuel m _ hm => outer_exit E fuel v (by omega) m hm, by
        show sort_get_numpages_of_active_infiles v.sp ≤ 1
        omega, fun h => absurd h hact⟩
  | succ r ih =>
    intro v hinv hfull
    by_cases hact : sort_get_numpages_of_active_infiles v.sp > 1
    · rcases hinv with ⟨_, _, h⟩ | ⟨h1, h2, h3⟩
      · omega
      · obtain ⟨c, hof, hr⟩ := hfull h1
        obtain ⟨w1, N1, hrun, hinv1, hpub1, hnext, -, -, -, hhf, hh2⟩ :=
          merge_pass_next E hE hio v c h1 h2 h3 hact hof
        obtain ⟨w, N2, hloop, hexit, hlast⟩ := ih w1 hinv1 (fun hv => by
          obtain ⟨c1, hof1, hr1, hr2⟩ := hnext hv
          exact ⟨c1, hof1, by omega⟩)
        refine ⟨w, max N1 (N2 + 1), ?_, hexit, fun _ => ?_⟩
        · intro fuel m hf hm
          obtain ⟨m1, rfl⟩ : ∃ m1, m = m1 + 1 := ⟨m - 1, by
            have := le_max_right N1 (N2 + 1)
            omega⟩
          unfold merge_outer_loop
          simp only
          rw [if_pos hact, hrun fuel (le_trans (le_max_left _ _) hf)]
          exact hloop fuel m1 (by
            have := le_max_right N1 (N2 + 1)
            omega) (by
            have := le_max_right N1 (N2 + 1)
            omega)
        · cases hv : w1.very_last_run with
          | true =>
            have hact1 : sort_get_numpages_of_active_infiles w1.sp ≤ 1 := by
              rcases hinv1 with ⟨_, _, h⟩ | ⟨h, _, _⟩
              · exact h
              · rw [hv] at h
                cases h
            have e := hloop (max N2 1) (max N2 1) (le_max_left _ _) (le_max_left _ _)
            rw [outer_exit E _ w1 hact1 _ (le_max_right _ _)] at e
            simp only [Step.next.injEq] at e
            rw [← e]
            exact ⟨hv, hpub1 hv⟩
          | false =>
            apply hlast
            rcases hinv1 with ⟨h, _, _⟩ | ⟨_, hp, hms1⟩
            · rw [hv] at h
              cases h
            · by_contra hle
              obtain ⟨c1, hof1, hr1, hr2⟩ := hnext hv
              -- a new input half with a run has an active file: else the loop would
              -- have ended with a run left
              exact hle (active_of_runs E w1.sp w1.out_half hms1 (by omega) hr1)
    · exact ⟨_, 1, fun fuel m _ hm => outer_exit E fuel v (by omega) m hm, by
        show sort_get_numpages_of_active_infiles v.sp ≤ 1
        omega, fun h => absurd h hact⟩

/-- With all I/O succeeding `sort_exphase_merge_elim_dup` runs to its end, for
every bound on the iterations from some bound on: the `OUTER LOOP` is left with one
active input file at most, and when the merge started with more, after the very
last run, whose records went to the consumer. -/
theorem merge_elim_dup_returns (E : MergeEnv) (hE : EnvSift E) (hio : NoRefusal E)
    (sp : SortParam) (junk : MergeVars) (c : Int)
    (hms : MergeStart E sp (if sp.in_half = 0 then sp.half_files else 0))
    (hof : OuterFull E (merge_vars_init sp junk) c) :
    ∃ w N, (∀ fuel, N ≤ fuel → sort_exphase_merge_elim_dup E fuel sp junk = Step.next w) ∧
      sort_get_numpages_of_active_infiles w.sp ≤ 1 ∧
      (sort_get_numpages_of_active_infiles sp > 1 →
        w.very_last_run = true ∧ w.published ≠ []) := by
  obtain ⟨w, N, h1, h2, h3⟩ := merge_outer_loop_next E hE hio
    (runs_in_half sp sp.in_half).toNat (merge_vars_init sp junk)
    (Or.inr ⟨rfl, rfl, hms⟩) (fun _ => ⟨c, hof, le_refl _⟩)
  exact ⟨w, N, fun fuel hf => h1 fuel fuel hf hf, h2, h3⟩

theorem tie_env_io (E : MergeEnv) (hio : NoRefusal E) : NoRefusal (tie_env E) :=
  ⟨hio.put, hio.overflow⟩

/-- With all I/O succeeding `sort_exphase_merge` runs to its end as the other
driver does with a comparator without ties, for every bound on the iterations from
some bound on, and with the same variables but for `last_elem_cmp`. -/
theorem merge_returns (E : MergeEnv) (hE : EnvOK E) (hio : NoRefusal E)
    (sp : SortParam) (junk : LinkVars) (c : Int)
    (hms : MergeStart (tie_env E) sp (if sp.in_half = 0 then sp.half_files else 0))
    (hof : OuterFull (tie_env E) (merge_vars_init sp junk.vars) c) :
    ∃ v N, (∀ fuel, N ≤ fuel →
        ∃ w, sort_exphase_merge E fuel sp junk = Step.next w ∧ SameVars v w) ∧
      sort_get_numpages_of_active_infiles v.sp ≤ 1 ∧
      (sort_get_numpages_of_active_infiles sp > 1 →
        v.very_last_run = true ∧ v.published ≠ []) := by
  obtain ⟨v, N, h1, h2, h3⟩ := merge_elim_dup_returns (tie_env E) (tie_env_sift E hE)
    (tie_env_io E hio) sp junk.vars c hms hof
  refine ⟨v, N, fun fuel hf => ?_, h2, h3⟩
  have hsim := sort_exphase_merge_sim E fuel sp junk
  rw [h1 fuel hf] at hsim
  cases hl : sort_exphase_merge E fuel sp junk with
  | stop k p =>
    rw [hl] at hsim
    exact hsim.elim
  | next w =>
    rw [hl] at hsim
    exact ⟨w, rfl, hsim⟩

/-! ### A consumer that refuses a record: the merge up to the refused call -/

theorem Step.UpTo.itself {σ : Type} (pub : σ → List RECDES) (a : Step σ) : a.UpTo pub a :=
  Or.inl rfl

theorem env_ok_acc (E : MergeEnv) (h : EnvOK E) : EnvOK (accepting E) :=
  ⟨h.env, h.align, h.order, h.cut_left, h.cut_right⟩

theorem pub_ok_acc (E : MergeEnv) (p : List RECDES) (h : PubOK (accepting E) p) : PubOK E p := h

theorem reading_env_ok : EnvOK reading_env := by
  refine ⟨by show env16k.Valid; decide, by show ValidAlignment 8; decide, ?_,
    fun _ _ => rfl, fun _ _ => rfl⟩
  refine ⟨fun a => ?_, fun a b => ?_, fun a b c => ?_, fun a b c => ?_⟩ <;>
    simp only [reading_env, example_env] <;> omega

theorem example_run_of (E : MergeEnv) (he : E.env = env16k) (ha : E.MAX_ALIGNMENT = 8)
    (f p : Int) (keys : List Nat)
    (hpg : example_merge_param.temp f p = page_of_keys keys)
    (h : (insert_records env16k insertion_qsort ( sort_spage_initialize env16k blank_page 0 8)
      (keys.map (fun k => (true, key_record k)))).isSome = true)
    (hasc : KeyAsc E (page_records (page_of_keys keys))) :
    RunOK E (example_merge_param.temp f) p 1 := by
  unfold RunOK
  rw [pages_seq_one, hpg, he, ha]
  constructor
  · intro pg hp
    simp only [List.mem_singleton] at hp
    rw [hp]
    exact page_of_keys_inv keys h
  · rw [recs_of_cons, recs_of_nil, List.append_nil]
    exact hasc

/-- The runs of `example_merge_param` meet the contract of the merge on every host
with the pages of `example_env` on which the runs are ascending. -/
theorem example_merge_start_of (E : MergeEnv) (he : E.env = env16k) (ha : E.MAX_ALIGNMENT = 8)
    (h13 : KeyAsc E (page_records (page_of_keys [1, 3])))
    (h23 : KeyAsc E (page_records (page_of_keys [2, 3]))) :
    MergeStart E example_merge_param 2 := by
  have r13 : RunOK E (example_merge_param.temp 0) 0 1 :=
    example_run_of E he ha 0 0 [1, 3] rfl (by decide) h13
  have r23 : RunOK E (example_merge_param.temp 0) 1 1 :=
    example_run_of E he ha 0 1 [2, 3] rfl (by decide) h23
  have r23' : RunOK E (example_merge_param.temp 1) 0 1 :=
    example_run_of E he ha 1 0 [2, 3] rfl (by decide) h23
  refine ⟨by decide, by decide, Or.inl ⟨rfl, rfl⟩, ?_, ?_, ?_⟩
  · intro i hi0 hi1
    have hi1' : i < 2 := hi1
    have h01 : i = 0 ∨ i = 1 := by omega
    rcases h01 with e | e
    · rw [e]
      right
      refine ⟨rfl, by decide, fun _ _ _ => le_refl _, 2, ?_⟩
      show RunsTo E (example_merge_param.temp 0) (fun _ => 1) 2 0 0 2
      simp only [RunsTo]
      exact ⟨by decide, r13, by decide, r23, by decide⟩
    · rw [e]
      right
      refine ⟨rfl, by decide, fun _ _ _ => le_refl _, 1, ?_⟩
      show RunsTo E (example_merge_param.temp 1) (fun _ => 1) 1 0 0 1
      simp only [RunsTo]
      exact ⟨by decide, r23', by decide⟩
  · refine ⟨1, 1, by decide, by decide, by decide, ?_⟩
    intro i hi0 hi1
    have hi1' : i < 2 := hi1
    have h01 : i = 0 ∨ i = 1 := by omega
    rcases h01 with e | e <;> rw [e] <;> decide
  · intro i hi0 hi1
    have hi1' : i < 2 := hi1
    have h01 : i = 0 ∨ i = 1 := by omega
    rcases h01 with e | e <;> rw [e] <;> decide

/-- The pages of the runs of `example_merge_param` hold a record each, and its
ledgers have room. -/
theorem example_outer_full_of (E : MergeEnv) (junk : MergeVars) :
    OuterFull E (merge_vars_init example_merge_param junk) 2 := by
  have n00 : 1 ≤ (example_merge_param.temp (0 + 0) 0).hdr.nslots := by decide
  have n01 : 1 ≤ (example_merge_param.temp (0 + 0) 1).hdr.nslots := by decide
  have n10 : 1 ≤ (example_merge_param.temp (0 + 1) 0).hdr.nslots := by decide
  have l0 : LedgerWF (example_merge_param.file_contents 0) ∧
      LedgerBound (example_merge_param.file_contents 0) 2 := by
    unfold LedgerBound; decide
  have l1 : LedgerWF (example_merge_param.file_contents 1) ∧
      LedgerBound (example_merge_param.file_contents 1) 2 := by
    unfold LedgerBound; decide
  have l2 : LedgerWF (example_merge_param.file_contents 2) ∧
      LedgerBound (example_merge_param.file_contents 2) 2 := by
    unfold LedgerBound; decide
  have l3 : LedgerWF (example_merge_param.file_contents 3) ∧
      LedgerBound (example_merge_param.file_contents 3) 2 := by
    unfold LedgerBound; decide
  refine ⟨?_, ?_, by decide, ?_⟩
  · intro i hi0 hi1 hne q hq p hp0 hp1
    have hi1' : i < 2 := hi1
    have h01 : i = 0 ∨ i = 1 := by omega
    rcases h01 with e | e
    · subst e
      have hq' : RunsTo E (example_merge_param.temp 0) (fun _ => 1) 2 0 0 q := hq
      simp only [RunsTo] at hq'
      have hq2 : q = 2 := by omega
      have hp : p = 0 ∨ p = 1 := by omega
      rcases hp with e | e
      · subst e; exact n00
      · subst e; exact n01
    · subst e
      have hq' : RunsTo E (example_merge_param.temp 1) (fun _ => 1) 1 0 0 q := hq
      simp only [RunsTo] at hq'
      have hp : p = 0 := by omega
      subst hp
      exact n10
  · intro f hf0 hf1
    have hf1' : f < 4 := hf1
    have h : f = 0 ∨ f = 1 ∨ f = 2 ∨ f = 3 := by omega
    rcases h with e | e | e | e
    · subst e; exact l0
    · subst e; exact l1
    · subst e; exact l2
    · subst e; exact l3
  · have : runs_in_half example_merge_param 0 = 3 := by decide
    show (2 : Int) + 2 * runs_in_half example_merge_param 0 ≤ 2 ^ 24
    rw [this]
    decide

theorem reading_merge_start : MergeStart reading_env example_merge_param 2 :=
  example_merge_start_of reading_env rfl rfl (by unfold KeyAsc; decide) (by unfold KeyAsc; decide)

theorem tie_merge_start : MergeStart (tie_env reading_env) example_merge_param 2 :=
  example_merge_start_of (tie_env reading_env) rfl rfl (by unfold KeyAsc; decide)
    (by unfold KeyAsc; decide)

theorem same_vars_self (w : LinkVars) : SameVars w.vars w := ⟨w.vars.last_elem_cmp, rfl⟩

/-- With all I/O succeeding a pass of `sort_exphase_merge` runs to its end as the
pass of the other driver does with a comparator without ties. -/
theorem link_merge_pass_next (E : MergeEnv) (hE : EnvOK E) (hio : NoRefusal E) (v : LinkVars)
    (c : Int) (hvl : v.vars.very_last_run = false) (hpub : v.vars.published = [])
    (hms : MergeStart (tie_env E) v.vars.sp v.vars.out_half)
    (hact : sort_get_numpages_of_active_infiles v.vars.sp > 1)
    (hof : OuterFull (tie_env E) v.vars c) :
    ∃ u N, (∀ fuel, N ≤ fuel → ∃ w,
        link_merge_pass E fuel v (sort_get_numpages_of_active_infiles v.vars.sp) = Step.next w ∧
        SameVars u w) ∧
      OuterInv (tie_env E) u ∧ (u.very_last_run = true → u.published ≠ []) ∧
      (u.very_last_run = false → ∃ c1, OuterFull (tie_env E) u c1 ∧
        2 ≤ runs_in_half u.sp u.sp.in_half ∧
        runs_in_half u.sp u.sp.in_half < runs_in_half v.vars.sp v.vars.sp.in_half) ∧
      (∀ i, 0 ≤ i → i < v.vars.sp.half_files →
        (u.sp.file_contents (v.vars.sp.in_half + i)).first_run = -1) ∧
      u.sp.in_half = v.vars.out_half ∧ 2 ≤ u.sp.half_files := by
  obtain ⟨u, N, h1, h2, h3, h4, h5, h6, -, h7, h8⟩ := merge_pass_next (tie_env E)
    (tie_env_sift E hE) (tie_env_io E hio) v.vars c hvl hpub hms hact hof
  refine ⟨u, N, fun fuel hf => ?_, h2, h3, h4, h5, h6, by omega⟩
  have hsim := merge_pass_sim E fuel v.vars v (sort_get_numpages_of_active_infiles v.vars.sp)
    (same_vars_self v)
  rw [h1 fuel hf] at hsim
  cases hl : link_merge_pass E fuel v (sort_get_numpages_of_active_infiles v.vars.sp) with
  | stop k p =>
    rw [hl] at hsim
    exact hsim.elim
  | next w =>
    rw [hl] at hsim
    exact ⟨w, rfl, hsim⟩

/-- C35: with all I/O succeeding (the consumer accepts every record and every
long record is read back, `NoRefusal`; the calls of the file, page buffer and
memory managers succeed in the model), on a host whose comparator is a strict weak
order, both merge drivers run to their ends, for every bound of the model on the
iterations from some bound on, when they start on `R ≥ 2` runs that went to the
files of the input half in turn (`MergeStart`), on pages that hold a record each
and with ledgers that have room for the runs to come (`OuterFull`), two files or
more to a half. The `OUTER LOOP` is left with one active input file at most, after
the very last run, whose records went to the consumer. Every pass of the `OUTER
LOOP`, started in a state of this kind with more than one active input file, runs
to its end and leaves the ledgers of its input half empty; unless it was the final
pass (`very_last_run`), the new input half has fewer runs than the old one had, and
the state is of this kind again. `sort_exphase_merge_elim_dup` works on runs in
strictly ascending order; `sort_exphase_merge` on runs in ascending order, that
is, strictly ascending for the comparator without ties, and its variables are
those of `u` but for `last_elem_cmp`. -/
theorem merge_drivers_terminate (E : MergeEnv) (hE : EnvOK E) (hio : NoRefusal E)
    (sp : SortParam) (junk : LinkVars) (c : Int) (hh : 2 ≤ sp.half_files)
    (hR : 2 ≤ runs_in_half sp sp.in_half) :
    (MergeStart E sp (if sp.in_half = 0 then sp.half_files else 0) →
      OuterFull E (merge_vars_init sp junk.vars) c →
      ∃ w N, (∀ fuel, N ≤ fuel →
          sort_exphase_merge_elim_dup E fuel sp junk.vars = Step.next w) ∧
        w.very_last_run = true ∧ w.published ≠ [] ∧
        sort_get_numpages_of_active_infiles w.sp ≤ 1) ∧
    (MergeStart (tie_env E) sp (if sp.in_half = 0 then sp.half_files else 0) →
      OuterFull (tie_env E) (merge_vars_init sp junk.vars) c →
      ∃ u N, (∀ fuel, N ≤ fuel →
          ∃ w, sort_exphase_merge E fuel sp junk = Step.next w ∧ SameVars u w) ∧
        u.very_last_run = true ∧ u.published ≠ [] ∧
        sort_get_numpages_of_active_infiles u.sp ≤ 1) ∧
    (∀ (v : MergeVars) (c1 : Int), v.very_last_run = false → v.published = [] →
      MergeStart E v.sp v.out_half → sort_get_numpages_of_active_infiles v.sp > 1 →
      OuterFull E v c1 →
      ∃ w N, (∀ fuel, N ≤ fuel →
          merge_pass E fuel v (sort_get_numpages_of_active_infiles v.sp) = Step.next w) ∧
        (∀ i, 0 ≤ i → i < v.sp.half_files →
          (w.sp.file_contents (v.sp.in_half + i)).first_run = -1) ∧
        w.sp.in_half = v.out_half ∧
        (w.very_last_run = true → w.published ≠ []) ∧
        (w.very_last_run = false →
          runs_in_half w.sp w.sp.in_half < runs_in_half v.sp v.sp.in_half ∧
          w.published = [] ∧ MergeStart E w.sp w.out_half ∧
          sort_get_numpages_of_active_infiles w.sp > 1 ∧ ∃ c2, OuterFull E w c2)) ∧
    (∀ (v : LinkVars) (c1 : Int), v.vars.very_last_run = false → v.vars.published = [] →
      MergeStart (tie_env E) v.vars.sp v.vars.out_half →
      sort_get_numpages_of_active_infiles v.vars.sp > 1 → OuterFull (tie_env E) v.vars c1 →
      ∃ u N, (∀ fuel, N ≤ fuel → ∃ w,
          link_merge_pass E fuel v (sort_get_numpages_of_active_infiles v.vars.sp) =
            Step.next w ∧ SameVars u w) ∧
        (∀ i, 0 ≤ i → i < v.vars.sp.half_files →
          (u.sp.file_contents (v.vars.sp.in_half + i)).first_run = -1) ∧
        u.sp.in_half = v.vars.out_half ∧
        (u.very_last_run = true → u.published ≠ []) ∧
        (u.very_last_run = false →
          runs_in_half u.sp u.sp.in_half < runs_in_half v.vars.sp v.vars.sp.in_half ∧
          u.published = [] ∧ MergeStart (tie_env E) u.sp u.out_half ∧
          sort_get_numpages_of_active_infiles u.sp > 1 ∧ ∃ c2, OuterFull (tie_env E) u c2)) := by
  refine ⟨fun hms hof => ?_, fun hms hof => ?_, fun v c1 hvl hpub hms hact hof => ?_,
    fun v c1 hvl hpub hms hact hof => ?_⟩
  · have hact := active_of_runs E sp _ hms hh hR
    obtain ⟨w, N, h1, h2, h3⟩ := merge_elim_dup_returns E hE.sift hio sp junk.vars c hms hof
    exact ⟨w, N, h1, (h3 hact).1, (h3 hact).2, h2⟩
  · have hact := active_of_runs (tie_env E) sp _ hms hh hR
    obtain ⟨u, N, h1, h2, h3⟩ := merge_returns E hE hio sp junk c hms hof
    exact ⟨u, N, h1, (h3 hact).1, (h3 hact).2, h2⟩
  · obtain ⟨w, N, h1, h2, h3, h4, h5, h6, -, h7, h8⟩ :=
      merge_pass_next E hE.sift hio v c1 hvl hpub hms hact hof
    refine ⟨w, N, h1, h5, h6, h3, fun hv => ?_⟩
    obtain ⟨c2, hof2, hr2, hlt⟩ := h4 hv
    rcases h2 with ⟨hv2, _⟩ | ⟨_, hp, hms2⟩
    · rw [hv] at hv2
      cases hv2
    · exact ⟨hlt, hp, hms2, active_of_runs E w.sp _ hms2 (by omega) hr2, c2, hof2⟩
  · obtain ⟨u, N, h1, h2, h3, h4, h5, h6, hh2⟩ :=
      link_merge_pass_next E hE hio v c1 hvl hpub hms hact hof
    refine ⟨u, N, h1, h5, h6, h3, fun hv => ?_⟩
    obtain ⟨c2, hof2, hr2, hlt⟩ := h4 hv
    rcases h2 with ⟨hv2, _⟩ | ⟨_, hp, hms2⟩
    · rw [hv] at hv2
      cases hv2
    · exact ⟨hlt, hp, hms2, active_of_runs (tie_env E) u.sp _ hms2 hh2 hr2, c2, hof2⟩

/-- The theorem at a concrete input: the three runs of `example_merge_param`, on
the four temp files of a host with pages of 16384 bytes that reads every long
record back and whose consumer accepts every record. The first pass leaves two
runs, one in each of the files `2` and `3`, and the ledgers of the files `0` and `1` empty;
the second pass is the final one. -/
theorem merge_drivers_terminate_witness :
    EnvOK reading_env ∧ NoRefusal reading_env ∧ 2 ≤ example_merge_param.half_files ∧
    runs_in_half example_merge_param example_merge_param.in_half = 3 ∧
    MergeStart reading_env example_merge_param 2 ∧
    MergeStart (tie_env reading_env) example_merge_param 2 ∧
    OuterFull reading_env (merge_vars_init example_merge_param link_vars_ten.vars) 2 ∧
    OuterFull (tie_env reading_env) (merge_vars_init example_merge_param link_vars_ten.vars) 2 ∧
    (∃ w N, (∀ fuel, N ≤ fuel →
        sort_exphase_merge_elim_dup reading_env fuel example_merge_param link_vars_ten.vars =
          Step.next w) ∧
      w.very_last_run = true ∧ w.published ≠ [] ∧
      sort_get_numpages_of_active_infiles w.sp ≤ 1) ∧
    (∃ u N, (∀ fuel, N ≤ fuel → ∃ w,
        sort_exphase_merge reading_env fuel example_merge_param link_vars_ten = Step.next w ∧
        SameVars u w) ∧
      u.very_last_run = true ∧ u.published ≠ [] ∧
      sort_get_numpages_of_active_infiles u.sp ≤ 1) ∧
    (∃ w N, (∀ fuel, N ≤ fuel →
        merge_pass reading_env fuel (merge_vars_init example_merge_param link_vars_ten.vars)
          (sort_get_numpages_of_active_infiles example_merge_param) = Step.next w) ∧
      (w.very_last_run = false →
        runs_in_half w.sp w.sp.in_half < runs_in_half example_merge_param
          example_merge_param.in_half)) ∧
    (merge_pass reading_env 8 (merge_vars_init example_merge_param link_vars_ten.vars)
      (sort_get_numpages_of_active_infiles example_merge_param)).pass_left =
        some (false, 2, [-1, -1, 0, 0]) ∧
    (sort_exphase_merge_elim_dup reading_env 8 example_merge_param
      link_vars_ten.vars).pass_left = some (true, 1, [0, -1, -1, -1]) ∧
    (sort_exphase_merge_elim_dup reading_env 8 example_merge_param
      link_vars_ten.vars).finished.map (List.map (fun r => r.data)) = some [[1], [2], [3]] ∧
    (link_finished (sort_exphase_merge reading_env 8 example_merge_param
      link_vars_ten)).map (List.map (fun r => r.data)) = some [[1], [2], [2], [3], [3], [3]] := by
  have hio : NoRefusal reading_env := ⟨fun _ _ => rfl, fun d h => by cases h⟩
  have hthm := merge_drivers_terminate reading_env reading_env_ok hio example_merge_param
    link_vars_ten 2 (by decide) (by decide)
  have hof1 := example_outer_full_of reading_env link_vars_ten.vars
  have hof2 := example_outer_full_of (tie_env reading_env) link_vars_ten.vars
  refine ⟨reading_env_ok, hio, by decide, by decide, reading_merge_start, tie_merge_start,
    hof1, hof2, hthm.1 reading_merge_start hof1, hthm.2.1 tie_merge_start hof2, ?_, by decide,
    by decide, by decide, by decide⟩
  obtain ⟨w, N, h1, -, -, -, h2⟩ := hthm.2.2.1
    (merge_vars_init example_merge_param link_vars_ten.vars) 2 rfl rfl reading_merge_start
    (by decide) hof1
  exact ⟨w, N, h1, fun hv => (h2 hv).1⟩


/-! ### Every run of the merge is produced, and holds every key once -/

/-- More fuel does not change the outcome of the loop of the copy branch that ran
to its end. -/
theorem copy_run_loop_mono (act : Int) : ∀ (n : Nat) (v w : MergeVars) (cp : Int),
    copy_run_loop act n v cp = Step.next w →
    ∀ m, n ≤ m → copy_run_loop act m v cp = Step.next w := by
  intro n
  induction n with
  | zero =>
    intro v w cp h
    cases h
  | succ n ih =>
    intro v w cp h m hm
    obtain ⟨m1, rfl⟩ : ∃ m1, m = m1 + 1 := ⟨m - 1, by omega⟩
    unfold copy_run_loop at h ⊢
    by_cases hc : cp > 0
    · rw [if_pos hc] at h ⊢
      exact ih _ _ _ h m1 (by omega)
    · rw [if_neg hc] at h ⊢
      exact h

theorem copy_last_run_mono (fuel : Nat) (v1 : MergeVars) (pre : Int) (r : MergeVars × Bool)
    (h : copy_last_run fuel v1 pre = Step.next r) :
    ∀ m, fuel ≤ m → copy_last_run m v1 pre = Step.next r := by
  intro m hm
  unfold copy_last_run at h ⊢
  simp only at h ⊢
  split_ifs at h ⊢ with ha
  revert h
  cases hadd : sort_run_add_new true (v1.sp.file_contents v1.cur_outfile)
      ((v1.sp.file_contents (find_last_run_file v1.sp pre pre.toNat v1.sp.in_half)).num_pages
        (v1.sp.file_contents
          (find_last_run_file v1.sp pre pre.toNat v1.sp.in_half)).first_run) with
  | none => intro h; cases h
  | some x =>
    obtain ⟨b, oc⟩ := x
    cases b with
    | false => intro h; cases h
    | true =>
      simp only
      intro h
      split at h
      · cases h
      · rename_i v2 hl
        rw [copy_run_loop_mono _ fuel _ v2 _ hl m hm]
        exact h

theorem prepare_run_mono (fuel : Nat) (v : MergeVars) (j : Int) (r : MergeVars × Bool)
    (h : prepare_run fuel v j = Step.next r) :
    ∀ m, fuel ≤ m → prepare_run m v j = Step.next r := by
  intro m hm
  unfold prepare_run at h ⊢
  simp only at h ⊢
  split_ifs at h ⊢
  · exact copy_last_run_mono fuel _ _ r h m hm
  · exact h
  · exact h
  · exact h

/-- More fuel does not change the outcome of the loop that outputs the records
of a run when it ran to its end. -/
theorem merge_loop_mono (E : MergeEnv) : ∀ (n : Nat) (v w : MergeVars),
    merge_loop E n v = Step.next w → ∀ m, n ≤ m → merge_loop E m v = Step.next w := by
  intro n
  induction n with
  | zero =>
    intro v w h
    cases h
  | succ n ih =>
    intro v w h m hm
    obtain ⟨m1, rfl⟩ : ∃ m1, m = m1 + 1 := ⟨m - 1, by omega⟩
    unfold merge_loop at h ⊢
    cases hi : merge_iteration E v with
    | stop k p => rw [hi] at h; cases h
    | next r =>
      obtain ⟨v1, b⟩ := r
      rw [hi] at h
      cases b with
      | true => exact ih _ _ h m1 (by omega)
      | false => exact h

theorem produce_run_mono (E : MergeEnv) (fuel : Nat) (v w : MergeVars) (j : Int)
    (h : produce_run E fuel v j = Step.next w) :
    ∀ m, fuel ≤ m → produce_run E m v j = Step.next w := by
  intro m hm
  unfold produce_run at h ⊢
  cases hp : prepare_run fuel v j with
  | stop k p => rw [hp] at h; cases h
  | next r =>
    rw [hp] at h
    rw [prepare_run_mono fuel v j r hp m hm]
    obtain ⟨v1, b⟩ := r
    cases b with
    | true => exact h
    | false =>
      simp only at h ⊢
      cases hs : start_run E v1 with
      | stop k p => rw [hs] at h; cases h
      | next v4 =>
        rw [hs] at h
        simp only at h ⊢
        cases hl : merge_loop E fuel v4 with
        | stop k p => rw [hl] at h; cases h
        | next v5 =>
          rw [hl] at h
          rw [merge_loop_mono E fuel v4 v5 hl m hm]
          exact h

/-- The head of a pass of the `OUTER LOOP` that starts with `OuterFull`: the
pages of the runs hold a record each, the ledgers have room for the runs of the
pass, which are two thirds of the runs of the input half at most. -/
theorem pass_head_full (E : MergeEnv) (v : MergeVars) (c : Int)
    (hvl : v.very_last_run = false) (hpub : v.published = [])
    (hms : MergeStart E v.sp v.out_half)
    (hact : sort_get_numpages_of_active_infiles v.sp > 1) (hof : OuterFull E v c) :
    ∃ k, 1 ≤ pass_runs v ∧ PassInv E (pass_head v) (pass_runs v) k ∧
      RunFull E (pass_head v) ∧ Cap (pass_head v) c ∧
      3 * pass_runs v ≤ 2 * runs_in_half v.sp v.sp.in_half ∧
      runs_in_half (pass_head v).sp (pass_head v).out_half = 0 := by
  obtain ⟨n, k, hn1, hcnt, hpass⟩ := pass_start E v hpub hms hact
  have hcnt' : count_num_runs
      (distribute_memory v (sort_get_numpages_of_active_infiles v.sp)).sp
      (sort_get_numpages_of_active_infiles v.sp)
      (sort_get_numpages_of_active_infiles v.sp).toNat
      (distribute_memory v (sort_get_numpages_of_active_infiles v.sp)).sp.in_half 0 = n := hcnt
  have e2 : mark_last_run (distribute_memory v (sort_get_numpages_of_active_infiles v.sp)) n =
      { distribute_memory v (sort_get_numpages_of_active_infiles v.sp) with
        very_last_run := decide (n = 1) } := by
    unfold mark_last_run
    by_cases h : n = 1
    · rw [if_pos h]
      simp only [h, decide_True]
    · rw [if_neg h]
      simp only [h, decide_False]
      have : (distribute_memory v (sort_get_numpages_of_active_infiles v.sp)).very_last_run =
          false := hvl
      rw [← this]
  have hruns : pass_runs v = n := hcnt'
  have hhd : pass_head v = { distribute_memory v (sort_get_numpages_of_active_infiles v.sp) with
      very_last_run := decide (n = 1) } := by
    unfold pass_head
    simp only
    rw [hcnt', e2]
  rw [hruns, hhd]
  generalize hhead : ({ distribute_memory v (sort_get_numpages_of_active_infiles v.sp) with
        very_last_run := decide (n = 1) } : MergeVars) = head at hpass
  have hsp : head.sp = v.sp := by rw [← hhead]; rfl
  have hout : head.out_half = v.out_half := by rw [← hhead]; rfl
  have hvlh : head.very_last_run = decide (n = 1) := by rw [← hhead]
  have hcp : ∀ f, 0 ≤ f → f < v.sp.tot_tempfiles → head.cur_page f = 0 := by
    intro f hf0 hf1
    rw [← hhead]
    show (if 0 ≤ f ∧ f < v.sp.tot_tempfiles then 0 else v.cur_page f) = 0
    rw [if_pos ⟨hf0, hf1⟩]
  have hfullh : RunFull E head := half_full_head E v head hsp hms hof.full hcp hout
  have hcaph : Cap head c := by
    intro f hf0 hf1
    rw [hsp] at hf1 ⊢
    exact hof.cap f hf0 hf1
  have hh2 : 2 ≤ v.sp.half_files := by
    have := hpass.ledgers.two
    rw [hsp] at this
    exact this
  have hR : runs_in_half v.sp v.sp.in_half = v.sp.half_files * (n - 1) + k := by
    apply runs_in_half_turn v.sp v.sp.in_half n k (by omega)
    · have := hpass.ledgers.sizes
      rw [hsp] at this
      omega
    · intro i hi0 hi1
      have := hpass.ledgers.len_in i hi0 (by rw [hsp]; exact hi1)
      rw [hsp] at this
      exact this
  have hk : 1 ≤ k ∧ (n = 1 → 2 ≤ k) := by
    refine ⟨hpass.ledgers.sizes.1, fun h1 => ?_⟩
    exact (hpass.ledgers.last_out (by rw [hvlh]; simp [h1])).2.1
  have hmul : 2 * (n - 1) ≤ v.sp.half_files * (n - 1) :=
    Int.mul_le_mul_of_nonneg_right hh2 (by omega)
  have hlt : 3 * n ≤ 2 * runs_in_half v.sp v.sp.in_half := by
    rw [hR]
    by_cases h1 : n = 1
    · have := hk.2 h1
      subst h1
      simp only [sub_self, mul_zero, zero_add]
      omega
    · omega
  have hout0 : runs_in_half head.sp head.out_half = 0 := by
    apply runs_in_half_empty
    intro i hi0 hi1
    rw [hsp] at hi1 ⊢
    rw [hout]
    exact hms.empty i hi0 hi1
  exact ⟨k, hn1, hpass, hfullh, hcaph, hlt, hout0⟩

/-- After the last run of a pass that is not the final one, the state with the
halves exchanged is as `OuterFull` has it. -/
theorem pass_end_full (E : MergeEnv) (w : MergeVars) (c : Int) (hend : PassEnd E w)
    (hv : w.very_last_run = false) (hfull : RunFull E w) (hcap : Cap w c) (hc0 : 0 ≤ c)
    (hroom : c + 2 * runs_in_half w.sp w.out_half ≤ 2 ^ 24) :
    OuterFull E (exchange_halves w) c := by
  refine ⟨?_, ?_, hc0, ?_⟩
  · intro i hi0 hi1 hne q hq p hp0 hp1
    have hi1' : i < w.sp.half_files := hi1
    show 1 ≤ (w.sp.temp (w.out_half + i) p).hdr.nslots
    have hq' : RunsTo E (w.sp.temp (w.out_half + i))
        (w.sp.file_contents (w.out_half + i)).num_pages
        ((w.sp.file_contents (w.out_half + i)).last_run + 1).toNat 0 0 q := hq
    have hne' : (w.sp.file_contents (w.out_half + i)).first_run ≠ -1 := hne
    rcases hend with ⟨hv2, _⟩ | ⟨_, _, _, _, _, _, hfiles, _, _⟩
    · rw [hv] at hv2
      cases hv2
    · obtain ⟨hofi, -⟩ := hfiles i hi0 hi1'
      rcases hofi with ⟨h1, _⟩ | ⟨_, _, h3⟩
      · exact absurd h1 hne'
      · rw [Int.sub_zero] at h3
        have := RunsTo_unique E _ _ _ _ _ _ _ hq' h3
        rw [this] at hp1
        exact hfull.outs i hi0 hi1' p hp0 hp1
  · intro f hf0 hf1
    exact hcap f hf0 hf1
  · exact hroom

/-- The states at the head of the loop `PRODUCE RUNS` when all I/O succeeds: the
invariant of the loop holds, the pages of the runs hold a record each and the
ledgers have room for the runs to come. -/
theorem at_run_full (E : MergeEnv) (hE : EnvSift E) (hio : NoRefusal E) (fuel : Nat)
    (v0 : MergeVars) (c0 : Int) (hvl : v0.very_last_run = false) (hpub : v0.published = [])
    (hms : MergeStart E v0.sp v0.out_half) (hof : OuterFull E v0 c0) :
    ∀ (v : MergeVars) (j : Int), AtRun E fuel v0 v j →
      ∃ k c n, 0 ≤ c ∧ Cap v c ∧ 0 ≤ j ∧ j ≤ n ∧ c + j + 2 * n ≤ 2 ^ 24 ∧
        runs_in_half v.sp v.out_half + j = n ∧
        (1 ≤ j → PassInv E v j k ∧ RunFull E v) ∧
        (j = 0 → PassEnd E v ∧ (v.very_last_run = false → RunFull E v)) := by
  have hstart : ∀ (v : MergeVars) (c : Int), v.very_last_run = false → v.published = [] →
      MergeStart E v.sp v.out_half → sort_get_numpages_of_active_infiles v.sp > 1 →
      OuterFull E v c →
      ∃ k c n, 0 ≤ c ∧ Cap (pass_head v) c ∧ 0 ≤ pass_runs v ∧ pass_runs v ≤ n ∧
        c + pass_runs v + 2 * n ≤ 2 ^ 24 ∧
        runs_in_half (pass_head v).sp (pass_head v).out_half + pass_runs v = n ∧
        (1 ≤ pass_runs v → PassInv E (pass_head v) (pass_runs v) k ∧ RunFull E (pass_head v)) ∧
        (pass_runs v = 0 → PassEnd E (pass_head v) ∧
          ((pass_head v).very_last_run = false → RunFull E (pass_head v))) := by
    intro v c a1 a2 a3 a4 a5
    obtain ⟨k, h1, h2, h3, h4, h5, h6⟩ := pass_head_full E v c a1 a2 a3 a4 a5
    have hr := a5.room
    refine ⟨k, c, pass_runs v, a5.calls, h4, by omega, le_refl _, by omega, by rw [h6]; omega,
      fun _ => ⟨h2, h3⟩, fun h0 => by omega⟩
  intro v j h
  induction h with
  | first_pass hact => exact hstart v0 c0 hvl hpub hms hact hof
  | next_run v v1 j _ hj hpr ih =>
    obtain ⟨k, c, n, hc0, hcap, hj0, hjn, hroom, hruns, hrun, -⟩ := ih
    obtain ⟨hp, hfull⟩ := hrun (by omega)
    obtain ⟨w, N, e1, s1, s2, hcap1, hfull1, evl1, hpub1, ⟨a1, a2, a3⟩, hcnt1, hemp1⟩ :=
      produce_run_next E hE hio v j k c hp hcap hc0 (by omega) hfull
    have hw : v1 = w := by
      have g1 := produce_run_mono E fuel v v1 j hpr (max fuel N) (le_max_left _ _)
      rw [e1 (max fuel N) (le_max_right _ _)] at g1
      cases g1
      rfl
    subst hw
    have hstep : runs_in_half v1.sp v.out_half = runs_in_half v.sp v.out_half + 1 :=
      runs_in_half_step v.sp v1.sp v.out_half v.cur_outfile a1 hp.layout.outfile hcnt1
    refine ⟨k, c + 1, n, by omega, hcap1, by omega, by omega, by omega, ?_, ?_, ?_⟩
    · rw [a3, hstep]
      omega
    · intro h1
      have hp1 := s2 (by omega)
      have hvl1 : v1.very_last_run = false := by
        cases hx : v1.very_last_run with
        | false => rfl
        | true =>
          have := (hp.ledgers.last_out (by rw [← evl1]; exact hx)).1
          omega
      exact ⟨hp1, hfull1 hvl1⟩
    · intro h0
      exact ⟨s1 (by omega), hfull1⟩
  | next_pass v j _ hj hact ih =>
    obtain ⟨k, c, n, hc0, hcap, hj0, hjn, hroom, hruns, -, hend⟩ := ih
    have hj00 : j = 0 := by omega
    obtain ⟨hpe, hfull⟩ := hend hj00
    rcases pass_end_outer E v hpe with ⟨_, _, h⟩ | ⟨h1, h2, h3⟩
    · omega
    · have hv : v.very_last_run = false := h1
      have hof1 : OuterFull E (exchange_halves v) c :=
        pass_end_full E v c hpe hv (hfull hv) hcap hc0 (by omega)
      exact hstart (exchange_halves v) c h1 h2 h3 hact hof1

/-- The copy branch writes the pages of the run of the first input file to the
output file, from its current page on. -/
theorem copy_last_run_pages (E : MergeEnv) (fuel : Nat) (v1 : MergeVars) (pre : Int)
    (hled : LedgerInv E v1 1 1) (hpre : 1 ≤ pre) (r : MergeVars × Bool)
    (h : copy_last_run fuel v1 pre = Step.next r) :
    r.2 = true ∧
    pages_seq (r.1.sp.temp v1.cur_outfile) (v1.cur_page v1.cur_outfile)
        ((v1.sp.file_contents v1.sp.in_half).num_pages
          (v1.sp.file_contents v1.sp.in_half).first_run) =
      pages_seq (v1.sp.temp v1.sp.in_half) (v1.cur_page v1.sp.in_half)
        ((v1.sp.file_contents v1.sp.in_half).num_pages
          (v1.sp.file_contents v1.sp.in_half).first_run) := by
  have htwo := hled.two
  have hhalves := hled.halves
  have hco := hled.out_turn
  have hne0 : (v1.sp.file_contents v1.sp.in_half).first_run ≠ -1 := by
    have := (ledger_active E v1 1 1 hled 0 (le_refl _) (by omega)).2 (Or.inr (by omega))
    rw [add_zero] at this
    exact this
  have hact : find_last_run_file v1.sp pre pre.toNat v1.sp.in_half = v1.sp.in_half :=
    find_last_run_file_first v1.sp pre pre.toNat (by omega) hpre hne0
  have hneco : v1.sp.in_half ≠ v1.cur_outfile := by
    obtain ⟨m, c, _, hc0, hc1, hcc, _⟩ := hco
    rcases hhalves with ⟨a, b⟩ | ⟨a, b⟩ <;> omega
  have hruns := hled.runs_in 0 (le_refl _) (by omega)
  rw [add_zero] at hruns
  have hnp0 : 0 ≤ (v1.sp.file_contents v1.sp.in_half).num_pages
      (v1.sp.file_contents v1.sp.in_half).first_run := by
    unfold RunsInv at hruns
    rcases hruns with hr | ⟨_, r2, rpos, _⟩
    · exact absurd hr hne0
    · have := rpos _ (le_refl _) r2
      omega
  unfold copy_last_run at h
  simp only at h
  rw [hact, if_neg (by rcases hhalves with ⟨a, b⟩ | ⟨a, b⟩ <;> omega)] at h
  revert h
  cases hadd : sort_run_add_new true (v1.sp.file_contents v1.cur_outfile)
      ((v1.sp.file_contents v1.sp.in_half).num_pages
        (v1.sp.file_contents v1.sp.in_half).first_run) with
  | none => intro h; cases h
  | some x =>
    obtain ⟨b, oc⟩ := x
    cases b with
    | false => intro h; cases h
    | true =>
      simp only
      obtain ⟨vc, hvc⟩ : ∃ vc : MergeVars, vc = { v1 with sp := { v1.sp with
          file_contents := aset (aset v1.sp.file_contents v1.cur_outfile oc) v1.sp.in_half
            (sort_run_remove_first
              (aset v1.sp.file_contents v1.cur_outfile oc v1.sp.in_half)) } } := ⟨_, rfl⟩
      rw [← hvc]
      have c_co : vc.cur_outfile = v1.cur_outfile := by rw [hvc]
      have c_cp : vc.cur_page = v1.cur_page := by rw [hvc]
      have c_tmp : vc.sp.temp = v1.sp.temp := by rw [hvc]
      have htb : 1 ≤ vc.sp.tot_buffers := by
        have : vc.sp.tot_buffers = v1.sp.tot_buffers := by rw [hvc]
        rw [this]; have := hled.buffers; omega
      rcases copy_run_loop_spec v1.sp.in_half fuel vc
          ((v1.sp.file_contents v1.sp.in_half).num_pages
            (v1.sp.file_contents v1.sp.in_half).first_run) htb hnp0
          (by rw [c_co]; exact hneco) with ⟨s, hs⟩ | ⟨w, hw, hp⟩
      · rw [hs]
        intro h
        cases h
      · rw [hw]
        intro h
        cases h
        refine ⟨rfl, ?_⟩
        unfold pages_seq
        apply List.map_congr_left
        intro k hk
        rw [List.mem_range] at hk
        show w.sp.temp v1.cur_outfile (v1.cur_page v1.cur_outfile + (k : Int)) = _
        rw [hp.temp, c_co, c_cp, c_tmp, if_pos ⟨rfl, by omega, by omega⟩]
        congr 1
        omega

/-- The head of the body of the loop `PRODUCE RUNS` ends the run in the copy
branch only. -/
theorem prepare_run_copy (fuel : Nat) (v : MergeVars) (j : Int) (r : MergeVars × Bool)
    (h : prepare_run fuel v j = Step.next r) (hr : r.2 = true) :
    v.very_last_run = false ∧ j = 1 ∧ sort_get_numpages_of_active_infiles v.sp = 1 ∧
      copy_last_run fuel { v with act_infiles := sort_get_numpages_of_active_infiles v.sp }
        v.act_infiles = Step.next r := by
  unfold prepare_run at h
  by_cases hc : v.very_last_run = false ∧ j = 1
  · rw [if_pos hc] at h
    simp only at h
    by_cases hne : sort_get_numpages_of_active_infiles v.sp ≠ v.act_infiles
    · rw [if_pos hne] at h
      by_cases h1 : sort_get_numpages_of_active_infiles v.sp = 1
      · rw [if_pos h1] at h
        exact ⟨hc.1, hc.2, h1, h⟩
      · rw [if_neg h1] at h
        by_cases h0 : sort_get_numpages_of_active_infiles v.sp = 0
        · rw [if_pos h0] at h
          cases h
        · rw [if_neg h0] at h
          cases h
          cases hr
    · rw [if_neg hne] at h
      cases h
      cases hr
  · rw [if_neg hc] at h
    cases h
    cases hr

/-- The records of the first run of an input file are in strictly ascending
order of their keys. -/
theorem run_records_asc (E : MergeEnv) (v : MergeVars) (j k : Int) (hled : LedgerInv E v j k)
    (i : Int) (hi0 : 0 ≤ i) (hi1 : i < v.sp.half_files)
    (hne : (v.sp.file_contents (v.sp.in_half + i)).first_run ≠ -1) :
    KeyAsc E (run_records v i) := by
  have hruns := hled.runs_in i hi0 hi1
  unfold RunsInv at hruns
  rcases hruns with hr | ⟨r1, r2, _, q, hq⟩
  · exact absurd hr hne
  · have e : ((v.sp.file_contents (v.sp.in_half + i)).last_run -
        (v.sp.file_contents (v.sp.in_half + i)).first_run + 1).toNat =
        ((v.sp.file_contents (v.sp.in_half + i)).last_run -
        (v.sp.file_contents (v.sp.in_half + i)).first_run).toNat + 1 := by omega
    rw [e] at hq
    exact hq.2.1.2

/-- C32, amended: in every run of `sort_exphase_merge_elim_dup`, started on runs
that went to the input files in turn (`MergeStart`), at the head `v` of the body
of the loop `PRODUCE RUNS` with the run counter `j` (`AtRun`). Whenever the run is
produced by the loop that outputs the smallest record: at the head of every pass
of that loop, of two nodes of the list of the smallest elements whose records
compare equal, the one behind is marked `is_duplicated`, or the one before is
the first node of the list and is marked (the last record of an input page that
equals the second smallest element enters as a marked first node); a first node
that is marked is not sent out, the pass goes on at once with the move of its
input to the next record. And when all I/O succeeds (`NoRefusal`), the pages of
the runs holding a record each and the ledgers having room (`OuterFull`), the
run is produced, for every bound on the iterations from some bound on: in the copy
branch (`r.2 = true`) the first input file is the only one with a run, and every
record of its run compares equal to exactly one of the records of the run
written to the output file; otherwise the loop that outputs the records runs to
its end, and every record of the runs of the active input files compares equal
to exactly one of the records sent out in the run. -/
theorem equal_records_sent_once (E : MergeEnv) (hE : EnvOK E) (fuel : Nat) (sp : SortParam)
    (junk : MergeVars) (hms : MergeStart E sp (if sp.in_half = 0 then sp.half_files else 0))
    (v : MergeVars) (j : Int) (hat : AtRun E fuel (merge_vars_init sp junk) v j)
    (hj : j > 0) :
    (∀ v1 v4, prepare_run fuel v j = Step.next (v1, false) → start_run E v1 = Step.next v4 →
      ∀ n u, merge_loop_at E n v4 = some u →
        (∀ l1 a l2 b l3, u.sr_list = l1 ++ a :: (l2 ++ b :: l3) →
          E.compare (u.data a.rec_pos) (u.data b.rec_pos) = 0 →
          b.is_duplicated = true ∨ (l1 = [] ∧ a.is_duplicated = true)) ∧
        (∀ h t, u.sr_list = h :: t → h.is_duplicated = true →
          merge_iteration E u = proceed_input E u h t)) ∧
    (∀ c, NoRefusal E → OuterFull E (merge_vars_init sp junk) c →
      ∃ r N, (∀ f, N ≤ f → prepare_run f v j = Step.next r) ∧
        (r.2 = true →
          (∀ i, 1 ≤ i → i < v.sp.half_files →
            (v.sp.file_contents (v.sp.in_half + i)).first_run = -1) ∧
          ∀ x ∈ run_records v 0,
            ((copied_keys E v r.1).filter
              (fun l => decide (E.compare l (E.key x) = 0))).length = 1) ∧
        (r.2 = false → ∃ v4 w M, start_run E r.1 = Step.next v4 ∧
          (∀ f, M ≤ f → merge_loop E f v4 = Step.next w) ∧
          ∀ i, 0 ≤ i → i < r.1.act_infiles → ∀ x ∈ run_records r.1 i,
            ((sent_keys E w).filter
              (fun l => decide (E.compare l (E.key x) = 0))).length = 1)) := by
  have hsent : ∀ (v1 v4 : MergeVars), RunStartInv E v1 → start_run E v1 = Step.next v4 →
      ∀ f w, merge_loop E f v4 = Step.next w →
      ∀ i, 0 ≤ i → i < v1.act_infiles → ∀ r ∈ run_records v1 i,
        ((sent_keys E w).filter (fun l => decide (E.compare l (E.key r) = 0))).length = 1 := by
    intro v1 v4 hstart hst f w hw i hi0 hi1 r hr
    have hsr := start_run_spec E hE.sift v1 hstart
    rw [hst] at hsr
    obtain ⟨hinv4, hfr4⟩ := hsr
    have hcov4 := start_run_cover E hE v1 v4 hstart hst
    obtain ⟨EM1, q1, q2, q3⟩ := merge_loop_cover E hE (run_records v1) f v4 [] hinv4 hcov4 w hw
    have hact : w.act_infiles = v1.act_infiles := by
      have h1 := output_loop_spec E hE.sift f v4 [] hinv4
      rw [hw] at h1
      obtain ⟨_, _, h2, _⟩ := h1
      exact h2.static.act_infiles.trans hfr4.static.act_infiles
    rw [← RunLoopInv.sent E w EM1 q1]
    apply filter_eqv_length E.compare hE.order (E.key r) EM1 (RunLoopInv.sent_asc E w EM1 q1)
    rcases q2.recs i hi0 (by rw [hact]; exact hi1) r hr with ⟨⟨n, hn, _⟩, _⟩ | hc
    · rw [q3] at hn; cases hn
    · rcases hc with hc | ⟨n, hn, _⟩
      · exact hc
      · rw [q3] at hn; cases hn
  refine ⟨?_, ?_⟩
  · intro v1 v4 hprep hst n u hu
    obtain ⟨k, hp⟩ := (at_run_inv E hE.sift fuel (merge_vars_init sp junk) rfl rfl hms v j hat).1
      (by omega)
    have hprs := prepare_run_spec E fuel v j k hp
    rw [hprep] at hprs
    obtain ⟨hstart, _, _, _⟩ := hprs.1 rfl
    have hsr := start_run_spec E hE.sift v1 hstart
    rw [hst] at hsr
    obtain ⟨hinv4, hfr4⟩ := hsr
    have hcov4 := start_run_cover E hE v1 v4 hstart hst
    obtain ⟨EM1, q1, _⟩ := merge_loop_at_inv E hE (run_records v1) n v4 [] hinv4 hcov4 u hu
    refine ⟨?_, ?_⟩
    · intro l1 a l2 b l3 hl he
      exact equal_nodes_marked E.compare u.data EM1 u.sr_list l1 l2 l3 a b q1.order hl he
    · intro h t hl hd
      unfold merge_iteration
      rw [hl]
      simp only
      unfold emit_record
      rw [if_neg (by rw [hd]; simp)]
  · intro c0 hio hof
    obtain ⟨k, c, n, hc0, hcap, _, hjn, hroom, _, hrun, -⟩ :=
      at_run_full E hE.sift hio fuel (merge_vars_init sp junk) c0 rfl rfl hms hof v j hat
    obtain ⟨hp, hfull⟩ := hrun (by omega)
    obtain ⟨r, N, e, hfullr, -, -⟩ := prepare_run_next E v j k c hp hcap hc0 (by omega) hfull
    refine ⟨r, N, e, ?_, ?_⟩
    · intro hr2
      obtain ⟨hv, hj1, hact1, hcopy⟩ := prepare_run_copy N v j r (e N (le_refl _)) hr2
      have hled := hp.ledgers
      rw [hj1] at hled
      have hk1 : k = 1 := by
        have := ledger_count E v k hled
        omega
      rw [hk1] at hled
      have hled1 : LedgerInv E { v with act_infiles := sort_get_numpages_of_active_infiles v.sp }
          1 1 := LedgerInv_congr E v _ 1 1 hled rfl rfl rfl rfl rfl rfl
      have hpre : 1 ≤ v.act_infiles := by
        rw [hp.act_all hv]
        have := hled.two
        omega
      obtain ⟨-, hpages⟩ := copy_last_run_pages E N _ v.act_infiles hled1 hpre r hcopy
      have hpages' : pages_seq (r.1.sp.temp v.cur_outfile) (v.cur_page v.cur_outfile)
          ((v.sp.file_contents v.sp.in_half).num_pages
            (v.sp.file_contents v.sp.in_half).first_run) =
        pages_seq (v.sp.temp v.sp.in_half) (v.cur_page v.sp.in_half)
          ((v.sp.file_contents v.sp.in_half).num_pages
            (v.sp.file_contents v.sp.in_half).first_run) := hpages
      have htwo := hled.two
      refine ⟨?_, ?_⟩
      · intro i hi1 hi2
        by_contra hne
        have := (ledger_active E v 1 1 hled i (by omega) hi2).1 hne
        omega
      · intro x hx
        have hne0 : (v.sp.file_contents (v.sp.in_half + 0)).first_run ≠ -1 :=
          (ledger_active E v 1 1 hled 0 (le_refl _) (by omega)).2 (Or.inr (by omega))
        have hasc := run_records_asc E v 1 1 hled 0 (le_refl _) (by omega) hne0
        have hck : copied_keys E v r.1 = (run_records v 0).map E.key := by
          unfold copied_keys run_records
          rw [hpages', add_zero]
        rw [hck]
        apply filter_eqv_length E.compare hE.order (E.key x)
        · exact List.pairwise_map.2 hasc
        · exact ⟨E.key x, List.mem_map_of_mem _ hx, hE.order.refl _⟩
    · intro hr2
      have hprs := prepare_run_spec E N v j k hp
      rw [e N (le_refl _)] at hprs
      obtain ⟨hstart, _, _, _⟩ := hprs.1 hr2
      obtain ⟨v4, hst, hinv4, _, hfull4, _, hne4⟩ :=
        start_run_next E hE.sift hio r.1 hstart hfullr
      obtain ⟨w, EM1, hloop, _⟩ := merge_loop_next E hE.sift hio (records_left v4) v4 [] hinv4
        hfull4 hne4 (le_refl _)
      refine ⟨v4, w, records_left v4, hst, hloop, ?_⟩
      exact hsent r.1 v4 hstart hst (records_left v4) w (hloop _ (le_refl _))

/-- C32 at a concrete input: the two runs of the first pass of the merge of the
runs `[1, 3]`, `[2, 3]`, `[2, 3]` of the example of the specification, on a host
that reads every long record back and whose consumer accepts every record. The
first run is the merge of `[1, 3]` and `[2, 3]`: with the bound 8 on the iterations
the loop that outputs the records runs to its end and sends the keys 1, 2, 3 out.
The second run is the copy of `[2, 3]`, the only run left. -/
theorem equal_records_sent_once_witness :
    EnvOK reading_env ∧ MergeStart reading_env example_merge_param 2 ∧
    NoRefusal reading_env ∧
    OuterFull reading_env (merge_vars_init example_merge_param merge_vars_ten) 2 ∧
    pass_runs (merge_vars_init example_merge_param merge_vars_ten) = 2 ∧
    ((∀ v1 v4, prepare_run 8 (pass_head (merge_vars_init example_merge_param merge_vars_ten))
          (pass_runs (merge_vars_init example_merge_param merge_vars_ten)) =
            Step.next (v1, false) →
        start_run reading_env v1 = Step.next v4 →
        ∀ n u, merge_loop_at reading_env n v4 = some u →
          (∀ l1 a l2 b l3, u.sr_list = l1 ++ a :: (l2 ++ b :: l3) →
            reading_env.compare (u.data a.rec_pos) (u.data b.rec_pos) = 0 →
            b.is_duplicated = true ∨ (l1 = [] ∧ a.is_duplicated = true)) ∧
          (∀ h t, u.sr_list = h :: t → h.is_duplicated = true →
            merge_iteration reading_env u = proceed_input reading_env u h t)) ∧
      ∃ r N, (∀ f, N ≤ f →
          prepare_run f (pass_head (merge_vars_init example_merge_param merge_vars_ten))
            (pass_runs (merge_vars_init example_merge_param merge_vars_ten)) = Step.next r) ∧
        (r.2 = true →
          (∀ i, 1 ≤ i →
            i < (pass_head (merge_vars_init example_merge_param merge_vars_ten)).sp.half_files →
            ((pass_head (merge_vars_init example_merge_param merge_vars_ten)).sp.file_contents
              ((pass_head (merge_vars_init example_merge_param
                merge_vars_ten)).sp.in_half + i)).first_run = -1) ∧
          ∀ x ∈ run_records (pass_head (merge_vars_init example_merge_param merge_vars_ten)) 0,
            ((copied_keys reading_env
                (pass_head (merge_vars_init example_merge_param merge_vars_ten)) r.1).filter
              (fun l => decide (reading_env.compare l (reading_env.key x) = 0))).length = 1) ∧
        (r.2 = false → ∃ v4 w M, start_run reading_env r.1 = Step.next v4 ∧
          (∀ f, M ≤ f → merge_loop reading_env f v4 = Step.next w) ∧
          ∀ i, 0 ≤ i → i < r.1.act_infiles → ∀ x ∈ run_records r.1 i,
            ((sent_keys reading_env w).filter
              (fun l => decide (reading_env.compare l (reading_env.key x) = 0))).length = 1)) ∧
    prepare_run 8 (pass_head (merge_vars_init example_merge_param merge_vars_ten))
      (pass_runs (merge_vars_init example_merge_param merge_vars_ten)) =
        Step.next (pass_head (merge_vars_init example_merge_param merge_vars_ten), false) ∧
    (match start_run reading_env
        (pass_head (merge_vars_init example_merge_param merge_vars_ten)) with
      | Step.next v4 =>
        (match merge_loop reading_env 8 v4 with
          | Step.next w => some (sent_keys reading_env w,
              (pass_head (merge_vars_init example_merge_param merge_vars_ten)).act_infiles,
              (run_records (pass_head (merge_vars_init example_merge_param merge_vars_ten))
                0).map reading_env.key,
              (run_records (pass_head (merge_vars_init example_merge_param merge_vars_ten))
                1).map reading_env.key)
          | Step.stop _ _ => none)
      | Step.stop _ _ => none) = some ([[1], [2], [3]], 2, [[1], [3]], [[2], [3]]) ∧
    (∃ v1, produce_run reading_env 8
        (pass_head (merge_vars_init example_merge_param merge_vars_ten))
        (pass_runs (merge_vars_init example_merge_param merge_vars_ten)) = Step.next v1 ∧
      ∃ r N, (∀ f, N ≤ f → prepare_run f v1
          (pass_runs (merge_vars_init example_merge_param merge_vars_ten) - 1) = Step.next r) ∧
        (r.2 = true →
          (∀ i, 1 ≤ i → i < v1.sp.half_files →
            (v1.sp.file_contents (v1.sp.in_half + i)).first_run = -1) ∧
          ∀ x ∈ run_records v1 0,
            ((copied_keys reading_env v1 r.1).filter
              (fun l => decide (reading_env.compare l (reading_env.key x) = 0))).length = 1)) ∧
    (match produce_run reading_env 8
        (pass_head (merge_vars_init example_merge_param merge_vars_ten))
        (pass_runs (merge_vars_init example_merge_param merge_vars_ten)) with
      | Step.next v1 =>
        (match prepare_run 8 v1
            (pass_runs (merge_vars_init example_merge_param merge_vars_ten) - 1) with
          | Step.next (w, b) => some (b, copied_keys reading_env v1 w,
              (run_records v1 0).map reading_env.key)
          | Step.stop _ _ => none)
      | Step.stop _ _ => none) = some (true, [[2], [3]], [[2], [3]]) := by
  have hio : NoRefusal reading_env := ⟨fun _ _ => rfl, fun d h => by cases h⟩
  have hof := example_outer_full_of reading_env merge_vars_ten
  have h1 := equal_records_sent_once reading_env reading_env_ok 8 example_merge_param
    merge_vars_ten reading_merge_start _ _ (AtRun.first_pass (by decide)) (by decide)
  have hchk : (match produce_run reading_env 8
      (pass_head (merge_vars_init example_merge_param merge_vars_ten))
      (pass_runs (merge_vars_init example_merge_param merge_vars_ten)) with
    | Step.next _ => true
    | Step.stop _ _ => false) = true := by decide
  refine ⟨reading_env_ok, reading_merge_start, hio, hof, by decide, ⟨h1.1, h1.2 2 hio hof⟩,
    ?_, by decide, ?_, by decide⟩
  · unfold prepare_run
    rw [if_neg (by decide)]
  · cases hp : produce_run reading_env 8
        (pass_head (merge_vars_init example_merge_param merge_vars_ten))
        (pass_runs (merge_vars_init example_merge_param merge_vars_ten)) with
    | stop s p => rw [hp] at hchk; cases hchk
    | next v1 =>
      have h2 := equal_records_sent_once reading_env reading_env_ok 8 example_merge_param
        merge_vars_ten reading_merge_start v1 _
        (AtRun.next_run _ v1 _ (AtRun.first_pass (by decide)) (by decide) hp) (by decide)
      obtain ⟨r, N, e, hc, -⟩ := h2.2 2 hio hof
      exact ⟨v1, rfl, r, N, e, hc⟩

end ExternalSort
